import Mathlib

/-!
# MPFR addition kernel (`add.c`): shallow embedding

Limbs are natural numbers below `2 ^ W`, where `W` is `BITS_PER_MP_LIMB`.
A significand buffer is a list of limbs, least significant limb first (GMP order).
The exponent difference that `mpfr_add` stores in its `int` variable `diff_exp` is reduced
modulo `2 ^ 32`; the other C `int` variables are unbounded integers.
Undefined behaviour of the C code (a shift by a count outside `0 .. W-1`, an access
outside a buffer, the negation of `INT_MIN`) is an explicit `Fault`.
-/

namespace Mpfr

/-- Rounding modes (`mp_rnd_t`). -/
inductive mp_rnd_t
  | GMP_RNDN
  | GMP_RNDZ
  | GMP_RNDU
  | GMP_RNDD
deriving DecidableEq

/-- Ways in which an execution of the C code leaves defined behaviour. -/
inductive Fault
  | shift
  | index
  | fuel
  | overflow
deriving DecidableEq

/-- The `__mpfr_struct` record: precision in bits, sign bit, NaN flag, exponent and
the limb buffer `MANT(x)[0 .. ABSSIZE(x)-1]`. -/
structure mpfr_t where
  prec : Nat
  neg : Bool
  nan : Bool
  exp : Int
  mant : List Nat
deriving DecidableEq

open mp_rnd_t

/-! ## Limb and buffer primitives -/

/-- Read `p[i]`. -/
def rd (p : List Nat) (i : Int) : Except Fault Nat :=
  if 0 ≤ i then
    match p[i.toNat]? with
    | some x => .ok x
    | none => .error Fault.index
  else .error Fault.index

/-- Write `p[i] = v`. -/
def wr (p : List Nat) (i : Int) (v : Nat) : Except Fault (List Nat) :=
  if 0 ≤ i ∧ i.toNat < p.length then .ok (p.set i.toNat v) else .error Fault.index

/-- The `n` limbs `p[off .. off+n-1]`. -/
def seg (p : List Nat) (off n : Int) : Except Fault (List Nat) :=
  if 0 ≤ off ∧ 0 ≤ n ∧ off.toNat + n.toNat ≤ p.length then
    .ok ((p.drop off.toNat).take n.toNat)
  else .error Fault.index

/-- Overwrite `p[off .. off+|s|-1]` with `s`. -/
def put (p : List Nat) (off : Int) (s : List Nat) : Except Fault (List Nat) :=
  if 0 ≤ off ∧ off.toNat + s.length ≤ p.length then
    .ok (p.take off.toNat ++ s ++ p.drop (off.toNat + s.length))
  else .error Fault.index

/-- C `x << n` on a limb. -/
def shl (W : Nat) (x : Nat) (n : Int) : Except Fault Nat :=
  if 0 ≤ n ∧ n < W then .ok ((x * 2 ^ n.toNat) % 2 ^ W) else .error Fault.shift

/-- C `x >> n` on a limb. -/
def shr (W : Nat) (x : Nat) (n : Int) : Except Fault Nat :=
  if 0 ≤ n ∧ n < W then .ok (x / 2 ^ n.toNat) else .error Fault.shift

/-- C `~x` on a limb. -/
def lnot (W : Nat) (x : Nat) : Nat := 2 ^ W - 1 - x % 2 ^ W

/-- C `-x` on a limb. -/
def lneg (W : Nat) (x : Nat) : Nat := (2 ^ W - x % 2 ^ W) % 2 ^ W

/-- C `(long) x > 0` for a limb `x`. -/
def spos (W : Nat) (x : Nat) : Bool := decide (0 < x ∧ x < 2 ^ (W - 1))

/-- C `(long) x < 0` for a limb `x`. -/
def sneg (W : Nat) (x : Nat) : Bool := decide (2 ^ (W - 1) ≤ x)

/-- Value of a limb list, least significant limb first. -/
def limbsVal (W : Nat) : List Nat → Nat
  | [] => 0
  | x :: xs => x + 2 ^ W * limbsVal W xs

/-- The `n` low limbs of `v`. -/
def toLimbs (W : Nat) : Nat → Nat → List Nat
  | 0, _ => []
  | n + 1, v => v % 2 ^ W :: toLimbs W n (v / 2 ^ W)

/-- GMP `mpn_add_1` on one limb: `(sum limb, carry)`. -/
def add_1 (W : Nat) (x y : Nat) : Nat × Nat := ((x + y) % 2 ^ W, (x + y) / 2 ^ W)

/-- GMP `mpn_sub_1` on one limb: `(difference limb, borrow)`. -/
def sub_1 (W : Nat) (x y : Nat) : Nat × Nat :=
  if y ≤ x then (x - y, 0) else (x + 2 ^ W - y, 1)

/-- GMP `mpn_add_1 (p+off, p+off, n, x)`: in place, returns the buffer and the carry. -/
def mpn_add_1 (W : Nat) (p : List Nat) (off n : Int) (x : Nat) :
    Except Fault (List Nat × Nat) := do
  let s ← seg p off n
  let v := limbsVal W s + x
  let p ← put p off (toLimbs W s.length v)
  pure (p, v / 2 ^ (W * s.length))

/-- GMP `mpn_add_n (p+off, p+off, q+qoff, n)`: in place, returns the buffer and the carry. -/
def mpn_add_n (W : Nat) (p : List Nat) (off : Int) (q : List Nat) (qoff n : Int) :
    Except Fault (List Nat × Nat) := do
  let s ← seg p off n
  let t ← seg q qoff n
  let v := limbsVal W s + limbsVal W t
  let p ← put p off (toLimbs W s.length v)
  pure (p, v / 2 ^ (W * s.length))

/-- GMP `mpn_rshift (p+off, q+qoff, n, cnt)`; the count must lie in `1 .. W-1`.  Returns the
buffer and the bits shifted out, in the high bits of a limb. -/
def mpn_rshift (W : Nat) (p : List Nat) (off : Int) (q : List Nat) (qoff n cnt : Int) :
    Except Fault (List Nat × Nat) := do
  let t ← seg q qoff n
  if 1 ≤ cnt ∧ cnt < W then
    let v := limbsVal W t
    let p ← put p off (toLimbs W t.length (v / 2 ^ cnt.toNat))
    pure (p, (v % 2 ^ cnt.toNat) * 2 ^ (W - cnt.toNat))
  else .error Fault.shift

/-- GMP `mpn_lshift (p+off, q+qoff, n, cnt)`; the count must lie in `1 .. W-1`.  Returns the
buffer and the bits shifted out, in the low bits of a limb. -/
def mpn_lshift (W : Nat) (p : List Nat) (off : Int) (q : List Nat) (qoff n cnt : Int) :
    Except Fault (List Nat × Nat) := do
  let t ← seg q qoff n
  if 1 ≤ cnt ∧ cnt < W then
    let v := limbsVal W t * 2 ^ cnt.toNat
    let p ← put p off (toLimbs W t.length v)
    pure (p, v / 2 ^ (W * t.length))
  else .error Fault.shift

/-- `MPN_COPY (p+off, q+qoff, n)`. -/
def MPN_COPY (p : List Nat) (off : Int) (q : List Nat) (qoff n : Int) :
    Except Fault (List Nat) := do
  let t ← seg q qoff n
  put p off t

/-- `MPN_ZERO (p+off, n)`. -/
def MPN_ZERO (p : List Nat) (off n : Int) : Except Fault (List Nat) :=
  if 0 ≤ n then put p off (List.replicate n.toNat 0) else .error Fault.index

/-! ## Header macros -/

/-- Modelled from the spec: the header macro `MPFR_SIGN` is not part of the sources; the sign
of a value is `+1` or `-1`. -/
def MPFR_SIGN (x : mpfr_t) : Int := if x.neg then -1 else 1

/-- Modelled from the spec: the header macro `CHANGE_SIGN` is not part of the sources; it
flips the sign. -/
def CHANGE_SIGN (x : mpfr_t) : mpfr_t := { x with neg := !x.neg }

/-- Modelled from the spec: the header macro `ISNONNEG` is not part of the sources. -/
def ISNONNEG (x : mpfr_t) : Bool := decide (0 ≤ MPFR_SIGN x)

/-- Modelled from the spec: the header macro `ISNEG` is not part of the sources. -/
def ISNEG (x : mpfr_t) : Bool := decide (MPFR_SIGN x < 0)

/-- Modelled from the spec: the header macro `FLAG_NAN` is not part of the sources. -/
def FLAG_NAN (x : mpfr_t) : Bool := x.nan

/-- Modelled from the spec: the header macro `SET_NAN` is not part of the sources; it makes
the value a NaN. -/
def SET_NAN (x : mpfr_t) : mpfr_t := { x with nan := true }

/-- Modelled from the spec: the header macro `NOTZERO` is not part of the sources; a value is
zero when the top limb of its (normalised) significand is zero.  The macro reads
`MANT(x)[(PREC(x)-1)/BITS_PER_MP_LIMB]`. -/
def NOTZERO (W : Nat) (x : mpfr_t) : Except Fault Nat :=
  rd x.mant (((x.prec - 1) / W : Nat) : Int)

/-- `ABSSIZE(x)`: number of allocated limbs. -/
def ABSSIZE (x : mpfr_t) : Int := x.mant.length

/-- Number of significant limbs, `(PREC(x)-1)/BITS_PER_MP_LIMB + 1`. -/
def nlimbs (W : Nat) (x : mpfr_t) : Int := (((x.prec - 1) / W + 1 : Nat) : Int)

/-! ## Loops of `mpfr_add1` -/

/-- Line 121: `while (cp<bp && cc==0) cc = *++cp;` with `i` the offset of `cp` and
`top = (PREC(c)-1)/BITS_PER_MP_LIMB`. -/
def loop121 (cp : List Nat) (top : Int) : Nat → Int → Nat → Except Fault Nat
  | 0, _, _ => .error Fault.fuel
  | n + 1, i, cc =>
    if i < top ∧ cc = 0 then do
      let x ← rd cp (i + 1)
      loop121 cp top n (i + 1) x
    else .ok cc

/-- State of the loop at lines 164-181. -/
structure S164 where
  cout : Int
  cc : Nat
  k : Int
  cn : Int
  dif : Int
  c2old : Nat

/-- Lines 164-181. -/
def loop164 (W : Nat) (bp cp : List Nat) (sh : Int) : Nat → S164 → Except Fault S164
  | 0, _ => .error Fault.fuel
  | n + 1, s =>
    if s.cout = 0 ∧ (s.k ≠ 0 ∨ s.cn ≠ 0) then do
      let cout : Int := if s.cc > 1 then 2 else s.cc
      let cc ← (if s.k ≠ 0 then rd bp (s.k - 1) else pure 0)
      let k := if s.k ≠ 0 then s.k - 1 else s.k
      let t ←
        (if sh = 0 then do
          let h ← shl W 1 ((W : Int) - 1)
          let r := sub_1 W cc h
          pure (r.1, cout - r.2)
        else pure (cc, cout))
      let c2 ← shl W s.c2old s.dif
      let u ←
        (if s.cn ≠ 0 ∧ 0 ≤ s.dif then do
          let c2old ← rd cp (s.cn - 1)
          let t ← shr W c2old ((W : Int) - s.dif)
          pure ((c2 + t) % 2 ^ W, s.cn - 1, c2old, s.dif)
        else pure (c2, s.cn, s.c2old, s.dif + W))
      let r := add_1 W t.1 u.1
      loop164 W bp cp sh n
        { cout := t.2 + r.2, cc := r.1, k := k, cn := u.2.1, dif := u.2.2.2, c2old := u.2.2.1 }
    else .ok s

/-- State of the loop at lines 296-301. -/
structure S296 where
  cout : Nat
  cc : Nat
  k : Int
  kc : Int

/-- Lines 296-301. -/
def loop296 (W : Nat) (bp cp : List Nat) (dif : Int) : Nat → S296 → Except Fault S296
  | 0, _ => .error Fault.fuel
  | n + 1, s =>
    if (s.cout = 0 ∨ s.cout = 2 ^ W - 1) ∧ s.k ≠ 0 ∧ s.kc ≠ 0 then do
      let kc := s.kc - 1
      let k := s.k - 1
      let x ← rd bp k
      let hi ← rd cp (kc + 1)
      let hi ← shl W hi ((W : Int) - dif)
      let lo ← rd cp kc
      let lo ← shr W lo dif
      let r := add_1 W x ((hi + lo) % 2 ^ W)
      let cout := (s.cout + r.2) % 2 ^ W
      let cout := if cout = 0 ∨ lnot W cout = 0 then r.1 else cout
      loop296 W bp cp dif n { cout := cout, cc := r.1, k := k, kc := kc }
    else .ok s

/-- Lines 313 and 363: `while (k && x==0) x = bp[--k];`. -/
def loopdown (bp : List Nat) : Nat → Int → Nat → Except Fault (Int × Nat)
  | 0, _, _ => .error Fault.fuel
  | n + 1, k, x =>
    if k ≠ 0 ∧ x = 0 then do
      let y ← rd bp (k - 1)
      loopdown bp n (k - 1) y
    else .ok (k, x)

/-! ## `mpfr_add1` -/

/-- Labels reached by the `goto`s of `mpfr_add1`; `to_nearest` carries the live locals
`bp`, `bn`, `k`, `dif`. -/
inductive Goto
  | to_nearest (bp : List Nat) (bn : Int) (k : Int) (dif : Int)
  | add_one_ulp
  | end_of_add

/-- The rounding direction test of lines 129-130, 184-185 and 270-271 without the
round-to-nearest disjunct. -/
def away (b : mpfr_t) (rnd_mode : mp_rnd_t) : Bool :=
  (ISNONNEG b && decide (rnd_mode = GMP_RNDU)) || (ISNEG b && decide (rnd_mode = GMP_RNDD))

/-- Lines 102-136: the rounding decision after `b` has been copied into `a`.  `nzc`
evaluates `NOTZERO(c)` on the current contents of the destination buffer. -/
def far_copy_goto (W : Nat) (pa : Nat) (sh an : Int) (ap cp : List Nat) (pc : Nat)
    (nzc : List Nat → Except Fault Nat) (b : mpfr_t) (rnd_mode : mp_rnd_t) (diff_exp : Int) :
    Except Fault Goto := do
  if rnd_mode = GMP_RNDN then
    if diff_exp = pa then
      let z ← nzc ap
      if z ≠ 0 then
        let c0 ← rd cp 0
        let h ← shl W 1 ((W : Int) - 1)
        let cc := (sub_1 W c0 h).1
        let top : Int := (((pc - 1) / W : Nat) : Int)
        let cc ← (if cc = 0 then loop121 cp top (top.toNat + 1) 0 cc else pure cc)
        if cc ≠ 0 then pure Goto.add_one_ulp
        else
          let t ← rd ap (an - 1)
          let m ← shl W 1 sh
          if t &&& m ≠ 0 then pure Goto.add_one_ulp else pure Goto.end_of_add
      else pure Goto.end_of_add
    else pure Goto.end_of_add
  else if away b rnd_mode then
    let z ← nzc ap
    if z ≠ 0 then pure Goto.add_one_ulp else pure Goto.end_of_add
  else pure Goto.end_of_add

/-- Lines 96-99: `b` is copied into the upper limbs of `a` and the lower limbs are
cleared. -/
def far_copy_fill (an bn : Int) (ap bp : List Nat) : Except Fault (List Nat) := do
  let ap ← MPN_COPY ap (an - bn) bp 0 bn
  MPN_ZERO ap 0 (an - bn)

/-- Lines 94-137: `diff_exp >= PREC(a)` and `PREC(b) <= PREC(a)`: `b` is copied into the
upper limbs of `a`, the lower limbs are cleared, then `c` decides the rounding. -/
def far_copy (W : Nat) (pa : Nat) (sh an bn : Int) (ap bp cp : List Nat) (pc : Nat)
    (nzc : List Nat → Except Fault Nat) (b : mpfr_t) (rnd_mode : mp_rnd_t) (diff_exp : Int) :
    Except Fault (List Nat × Goto) := do
  let ap ← far_copy_fill an bn ap bp
  let g ← far_copy_goto W pa sh an ap cp pc nzc b rnd_mode diff_exp
  pure (ap, g)

/-- Lines 147-151: the low `sh` bits of `*ap` are moved into `cc`.  Returns the buffer and
`cc`. -/
def take_low (W : Nat) (sh : Int) (ap : List Nat) : Except Fault (List Nat × Nat) := do
  let a0 ← rd ap 0
  let m ← shl W 1 sh
  let cc := a0 &&& (m - 1)
  let ap ← wr ap 0 (a0 &&& lnot W cc)
  pure (ap, cc)

/-- Lines 153-189: the rounding decision of the branch `PREC(b) > PREC(a)`, from the bits
`cc` truncated from `b` and the limbs of `c`. -/
def far_round_goto (W : Nat) (sh k cn dif : Int) (cc : Nat) (ap bp cp : List Nat)
    (b : mpfr_t) (rnd_mode : mp_rnd_t) : Except Fault Goto := do
  let dif := dif + sh
  let s1 ←
    (if 0 < dif then do
      let c2old ← rd cp (cn - 1)
      let t ← shr W c2old ((W : Int) - dif)
      let r := add_1 W cc t
      pure (cn - 1, c2old, r.1, (r.2 : Int))
    else pure (cn, 0, cc, (0 : Int)))
  let cn := s1.1
  let c2old := s1.2.1
  let s2 ←
    (if sh ≠ 0 ∧ rnd_mode = GMP_RNDN then do
      let h ← shl W 1 (sh - 1)
      let r := sub_1 W s1.2.2.1 h
      pure (r.1, s1.2.2.2 - r.2)
    else pure (s1.2.2.1, s1.2.2.2))
  let cc := s2.1
  let cout := s2.2
  let s ←
    (if cout = 0 then
      loop164 W bp cp sh (k.toNat + cn.toNat + 1)
        { cout := cout, cc := cc, k := k, cn := cn, dif := dif + W, c2old := c2old }
    else pure { cout := cout, cc := cc, k := k, cn := cn, dif := dif, c2old := c2old })
  let cout : Int := if s.cout = 0 then (if s.cc ≠ 0 then 1 else 0) else s.cout
  let sign : Bool := away b rnd_mode || decide (rnd_mode = GMP_RNDN)
  if sign ∧ 0 < cout then pure Goto.add_one_ulp
  else if rnd_mode = GMP_RNDN ∧ cout = 0 then
    let a0 ← rd ap 0
    let m ← shl W 1 sh
    if a0 &&& m ≠ 0 then pure Goto.add_one_ulp else pure Goto.end_of_add
  else pure Goto.end_of_add

/-- Lines 138-191: `diff_exp >= PREC(a)` and `PREC(b) > PREC(a)`: the upper limbs of `b` are
copied into `a`, its low bits are truncated, then `b + c` is rounded. -/
def far_round (W : Nat) (sh an bn cn dif : Int) (ap bp cp : List Nat)
    (b : mpfr_t) (rnd_mode : mp_rnd_t) : Except Fault (List Nat × Goto) := do
  let k := bn - an
  let ap ← MPN_COPY ap 0 bp k an
  let t ← (if sh ≠ 0 then take_low W sh ap else pure (ap, 0))
  let g ← far_round_goto W sh k cn dif t.2 t.1 bp cp b rnd_mode
  pure (t.1, g)

/-- Lines 209-210: the number of bits by which the limbs of `c` are shifted to the right
(to the left when negative). -/
def trunc_shift (W : Nat) (sh dif : Int) : Int :=
  if dif.tmod W ≠ 0 then (W : Int) - dif.tmod W - sh else -sh

/-- Lines 207-225: `c` has to be truncated; its upper `k` limbs are shifted into `a`.
Returns the buffer and the new `dif`. -/
def near_shift_trunc (W : Nat) (sh cn k dif : Int) (ap cp : List Nat) :
    Except Fault (List Nat × Int) := do
  let dif := trunc_shift W sh dif
  if 0 < dif then
    let r ← mpn_rshift W ap 0 cp (cn - k) k dif
    pure (r.1, dif)
  else if dif < 0 then
    let r ← mpn_lshift W ap 0 cp (cn - k) k (-dif)
    let ap ← wr r.1 k r.2
    if k + 1 ≤ cn then
      let x ← rd cp (cn - k - 1)
      let x ← shr W x ((W : Int) + dif)
      let a0 ← rd ap 0
      let ap ← wr ap 0 ((a0 + x) % 2 ^ W)
      pure (ap, dif)
    else pure (ap, dif)
  else
    let ap ← MPN_COPY ap 0 cp (cn - k) k
    pure (ap, dif)

/-- Lines 226-241: `c` is not truncated; it is shifted into `a` and the low limbs are
filled with 0.  Returns the buffer and the new `k`. -/
def near_shift_full (W : Nat) (an cn diff_exp : Int) (ap cp : List Nat) :
    Except Fault (List Nat × Int) := do
  let k := diff_exp.tdiv W
  let overlap := diff_exp.tmod W
  let ap ← MPN_ZERO ap 0 (an - k - cn)
  if overlap ≠ 0 then
    let r ← mpn_rshift W ap (an - k - cn) cp 0 cn overlap
    if 0 < an - k - cn then
      let ap ← wr r.1 (an - k - cn - 1) r.2
      pure (ap, k)
    else pure (r.1, k)
  else
    let ap ← MPN_COPY ap (an - k - cn) cp 0 cn
    pure (ap, k)

/-- Lines 198-241: the upper part of `c`, shifted, is stored in `a`.  Returns the buffer,
`k`, `dif` and `overlap`. -/
def near_shift (W : Nat) (pc : Nat) (sh an cn dif diff_exp : Int) (ap cp : List Nat) :
    Except Fault (List Nat × Int × Int × Nat) := do
  let k := (dif - 1).tdiv W + 1
  let ap ← MPN_ZERO ap k (an - k)
  if dif ≤ pc then
    let r ← near_shift_trunc W sh cn k dif ap cp
    pure (r.1, k, r.2, 1)
  else
    let r ← near_shift_full W an cn diff_exp ap cp
    pure (r.1, r.2, dif, 0)

/-- Lines 247-263: the upper limbs of `b` are added in place; a carry out of the top limb
shifts the sum right by one bit.  Returns the buffer, `overlap`, the number of increments of
`EXP(a)` and `c3`. -/
def near_add (W : Nat) (pa pb : Nat) (an bn : Int) (ap bp : List Nat) (overlap : Nat) :
    Except Fault (List Nat × Nat × Int × Nat) := do
  let r ←
    (if pb ≤ pa then mpn_add_n W ap (an - bn) bp 0 bn
    else mpn_add_n W ap 0 bp (bn - an) an)
  let overlap := if pb ≤ pa then overlap + 2 else overlap
  if r.2 ≠ 0 then
    let a0 ← rd r.1 0
    let c3 : Nat := if a0 &&& 1 ≠ 0 ∧ pa % W = 0 then 1 else 0
    let q ← mpn_rshift W r.1 0 r.1 0 an 1
    let t ← rd q.1 (an - 1)
    let h ← shl W 1 ((W : Int) - 1)
    let ap ← wr q.1 (an - 1) ((t + h) % 2 ^ W)
    pure (ap, overlap, 1, c3)
  else pure (r.1, overlap, 0, 0)

/-- Lines 291-317: the decision of `case 1` after the low bits of `*ap` went into `cc`.
`none` stands for falling through into `case 3`; the live `k` is returned with it. -/
def near_case1_goto (W : Nat) (sh an bn cn k dif : Int) (cc : Nat) (ap bp cp : List Nat)
    (rnd_mode : mp_rnd_t) : Except Fault (Option Goto × Int) := do
  let kc := cn - k
  let k := bn - an
  let s0 ←
    (if rnd_mode = GMP_RNDN then do
      let h ← shl W 1 (sh - 1)
      let r := sub_1 W cc h
      pure (r.1, lneg W r.2)
    else pure (cc, 0))
  let cc := s0.1
  let cout := s0.2
  if lnot W cout = 0 ∧ lnot W cc ≠ 0 then pure (some Goto.end_of_add, k)
  else
    let s ← loop296 W bp cp dif (k.toNat + 1) { cout := cc, cc := cc, k := k, kc := kc }
    let s ←
      (if s.kc = 0 ∧ dif ≠ 0 then do
        let c0 ← rd cp 0
        let x ← shl W c0 ((W : Int) - dif)
        let t ←
          (if s.k ≠ 0 then do
            let y ← rd bp (s.k - 1)
            let r := add_1 W y x
            pure (r.1, (s.cout + r.2) % 2 ^ W, s.k - 1)
          else pure (x, s.cout, s.k))
        let cout :=
          if (t.2.1 = 0 ∧ t.1 = 0) ∨ (lnot W t.2.1 = 0 ∧ lnot W t.1 = 0) then t.1 else t.2.1
        pure { cout := cout, cc := t.1, k := t.2.2, kc := s.kc : S296 }
      else pure s)
    if spos W s.cout ∨ (s.cout = 0 ∧ s.cc ≠ 0) then pure (some Goto.add_one_ulp, s.k)
    else if sneg W s.cout then pure (some Goto.end_of_add, s.k)
    else if s.kc = 0 then
      let r ← loopdown bp (s.k.toNat + 1) s.k s.cout
      if lnot W r.2 ≠ 0 then
        if r.2 ≠ 0 then pure (some Goto.add_one_ulp, r.1)
        else if rnd_mode = GMP_RNDN then
          let a0 ← rd ap 0
          let m ← shl W 1 sh
          if a0 &&& m ≠ 0 then pure (some Goto.add_one_ulp, r.1)
          else pure (some Goto.end_of_add, r.1)
        else pure (some Goto.end_of_add, r.1)
      else pure (some Goto.end_of_add, r.1)
    else pure (none, s.k)

/-- Lines 283-317: `case 1` of the switch, both `b` and `c` to round.  Returns the buffer and
the decision of `near_case1_goto`. -/
def near_case1 (W : Nat) (sh an bn cn k dif : Int) (ap bp cp : List Nat)
    (rnd_mode : mp_rnd_t) : Except Fault (List Nat × Option Goto × Int) := do
  let t ← take_low W sh ap
  let g ← near_case1_goto W sh an bn cn k dif t.2 t.1 bp cp rnd_mode
  pure (t.1, g)

/-- Lines 270-334: the rounding switch.  Returns the buffer and the label reached. -/
def near_round (W : Nat) (sh an bn cn k dif : Int) (ap bp cp : List Nat) (overlap : Nat)
    (b : mpfr_t) (rnd_mode : mp_rnd_t) : Except Fault (List Nat × Goto) := do
  if rnd_mode = GMP_RNDN ∨ away b rnd_mode then
    match overlap with
    | 1 =>
      let r ← near_case1 W sh an bn cn k dif ap bp cp rnd_mode
      match r.2.1 with
      | some g => pure (r.1, g)
      | none => pure (r.1, Goto.to_nearest cp cn (cn - r.2.2) dif)
    | 3 => pure (ap, Goto.to_nearest cp cn (cn - k) dif)
    | 0 => pure (ap, Goto.to_nearest bp bn (bn - an) 0)
    | _ => pure (ap, Goto.end_of_add)
  else
    let a0 ← rd ap 0
    let m ← shl W 1 sh
    let ap ← wr ap 0 (a0 &&& lnot W (m - 1))
    pure (ap, Goto.end_of_add)

/-- Lines 193-335: `diff_exp < PREC(a)`, `c` overlaps with `a` by `dif` bits.  Returns the
buffer, the number of increments of `EXP(a)`, `c3` and the label reached. -/
def near (W : Nat) (pa pb pc : Nat) (sh an bn cn dif diff_exp : Int) (ap bp cp : List Nat)
    (b : mpfr_t) (rnd_mode : mp_rnd_t) : Except Fault (List Nat × Int × Nat × Goto) := do
  let s ← near_shift W pc sh an cn dif diff_exp ap cp
  let t ← near_add W pa pb an bn s.1 bp s.2.2.2
  let r ← near_round W sh an bn cn s.2.1 s.2.2.1 t.1 bp cp t.2.1 b rnd_mode
  pure (r.1, t.2.2.1, t.2.2.2, r.2)

/-- Lines 347-357: at label `to_nearest`, the bits to round are fetched into `cc` and the
half-ulp pattern into `c2`.  Returns the buffer, `cc`, `c2` and `k`. -/
def to_nearest_fetch (W : Nat) (sh : Int) (c3 : Nat) (ap bp : List Nat) (k : Int)
    (rnd_mode : mp_rnd_t) : Except Fault (List Nat × Nat × Nat × Int) := do
  if sh ≠ 0 then
    let t ← take_low W sh ap
    let c2 ← (if rnd_mode = GMP_RNDN then shl W 1 (sh - 1) else pure 0)
    pure (t.1, t.2, c2, k)
  else
    let cc ← (if k ≠ 0 then rd bp (k - 1) else pure 0)
    let k := if k ≠ 0 then k - 1 else k
    let c2 ← (if rnd_mode = GMP_RNDN then shl W 1 ((W : Int) - 1) else pure 0)
    let cc := if c3 ≠ 0 ∧ (cc ≠ 0 ∨ c2 = 0) then (c2 + 1) % 2 ^ W else cc
    pure (ap, cc, c2, k)

/-- Lines 358-368: the decision at label `to_nearest`; `true` stands for `goto add_one_ulp`. -/
def to_nearest_goto (W : Nat) (sh : Int) (cc c2 : Nat) (ap bp : List Nat) (bn k dif : Int)
    (rnd_mode : mp_rnd_t) : Except Fault Bool := do
  if c2 < cc then pure true
  else if cc = c2 then
    let cc ←
      (if 0 < dif ∧ 0 ≤ k ∧ k < bn then do
        let x ← rd bp k
        shl W x ((W : Int) - dif)
      else pure 0)
    let r ← loopdown bp (k.toNat + 1) k cc
    if r.2 ≠ 0 then pure true
    else if rnd_mode = GMP_RNDN then
      let a0 ← rd ap 0
      let m ← shl W 1 sh
      if a0 &&& m ≠ 0 then pure true else pure false
    else pure false
  else pure false

/-- Lines 338-368: the block at label `to_nearest`.  Returns the buffer and whether control
reaches `add_one_ulp`. -/
def to_nearest (W : Nat) (sh : Int) (c3 : Nat) (ap bp : List Nat) (bn k dif : Int)
    (rnd_mode : mp_rnd_t) : Except Fault (List Nat × Bool) := do
  let t ← to_nearest_fetch W sh c3 ap bp k rnd_mode
  let g ← to_nearest_goto W sh t.2.1 t.2.2.1 t.1 bp bn t.2.2.2 dif rnd_mode
  pure (t.1, g)

/-- Lines 370-375: the block at label `add_one_ulp`.  Returns the buffer and the number of
increments of `EXP(a)`. -/
def add_one_ulp (W : Nat) (sh an : Int) (ap : List Nat) : Except Fault (List Nat × Int) := do
  let m ← shl W 1 sh
  let r ← mpn_add_1 W ap 0 an m
  if r.2 ≠ 0 then
    let h ← shl W 1 ((W : Int) - 1)
    let ap ← wr r.1 (an - 1) h
    pure (ap, 1)
  else pure (r.1, 0)

/-- A pointer to an `mpfr_t` object. -/
abbrev Ptr := Nat

/-- The objects in memory.  Each object owns its limb buffer, so two significand pointers
are equal exactly when the object pointers are. -/
abbrev Heap := Ptr → mpfr_t

/-- Store `x` at `p`. -/
def Heap.set (h : Heap) (p : Ptr) (x : mpfr_t) : Heap := fun q => if q = p then x else h q

/-- Lines 74-76: the object `a` after `EXP(a) = EXP(b)` and the sign adjustment. -/
def add1_header (h : Heap) (a b : Ptr) : mpfr_t :=
  let A : mpfr_t := { (h a) with exp := (h b).exp }
  let h := h.set a A
  if MPFR_SIGN (h a) * MPFR_SIGN (h b) < 0 then CHANGE_SIGN A else A

/-- Lines 370-379: from the label reached to the end of the function.  Returns the buffer and
the number of increments of `EXP(a)`. -/
def add1_finish (W : Nat) (sh an : Int) (c3 : Nat) (ap : List Nat) (g : Goto)
    (rnd_mode : mp_rnd_t) : Except Fault (List Nat × Int) := do
  let r ←
    (match g with
    | Goto.to_nearest bp bn k dif => to_nearest W sh c3 ap bp bn k dif rnd_mode
    | Goto.add_one_ulp => pure (ap, true)
    | Goto.end_of_add => pure (ap, false))
  if r.2 then add_one_ulp W sh an r.1 else pure (r.1, 0)

/-- Lines 69-73 and 78-379 of `mpfr_add1`, on the three limb buffers `ap`, `bp`, `cp`:
`pa`, `pb`, `pc` are the precisions of `a`, `b`, `c`; `nzc` evaluates `NOTZERO(c)` on the
current contents of the buffer of `a`; `b` is read for its sign.  Returns the final limb
buffer of `a` and the number of increments of `EXP(a)`. -/
def add1_core (W : Nat) (pa pb pc : Nat) (ap bp cp : List Nat)
    (nzc : List Nat → Except Fault Nat) (b : mpfr_t) (rnd_mode : mp_rnd_t) (diff_exp : Int) :
    Except Fault (List Nat × Int) := do
  let an : Int := (((pa - 1) / W + 1 : Nat) : Int)
  let sh := an * W - pa
  let bn : Int := (((pb - 1) / W + 1 : Nat) : Int)
  let cn : Int := (((pc - 1) / W + 1 : Nat) : Int)
  let dif : Int := pa - diff_exp
  let r ←
    (if dif ≤ 0 then do
      let r ←
        (if pb ≤ pa then far_copy W pa sh an bn ap bp cp pc nzc b rnd_mode diff_exp
        else far_round W sh an bn cn dif ap bp cp b rnd_mode)
      pure (r.1, (0 : Int), 0, r.2)
    else near W pa pb pc sh an bn cn dif diff_exp ap bp cp b rnd_mode)
  let f ← add1_finish W sh an r.2.2.1 r.1 r.2.2.2 rnd_mode
  pure (f.1, r.2.1 + f.2)

/-- The macro call `NOTZERO(c)` of lines 113 and 133, evaluated when the limb buffer of `a`
holds `ap`: it reads the buffer of `c`, which is `ap` when `c` is the object `a`. -/
def nzc_of (W : Nat) (h : Heap) (a c : Ptr) (ap : List Nat) : Except Fault Nat :=
  NOTZERO W ((h.set a { (h a) with mant := ap }) c)

/-- Lines 55-73 and 78-379 of `mpfr_add1`: everything but the two assignments to the fields
of `a` at lines 74-76, whose effect is the heap `h` passed here.  Returns the final limb
buffer of `a` and the number of increments of `EXP(a)`. -/
def add1_limbs (W : Nat) (h : Heap) (a b c : Ptr) (rnd_mode : mp_rnd_t) (diff_exp : Int) :
    Except Fault (List Nat × Int) := do
  let ap := (h a).mant
  -- lines 58-67: an operand sharing its buffer with `a` is copied
  let bp ← (if a = b then seg ap 0 (ABSSIZE (h b)) else pure (h b).mant)
  let cp ←
    (if a = b then (if a = c then pure bp else pure (h c).mant)
    else if a = c then seg ap 0 (ABSSIZE (h c)) else pure (h c).mant)
  add1_core W (h a).prec (h b).prec (h c).prec ap bp cp (nzc_of W h a c) (h b) rnd_mode
    diff_exp

/-- The function `mpfr_add1 (a, b, c, rnd_mode, diff_exp)` of `add.c`, lines 38-380. -/
def mpfr_add1 (W : Nat) (h : Heap) (a b c : Ptr) (rnd_mode : mp_rnd_t) (diff_exp : Int) :
    Except Fault Heap := do
  let A := add1_header h a b
  let r ← add1_limbs W (h.set a A) a b c rnd_mode diff_exp
  pure (h.set a { A with mant := r.1, exp := A.exp + r.2 })

/-- Modelled from the spec: the function `mpfr_cmp3` is not part of the sources.  It performs
an exact comparison of `b` with `s * c`; the result is negative, zero or positive. -/
def mpfr_cmp3 (W : Nat) (b c : mpfr_t) (s : Int) : Int :=
  let eb : Int := b.exp - nlimbs W b * W
  let ec : Int := c.exp - nlimbs W c * W
  let e : Int := min eb ec
  let vb : Int := MPFR_SIGN b * limbsVal W (b.mant.take (nlimbs W b).toNat) * 2 ^ (eb - e).toNat
  let vc : Int := s * MPFR_SIGN c * limbsVal W (c.mant.take (nlimbs W c).toNat) * 2 ^ (ec - e).toNat
  if vb < vc then -1 else if vb = vc then 0 else 1

/-- The conversion of a `long` to `int` (32 bits), as in the assignment
`diff_exp = EXP(b)-EXP(c)` of line 402, where the exponents are `mp_exp_t` values and
`diff_exp` is an `int`: the value modulo `2 ^ 32`, in `-2 ^ 31 .. 2 ^ 31 - 1`. -/
def to_int (x : Int) : Int := (x + 2 ^ 31) % 2 ^ 32 - 2 ^ 31

/-- C `-x` on an `int` (lines 405 and 417); the negation of `INT_MIN` overflows. -/
def neg_int (x : Int) : Except Fault Int :=
  if x = -2 ^ 31 then .error Fault.overflow else .ok (-x)

/-- Functions and macros of the library that `mpfr_add` calls and whose code is not part of
the sources; they are parameters of the embedding. -/
structure Callees where
  SET_ZERO : mpfr_t → mpfr_t
  mpfr_set : Heap → Ptr → Ptr → mp_rnd_t → Heap
  mpfr_sub1 : Heap → Ptr → Ptr → Ptr → mp_rnd_t → Int → Heap

/-- The function `mpfr_add (a, b, c, rnd_mode)` of `add.c`, lines 382-419. -/
def mpfr_add (W : Nat) (X : Callees) (h : Heap) (a b c : Ptr) (rnd_mode : mp_rnd_t) :
    Except Fault Heap := do
  if FLAG_NAN (h b) ∨ FLAG_NAN (h c) then pure (h.set a (SET_NAN (h a)))
  else
    let zb ← NOTZERO W (h b)
    if zb = 0 then pure (X.mpfr_set h a c rnd_mode)
    else
      let zc ← NOTZERO W (h c)
      if zc = 0 then pure (X.mpfr_set h a b rnd_mode)
      else
        let diff_exp := to_int ((h b).exp - (h c).exp)
        if MPFR_SIGN (h b) * MPFR_SIGN (h c) < 0 then
          if diff_exp < 0 then do
            let d ← neg_int diff_exp
            pure (X.mpfr_sub1 h a c b rnd_mode d)
          else if 0 < diff_exp then pure (X.mpfr_sub1 h a b c rnd_mode diff_exp)
          else
            let diff_exp := mpfr_cmp3 W (h b) (h c) (-1)
            if diff_exp = 0 then pure (h.set a (X.SET_ZERO (h a)))
            else if 0 < diff_exp * MPFR_SIGN (h b) then pure (X.mpfr_sub1 h a b c rnd_mode 0)
            else pure (X.mpfr_sub1 h a c b rnd_mode 0)
        else if diff_exp < 0 then do
          let d ← neg_int diff_exp
          mpfr_add1 W h a c b rnd_mode d
        else mpfr_add1 W h a b c rnd_mode diff_exp

/-! ## Specification vocabulary -/

/-- A value is regular when it is neither NaN nor zero: it passes the tests of lines 395-400
of `mpfr_add`. -/
def Regular (W : Nat) (x : mpfr_t) : Prop :=
  FLAG_NAN x = false ∧ ∃ z, NOTZERO W x = .ok z ∧ z ≠ 0

/-- A value is a zero (of either sign) when it is not NaN and `NOTZERO` fails. -/
def IsZero (W : Nat) (x : mpfr_t) : Prop :=
  FLAG_NAN x = false ∧ NOTZERO W x = .ok 0

/-- Every limb of the buffer is a `W`-bit word. -/
def AllLt (W : Nat) (p : List Nat) : Prop := ∀ x ∈ p, x < 2 ^ W

/-- The top bit of limb `n - 1` of the buffer is set (the significand is normalised). -/
def TopSet (W : Nat) (n : Int) (p : List Nat) : Prop :=
  ∃ t, rd p (n - 1) = .ok t ∧ 2 ^ (W - 1) ≤ t ∧ t < 2 ^ W

/-- Representation invariants of a regular value: a positive precision, a buffer of exactly
the significant limbs, `W`-bit limbs, a set top bit and zero bits below the precision. -/
def WF (W : Nat) (x : mpfr_t) : Prop :=
  0 < x.prec ∧ (x.mant.length : Int) = nlimbs W x ∧ AllLt W x.mant ∧
    TopSet W (nlimbs W x) x.mant ∧
    limbsVal W x.mant % 2 ^ ((nlimbs W x).toNat * W - x.prec) = 0

/-- Two buffers of equal length agree at the indices in `S`. -/
def AgreeOn (S : Nat → Prop) (p q : List Nat) : Prop :=
  p.length = q.length ∧ ∀ i, S i → p[i]? = q[i]?

/-- Partial correctness: every defined result of `x` satisfies `P`. -/
def Post {α : Type} (x : Except Fault α) (P : α → Prop) : Prop := ∀ r, x = .ok r → P r

/-- The rational number a value stands for: `sign * 0.m * 2 ^ EXP`, where `m` is read from
all bits of the significant limbs. -/
def value (W : Nat) (x : mpfr_t) : ℚ :=
  (MPFR_SIGN x : ℚ) * (limbsVal W (x.mant.take (nlimbs W x).toNat) : ℚ) *
    (2 : ℚ) ^ (x.exp - nlimbs W x * (W : Int))

/-- The last significand bit a value of precision `PREC(x)` retains. -/
def lastBit (W : Nat) (x : mpfr_t) : Nat :=
  limbsVal W (x.mant.take (nlimbs W x).toNat) / 2 ^ ((nlimbs W x).toNat * W - x.prec) % 2

/-- The rational `x` is a binary floating-point number with at most `p` significant bits. -/
def Representable (p : Nat) (x : ℚ) : Prop :=
  ∃ m e : ℤ, |m| < 2 ^ p ∧ x = (m : ℚ) * (2 : ℚ) ^ e

/-- The rational `r` is `x` rounded once to `p` significant bits in mode `rnd`; a tie of
round-to-nearest goes to the neighbour whose `p`-bit significand is even. -/
def IsRounding (rnd : mp_rnd_t) (p : Nat) (x r : ℚ) : Prop :=
  Representable p r ∧
  match rnd with
  | GMP_RNDN =>
    (∀ y, Representable p y → |x - r| ≤ |x - y|) ∧
    ((∃ y, Representable p y ∧ y ≠ r ∧ |x - y| = |x - r|) →
      ∃ m e : ℤ, |m| < 2 ^ p ∧ 2 ^ p ≤ 4 * |m| ∧ r = (2 * m : ℚ) * (2 : ℚ) ^ e)
  | GMP_RNDZ => 0 ≤ r * x ∧ |r| ≤ |x| ∧ ∀ y, Representable p y → |y| ≤ |x| → |y| ≤ |r|
  | GMP_RNDU => x ≤ r ∧ ∀ y, Representable p y → x ≤ y → r ≤ y
  | GMP_RNDD => r ≤ x ∧ ∀ y, Representable p y → y ≤ x → y ≤ r

/-- A heap with the destination at pointer 0 and the operands at pointers 1 and 2. -/
def heap3 (a b c : mpfr_t) : Heap := fun q => if q = 0 then a else if q = 1 then b else c

/-- The object at `p` after a run, when the run is defined. -/
def res (r : Except Fault Heap) (p : Ptr) : Option mpfr_t :=
  match r with
  | .ok h => some (h p)
  | .error _ => none

/-- Sign, exponent and significant limbs of an object. -/
def bits (W : Nat) (x : mpfr_t) : Bool × Int × List Nat :=
  (x.neg, x.exp, x.mant.take (nlimbs W x).toNat)

/-! ## Concrete operands (64-bit limbs) -/

/-- Destination of precision 1. -/
def c1_a : mpfr_t := ⟨1, false, false, 0, [0]⟩

/-- The value `0.11b = 3/4`, precision 2. -/
def c1_b : mpfr_t := ⟨2, false, false, 0, [13835058055282163712]⟩

/-- The value `0.011b = 3/8`, precision 2. -/
def c1_c : mpfr_t := ⟨2, false, false, -1, [13835058055282163712]⟩

/-- The value `0.1b = 1/2`, precision 1. -/
def c1_r : mpfr_t := ⟨1, false, false, 0, [9223372036854775808]⟩

/-- Destination of precision 64. -/
def c2_a : mpfr_t := ⟨64, false, false, 0, [0]⟩

/-- The value `1`, precision 64; its last significand bit is 0. -/
def c2_b : mpfr_t := ⟨64, false, false, 1, [9223372036854775808]⟩

/-- The value `2 ^ (-64)`, half a unit in the last place of `c2_b`, precision 128. -/
def c2_c : mpfr_t := ⟨128, false, false, -63, [0, 9223372036854775808]⟩

/-- The value `1 + 2 ^ (-63)`, precision 64; its last significand bit is 1. -/
def c2_r : mpfr_t := ⟨64, false, false, 1, [9223372036854775809]⟩

/-- The value `0.01b = 1/4`, precision 1. -/
def c3_c : mpfr_t := ⟨1, false, false, -1, [9223372036854775808]⟩

/-- The value `1`, precision 1. -/
def c7_b : mpfr_t := ⟨1, false, false, 1, [9223372036854775808]⟩

/-- The value `-1`, precision 1. -/
def c7_c : mpfr_t := ⟨1, true, false, 1, [9223372036854775808]⟩

/-- The value `1/2 + 2 ^ (-64)`, precision 65. -/
def c8_x1 : mpfr_t := ⟨65, false, false, 0, [0, 9223372036854775809]⟩

/-- The value `1/2 + 2 ^ (-64)`, precision 64. -/
def c8_x2 : mpfr_t := ⟨64, false, false, 0, [9223372036854775809]⟩

/-- The value `1/2`, precision 1. -/
def c8_y : mpfr_t := ⟨1, false, false, 0, [9223372036854775808]⟩

/-- The value `1`, precision 64. -/
def c8_r2 : mpfr_t := ⟨64, false, false, 1, [9223372036854775808]⟩

/-- A NaN of precision 1. -/
def c5_nan : mpfr_t := ⟨1, false, true, 0, [9223372036854775808]⟩

/-- A zero of precision 1. -/
def c6_zero : mpfr_t := ⟨1, false, false, 0, [0]⟩

/-- A negative destination of precision 64. -/
def c9_a : mpfr_t := ⟨64, true, false, 5, [7]⟩

/-- A negative destination of precision 4 with arbitrary contents. -/
def c3_a : mpfr_t := ⟨4, true, false, 7, [5]⟩

/-- The value `1`, precision 4. -/
def c3_r : mpfr_t := ⟨4, false, false, 1, [9223372036854775808]⟩

/-- The run does not stop for lack of loop fuel: it ends, or it stops at an operation that
is undefined in C (a shift count or a buffer index out of range, the negation of
`INT_MIN`). -/
def NoFuel {α : Type} (x : Except Fault α) : Prop :=
  match x with
  | .error Fault.fuel => False
  | _ => True

/-- Destination of precision 2. -/
def c11_a : mpfr_t := ⟨2, false, false, 0, [0]⟩

/-- The limbs `0.101b` in an object of precision 2 and exponent 1. -/
def c11_r : mpfr_t := ⟨2, false, false, 1, [11529215046068469760]⟩

/-! ## Values with sentinel exponents (`sgn.c`, `cosh.c`) -/

/-- Modelled from the spec: the value type of the later sources, whose header `mpfr.h` is
not part of the sources: precision, sign (`+1` or `-1`), exponent and significand limbs.
NaN, infinity and zero are encoded by sentinel exponents. -/
structure mpfr_struct where
  prec : Nat
  sign : Int
  exp : Int
  mant : List Nat
  deriving DecidableEq

/-- Modelled from the spec: the sentinel exponent of a zero (`mpfr-impl.h` is not part of
the sources): the sentinels lie below the exponent of every regular value. -/
def MPFR_EXP_ZERO : Int := -2 ^ 63 + 1

/-- Modelled from the spec: the sentinel exponent of a NaN. -/
def MPFR_EXP_NAN : Int := -2 ^ 63 + 2

/-- Modelled from the spec: the sentinel exponent of an infinity. -/
def MPFR_EXP_INF : Int := -2 ^ 63 + 3

/-- Modelled from the spec: a value is singular if it is NaN, infinite or zero. -/
def MPFR_IS_SINGULAR (x : mpfr_struct) : Bool := decide (x.exp ≤ MPFR_EXP_INF)

/-- Modelled from the spec: the macro `MPFR_IS_ZERO`. -/
def MPFR_IS_ZERO (x : mpfr_struct) : Bool := decide (x.exp = MPFR_EXP_ZERO)

/-- Modelled from the spec: the macro `MPFR_IS_NAN`. -/
def MPFR_IS_NAN (x : mpfr_struct) : Bool := decide (x.exp = MPFR_EXP_NAN)

/-- Modelled from the spec: the macro `MPFR_IS_INF`. -/
def MPFR_IS_INF (x : mpfr_struct) : Bool := decide (x.exp = MPFR_EXP_INF)

/-- Modelled from the spec: the macro `MPFR_IS_POS`. -/
def MPFR_IS_POS (x : mpfr_struct) : Bool := decide (0 < x.sign)

/-- Modelled from the spec: the macro `MPFR_IS_NEG`. -/
def MPFR_IS_NEG (x : mpfr_struct) : Bool := decide (x.sign < 0)

/-- Modelled from the spec: the macro `MPFR_INT_SIGN`, the sign field as an `int`. -/
def MPFR_INT_SIGN (x : mpfr_struct) : Int := x.sign

/-- Modelled from the spec: the macro `MPFR_SET_NAN`. -/
def MPFR_SET_NAN (x : mpfr_struct) : mpfr_struct := { x with exp := MPFR_EXP_NAN }

/-- Modelled from the spec: the macro `MPFR_SET_INF`. -/
def MPFR_SET_INF (x : mpfr_struct) : mpfr_struct := { x with exp := MPFR_EXP_INF }

/-- Modelled from the spec: the macro `MPFR_SET_ZERO`. -/
def MPFR_SET_ZERO (x : mpfr_struct) : mpfr_struct := { x with exp := MPFR_EXP_ZERO }

/-- Modelled from the spec: the macro `MPFR_SET_POS`. -/
def MPFR_SET_POS (x : mpfr_struct) : mpfr_struct := { x with sign := 1 }

/-- Modelled from the spec: the process-wide state of the library (sticky flags and the
exponent range), threaded through every call. -/
structure Globals where
  flags : Nat
  emin : Int
  emax : Int
  deriving DecidableEq

/-- Modelled from the spec: bit of the sticky underflow flag in the flags word. -/
def MPFR_FLAGS_UNDERFLOW : Nat := 1

/-- Modelled from the spec: bit of the sticky overflow flag. -/
def MPFR_FLAGS_OVERFLOW : Nat := 2

/-- Modelled from the spec: bit of the sticky NaN (invalid) flag. -/
def MPFR_FLAGS_NAN : Nat := 4

/-- Modelled from the spec: bit of the sticky inexact flag. -/
def MPFR_FLAGS_INEXACT : Nat := 8

/-- Modelled from the spec: bit of the sticky erange flag. -/
def MPFR_FLAGS_ERANGE : Nat := 16

/-- Modelled from the spec: the macro `MPFR_SET_ERANGE ()`. -/
def MPFR_SET_ERANGE (G : Globals) : Globals := { G with flags := G.flags ||| MPFR_FLAGS_ERANGE }

/-- Modelled from the spec: the macro `MPFR_RET_NAN`: raise the NaN flag, return 0. -/
def MPFR_RET_NAN (G : Globals) : Int × Globals :=
  (0, { G with flags := G.flags ||| MPFR_FLAGS_NAN })

/-- Modelled from the spec: the macro `MPFR_RET (I)`: return the inexact code `I`, raising
the inexact flag when it is not 0. -/
def MPFR_RET (G : Globals) (I : Int) : Int × Globals :=
  if I ≠ 0 then (I, { G with flags := G.flags ||| MPFR_FLAGS_INEXACT }) else (0, G)

/-- The function `mpfr_sgn (a)` of `sgn.c`, lines 25-40: the returned `int` and the global
state after the call. -/
def mpfr_sgn (G : Globals) (a : mpfr_struct) : Int × Globals :=
  if MPFR_IS_SINGULAR a then
    if MPFR_IS_ZERO a then (0, G)
    else if MPFR_IS_NAN a then (0, MPFR_SET_ERANGE G)
    else (MPFR_INT_SIGN a, G)
  else (MPFR_INT_SIGN a, G)

/-- Ways a call of the later sources stops without returning: a failed `MPFR_ASSERTN` or
`MPFR_ASSERTD`, a failed allocation, an access outside a table or a string, a division by
zero, a shift by a count outside `0 .. W-1`, or a loop of the model out of fuel. -/
inductive Stop
  | assert
  | alloc
  | index
  | divide
  | shift
  | fuel
  deriving DecidableEq

/-- Modelled from the spec (§7, range violation): the result of an overflow for a value of
sign `x.sign`: the largest finite magnitude when the mode rounds toward zero, an infinity
otherwise; the overflow and inexact flags are raised and the inexact code is not 0. -/
def set_overflow (W : Nat) (G : Globals) (x : mpfr_struct) (rnd : mp_rnd_t) :
    mpfr_struct × Int × Globals :=
  let G1 : Globals :=
    { G with flags := G.flags ||| MPFR_FLAGS_OVERFLOW ||| MPFR_FLAGS_INEXACT }
  let n := (x.prec - 1) / W + 1
  if rnd = GMP_RNDZ ∨ (rnd = GMP_RNDD ∧ 0 < x.sign) ∨ (rnd = GMP_RNDU ∧ x.sign < 0) then
    ({ x with exp := G.emax, mant := toLimbs W n ((2 ^ x.prec - 1) * 2 ^ (n * W - x.prec)) },
      -x.sign, G1)
  else (MPFR_SET_INF x, x.sign, G1)

/-- Modelled from the spec (§7, range violation): the result of an underflow for a value of
sign `x.sign`: the smallest finite magnitude when the mode rounds away from zero, a signed
zero otherwise; the underflow and inexact flags are raised and the inexact code is not 0. -/
def set_underflow (W : Nat) (G : Globals) (x : mpfr_struct) (rnd : mp_rnd_t) :
    mpfr_struct × Int × Globals :=
  let G1 : Globals :=
    { G with flags := G.flags ||| MPFR_FLAGS_UNDERFLOW ||| MPFR_FLAGS_INEXACT }
  let n := (x.prec - 1) / W + 1
  if (rnd = GMP_RNDU ∧ 0 < x.sign) ∨ (rnd = GMP_RNDD ∧ x.sign < 0) then
    ({ x with exp := G.emin, mant := toLimbs W n (2 ^ (n * W - 1)) }, x.sign, G1)
  else (MPFR_SET_ZERO x, -x.sign, G1)

/-- Bits of `n` below position `fuel`, counted from the highest set bit. -/
def sizeinbase2_aux : Nat → Nat → Nat
  | 0, _ => 0
  | fuel + 1, n => if n = 0 then 0 else sizeinbase2_aux fuel (n / 2) + 1

/-- Modelled from the spec: the bit-length query of the integer substrate
(`mpz_sizeinbase (z, 2)`, the macro `MPFR_MPZ_SIZEINBASE2`) on the magnitude `n`; here the
length of 0 is 0. -/
def sizeinbase2 (n : Nat) : Nat := sizeinbase2_aux n n

/-- Modelled from the spec (§4.1): a positive integer `N` rounded to `p` significant bits in
mode `rnd`: the `p`-bit significand, the exponent (the value is `0.m * 2 ^ exponent`) and
the inexact code. -/
def round_pos (p : Nat) (rnd : mp_rnd_t) (N : Nat) : Nat × Int × Int :=
  let l := sizeinbase2 N
  if l ≤ p then (N * 2 ^ (p - l), (l : Int), 0)
  else
    let s := l - p
    let q := N / 2 ^ s
    let r := N % 2 ^ s
    let up : Bool :=
      match rnd with
      | GMP_RNDN => decide (2 ^ (s - 1) < r) || (decide (r = 2 ^ (s - 1)) && decide (q % 2 = 1))
      | GMP_RNDU => decide (r ≠ 0)
      | _ => false
    let inex : Int := if r = 0 then 0 else if up then 1 else -1
    let q := if up then q + 1 else q
    if q = 2 ^ p then (2 ^ (p - 1), (l : Int) + 1, inex) else (q, (l : Int), inex)

/-- Modelled from the spec: the function `mpfr_set_ui (y, u, rnd_mode)`, which is not part
of the sources: `y` becomes `u` rounded to `PREC(y)` bits; a result whose exponent is outside
the exponent range is a range violation (§7); the inexact code is returned. -/
def mpfr_set_ui (W : Nat) (G : Globals) (y : mpfr_struct) (u : Nat) (rnd : mp_rnd_t) :
    mpfr_struct × Int × Globals :=
  if u = 0 then (MPFR_SET_ZERO (MPFR_SET_POS y), 0, G)
  else
    let r := round_pos y.prec rnd u
    let n := (y.prec - 1) / W + 1
    let y1 : mpfr_struct :=
      { y with sign := 1, exp := r.2.1, mant := toLimbs W n (r.1 * 2 ^ (n * W - y.prec)) }
    if G.emax < r.2.1 then set_overflow W G y1 rnd
    else if r.2.1 < G.emin then set_underflow W G y1 rnd
    else
      let t := MPFR_RET G r.2.2
      (y1, t.1, t.2)

/-- Functions of the library that `mpfr_cosh` calls in its general case and whose code is
not part of the sources; they are parameters of the embedding.  Each returns the object it
writes and the global state. -/
structure CoshCallees where
  gmpfr_ceil_log2 : Nat → Nat
  mpfr_init2 : Nat → mpfr_struct
  mpfr_init : mpfr_struct
  mpfr_set_prec : mpfr_struct → Nat → mpfr_struct
  mpfr_abs : Globals → mpfr_struct → mpfr_struct → mp_rnd_t → mpfr_struct × Globals
  mpfr_exp : Globals → mpfr_struct → mpfr_struct → mp_rnd_t → mpfr_struct × Globals
  mpfr_ui_div : Globals → mpfr_struct → Nat → mpfr_struct → mp_rnd_t → mpfr_struct × Globals
  mpfr_add : Globals → mpfr_struct → mpfr_struct → mpfr_struct → mp_rnd_t →
    mpfr_struct × Globals
  mpfr_div_2ui : Globals → mpfr_struct → mpfr_struct → Nat → mp_rnd_t → mpfr_struct × Globals
  mpfr_can_round : mpfr_struct → Int → mp_rnd_t → mp_rnd_t → Nat → Bool
  mpfr_set : Globals → mpfr_struct → mpfr_struct → mp_rnd_t → mpfr_struct × Int × Globals

/-- The `do ... while` loop of `mpfr_cosh`, lines 88-113; `Nt` is the working precision.
Returns `t` and the global state. -/
def cosh_loop (X : CoshCallees) (x y : mpfr_struct) (rnd_mode : mp_rnd_t) :
    Nat → Globals → mpfr_struct → mpfr_struct → mpfr_struct → Nat →
      Except Stop (mpfr_struct × Globals)
  | 0, _, _, _, _, _ => .error Stop.fuel
  | fuel + 1, G, t, te, ti, Nt =>
    let t := X.mpfr_set_prec t Nt
    let te := X.mpfr_set_prec te Nt
    let ti := X.mpfr_set_prec ti Nt
    let r1 := X.mpfr_exp G te x GMP_RNDD
    let r2 := X.mpfr_ui_div r1.2 ti 1 r1.1 GMP_RNDU
    let r3 := X.mpfr_add r2.2 t r1.1 r2.1 GMP_RNDN
    let r4 := X.mpfr_div_2ui r3.2 r3.1 r3.1 1 GMP_RNDN
    let err : Int := (Nt : Int) - 3
    let Ny := y.prec
    if err < 0 ∨ ¬ X.mpfr_can_round r4.1 err GMP_RNDN GMP_RNDZ
        (Ny + (if rnd_mode = GMP_RNDN then 1 else 0)) then
      cosh_loop X x y rnd_mode fuel r4.2 r4.1 r1.1 r2.1 (Nt + 10)
    else .ok (r4.1, r4.2)

/-- The function `mpfr_cosh (y, xt, rnd_mode)` of `cosh.c`, lines 33-124, with `fuel`
bounding the iterations of its loop.  Returns `y`, the inexact code and the global state.
Precisions are natural numbers; their arithmetic is taken without wrap-around. -/
def mpfr_cosh (W : Nat) (X : CoshCallees) (fuel : Nat) (G : Globals) (y xt : mpfr_struct)
    (rnd_mode : mp_rnd_t) : Except Stop (mpfr_struct × Int × Globals) :=
  let Nxt := xt.prec
  if MPFR_IS_SINGULAR xt then
    if MPFR_IS_NAN xt then
      let r := MPFR_RET_NAN G
      .ok (MPFR_SET_NAN y, r.1, r.2)
    else if MPFR_IS_INF xt then
      let r := MPFR_RET G 0
      .ok (MPFR_SET_POS (MPFR_SET_INF y), r.1, r.2)
    else if MPFR_IS_ZERO xt then .ok (mpfr_set_ui W G y 1 rnd_mode)
    else .error Stop.assert
  else do
    let x := X.mpfr_init2 Nxt
    let r0 := X.mpfr_abs G x xt GMP_RNDN
    let Ny := y.prec
    let Nt := max Nxt Ny
    let Nt := Nt + 3 + X.gmpfr_ceil_log2 Nt
    let l ← cosh_loop X r0.1 y rnd_mode fuel r0.2 X.mpfr_init X.mpfr_init X.mpfr_init Nt
    let s := X.mpfr_set l.2 y l.1 rnd_mode
    pure s

/-- Modelled from the spec: the rational number a regular value of the later sources stands
for, `sign * 0.m * 2 ^ exponent`. -/
def sval (W : Nat) (x : mpfr_struct) : ℚ :=
  (x.sign : ℚ) * (limbsVal W x.mant : ℚ) *
    (2 : ℚ) ^ (x.exp - ((((x.prec - 1) / W + 1) * W : Nat) : Int))

/-- The object `y` after the value `1 = 0.1b * 2 ^ 1` has been stored in it. -/
def store_one (W : Nat) (y : mpfr_struct) : mpfr_struct :=
  { y with sign := 1, exp := 1,
           mant := toLimbs W ((y.prec - 1) / W + 1) (2 ^ (((y.prec - 1) / W + 1) * W - 1)) }

/-- An exponent range that does not contain the exponent of `1`. -/
def c14_G : Globals := ⟨0, -100, 0⟩

/-- A destination of precision 2. -/
def c14_y : mpfr_struct := ⟨2, -1, 7, [5]⟩

/-- A zero of precision 2. -/
def c14_zero : mpfr_struct := ⟨2, 1, MPFR_EXP_ZERO, [0]⟩

/-- The value `+Inf` at precision 2. -/
def c14_r : mpfr_struct := ⟨2, 1, MPFR_EXP_INF, [9223372036854775808]⟩

/-- The value `-Inf` at precision 53. -/
def c15_inf : mpfr_struct := ⟨53, -1, MPFR_EXP_INF, [0]⟩

/-! ## The two carries of `mpfr_add1` -/

/-- The carry `cc` that the limb addition of lines 250 and 253 of `mpfr_add1` returns, on the
buffers of `add1_core`; it is 0 when `diff_exp >= PREC(a)`, where no limb addition takes
place. -/
def sum_carry (W : Nat) (pa pb pc : Nat) (ap bp cp : List Nat) (diff_exp : Int) :
    Except Fault Nat := do
  let an : Int := (((pa - 1) / W + 1 : Nat) : Int)
  let sh := an * W - pa
  let bn : Int := (((pb - 1) / W + 1 : Nat) : Int)
  let cn : Int := (((pc - 1) / W + 1 : Nat) : Int)
  let dif : Int := pa - diff_exp
  if dif ≤ 0 then pure 0
  else
    let s ← near_shift W pc sh an cn dif diff_exp ap cp
    let r ←
      (if pb ≤ pa then mpn_add_n W s.1 (an - bn) bp 0 bn
      else mpn_add_n W s.1 0 bp (bn - an) an)
    pure r.2

/-- The carry `cc` that the `mpn_add_1` of line 371 of `mpfr_add1` returns, on the buffers of
`add1_core`; it is 0 when control does not reach the label `add_one_ulp`. -/
def ulp_carry (W : Nat) (pa pb pc : Nat) (ap bp cp : List Nat)
    (nzc : List Nat → Except Fault Nat) (b : mpfr_t) (rnd_mode : mp_rnd_t) (diff_exp : Int) :
    Except Fault Nat := do
  let an : Int := (((pa - 1) / W + 1 : Nat) : Int)
  let sh := an * W - pa
  let bn : Int := (((pb - 1) / W + 1 : Nat) : Int)
  let cn : Int := (((pc - 1) / W + 1 : Nat) : Int)
  let dif : Int := pa - diff_exp
  let r ←
    (if dif ≤ 0 then do
      let r ←
        (if pb ≤ pa then far_copy W pa sh an bn ap bp cp pc nzc b rnd_mode diff_exp
        else far_round W sh an bn cn dif ap bp cp b rnd_mode)
      pure (r.1, (0 : Int), 0, r.2)
    else near W pa pb pc sh an bn cn dif diff_exp ap bp cp b rnd_mode)
  let t ←
    (match r.2.2.2 with
    | Goto.to_nearest bp bn k dif => to_nearest W sh r.2.2.1 r.1 bp bn k dif rnd_mode
    | Goto.add_one_ulp => pure (r.1, true)
    | Goto.end_of_add => pure (r.1, false))
  if t.2 then
    let m ← shl W 1 sh
    let q ← mpn_add_1 W t.1 0 an m
    pure q.2
  else pure 0

/-- The carry of the limb addition in the call `mpfr_add1 (a, b, c, rnd_mode, diff_exp)`. -/
def add1_sum_carry (W : Nat) (h : Heap) (a b c : Ptr) (diff_exp : Int) : Except Fault Nat :=
  let h := h.set a (add1_header h a b)
  sum_carry W (h a).prec (h b).prec (h c).prec (h a).mant (h b).mant (h c).mant diff_exp

/-- The carry of the one-ulp increment in the call
`mpfr_add1 (a, b, c, rnd_mode, diff_exp)`. -/
def add1_ulp_carry (W : Nat) (h : Heap) (a b c : Ptr) (rnd_mode : mp_rnd_t) (diff_exp : Int) :
    Except Fault Nat :=
  let h := h.set a (add1_header h a b)
  ulp_carry W (h a).prec (h b).prec (h c).prec (h a).mant (h b).mant (h c).mant
    (nzc_of W h a c) (h b) rnd_mode diff_exp

/-- Destination of precision 4. -/
def c20_a : mpfr_t := ⟨4, false, false, 0, [0]⟩

/-- The value `0.1111b = 15/16`, precision 4. -/
def c20_b : mpfr_t := ⟨4, false, false, 0, [17293822569102704640]⟩

/-- The value `0.11111b = 31/32`, precision 5. -/
def c20_c : mpfr_t := ⟨5, false, false, 0, [17870283321406128128]⟩

/-- The value `0.1b * 2 ^ 2 = 2`, precision 4. -/
def c20_r : mpfr_t := ⟨4, false, false, 2, [9223372036854775808]⟩

/-- The significand of `b` truncated to `p` bits (padded with zeros when `p` exceeds
`PREC(b)`): the integer `floor (0.m * 2 ^ p)`, where `0.m` is read from the significant
limbs of `b`. -/
def truncSig (W : Nat) (b : mpfr_t) (p : Nat) : Nat :=
  limbsVal W (b.mant.take (nlimbs W b).toNat) * 2 ^ p / 2 ^ ((nlimbs W b).toNat * W)

/-- The value `0.1111b * 2 = 15/8`, precision 4. -/
def c17_r : mpfr_t := ⟨4, false, false, 1, [17293822569102704640]⟩

/-! ## The rational exponential of `exp3.c` -/

/-- Read entry `i` of a table of integers. -/
def zget (T : List Int) (i : Int) : Except Stop Int :=
  if 0 ≤ i then
    match T[i.toNat]? with
    | some x => .ok x
    | none => .error Stop.index
  else .error Stop.index

/-- Write entry `i` of a table of integers. -/
def zset (T : List Int) (i : Int) (v : Int) : Except Stop (List Int) :=
  if 0 ≤ i ∧ i.toNat < T.length then .ok (T.set i.toNat v) else .error Stop.index

/-- Read entry `i` of a table of `mp_prec_t`. -/
def pget (T : List Nat) (i : Int) : Except Stop Nat :=
  if 0 ≤ i then
    match T[i.toNat]? with
    | some x => .ok x
    | none => .error Stop.index
  else .error Stop.index

/-- Write entry `i` of a table of `mp_prec_t`. -/
def pset (T : List Nat) (i : Int) (v : Nat) : Except Stop (List Nat) :=
  if 0 ≤ i ∧ i.toNat < T.length then .ok (T.set i.toNat v) else .error Stop.index

/-- An integer reduced to the 64 bits of an `unsigned long` (`mp_prec_t`). -/
def to_ulong (z : Int) : Nat := (z % 2 ^ 64).toNat

/-- Trailing zero bits of `n`, looking at no more than `fuel` bits. -/
def scan1_aux : Nat → Nat → Nat
  | 0, _ => 0
  | fuel + 1, n => if n % 2 = 1 then 0 else scan1_aux fuel (n / 2) + 1

/-- Modelled from the spec: the query `mpz_scan1 (p, 0)` of the integer substrate on a
nonzero integer of magnitude `n`: the index of its lowest set bit. -/
def mpz_scan1 (n : Nat) : Nat := scan1_aux n n

/-- C `r << l` for a `long` `r` and an `int` `l` on 64-bit `long`s: defined when the count
lies in `0 .. 63`, `r` is not negative and the result is a `long`. -/
def long_shl (r : Int) (l : Int) : Except Stop Int :=
  if 0 ≤ l ∧ l < 64 ∧ 0 ≤ r ∧ r * 2 ^ l.toNat < 2 ^ 63 then .ok (r * 2 ^ l.toNat)
  else .error Stop.shift

/-- C `1 << t` for the `int` 1 and an `unsigned long` count `t`, on 32-bit `int`s: defined
when the result is an `int`. -/
def int_shl_one (t : Nat) : Except Stop Nat :=
  if t < 31 then .ok (2 ^ t) else .error Stop.shift

/-- Modelled from the spec: `mpz_mul_2exp (z, z, c)` of the integer substrate; the count is
an `unsigned long`, and a negative `long` passed for it asks for more memory than there
is. -/
def mpz_mul_2exp (z : Int) (c : Int) : Except Stop Int :=
  if 0 ≤ c then .ok (z * 2 ^ c.toNat) else .error Stop.alloc

/-- Modelled from the spec: the function `mpfr_set_z (y, z, rnd_mode)`, which is not part of
the sources: `y` becomes the integer `z` rounded to `PREC(y)` bits; a result whose exponent
is outside the exponent range is a range violation (§7); the inexact code is returned. -/
def mpfr_set_z (W : Nat) (G : Globals) (y : mpfr_struct) (z : Int) (rnd : mp_rnd_t) :
    mpfr_struct × Int × Globals :=
  if z = 0 then (MPFR_SET_ZERO (MPFR_SET_POS y), 0, G)
  else
    let sg : Int := if z < 0 then -1 else 1
    let rnd1 : mp_rnd_t :=
      if z < 0 then
        (match rnd with
        | GMP_RNDU => GMP_RNDD
        | GMP_RNDD => GMP_RNDU
        | r => r)
      else rnd
    let r := round_pos y.prec rnd1 z.natAbs
    let n := (y.prec - 1) / W + 1
    let y1 : mpfr_struct :=
      { y with sign := sg, exp := r.2.1, mant := toLimbs W n (r.1 * 2 ^ (n * W - y.prec)) }
    if G.emax < r.2.1 then set_overflow W G y1 rnd
    else if r.2.1 < G.emin then set_underflow W G y1 rnd
    else
      let t := MPFR_RET G (sg * r.2.2)
      (y1, t.1, t.2)

/-- The locals of `mpfr_exp_rational` that its loops change: the table `Q` of `3 * (m + 1)`
integers, in which `S = Q + (m + 1)` and `ptoj = Q + 2 * (m + 1)`; the table `mult` of
`2 * (m + 1)` precisions, in which `log2_nb_terms = mult + (m + 1)`; `k` and
`prec_i_have`. -/
structure ExpSt where
  Q : List Int
  mult : List Nat
  k : Int
  prec_i_have : Nat
deriving DecidableEq

/-- Lines 63-64: `for (k = 1; k < m; k++) mpz_mul (ptoj[k], ptoj[k-1], ptoj[k-1]);`. -/
def exp_squares (m : Nat) : Nat → List Int → Int → Except Stop (List Int)
  | 0, _, _ => .error Stop.fuel
  | fuel + 1, Q, k =>
    if k < m then do
      let x ← zget Q (2 * (m + 1) + k - 1)
      let Q ← zset Q (2 * (m + 1) + k) (x * x)
      exp_squares m fuel Q (k + 1)
    else .ok Q

/-- Lines 85-106: the loop `while ((j & 1) == 0)` that combines and reduces; `j` and `l` are
its counters. -/
def exp_combine (m : Nat) (r : Int) : Nat → ExpSt → Nat → Int → Except Stop ExpSt
  | 0, _, _, _ => .error Stop.fuel
  | fuel + 1, s, j, l =>
    if j % 2 = 0 then do
      let k := s.k
      -- mpz_mul (S[k], S[k], ptoj[l])
      let Sk ← zget s.Q (m + 1 + k)
      let pl ← zget s.Q (2 * (m + 1) + l)
      let Q ← zset s.Q (m + 1 + k) (Sk * pl)
      -- mpz_mul (S[k-1], S[k-1], Q[k])
      let Sk1 ← zget Q (m + 1 + (k - 1))
      let Qk ← zget Q k
      let Q ← zset Q (m + 1 + (k - 1)) (Sk1 * Qk)
      -- mpz_mul_2exp (S[k-1], S[k-1], r << l)
      let Sk1 ← zget Q (m + 1 + (k - 1))
      let rl ← long_shl r l
      let sh ← mpz_mul_2exp Sk1 rl
      let Q ← zset Q (m + 1 + (k - 1)) sh
      -- mpz_add (S[k-1], S[k-1], S[k])
      let Sk1 ← zget Q (m + 1 + (k - 1))
      let Sk ← zget Q (m + 1 + k)
      let Q ← zset Q (m + 1 + (k - 1)) (Sk1 + Sk)
      -- mpz_mul (Q[k-1], Q[k-1], Q[k])
      let Qk1 ← zget Q (k - 1)
      let Qk ← zget Q k
      let Q ← zset Q (k - 1) (Qk1 * Qk)
      -- log2_nb_terms[k-1] ++
      let t ← pget s.mult (m + 1 + (k - 1))
      let mult ← pset s.mult (m + 1 + (k - 1)) (to_ulong (t + 1))
      let Qk ← zget Q k
      let prec_i_have := sizeinbase2 Qk.natAbs
      let pl ← zget Q (2 * (m + 1) + l)
      let prec_ptoj := sizeinbase2 pl.natAbs
      -- mult[k-1] += prec_i_have + (r << l) - prec_ptoj - 1
      let t ← pget mult (k - 1)
      let rl ← long_shl r l
      let v := to_ulong (t + prec_i_have + rl - prec_ptoj - 1)
      let mult ← pset mult (k - 1) v
      -- prec_i_have = mult[k] = mult[k-1]
      let mult ← pset mult k v
      exp_combine m r fuel { Q := Q, mult := mult, k := k - 1, prec_i_have := v } (j / 2)
        (l + 1)
    else .ok s

/-- Lines 76-107: the main loop, `for (i = 1; (prec_i_have < precy) && (i < n); i++)` with
`n = 1UL << m`.  Returns the locals and `i` on exit. -/
def exp_main (precy m : Nat) (r : Int) : Nat → ExpSt → Nat → Except Stop (ExpSt × Nat)
  | 0, _, _ => .error Stop.fuel
  | fuel + 1, s, i =>
    if s.prec_i_have < precy ∧ i < 2 ^ m then do
      let k := s.k + 1
      let mult ← pset s.mult (m + 1 + k) 0
      let Q ← zset s.Q k (i + 1)
      let Q ← zset Q (m + 1 + k) (i + 1)
      let s ← exp_combine m r (i + 2)
        { Q := Q, mult := mult, k := k, prec_i_have := s.prec_i_have } (i + 1) 0
      exp_main precy m r fuel s (i + 1)
    else .ok (s, i)

/-- Lines 111-124: the loop `while (k > 0)` that accumulates all products in `S[0]` and
`Q[0]`. -/
def exp_accumulate (m : Nat) (r : Int) : Nat → List Int → List Nat → Int → Nat →
    Except Stop (List Int)
  | 0, _, _, _, _ => .error Stop.fuel
  | fuel + 1, Q, mult, k, accu =>
    if 0 < k then do
      let j ← pget mult (m + 1 + (k - 1))
      -- mpz_mul (S[k], S[k], ptoj[j])
      let Sk ← zget Q (m + 1 + k)
      let pj ← zget Q (2 * (m + 1) + j)
      let Q ← zset Q (m + 1 + k) (Sk * pj)
      -- mpz_mul (S[k-1], S[k-1], Q[k])
      let Sk1 ← zget Q (m + 1 + (k - 1))
      let Qk ← zget Q k
      let Q ← zset Q (m + 1 + (k - 1)) (Sk1 * Qk)
      -- accu += 1 << log2_nb_terms[k]
      let t ← pget mult (m + 1 + k)
      let one ← int_shl_one t
      let accu := to_ulong (accu + one)
      -- mpz_mul_2exp (S[k-1], S[k-1], r * accu)
      let Sk1 ← zget Q (m + 1 + (k - 1))
      let sh ← mpz_mul_2exp Sk1 (to_ulong (r * accu))
      let Q ← zset Q (m + 1 + (k - 1)) sh
      -- mpz_add (S[k-1], S[k-1], S[k])
      let Sk1 ← zget Q (m + 1 + (k - 1))
      let Sk ← zget Q (m + 1 + k)
      let Q ← zset Q (m + 1 + (k - 1)) (Sk1 + Sk)
      -- mpz_mul (Q[k-1], Q[k-1], Q[k])
      let Qk1 ← zget Q (k - 1)
      let Qk ← zget Q k
      let Q ← zset Q (k - 1) (Qk1 * Qk)
      exp_accumulate m r fuel Q mult (k - 1) accu
    else .ok Q

/-- Lines 52-74 of `mpfr_exp_rational`: the assertions, the normalisation of `p` and the
initial values.  Returns the locals and the normalised `r`. -/
def exp_init (p : Int) (r : Int) (m : Nat) (Q : List Int) (mult : List Nat) :
    Except Stop (ExpSt × Int) := do
  if ¬ m < 63 then .error Stop.assert
  else if p = 0 then .error Stop.assert
  else
    let n := mpz_scan1 p.natAbs
    let p := p.tdiv (2 ^ n)
    let r := r - n
    let Q ← zset Q (2 * (m + 1)) p
    let Q ← exp_squares m (m + 1) Q 1
    let Q ← zset Q 0 1
    let Q ← zset Q (m + 1) 1
    let mult ← pset mult 0 0
    let mult ← pset mult (m + 1) 0
    pure ({ Q := Q, mult := mult, k := 0, prec_i_have := 0 }, r)

/-- Lines 126-149 of `mpfr_exp_rational`: `S[0]` is brought to `2 * precy` bits, `Q[0]` to
`precy` bits, the truncated quotient is stored in `y` rounded toward minus infinity and the
exponent of `y` is adjusted.  Returns `y` and the global state. -/
def exp_finish (W : Nat) (G : Globals) (y : mpfr_struct) (r : Int) (m : Nat) (Q : List Int)
    (i : Nat) : Except Stop (mpfr_struct × Globals) := do
  let precy := y.prec
  let S0 ← zget Q (m + 1)
  let prec_i_have := sizeinbase2 S0.natAbs
  let diff : Int := (prec_i_have : Int) - 2 * (precy : Int)
  let expo := diff
  let S0 ← (if 0 ≤ diff then pure (S0.fdiv (2 ^ diff.toNat)) else mpz_mul_2exp S0 (-diff))
  let Q0 ← zget Q 0
  let prec_i_have := sizeinbase2 Q0.natAbs
  let diff : Int := (prec_i_have : Int) - (precy : Int)
  let expo := expo - diff
  let Q0 ← (if 0 < diff then pure (Q0.fdiv (2 ^ diff.toNat)) else mpz_mul_2exp Q0 (-diff))
  if Q0 = 0 then .error Stop.divide
  else
    let S0 := S0.tdiv Q0
    let t := mpfr_set_z W G y S0 GMP_RNDD
    pure ({ t.1 with exp := t.1.exp + expo - r * ((i : Int) - 1) }, t.2.2)

/-- The function `mpfr_exp_rational (y, p, r, m, Q, mult)` of `exp3.c`, lines 42-150, on
64-bit `long`s.  Returns `y` and the global state.  The additions and subtractions of `long`s
are taken without wrap-around; a shift `r << l` or `1 << t` whose result does not fit its
type is undefined; the arithmetic of `mp_prec_t` and of `unsigned long` wraps at `2 ^ 64`. -/
def mpfr_exp_rational (W : Nat) (G : Globals) (y : mpfr_struct) (p : Int) (r : Int) (m : Nat)
    (Q : List Int) (mult : List Nat) : Except Stop (mpfr_struct × Globals) := do
  let s ← exp_init p r m Q mult
  let t ← exp_main y.prec m s.2 (2 ^ m) s.1 1
  let Q ← exp_accumulate m s.2 (t.1.k.toNat + 1) t.1.Q t.1.mult t.1.k 0
  exp_finish W G y s.2 m Q t.2

/-- The state of `mpfr_exp_rational` when its main loop ends: `prec_i_have` and `i`. -/
def exp_terms (precy : Nat) (p : Int) (r : Int) (m : Nat) (Q : List Int) (mult : List Nat) :
    Except Stop (Nat × Nat) := do
  let s ← exp_init p r m Q mult
  let t ← exp_main precy m s.2 (2 ^ m) s.1 1
  pure (t.1.prec_i_have, t.2)

/-- An exponent range that contains every exponent of the examples. -/
def c12_G : Globals := ⟨0, -1000, 1000⟩

/-- A destination of precision 2. -/
def c12_y : mpfr_struct := ⟨2, 1, 0, [0]⟩

/-- The value `0.10b * 2 ^ 1 = 1`, precision 2. -/
def c12_r : mpfr_struct := ⟨2, 1, 1, [9223372036854775808]⟩

/-- A table `Q` for `m = 2`, all entries 0 as `mpz_init` leaves them. -/
def c12_Q : List Int := [0, 0, 0, 0, 0, 0, 0, 0, 0]

/-- A table `mult` for `m = 2`. -/
def c12_mult : List Nat := [0, 0, 0, 0, 0, 0]

/-- A destination of precision 4. -/
def c12_y4 : mpfr_struct := ⟨4, 1, 0, [0]⟩

/-- The value `0.1010b * 2 ^ (-1) = 5/16`, precision 4. -/
def c12_r4 : mpfr_struct := ⟨4, 1, -1, [11529215046068469760]⟩

/-! ## Formatted output of a floating-point number (`vasprintf.c`)

Strings are lists of characters without their terminating NUL.  A pointer into a string is
the index of the string in the list `sl` of registered strings and an offset.  The fields of
type `int` are unbounded integers; a conversion from `long` or `size_t` to `int` is written
`to_int`.  The sticky flags that the arithmetic functions raise are not part of the results
modelled here. -/

/-- The NUL character. -/
def NUL : Char := Char.ofNat 0

/-- The constant `INT_MAX` of a 32-bit `int`. -/
def INT_MAX : Int := 2 ^ 31 - 1

/-- An integer converted to a 64-bit `size_t`. -/
def to_size_t (z : Int) : Nat := (z % 2 ^ 64).toNat

/-- Padding type (`enum pad_t`). -/
inductive pad_t
  | LEFT
  | LEADING_ZEROS
  | RIGHT
deriving DecidableEq

/-- The fields of `struct printf_spec` that the printing of a floating-point number
reads. -/
structure printf_spec where
  alt : Bool
  space : Bool
  left : Bool
  showsign : Bool
  width : Int
  prec : Int
  rnd_mode : mp_rnd_t
  spec : Char
  pad : Char
deriving DecidableEq

/-- A `char *` into a registered string. -/
structure CPtr where
  idx : Nat
  off : Int
deriving DecidableEq

/-- The record `struct number_parts`; a NULL pointer is `none`, and `sl` holds the registered
strings. -/
structure number_parts where
  pad_type : pad_t
  pad_size : Int
  sign : Char
  prefix_ptr : Option CPtr
  prefix_size : Int
  ip_ptr : Option CPtr
  ip_size : Int
  ip_trailing_zeros : Int
  point : Char
  fp_leading_zeros : Int
  fp_ptr : Option CPtr
  fp_size : Int
  fp_trailing_zeros : Int
  exp_ptr : Option CPtr
  exp_size : Int
  sl : List (List Char)
deriving DecidableEq

/-- The record `struct string_buffer`: the characters from `start` to `curr` and the
capacity `size`. -/
structure string_buffer where
  chars : List Char
  size : Nat
deriving DecidableEq

/-- Functions of the library and of the C library that the printing functions call and
whose code is not part of the sources; they are parameters of the embedding.  Each
arithmetic function returns the object it writes. -/
structure PrintCallees where
  MPFR_DECIMAL_POINT : Char
  mpfr_init2 : Nat → mpfr_struct
  mpfr_set_si : mpfr_struct → Int → mp_rnd_t → mpfr_struct
  mpfr_exp10 : mpfr_struct → mpfr_struct → mp_rnd_t → mpfr_struct
  mpfr_ui_sub : mpfr_struct → Nat → mpfr_struct → mp_rnd_t → mpfr_struct
  mpfr_div_2ui : mpfr_struct → mpfr_struct → Nat → mp_rnd_t → mpfr_struct
  mpfr_div_ui : mpfr_struct → mpfr_struct → Nat → mp_rnd_t → mpfr_struct
  mpfr_log10 : mpfr_struct → mpfr_struct → mp_rnd_t → mpfr_struct
  mpfr_floor : mpfr_struct → mpfr_struct → mpfr_struct
  mpfr_abs : mpfr_struct → mpfr_struct → mp_rnd_t → mpfr_struct
  mpfr_add_ui : mpfr_struct → mpfr_struct → Nat → mp_rnd_t → mpfr_struct
  mpfr_cmp : mpfr_struct → mpfr_struct → Int
  mpfr_cmp_si : mpfr_struct → Int → Int
  mpfr_cmp_ui : mpfr_struct → Nat → Int
  mpfr_get_ui : mpfr_struct → mp_rnd_t → Nat
  mpfr_get_si : mpfr_struct → mp_rnd_t → Int
  mpfr_get_str : Nat → Nat → mpfr_struct → mp_rnd_t → List Char × Int
  sprintf : List Char → Int → Int × List Char

/-! ### Strings and the output buffer -/

/-- The characters from the pointer to the terminating NUL. -/
def cstr (sl : List (List Char)) (p : CPtr) : Except Stop (List Char) :=
  match sl[p.idx]? with
  | some a =>
    if 0 ≤ p.off ∧ p.off.toNat ≤ a.length then .ok (a.drop p.off.toNat)
    else .error Stop.index
  | none => .error Stop.index

/-- The C function `strlen`. -/
def strlen (sl : List (List Char)) (p : CPtr) : Except Stop Nat := do
  let s ← cstr sl p
  pure s.length

/-- The character `*p`; the terminating NUL can be read. -/
def cread (sl : List (List Char)) (p : CPtr) : Except Stop Char :=
  match sl[p.idx]? with
  | some a =>
    if 0 ≤ p.off then
      match a[p.off.toNat]? with
      | some c => .ok c
      | none => if p.off.toNat = a.length then .ok NUL else .error Stop.index
    else .error Stop.index
  | none => .error Stop.index

/-- The function `register_string` (lines 499-512): the string joins the list and its
address is returned. -/
def register_string (np : number_parts) (s : List Char) : number_parts × CPtr :=
  ({ np with sl := np.sl ++ [s] }, ⟨np.sl.length, 0⟩)

/-- The function `buffer_cat (b, s, len)` (lines 418-436) for the string `s`, with the
`int` that the caller passes for `len`.  The conversion to `size_t` turns a negative `int`
into a number of at least `2 ^ 64 - 2 ^ 31`, which `MPFR_ASSERTD (len <= strlen (s))`
refuses; the assertions are taken as checked. -/
def buffer_cat (b : string_buffer) (s : List Char) (len : Int) : Except Stop string_buffer :=
  if len < 0 then .error Stop.assert
  else if ¬ (0 < (b.size + len.toNat + 1) % 2 ^ 64
      ∧ (b.size + len.toNat + 1) % 2 ^ 64 < 2 ^ 64 - 1) then
    .error Stop.assert
  else if ¬ len.toNat ≤ s.length then .error Stop.assert
  else
    let size :=
      if b.size < b.chars.length + len.toNat + 1 then
        (b.size + (if 4096 < len.toNat + 1 then len.toNat + 1 else 4096)) % 2 ^ 64
      else b.size
    .ok { chars := b.chars ++ s.take len.toNat, size := size }

/-- The function `buffer_pad (b, c, n)` (lines 439-451), with the `int` that the caller
passes for `n`.  The conversion to `size_t` turns a negative `int` into a number of at least
`2 ^ 64 - 2 ^ 31`; a block of that size is not allocated (for `n = SIZE_MAX` the request
wraps to 0 and `memset` writes outside the block).  A block filled with NUL is the empty
string. -/
def buffer_pad (b : string_buffer) (c : Char) (n : Int) : Except Stop string_buffer :=
  if n = 0 then .ok b
  else if n < 0 then .error Stop.alloc
  else buffer_cat b (if c = NUL then [] else List.replicate n.toNat c) n

/-! ### The parts of a number -/

/-- Modelled from the spec: the header macro `MPFR_LIMB_MASK (s)`, the `s` low bits of a
limb. -/
def MPFR_LIMB_MASK (s : Int) : Nat := 2 ^ s.toNat - 1

/-- Read limb `i` of a significand. -/
def lrd (pm : List Nat) (i : Int) : Except Stop Nat :=
  if 0 ≤ i then
    match pm[i.toNat]? with
    | some x => .ok x
    | none => .error Stop.index
  else .error Stop.index

/-- C `x >> n` on a limb of `W` bits. -/
def lshr (W : Nat) (x : Nat) (n : Int) : Except Stop Nat :=
  if 0 ≤ n ∧ n < W then .ok (x / 2 ^ n.toNat) else .error Stop.shift

/-- C `x << n` on a limb of `W` bits. -/
def lshl (W : Nat) (x : Nat) (n : Int) : Except Stop Nat :=
  if 0 ≤ n ∧ n < W then .ok ((x * 2 ^ n.toNat) % 2 ^ W) else .error Stop.shift

/-- The sign character (lines 573-576, 823-826, 934-937, 1341-1345). -/
def set_sign (np : number_parts) (p : mpfr_struct) (spec : printf_spec) : number_parts :=
  if MPFR_IS_NEG p then { np with sign := '-' }
  else if spec.showsign ∨ spec.space then
    { np with sign := if spec.showsign then '+' else ' ' }
  else np

/-- The direction chosen by a directed rounding mode: 1 away from zero, 0 toward zero, -1
when not decided yet (lines 639-642, 1072-1075, 1437-1440). -/
def rnd_away_of (p : mpfr_struct) (rnd : mp_rnd_t) : Int :=
  match rnd with
  | GMP_RNDD => if MPFR_IS_NEG p then 1 else 0
  | GMP_RNDU => if MPFR_IS_POS p then 1 else 0
  | GMP_RNDZ => 0
  | GMP_RNDN => -1

/-- Lines 745-751, 856-862, 1128-1134 and 1203-1209: the loop
`while ((*ptr == '0') && str_len) { --ptr; --str_len; }`, with `ptr` at `str + str_len - 1`
on entry.  Returns `str_len`. -/
def trim_zeros (sl : List (List Char)) (str : CPtr) : Nat → Nat → Except Stop Nat
  | 0, _ => .error Stop.fuel
  | fuel + 1, str_len => do
    let c ← cread sl ⟨str.idx, str.off + str_len - 1⟩
    if c = '0' ∧ str_len ≠ 0 then trim_zeros sl str fuel (str_len - 1) else pure str_len

/-- Lines 776-783 and 891-898: `while (x > 9) { np->exp_size++; x /= 10; }`.  The loop ends
after fewer than `x` rounds, so `fuel = x` is enough. -/
def exp_size_loop : Nat → Nat → Int → Int
  | 0, _, n => n
  | fuel + 1, x, n => if 9 < x then exp_size_loop fuel (x / 10) (n + 1) else n

/-- Lines 703-729: the digits from `str` on are put in upper case. -/
def to_upper (sl : List (List Char)) (str : CPtr) : Except Stop (List (List Char)) :=
  match sl[str.idx]? with
  | some a =>
    if 0 ≤ str.off ∧ str.off.toNat ≤ a.length then
      .ok (sl.set str.idx (a.take str.off.toNat ++ (a.drop str.off.toNat).map (fun c =>
        if c = 'a' then 'A' else if c = 'b' then 'B' else if c = 'c' then 'C'
        else if c = 'd' then 'D' else if c = 'e' then 'E' else if c = 'f' then 'F' else c)))
    else .error Stop.index
  | none => .error Stop.index

/-- Line 661: `while ((ps > 0) && (limb == 0)) limb = pm[--ps];`. -/
def hex_loop (pm : List Nat) : Nat → Int → Nat → Except Stop Nat
  | 0, _, _ => .error Stop.fuel
  | fuel + 1, ps, limb =>
    if 0 < ps ∧ limb = 0 then do
      let x ← lrd pm (ps - 1)
      hex_loop pm fuel (ps - 1) x
    else .ok limb

/-- Lines 627-689 of `regular_ab`: the single hexadecimal digit and the exponent. -/
def hex_digit (W : Nat) (p : mpfr_struct) (rnd : mp_rnd_t) : Except Stop (Nat × Int) := do
  let rnd_away := rnd_away_of p rnd
  let exp := p.exp - 4
  let shift : Int := (W : Int) - 4
  let ps : Int := (((p.prec - 1) / W : Nat) : Int)
  let x ← lrd p.mant ps
  let digit ← lshr W x shift
  if 4 < p.prec then do
    let rnd_away ←
      (if rnd_away = -1 then do
        let mask ← lshl W 1 (shift - 1)
        let rb := x &&& mask
        if rb = 0 then pure (0 : Int)
        else do
          let limb := x &&& MPFR_LIMB_MASK shift
          let limb ← hex_loop p.mant (ps.toNat + 1) ps limb
          if limb = 0 then pure (if digit &&& 1 ≠ 0 then 1 else 0) else pure 1
      else pure rnd_away)
    if rnd_away < 0 then .error Stop.assert
    else if rnd_away ≠ 0 then
      if 15 < digit + 1 then pure ((digit + 1) / 2, exp + 1) else pure (digit + 1, exp)
    else pure (digit, exp)
  else pure (digit, exp)

/-- The table `num_to_text` (line 66). -/
def num_to_text : List Char := "0123456789abcdef".toList

/-- Lines 731-764 of `regular_ab` and 841-875 of `regular_eg`: the fractional digits that
follow the first digit at `str`.  `trim` tells whether trailing zeros are removed and `fill`
whether missing digits are made up by trailing zeros.  Returns `none` for the error
return. -/
def fraction_digits (np : number_parts) (str : CPtr) (spec : printf_spec) (trim fill : Bool) :
    Except Stop (Option number_parts) := do
  let str : CPtr := ⟨str.idx, str.off + 1⟩
  let str_len ← strlen np.sl str
  let str_len ← (if trim then trim_zeros np.sl str (str_len + 1) str_len else pure str_len)
  if INT_MAX < str_len then pure none
  else if str_len ≠ 0 then
    let np := { np with fp_ptr := some str, fp_size := to_int str_len }
    if fill ∧ to_int str_len < spec.prec then
      pure (some { np with fp_trailing_zeros := to_int (spec.prec - str_len) })
    else pure (some np)
  else pure (some np)

/-- Lines 770-798 of `regular_ab` and 881-915 of `regular_eg`: the exponent part, written by
`sprintf` with the format `fmt` into a fresh string of `1 + exp_size` bytes.  `least` is 4
in `regular_eg` (lines 899-900) and 3, which changes nothing, in `regular_ab`.  Returns the
return value of the function. -/
def exponent_part (X : PrintCallees) (np : number_parts) (exp : Int) (least : Int)
    (fmt : List Char) : Except Stop (Int × number_parts) := do
  let x := to_size_t exp.natAbs
  let np := { np with exp_size := exp_size_loop x x 3 }
  let np := if np.exp_size < least then { np with exp_size := least } else np
  let r := register_string np []
  let np := { r.1 with exp_ptr := some r.2 }
  let out := X.sprintf fmt exp
  if out.1 < 0 then pure (-1, np)
  else if np.exp_size < out.2.length then .error Stop.index
  else pure (0, { np with sl := np.sl.set r.2.idx out.2 })

/-- The function `regular_ab (np, p, spec)` (lines 563-800).  Returns its return value and
`np`. -/
def regular_ab (W : Nat) (X : PrintCallees) (np : number_parts) (p : mpfr_struct)
    (spec : printf_spec) : Except Stop (Int × number_parts) := do
  let uppercase : Bool := spec.spec = 'A'
  let np := set_sign np p spec
  let np :=
    if spec.spec = 'a' ∨ spec.spec = 'A' then
      let np := { np with prefix_size := 2 }
      let r := register_string np ['0', if uppercase then 'X' else 'x']
      { r.1 with prefix_ptr := some r.2 }
    else np
  let np := { np with ip_size := 1 }
  let base : Nat := if spec.spec = 'b' then 2 else 16
  let t ←
    (if spec.spec = 'b' ∨ spec.prec ≠ 0 then do
      let nsd : Int :=
        if spec.prec < 0 then 0
        else if spec.prec = 0 ∧ spec.spec = 'b' then 2 else spec.prec + np.ip_size
      let g := X.mpfr_get_str base (to_size_t nsd) p spec.rnd_mode
      let r := register_string np g.1
      let str : CPtr := if MPFR_IS_NEG p then ⟨r.2.idx, r.2.off + 1⟩ else r.2
      let np := { r.1 with ip_ptr := some str }
      let exp := if base = 16 then (g.2 - 1) * 4 else g.2 - 1
      pure (np, str, exp)
    else do
      let d ← hex_digit W p spec.rnd_mode
      match num_to_text[d.1]? with
      | none => .error Stop.assert
      | some c =>
        let np := { np with ip_size := 1 }
        let r := register_string np [c]
        pure ({ r.1 with ip_ptr := some r.2 }, r.2, d.2))
  let np := t.1
  let str := t.2.1
  let exp := t.2.2
  let sl ← (if uppercase then to_upper np.sl str else pure np.sl)
  let np := { np with sl := sl }
  let o ←
    (if spec.spec = 'b' ∨ spec.prec ≠ 0 then
      fraction_digits np str spec (decide (spec.prec < 0)) true
    else pure (some np))
  match o with
  | none => pure (-1, np)
  | some np =>
    let np :=
      if np.fp_size ≠ 0 ∨ spec.alt then { np with point := X.MPFR_DECIMAL_POINT } else np
    exponent_part X np exp 3 ((if uppercase then 'P' else 'p') :: "%+.1li".toList)

/-- The function `regular_eg (np, p, spec)` (lines 807-918).  Returns its return value and
`np`. -/
def regular_eg (X : PrintCallees) (np : number_parts) (p : mpfr_struct) (spec : printf_spec) :
    Except Stop (Int × number_parts) := do
  let uppercase : Bool := spec.spec = 'E' ∨ spec.spec = 'G'
  let spec_g : Bool := spec.spec = 'g' ∨ spec.spec = 'G'
  let keep_trailing_zeros : Bool := (spec_g ∧ spec.alt) ∨ (¬ spec_g ∧ 0 < spec.prec)
  let np := set_sign np p spec
  let np := { np with ip_size := 1 }
  let nsd : Int := if spec.prec < 0 then 0 else spec.prec + np.ip_size
  let g := X.mpfr_get_str 10 (to_size_t nsd) p spec.rnd_mode
  let r := register_string np g.1
  let str : CPtr := if MPFR_IS_NEG p then ⟨r.2.idx, r.2.off + 1⟩ else r.2
  let np := { r.1 with ip_ptr := some str }
  let o ←
    (if spec.prec ≠ 0 then
      fraction_digits np str spec (!keep_trailing_zeros) (decide (¬ spec_g ∨ spec.alt))
    else pure (some np))
  match o with
  | none => pure (-1, np)
  | some np =>
    let np :=
      if np.fp_size ≠ 0 ∨ spec.alt then { np with point := X.MPFR_DECIMAL_POINT } else np
    let exp := g.2 - 1
    exponent_part X np exp 4 ((if uppercase then 'E' else 'e') :: "%+.2li".toList)

/-- An integer converted to a 64-bit `long`. -/
def to_long (z : Int) : Int := (z + 2 ^ 63) % 2 ^ 64 - 2 ^ 63

/-- Lines 946-954 of `regular_fg`: `while (m) { m >>= 1; n++; }`.  The loop ends after at
most `m` rounds, so `fuel = m` is enough. -/
def prec_loop : Nat → Nat → Nat → Nat
  | 0, _, n => n
  | fuel + 1, m, n => if m ≠ 0 then prec_loop fuel (m / 2) (n + 1) else n

/-- Lines 939-960 of `regular_fg`: the variable `x` with enough precision. -/
def fg_init_x (X : PrintCallees) (p : mpfr_struct) : mpfr_struct :=
  let m := to_size_t p.exp.natAbs
  let m := m / 3 + 1
  let n := prec_loop m m 1
  if n ≤ p.prec then X.mpfr_init2 (p.prec + 1) else X.mpfr_init2 n

/-- Lines 966-1004 of `regular_fg`: is `|p| < 1` output as `1.00...0`?  Returns
`rnd_to_one` and `x`. -/
def fg_rnd_to_one (X : PrintCallees) (x p : mpfr_struct) (spec : printf_spec) (spec_g : Bool) :
    Int × mpfr_struct :=
  if spec_g ∨ 0 ≤ spec.prec then
    let u := X.mpfr_init2 p.prec
    let y : mpfr_struct := { p with sign := 1 }
    let u := X.mpfr_set_si u (-spec.prec) GMP_RNDN
    let u := X.mpfr_exp10 u u GMP_RNDN
    let x := X.mpfr_ui_sub x 1 u GMP_RNDN
    let rnd_to_one : Int := if X.mpfr_cmp y x < 0 then 0 else rnd_away_of p spec.rnd_mode
    if rnd_to_one = -1 then
      let x := X.mpfr_div_2ui x u 1 GMP_RNDN
      let x := X.mpfr_ui_sub x 1 x GMP_RNDN
      (if 0 < X.mpfr_cmp y x then 1 else 0, x)
    else (rnd_to_one, x)
  else (0, x)

/-- Lines 1056-1101 of `regular_fg`: `p` is too small for the given precision, the output is
`0.0...00` or `0.0...01`. -/
def fg_too_small (X : PrintCallees) (np : number_parts) (x p : mpfr_struct)
    (spec : printf_spec) (spec_g : Bool) : Except Stop number_parts := do
  let y : mpfr_struct := { p with sign := 1 }
  let rnd_away := rnd_away_of p spec.rnd_mode
  let rnd_away : Int :=
    if rnd_away = -1 then
      let x := X.mpfr_set_si x (-spec.prec) GMP_RNDN
      let x := X.mpfr_exp10 x x GMP_RNDN
      let x := X.mpfr_div_2ui x x 1 GMP_RNDN
      if 0 < X.mpfr_cmp y x then 1 else 0
    else rnd_away
  if rnd_away < 0 then .error Stop.assert
  else if rnd_away ≠ 0 then
    let np :=
      if spec_g then { np with fp_leading_zeros := 3 }
      else { np with fp_leading_zeros := spec.prec - 1 }
    let np := { np with fp_size := 1 }
    let r := register_string np ['1']
    pure { r.1 with fp_ptr := some r.2 }
  else pure { np with fp_leading_zeros := spec.prec }

/-- Lines 1103-1149 of `regular_fg`: some significant digits are output in the fractional
part.  Returns `none` for the error return. -/
def fg_fraction (X : PrintCallees) (np : number_parts) (x p : mpfr_struct)
    (spec : printf_spec) (spec_g keep_trailing_zeros : Bool) :
    Except Stop (Option number_parts) := do
  let nsd : Int :=
    if spec.prec < 0 then 0 else to_long (spec.prec - X.mpfr_get_ui x GMP_RNDZ + 1)
  if nsd < 0 then .error Stop.assert
  else
    let g := X.mpfr_get_str 10 (to_size_t nsd) p spec.rnd_mode
    let r := register_string np g.1
    let str : CPtr := if MPFR_IS_NEG p then ⟨r.2.idx, r.2.off + 1⟩ else r.2
    let np := { r.1 with fp_ptr := some str }
    let np := { np with fp_leading_zeros := if g.2 < 0 then to_int (-g.2) else 0 }
    let str_len ← strlen np.sl str
    let str_len ←
      (if ¬ keep_trailing_zeros then trim_zeros np.sl str (str_len + 1) str_len
      else pure str_len)
    if INT_MAX < str_len then pure none
    else if ¬ 0 < str_len then .error Stop.assert
    else
      let np := { np with fp_size := to_int str_len }
      if ¬ spec_g ∧ np.fp_leading_zeros + np.fp_size < spec.prec then
        pure (some { np with
          fp_trailing_zeros := spec.prec - np.fp_leading_zeros - np.fp_size })
      else pure (some np)

/-- Lines 962-1155 of `regular_fg`: the case `EXP(p) <= 0`, that is `0 < |p| < 1`.  Returns
`none` for the error return. -/
def fg_small (X : PrintCallees) (np : number_parts) (x p : mpfr_struct) (spec : printf_spec)
    (spec_g keep_trailing_zeros : Bool) : Except Stop (Option number_parts) := do
  let t := fg_rnd_to_one X x p spec spec_g
  let x := t.2
  if t.1 < 0 then .error Stop.assert
  else
    let o ←
      (if t.1 ≠ 0 then
        let np := { np with ip_size := 1 }
        let r := register_string np ['1']
        let np := { r.1 with ip_ptr := some r.2 }
        if 0 < spec.prec then
          if spec_g then
            pure (some { np with fp_trailing_zeros := if spec.alt then spec.prec - 1 else 0 })
          else pure (some { np with fp_trailing_zeros := spec.prec })
        else pure (some np)
      else do
        let np := { np with ip_size := 1 }
        let r := register_string np ['0']
        let np := { r.1 with ip_ptr := some r.2 }
        if spec.prec ≠ 0 then
          let y : mpfr_struct := { p with sign := 1 }
          let x := X.mpfr_log10 x y GMP_RNDD
          let x := X.mpfr_floor x x
          let x := X.mpfr_abs x x GMP_RNDD
          if (0 < spec.prec ∧ 0 < X.mpfr_cmp_si x spec.prec)
              ∨ (spec_g ∧ X.mpfr_cmp_ui x 5 = 0) then do
            let np ← fg_too_small X np x p spec spec_g
            pure (some np)
          else fg_fraction X np x p spec spec_g keep_trailing_zeros
        else pure (some np))
    match o with
    | none => pure none
    | some np =>
      if spec.alt ∨ np.fp_leading_zeros ≠ 0 ∨ np.fp_size ≠ 0 ∨ np.fp_trailing_zeros ≠ 0 then
        pure (some { np with point := X.MPFR_DECIMAL_POINT })
      else pure (some np)

/-- Lines 1156-1246 of `regular_fg`: the case `1 <= |p|`.  Returns `none` for the error
return. -/
def fg_large (X : PrintCallees) (np : number_parts) (x p : mpfr_struct) (spec : printf_spec)
    (keep_trailing_zeros : Bool) : Except Stop (Option number_parts) := do
  let x := X.mpfr_abs x p GMP_RNDD
  let x := X.mpfr_log10 x x GMP_RNDZ
  let x := X.mpfr_floor x x
  let x := X.mpfr_add_ui x x 1 GMP_RNDZ
  if 0 < X.mpfr_cmp_ui x INT_MAX.toNat then pure none
  else
    let np := { np with ip_size := to_int (X.mpfr_get_si x GMP_RNDN) }
    let nsd : Int := if spec.prec < 0 then 0 else spec.prec + np.ip_size
    let g := X.mpfr_get_str 10 (to_size_t nsd) p spec.rnd_mode
    let r := register_string np g.1
    let str : CPtr := if MPFR_IS_NEG p then ⟨r.2.idx, r.2.off + 1⟩ else r.2
    let np := { r.1 with ip_ptr := some str }
    if nsd = 0 then
      let str_len ← strlen np.sl str
      if str_len < to_size_t np.ip_size then
        let np := { np with ip_trailing_zeros := to_int (to_size_t np.ip_size - str_len) }
        pure (some { np with ip_size := to_int str_len })
      else
        let frac : CPtr := ⟨str.idx, str.off + np.ip_size⟩
        let str_len := str_len - to_size_t np.ip_size
        let str_len ←
          (if ¬ keep_trailing_zeros then trim_zeros np.sl frac (str_len + 1) str_len
          else pure str_len)
        if INT_MAX < str_len then pure none
        else if str_len ≠ 0 then
          let np := { np with point := X.MPFR_DECIMAL_POINT }
          pure (some { np with fp_ptr := some frac, fp_size := to_int str_len })
        else if spec.alt then pure (some { np with point := X.MPFR_DECIMAL_POINT })
        else pure (some np)
    else if np.ip_size ≠ g.2 then .error Stop.assert
    else if spec.prec ≠ 0 then
      let np := { np with point := X.MPFR_DECIMAL_POINT }
      pure (some { np with fp_ptr := some ⟨str.idx, str.off + np.ip_size⟩,
                           fp_size := spec.prec })
    else if spec.alt then pure (some { np with point := X.MPFR_DECIMAL_POINT })
    else pure (some np)

/-- The function `regular_fg (np, p, spec)` (lines 924-1250).  Returns its return value and
`np`. -/
def regular_fg (X : PrintCallees) (np : number_parts) (p : mpfr_struct) (spec : printf_spec) :
    Except Stop (Int × number_parts) := do
  let spec_g : Bool := spec.spec = 'g' ∨ spec.spec = 'G'
  let keep_trailing_zeros : Bool := spec_g ∧ spec.alt
  let np := set_sign np p spec
  let x := fg_init_x X p
  let o ←
    (if p.exp ≤ 0 then fg_small X np x p spec spec_g keep_trailing_zeros
    else fg_large X np x p spec keep_trailing_zeros)
  match o with
  | none => pure (-1, np)
  | some np => pure (0, np)

/-- Lines 1292-1375 of `partition_number`: the parts of NaN, of an infinity and of zero. -/
def singular_parts (X : PrintCallees) (np : number_parts) (p : mpfr_struct)
    (spec : printf_spec) (uppercase : Bool) : number_parts :=
  if MPFR_IS_NAN p then
    let np := if np.pad_type = pad_t.LEADING_ZEROS then { np with pad_type := pad_t.LEFT } else np
    let np := { np with ip_size := 3 }
    let r := register_string np (if uppercase then "NAN".toList else "nan".toList)
    { r.1 with ip_ptr := some r.2 }
  else if MPFR_IS_INF p then
    let np := if np.pad_type = pad_t.LEADING_ZEROS then { np with pad_type := pad_t.LEFT } else np
    let np := if MPFR_IS_NEG p then { np with sign := '-' } else np
    let np := { np with ip_size := 3 }
    let r := register_string np (if uppercase then "INF".toList else "inf".toList)
    { r.1 with ip_ptr := some r.2 }
  else
    let np := set_sign np p spec
    let np :=
      if spec.spec = 'a' ∨ spec.spec = 'A' then
        let np := { np with prefix_size := 2 }
        let r := register_string np ['0', if uppercase then 'X' else 'x']
        { r.1 with prefix_ptr := some r.2 }
      else np
    let np := { np with ip_size := 1 }
    let r := register_string np ['0']
    let np := { r.1 with ip_ptr := some r.2 }
    let np :=
      if 0 < spec.prec then
        { np with point := X.MPFR_DECIMAL_POINT, fp_trailing_zeros := spec.prec }
      else if spec.alt then { np with point := X.MPFR_DECIMAL_POINT }
      else np
    if spec.spec = 'a' ∨ spec.spec = 'A' ∨ spec.spec = 'b' ∨ spec.spec = 'e'
        ∨ spec.spec = 'E' then
      let np := { np with exp_size := if spec.spec = 'e' ∨ spec.spec = 'E' then 4 else 3 }
      let r := register_string np
        (if spec.spec = 'e' ∨ spec.spec = 'E' then
          (if uppercase then "E+00".toList else "e+00".toList)
        else (if uppercase then "P+0".toList else "p+0".toList))
      { r.1 with exp_ptr := some r.2 }
    else np

/-- Lines 1396-1507 of `partition_number`: the conversion `%g` of a regular number. -/
def general_parts (X : PrintCallees) (np : number_parts) (p : mpfr_struct)
    (spec : printf_spec) : Except Stop (Int × number_parts) := do
  let y : mpfr_struct := { p with sign := 1 }
  let threshold : Int := if spec.prec < 0 then 6 else if spec.prec = 0 then 1 else spec.prec
  let z := X.mpfr_init2 53
  let z := X.mpfr_log10 z y GMP_RNDD
  let x := X.mpfr_get_si z GMP_RNDD
  if x < threshold ∧ -5 ≤ x then
    if x = -5 then
      let round_to_1em4 := rnd_away_of p spec.rnd_mode
      let round_to_1em4 : Int :=
        if round_to_1em4 = -1 then
          let z := X.mpfr_init2 p.prec
          let z := X.mpfr_set_si z (-threshold) GMP_RNDN
          let z := X.mpfr_exp10 z z GMP_RNDN
          let z := X.mpfr_div_2ui z z 1 GMP_RNDN
          let z := X.mpfr_ui_sub z 1 z GMP_RNDN
          let z := X.mpfr_div_ui z z 625 GMP_RNDN
          let z := X.mpfr_div_2ui z z 4 GMP_RNDN
          if X.mpfr_cmp y z < 0 then 0 else 1
        else round_to_1em4
      if round_to_1em4 < 0 then .error Stop.assert
      else if round_to_1em4 ≠ 0 then regular_fg X np p { spec with prec := threshold + 3 }
      else regular_eg X np p { spec with prec := threshold - 1 }
    else regular_fg X np p { spec with prec := to_int (threshold - 1 - x) }
  else regular_eg X np p { spec with prec := threshold - 1 }

/-- Lines 1545-1550 of `partition_number`: the label `error`. -/
def partition_error (np : number_parts) : Int × number_parts :=
  (-1, { np with ip_ptr := none, fp_ptr := none, exp_ptr := none, sl := [] })

/-- The total number of characters of the parts of `np`, padding excluded. -/
def parts_total (np : number_parts) : Int :=
  (if np.sign ≠ NUL then 1 else 0) + np.prefix_size + np.ip_size + np.ip_trailing_zeros
    + (if np.point ≠ NUL then 1 else 0) + np.fp_leading_zeros + np.fp_size
    + np.fp_trailing_zeros + np.exp_size

/-- Lines 1511-1543 of `partition_number`: the number of characters to be written, with the
checks against `INT_MAX` after each addition and the padding up to `spec.width`.  Returns the
return value of `partition_number` and `np`. -/
def count_parts (np : number_parts) (spec : printf_spec) : Int × number_parts :=
  let total : Int := if np.sign ≠ NUL then 1 else 0
  let total := total + np.prefix_size
  let total := total + np.ip_size
  if total < 0 ∨ INT_MAX < total then partition_error np
  else
    let total := total + np.ip_trailing_zeros
    if total < 0 ∨ INT_MAX < total then partition_error np
    else
      let total := total + (if np.point ≠ NUL then 1 else 0)
      let total := total + np.fp_leading_zeros
      if total < 0 ∨ INT_MAX < total then partition_error np
      else
        let total := total + np.fp_size
        if total < 0 ∨ INT_MAX < total then partition_error np
        else
          let total := total + np.fp_trailing_zeros
          if total < 0 ∨ INT_MAX < total then partition_error np
          else
            let total := total + np.exp_size
            if total < 0 ∨ INT_MAX < total then partition_error np
            else if total < spec.width then
              (total + (spec.width - total), { np with pad_size := spec.width - total })
            else (total, np)

/-- The function `partition_number (np, p, spec)` (lines 1262-1551).  Returns its return
value and `np`. -/
def partition_number (W : Nat) (X : PrintCallees) (p : mpfr_struct) (spec : printf_spec) :
    Except Stop (Int × number_parts) := do
  let np : number_parts :=
    { pad_type :=
        if spec.left then pad_t.RIGHT
        else if spec.pad = '0' then pad_t.LEADING_ZEROS else pad_t.LEFT
      pad_size := 0
      sign := NUL
      prefix_ptr := none
      prefix_size := 0
      ip_ptr := none
      ip_size := 0
      ip_trailing_zeros := 0
      point := NUL
      fp_leading_zeros := 0
      fp_ptr := none
      fp_size := 0
      fp_trailing_zeros := 0
      exp_ptr := none
      exp_size := 0
      sl := [] }
  let uppercase : Bool :=
    spec.spec = 'A' ∨ spec.spec = 'E' ∨ spec.spec = 'F' ∨ spec.spec = 'G'
  let r ←
    (if MPFR_IS_SINGULAR p then pure ((0 : Int), singular_parts X np p spec uppercase)
    else if spec.spec = 'a' ∨ spec.spec = 'A' ∨ spec.spec = 'b' then regular_ab W X np p spec
    else if spec.spec = 'f' ∨ spec.spec = 'F' then regular_fg X np p spec
    else if spec.spec = 'e' ∨ spec.spec = 'E' then regular_eg X np p spec
    else general_parts X np p spec)
  if r.1 ≠ 0 then pure (partition_error r.2)
  else pure (count_parts r.2 spec)

/-- The function `sprnt_fp (buf, p, spec)` (lines 1558-1619).  Returns the buffer and the
return value. -/
def sprnt_fp (W : Nat) (X : PrintCallees) (buf : string_buffer) (p : mpfr_struct)
    (spec : printf_spec) : Except Stop (string_buffer × Int) := do
  let r ← partition_number W X p spec
  let length := r.1
  let np := r.2
  if length < 0 then pure (buf, -1)
  else
    let buf ←
      (if np.pad_type = pad_t.LEFT ∧ np.pad_size ≠ 0 then
        buffer_pad buf ' ' np.pad_size
      else pure buf)
    let buf ← (if np.sign ≠ NUL then buffer_pad buf np.sign 1 else pure buf)
    let buf ←
      (match np.prefix_ptr with
      | some q => do
        let s ← cstr np.sl q
        buffer_cat buf s np.prefix_size
      | none => pure buf)
    let buf ←
      (if np.pad_type = pad_t.LEADING_ZEROS ∧ np.pad_size ≠ 0 then
        buffer_pad buf '0' np.pad_size
      else pure buf)
    let buf ←
      (match np.ip_ptr with
      | some q => do
        let s ← cstr np.sl q
        buffer_cat buf s np.ip_size
      | none => pure buf)
    let buf ←
      (if np.ip_trailing_zeros ≠ 0 then buffer_pad buf '0' np.ip_trailing_zeros
      else pure buf)
    let buf ← (if np.point ≠ NUL then buffer_pad buf np.point 1 else pure buf)
    let buf ←
      (if np.fp_leading_zeros ≠ 0 then buffer_pad buf '0' np.fp_leading_zeros
      else pure buf)
    let buf ←
      (match np.fp_ptr with
      | some q => do
        let s ← cstr np.sl q
        buffer_cat buf s np.fp_size
      | none => pure buf)
    let buf ←
      (if np.fp_trailing_zeros ≠ 0 then buffer_pad buf '0' np.fp_trailing_zeros
      else pure buf)
    let buf ←
      (match np.exp_ptr with
      | some q => do
        let s ← cstr np.sl q
        buffer_cat buf s np.exp_size
      | none => pure buf)
    let buf ←
      (if np.pad_type = pad_t.RIGHT ∧ np.pad_size ≠ 0 then
        buffer_pad buf ' ' np.pad_size
      else pure buf)
    pure (buf, length)

/-- The callees as they answer in the conversion of -1.5 with `%12.3e`: `mpfr_get_str` gives
the four digits `1500` with the decimal exponent 1, and `sprintf` writes the exponent part
`e+00`.  The conversion `%e` calls no other function of the table. -/
def c16_X : PrintCallees where
  MPFR_DECIMAL_POINT := '.'
  mpfr_init2 := fun n => ⟨n, 1, MPFR_EXP_NAN, []⟩
  mpfr_set_si := fun x _ _ => x
  mpfr_exp10 := fun x _ _ => x
  mpfr_ui_sub := fun x _ _ _ => x
  mpfr_div_2ui := fun x _ _ _ => x
  mpfr_div_ui := fun x _ _ _ => x
  mpfr_log10 := fun x _ _ => x
  mpfr_floor := fun x _ => x
  mpfr_abs := fun x _ _ => x
  mpfr_add_ui := fun x _ _ _ => x
  mpfr_cmp := fun _ _ => 0
  mpfr_cmp_si := fun _ _ => 0
  mpfr_cmp_ui := fun _ _ => 0
  mpfr_get_ui := fun _ _ => 0
  mpfr_get_si := fun _ _ => 0
  mpfr_get_str := fun _ _ _ _ => (['-', '1', '5', '0', '0'], 1)
  sprintf := fun _ _ => (4, ['e', '+', '0', '0'])

/-- The number -1.5 with a precision of 4 bits. -/
def c16_p : mpfr_struct := ⟨4, -1, 1, [13835058055282163712]⟩

/-- The conversion `%12.3e` with rounding to nearest. -/
def c16_spec : printf_spec := ⟨false, false, false, false, 12, 3, GMP_RNDN, 'e', ' '⟩

/-- A buffer that holds `x=`. -/
def c16_buf : string_buffer := ⟨['x', '='], 4096⟩

/-- The buffer `c16_buf` after -1.5 is printed with `%12.3e`. -/
def c16_out : string_buffer :=
  ⟨['x', '=', ' ', ' ', '-', '1', '.', '5', '0', '0', 'e', '+', '0', '0'], 4096⟩

/-- A part of the number that has no string has size 0, and no padding is chosen yet. -/
def PartsInv (np : number_parts) : Prop :=
  np.pad_size = 0 ∧ (np.prefix_ptr = none → np.prefix_size = 0)
    ∧ (np.ip_ptr = none → np.ip_size = 0) ∧ (np.fp_ptr = none → np.fp_size = 0)
    ∧ (np.exp_ptr = none → np.exp_size = 0)

/-- The value `0.10b = 1/2`, precision 2. -/
def c22_b : mpfr_t := ⟨2, false, false, 0, [9223372036854775808]⟩

/-- The value `0.1b * 2 ^ (-64) = 2 ^ (-65)`, precision 1. -/
def c22_c : mpfr_t := ⟨1, false, false, -64, [9223372036854775808]⟩

/-! ## Observers and invariants of `mpfr_exp_rational` -/

/-- Lines 82-111 of `exp3.c`: the body of the main loop of `mpfr_exp_rational` for the
counter `i`. -/
def exp_body (m : Nat) (r : Int) (s : ExpSt) (i : Nat) : Except Stop ExpSt := do
  let k := s.k + 1
  let mult ← pset s.mult (m + 1 + k) 0
  let Q ← zset s.Q k (i + 1)
  let Q ← zset Q (m + 1 + k) (i + 1)
  exp_combine m r (i + 2)
    { Q := Q, mult := mult, k := k, prec_i_have := s.prec_i_have } (i + 1) 0

/-- The main loop of `mpfr_exp_rational` (lines 79-112) as `exp_main` runs it, recording the
locals and the counter `i` each time the guard of line 79 is evaluated; the last entry is the
state in which the loop is left. -/
def exp_heads (precy m : Nat) (r : Int) : Nat → ExpSt → Nat →
    Except Stop (List (ExpSt × Nat))
  | 0, _, _ => .error Stop.fuel
  | fuel + 1, s, i =>
    if s.prec_i_have < precy ∧ i < 2 ^ m then do
      let s' ← exp_body m r s i
      let L ← exp_heads precy m r fuel s' (i + 1)
      pure ((s, i) :: L)
    else .ok [(s, i)]

/-- The guard evaluations of the main loop in a call of `mpfr_exp_rational` for a destination
of precision `precy`, with the normalised `r`. -/
def exp_rational_heads (precy : Nat) (p : Int) (r : Int) (m : Nat) (Q : List Int)
    (mult : List Nat) : Except Stop (List (ExpSt × Nat) × Int) := do
  let s ← exp_init p r m Q mult
  let L ← exp_heads precy m s.2 (2 ^ m) s.1 1
  pure (L, s.2)

/-- The table `Q` (with `S` and `ptoj` in it) after the accumulation loop of lines 116-129 in
a call of `mpfr_exp_rational` for a destination of precision `precy`, the final value of the
counter `i` and the normalised `r`. -/
def exp_accumulated (precy : Nat) (p : Int) (r : Int) (m : Nat) (Q : List Int)
    (mult : List Nat) : Except Stop (List Int × Nat × Int) := do
  let s ← exp_init p r m Q mult
  let t ← exp_main precy m s.2 (2 ^ m) s.1 1
  let Q ← exp_accumulate m s.2 (t.1.k.toNat + 1) t.1.Q t.1.mult t.1.k 0
  pure (Q, t.2, s.2)

/-- The numerator `p` of `mpfr_exp_rational` after the normalisation of lines 61-62. -/
def exp_norm_p (p : Int) : Int := p.tdiv (2 ^ mpz_scan1 p.natAbs)

/-- The product `(a + 1) * (a + 2) * ... * (a + n)`: the denominator of the `n` consecutive
terms of the series that start at term `a`. -/
def blockQ (a : Nat) : Nat → Nat
  | 0 => 1
  | n + 1 => blockQ a n * (a + n + 1)

/-- The numerator of the `n` consecutive terms of the series of `exp (p / 2 ^ r)` that start
at term `a`: `sum over t < n of (a+1) * ... * (a+n) / ((a+1) * ... * (a+t)) * p ^ t *
2 ^ (r * (n - 1 - t))`, built one term at a time. -/
def blockS (p : Int) (r : Nat) (a : Nat) : Nat → Int
  | 0 => 0
  | n + 1 => blockS p r a n * ((a + n + 1 : Nat) : Int) * 2 ^ r + ((a + n + 1 : Nat) : Int) * p ^ n

/-- The bound `|p / 2 ^ r| ^ c / c! <= 2 ^ (-v)` on term `c` of the series, without
divisions. -/
def TermBound (p : Int) (r : Nat) (v c : Nat) : Prop :=
  2 ^ v * p.natAbs ^ c ≤ c.factorial * 2 ^ (r * c)

/-- Entry `n` of the stack holds the `2 ^ t` consecutive terms that start at term `a`:
`log2_nb_terms[n] = t`, `Q[n] = (a+1) * ... * (a + 2^t)` and `S[n]` is their numerator. -/
def Block (p : Int) (r m : Nat) (T : List Int) (mult : List Nat) (n a t : Nat) : Prop :=
  mult[m + 1 + n]? = some t ∧ T[n]? = some ((blockQ a (2 ^ t) : Nat) : Int)
    ∧ T[m + 1 + n]? = some (blockS p r a (2 ^ t))

/-- Entries `0 .. n-1` of the stack hold consecutive blocks of terms that cover the terms
`0 .. e-1`: each entry holds `2 ^ t` terms starting at a multiple of `2 ^ (t + 1)`, its
`mult` entry bounds the first term after the block, and the shift of a block of more than one
term fits an `unsigned long`. -/
def Cover (p : Int) (r m : Nat) (T : List Int) (mult : List Nat) : Nat → Nat → Prop
  | 0, e => e = 0
  | n + 1, e =>
    ∃ t a v, Block p r m T mult n a t ∧ e = a + 2 ^ t ∧ 2 ^ (t + 1) ∣ a
      ∧ mult[n]? = some v ∧ TermBound p r v e ∧ (t = 0 ∨ r * 2 ^ t < 2 ^ 64) ∧ Cover p r m T mult n a

/-- The invariant of the main loop of `mpfr_exp_rational` when its guard is evaluated with
the counter `i`: the table `ptoj` holds the squares of `p`, the stack `0 .. k` covers the
terms `0 .. i-1`, `prec_i_have` bounds term `i`, and after a round that combined blocks the
entry `mult[k+1]` bounds it too. -/
def HeadInv (p : Int) (r m : Nat) (s : ExpSt) (i : Nat) : Prop :=
  ∃ kn : Nat, s.k = (kn : Int) ∧ (∀ l, l < m → s.Q[2 * (m + 1) + l]? = some (p ^ 2 ^ l))
    ∧ Cover p r m s.Q s.mult (kn + 1) i ∧ TermBound p r s.prec_i_have i
    ∧ (i % 2 = 0 → ∃ v, s.mult[kn + 1]? = some v ∧ TermBound p r v i) ∧ i ≤ 2 ^ m

/-- The invariant of the loop that combines and reduces (lines 88-111) in the round of the
main loop with counter `i`, when its guard is evaluated with the counters `j` and `l`: the top
entry `k` holds the `2 ^ l` terms that end at term `i`, the entries below it cover the terms
before them. -/
def ChainInv (p : Int) (r m : Nat) (s : ExpSt) (j l i : Nat) : Prop :=
  ∃ kn : Nat, s.k = (kn : Int) ∧ (∀ l, l < m → s.Q[2 * (m + 1) + l]? = some (p ^ 2 ^ l))
    ∧ j * 2 ^ l = i + 1 ∧ Block p r m s.Q s.mult kn ((j - 1) * 2 ^ l) l
    ∧ Cover p r m s.Q s.mult kn ((j - 1) * 2 ^ l) ∧ TermBound p r s.prec_i_have (i + 1)
    ∧ (j % 2 = 1 → ∃ v, s.mult[kn]? = some v ∧ TermBound p r v (i + 1))
    ∧ (1 ≤ l → ∃ v, s.mult[kn + 1]? = some v ∧ TermBound p r v (i + 1))
    ∧ (l = 0 ∨ r * 2 ^ l < 2 ^ 64) ∧ i + 1 ≤ 2 ^ m

/-- Invariant of the loop of lines 111-124 when `i` terms were gathered: below position `k`
the stack still covers the terms `[0, a)`, position `k` holds the block of the `i - a` terms
from `a` on (the original block of `2 ^ t` terms and the `accu` terms of the blocks that were
above it and are already merged into it). -/
def AccInv (p : Int) (r m : Nat) (T : List Int) (mult : List Nat) (k : Int) (accu i : Nat) :
    Prop :=
  ∃ kn a t : Nat, k = (kn : Int) ∧ (∀ l, l < m → T[2 * (m + 1) + l]? = some (p ^ 2 ^ l))
    ∧ Cover p r m T mult kn a ∧ mult[m + 1 + kn]? = some t
    ∧ T[kn]? = some ((blockQ a (i - a) : Nat) : Int)
    ∧ T[m + 1 + kn]? = some (blockS p r a (i - a))
    ∧ a + 2 ^ t + accu = i ∧ 2 ^ (t + 1) ∣ a ∧ accu < 2 ^ t ∧ i ≤ 2 ^ m

/-- The table `Q`, `S`, `ptoj` for `m = 3` as `mpfr_exp_3` hands it over: twelve integers
initialised to zero. -/
def c23_Q : List Int := [0, 0, 0, 0, 0, 0, 0, 0, 0, 0, 0, 0]

/-- The table `mult`, `log2_nb_terms` for `m = 3`. -/
def c23_mult : List Nat := [0, 0, 0, 0, 0, 0, 0, 0]

/-- The table after the accumulation loop on `p / 2 ^ r = 12 / 2 ^ 4`, `m = 3`, at precision
5: the main loop has ended at `i = 6`. -/
def c23_T : List Int := [720, 30, 6, 0, 1560618, 11178, 18, 0, 3, 9, 81, 0]

/-- The locals of the same run when the guard of the main loop is reached with `i = 6`. -/
def c24_s : ExpSt := ⟨[24, 30, 6, 0, 3228, 138, 18, 0, 3, 9, 81, 0], [4, 6, 6, 0, 2, 1, 0, 0], 1, 6⟩

/-- The locals of the same run each time the guard of the main loop is reached. -/
def c24_L : List (ExpSt × Nat) :=
  [(⟨[1, 0, 0, 0, 1, 0, 0, 0, 3, 9, 81, 0], [0, 0, 0, 0, 0, 0, 0, 0], 0, 0⟩, 1),
   (⟨[2, 2, 0, 0, 14, 6, 0, 0, 3, 9, 81, 0], [1, 1, 0, 0, 1, 0, 0, 0], 0, 1⟩, 2),
   (⟨[2, 3, 0, 0, 14, 3, 0, 0, 3, 9, 81, 0], [1, 1, 0, 0, 1, 0, 0, 0], 1, 1⟩, 3),
   (⟨[24, 12, 4, 0, 3228, 540, 12, 0, 3, 9, 81, 0], [4, 4, 3, 0, 2, 1, 0, 0], 0, 4⟩, 4),
   (⟨[24, 5, 4, 0, 3228, 5, 12, 0, 3, 9, 81, 0], [4, 4, 3, 0, 2, 0, 0, 0], 1, 4⟩, 5),
   (c24_s, 6)]

/-- The locals after lines 52-74 on `p / 2 ^ r = 12 / 2 ^ 4`, `m = 3`. -/
def c26_s : ExpSt := ⟨[1, 0, 0, 0, 1, 0, 0, 0, 3, 9, 81, 0], [0, 0, 0, 0, 0, 0, 0, 0], 0, 0⟩

/-! ## `mpfr_exp_3` (`exp3.c`, lines 153-286) -/

/-- The tables `Q` and `mult` as a call `mpfr_exp_rational (y, p, r, m, Q, mult)` leaves
them (lines 52-147): the three loops, then the shifts and the division, which are stored in
`S[0]` and `Q[0]`. -/
def exp_rational_tables (precy : Nat) (p r : Int) (m : Nat) (Q : List Int) (mult : List Nat) :
    Except Stop (List Int × List Nat) := do
  let s ← exp_init p r m Q mult
  let t ← exp_main precy m s.2 (2 ^ m) s.1 1
  let Q ← exp_accumulate m s.2 (t.1.k.toNat + 1) t.1.Q t.1.mult t.1.k 0
  let S0 ← zget Q (m + 1)
  let diff : Int := (sizeinbase2 S0.natAbs : Int) - 2 * (precy : Int)
  let S0 ← (if 0 ≤ diff then pure (S0.fdiv (2 ^ diff.toNat)) else mpz_mul_2exp S0 (-diff))
  let Q ← zset Q (m + 1) S0
  let Q0 ← zget Q 0
  let diff : Int := (sizeinbase2 Q0.natAbs : Int) - (precy : Int)
  let Q0 ← (if 0 < diff then pure (Q0.fdiv (2 ^ diff.toNat)) else mpz_mul_2exp Q0 (-diff))
  let Q ← zset Q 0 Q0
  if Q0 = 0 then .error Stop.divide
  else do
    let Q ← zset Q (m + 1) (S0.tdiv Q0)
    pure (Q, t.1.mult)

/-- Functions and macros of the library that `mpfr_exp_3` uses in its decomposition and in
one pass of its loop, and whose code is not part of the sources; they are parameters of the
embedding.  A function that writes an object returns that object and the global state;
`allocate n` is the content of a fresh block of `n` precisions. -/
structure Exp3Callees where
  MPFR_INT_CEIL_LOG2 : Nat → Nat
  MPFR_LOG2_BITS_PER_MP_LIMB : Int
  MPFR_EMIN_MIN : Int
  mpfr_init2 : Nat → mpfr_struct
  mpfr_set_prec : mpfr_struct → Nat → mpfr_struct
  mpfr_set : Globals → mpfr_struct → mpfr_struct → mp_rnd_t → mpfr_struct × Int × Globals
  mpfr_div_2ui : Globals → mpfr_struct → mpfr_struct → Nat → mp_rnd_t → mpfr_struct × Globals
  mpfr_extract : mpfr_struct → Nat → Int
  mpfr_sqr : Globals → mpfr_struct → mpfr_struct → mp_rnd_t → mpfr_struct × Globals
  mpfr_mul : Globals → mpfr_struct → mpfr_struct → mpfr_struct → mp_rnd_t →
    mpfr_struct × Globals
  mpfr_clear_flags : Globals → Globals
  mpfr_overflow_p : Globals → Bool
  mpfr_underflow_p : Globals → Bool
  mpfr_setmax : mpfr_struct → Int → mpfr_struct
  allocate : Nat → List Nat

/-- The can-round test and the macros of the retry strategy, which are not part of the
sources: `MPFR_ZIV_INIT` gives the first state of `ziv_loop`, `MPFR_ZIV_NEXT` the next state
and the next `realprec`. -/
structure ZivCallees where
  mpfr_can_round : mpfr_struct → Int → mp_rnd_t → mp_rnd_t → Nat → Bool
  MPFR_ZIV_INIT : Nat → Nat
  MPFR_ZIV_NEXT : Nat → Nat → Nat × Nat

/-- Lines 171-191, the decomposition of `x`: returns `x_copy`, `ttt`, `shift_x` and the
global state; the assertion `ttt <= 0` is checked. -/
def exp3_decompose (X : Exp3Callees) (G : Globals) (x : mpfr_struct) :
    Except Stop (mpfr_struct × Int × Int × Globals) :=
  let ttt := x.exp
  let x_copy := X.mpfr_init2 x.prec
  let s := X.mpfr_set G x_copy x GMP_RNDD
  let d : mpfr_struct × Int × Int × Globals :=
    if 0 < ttt then
      let q := X.mpfr_div_2ui s.2.2 s.1 x ttt.toNat GMP_RNDN
      (q.1, q.1.exp, ttt, q.2)
    else (s.1, ttt, 0, s.2.2)
  if d.2.1 ≤ 0 then .ok d else .error Stop.assert

/-- Lines 215-216 and 240-241: `n` times `mpfr_sqr (tmp, tmp, GMP_RNDD)`. -/
def exp3_sqr (X : Exp3Callees) : Nat → Globals → mpfr_struct → mpfr_struct × Globals
  | 0, G, tmp => (tmp, G)
  | n + 1, G, tmp =>
    let r := X.mpfr_sqr G tmp tmp GMP_RNDD
    exp3_sqr X n r.2 r.1

/-- Lines 244-245: `n` times `mpfr_mul (tmp, tmp, tmp, GMP_RNDD)`. -/
def exp3_squarings (X : Exp3Callees) : Nat → Globals → mpfr_struct → mpfr_struct × Globals
  | 0, G, tmp => (tmp, G)
  | n + 1, G, tmp =>
    let r := X.mpfr_mul G tmp tmp tmp GMP_RNDD
    exp3_squarings X n r.2 r.1

/-- The objects one pass of the loop works on: `t`, `tmp`, the tables `P` and `mult`,
`twopoweri` and the global state. -/
structure Exp3St where
  t : mpfr_struct
  tmp : mpfr_struct
  P : List Int
  mult : List Nat
  twopoweri : Int
  G : Globals

/-- Lines 220-231, the general case: `n` rounds of the loop on `i`, from `i` on. -/
def exp3_chunks (W : Nat) (X : Exp3Callees) (x_copy : mpfr_struct) (ttt k : Int) :
    Nat → Nat → Exp3St → Except Stop Exp3St
  | 0, _, s => .ok s
  | n + 1, i, s => do
    let uk := X.mpfr_extract x_copy i
    let s ← (if uk ≠ 0 then
        if k - i + 1 < 0 then .error Stop.assert
        else do
          let m := (k - i + 1).toNat
          let r ← mpfr_exp_rational W s.G s.t uk (s.twopoweri - ttt) m s.P s.mult
          let T ← exp_rational_tables s.t.prec uk (s.twopoweri - ttt) m s.P s.mult
          let q := X.mpfr_mul r.2 s.tmp s.tmp r.1 GMP_RNDD
          pure { s with t := r.1, tmp := q.1, P := T.1, mult := T.2, G := q.2 }
      else pure s)
    if s.twopoweri ≤ (2 ^ 63 - 1) / 2 then
      exp3_chunks W X x_copy ttt k n (i + 1) { s with twopoweri := s.twopoweri * 2 }
    else .error Stop.assert

/-- Lines 197-245, one pass of the loop up to the final squarings, on 64-bit `long`s:
returns `t`, `tmp` and the global state.  The additions and subtractions of `long`s are
taken without wrap-around. -/
def exp3_pass (W : Nat) (X : Exp3Callees) (x_copy : mpfr_struct) (ttt shift_x prec_x : Int)
    (G : Globals) (t tmp : mpfr_struct) (Prec : Nat) :
    Except Stop (mpfr_struct × mpfr_struct × Globals) := do
  let k : Int := (X.MPFR_INT_CEIL_LOG2 Prec : Int) - X.MPFR_LOG2_BITS_PER_MP_LIMB
  let twopoweri : Int := W
  if k + 2 < 0 then .error Stop.alloc
  else do
    let P : List Int := List.replicate (3 * (k + 2).toNat) 0
    let mult := X.allocate (2 * (k + 2).toNat)
    let uk := X.mpfr_extract x_copy 0
    if uk = 0 then .error Stop.assert
    else if k + 1 < 0 then .error Stop.assert
    else do
      let m := (k + 1).toNat
      let r ← mpfr_exp_rational W G tmp uk ((W / 2 : Nat) + twopoweri - ttt) m P mult
      let T ← exp_rational_tables tmp.prec uk ((W / 2 : Nat) + twopoweri - ttt) m P mult
      let a := exp3_sqr X (W / 2) r.2 r.1
      let twopoweri := twopoweri * 2 % 2 ^ 64
      let iter := if k ≤ prec_x then k else prec_x
      let c ← exp3_chunks W X x_copy ttt k iter.toNat 1
        { t := t, tmp := a.1, P := T.1, mult := T.2, twopoweri := twopoweri, G := a.2 }
      let b := exp3_squarings X shift_x.toNat (X.mpfr_clear_flags c.G) c.tmp
      pure (c.t, b.1, b.2)

/-- Lines 195-277, the loop `for (;;)` of `mpfr_exp_3`, with `fuel` bounding its passes.
Returns `y`, `inexact` and the global state.  Precisions are natural numbers; their
arithmetic is taken without wrap-around. -/
def exp3_loop (W : Nat) (X : Exp3Callees) (Z : ZivCallees) (y x_copy : mpfr_struct)
    (ttt shift_x prec_x : Int) (rnd_mode : mp_rnd_t) :
    Nat → Globals → mpfr_struct → mpfr_struct → Nat → Nat → Nat →
      Except Stop (mpfr_struct × Int × Globals)
  | 0, _, _, _, _, _, _ => .error Stop.fuel
  | fuel + 1, G, t, tmp, realprec, Prec, ziv_loop => do
    let r ← exp3_pass W X x_copy ttt shift_x prec_x G t tmp Prec
    if X.mpfr_overflow_p r.2.2 then
      let y1 := X.mpfr_setmax y r.2.2.emax
      pure ({ y1 with exp := y1.exp + 1 }, 1, r.2.2)
    else if X.mpfr_underflow_p r.2.2 then
      pure (X.mpfr_setmax y (X.MPFR_EMIN_MIN - 2), -1, r.2.2)
    else if Z.mpfr_can_round r.2.1 realprec GMP_RNDD GMP_RNDZ
        (y.prec + (if rnd_mode = GMP_RNDN then 1 else 0)) then
      pure (X.mpfr_set r.2.2 y r.2.1 rnd_mode)
    else
      let z := Z.MPFR_ZIV_NEXT ziv_loop realprec
      let Prec := z.2 + W / 2 + 2 + shift_x.toNat
      exp3_loop W X Z y x_copy ttt shift_x prec_x rnd_mode fuel r.2.2
        (X.mpfr_set_prec r.1 Prec) (X.mpfr_set_prec r.2.1 Prec) z.2 Prec z.1

/-- The function `mpfr_exp_3 (y, x, rnd_mode)` of `exp3.c`, lines 155-286, for a regular
`x`.  Returns `y`, `inexact` and the global state. -/
def mpfr_exp_3 (W : Nat) (X : Exp3Callees) (Z : ZivCallees) (fuel : Nat) (G : Globals)
    (y x : mpfr_struct) (rnd_mode : mp_rnd_t) : Except Stop (mpfr_struct × Int × Globals) := do
  let prec_x : Int := (X.MPFR_INT_CEIL_LOG2 x.prec : Int) - X.MPFR_LOG2_BITS_PER_MP_LIMB
  let prec_x : Int := if prec_x < 0 then 0 else prec_x
  let d ← exp3_decompose X G x
  let realprec := y.prec + X.MPFR_INT_CEIL_LOG2 (prec_x.toNat + y.prec)
  let Prec := realprec + W / 2 + 2 + d.2.2.1.toNat
  exp3_loop W X Z y d.1 d.2.1 d.2.2.1 prec_x rnd_mode fuel d.2.2.2 (X.mpfr_init2 Prec)
    (X.mpfr_init2 Prec) realprec Prec (Z.MPFR_ZIV_INIT realprec)

/-- A table of callees for a run in which every product overflows: `mpfr_set` copies,
`mpfr_div_2ui` lowers the exponent, the first chunk of `x_copy` is 1 and the others are 0,
`mpfr_sqr` leaves `tmp` as it is, `mpfr_mul` stores an infinity and raises the overflow flag,
`mpfr_setmax` stores the exponent and a significand of ones. -/
def c27_X : Exp3Callees where
  MPFR_INT_CEIL_LOG2 := fun n => sizeinbase2 (n - 1)
  MPFR_LOG2_BITS_PER_MP_LIMB := 6
  MPFR_EMIN_MIN := 1 - 2 ^ 62
  mpfr_init2 := fun p => ⟨p, 1, MPFR_EXP_NAN, List.replicate ((p - 1) / 64 + 1) 0⟩
  mpfr_set_prec := fun _ p => ⟨p, 1, MPFR_EXP_NAN, List.replicate ((p - 1) / 64 + 1) 0⟩
  mpfr_set := fun G _ s _ => (s, 0, G)
  mpfr_div_2ui := fun G _ s n _ => ({ s with exp := s.exp - n }, G)
  mpfr_extract := fun _ i => if i = 0 then 1 else 0
  mpfr_sqr := fun G _ s _ => (s, G)
  mpfr_mul := fun G d _ _ _ =>
    (MPFR_SET_INF d, { G with flags := G.flags ||| MPFR_FLAGS_OVERFLOW })
  mpfr_clear_flags := fun G => { G with flags := 0 }
  mpfr_overflow_p := fun G => decide (G.flags / MPFR_FLAGS_OVERFLOW % 2 = 1)
  mpfr_underflow_p := fun G => decide (G.flags / MPFR_FLAGS_UNDERFLOW % 2 = 1)
  mpfr_setmax := fun z e =>
    { z with exp := e,
             mant := toLimbs 64 ((z.prec - 1) / 64 + 1)
               ((2 ^ z.prec - 1) * 2 ^ (((z.prec - 1) / 64 + 1) * 64 - z.prec)) }
  allocate := fun n => List.replicate n 0

/-- A can-round test that always answers no, with the precision raised by 64 bits at each
retry. -/
def c27_Z : ZivCallees where
  mpfr_can_round := fun _ _ _ _ _ => false
  MPFR_ZIV_INIT := fun _ => 64
  MPFR_ZIV_NEXT := fun z p => (z, p + z)

/-- The value `2 = 0.10b * 2 ^ 2` at precision 2. -/
def c27_x : mpfr_struct := ⟨2, 1, 2, [9223372036854775808]⟩

/-- The value `1/2 = 0.10b * 2 ^ 0` at precision 2: `x_copy` for `x = 2`. -/
def c27_x_copy : mpfr_struct := ⟨2, 1, 0, [9223372036854775808]⟩

/-- A destination of precision 2. -/
def c27_y : mpfr_struct := ⟨2, 1, MPFR_EXP_NAN, [0]⟩

/-- An exponent range and no flag raised. -/
def c27_G : Globals := ⟨0, -1000, 1000⟩

/-- The objects `t` and `tmp` and the global state after one pass on `x = 2` at the working
precision 39: `tmp` is infinite and the overflow flag is raised. -/
def c27_r : mpfr_struct × mpfr_struct × Globals :=
  (⟨39, 1, MPFR_EXP_NAN, [0]⟩, ⟨39, 1, MPFR_EXP_INF, [9223372036854775808]⟩, ⟨2, -1000, 1000⟩)

/-! ## One pass of the loop of `mpfr_cosh` -/

/-- Lines 93-102 of `cosh.c`, the computation of one pass at working precision `Nt`: returns
`te`, `ti`, the sum `t` before the division by 2, `t`, and the global state. -/
def cosh_body (X : CoshCallees) (x : mpfr_struct) (G : Globals) (t te ti : mpfr_struct)
    (Nt : Nat) : mpfr_struct × mpfr_struct × mpfr_struct × mpfr_struct × Globals :=
  let t := X.mpfr_set_prec t Nt
  let te := X.mpfr_set_prec te Nt
  let ti := X.mpfr_set_prec ti Nt
  let r1 := X.mpfr_exp G te x GMP_RNDD
  let r2 := X.mpfr_ui_div r1.2 ti 1 r1.1 GMP_RNDU
  let r3 := X.mpfr_add r2.2 t r1.1 r2.1 GMP_RNDN
  let r4 := X.mpfr_div_2ui r3.2 r3.1 r3.1 1 GMP_RNDN
  (r1.1, r2.1, r3.1, r4.1, r4.2)

/-- The value `1 = 0.1b * 2 ^ 1` at precision 1. -/
def c29_x : mpfr_struct := ⟨1, 1, 1, [9223372036854775808]⟩

/-- The value `5/2 = 0.1010b * 2 ^ 2` at precision 4: `exp (1)` rounded down. -/
def c29_te : mpfr_struct := ⟨4, 1, 2, [11529215046068469760]⟩

/-- The value `13/32 = 0.1101b * 2 ^ (-1)` at precision 4: `1 / (5/2)` rounded up. -/
def c29_ti : mpfr_struct := ⟨4, 1, -1, [14987979559889010688]⟩

/-- The value `3 = 0.1100b * 2 ^ 2` at precision 4: `5/2 + 13/32` rounded to nearest. -/
def c29_s : mpfr_struct := ⟨4, 1, 2, [13835058055282163712]⟩

/-- The value `3/2 = 0.1100b * 2 ^ 1` at precision 4. -/
def c29_t : mpfr_struct := ⟨4, 1, 1, [13835058055282163712]⟩

/-- A table of callees for the pass on `x = 1` at the working precision 4: each function
stores the correctly rounded result of that pass. -/
def c29_X : CoshCallees where
  gmpfr_ceil_log2 := fun n => sizeinbase2 (n - 1)
  mpfr_init2 := fun p => ⟨p, 1, MPFR_EXP_NAN, [0]⟩
  mpfr_init := ⟨53, 1, MPFR_EXP_NAN, [0]⟩
  mpfr_set_prec := fun _ p => ⟨p, 1, MPFR_EXP_NAN, [0]⟩
  mpfr_abs := fun G _ s _ => ({ s with sign := 1 }, G)
  mpfr_exp := fun G _ _ _ => (c29_te, G)
  mpfr_ui_div := fun G _ _ _ _ => (c29_ti, G)
  mpfr_add := fun G _ _ _ _ => (c29_s, G)
  mpfr_div_2ui := fun G _ s n _ => ({ s with exp := s.exp - n }, G)
  mpfr_can_round := fun _ _ _ _ _ => true
  mpfr_set := fun G _ s _ => (s, 0, G)

/-- A table of callees for a run in which `exp (x)` overflows: `mpfr_exp` stores `+Inf` and
raises the overflow flag, `1 / Inf` is `+0`, the sum and its half are `+Inf`, and the
can-round test answers no on a singular value. -/
def c30_X : CoshCallees where
  gmpfr_ceil_log2 := fun n => sizeinbase2 (n - 1)
  mpfr_init2 := fun p => ⟨p, 1, MPFR_EXP_NAN, [0]⟩
  mpfr_init := ⟨53, 1, MPFR_EXP_NAN, [0]⟩
  mpfr_set_prec := fun _ p => ⟨p, 1, MPFR_EXP_NAN, [0]⟩
  mpfr_abs := fun G _ s _ => ({ s with sign := 1 }, G)
  mpfr_exp := fun G d _ _ =>
    (MPFR_SET_POS (MPFR_SET_INF d), { G with flags := G.flags ||| MPFR_FLAGS_OVERFLOW })
  mpfr_ui_div := fun G d _ _ _ => (MPFR_SET_POS (MPFR_SET_ZERO d), G)
  mpfr_add := fun G d _ _ _ => (MPFR_SET_POS (MPFR_SET_INF d), G)
  mpfr_div_2ui := fun G d _ _ _ => (MPFR_SET_POS (MPFR_SET_INF d), G)
  mpfr_can_round := fun t _ _ _ _ => !MPFR_IS_SINGULAR t
  mpfr_set := fun G _ s _ => (s, 0, G)

/-- The value `2 ^ 61 = 0.1b * 2 ^ 62` at precision 1. -/
def c30_x : mpfr_struct := ⟨1, 1, 62, [9223372036854775808]⟩

/-- The value `1 = 0.10b * 2 ^ 1`, precision 2. -/
def c34_r : mpfr_t := ⟨2, false, false, 1, [9223372036854775808]⟩

/-- Modelled from the spec: the string that the C conversions `p%+.1li` and `e%+.2li` (and
their upper-case forms) produce for the exponent `e`: the character `c`, a sign that is
always present, and the decimal digits of `|e|`, at least `mindigits` of them. -/
def format_exponent (c : Char) (mindigits : Nat) (e : Int) : List Char :=
  c :: (if e < 0 then '-' else '+') ::
    (List.replicate (mindigits - (Nat.toDigits 10 e.natAbs).length) '0'
      ++ Nat.toDigits 10 e.natAbs)

/-- The callees as they answer in a conversion `%a`: `sprintf` writes the exponent part as
the C library does for `p%+.1li`; the conversion with the precision 0 calls no other function
of the table. -/
def c31_X : PrintCallees where
  MPFR_DECIMAL_POINT := '.'
  mpfr_init2 := fun n => ⟨n, 1, MPFR_EXP_NAN, []⟩
  mpfr_set_si := fun x _ _ => x
  mpfr_exp10 := fun x _ _ => x
  mpfr_ui_sub := fun x _ _ _ => x
  mpfr_div_2ui := fun x _ _ _ => x
  mpfr_div_ui := fun x _ _ _ => x
  mpfr_log10 := fun x _ _ => x
  mpfr_floor := fun x _ => x
  mpfr_abs := fun x _ _ => x
  mpfr_add_ui := fun x _ _ _ => x
  mpfr_cmp := fun _ _ => 0
  mpfr_cmp_si := fun _ _ => 0
  mpfr_cmp_ui := fun _ _ => 0
  mpfr_get_ui := fun _ _ => 0
  mpfr_get_si := fun _ _ => 0
  mpfr_get_str := fun _ _ _ _ => ([], 0)
  sprintf := fun fmt e =>
    ((format_exponent (fmt.headD 'p') 1 e).length, format_exponent (fmt.headD 'p') 1 e)

/-- The value `17/2 = 0.10001b * 2 ^ 4`, precision 5: halfway between the hexadecimal digits
8 and 9. -/
def c31_p : mpfr_struct := ⟨5, 1, 4, [9799832789158199296]⟩

/-- The value `8 = 0.10000b * 2 ^ 4`, precision 5: the hexadecimal digit 8 exactly. -/
def c31_q : mpfr_struct := ⟨5, 1, 4, [9223372036854775808]⟩

/-- The conversion `%.0Ra` in the rounding mode `rnd`. -/
def c31_spec (rnd : mp_rnd_t) : printf_spec := ⟨false, false, false, false, 0, 0, rnd, 'a', ' '⟩

/-! ## `print_raw.c` -/

/-- The C conversion `%ld`: a minus sign for a negative number and the decimal digits. -/
def ld_chars (e : Int) : List Char :=
  if e < 0 then '-' :: Nat.toDigits 10 e.natAbs else Nat.toDigits 10 e.natAbs

/-- The assignment `*digit_ptr = c; digit_ptr++;` into a block of `cap` bytes of which the
first `s.length` are written. -/
def raw_putc (cap : Nat) (s : List Char) (c : Char) : Except Fault (List Char) :=
  if s.length < cap then .ok (s ++ [c]) else .error Fault.index

/-- The call `sprintf (digit_ptr, ...)` that writes the characters `t` and a terminating NUL;
`digit_ptr` is then moved by the caller, so the NUL does not count as written. -/
def raw_puts (cap : Nat) (s t : List Char) : Except Fault (List Char) :=
  if s.length + t.length + 1 ≤ cap then .ok (s ++ t) else .error Fault.index

/-- Lines 53-61 of `mpfr_get_str_raw`: the inner loop on the bits `l - 1, ..., 0` of the limb
`wd`; the state is the string written and the counter `p`. -/
def raw_limb (cap : Nat) (wd : Nat) : Nat → List Char × Int → Except Fault (List Char × Int)
  | 0, st => .ok st
  | l + 1, st => do
    let s ← raw_putc cap st.1 (if wd / 2 ^ l % 2 = 1 then '1' else '0')
    let p := st.2 - 1
    let s ← (if p = 0 then raw_putc cap s '[' else pure s)
    raw_limb cap wd l (s, p)

/-- Lines 49-62 of `mpfr_get_str_raw`: the outer loop on the limbs `k - 1, ..., 0`. -/
def raw_limbs (W cap : Nat) (mx : List Nat) : Nat → List Char × Int →
    Except Fault (List Char × Int)
  | 0, st => .ok st
  | k + 1, st => do
    let wd ← rd mx k
    let st ← raw_limb cap wd W st
    raw_limbs W cap mx k st

/-- The function `mpfr_get_str_raw (digit_ptr, x)` of `print_raw.c`, lines 28-64, writing
into a block of `cap` bytes.  Returns the string written, without its terminating NUL. -/
def mpfr_get_str_raw (W cap : Nat) (x : mpfr_t) : Except Fault (List Char) := do
  let s ← (if MPFR_SIGN x < 0 then raw_putc cap [] '-' else pure [])
  let s ← raw_puts cap s ['0', '.']
  let sx := 1 + (x.prec - 1) / W
  let st ← raw_limbs W cap x.mant sx (s, (x.prec : Int))
  raw_puts cap st.1 (']' :: 'E' :: ld_chars x.exp)

/-- The function `mpfr_print_raw (x)` of `print_raw.c`, lines 66-97.  The header macro
`MPFR_IS_INF` is not part of the sources and is a parameter.  Returns the characters
printed. -/
def mpfr_print_raw (W : Nat) (IS_INF : mpfr_t → Bool) (x : mpfr_t) :
    Except Fault (List Char) := do
  if FLAG_NAN x then pure "NaN".toList
  else if IS_INF x then
    (if MPFR_SIGN x = 1 then pure "Inf".toList else pure "-Inf".toList)
  else
    let z ← NOTZERO W x
    if z = 0 then pure "0".toList
    else mpfr_get_str_raw W ((17 + ABSSIZE x * W).toNat) x

/-- The value `-2 ^ (-1073741824) = -0.1b * 2 ^ (-1073741823)`, precision 1. -/
def c33_x : mpfr_t := ⟨1, true, false, -1073741823, [9223372036854775808]⟩

/-- The 81 characters that `mpfr_get_str_raw` writes for `c33_x` when the block is large
enough. -/
def c33_str : List Char :=
  "-0.1[".toList ++ List.replicate 63 '0' ++ "]E-1073741823".toList

/-! ### The main loop of `mpfr_vasprintf` -/

/-- The types that the `type` field of a conversion specification describes (`enum arg_t`,
lines 105-126). -/
inductive arg_t
  | NONE
  | CHAR_ARG
  | SHORT_ARG
  | LONG_ARG
  | LONG_LONG_ARG
  | INTMAX_ARG
  | SIZE_ARG
  | PTRDIFF_ARG
  | LONG_DOUBLE_ARG
  | MPF_ARG
  | MPQ_ARG
  | MP_LIMB_ARG
  | MP_LIMB_ARRAY_ARG
  | MPZ_ARG
  | MPFR_PREC_ARG
  | MPFR_ARG
deriving DecidableEq

/-- The structure `struct printf_spec` as the parser fills it (lines 131-147): the fields
that the printing of a number reads, and the fields `group` and `arg_type`. -/
structure specinfo where
  s : printf_spec
  group : Bool
  arg_type : arg_t
deriving DecidableEq

/-- One variadic argument: an `int`, a rounding mode, a precision, a pointer to a
floating-point number, or an argument of any other type. -/
inductive va_item
  | int (v : Int)
  | rnd (r : mp_rnd_t)
  | prec (v : Nat)
  | mpfr (p : mpfr_struct)
  | other
deriving DecidableEq

/-- Functions of the integer substrate that `mpfr_vasprintf` calls, and the two
configuration macros its parser tests; they are parameters of the embedding.
`gmp_vasprintf` and `gmp_asprintf` return the length and the string. -/
structure GmpCallees where
  HAVE_STDINT_H : Bool
  HAVE_WCHAR_H : Bool
  gmp_vasprintf : List Char → List va_item → Int × List Char
  gmp_asprintf : Nat → Int × List Char

/-- The character `*fmt`: a pointer into the format string is the list of the characters
from it to the end, and the string ends with a NUL. -/
def deref (fmt : List Char) : Char := fmt.headD NUL

/-- The expression `va_arg (ap, T)` whose value is discarded: the next argument is removed.
A read in an exhausted argument list stops the run. -/
def va_pop : List va_item → Except Stop (List va_item)
  | [] => .error Stop.index
  | _ :: ap => .ok ap

/-- The expression `va_arg (ap, int)`; a read in an exhausted argument list, or of an
argument that is not an `int`, stops the run. -/
def va_arg_int : List va_item → Except Stop (Int × List va_item)
  | va_item.int v :: ap => .ok (v, ap)
  | _ => .error Stop.index

/-- The expression `va_arg (ap, mp_rnd_t)`. -/
def va_arg_rnd : List va_item → Except Stop (mp_rnd_t × List va_item)
  | va_item.rnd r :: ap => .ok (r, ap)
  | _ => .error Stop.index

/-- The expression `va_arg (ap, mpfr_prec_t)`. -/
def va_arg_prec : List va_item → Except Stop (Nat × List va_item)
  | va_item.prec v :: ap => .ok (v, ap)
  | _ => .error Stop.index

/-- The expression `va_arg (ap, mpfr_srcptr)`. -/
def va_arg_mpfr : List va_item → Except Stop (mpfr_struct × List va_item)
  | va_item.mpfr p :: ap => .ok (p, ap)
  | _ => .error Stop.index

/-- The function `specinfo_init` (lines 149-163). -/
def specinfo_init : specinfo :=
  ⟨⟨false, false, false, false, 0, 0, GMP_RNDN, 'i', ' '⟩, false, arg_t.NONE⟩

/-- The function `parse_flags (format, specinfo)` (lines 165-201). -/
def parse_flags : List Char → specinfo → List Char × specinfo
  | [], sp => ([], sp)
  | c :: fmt, sp =>
    if c = '0' then parse_flags fmt { sp with s := { sp.s with pad := '0' } }
    else if c = '#' then parse_flags fmt { sp with s := { sp.s with alt := true } }
    else if c = '+' then parse_flags fmt { sp with s := { sp.s with showsign := true } }
    else if c = ' ' then parse_flags fmt { sp with s := { sp.s with space := true } }
    else if c = '-' then parse_flags fmt { sp with s := { sp.s with left := true } }
    else if c = '\'' then parse_flags fmt sp
    else (c :: fmt, sp)

/-- The macro `READ_INT (ap, format, specinfo, field, label_out)` (lines 71-100), on the
value `v` of the field.  Returns the format pointer, the argument list and the field. -/
def READ_INT : List Char → List va_item → Int → Except Stop (List Char × List va_item × Int)
  | [], ap, v => .ok ([], ap, v)
  | c :: fmt, ap, v =>
    if '0'.toNat ≤ c.toNat ∧ c.toNat ≤ '9'.toNat then
      if ¬ v < INT_MAX / 10 then .error Stop.assert
      else if ¬ v * 10 < INT_MAX - (c.toNat : Int) + ('0'.toNat : Int) then .error Stop.assert
      else READ_INT fmt ap (v * 10 + ((c.toNat : Int) - ('0'.toNat : Int)))
    else if c = '*' then do
      let r ← va_arg_int ap
      .ok (fmt, r.2, r.1)
    else .ok (c :: fmt, ap, v)

/-- The function `parse_arg_type (format, specinfo)` (lines 203-277). -/
def parse_arg_type (Y : GmpCallees) (fmt : List Char) (sp : specinfo) : List Char × specinfo :=
  let c := deref fmt
  if c = NUL then (fmt, sp)
  else if c = 'h' then
    if deref fmt.tail = 'h' then (fmt.tail.tail, { sp with arg_type := arg_t.CHAR_ARG })
    else (fmt.tail, { sp with arg_type := arg_t.SHORT_ARG })
  else if c = 'l' then
    if deref fmt.tail = 'l' then (fmt.tail.tail, { sp with arg_type := arg_t.LONG_LONG_ARG })
    else (fmt.tail, { sp with arg_type := arg_t.LONG_ARG })
  else if c = 'q' then (fmt.tail, { sp with arg_type := arg_t.LONG_LONG_ARG })
  else if c = 'j' ∧ Y.HAVE_STDINT_H then (fmt.tail, { sp with arg_type := arg_t.INTMAX_ARG })
  else if c = 'z' then (fmt.tail, { sp with arg_type := arg_t.SIZE_ARG })
  else if c = 't' then (fmt.tail, { sp with arg_type := arg_t.PTRDIFF_ARG })
  else if c = 'L' then (fmt.tail, { sp with arg_type := arg_t.LONG_DOUBLE_ARG })
  else if c = 'F' then (fmt.tail, { sp with arg_type := arg_t.MPF_ARG })
  else if c = 'Q' then (fmt.tail, { sp with arg_type := arg_t.MPQ_ARG })
  else if c = 'M' then (fmt.tail, { sp with arg_type := arg_t.MP_LIMB_ARG })
  else if c = 'N' then (fmt.tail, { sp with arg_type := arg_t.MP_LIMB_ARRAY_ARG })
  else if c = 'Z' then (fmt.tail, { sp with arg_type := arg_t.MPZ_ARG })
  else if c = 'P' then (fmt.tail, { sp with arg_type := arg_t.MPFR_PREC_ARG })
  else if c = 'R' then (fmt.tail, { sp with arg_type := arg_t.MPFR_ARG })
  else (fmt, sp)

/-- The macro `CONSUME_VA_ARG (specinfo, ap)` (lines 281-379): the argument that the
conversion expects is removed from the list. -/
def CONSUME_VA_ARG (Y : GmpCallees) (sp : specinfo) (ap : List va_item) :
    Except Stop (List va_item) :=
  let c := sp.s.spec
  match sp.arg_type with
  | arg_t.CHAR_ARG => va_pop ap
  | arg_t.SHORT_ARG => va_pop ap
  | arg_t.LONG_ARG =>
    if Y.HAVE_WCHAR_H then
      if c = 'd' ∨ c = 'i' ∨ c = 'o' ∨ c = 'u' ∨ c = 'x' ∨ c = 'X' then va_pop ap
      else if c = 'c' then va_pop ap
      else if c = 's' then va_pop ap
      else .ok ap
    else va_pop ap
  | arg_t.LONG_LONG_ARG => va_pop ap
  | arg_t.INTMAX_ARG => if Y.HAVE_STDINT_H then va_pop ap else .ok ap
  | arg_t.SIZE_ARG => va_pop ap
  | arg_t.PTRDIFF_ARG => va_pop ap
  | arg_t.LONG_DOUBLE_ARG => va_pop ap
  | arg_t.MPF_ARG => va_pop ap
  | arg_t.MPQ_ARG => va_pop ap
  | arg_t.MP_LIMB_ARG => do
    let ap ← va_pop ap
    va_pop ap
  | arg_t.MP_LIMB_ARRAY_ARG => do
    let ap ← va_pop ap
    va_pop ap
  | arg_t.MPZ_ARG => va_pop ap
  | _ =>
    if c = 'd' ∨ c = 'i' ∨ c = 'o' ∨ c = 'u' ∨ c = 'x' ∨ c = 'X' ∨ c = 'c' then va_pop ap
    else if c = 'f' ∨ c = 'F' ∨ c = 'e' ∨ c = 'E' ∨ c = 'g' ∨ c = 'G' ∨ c = 'a' ∨ c = 'A' then
      va_pop ap
    else if c = 's' then va_pop ap
    else if c = 'p' then va_pop ap
    else .ok ap

/-- The function `sprntf_gmp (b, fmt, ap)` (lines 453-466).  Returns the buffer and the
length. -/
def sprntf_gmp (Y : GmpCallees) (b : string_buffer) (fmt : List Char) (ap : List va_item) :
    Except Stop (string_buffer × Int) := do
  let r := Y.gmp_vasprintf fmt ap
  let b ← (if 0 < r.1 then buffer_cat b r.2 r.1 else pure b)
  pure (b, r.1)

/-- The macro `FLUSH (flag, start, end, ap, buf_ptr)` (lines 381-395); `e` is `end`.
Returns the buffer and the flag. -/
def FLUSH (Y : GmpCallees) (flag : Bool) (start e : List Char) (ap : List va_item)
    (buf : string_buffer) : Except Stop (string_buffer × Bool) :=
  let n := start.length - e.length
  if flag then do
    let r ← sprntf_gmp Y buf (start.take n) ap
    pure (r.1, false)
  else if start.length ≠ e.length then do
    let b ← buffer_cat buf start n
    pure (b, flag)
  else pure (buf, flag)

/-- The local variables of `mpfr_vasprintf` that live across the iterations of its loop, and
the values stored through the pointers of the `%n` conversions. -/
structure vs_state where
  buf : string_buffer
  gmp_fmt_flag : Bool
  start : List Char
  ap : List va_item
  ap2 : List va_item
  stored : List Int

/-- How one iteration of the loop of `mpfr_vasprintf` ends: at the end of the body or at a
`continue`, at a `break`, or at `goto error`. -/
inductive vs_next
  | loop (fmt : List Char) (s : vs_state)
  | done (fmt : List Char) (s : vs_state)
  | error (s : vs_state)

/-- Lines 1647-1648: `while ((*fmt) && (*fmt != '%')) ++fmt;`. -/
def skip_plain : List Char → List Char
  | [] => []
  | c :: fmt => if c ≠ NUL ∧ c ≠ '%' then skip_plain fmt else c :: fmt

/-- Lines 1685-1711: the rounding-mode letter of a conversion with the type `R`. -/
def read_rnd (fmt : List Char) (sp : specinfo) (ap : List va_item) :
    Except Stop (List Char × specinfo × List va_item) :=
  let c := deref fmt
  if c = NUL then .ok (fmt, sp, ap)
  else if c = '*' then do
    let r ← va_arg_rnd ap
    .ok (fmt.tail, { sp with s := { sp.s with rnd_mode := r.1 } }, r.2)
  else if c = 'D' then .ok (fmt.tail, { sp with s := { sp.s with rnd_mode := GMP_RNDD } }, ap)
  else if c = 'U' then .ok (fmt.tail, { sp with s := { sp.s with rnd_mode := GMP_RNDU } }, ap)
  else if c = 'Z' then .ok (fmt.tail, { sp with s := { sp.s with rnd_mode := GMP_RNDZ } }, ap)
  else if c = 'N' then .ok (fmt.tail, { sp with s := { sp.s with rnd_mode := GMP_RNDN } }, ap)
  else .ok (fmt, { sp with s := { sp.s with rnd_mode := GMP_RNDN } }, ap)

/-- Lines 1656-1716: the analysis of the conversion specification that starts at `fmt`, the
character after the `%`.  Returns the format pointer, the specification and the argument
list. -/
def parse_spec (Y : GmpCallees) (fmt : List Char) (ap : List va_item) :
    Except Stop (List Char × specinfo × List va_item) := do
  let r := parse_flags fmt specinfo_init
  let sp := r.2
  let w ← READ_INT r.1 ap sp.s.width
  let fmt := w.1
  let ap := w.2.1
  let sp := { sp with s := { sp.s with width := w.2.2 } }
  let sp ←
    (if sp.s.width < 0 then
      if -sp.s.width < INT_MAX then
        pure { sp with s := { sp.s with left := true, width := -sp.s.width } }
      else .error Stop.assert
    else pure sp)
  let q ←
    (if deref fmt = '.' then do
      let f := fmt.tail
      let q ← READ_INT f ap sp.s.prec
      if f.length = q.1.length then
        pure (q.1, q.2.1, { sp with s := { sp.s with prec := -1 } })
      else pure (q.1, q.2.1, { sp with s := { sp.s with prec := q.2.2 } })
    else pure (fmt, ap, { sp with s := { sp.s with prec := -1 } }))
  let t := parse_arg_type Y q.1 q.2.2
  let u ← (if t.2.arg_type = arg_t.MPFR_ARG then read_rnd t.1 t.2 q.2.1
    else pure (t.1, t.2, q.2.1))
  let fmt := u.1
  let sp := { u.2.1 with s := { u.2.1.s with spec := deref fmt } }
  let fmt := if deref fmt ≠ NUL then fmt.tail else fmt
  pure (fmt, sp, u.2.2)

/-- Lines 1720-1796: the processing of the conversion `sp`; `e` is `end`. -/
def process_spec (W : Nat) (X : PrintCallees) (Y : GmpCallees) (fmt e : List Char)
    (sp : specinfo) (s : vs_state) : Except Stop vs_next := do
  let c := sp.s.spec
  if c = NUL then pure (vs_next.done fmt s)
  else if c = 'n' then do
    let ap ← va_pop s.ap
    let b ← FLUSH Y s.gmp_fmt_flag s.start e s.ap2 s.buf
    pure (vs_next.loop fmt
      ⟨b.1, b.2, fmt, ap, ap, s.stored ++ [to_int b.1.chars.length]⟩)
  else if sp.arg_type = arg_t.MPFR_PREC_ARG then do
    let p ← va_arg_prec s.ap
    let b ← FLUSH Y s.gmp_fmt_flag s.start e s.ap2 s.buf
    let r := Y.gmp_asprintf p.1
    if to_long b.1.size + r.1 ≤ INT_MAX then do
      let b1 ← buffer_cat b.1 r.2 r.1
      pure (vs_next.loop fmt ⟨b1, b.2, fmt, p.2, p.2, s.stored⟩)
    else pure (vs_next.error ⟨b.1, b.2, fmt, p.2, p.2, s.stored⟩)
  else if sp.arg_type = arg_t.MPFR_ARG then do
    let p ← va_arg_mpfr s.ap
    let b ← FLUSH Y s.gmp_fmt_flag s.start e s.ap2 s.buf
    let r ←
      (if c = 'a' ∨ c = 'A' ∨ c = 'b' ∨ c = 'e' ∨ c = 'E' ∨ c = 'f' ∨ c = 'F' ∨ c = 'g'
          ∨ c = 'G' then sprnt_fp W X b.1 p.1 sp.s
      else pure (b.1, 0))
    if r.2 < 0 ∨ INT_MAX < to_long r.1.size + r.2 then
      pure (vs_next.error ⟨r.1, b.2, fmt, p.2, p.2, s.stored⟩)
    else pure (vs_next.loop fmt ⟨r.1, b.2, fmt, p.2, p.2, s.stored⟩)
  else do
    let ap ← CONSUME_VA_ARG Y sp s.ap
    pure (vs_next.loop fmt { s with ap := ap, gmp_fmt_flag := true })

/-- The body of the loop of `mpfr_vasprintf` (lines 1645-1797). -/
def vs_body (W : Nat) (X : PrintCallees) (Y : GmpCallees) (fmt : List Char) (s : vs_state) :
    Except Stop vs_next := do
  let pc := skip_plain fmt
  if deref pc = NUL then pure (vs_next.done pc s)
  else
    let fmt := pc.tail
    if deref fmt = '%' then pure (vs_next.loop fmt s)
    else do
      let e := pc
      let r ← parse_spec Y fmt s.ap
      process_spec W X Y r.1 e r.2.1 { s with ap := r.2.2 }

/-- The loop `while (*fmt)` of `mpfr_vasprintf` (lines 1644-1797), with `fuel` bounding its
iterations; each one that does not leave the loop moves `fmt` forward, so one more than the
length of the format string is enough. -/
def vs_loop (W : Nat) (X : PrintCallees) (Y : GmpCallees) :
    Nat → List Char → vs_state → Except Stop vs_next
  | 0, _, _ => .error Stop.fuel
  | fuel + 1, fmt, s =>
    if deref fmt = NUL then .ok (vs_next.done fmt s)
    else
      match vs_body W X Y fmt s with
      | .error x => .error x
      | .ok (vs_next.loop fmt1 s1) => vs_loop W X Y fuel fmt1 s1
      | .ok r => .ok r

/-- What `mpfr_vasprintf` leaves: the string `*ptr` (`none` is `NULL`), the return value,
the variadic arguments that it has not consumed, the values stored by the `%n` conversions,
and whether it has raised the erange flag. -/
structure vasprintf_result where
  ptr : Option (List Char)
  ret : Int
  ap : List va_item
  stored : List Int
  erange : Bool
deriving DecidableEq

/-- The function `mpfr_vasprintf (ptr, fmt, ap)` (lines 1620-1830). -/
def mpfr_vasprintf (W : Nat) (X : PrintCallees) (Y : GmpCallees) (fmt : List Char)
    (ap : List va_item) : Except Stop vasprintf_result := do
  let r ← vs_loop W X Y (fmt.length + 1) fmt ⟨⟨[], 4096⟩, false, fmt, ap, ap, []⟩
  match r with
  | vs_next.loop _ _ => .error Stop.fuel
  | vs_next.error s => pure ⟨none, -1, s.ap, s.stored, true⟩
  | vs_next.done fmt1 s => do
    let b ←
      (if s.start.length ≠ fmt1.length then FLUSH Y s.gmp_fmt_flag s.start fmt1 s.ap2 s.buf
      else pure (s.buf, s.gmp_fmt_flag))
    let nbchar := b.1.chars.length
    if (nbchar : Int) ≤ INT_MAX then pure ⟨some b.1.chars, to_int nbchar, s.ap, s.stored, false⟩
    else pure ⟨none, -1, s.ap, s.stored, true⟩

/-- Modelled from the spec: the formatted output of the integer substrate on the formats
used below: `%%` is a literal `%`, `%d` is the next `int` in decimal, every other character
is copied. -/
def c40_format : List Char → List va_item → List Char
  | [], _ => []
  | '%' :: '%' :: fmt, ap => '%' :: c40_format fmt ap
  | '%' :: 'd' :: fmt, va_item.int v :: ap => ld_chars v ++ c40_format fmt ap
  | c :: fmt, ap => c :: c40_format fmt ap

/-- A table of the callees of the integer substrate, with both configuration macros
defined. -/
def c40_Y : GmpCallees where
  HAVE_STDINT_H := true
  HAVE_WCHAR_H := true
  gmp_vasprintf := fun fmt ap => ((c40_format fmt ap).length, c40_format fmt ap)
  gmp_asprintf := fun p => ((Nat.toDigits 10 p).length, Nat.toDigits 10 p)

/-- A destination of precision 1. -/
def c39_y : mpfr_struct := ⟨1, 1, MPFR_EXP_NAN, [0]⟩

/-- Lines 197-241 of `exp3.c`: one pass of the loop of `mpfr_exp_3` up to the release of
the tables, before `mpfr_clear_flags` is called: the series evaluation.  Returns the objects
of the pass. -/
def exp3_series (W : Nat) (X : Exp3Callees) (x_copy : mpfr_struct) (ttt prec_x : Int)
    (G : Globals) (t tmp : mpfr_struct) (Prec : Nat) : Except Stop Exp3St := do
  let k : Int := (X.MPFR_INT_CEIL_LOG2 Prec : Int) - X.MPFR_LOG2_BITS_PER_MP_LIMB
  let twopoweri : Int := W
  if k + 2 < 0 then .error Stop.alloc
  else do
    let P : List Int := List.replicate (3 * (k + 2).toNat) 0
    let mult := X.allocate (2 * (k + 2).toNat)
    let uk := X.mpfr_extract x_copy 0
    if uk = 0 then .error Stop.assert
    else if k + 1 < 0 then .error Stop.assert
    else do
      let m := (k + 1).toNat
      let r ← mpfr_exp_rational W G tmp uk ((W / 2 : Nat) + twopoweri - ttt) m P mult
      let T ← exp_rational_tables tmp.prec uk ((W / 2 : Nat) + twopoweri - ttt) m P mult
      let a := exp3_sqr X (W / 2) r.2 r.1
      let twopoweri := twopoweri * 2 % 2 ^ 64
      let iter := if k ≤ prec_x then k else prec_x
      exp3_chunks W X x_copy ttt k iter.toNat 1
        { t := t, tmp := a.1, P := T.1, mult := T.2, twopoweri := twopoweri, G := a.2 }

/-- Lines 243-245 of `exp3.c`: the flags are cleared and `tmp` is squared `shift_x` times.
Returns `tmp` and the global state. -/
def exp3_final (X : Exp3Callees) (shift_x : Int) (c : Exp3St) : mpfr_struct × Globals :=
  exp3_squarings X shift_x.toNat (X.mpfr_clear_flags c.G) c.tmp

/-- Lines 247-272 of `exp3.c`: the three exits of the loop, on the global state `Gs` and the
`tmp` that the squarings leave; `none` when the loop goes on. -/
def exp3_exit (X : Exp3Callees) (Z : ZivCallees) (y : mpfr_struct) (rnd_mode : mp_rnd_t)
    (realprec : Nat) (tmp : mpfr_struct) (Gs : Globals) : Option (mpfr_struct × Int × Globals) :=
  if X.mpfr_overflow_p Gs then
    some ({ X.mpfr_setmax y Gs.emax with exp := (X.mpfr_setmax y Gs.emax).exp + 1 }, 1, Gs)
  else if X.mpfr_underflow_p Gs then some (X.mpfr_setmax y (X.MPFR_EMIN_MIN - 2), -1, Gs)
  else if Z.mpfr_can_round tmp realprec GMP_RNDD GMP_RNDZ
      (y.prec + (if rnd_mode = GMP_RNDN then 1 else 0)) then
    some (X.mpfr_set Gs y tmp rnd_mode)
  else none

/-- A table of callees for a run that ends at the first pass through the can-round exit:
as `c27_X`, but the first chunk of `x_copy` is its most significant limb, `mpfr_mul` copies
its first operand, and `mpfr_set` to a smaller precision of at most 64 bits truncates the
significand, returns a negative inexact code and raises the inexact flag when bits are
lost. -/
def c38_X : Exp3Callees :=
  { c27_X with
    mpfr_extract := fun x i => if i = 0 then (x.mant.headD 0 : Int) else 0
    mpfr_mul := fun G _ s _ _ => (s, G)
    mpfr_set := fun G d s _ =>
      if d.prec < s.prec then
        let m := s.mant.headD 0 / 2 ^ (64 - d.prec) * 2 ^ (64 - d.prec)
        let r := MPFR_RET G (if m = s.mant.headD 0 then 0 else -1)
        ({ s with prec := d.prec, mant := [m] }, r.1, r.2)
      else (s, 0, G) }

/-- A can-round test that always answers yes. -/
def c38_Z : ZivCallees where
  mpfr_can_round := fun _ _ _ _ _ => true
  MPFR_ZIV_INIT := fun _ => 64
  MPFR_ZIV_NEXT := fun z p => (z, p + z)

/-- An exponent range with the inexact flag raised. -/
def c38_G : Globals := ⟨MPFR_FLAGS_INEXACT, -1000, 1000⟩

/-- An exponent range with the underflow, inexact and erange flags raised. -/
def c38_G2 : Globals :=
  ⟨MPFR_FLAGS_UNDERFLOW ||| MPFR_FLAGS_INEXACT ||| MPFR_FLAGS_ERANGE, -1000, 1000⟩

/-- The result `out` of `mpfr_exp_3` comes from the squarings of one pass started without
any flag: the series evaluation of that pass has ended in a state `c`; with `q` what
`shift_x` squarings make of `c.tmp` and of the global state of `c` with the flags at 0,
`out` is the overflow exit on `q`, or the underflow exit on `q`, or what
`mpfr_set (y, tmp, rnd_mode)` returns on `q`. -/
def ExitFlags (W : Nat) (X : Exp3Callees) (G : Globals) (y x : mpfr_struct)
    (rnd_mode : mp_rnd_t) (out : mpfr_struct × Int × Globals) : Prop :=
  ∃ (x_copy : mpfr_struct) (ttt shift_x prec_x : Int) (G1 G0 : Globals) (t0 tmp0 : mpfr_struct)
      (Prec0 : Nat) (c : Exp3St) (q : mpfr_struct × Globals),
    exp3_decompose X G x = .ok (x_copy, ttt, shift_x, G1)
      ∧ exp3_series W X x_copy ttt prec_x G0 t0 tmp0 Prec0 = .ok c
      ∧ q = exp3_squarings X shift_x.toNat { c.G with flags := 0 } c.tmp
      ∧ ((X.mpfr_overflow_p q.2 = true ∧ out.2.1 = 1 ∧ out.2.2 = q.2)
        ∨ (X.mpfr_overflow_p q.2 = false ∧ X.mpfr_underflow_p q.2 = true ∧ out.2.1 = -1
            ∧ out.2.2 = q.2)
        ∨ (X.mpfr_overflow_p q.2 = false ∧ X.mpfr_underflow_p q.2 = false
            ∧ out = X.mpfr_set q.2 y q.1 rnd_mode))

/-- The result of `mpfr_exp_3` on `x = 2` with the callees `c27_X`: the overflow exit. -/
def c38_out : mpfr_struct × Int × Globals :=
  (⟨2, 1, 1001, [13835058055282163712]⟩, 1, ⟨MPFR_FLAGS_OVERFLOW, -1000, 1000⟩)

/-- The shape of the stack of `mpfr_exp_rational`: the entries `0 .. n-1` of
`log2_nb_terms` are the logarithms of the sizes of consecutive blocks that cover the terms
`0 .. e-1`, each block of `2 ^ t` terms starting at a multiple of `2 ^ (t + 1)`. -/
def Stk (m : Nat) (mult : List Nat) : Nat → Nat → Prop
  | 0, e => e = 0
  | n + 1, e =>
    ∃ t a, mult[m + 1 + n]? = some t ∧ e = a + 2 ^ t ∧ 2 ^ (t + 1) ∣ a ∧ Stk m mult n a

/-- The computation `x` does not stop at an access outside a buffer, and a result it
returns satisfies `P`. -/
def Safe {α : Type} (x : Except Fault α) (P : α → Prop) : Prop :=
  x ≠ .error Fault.index ∧ ∀ r, x = .ok r → P r

/-- The locals that a jump to the label `to_nearest` carries are inside the buffer it
points to: `0 <= k <= bn` and `bp` has `bn` limbs at least. -/
def GotoSafe : Goto → Prop
  | Goto.to_nearest bp bn k _ => 0 ≤ k ∧ k ≤ bp.length ∧ bn ≤ bp.length
  | _ => True

/-- The value `2 ^ 4294967295 = 0.1b * 2 ^ 4294967296`, precision 1: its exponent is
`2 ^ 32`. -/
def c17_b : mpfr_t := ⟨1, false, false, 4294967296, [9223372036854775808]⟩

/-- The value `2 ^ 4294967296 = 0.1b * 2 ^ 4294967297`, precision 1. -/
def c17_s : mpfr_t := ⟨1, false, false, 4294967297, [9223372036854775808]⟩

/-- The value `-1/2`, precision 1. -/
def c21_c : mpfr_t := ⟨1, true, false, 0, [9223372036854775808]⟩

/-- Modelled from the spec: the header macro `SET_ZERO` is not part of the sources; it makes
the value the zero that `NOTZERO` detects, by clearing the limb
`MANT(x)[(PREC(x)-1)/BITS_PER_MP_LIMB]`. -/
def SET_ZERO (W : Nat) (x : mpfr_t) : mpfr_t :=
  { x with mant := x.mant.set ((x.prec - 1) / W) 0 }

/-- External functions for the runs on two operands of equal magnitude: `SET_ZERO` as
modelled from the spec; `mpfr_set` and `mpfr_sub1`, which these runs do not reach, leave the
heap as it is. -/
def c7_X : Callees := ⟨SET_ZERO 64, fun h _ _ _ => h, fun h _ _ _ _ _ => h⟩

/-- The negative destination `c9_a` after `SET_ZERO`. -/
def c7_z : mpfr_t := ⟨64, true, false, 5, [0]⟩

/-! ## `mpfr_add1` on a machine that executes every shift

A limb shift whose count lies outside `0 .. W-1` is undefined in C, and the embedding above
stops there with `Fault.shift`.  Compiled code does not stop: the shift instruction yields
some limb and the run goes on.  The definitions of this section follow the same lines of
`add.c` with such a shift yielding a limb chosen by the machine.  Such counts occur in the
rounding decisions of lines 153-189 and 283-317 only; the other parts of `mpfr_add1` are
shared with the embedding above. -/

/-- What a machine yields for a limb shifted by a count outside `0 .. W-1`, to the left and
to the right: a limb that may depend on the operand and on the count. -/
structure Shifts where
  left : Nat → Int → Nat
  right : Nat → Int → Nat

/-- The shifts of an x86-64 processor on 64-bit limbs: the count is taken modulo 64. -/
def x86_shifts : Shifts :=
  ⟨fun x n => x * 2 ^ (n % 64).toNat, fun x n => x / 2 ^ (n % 64).toNat⟩

/-- C `x << n` on a limb, executed: the C value when `0 <= n < W`, the limb of the machine
otherwise. -/
def shl_m (U : Shifts) (W : Nat) (x : Nat) (n : Int) : Nat :=
  if 0 ≤ n ∧ n < W then (x * 2 ^ n.toNat) % 2 ^ W else U.left x n % 2 ^ W

/-- C `x >> n` on a limb, executed: the C value when `0 <= n < W`, the limb of the machine
otherwise. -/
def shr_m (U : Shifts) (W : Nat) (x : Nat) (n : Int) : Nat :=
  if 0 ≤ n ∧ n < W then x / 2 ^ n.toNat else U.right x n % 2 ^ W

/-- Lines 164-181, every shift executed.  While `dif` is negative an iteration adds `W` to it
without consuming a limb of `c`, so the loop runs at most `k + cn` times plus the number of
additions that make `dif` non-negative. -/
def loop164_m (U : Shifts) (W : Nat) (bp cp : List Nat) (sh : Int) :
    Nat → S164 → Except Fault S164
  | 0, _ => .error Fault.fuel
  | n + 1, s =>
    if s.cout = 0 ∧ (s.k ≠ 0 ∨ s.cn ≠ 0) then do
      let cout : Int := if s.cc > 1 then 2 else s.cc
      let cc ← (if s.k ≠ 0 then rd bp (s.k - 1) else pure 0)
      let k := if s.k ≠ 0 then s.k - 1 else s.k
      let t : Nat × Int :=
        if sh = 0 then
          let r := sub_1 W cc (shl_m U W 1 ((W : Int) - 1))
          (r.1, cout - r.2)
        else (cc, cout)
      let c2 := shl_m U W s.c2old s.dif
      let u ←
        (if s.cn ≠ 0 ∧ 0 ≤ s.dif then do
          let c2old ← rd cp (s.cn - 1)
          let t := shr_m U W c2old ((W : Int) - s.dif)
          pure ((c2 + t) % 2 ^ W, s.cn - 1, c2old, s.dif)
        else pure (c2, s.cn, s.c2old, s.dif + W))
      let r := add_1 W t.1 u.1
      loop164_m U W bp cp sh n
        { cout := t.2 + r.2, cc := r.1, k := k, cn := u.2.1, dif := u.2.2.2, c2old := u.2.2.1 }
    else .ok s

/-- Lines 153-189, every shift executed: the rounding decision of the branch
`PREC(b) > PREC(a)`, from the bits `cc` truncated from `b` and the limbs of `c`. -/
def far_round_goto_m (U : Shifts) (W : Nat) (sh k cn dif : Int) (cc : Nat)
    (ap bp cp : List Nat) (b : mpfr_t) (rnd_mode : mp_rnd_t) : Except Fault Goto := do
  let dif := dif + sh
  let s1 ←
    (if 0 < dif then do
      let c2old ← rd cp (cn - 1)
      let t := shr_m U W c2old ((W : Int) - dif)
      let r := add_1 W cc t
      pure (cn - 1, c2old, r.1, (r.2 : Int))
    else pure (cn, 0, cc, (0 : Int)))
  let cn := s1.1
  let c2old := s1.2.1
  let s2 : Nat × Int :=
    if sh ≠ 0 ∧ rnd_mode = GMP_RNDN then
      let r := sub_1 W s1.2.2.1 (shl_m U W 1 (sh - 1))
      (r.1, s1.2.2.2 - r.2)
    else (s1.2.2.1, s1.2.2.2)
  let cc := s2.1
  let cout := s2.2
  let s ←
    (if cout = 0 then
      loop164_m U W bp cp sh (k.toNat + cn.toNat + (-(dif + W)).toNat + 1)
        { cout := cout, cc := cc, k := k, cn := cn, dif := dif + W, c2old := c2old }
    else pure { cout := cout, cc := cc, k := k, cn := cn, dif := dif, c2old := c2old })
  let cout : Int := if s.cout = 0 then (if s.cc ≠ 0 then 1 else 0) else s.cout
  let sign : Bool := away b rnd_mode || decide (rnd_mode = GMP_RNDN)
  if sign ∧ 0 < cout then pure Goto.add_one_ulp
  else if rnd_mode = GMP_RNDN ∧ cout = 0 then
    let a0 ← rd ap 0
    if a0 &&& shl_m U W 1 sh ≠ 0 then pure Goto.add_one_ulp else pure Goto.end_of_add
  else pure Goto.end_of_add

/-- Lines 138-191, every shift executed: `diff_exp >= PREC(a)` and `PREC(b) > PREC(a)`. -/
def far_round_m (U : Shifts) (W : Nat) (sh an bn cn dif : Int) (ap bp cp : List Nat)
    (b : mpfr_t) (rnd_mode : mp_rnd_t) : Except Fault (List Nat × Goto) := do
  let k := bn - an
  let ap ← MPN_COPY ap 0 bp k an
  let t ← (if sh ≠ 0 then take_low W sh ap else pure (ap, 0))
  let g ← far_round_goto_m U W sh k cn dif t.2 t.1 bp cp b rnd_mode
  pure (t.1, g)

/-- Lines 296-301, every shift executed. -/
def loop296_m (U : Shifts) (W : Nat) (bp cp : List Nat) (dif : Int) :
    Nat → S296 → Except Fault S296
  | 0, _ => .error Fault.fuel
  | n + 1, s =>
    if (s.cout = 0 ∨ s.cout = 2 ^ W - 1) ∧ s.k ≠ 0 ∧ s.kc ≠ 0 then do
      let kc := s.kc - 1
      let k := s.k - 1
      let x ← rd bp k
      let hi ← rd cp (kc + 1)
      let hi := shl_m U W hi ((W : Int) - dif)
      let lo ← rd cp kc
      let lo := shr_m U W lo dif
      let r := add_1 W x ((hi + lo) % 2 ^ W)
      let cout := (s.cout + r.2) % 2 ^ W
      let cout := if cout = 0 ∨ lnot W cout = 0 then r.1 else cout
      loop296_m U W bp cp dif n { cout := cout, cc := r.1, k := k, kc := kc }
    else .ok s

/-- Lines 291-317, every shift executed: the decision of `case 1` after the low bits of
`*ap` went into `cc`.  `none` stands for falling through into `case 3`; the live `k` is
returned with it. -/
def near_case1_goto_m (U : Shifts) (W : Nat) (sh an bn cn k dif : Int) (cc : Nat)
    (ap bp cp : List Nat) (rnd_mode : mp_rnd_t) : Except Fault (Option Goto × Int) := do
  let kc := cn - k
  let k := bn - an
  let s0 : Nat × Nat :=
    if rnd_mode = GMP_RNDN then
      let r := sub_1 W cc (shl_m U W 1 (sh - 1))
      (r.1, lneg W r.2)
    else (cc, 0)
  let cc := s0.1
  let cout := s0.2
  if lnot W cout = 0 ∧ lnot W cc ≠ 0 then pure (some Goto.end_of_add, k)
  else
    let s ← loop296_m U W bp cp dif (k.toNat + 1) { cout := cc, cc := cc, k := k, kc := kc }
    let s ←
      (if s.kc = 0 ∧ dif ≠ 0 then do
        let c0 ← rd cp 0
        let x := shl_m U W c0 ((W : Int) - dif)
        let t ←
          (if s.k ≠ 0 then do
            let y ← rd bp (s.k - 1)
            let r := add_1 W y x
            pure (r.1, (s.cout + r.2) % 2 ^ W, s.k - 1)
          else pure (x, s.cout, s.k))
        let cout :=
          if (t.2.1 = 0 ∧ t.1 = 0) ∨ (lnot W t.2.1 = 0 ∧ lnot W t.1 = 0) then t.1 else t.2.1
        pure { cout := cout, cc := t.1, k := t.2.2, kc := s.kc : S296 }
      else pure s)
    if spos W s.cout ∨ (s.cout = 0 ∧ s.cc ≠ 0) then pure (some Goto.add_one_ulp, s.k)
    else if sneg W s.cout then pure (some Goto.end_of_add, s.k)
    else if s.kc = 0 then
      let r ← loopdown bp (s.k.toNat + 1) s.k s.cout
      if lnot W r.2 ≠ 0 then
        if r.2 ≠ 0 then pure (some Goto.add_one_ulp, r.1)
        else if rnd_mode = GMP_RNDN then
          let a0 ← rd ap 0
          if a0 &&& shl_m U W 1 sh ≠ 0 then pure (some Goto.add_one_ulp, r.1)
          else pure (some Goto.end_of_add, r.1)
        else pure (some Goto.end_of_add, r.1)
      else pure (some Goto.end_of_add, r.1)
    else pure (none, s.k)

/-- Lines 283-317, every shift executed: `case 1` of the switch. -/
def near_case1_m (U : Shifts) (W : Nat) (sh an bn cn k dif : Int) (ap bp cp : List Nat)
    (rnd_mode : mp_rnd_t) : Except Fault (List Nat × Option Goto × Int) := do
  let t ← take_low W sh ap
  let g ← near_case1_goto_m U W sh an bn cn k dif t.2 t.1 bp cp rnd_mode
  pure (t.1, g)

/-- Lines 270-334, every shift executed: the rounding switch. -/
def near_round_m (U : Shifts) (W : Nat) (sh an bn cn k dif : Int) (ap bp cp : List Nat)
    (overlap : Nat) (b : mpfr_t) (rnd_mode : mp_rnd_t) : Except Fault (List Nat × Goto) := do
  if rnd_mode = GMP_RNDN ∨ away b rnd_mode then
    match overlap with
    | 1 =>
      let r ← near_case1_m U W sh an bn cn k dif ap bp cp rnd_mode
      match r.2.1 with
      | some g => pure (r.1, g)
      | none => pure (r.1, Goto.to_nearest cp cn (cn - r.2.2) dif)
    | 3 => pure (ap, Goto.to_nearest cp cn (cn - k) dif)
    | 0 => pure (ap, Goto.to_nearest bp bn (bn - an) 0)
    | _ => pure (ap, Goto.end_of_add)
  else
    let a0 ← rd ap 0
    let ap ← wr ap 0 (a0 &&& lnot W (shl_m U W 1 sh - 1))
    pure (ap, Goto.end_of_add)

/-- Lines 193-335, every shift executed: `diff_exp < PREC(a)`. -/
def near_m (U : Shifts) (W : Nat) (pa pb pc : Nat) (sh an bn cn dif diff_exp : Int)
    (ap bp cp : List Nat) (b : mpfr_t) (rnd_mode : mp_rnd_t) :
    Except Fault (List Nat × Int × Nat × Goto) := do
  let s ← near_shift W pc sh an cn dif diff_exp ap cp
  let t ← near_add W pa pb an bn s.1 bp s.2.2.2
  let r ← near_round_m U W sh an bn cn s.2.1 s.2.2.1 t.1 bp cp t.2.1 b rnd_mode
  pure (r.1, t.2.2.1, t.2.2.2, r.2)

/-- Lines 69-73 and 78-379 of `mpfr_add1` on the three limb buffers, every shift executed;
the arguments and the result are those of `add1_core`. -/
def add1_core_m (U : Shifts) (W : Nat) (pa pb pc : Nat) (ap bp cp : List Nat)
    (nzc : List Nat → Except Fault Nat) (b : mpfr_t) (rnd_mode : mp_rnd_t) (diff_exp : Int) :
    Except Fault (List Nat × Int) := do
  let an : Int := (((pa - 1) / W + 1 : Nat) : Int)
  let sh := an * W - pa
  let bn : Int := (((pb - 1) / W + 1 : Nat) : Int)
  let cn : Int := (((pc - 1) / W + 1 : Nat) : Int)
  let dif : Int := pa - diff_exp
  let r ←
    (if dif ≤ 0 then do
      let r ←
        (if pb ≤ pa then far_copy W pa sh an bn ap bp cp pc nzc b rnd_mode diff_exp
        else far_round_m U W sh an bn cn dif ap bp cp b rnd_mode)
      pure (r.1, (0 : Int), 0, r.2)
    else near_m U W pa pb pc sh an bn cn dif diff_exp ap bp cp b rnd_mode)
  let f ← add1_finish W sh an r.2.2.1 r.1 r.2.2.2 rnd_mode
  pure (f.1, r.2.1 + f.2)

/-- Lines 55-73 and 78-379 of `mpfr_add1`, every shift executed; the arguments and the
result are those of `add1_limbs`. -/
def add1_limbs_m (U : Shifts) (W : Nat) (h : Heap) (a b c : Ptr) (rnd_mode : mp_rnd_t)
    (diff_exp : Int) : Except Fault (List Nat × Int) := do
  let ap := (h a).mant
  let bp ← (if a = b then seg ap 0 (ABSSIZE (h b)) else pure (h b).mant)
  let cp ←
    (if a = b then (if a = c then pure bp else pure (h c).mant)
    else if a = c then seg ap 0 (ABSSIZE (h c)) else pure (h c).mant)
  add1_core_m U W (h a).prec (h b).prec (h c).prec ap bp cp (nzc_of W h a c) (h b) rnd_mode
    diff_exp

/-- The function `mpfr_add1 (a, b, c, rnd_mode, diff_exp)` of `add.c`, lines 38-380, every
shift executed. -/
def mpfr_add1_m (U : Shifts) (W : Nat) (h : Heap) (a b c : Ptr) (rnd_mode : mp_rnd_t)
    (diff_exp : Int) : Except Fault Heap := do
  let A := add1_header h a b
  let r ← add1_limbs_m U W (h.set a A) a b c rnd_mode diff_exp
  pure (h.set a { A with mant := r.1, exp := A.exp + r.2 })

/-- The function `mpfr_add (a, b, c, rnd_mode)` of `add.c`, lines 382-419, every shift of
`mpfr_add1` executed. -/
def mpfr_add_m (U : Shifts) (W : Nat) (X : Callees) (h : Heap) (a b c : Ptr)
    (rnd_mode : mp_rnd_t) : Except Fault Heap := do
  if FLAG_NAN (h b) ∨ FLAG_NAN (h c) then pure (h.set a (SET_NAN (h a)))
  else
    let zb ← NOTZERO W (h b)
    if zb = 0 then pure (X.mpfr_set h a c rnd_mode)
    else
      let zc ← NOTZERO W (h c)
      if zc = 0 then pure (X.mpfr_set h a b rnd_mode)
      else
        let diff_exp := to_int ((h b).exp - (h c).exp)
        if MPFR_SIGN (h b) * MPFR_SIGN (h c) < 0 then
          if diff_exp < 0 then do
            let d ← neg_int diff_exp
            pure (X.mpfr_sub1 h a c b rnd_mode d)
          else if 0 < diff_exp then pure (X.mpfr_sub1 h a b c rnd_mode diff_exp)
          else
            let diff_exp := mpfr_cmp3 W (h b) (h c) (-1)
            if diff_exp = 0 then pure (h.set a (X.SET_ZERO (h a)))
            else if 0 < diff_exp * MPFR_SIGN (h b) then pure (X.mpfr_sub1 h a b c rnd_mode 0)
            else pure (X.mpfr_sub1 h a c b rnd_mode 0)
        else if diff_exp < 0 then do
          let d ← neg_int diff_exp
          mpfr_add1_m U W h a c b rnd_mode d
        else mpfr_add1_m U W h a b c rnd_mode diff_exp

/-- The carry of the `mpn_add_1` of line 371, every shift executed; the arguments are those
of `ulp_carry`. -/
def ulp_carry_m (U : Shifts) (W : Nat) (pa pb pc : Nat) (ap bp cp : List Nat)
    (nzc : List Nat → Except Fault Nat) (b : mpfr_t) (rnd_mode : mp_rnd_t) (diff_exp : Int) :
    Except Fault Nat := do
  let an : Int := (((pa - 1) / W + 1 : Nat) : Int)
  let sh := an * W - pa
  let bn : Int := (((pb - 1) / W + 1 : Nat) : Int)
  let cn : Int := (((pc - 1) / W + 1 : Nat) : Int)
  let dif : Int := pa - diff_exp
  let r ←
    (if dif ≤ 0 then do
      let r ←
        (if pb ≤ pa then far_copy W pa sh an bn ap bp cp pc nzc b rnd_mode diff_exp
        else far_round_m U W sh an bn cn dif ap bp cp b rnd_mode)
      pure (r.1, (0 : Int), 0, r.2)
    else near_m U W pa pb pc sh an bn cn dif diff_exp ap bp cp b rnd_mode)
  let t ←
    (match r.2.2.2 with
    | Goto.to_nearest bp bn k dif => to_nearest W sh r.2.2.1 r.1 bp bn k dif rnd_mode
    | Goto.add_one_ulp => pure (r.1, true)
    | Goto.end_of_add => pure (r.1, false))
  if t.2 then
    let m ← shl W 1 sh
    let q ← mpn_add_1 W t.1 0 an m
    pure q.2
  else pure 0

/-- The carry of the one-ulp increment in the call
`mpfr_add1 (a, b, c, rnd_mode, diff_exp)`, every shift executed. -/
def add1_ulp_carry_m (U : Shifts) (W : Nat) (h : Heap) (a b c : Ptr) (rnd_mode : mp_rnd_t)
    (diff_exp : Int) : Except Fault Nat :=
  let h := h.set a (add1_header h a b)
  ulp_carry_m U W (h a).prec (h b).prec (h c).prec (h a).mant (h b).mant (h c).mant
    (nzc_of W h a c) (h b) rnd_mode diff_exp

/-- The computation returns a result, and the result satisfies `P`. -/
def Returns {α : Type} (x : Except Fault α) (P : α → Prop) : Prop :=
  ∃ r, x = .ok r ∧ P r

/-- The computation does not stop at a shift or at the negation of an `int`. -/
def NoShift {α : Type} (x : Except Fault α) : Prop :=
  x ≠ .error Fault.shift ∧ x ≠ .error Fault.overflow

/-- The `dif` that a jump to the label `to_nearest` carries is below the limb width, so
that the shift of line 361 has a count inside `0 .. W-1`. -/
def GotoFit (W : Nat) : Goto → Prop
  | Goto.to_nearest _ _ _ dif => dif < W
  | _ => True

/-- A negative destination of precision 1. -/
def c9_d : mpfr_t := ⟨1, true, false, 5, [7]⟩

/-! ## Limb lists -/

theorem length_toLimbs (W n v : Nat) : (toLimbs W n v).length = n := by
  induction n generalizing v with
  | zero => rfl
  | succ n ih => simp [toLimbs, ih]

theorem limbsVal_toLimbs (W n v : Nat) : limbsVal W (toLimbs W n v) = v % 2 ^ (W * n) := by
  induction n generalizing v with
  | zero => simp [toLimbs, limbsVal, Nat.mod_one]
  | succ n ih =>
    simp only [toLimbs, limbsVal, ih]
    rw [Nat.mul_succ, Nat.add_comm (W * n) W, pow_add, Nat.mod_mul, Nat.add_comm]

theorem limbsVal_append (W : Nat) (xs ys : List Nat) :
    limbsVal W (xs ++ ys) = limbsVal W xs + 2 ^ (W * xs.length) * limbsVal W ys := by
  induction xs with
  | nil => simp [limbsVal]
  | cons x xs ih =>
    have e : limbsVal W (x :: xs ++ ys) = x + 2 ^ W * limbsVal W (xs ++ ys) := rfl
    rw [e, ih]
    simp only [limbsVal, List.length_cons, Nat.mul_succ, pow_add]
    ring

theorem limbsVal_replicate_zero (W n : Nat) : limbsVal W (List.replicate n 0) = 0 := by
  induction n with
  | zero => rfl
  | succ n ih => simp [List.replicate, limbsVal, ih]

theorem limbsVal_lt (W : Nat) (xs : List Nat) (h : AllLt W xs) :
    limbsVal W xs < 2 ^ (W * xs.length) := by
  induction xs with
  | nil => simp [limbsVal]
  | cons x xs ih =>
    have hx : x < 2 ^ W := h x (List.mem_cons_self _ _)
    have hxs : limbsVal W xs < 2 ^ (W * xs.length) :=
      ih (fun y hy => h y (List.mem_cons_of_mem _ hy))
    simp only [limbsVal, List.length_cons, Nat.mul_succ, pow_add]
    have h1 : limbsVal W xs + 1 ≤ 2 ^ (W * xs.length) := hxs
    calc x + 2 ^ W * limbsVal W xs < 2 ^ W + 2 ^ W * limbsVal W xs := by omega
      _ = 2 ^ W * (limbsVal W xs + 1) := by ring
      _ ≤ 2 ^ W * 2 ^ (W * xs.length) := Nat.mul_le_mul_left _ h1
      _ = 2 ^ (W * xs.length) * 2 ^ W := by ring

theorem getElem?_toLimbs (W n v i : Nat) (hi : i < n) :
    (toLimbs W n v)[i]? = some (v / 2 ^ (W * i) % 2 ^ W) := by
  induction n generalizing v i with
  | zero => omega
  | succ n ih =>
    cases i with
    | zero => simp [toLimbs]
    | succ i =>
      simp only [toLimbs, List.getElem?_cons_succ]
      rw [ih _ _ (by omega), Nat.div_div_eq_div_mul, Nat.mul_succ, Nat.add_comm (W * i) W,
        pow_add]

theorem limbsVal_ge_get (W : Nat) (xs : List Nat) (i t : Nat) (h : xs[i]? = some t) :
    t * 2 ^ (W * i) ≤ limbsVal W xs := by
  induction xs generalizing i with
  | nil => simp at h
  | cons x xs ih =>
    cases i with
    | zero =>
      simp only [List.getElem?_cons_zero, Option.some.injEq] at h
      subst h
      simp [limbsVal]
    | succ i =>
      simp only [List.getElem?_cons_succ] at h
      have := ih i h
      simp only [limbsVal, Nat.mul_succ, pow_add]
      calc t * (2 ^ (W * i) * 2 ^ W) = 2 ^ W * (t * 2 ^ (W * i)) := by ring
        _ ≤ 2 ^ W * limbsVal W xs := Nat.mul_le_mul_left _ this
        _ ≤ x + 2 ^ W * limbsVal W xs := Nat.le_add_left _ _

theorem allLt_toLimbs (W n v : Nat) : AllLt W (toLimbs W n v) := by
  induction n generalizing v with
  | zero => intro x hx; simp [toLimbs] at hx
  | succ n ih =>
    intro x hx
    simp only [toLimbs, List.mem_cons] at hx
    rcases hx with hx | hx
    · subst hx; exact Nat.mod_lt _ (by positivity)
    · exact ih _ x hx

theorem allLt_append (W : Nat) (xs ys : List Nat) (hx : AllLt W xs) (hy : AllLt W ys) :
    AllLt W (xs ++ ys) := by
  intro x h
  rcases List.mem_append.1 h with h | h
  · exact hx x h
  · exact hy x h

theorem allLt_take (W : Nat) (xs : List Nat) (n : Nat) (hx : AllLt W xs) :
    AllLt W (xs.take n) := fun x h => hx x (List.mem_of_mem_take h)

theorem allLt_drop (W : Nat) (xs : List Nat) (n : Nat) (hx : AllLt W xs) :
    AllLt W (xs.drop n) := fun x h => hx x (List.mem_of_mem_drop h)

theorem allLt_replicate_zero (W n : Nat) : AllLt W (List.replicate n 0) := by
  intro x h
  rw [List.eq_of_mem_replicate h]
  positivity

theorem allLt_set (W : Nat) (xs : List Nat) (i v : Nat) (hx : AllLt W xs) (hv : v < 2 ^ W) :
    AllLt W (xs.set i v) := by
  intro x h
  rcases List.mem_or_eq_of_mem_set h with h | h
  · exact hx x h
  · rw [h]; exact hv

theorem allLt_get (W : Nat) (xs : List Nat) (i t : Nat) (hx : AllLt W xs)
    (h : xs[i]? = some t) : t < 2 ^ W := hx t (List.getElem?_mem h)

theorem bind_ok {α β : Type} (x : Except Fault α) (f : α → Except Fault β) (b : β) :
    (x >>= f) = .ok b ↔ ∃ a, x = .ok a ∧ f a = .ok b := by
  cases x with
  | error e => simp [bind, Except.bind]
  | ok a => simp [bind, Except.bind]

/-! ## Buffer primitives -/

theorem rd_eq_ok {p : List Nat} {i : Int} {x : Nat} (h : rd p i = .ok x) :
    0 ≤ i ∧ p[i.toNat]? = some x := by
  unfold rd at h
  split at h
  · rename_i hi
    split at h
    · rename_i y hy
      simp only [Except.ok.injEq] at h
      subst h
      exact ⟨hi, hy⟩
    · simp at h
  · simp at h

theorem rd_of_get {p : List Nat} {i : Int} {x : Nat} (hi : 0 ≤ i)
    (h : p[i.toNat]? = some x) : rd p i = .ok x := by
  unfold rd
  simp [hi, h]

theorem wr_eq_ok {p q : List Nat} {i : Int} {v : Nat} (h : wr p i v = .ok q) :
    0 ≤ i ∧ i.toNat < p.length ∧ q = p.set i.toNat v := by
  unfold wr at h
  split at h
  · rename_i hi
    simp only [Except.ok.injEq] at h
    exact ⟨hi.1, hi.2, h.symm⟩
  · simp at h

theorem seg_eq_ok {p t : List Nat} {off n : Int} (h : seg p off n = .ok t) :
    0 ≤ off ∧ 0 ≤ n ∧ off.toNat + n.toNat ≤ p.length ∧
      t = (p.drop off.toNat).take n.toNat := by
  unfold seg at h
  split at h
  · rename_i hi
    simp only [Except.ok.injEq] at h
    exact ⟨hi.1, hi.2.1, hi.2.2, h.symm⟩
  · simp at h

theorem put_eq_ok {p q s : List Nat} {off : Int} (h : put p off s = .ok q) :
    0 ≤ off ∧ off.toNat + s.length ≤ p.length ∧
      q = p.take off.toNat ++ s ++ p.drop (off.toNat + s.length) := by
  unfold put at h
  split at h
  · rename_i hi
    simp only [Except.ok.injEq] at h
    exact ⟨hi.1, hi.2, h.symm⟩
  · simp at h

theorem seg_length {p t : List Nat} {off n : Int} (h : seg p off n = .ok t) :
    t.length = n.toNat := by
  obtain ⟨_, _, h3, h4⟩ := seg_eq_ok h
  subst h4
  simp only [List.length_take, List.length_drop]
  omega

theorem put_length {p q s : List Nat} {off : Int} (h : put p off s = .ok q) :
    q.length = p.length := by
  obtain ⟨_, h2, h3⟩ := put_eq_ok h
  subst h3
  simp only [List.length_append, List.length_take, List.length_drop]
  omega

theorem wr_length {p q : List Nat} {i : Int} {v : Nat} (h : wr p i v = .ok q) :
    q.length = p.length := by
  obtain ⟨_, _, h3⟩ := wr_eq_ok h
  subst h3
  simp

theorem put_getElem? {p q s : List Nat} {off : Int} (h : put p off s = .ok q) (i : Nat) :
    q[i]? = if i < off.toNat then p[i]?
      else if i < off.toNat + s.length then s[i - off.toNat]? else p[i]? := by
  obtain ⟨_, h2, h3⟩ := put_eq_ok h
  subst h3
  by_cases h1 : i < off.toNat
  · simp only [h1, if_true]
    rw [List.append_assoc, List.getElem?_append_left (by simp; omega)]
    simp [List.getElem?_take, h1]
  · simp only [h1, if_false]
    by_cases h4 : i < off.toNat + s.length
    · simp only [h4, if_true]
      rw [List.append_assoc, List.getElem?_append_right (by simp; omega)]
      rw [List.getElem?_append_left (by simp; omega)]
      simp only [List.length_take]
      congr 1
      omega
    · simp only [h4, if_false]
      rw [List.getElem?_append_right (by simp; omega)]
      simp only [List.getElem?_drop, List.length_append, List.length_take]
      congr 1
      omega

theorem seg_getElem? {p t : List Nat} {off n : Int} (h : seg p off n = .ok t) (i : Nat)
    (hi : i < n.toNat) : t[i]? = p[off.toNat + i]? := by
  obtain ⟨_, _, h3, h4⟩ := seg_eq_ok h
  subst h4
  rw [List.getElem?_take_of_lt hi, List.getElem?_drop]

theorem wr_getElem? {p q : List Nat} {i : Int} {v : Nat} (h : wr p i v = .ok q) (j : Nat) :
    q[j]? = if j = i.toNat then some v else p[j]? := by
  obtain ⟨_, h2, h3⟩ := wr_eq_ok h
  subst h3
  by_cases hj : j = i.toNat
  · subst hj
    simp [h2]
  · simp only [hj, if_false]
    rw [List.getElem?_set_ne]
    exact fun e => hj e.symm

theorem allLt_seg {W : Nat} {p t : List Nat} {off n : Int} (h : seg p off n = .ok t)
    (hp : AllLt W p) : AllLt W t := by
  obtain ⟨_, _, _, h4⟩ := seg_eq_ok h
  subst h4
  exact allLt_take W _ _ (allLt_drop W _ _ hp)

theorem allLt_put {W : Nat} {p q s : List Nat} {off : Int} (h : put p off s = .ok q)
    (hp : AllLt W p) (hs : AllLt W s) : AllLt W q := by
  obtain ⟨_, _, h3⟩ := put_eq_ok h
  subst h3
  exact allLt_append W _ _ (allLt_append W _ _ (allLt_take W _ _ hp) hs) (allLt_drop W _ _ hp)

theorem allLt_wr {W : Nat} {p q : List Nat} {i : Int} {v : Nat} (h : wr p i v = .ok q)
    (hp : AllLt W p) (hv : v < 2 ^ W) : AllLt W q := by
  obtain ⟨_, _, h3⟩ := wr_eq_ok h
  subst h3
  exact allLt_set W _ _ _ hp hv

theorem shl_eq_ok {W x : Nat} {n : Int} {y : Nat} (h : shl W x n = .ok y) :
    0 ≤ n ∧ n < W ∧ y = (x * 2 ^ n.toNat) % 2 ^ W := by
  unfold shl at h
  split at h
  · rename_i hi
    simp only [Except.ok.injEq] at h
    exact ⟨hi.1, hi.2, h.symm⟩
  · simp at h

theorem shl_one {W : Nat} {n : Int} {y : Nat} (h : shl W 1 n = .ok y) :
    0 ≤ n ∧ n < W ∧ y = 2 ^ n.toNat := by
  obtain ⟨h1, h2, h3⟩ := shl_eq_ok h
  refine ⟨h1, h2, ?_⟩
  rw [h3, Nat.one_mul]
  apply Nat.mod_eq_of_lt
  apply Nat.pow_lt_pow_right (by norm_num)
  omega

/-! ## Normalisation -/

theorem topSet_of_getElem {W : Nat} {n : Int} {p : List Nat} {t : Nat} (hn : 1 ≤ n)
    (h : p[(n - 1).toNat]? = some t) (h1 : 2 ^ (W - 1) ≤ t) (h2 : t < 2 ^ W) :
    TopSet W n p :=
  ⟨t, rd_of_get (by omega) h, h1, h2⟩

theorem topSet_getElem {W : Nat} {n : Int} {p : List Nat} (h : TopSet W n p) :
    1 ≤ n ∧ ∃ t, p[(n - 1).toNat]? = some t ∧ 2 ^ (W - 1) ≤ t ∧ t < 2 ^ W := by
  obtain ⟨t, h1, h2, h3⟩ := h
  obtain ⟨h4, h5⟩ := rd_eq_ok h1
  exact ⟨by omega, t, h5, h2, h3⟩

theorem mpn_add_1_eq_ok {W : Nat} {p : List Nat} {off n : Int} {x : Nat}
    {r : List Nat × Nat} (h : mpn_add_1 W p off n x = .ok r) :
    ∃ s, seg p off n = .ok s ∧ put p off (toLimbs W s.length (limbsVal W s + x)) = .ok r.1 ∧
      r.2 = (limbsVal W s + x) / 2 ^ (W * s.length) := by
  unfold mpn_add_1 at h
  simp only [bind_ok, pure, Except.pure, Except.ok.injEq] at h
  obtain ⟨s, hs, q, hq, hr⟩ := h
  subst hr
  exact ⟨s, hs, hq, rfl⟩

/-- The top limb of an `n`-limb number below `2 ^ (W * n)` that is at least a number
whose top limb has its top bit set. -/
theorem top_of_ge {W n v t : Nat} (hn : 1 ≤ n) (_hW : 1 ≤ W) (hv : v < 2 ^ (W * n))
    (ht : 2 ^ (W - 1) ≤ t) (hge : t * 2 ^ (W * (n - 1)) ≤ v) :
    2 ^ (W - 1) ≤ v / 2 ^ (W * (n - 1)) % 2 ^ W ∧ v / 2 ^ (W * (n - 1)) % 2 ^ W < 2 ^ W := by
  have hpos : 0 < 2 ^ (W * (n - 1)) := by positivity
  have h1 : v / 2 ^ (W * (n - 1)) < 2 ^ W := by
    rw [Nat.div_lt_iff_lt_mul hpos, ← pow_add]
    have : W + W * (n - 1) = W * n := by
      cases n with
      | zero => omega
      | succ m => simp [Nat.mul_succ, Nat.add_comm]
    rw [this]
    exact hv
  rw [Nat.mod_eq_of_lt h1]
  refine ⟨?_, h1⟩
  rw [Nat.le_div_iff_mul_le hpos]
  exact le_trans (Nat.mul_le_mul_right _ ht) hge

theorem post_add_one_ulp (W : Nat) (sh an : Int) (ap : List Nat) (hW : 1 ≤ W)
    (h1 : AllLt W ap) (h2 : TopSet W an ap) :
    Post (add_one_ulp W sh an ap) (fun r => AllLt W r.1 ∧ TopSet W an r.1) := by
  intro r hr
  unfold add_one_ulp at hr
  simp only [bind_ok] at hr
  obtain ⟨m, hm, q, hq, hr⟩ := hr
  obtain ⟨s, hs, hput, hc⟩ := mpn_add_1_eq_ok hq
  obtain ⟨han, t, ht, ht1, ht2⟩ := topSet_getElem h2
  have hsl := seg_length hs
  have hq1 : AllLt W q.1 := allLt_put hput h1 (allLt_toLimbs _ _ _)
  obtain ⟨_, hput2, _⟩ := put_eq_ok hput
  rw [length_toLimbs] at hput2
  split at hr
  · -- carry
    simp only [bind_ok, pure, Except.pure, Except.ok.injEq] at hr
    obtain ⟨hh, hhh, ap', hw, hr⟩ := hr
    subst hr
    obtain ⟨_, _, hhv⟩ := shl_one hhh
    have hlt : hh < 2 ^ W := by
      rw [hhv]; apply Nat.pow_lt_pow_right (by norm_num); omega
    refine ⟨allLt_wr hw hq1 hlt, ?_⟩
    apply topSet_of_getElem han (t := hh)
    · rw [wr_getElem? hw]; simp
    · rw [hhv]; apply Nat.pow_le_pow_right (by norm_num); omega
    · exact hlt
  · rename_i hc0
    simp only [pure, Except.pure, Except.ok.injEq] at hr
    subst hr
    refine ⟨hq1, ?_⟩
    simp only [ne_eq, Decidable.not_not] at hc0
    rw [hc] at hc0
    have hv : limbsVal W s + m < 2 ^ (W * s.length) := by
      by_contra hcon
      have : 0 < (limbsVal W s + m) / 2 ^ (W * s.length) :=
        Nat.div_pos (by omega) (by positivity)
      omega
    have hst : s[(an - 1).toNat]? = some t := by
      rw [seg_getElem? hs _ (by omega)]
      simpa using ht
    have hge := limbsVal_ge_get W s _ t hst
    have hn1 : (an - 1).toNat = s.length - 1 := by omega
    have hsl1 : 1 ≤ s.length := by omega
    rw [hn1] at hge
    have key := top_of_ge hsl1 hW hv ht1 (le_trans hge (Nat.le_add_right _ _))
    apply topSet_of_getElem han (t := (limbsVal W s + m) / 2 ^ (W * (s.length - 1)) % 2 ^ W)
    · rw [put_getElem? hput]
      simp only [Int.toNat_zero, Nat.not_lt_zero, if_false, length_toLimbs, Nat.zero_add,
        Nat.sub_zero]
      rw [if_pos (by omega), getElem?_toLimbs _ _ _ _ (by omega), hn1]
    · exact key.1
    · exact key.2

/-! ## Bit masks -/

theorem testBit_top {W a : Nat} (hW : 1 ≤ W) (h1 : 2 ^ (W - 1) ≤ a) (h2 : a < 2 ^ W) :
    a.testBit (W - 1) = true := by
  rw [Nat.testBit_to_div_mod]
  have hd : a / 2 ^ (W - 1) = 1 := by
    apply Nat.div_eq_of_lt_le
    · simpa using h1
    · have : 2 ^ W = 2 * 2 ^ (W - 1) := by
        rw [← pow_succ']; congr 1; omega
      omega
  simp [hd]

theorem lnot_bounds {W x : Nat} (hW : 1 ≤ W) (hx : x < 2 ^ (W - 1)) :
    2 ^ (W - 1) ≤ lnot W x ∧ lnot W x < 2 ^ W := by
  have e : 2 ^ W = 2 * 2 ^ (W - 1) := by
    rw [← pow_succ']; congr 1; omega
  have hx2 : x < 2 ^ W := by omega
  unfold lnot
  rw [Nat.mod_eq_of_lt hx2]
  have : 0 < 2 ^ (W - 1) := by positivity
  omega

theorem mask_top {W a x : Nat} (hW : 1 ≤ W) (h1 : 2 ^ (W - 1) ≤ a) (h2 : a < 2 ^ W)
    (hx : x < 2 ^ (W - 1)) : 2 ^ (W - 1) ≤ a &&& lnot W x ∧ a &&& lnot W x < 2 ^ W := by
  obtain ⟨l1, l2⟩ := lnot_bounds hW hx
  constructor
  · apply Nat.testBit_implies_ge
    rw [Nat.testBit_and, testBit_top hW h1 h2, testBit_top hW l1 l2]
    rfl
  · exact lt_of_le_of_lt Nat.and_le_left h2

/-- The write `*ap &= ~x` with `x` below the top bit keeps the buffer normalised. -/
theorem mask_write {W : Nat} {an : Int} {ap q : List Nat} {a0 x : Nat} (hW : 1 ≤ W)
    (h1 : AllLt W ap) (h2 : TopSet W an ap) (ha : rd ap 0 = .ok a0) (hx : x < 2 ^ (W - 1))
    (hw : wr ap 0 (a0 &&& lnot W x) = .ok q) : AllLt W q ∧ TopSet W an q := by
  obtain ⟨_, ha0⟩ := rd_eq_ok ha
  have hlt : a0 < 2 ^ W := allLt_get W ap _ a0 h1 ha0
  obtain ⟨han, t, ht, ht1, ht2⟩ := topSet_getElem h2
  refine ⟨allLt_wr hw h1 (lt_of_le_of_lt Nat.and_le_left hlt), ?_⟩
  by_cases h0 : (an - 1).toNat = 0
  · rw [h0] at ht
    simp only [Int.toNat_zero] at ha0
    rw [ha0] at ht
    simp only [Option.some.injEq] at ht
    subst ht
    obtain ⟨m1, m2⟩ := mask_top hW ht1 ht2 hx
    apply topSet_of_getElem han (t := a0 &&& lnot W x)
    · rw [wr_getElem? hw, h0]; simp
    · exact m1
    · exact m2
  · apply topSet_of_getElem han (t := t)
    · rw [wr_getElem? hw]
      simp only [Int.toNat_zero, h0, if_false]
      exact ht
    · exact ht1
    · exact ht2

theorem low_mask_lt {W m : Nat} {sh : Int} (hm : shl W 1 sh = .ok m) :
    m - 1 < 2 ^ (W - 1) := by
  obtain ⟨h1, h2, h3⟩ := shl_one hm
  subst h3
  have : 2 ^ sh.toNat ≤ 2 ^ (W - 1) := Nat.pow_le_pow_right (by norm_num) (by omega)
  have : 0 < 2 ^ sh.toNat := by positivity
  omega

theorem and_low_mask_lt {W m a : Nat} {sh : Int} (hm : shl W 1 sh = .ok m) :
    a &&& (m - 1) < 2 ^ (W - 1) :=
  lt_of_le_of_lt Nat.and_le_right (low_mask_lt hm)

/-! ## The rounding tail keeps the significand normalised -/

theorem take_low_good {W : Nat} {sh an : Int} {ap : List Nat} {r : List Nat × Nat}
    (hW : 1 ≤ W) (h1 : AllLt W ap) (h2 : TopSet W an ap) (h : take_low W sh ap = .ok r) :
    AllLt W r.1 ∧ TopSet W an r.1 := by
  unfold take_low at h
  simp only [bind_ok, pure, Except.pure, Except.ok.injEq] at h
  obtain ⟨a0, ha0, m, hm, q, hq, e⟩ := h
  subst e
  exact mask_write hW h1 h2 ha0 (and_low_mask_lt hm) hq

theorem to_nearest_good {W : Nat} {sh an : Int} {c3 : Nat} {ap bp : List Nat} {bn k dif : Int}
    {rnd : mp_rnd_t} {r : List Nat × Bool} (hW : 1 ≤ W) (h1 : AllLt W ap)
    (h2 : TopSet W an ap) (h : to_nearest W sh c3 ap bp bn k dif rnd = .ok r) :
    AllLt W r.1 ∧ TopSet W an r.1 := by
  unfold to_nearest at h
  simp only [bind_ok, pure, Except.pure, Except.ok.injEq] at h
  obtain ⟨t, ht, g, -, e⟩ := h
  subst e
  unfold to_nearest_fetch at ht
  split at ht
  · simp only [bind_ok, pure, Except.pure, Except.ok.injEq] at ht
    obtain ⟨u, hu, c2, -, e⟩ := ht
    subst e
    exact take_low_good hW h1 h2 hu
  · simp only [bind_ok, pure, Except.pure, Except.ok.injEq] at ht
    obtain ⟨cc, -, c2, -, e⟩ := ht
    subst e
    exact ⟨h1, h2⟩

theorem add1_finish_good {W : Nat} {sh an : Int} {c3 : Nat} {ap : List Nat} {g : Goto}
    {rnd : mp_rnd_t} {r : List Nat × Int} (hW : 1 ≤ W) (h1 : AllLt W ap)
    (h2 : TopSet W an ap) (h : add1_finish W sh an c3 ap g rnd = .ok r) :
    AllLt W r.1 ∧ TopSet W an r.1 := by
  unfold add1_finish at h
  simp only [bind_ok] at h
  obtain ⟨t, ht, h⟩ := h
  have ht' : AllLt W t.1 ∧ TopSet W an t.1 := by
    cases g with
    | to_nearest bp bn k dif => exact to_nearest_good hW h1 h2 ht
    | add_one_ulp =>
      simp only [pure, Except.pure, Except.ok.injEq] at ht
      subst ht
      exact ⟨h1, h2⟩
    | end_of_add =>
      simp only [pure, Except.pure, Except.ok.injEq] at ht
      subst ht
      exact ⟨h1, h2⟩
  split at h
  · exact post_add_one_ulp W sh an t.1 hW ht'.1 ht'.2 r h
  · simp only [pure, Except.pure, Except.ok.injEq] at h
    subst h
    exact ht'

theorem near_round_good {W : Nat} {sh an bn cn k dif : Int} {ap bp cp : List Nat}
    {overlap : Nat} {b : mpfr_t} {rnd : mp_rnd_t} {r : List Nat × Goto} (hW : 1 ≤ W)
    (h1 : AllLt W ap) (h2 : TopSet W an ap)
    (h : near_round W sh an bn cn k dif ap bp cp overlap b rnd = .ok r) :
    AllLt W r.1 ∧ TopSet W an r.1 := by
  unfold near_round at h
  split at h
  · split at h
    · simp only [bind_ok] at h
      obtain ⟨t, ht, h⟩ := h
      have ht' : AllLt W t.1 ∧ TopSet W an t.1 := by
        unfold near_case1 at ht
        simp only [bind_ok, pure, Except.pure, Except.ok.injEq] at ht
        obtain ⟨u, hu, g, -, e⟩ := ht
        subst e
        exact take_low_good hW h1 h2 hu
      split at h <;>
      · simp only [pure, Except.pure, Except.ok.injEq] at h
        subst h
        exact ht'
    all_goals
      simp only [pure, Except.pure, Except.ok.injEq] at h
      subst h
      exact ⟨h1, h2⟩
  · simp only [bind_ok, pure, Except.pure, Except.ok.injEq] at h
    obtain ⟨a0, ha0, m, hm, q, hq, e⟩ := h
    subst e
    exact mask_write hW h1 h2 ha0 (low_mask_lt hm) hq

/-! ## GMP primitives -/

theorem mpn_add_n_eq_ok {W : Nat} {p q : List Nat} {off qoff n : Int}
    {r : List Nat × Nat} (h : mpn_add_n W p off q qoff n = .ok r) :
    ∃ s t, seg p off n = .ok s ∧ seg q qoff n = .ok t ∧
      put p off (toLimbs W s.length (limbsVal W s + limbsVal W t)) = .ok r.1 ∧
      r.2 = (limbsVal W s + limbsVal W t) / 2 ^ (W * s.length) := by
  unfold mpn_add_n at h
  simp only [bind_ok, pure, Except.pure, Except.ok.injEq] at h
  obtain ⟨s, hs, t, ht, u, hu, hr⟩ := h
  subst hr
  exact ⟨s, t, hs, ht, hu, rfl⟩

theorem mpn_rshift_eq_ok {W : Nat} {p q : List Nat} {off qoff n cnt : Int}
    {r : List Nat × Nat} (h : mpn_rshift W p off q qoff n cnt = .ok r) :
    ∃ t, seg q qoff n = .ok t ∧ 1 ≤ cnt ∧ cnt < W ∧
      put p off (toLimbs W t.length (limbsVal W t / 2 ^ cnt.toNat)) = .ok r.1 ∧
      r.2 = limbsVal W t % 2 ^ cnt.toNat * 2 ^ (W - cnt.toNat) := by
  unfold mpn_rshift at h
  simp only [bind_ok] at h
  obtain ⟨t, ht, h⟩ := h
  split at h
  · rename_i hc
    simp only [bind_ok, pure, Except.pure, Except.ok.injEq] at h
    obtain ⟨u, hu, hr⟩ := h
    subst hr
    exact ⟨t, ht, hc.1, hc.2, hu, rfl⟩
  · simp at h

theorem mpn_lshift_eq_ok {W : Nat} {p q : List Nat} {off qoff n cnt : Int}
    {r : List Nat × Nat} (h : mpn_lshift W p off q qoff n cnt = .ok r) :
    ∃ t, seg q qoff n = .ok t ∧ 1 ≤ cnt ∧ cnt < W ∧
      put p off (toLimbs W t.length (limbsVal W t * 2 ^ cnt.toNat)) = .ok r.1 ∧
      r.2 = limbsVal W t * 2 ^ cnt.toNat / 2 ^ (W * t.length) := by
  unfold mpn_lshift at h
  simp only [bind_ok] at h
  obtain ⟨t, ht, h⟩ := h
  split at h
  · rename_i hc
    simp only [bind_ok, pure, Except.pure, Except.ok.injEq] at h
    obtain ⟨u, hu, hr⟩ := h
    subst hr
    exact ⟨t, ht, hc.1, hc.2, hu, rfl⟩
  · simp at h

theorem MPN_COPY_eq_ok {p q r : List Nat} {off qoff n : Int}
    (h : MPN_COPY p off q qoff n = .ok r) :
    ∃ t, seg q qoff n = .ok t ∧ put p off t = .ok r := by
  unfold MPN_COPY at h
  simp only [bind_ok] at h
  exact h

theorem MPN_ZERO_eq_ok {p r : List Nat} {off n : Int} (h : MPN_ZERO p off n = .ok r) :
    0 ≤ n ∧ put p off (List.replicate n.toNat 0) = .ok r := by
  unfold MPN_ZERO at h
  split at h
  · rename_i hn
    exact ⟨hn, h⟩
  · simp at h

theorem mpn_add_n_allLt {W : Nat} {p q : List Nat} {off qoff n : Int}
    {r : List Nat × Nat} (hp : AllLt W p) (h : mpn_add_n W p off q qoff n = .ok r) :
    AllLt W r.1 := by
  obtain ⟨s, t, _, _, hu, _⟩ := mpn_add_n_eq_ok h
  exact allLt_put hu hp (allLt_toLimbs _ _ _)

theorem mpn_rshift_allLt {W : Nat} {p q : List Nat} {off qoff n cnt : Int}
    {r : List Nat × Nat} (hp : AllLt W p) (h : mpn_rshift W p off q qoff n cnt = .ok r) :
    AllLt W r.1 ∧ r.2 < 2 ^ W := by
  obtain ⟨t, _, h1, h2, hu, hr⟩ := mpn_rshift_eq_ok h
  refine ⟨allLt_put hu hp (allLt_toLimbs _ _ _), ?_⟩
  rw [hr]
  have hlt : limbsVal W t % 2 ^ cnt.toNat < 2 ^ cnt.toNat := Nat.mod_lt _ (by positivity)
  have e : 2 ^ W = 2 ^ cnt.toNat * 2 ^ (W - cnt.toNat) := by
    rw [← pow_add]; congr 1; omega
  rw [e]
  exact Nat.mul_lt_mul_of_pos_right hlt (by positivity)

theorem mpn_lshift_allLt {W : Nat} {p q : List Nat} {off qoff n cnt : Int}
    {r : List Nat × Nat} (hp : AllLt W p) (hq : AllLt W q)
    (h : mpn_lshift W p off q qoff n cnt = .ok r) : AllLt W r.1 ∧ r.2 < 2 ^ W := by
  obtain ⟨t, ht, h1, h2, hu, hr⟩ := mpn_lshift_eq_ok h
  refine ⟨allLt_put hu hp (allLt_toLimbs _ _ _), ?_⟩
  rw [hr]
  have hlt : limbsVal W t < 2 ^ (W * t.length) := limbsVal_lt W t (allLt_seg ht hq)
  have h3 : limbsVal W t * 2 ^ cnt.toNat / 2 ^ (W * t.length) < 2 ^ cnt.toNat := by
    rw [Nat.div_lt_iff_lt_mul (by positivity), Nat.mul_comm]
    exact Nat.mul_lt_mul_of_pos_left hlt (by positivity)
  exact lt_trans h3 (Nat.pow_lt_pow_right (by norm_num) (by omega))

theorem MPN_COPY_allLt {W : Nat} {p q r : List Nat} {off qoff n : Int} (hp : AllLt W p)
    (hq : AllLt W q) (h : MPN_COPY p off q qoff n = .ok r) : AllLt W r := by
  obtain ⟨t, ht, hu⟩ := MPN_COPY_eq_ok h
  exact allLt_put hu hp (allLt_seg ht hq)

theorem MPN_ZERO_allLt {W : Nat} {p r : List Nat} {off n : Int} (hp : AllLt W p)
    (h : MPN_ZERO p off n = .ok r) : AllLt W r := by
  obtain ⟨_, hu⟩ := MPN_ZERO_eq_ok h
  exact allLt_put hu hp (allLt_replicate_zero _ _)

/-! ## Limbs stay words through the alignment of `c` -/

theorem near_shift_trunc_allLt {W : Nat} {sh cn k dif : Int} {ap cp : List Nat}
    {r : List Nat × Int} (ha : AllLt W ap) (hc : AllLt W cp)
    (h : near_shift_trunc W sh cn k dif ap cp = .ok r) : AllLt W r.1 := by
  unfold near_shift_trunc at h
  generalize trunc_shift W sh dif = d at h
  simp only at h
  split at h
  · simp only [bind_ok, pure, Except.pure, Except.ok.injEq] at h
    obtain ⟨u, hu, e⟩ := h
    subst e
    exact (mpn_rshift_allLt ha hu).1
  · split at h
    · simp only [bind_ok] at h
      obtain ⟨u, hu, q, hq, h⟩ := h
      have h1 := mpn_lshift_allLt ha hc hu
      have h2 : AllLt W q := allLt_wr hq h1.1 h1.2
      split at h
      · simp only [bind_ok, pure, Except.pure, Except.ok.injEq] at h
        obtain ⟨x, -, y, -, a0, -, q2, hq2, e⟩ := h
        subst e
        exact allLt_wr hq2 h2 (Nat.mod_lt _ (by positivity))
      · simp only [pure, Except.pure, Except.ok.injEq] at h
        subst h
        exact h2
    · simp only [bind_ok, pure, Except.pure, Except.ok.injEq] at h
      obtain ⟨u, hu, e⟩ := h
      subst e
      exact MPN_COPY_allLt ha hc hu

theorem near_shift_full_allLt {W : Nat} {an cn diff_exp : Int} {ap cp : List Nat}
    {r : List Nat × Int} (ha : AllLt W ap) (hc : AllLt W cp)
    (h : near_shift_full W an cn diff_exp ap cp = .ok r) : AllLt W r.1 := by
  unfold near_shift_full at h
  simp only [bind_ok] at h
  obtain ⟨z, hz, h⟩ := h
  have hz' := MPN_ZERO_allLt ha hz
  split at h
  · simp only [bind_ok] at h
    obtain ⟨u, hu, h⟩ := h
    have h1 := mpn_rshift_allLt hz' hu
    split at h
    · simp only [bind_ok, pure, Except.pure, Except.ok.injEq] at h
      obtain ⟨q, hq, e⟩ := h
      subst e
      exact allLt_wr hq h1.1 h1.2
    · simp only [pure, Except.pure, Except.ok.injEq] at h
      subst h
      exact h1.1
  · simp only [bind_ok, pure, Except.pure, Except.ok.injEq] at h
    obtain ⟨u, hu, e⟩ := h
    subst e
    exact MPN_COPY_allLt hz' hc hu

theorem near_shift_allLt {W pc : Nat} {sh an cn dif diff_exp : Int} {ap cp : List Nat}
    {r : List Nat × Int × Int × Nat} (ha : AllLt W ap) (hc : AllLt W cp)
    (h : near_shift W pc sh an cn dif diff_exp ap cp = .ok r) : AllLt W r.1 := by
  unfold near_shift at h
  simp only [bind_ok] at h
  obtain ⟨z, hz, h⟩ := h
  have hz' := MPN_ZERO_allLt ha hz
  split at h
  · simp only [bind_ok, pure, Except.pure, Except.ok.injEq] at h
    obtain ⟨u, hu, e⟩ := h
    subst e
    exact near_shift_trunc_allLt hz' hc hu
  · simp only [bind_ok, pure, Except.pure, Except.ok.injEq] at h
    obtain ⟨u, hu, e⟩ := h
    subst e
    exact near_shift_full_allLt hz' hc hu

/-! ## The sum is normalised -/

/-- Without a carry, the sum of a buffer and a normalised number is normalised. -/
theorem mpn_add_n_top {W : Nat} {p q : List Nat} {off qoff n : Int} {r : List Nat × Nat}
    (hW : 1 ≤ W) (hq : TopSet W (qoff + n) q) (hn : 1 ≤ n)
    (h : mpn_add_n W p off q qoff n = .ok r) (hc : r.2 = 0) : TopSet W (off + n) r.1 := by
  obtain ⟨s, t, hs, ht, hu, hr⟩ := mpn_add_n_eq_ok h
  obtain ⟨_, x, hx, hx1, hx2⟩ := topSet_getElem hq
  obtain ⟨ho, _, _, _⟩ := seg_eq_ok hs
  obtain ⟨hqo, _, _, _⟩ := seg_eq_ok ht
  have hsl := seg_length hs
  have htl := seg_length ht
  have htx : t[(n - 1).toNat]? = some x := by
    rw [seg_getElem? ht _ (by omega)]
    have : qoff.toNat + (n - 1).toNat = (qoff + n - 1).toNat := by omega
    rw [this]
    exact hx
  have hge := limbsVal_ge_get W t _ x htx
  have hv : limbsVal W s + limbsVal W t < 2 ^ (W * s.length) := by
    by_contra hcon
    have : 0 < (limbsVal W s + limbsVal W t) / 2 ^ (W * s.length) :=
      Nat.div_pos (by omega) (by positivity)
    omega
  have hn1 : (n - 1).toNat = s.length - 1 := by omega
  have hsl1 : 1 ≤ s.length := by omega
  rw [hn1] at hge
  have key := top_of_ge hsl1 hW hv hx1 (le_trans hge (Nat.le_add_left _ _))
  apply topSet_of_getElem (by omega)
    (t := (limbsVal W s + limbsVal W t) / 2 ^ (W * (s.length - 1)) % 2 ^ W)
  · have hidx : (off + n - 1).toNat - off.toNat = s.length - 1 := by omega
    rw [put_getElem? hu, length_toLimbs, if_neg (by omega), if_pos (by omega),
      getElem?_toLimbs _ _ _ _ (by omega), hidx]
  · exact key.1
  · exact key.2

theorem near_add_good {W pa pb : Nat} {an bn : Int} {ap bp : List Nat} {overlap : Nat}
    {r : List Nat × Nat × Int × Nat} (hW : 1 ≤ W) (han : 1 ≤ an) (ha : AllLt W ap)
    (hb : TopSet W bn bp) (h : near_add W pa pb an bn ap bp overlap = .ok r) :
    AllLt W r.1 ∧ TopSet W an r.1 := by
  unfold near_add at h
  simp only [bind_ok] at h
  obtain ⟨u, hu, h⟩ := h
  have hbn : 1 ≤ bn := (topSet_getElem hb).1
  have hu1 : AllLt W u.1 := by
    split at hu
    · exact mpn_add_n_allLt ha hu
    · exact mpn_add_n_allLt ha hu
  split at h
  · -- carry: shift right by one bit and set the top bit
    simp only [bind_ok, pure, Except.pure, Except.ok.injEq] at h
    obtain ⟨a0, -, q, hq, t, ht, hh, hhh, ap', hw, e⟩ := h
    subst e
    obtain ⟨s, hs, _, _, hput, _⟩ := mpn_rshift_eq_ok hq
    have hq1 : AllLt W q.1 := (mpn_rshift_allLt hu1 hq).1
    obtain ⟨_, _, hhv⟩ := shl_one hhh
    have hsl := seg_length hs
    have hslt : limbsVal W s < 2 ^ (W * s.length) := limbsVal_lt W s (allLt_seg hs hu1)
    obtain ⟨_, htg⟩ := rd_eq_ok ht
    rw [put_getElem? hput, length_toLimbs, if_neg (by simp), if_pos (by simp; omega),
      getElem?_toLimbs _ _ _ _ (by simp; omega)] at htg
    simp only [Int.toNat_zero, Nat.sub_zero, Option.some.injEq, Int.toNat_one, pow_one] at htg
    have e2 : 2 ^ (W * s.length) = 2 * (2 ^ (W * (an - 1).toNat) * 2 ^ (W - 1)) := by
      rw [← pow_add, ← pow_succ']
      congr 1
      have : s.length = (an - 1).toNat + 1 := by omega
      rw [this, Nat.mul_succ]
      omega
    have htlt : t < 2 ^ (W - 1) := by
      rw [← htg]
      apply lt_of_le_of_lt (Nat.mod_le _ _)
      rw [Nat.div_lt_iff_lt_mul (by positivity), Nat.div_lt_iff_lt_mul (by norm_num)]
      rw [e2] at hslt
      calc limbsVal W s < 2 * (2 ^ (W * (an - 1).toNat) * 2 ^ (W - 1)) := hslt
        _ = 2 ^ (W - 1) * 2 ^ (W * (an - 1).toNat) * 2 := by ring
    have e3 : 2 ^ W = 2 ^ (W - 1) + 2 ^ (W - 1) := by
      rw [← two_mul, ← pow_succ']; congr 1; omega
    have hsum : t + hh < 2 ^ W := by
      rw [hhv, e3]
      have : ((W : Int) - 1).toNat = W - 1 := by omega
      rw [this]
      omega
    have hW1 : ((W : Int) - 1).toNat = W - 1 := by omega
    refine ⟨allLt_wr hw hq1 (Nat.mod_lt _ (by positivity)), ?_⟩
    apply topSet_of_getElem han (t := (t + hh) % 2 ^ W)
    · rw [wr_getElem? hw]; simp
    · rw [Nat.mod_eq_of_lt hsum, hhv, hW1]
      exact Nat.le_add_left _ _
    · exact Nat.mod_lt _ (by positivity)
  · rename_i hc
    simp only [ne_eq, Decidable.not_not] at hc
    simp only [pure, Except.pure, Except.ok.injEq] at h
    subst h
    refine ⟨hu1, ?_⟩
    split at hu
    · have := @mpn_add_n_top W _ _ (an - bn) 0 _ _ hW (by simpa using hb) hbn hu hc
      simpa using this
    · have := @mpn_add_n_top W _ _ 0 (bn - an) _ _ hW (by simpa using hb) han hu hc
      simpa using this

theorem far_copy_good {W pa pc : Nat} {sh an bn : Int} {ap bp cp : List Nat}
    {nzc : List Nat → Except Fault Nat} {b : mpfr_t} {rnd : mp_rnd_t} {d : Int}
    {r : List Nat × Goto} (ha : AllLt W ap) (hbl : AllLt W bp) (hb : TopSet W bn bp)
    (h : far_copy W pa sh an bn ap bp cp pc nzc b rnd d = .ok r) :
    AllLt W r.1 ∧ TopSet W an r.1 := by
  unfold far_copy far_copy_fill at h
  simp only [bind_ok, pure, Except.pure, Except.ok.injEq] at h
  obtain ⟨a2, ⟨a1, h1, h2⟩, g, -, e⟩ := h
  subst e
  refine ⟨MPN_ZERO_allLt (MPN_COPY_allLt ha hbl h1) h2, ?_⟩
  obtain ⟨t, ht, hp1⟩ := MPN_COPY_eq_ok h1
  obtain ⟨hz, hp2⟩ := MPN_ZERO_eq_ok h2
  obtain ⟨hbn, x, hx, hx1, hx2⟩ := topSet_getElem hb
  obtain ⟨ho, _, _⟩ := put_eq_ok hp1
  have htl := seg_length ht
  apply topSet_of_getElem (by omega) (t := x)
  · rw [put_getElem? hp2, if_neg (by simp), List.length_replicate, if_neg (by omega),
      put_getElem? hp1, if_neg (by omega), if_pos (by omega), seg_getElem? ht _ (by omega)]
    simp only [Int.toNat_zero, Nat.zero_add]
    have : (an - 1).toNat - (an - bn).toNat = (bn - 1).toNat := by omega
    rw [this]
    exact hx
  · exact hx1
  · exact hx2

theorem far_round_good {W : Nat} {sh an bn cn dif : Int} {ap bp cp : List Nat}
    {b : mpfr_t} {rnd : mp_rnd_t} {r : List Nat × Goto} (hW : 1 ≤ W) (han : 1 ≤ an)
    (ha : AllLt W ap) (hbl : AllLt W bp) (hb : TopSet W bn bp)
    (h : far_round W sh an bn cn dif ap bp cp b rnd = .ok r) :
    AllLt W r.1 ∧ TopSet W an r.1 := by
  unfold far_round at h
  simp only [bind_ok, pure, Except.pure, Except.ok.injEq] at h
  obtain ⟨a1, h1, t, ht, g, -, e⟩ := h
  subst e
  have g1 : AllLt W a1 := MPN_COPY_allLt ha hbl h1
  have g2 : TopSet W an a1 := by
    obtain ⟨s, hs, hp1⟩ := MPN_COPY_eq_ok h1
    obtain ⟨hbn, x, hx, hx1, hx2⟩ := topSet_getElem hb
    obtain ⟨hk, _, _, _⟩ := seg_eq_ok hs
    have hsl := seg_length hs
    apply topSet_of_getElem han (t := x)
    · rw [put_getElem? hp1, if_neg (by simp), if_pos (by simp; omega),
        seg_getElem? hs _ (by simp; omega)]
      simp only [Int.toNat_zero, Nat.sub_zero]
      have : (bn - an).toNat + (an - 1).toNat = (bn - 1).toNat := by omega
      rw [this]
      exact hx
    · exact hx1
    · exact hx2
  split at ht
  · exact take_low_good hW g1 g2 ht
  · simp only [pure, Except.pure, Except.ok.injEq] at ht
    subst ht
    exact ⟨g1, g2⟩

theorem near_good {W pa pb pc : Nat} {sh an bn cn dif d : Int} {ap bp cp : List Nat}
    {b : mpfr_t} {rnd : mp_rnd_t} {r : List Nat × Int × Nat × Goto} (hW : 1 ≤ W)
    (han : 1 ≤ an) (ha : AllLt W ap) (hcl : AllLt W cp) (hb : TopSet W bn bp)
    (h : near W pa pb pc sh an bn cn dif d ap bp cp b rnd = .ok r) :
    AllLt W r.1 ∧ TopSet W an r.1 := by
  unfold near at h
  simp only [bind_ok, pure, Except.pure, Except.ok.injEq] at h
  obtain ⟨s, hs, t, ht, u, hu, e⟩ := h
  subst e
  have g1 := near_add_good hW han (near_shift_allLt ha hcl hs) hb ht
  exact near_round_good hW g1.1 g1.2 hu

/-! ## Normalisation of the result of `mpfr_add` -/

theorem sign_mul_neg (x y : mpfr_t) : MPFR_SIGN x * MPFR_SIGN y < 0 ↔ x.neg ≠ y.neg := by
  unfold MPFR_SIGN
  cases x.neg <;> cases y.neg <;> simp

theorem mpfr_add_same_sign (W : Nat) (X : Callees) (h : Heap) (a b c : Ptr) (rnd : mp_rnd_t)
    (hb : Regular W (h b)) (hc : Regular W (h c)) (hs : (h b).neg = (h c).neg) :
    mpfr_add W X h a b c rnd =
      if to_int ((h b).exp - (h c).exp) < 0 then
        (if to_int ((h b).exp - (h c).exp) = -2 ^ 31 then .error Fault.overflow
        else mpfr_add1 W h a c b rnd (-to_int ((h b).exp - (h c).exp)))
      else mpfr_add1 W h a b c rnd (to_int ((h b).exp - (h c).exp)) := by
  obtain ⟨nb, zb, hzb, hzb0⟩ := hb
  obtain ⟨nc, zc, hzc, hzc0⟩ := hc
  have hsg : ¬ MPFR_SIGN (h b) * MPFR_SIGN (h c) < 0 := by
    rw [sign_mul_neg]; simp [hs]
  simp only [mpfr_add, nb, nc, hzb, hzc, hzb0, hzc0, hsg, bind, Except.bind, neg_int,
    or_self, if_false, ne_eq, not_false_eq_true, Bool.false_eq_true]
  by_cases h1 : to_int ((h b).exp - (h c).exp) < 0
  · rw [if_pos h1, if_pos h1]
    by_cases h2 : to_int ((h b).exp - (h c).exp) = -2 ^ 31
    · rw [if_pos h2, if_pos h2]
    · rw [if_neg h2, if_neg h2]
  · rw [if_neg h1, if_neg h1]

theorem to_int_ge (x : Int) : -2 ^ 31 ≤ to_int x := by
  unfold to_int
  omega

theorem to_int_lt (x : Int) : to_int x < 2 ^ 31 := by
  unfold to_int
  omega

theorem to_int_of_fits {x : Int} (h1 : -2 ^ 31 ≤ x) (h2 : x < 2 ^ 31) : to_int x = x := by
  unfold to_int
  omega

theorem seg_all (p : List Nat) (n : Int) (h : n = p.length) : seg p 0 n = .ok p := by
  subst h
  simp [seg]

theorem add1_header_prec (h : Heap) (a b : Ptr) : (add1_header h a b).prec = (h a).prec := by
  unfold add1_header
  simp only
  split <;> simp [CHANGE_SIGN]

theorem add1_header_mant (h : Heap) (a b : Ptr) : (add1_header h a b).mant = (h a).mant := by
  unfold add1_header
  simp only
  split <;> simp [CHANGE_SIGN]

theorem nlimbs_pos (W : Nat) (x : mpfr_t) : 1 ≤ nlimbs W x := by
  unfold nlimbs
  exact_mod_cast Nat.le_add_left 1 _

theorem add1_core_good {W pa pb pc : Nat} {ap bp cp : List Nat}
    {nzc : List Nat → Except Fault Nat} {b : mpfr_t} {rnd : mp_rnd_t} {d : Int}
    {r : List Nat × Int} (hW : 1 ≤ W) (ha : AllLt W ap) (hb : AllLt W bp)
    (hbt : TopSet W (((pb - 1) / W + 1 : Nat) : Int) bp) (hc : AllLt W cp)
    (hr : add1_core W pa pb pc ap bp cp nzc b rnd d = .ok r) :
    AllLt W r.1 ∧ TopSet W (((pa - 1) / W + 1 : Nat) : Int) r.1 := by
  unfold add1_core at hr
  simp only [bind_ok] at hr
  obtain ⟨u, hu, f, hf, e⟩ := hr
  simp only [pure, Except.pure, Except.ok.injEq] at e
  subst e
  have han : (1 : Int) ≤ (((pa - 1) / W + 1 : Nat) : Int) := by
    exact_mod_cast Nat.le_add_left 1 _
  have g : AllLt W u.1 ∧ TopSet W (((pa - 1) / W + 1 : Nat) : Int) u.1 := by
    split at hu
    · simp only [bind_ok, pure, Except.pure, Except.ok.injEq] at hu
      obtain ⟨v, hv, e⟩ := hu
      subst e
      split at hv
      · exact far_copy_good ha hb hbt hv
      · exact far_round_good hW han ha hb hbt hv
    · exact near_good hW han ha hc hbt hu
  exact add1_finish_good (r := f) hW g.1 g.2 hf

theorem add1_limbs_bufs {W : Nat} {h : Heap} {a b c : Ptr} {rnd : mp_rnd_t} {d : Int}
    {r : List Nat × Int} (hr : add1_limbs W h a b c rnd d = .ok r) :
    add1_core W (h a).prec (h b).prec (h c).prec (h a).mant (h b).mant (h c).mant
      (nzc_of W h a c) (h b) rnd d = .ok r := by
  unfold add1_limbs at hr
  simp only [bind_ok] at hr
  obtain ⟨bp, hbp, cp, hcp, hr⟩ := hr
  have ebp : bp = (h b).mant := by
    split at hbp
    · rename_i hab
      subst hab
      rw [seg_all (h a).mant (ABSSIZE (h a)) rfl] at hbp
      simp only [Except.ok.injEq] at hbp
      exact hbp.symm
    · simp only [pure, Except.pure, Except.ok.injEq] at hbp
      exact hbp.symm
  have ecp : cp = (h c).mant := by
    split at hcp
    · rename_i hab
      split at hcp
      · rename_i hac
        simp only [pure, Except.pure, Except.ok.injEq] at hcp
        rw [← hcp, ebp, ← hab, hac]
      · simp only [pure, Except.pure, Except.ok.injEq] at hcp
        exact hcp.symm
    · split at hcp
      · rename_i hac
        subst hac
        rw [seg_all (h a).mant (ABSSIZE (h a)) rfl] at hcp
        simp only [Except.ok.injEq] at hcp
        exact hcp.symm
      · simp only [pure, Except.pure, Except.ok.injEq] at hcp
        exact hcp.symm
  subst ebp
  subst ecp
  exact hr

theorem add1_limbs_good {W : Nat} {h : Heap} {a b c : Ptr} {rnd : mp_rnd_t} {d : Int}
    {r : List Nat × Int} (hW : 1 ≤ W) (ha : AllLt W (h a).mant) (hb : AllLt W (h b).mant)
    (hbt : TopSet W (nlimbs W (h b)) (h b).mant) (hc : AllLt W (h c).mant)
    (hr : add1_limbs W h a b c rnd d = .ok r) :
    AllLt W r.1 ∧ TopSet W (nlimbs W (h a)) r.1 :=
  add1_core_good hW ha hb hbt hc (add1_limbs_bufs hr)

theorem mpfr_add1_good {W : Nat} {h h' : Heap} {a b c : Ptr} {rnd : mp_rnd_t} {d : Int}
    (hW : 1 ≤ W) (ha : AllLt W (h a).mant) (hb : AllLt W (h b).mant)
    (hbt : TopSet W (nlimbs W (h b)) (h b).mant) (hc : AllLt W (h c).mant)
    (hr : mpfr_add1 W h a b c rnd d = .ok h') :
    AllLt W (h' a).mant ∧ TopSet W (nlimbs W (h' a)) (h' a).mant := by
  unfold mpfr_add1 at hr
  simp only [bind_ok, pure, Except.pure, Except.ok.injEq] at hr
  obtain ⟨r, hr, e⟩ := hr
  subst e
  have hm : ∀ x, ((h.set a (add1_header h a b)) x).mant = (h x).mant := by
    intro x
    unfold Heap.set
    split
    · rename_i hx
      rw [add1_header_mant, hx]
    · rfl
  have hp : ∀ x, ((h.set a (add1_header h a b)) x).prec = (h x).prec := by
    intro x
    unfold Heap.set
    split
    · rename_i hx
      rw [add1_header_prec, hx]
    · rfl
  have hn : ∀ x, nlimbs W ((h.set a (add1_header h a b)) x) = nlimbs W (h x) := by
    intro x
    unfold nlimbs
    rw [hp]
  have g := add1_limbs_good (h := h.set a (add1_header h a b)) hW (by rw [hm]; exact ha)
    (by rw [hm]; exact hb) (by rw [hm, hn]; exact hbt) (by rw [hm]; exact hc) hr
  rw [hn] at g
  have e1 : nlimbs W (Heap.set h a
      { add1_header h a b with mant := r.1, exp := (add1_header h a b).exp + r.2 } a)
      = nlimbs W (h a) := by
    simp [Heap.set, nlimbs, add1_header_prec]
  rw [e1]
  simpa [Heap.set] using g

/-- For same-signed regular operands that satisfy the representation invariants, a run of
`mpfr_add` that ends leaves a normalised significand in `dst`. -/
theorem mpfr_add_good (W : Nat) (X : Callees) (h h' : Heap) (a b c : Ptr) (rnd : mp_rnd_t)
    (hW : 1 ≤ W) (hb : Regular W (h b)) (hc : Regular W (h c))
    (hs : (h b).neg = (h c).neg) (ha : AllLt W (h a).mant) (wb : WF W (h b))
    (wc : WF W (h c)) (hr : mpfr_add W X h a b c rnd = .ok h') :
    TopSet W (nlimbs W (h' a)) (h' a).mant := by
  rw [mpfr_add_same_sign W X h a b c rnd hb hc hs] at hr
  split at hr
  · split at hr
    · cases hr
    · exact (mpfr_add1_good hW ha wc.2.2.1 wc.2.2.2.1 wb.2.2.1 hr).2
  · exact (mpfr_add1_good hW ha wb.2.2.1 wb.2.2.2.1 wc.2.2.1 hr).2

theorem allLt_one {W x : Nat} (h : x < 2 ^ W) : AllLt W [x] := by
  intro y hy
  simp only [List.mem_singleton] at hy
  rw [hy]
  exact h

/-! ## Runs that differ in the previous contents of the destination buffer -/

theorem agreeOn_eq {S : Nat → Prop} {p q : List Nat} (h : AgreeOn S p q)
    (hS : ∀ i, i < p.length → S i) : p = q := by
  apply List.ext_getElem?
  intro i
  by_cases hi : i < p.length
  · exact h.2 i (hS i hi)
  · rw [List.getElem?_eq_none (by omega), List.getElem?_eq_none (by rw [← h.1]; omega)]

theorem agreeOn_init {p q : List Nat} (h : p.length = q.length) :
    AgreeOn (fun i => p.length ≤ i) p q := by
  refine ⟨h, fun i hi => ?_⟩
  rw [List.getElem?_eq_none hi, List.getElem?_eq_none (by rw [← h]; exact hi)]

theorem put_sim {S : Nat → Prop} {p p' q X : List Nat} {off : Int} (h : AgreeOn S p p')
    (hq : put p off X = .ok q) :
    ∃ q', put p' off X = .ok q' ∧
      AgreeOn (fun i => S i ∨ (off.toNat ≤ i ∧ i < off.toNat + X.length)) q q' := by
  obtain ⟨h1, h2, h3⟩ := put_eq_ok hq
  have hq' : put p' off X
      = .ok (p'.take off.toNat ++ X ++ p'.drop (off.toNat + X.length)) := by
    unfold put
    rw [if_pos ⟨h1, by rw [← h.1]; exact h2⟩]
  refine ⟨_, hq', ?_, ?_⟩
  · rw [put_length hq, put_length hq', h.1]
  · intro i hi
    rw [put_getElem? hq, put_getElem? hq']
    by_cases c1 : i < off.toNat
    · simp only [c1, if_true]
      rcases hi with hi | hi
      · exact h.2 i hi
      · omega
    · simp only [c1, if_false]
      by_cases c2 : i < off.toNat + X.length
      · simp only [c2, if_true]
      · simp only [c2, if_false]
        rcases hi with hi | hi
        · exact h.2 i hi
        · omega

theorem wr_sim {S : Nat → Prop} {p p' q : List Nat} {i : Int} {v : Nat} (h : AgreeOn S p p')
    (hq : wr p i v = .ok q) :
    ∃ q', wr p' i v = .ok q' ∧ AgreeOn (fun j => S j ∨ j = i.toNat) q q' := by
  obtain ⟨h1, h2, h3⟩ := wr_eq_ok hq
  have hq' : wr p' i v = .ok (p'.set i.toNat v) := by
    unfold wr
    rw [if_pos ⟨h1, by rw [← h.1]; exact h2⟩]
  refine ⟨_, hq', ?_, ?_⟩
  · rw [wr_length hq, wr_length hq', h.1]
  · intro j hj
    rw [wr_getElem? hq, wr_getElem? hq']
    by_cases c : j = i.toNat
    · simp [c]
    · simp only [c, if_false]
      rcases hj with hj | hj
      · exact h.2 j hj
      · exact absurd hj c

theorem MPN_ZERO_sim {S : Nat → Prop} {p p' q : List Nat} {off n : Int} (h : AgreeOn S p p')
    (hq : MPN_ZERO p off n = .ok q) :
    ∃ q', MPN_ZERO p' off n = .ok q' ∧
      AgreeOn (fun i => S i ∨ (off.toNat ≤ i ∧ i < off.toNat + n.toNat)) q q' := by
  obtain ⟨hn, hp⟩ := MPN_ZERO_eq_ok hq
  obtain ⟨q', hq', ha⟩ := put_sim h hp
  refine ⟨q', ?_, ?_⟩
  · unfold MPN_ZERO
    rw [if_pos hn]
    exact hq'
  · simpa using ha

theorem MPN_COPY_sim {S : Nat → Prop} {p p' q c : List Nat} {off qoff n : Int}
    (h : AgreeOn S p p') (hq : MPN_COPY p off c qoff n = .ok q) :
    ∃ q', MPN_COPY p' off c qoff n = .ok q' ∧
      AgreeOn (fun i => S i ∨ (off.toNat ≤ i ∧ i < off.toNat + n.toNat)) q q' := by
  obtain ⟨t, ht, hp⟩ := MPN_COPY_eq_ok hq
  obtain ⟨q', hq', ha⟩ := put_sim h hp
  refine ⟨q', ?_, ?_⟩
  · unfold MPN_COPY
    rw [ht]
    exact hq'
  · rw [seg_length ht] at ha
    exact ha

theorem mpn_rshift_sim {W : Nat} {S : Nat → Prop} {p p' c : List Nat} {off qoff n cnt : Int}
    {r : List Nat × Nat} (h : AgreeOn S p p') (hq : mpn_rshift W p off c qoff n cnt = .ok r) :
    ∃ q', mpn_rshift W p' off c qoff n cnt = .ok (q', r.2) ∧
      AgreeOn (fun i => S i ∨ (off.toNat ≤ i ∧ i < off.toNat + n.toNat)) r.1 q' := by
  obtain ⟨t, ht, h1, h2, hp, hr⟩ := mpn_rshift_eq_ok hq
  obtain ⟨q', hq', ha⟩ := put_sim h hp
  refine ⟨q', ?_, ?_⟩
  · unfold mpn_rshift
    rw [ht]
    simp only [bind, Except.bind, pure, Except.pure]
    rw [if_pos ⟨h1, h2⟩, hq', hr]
  · rw [length_toLimbs, seg_length ht] at ha
    exact ha

theorem mpn_lshift_sim {W : Nat} {S : Nat → Prop} {p p' c : List Nat} {off qoff n cnt : Int}
    {r : List Nat × Nat} (h : AgreeOn S p p') (hq : mpn_lshift W p off c qoff n cnt = .ok r) :
    ∃ q', mpn_lshift W p' off c qoff n cnt = .ok (q', r.2) ∧
      AgreeOn (fun i => S i ∨ (off.toNat ≤ i ∧ i < off.toNat + n.toNat)) r.1 q' := by
  obtain ⟨t, ht, h1, h2, hp, hr⟩ := mpn_lshift_eq_ok hq
  obtain ⟨q', hq', ha⟩ := put_sim h hp
  refine ⟨q', ?_, ?_⟩
  · unfold mpn_lshift
    rw [ht]
    simp only [bind, Except.bind, pure, Except.pure]
    rw [if_pos ⟨h1, h2⟩, hq', hr]
  · rw [length_toLimbs, seg_length ht] at ha
    exact ha

/-! ## The far branches do not depend on the previous contents -/

/-- The limbs cleared at line 201 and those written at lines 234-239 cover the buffer. -/
theorem shift_cover {W pa : Nat} {d : Int} (hW : 1 ≤ W) (hpa : 1 ≤ pa) (hd : 0 ≤ d)
    (hdif : 0 < (pa : Int) - d) :
    ((pa : Int) - d - 1).tdiv W + 1 ≤ (((pa - 1) / W + 1 : Nat) : Int) - d.tdiv W := by
  obtain ⟨e, rfl⟩ := Int.eq_ofNat_of_zero_le hd
  have hle : e + 1 ≤ pa := by omega
  have h1 : ((pa : Int) - (e : Int) - 1) = ((pa - 1 - e : Nat) : Int) := by omega
  rw [h1, Int.tdiv_eq_ediv (by omega) (by omega), Int.tdiv_eq_ediv (by omega) (by omega)]
  have h2 : (pa - 1 - e) / W + e / W ≤ (pa - 1) / W := by
    rw [Nat.le_div_iff_mul_le (by omega)]
    have a1 := Nat.div_mul_le_self (pa - 1 - e) W
    have a2 := Nat.div_mul_le_self e W
    rw [Nat.add_mul]
    omega
  have h3 : (((pa - 1 - e) / W : Nat) : Int) + ((e / W : Nat) : Int)
      ≤ (((pa - 1) / W : Nat) : Int) := by exact_mod_cast h2
  push_cast at h3 ⊢
  omega

/-! ## The alignment of `c` does not depend on the previous contents -/

theorem near_shift_trunc_indep {W : Nat} {S : Nat → Prop} {sh cn k dif : Int}
    {z z' cp : List Nat} {r : List Nat × Int} (ha : AgreeOn S z z')
    (hS : ∀ i, i < z.length → S i ∨ i < k.toNat)
    (h : near_shift_trunc W sh cn k dif z cp = .ok r) :
    near_shift_trunc W sh cn k dif z' cp = .ok r := by
  unfold near_shift_trunc at h ⊢
  generalize trunc_shift W sh dif = s at h ⊢
  simp only at h ⊢
  split at h
  · rename_i c1
    rw [if_pos c1]
    simp only [bind_ok, pure, Except.pure, Except.ok.injEq] at h ⊢
    obtain ⟨u, hu, e⟩ := h
    obtain ⟨q', hq', a1⟩ := mpn_rshift_sim ha hu
    obtain ⟨t, ht, _, _, hp, _⟩ := mpn_rshift_eq_ok hu
    have l1 := put_length hp
    have e1 : u.1 = q' := by
      apply agreeOn_eq a1
      intro i hi
      rcases hS i (by omega) with c | c
      · exact Or.inl c
      · right; simp only [Int.toNat_zero, Nat.zero_add]; omega
    exact ⟨(q', u.2), hq', by rw [← e, e1]⟩
  · rename_i c1
    rw [if_neg c1]
    split at h
    · rename_i c2
      rw [if_pos c2]
      simp only [bind_ok] at h ⊢
      obtain ⟨u, hu, h⟩ := h
      obtain ⟨q', hq', a1⟩ := mpn_lshift_sim ha hu
      obtain ⟨t, ht, _, _, hp, _⟩ := mpn_lshift_eq_ok hu
      have l1 := put_length hp
      have e1 : u.1 = q' := by
        apply agreeOn_eq a1
        intro i hi
        rcases hS i (by omega) with c | c
        · exact Or.inl c
        · right; simp only [Int.toNat_zero, Nat.zero_add]; omega
      refine ⟨(q', u.2), hq', ?_⟩
      rw [← e1]
      exact h
    · rename_i c2
      rw [if_neg c2]
      simp only [bind_ok, pure, Except.pure, Except.ok.injEq] at h ⊢
      obtain ⟨u, hu, e⟩ := h
      obtain ⟨q', hq', a1⟩ := MPN_COPY_sim ha hu
      obtain ⟨t, ht, hp⟩ := MPN_COPY_eq_ok hu
      have l1 := put_length hp
      have e1 : u = q' := by
        apply agreeOn_eq a1
        intro i hi
        rcases hS i (by omega) with c | c
        · exact Or.inl c
        · right; simp only [Int.toNat_zero, Nat.zero_add]; omega
      exact ⟨q', hq', by rw [← e, e1]⟩

theorem near_shift_full_indep {W : Nat} {S : Nat → Prop} {an cn d k : Int}
    {z z' cp : List Nat} {r : List Nat × Int} (ha : AgreeOn S z z')
    (hS : ∀ i, i < z.length → S i ∨ i < k.toNat) (hk : k ≤ an - d.tdiv W)
    (h : near_shift_full W an cn d z cp = .ok r) :
    near_shift_full W an cn d z' cp = .ok r := by
  unfold near_shift_full at h ⊢
  simp only [bind_ok] at h ⊢
  obtain ⟨y, hy, h⟩ := h
  obtain ⟨y', hy', a1⟩ := MPN_ZERO_sim ha hy
  obtain ⟨hj, hpy⟩ := MPN_ZERO_eq_ok hy
  have l0 := put_length hpy
  refine ⟨y', hy', ?_⟩
  split at h
  · rename_i c1
    rw [if_pos c1]
    simp only [bind_ok] at h ⊢
    obtain ⟨u, hu, h⟩ := h
    obtain ⟨q', hq', a2⟩ := mpn_rshift_sim a1 hu
    obtain ⟨t, ht, _, _, hp, _⟩ := mpn_rshift_eq_ok hu
    obtain ⟨_, hcn, _, _⟩ := seg_eq_ok ht
    have l1 := put_length hp
    have e1 : u.1 = q' := by
      apply agreeOn_eq a2
      intro i hi
      rcases hS i (by omega) with c | c
      · exact Or.inl (Or.inl c)
      · simp only [Int.toNat_zero, Nat.zero_add]
        by_cases c2 : i < (an - d.tdiv W - cn).toNat
        · exact Or.inl (Or.inr ⟨Nat.zero_le _, c2⟩)
        · right; omega
    refine ⟨(q', u.2), hq', ?_⟩
    rw [← e1]
    exact h
  · rename_i c1
    rw [if_neg c1]
    simp only [bind_ok, pure, Except.pure, Except.ok.injEq] at h ⊢
    obtain ⟨u, hu, e⟩ := h
    obtain ⟨q', hq', a2⟩ := MPN_COPY_sim a1 hu
    obtain ⟨t, ht, hp⟩ := MPN_COPY_eq_ok hu
    obtain ⟨_, hcn, _, _⟩ := seg_eq_ok ht
    have l1 := put_length hp
    have e1 : u = q' := by
      apply agreeOn_eq a2
      intro i hi
      rcases hS i (by omega) with c | c
      · exact Or.inl (Or.inl c)
      · simp only [Int.toNat_zero, Nat.zero_add]
        by_cases c2 : i < (an - d.tdiv W - cn).toNat
        · exact Or.inl (Or.inr ⟨Nat.zero_le _, c2⟩)
        · right; omega
    exact ⟨q', hq', by rw [← e, e1]⟩

theorem near_shift_indep {W pc pa : Nat} {sh an cn dif d : Int} {ap ap' cp : List Nat}
    {r : List Nat × Int × Int × Nat} (hW : 1 ≤ W) (hpa : 1 ≤ pa) (hd : 0 ≤ d)
    (hdif : dif = (pa : Int) - d) (hpos : 0 < dif)
    (han : an = (((pa - 1) / W + 1 : Nat) : Int)) (hl : ap.length = ap'.length)
    (hn : (ap.length : Int) = an)
    (h : near_shift W pc sh an cn dif d ap cp = .ok r) :
    near_shift W pc sh an cn dif d ap' cp = .ok r := by
  unfold near_shift at h ⊢
  simp only [bind_ok] at h ⊢
  obtain ⟨z, hz, h⟩ := h
  obtain ⟨z', hz', a1⟩ := MPN_ZERO_sim (agreeOn_init hl) hz
  obtain ⟨hj, hpz⟩ := MPN_ZERO_eq_ok hz
  obtain ⟨hk0, _, _⟩ := put_eq_ok hpz
  have l0 := put_length hpz
  have hS : ∀ i, i < z.length →
      (ap.length ≤ i ∨ ((dif - 1).tdiv W + 1).toNat ≤ i ∧
        i < ((dif - 1).tdiv W + 1).toNat + (an - ((dif - 1).tdiv W + 1)).toNat) ∨
      i < ((dif - 1).tdiv W + 1).toNat := by
    intro i hi
    omega
  refine ⟨z', hz', ?_⟩
  split at h
  · rename_i c1
    rw [if_pos c1]
    simp only [bind_ok, pure, Except.pure, Except.ok.injEq] at h ⊢
    obtain ⟨u, hu, e⟩ := h
    exact ⟨u, near_shift_trunc_indep a1 hS hu, e⟩
  · rename_i c1
    rw [if_neg c1]
    simp only [bind_ok, pure, Except.pure, Except.ok.injEq] at h ⊢
    obtain ⟨u, hu, e⟩ := h
    have hc := shift_cover hW hpa hd (by rw [← hdif]; exact hpos)
    rw [← hdif, ← han] at hc
    exact ⟨u, near_shift_full_indep a1 hS hc hu, e⟩

/-! ## The limb computation does not depend on the previous contents -/

theorem add1_limbs_eq_core (W : Nat) (h : Heap) (a b c : Ptr) (rnd : mp_rnd_t) (d : Int) :
    add1_limbs W h a b c rnd d =
      add1_core W (h a).prec (h b).prec (h c).prec (h a).mant (h b).mant (h c).mant
        (nzc_of W h a c) (h b) rnd d := by
  unfold add1_limbs
  by_cases hab : a = b
  · subst hab
    by_cases hac : a = c
    · subst hac
      simp [seg_all (h a).mant (ABSSIZE (h a)) rfl, bind, Except.bind, pure, Except.pure]
    · simp [hac, seg_all (h a).mant (ABSSIZE (h a)) rfl, bind, Except.bind, pure,
        Except.pure]
  · by_cases hac : a = c
    · subst hac
      simp [hab, seg_all (h a).mant (ABSSIZE (h a)) rfl, bind, Except.bind, pure,
        Except.pure]
    · simp [hab, hac, bind, Except.bind, pure, Except.pure]

theorem header_heap_mant (h : Heap) (a b x : Ptr) :
    ((h.set a (add1_header h a b)) x).mant = (h x).mant := by
  unfold Heap.set
  split
  · rename_i hx
    rw [add1_header_mant, hx]
  · rfl

theorem header_heap_prec (h : Heap) (a b x : Ptr) :
    ((h.set a (add1_header h a b)) x).prec = (h x).prec := by
  unfold Heap.set
  split
  · rename_i hx
    rw [add1_header_prec, hx]
  · rfl

theorem add1_header_neg (h : Heap) (a b : Ptr) : (add1_header h a b).neg = (h b).neg := by
  unfold add1_header
  simp only [Heap.set, if_true, sign_mul_neg]
  by_cases hab : b = a
  · subst hab
    simp
  · simp only [hab, if_false]
    by_cases hn : (h a).neg = (h b).neg
    · simp [hn]
    · simp only [ne_eq, hn, not_false_eq_true, if_true, CHANGE_SIGN]
      revert hn
      cases (h a).neg <;> cases (h b).neg <;> simp

theorem add1_header_exp (h : Heap) (a b : Ptr) : (add1_header h a b).exp = (h b).exp := by
  unfold add1_header
  simp only
  split <;> simp [CHANGE_SIGN]

theorem put_ok {p s : List Nat} {off : Int} (h1 : 0 ≤ off)
    (h2 : off.toNat + s.length ≤ p.length) :
    put p off s = .ok (p.take off.toNat ++ s ++ p.drop (off.toNat + s.length)) := by
  unfold put
  rw [if_pos ⟨h1, h2⟩]

theorem seg_ok {p : List Nat} {off n : Int} (h1 : 0 ≤ off) (h2 : 0 ≤ n)
    (h3 : off.toNat + n.toNat ≤ p.length) :
    seg p off n = .ok ((p.drop off.toNat).take n.toNat) := by
  unfold seg
  rw [if_pos ⟨h1, h2, h3⟩]

theorem limbsVal_take_add_drop (W : Nat) (p : List Nat) (n : Nat) (h : n ≤ p.length) :
    limbsVal W p = limbsVal W (p.take n) + 2 ^ (W * n) * limbsVal W (p.drop n) := by
  conv_lhs => rw [← List.take_append_drop n p]
  rw [limbsVal_append, List.length_take, Nat.min_eq_left h]

theorem limbsVal_put {W : Nat} {p q s : List Nat} {off : Int} (h : put p off s = .ok q) :
    limbsVal W q = limbsVal W (p.take off.toNat) + 2 ^ (W * off.toNat) * limbsVal W s
      + 2 ^ (W * (off.toNat + s.length)) * limbsVal W (p.drop (off.toNat + s.length)) := by
  obtain ⟨h1, h2, h3⟩ := put_eq_ok h
  subst h3
  rw [limbsVal_append, limbsVal_append]
  simp only [List.length_append, List.length_take]
  rw [Nat.min_eq_left (by omega)]

theorem limbsVal_set {W : Nat} (p : List Nat) (i v x : Nat) (h : p[i]? = some x) :
    limbsVal W (p.set i v) + x * 2 ^ (W * i) = limbsVal W p + v * 2 ^ (W * i) := by
  induction p generalizing i with
  | nil => simp at h
  | cons y ys ih =>
    cases i with
    | zero =>
      simp only [List.getElem?_cons_zero, Option.some.injEq] at h
      subst h
      simp only [List.set_cons_zero, limbsVal, Nat.mul_zero, pow_zero, Nat.mul_one]
      omega
    | succ i =>
      simp only [List.getElem?_cons_succ] at h
      have := ih i h
      simp only [List.set_cons_succ, limbsVal, Nat.mul_succ, pow_add]
      have e1 : x * (2 ^ (W * i) * 2 ^ W) = 2 ^ W * (x * 2 ^ (W * i)) := by ring
      have e2 : v * (2 ^ (W * i) * 2 ^ W) = 2 ^ W * (v * 2 ^ (W * i)) := by ring
      rw [e1, e2]
      calc y + 2 ^ W * limbsVal W (ys.set i v) + 2 ^ W * (x * 2 ^ (W * i))
          = y + 2 ^ W * (limbsVal W (ys.set i v) + x * 2 ^ (W * i)) := by ring
        _ = y + 2 ^ W * (limbsVal W ys + v * 2 ^ (W * i)) := by rw [this]
        _ = y + 2 ^ W * limbsVal W ys + 2 ^ W * (v * 2 ^ (W * i)) := by ring

theorem limbsVal_wr {W : Nat} {p q : List Nat} {i : Int} {v x : Nat} (h : wr p i v = .ok q)
    (hx : rd p i = .ok x) :
    limbsVal W q + x * 2 ^ (W * i.toNat) = limbsVal W p + v * 2 ^ (W * i.toNat) := by
  obtain ⟨_, _, e⟩ := wr_eq_ok h
  obtain ⟨_, hx'⟩ := rd_eq_ok hx
  subst e
  exact limbsVal_set p _ v x hx'

theorem limbsVal_head_mod {W : Nat} {p : List Nat} {a0 s : Nat} (h : rd p 0 = .ok a0)
    (hs : s ≤ W) : a0 % 2 ^ s = limbsVal W p % 2 ^ s := by
  obtain ⟨_, h0⟩ := rd_eq_ok h
  cases p with
  | nil => simp at h0
  | cons y ys =>
    simp only [Int.toNat_zero, List.getElem?_cons_zero, Option.some.injEq] at h0
    subst h0
    simp only [limbsVal]
    have : 2 ^ W = 2 ^ s * 2 ^ (W - s) := by
      rw [← pow_add]; congr 1; omega
    rw [this, Nat.mul_assoc, Nat.add_mul_mod_self_left]

/-- Clearing the low `s` bits of a word whose low `s` bits are 0 changes nothing. -/
theorem mask_noop {W a s : Nat} (ha : a < 2 ^ W) (hs : s ≤ W) (hz : a % 2 ^ s = 0) :
    a &&& lnot W (2 ^ s - 1) = a := by
  have hx : 2 ^ s - 1 < 2 ^ W := by
    have : 2 ^ s ≤ 2 ^ W := Nat.pow_le_pow_right (by norm_num) hs
    have : 0 < 2 ^ s := by positivity
    omega
  apply Nat.eq_of_testBit_eq
  intro i
  unfold lnot
  rw [Nat.mod_eq_of_lt hx, Nat.testBit_and]
  have e : 2 ^ W - 1 - (2 ^ s - 1) = 2 ^ W - (2 ^ s - 1 + 1) := by omega
  rw [e, Nat.testBit_two_pow_sub_succ hx, Nat.testBit_two_pow_sub_one]
  by_cases h1 : i < s
  · have hb : a.testBit i = false := by
      have := Nat.testBit_mod_two_pow a s i
      rw [hz] at this
      simp only [Nat.zero_testBit, h1, decide_True, Bool.true_and] at this
      exact this.symm
    simp [hb]
  · by_cases h2 : i < W
    · simp [h1, h2]
    · have hb : a.testBit i = false := by
        apply Nat.testBit_lt_two_pow
        exact lt_of_lt_of_le ha (Nat.pow_le_pow_right (by norm_num) (by omega))
      simp [hb]

/-! ## Zero buffers and limb counts -/

theorem put_zeros (n m : Nat) (off : Int) (h1 : 0 ≤ off) (h2 : off.toNat + m ≤ n) :
    put (List.replicate n 0) off (List.replicate m 0) = .ok (List.replicate n (0 : Nat)) := by
  rw [put_ok h1 (by simpa using h2)]
  congr 1
  rw [List.eq_replicate_iff]
  constructor
  · simp only [List.length_append, List.length_take, List.length_drop, List.length_replicate]
    omega
  · intro b hb
    simp only [List.mem_append] at hb
    rcases hb with (hb | hb) | hb
    · exact List.eq_of_mem_replicate (List.mem_of_mem_take hb)
    · exact List.eq_of_mem_replicate hb
    · exact List.eq_of_mem_replicate (List.mem_of_mem_drop hb)

theorem MPN_ZERO_zeros (n : Nat) (off m : Int) (h1 : 0 ≤ off) (h0 : 0 ≤ m)
    (h2 : off.toNat + m.toNat ≤ n) :
    MPN_ZERO (List.replicate n 0) off m = .ok (List.replicate n (0 : Nat)) := by
  unfold MPN_ZERO
  rw [if_pos h0]
  exact put_zeros n m.toNat off h1 h2

theorem rd_zeros (n : Nat) (i : Int) (h1 : 0 ≤ i) (h2 : i.toNat < n) :
    rd (List.replicate n 0) i = .ok 0 := by
  apply rd_of_get h1
  simp [h2]

theorem seg_whole (p : List Nat) (n : Int) (h : (p.length : Int) = n) :
    seg p 0 n = .ok p := by
  subst h
  simp [seg]

theorem limbsVal_put_zeros {W : Nat} {n : Nat} {q s : List Nat} {off : Int}
    (h : put (List.replicate n 0) off s = .ok q) :
    limbsVal W q = 2 ^ (W * off.toNat) * limbsVal W s := by
  rw [limbsVal_put h]
  simp [List.take_replicate, List.drop_replicate, limbsVal_replicate_zero]

/-- The number of limbs grows with the precision. -/
theorem limbs_fit {W pc pa d : Nat} (hW : 1 ≤ W) (hpc : 1 ≤ pc) (h : d + pc < pa) :
    d / W + ((pc - 1) / W + 1) ≤ (pa - 1) / W + 1 := by
  have h1 : d / W + (pc - 1) / W ≤ (pa - 1) / W := by
    rw [Nat.le_div_iff_mul_le (by omega)]
    have a1 := Nat.div_mul_le_self d W
    have a2 := Nat.div_mul_le_self (pc - 1) W
    rw [Nat.add_mul]
    omega
  omega

theorem prec_le_limbs (W p : Nat) (hW : 1 ≤ W) (hp : 1 ≤ p) : p ≤ ((p - 1) / W + 1) * W := by
  have := Nat.lt_div_mul_add (a := p - 1) (b := W) (by omega)
  rw [Nat.add_mul]
  omega

/-! ## The alignment of `c` inside the precision of `a` -/

theorem tdiv_cast (d W : Nat) : (d : Int).tdiv (W : Int) = ((d / W : Nat) : Int) := by
  rw [Int.tdiv_eq_ediv (by omega) (by omega)]
  norm_cast

theorem tmod_cast (d W : Nat) : (d : Int).tmod (W : Int) = ((d % W : Nat) : Int) := by
  rw [Int.tmod_eq_emod (by omega) (by omega)]
  norm_cast

theorem wr_ok {p : List Nat} {i : Int} (v : Nat) (h1 : 0 ≤ i) (h2 : i.toNat < p.length) :
    wr p i v = .ok (p.set i.toNat v) := by
  unfold wr
  rw [if_pos ⟨h1, h2⟩]

theorem near_shift_full_zeros {W n cn dn : Nat} {cp : List Nat} (hW : 1 ≤ W)
    (hcl : cp.length = cn) (hc : AllLt W cp) (hfit : dn / W + cn ≤ n)
    (hpad : n = dn / W + cn → limbsVal W cp % 2 ^ (dn % W) = 0) :
    ∃ buf, near_shift_full W n cn dn (List.replicate n 0) cp = .ok (buf, ((dn / W : Nat) : Int)) ∧
      buf.length = n ∧ AllLt W buf ∧
      limbsVal W buf * 2 ^ dn = limbsVal W cp * 2 ^ (W * (n - cn)) := by
  unfold near_shift_full
  rw [tdiv_cast, tmod_cast]
  have hdn : dn = W * (dn / W) + dn % W := (Nat.div_add_mod dn W).symm
  have hlt : dn % W < W := Nat.mod_lt _ (by omega)
  generalize dn / W = kk at hfit hpad hdn ⊢
  generalize dn % W = ov at hpad hdn hlt ⊢
  obtain ⟨j, hj⟩ : ∃ j : Nat, n = j + kk + cn := ⟨n - kk - cn, by omega⟩
  have ej : (n : Int) - (kk : Int) - (cn : Int) = (j : Int) := by omega
  have hz : MPN_ZERO (List.replicate n 0) 0 (j : Int) = .ok (List.replicate n (0 : Nat)) :=
    MPN_ZERO_zeros n 0 j (le_refl _) (by omega) (by simp; omega)
  have hseg : seg cp 0 (cn : Int) = .ok cp := seg_whole cp cn (by omega)
  have hnc : n - cn = j + kk := by omega
  simp only [ej]
  simp only [bind, Except.bind, hz]
  by_cases hov : ov = 0
  · have c1 : ¬ ((ov : Nat) : Int) ≠ 0 := by omega
    rw [if_neg c1]
    unfold MPN_COPY
    simp only [bind, Except.bind, hseg]
    obtain ⟨q, hp⟩ : ∃ q, put (List.replicate n 0) (j : Int) cp = .ok q :=
      ⟨_, put_ok (by omega) (by simp; omega)⟩
    rw [hp]
    refine ⟨_, rfl, ?_, ?_, ?_⟩
    · rw [put_length hp]; simp
    · exact allLt_put hp (allLt_replicate_zero W n) hc
    · rw [limbsVal_put_zeros hp, hnc, hdn, hov]
      simp only [Int.toNat_ofNat, Nat.add_zero]
      rw [Nat.mul_add, pow_add]
      ring
  · have c1 : ((ov : Nat) : Int) ≠ 0 := by omega
    rw [if_pos c1]
    unfold mpn_rshift
    simp only [bind, Except.bind, hseg]
    rw [if_pos (by omega)]
    simp only [hcl, Int.toNat_ofNat]
    obtain ⟨q, hp⟩ : ∃ q, put (List.replicate n 0) (j : Int)
        (toLimbs W cn (limbsVal W cp / 2 ^ ov)) = .ok q :=
      ⟨_, put_ok (by omega) (by simp [length_toLimbs]; omega)⟩
    rw [hp]
    simp only [pure, Except.pure]
    have hcv : limbsVal W cp < 2 ^ (W * cn) := by
      have := limbsVal_lt W cp hc
      rwa [hcl] at this
    have hq : limbsVal W cp / 2 ^ ov % 2 ^ (W * cn) = limbsVal W cp / 2 ^ ov :=
      Nat.mod_eq_of_lt (lt_of_le_of_lt (Nat.div_le_self _ _) hcv)
    have hval := limbsVal_put_zeros (W := W) hp
    rw [limbsVal_toLimbs, hq] at hval
    simp only [Int.toNat_ofNat] at hval
    have hql : q.length = n := by rw [put_length hp]; simp
    have hqa : AllLt W q := allLt_put hp (allLt_replicate_zero W n) (allLt_toLimbs _ _ _)
    have hdm := Nat.div_add_mod (limbsVal W cp) (2 ^ ov)
    by_cases hj0 : 0 < j
    · have c2 : (0 : Int) < (j : Int) := by omega
      rw [if_pos c2]
      have hw := wr_ok (p := q) (i := (j : Int) - 1)
        (limbsVal W cp % 2 ^ ov * 2 ^ (W - ov)) (by omega) (by omega)
      have hrd : rd q ((j : Int) - 1) = .ok 0 := by
        apply rd_of_get (by omega)
        rw [put_getElem? hp, if_pos (by omega)]
        simp only [Int.toNat_ofNat, Int.pred_toNat]
        rw [List.getElem?_replicate]; rw [if_pos (by omega)]
      have hv2 := limbsVal_wr (W := W) hw hrd
      rw [hw]
      refine ⟨_, rfl, ?_, ?_, ?_⟩
      · simp; exact hql
      · refine allLt_wr hw hqa ?_
        have h1 : limbsVal W cp % 2 ^ ov < 2 ^ ov := Nat.mod_lt _ (by positivity)
        calc limbsVal W cp % 2 ^ ov * 2 ^ (W - ov) < 2 ^ ov * 2 ^ (W - ov) :=
              Nat.mul_lt_mul_of_pos_right h1 (by positivity)
          _ = 2 ^ W := by rw [← pow_add]; congr 1; omega
      · simp only [Nat.zero_mul, Nat.add_zero] at hv2
        rw [hv2, hval, hnc]
        have e1 : ((j : Int) - 1).toNat = j - 1 := by omega
        rw [e1]
        have e2 : W * j = W * (j - 1) + (W - ov) + ov := by
          have : j = (j - 1) + 1 := by omega
          conv_lhs => rw [this, Nat.mul_add, Nat.mul_one]
          omega
        conv_rhs => rw [← hdm]
        conv_lhs => rw [hdn]
        rw [Nat.mul_add W j kk, e2]
        simp only [pow_add]
        ring
    · have c2 : ¬ (0 : Int) < (j : Int) := by omega
      rw [if_neg c2]
      have hj' : j = 0 := by omega
      subst hj'
      refine ⟨_, rfl, hql, hqa, ?_⟩
      rw [hval, hnc]
      have hz0 := hpad (by omega)
      rw [hz0] at hdm
      conv_lhs => rw [hdn]
      conv_rhs => rw [← hdm]
      simp only [Nat.zero_add, Nat.mul_zero, pow_zero, Nat.add_zero, Nat.one_mul]
      rw [pow_add]
      ring

theorem near_shift_val {W pa pc dn : Nat} {sh : Int} {ap cp : List Nat} (hW : 1 ≤ W)
    (hpc : 1 ≤ pc) (hlt : dn + pc < pa)
    (hcl : cp.length = (pc - 1) / W + 1) (hc : AllLt W cp)
    (hpad : limbsVal W cp % 2 ^ (((pc - 1) / W + 1) * W - pc) = 0)
    (hal : ap.length = (pa - 1) / W + 1) :
    ∃ buf k, near_shift W pc sh (((pa - 1) / W + 1 : Nat) : Int) (((pc - 1) / W + 1 : Nat) : Int)
        ((pa : Int) - dn) dn ap cp = .ok (buf, k, (pa : Int) - dn, 0) ∧
      buf.length = (pa - 1) / W + 1 ∧ AllLt W buf ∧
      limbsVal W buf * 2 ^ dn = limbsVal W cp * 2 ^ (W * ((pa - 1) / W + 1 - ((pc - 1) / W + 1))) := by
  have hfit := limbs_fit hW hpc hlt
  have hpa := prec_le_limbs W pa hW (by omega)
  have hdn : dn = W * (dn / W) + dn % W := (Nat.div_add_mod dn W).symm
  have hcov := @shift_cover W pa (dn : Int) hW (by omega) (by omega)
    (by omega)
  rw [tdiv_cast] at hcov
  obtain ⟨n, hn⟩ : ∃ n, (pa - 1) / W + 1 = n := ⟨_, rfl⟩
  obtain ⟨cn, hcn⟩ : ∃ cn, (pc - 1) / W + 1 = cn := ⟨_, rfl⟩
  simp only [hn, hcn] at hfit hpa hcov hcl hpad hal ⊢
  have hpad' : n = dn / W + cn → limbsVal W cp % 2 ^ (dn % W) = 0 := by
    intro e
    have hle : dn % W ≤ cn * W - pc := by
      subst e
      rw [Nat.add_mul] at hpa
      have : dn / W * W = W * (dn / W) := Nat.mul_comm _ _
      omega
    have : 2 ^ (dn % W) ∣ 2 ^ (cn * W - pc) := pow_dvd_pow 2 hle
    exact Nat.mod_eq_zero_of_dvd (dvd_trans this (Nat.dvd_of_mod_eq_zero hpad))
  obtain ⟨buf, hb, h1, h2, h3⟩ := near_shift_full_zeros hW hcl hc hfit hpad'
  obtain ⟨kk, hkk⟩ : ∃ kk, dn / W = kk := ⟨_, rfl⟩
  simp only [hkk] at hcov hb hfit
  clear hpad' hdn
  have hk0 : 0 ≤ ((pa : Int) - dn - 1).tdiv W := Int.tdiv_nonneg (by omega) (by omega)
  have hzero : near_shift W pc sh n cn ((pa : Int) - dn) dn (List.replicate n 0) cp
      = .ok (buf, (kk : Int), (pa : Int) - dn, 0) := by
    unfold near_shift
    have hz := MPN_ZERO_zeros n (((pa : Int) - dn - 1).tdiv W + 1)
      ((n : Int) - (((pa : Int) - dn - 1).tdiv W + 1)) (by omega) (by omega) (by omega)
    simp only [bind, Except.bind, hz]
    rw [if_neg (by omega)]
    simp only [hb, pure, Except.pure]
  refine ⟨buf, (kk : Int), ?_, h1, h2, h3⟩
  exact @near_shift_indep W pc pa _ _ _ _ _ _ _ _ _ hW (by omega) (by omega) rfl (by omega) (by rw [hn])
    (by simp [hal]) (by simp) hzero

/-! ## The addition of `b` and the carry -/

theorem shl_ok {W : Nat} (x : Nat) {n : Int} (h1 : 0 ≤ n) (h2 : n < W) :
    shl W x n = .ok ((x * 2 ^ n.toNat) % 2 ^ W) := by
  unfold shl
  rw [if_pos ⟨h1, h2⟩]

theorem rd_ok_of_lt {p : List Nat} {i : Int} (h1 : 0 ≤ i) (h2 : i.toNat < p.length) :
    ∃ x, rd p i = .ok x ∧ p[i.toNat]? = some x :=
  ⟨p[i.toNat], rd_of_get h1 (List.getElem?_eq_getElem h2), List.getElem?_eq_getElem h2⟩

/-- The in-place addition of `b` into the shifted `c` and the carry shift, with the value
they compute: `e` counts the increments of the exponent. -/
theorem near_add_val {W pa pb n bn : Nat} {buf bp : List Nat} (hW : 2 ≤ W) (hle : pb ≤ pa)
    (hbn : bn ≤ n) (hn : 1 ≤ n) (hbl : buf.length = n) (hpl : bp.length = bn)
    (hba : AllLt W buf) (hpa : AllLt W bp) :
    ∃ r e c3, near_add W pa pb n bn buf bp 0 = .ok (r, 2, ((e : Nat) : Int), c3) ∧
      r.length = n ∧ AllLt W r ∧ e ≤ 1 ∧
      limbsVal W r = (limbsVal W buf + 2 ^ (W * (n - bn)) * limbsVal W bp) / 2 ^ e ∧
      limbsVal W buf + 2 ^ (W * (n - bn)) * limbsVal W bp < 2 ^ (W * n + e) ∧
      (e = 1 → 2 ^ (W * n) ≤ limbsVal W buf + 2 ^ (W * (n - bn)) * limbsVal W bp) := by
  obtain ⟨j, hj⟩ : ∃ j, n = j + bn := ⟨n - bn, by omega⟩
  have ej : (n : Int) - (bn : Int) = (j : Int) := by omega
  have hnb : n - bn = j := by omega
  have hs : seg buf (j : Int) (bn : Int) = .ok (buf.drop j) := by
    rw [seg_ok (by omega) (by omega) (by simp; omega)]
    simp only [Int.toNat_ofNat]
    rw [List.take_of_length_le (by simp; omega)]
  have ht : seg bp 0 (bn : Int) = .ok bp := seg_whole bp bn (by omega)
  have hsl : (buf.drop j).length = bn := by simp; omega
  obtain ⟨r1, hp⟩ : ∃ r1, put buf (j : Int)
      (toLimbs W bn (limbsVal W (buf.drop j) + limbsVal W bp)) = .ok r1 :=
    ⟨_, put_ok (by omega) (by simp [length_toLimbs]; omega)⟩
  have hr1l : r1.length = n := by rw [put_length hp, hbl]
  have hr1a : AllLt W r1 := allLt_put hp hba (allLt_toLimbs _ _ _)
  have hv1 := limbsVal_put (W := W) hp
  simp only [Int.toNat_ofNat, length_toLimbs, limbsVal_toLimbs] at hv1
  have hdn : buf.drop (j + bn) = [] := by
    apply List.drop_of_length_le; omega
  rw [hdn] at hv1
  simp only [limbsVal, Nat.mul_zero, Nat.add_zero] at hv1
  have hv0 := limbsVal_take_add_drop W buf j (by omega)
  have hsb : limbsVal W (buf.drop j) < 2 ^ (W * bn) := by
    have := limbsVal_lt W _ (allLt_drop W buf j hba)
    rwa [hsl] at this
  have hbb : limbsVal W bp < 2 ^ (W * bn) := by
    have := limbsVal_lt W _ hpa
    rwa [hpl] at this
  have htk : limbsVal W (buf.take j) < 2 ^ (W * j) := by
    have := limbsVal_lt W _ (allLt_take W buf j hba)
    rwa [List.length_take, Nat.min_eq_left (by omega)] at this
  have hpw : 2 ^ (W * n) = 2 ^ (W * j) * 2 ^ (W * bn) := by
    rw [← pow_add, hj, Nat.mul_add]
  unfold near_add
  rw [if_pos hle, ej]
  unfold mpn_add_n
  simp only [bind, Except.bind, hs, ht, hsl, hp, pure, Except.pure, hnb]
  generalize hV : limbsVal W (buf.drop j) + limbsVal W bp = v at *
  have hvdm := Nat.div_add_mod v (2 ^ (W * bn))
  have hSig : limbsVal W buf + 2 ^ (W * j) * limbsVal W bp
      = limbsVal W r1 + 2 ^ (W * n) * (v / 2 ^ (W * bn)) := by
    rw [hv1, hv0, hpw]
    conv_lhs => rw [Nat.add_assoc, ← Nat.mul_add, hV, ← hvdm]
    ring
  have hcle : v / 2 ^ (W * bn) ≤ 1 := by
    have : v / 2 ^ (W * bn) < 2 := by
      rw [Nat.div_lt_iff_lt_mul (by positivity)]
      omega
    omega
  have hr1v : limbsVal W r1 < 2 ^ (W * n) := by
    have := limbsVal_lt W _ hr1a
    rwa [hr1l] at this
  by_cases hc : v / 2 ^ (W * bn) = 0
  · rw [if_neg (by simpa using hc)]
    refine ⟨r1, 0, 0, by rw [if_pos hle]; rfl, hr1l, hr1a, by omega, ?_, ?_, by omega⟩
    · rw [hSig, hc]; simp
    · rw [hSig, hc]; simpa using hr1v
  · have hc1 : v / 2 ^ (W * bn) = 1 := Nat.le_antisymm hcle (Nat.pos_of_ne_zero hc)
    rw [if_pos (by simpa using hc)]
    obtain ⟨a0, ha0, _⟩ := rd_ok_of_lt (p := r1) (i := 0) (by omega) (by simp; omega)
    simp only [ha0]
    unfold mpn_rshift
    have hs1 : seg r1 0 (n : Int) = .ok r1 := seg_whole r1 n (by omega)
    simp only [bind, Except.bind, hs1]
    rw [if_pos (by omega)]
    obtain ⟨q, hq⟩ : ∃ q, put r1 0 (toLimbs W r1.length (limbsVal W r1 / 2 ^ (1 : Int).toNat))
        = .ok q := ⟨_, put_ok (by omega) (by simp [length_toLimbs])⟩
    simp only [hq, pure, Except.pure]
    have hql : q.length = n := by rw [put_length hq, hr1l]
    have hqa : AllLt W q := allLt_put hq hr1a (allLt_toLimbs _ _ _)
    have hqv := limbsVal_put (W := W) hq
    simp only [Int.toNat_zero, List.take_zero, limbsVal, Nat.mul_zero, pow_zero, Nat.one_mul,
      Nat.zero_add, length_toLimbs, List.drop_length, Nat.add_zero, limbsVal_toLimbs,
      Int.toNat_one, pow_one] at hqv
    rw [hr1l] at hqv
    have hhalf : limbsVal W r1 / 2 < 2 ^ (W * n - 1) := by
      rw [Nat.div_lt_iff_lt_mul (by omega)]
      have : 2 ^ (W * n - 1) * 2 = 2 ^ (W * n) := by
        rw [← pow_succ]; congr 1
        have : 1 ≤ W * n := Nat.mul_pos (by omega) (by omega)
        omega
      omega
    rw [Nat.mod_eq_of_lt (lt_of_lt_of_le hhalf (Nat.pow_le_pow_right (by omega) (by omega)))]
      at hqv
    obtain ⟨t, ht, htg⟩ := rd_ok_of_lt (p := q) (i := (n : Int) - 1) (by omega) (by omega)
    have e1 : ((n : Int) - 1).toNat = n - 1 := by omega
    rw [e1] at htg
    have hwn : W * n - 1 = (W - 1) + W * (n - 1) := by
      have : n = (n - 1) + 1 := by omega
      conv_lhs => rw [this, Nat.mul_add, Nat.mul_one]
      omega
    have htlt : t < 2 ^ (W - 1) := by
      have h1 := limbsVal_ge_get W q (n - 1) t htg
      rw [hqv] at h1
      have h2 := lt_of_le_of_lt h1 hhalf
      rw [hwn, pow_add] at h2
      exact Nat.lt_of_mul_lt_mul_right h2
    have hsh : shl W 1 ((W : Int) - 1) = .ok (2 ^ (W - 1)) := by
      rw [shl_ok 1 (by omega) (by omega)]
      have e2 : ((W : Int) - 1).toNat = W - 1 := by omega
      rw [e2, Nat.one_mul, Nat.mod_eq_of_lt (Nat.pow_lt_pow_right (by omega) (by omega))]
    have hW2 : 2 ^ W = 2 ^ (W - 1) + 2 ^ (W - 1) := by
      have : W = (W - 1) + 1 := by omega
      conv_lhs => rw [this, pow_succ]
      omega
    have hsum : (t + 2 ^ (W - 1)) % 2 ^ W = t + 2 ^ (W - 1) := Nat.mod_eq_of_lt (by omega)
    have hw := wr_ok (p := q) (i := (n : Int) - 1) (t + 2 ^ (W - 1)) (by omega) (by omega)
    simp only [ht, hsh, hsum, hw]
    have hfv := limbsVal_wr (W := W) hw ht
    have hfl : (q.set ((n : Int) - 1).toNat (t + 2 ^ (W - 1))).length = n := by simp [hql]
    have hfa := allLt_wr (W := W) hw hqa (by omega)
    have h4 : (t + 2 ^ (W - 1)) * 2 ^ (W * (n - 1))
        = t * 2 ^ (W * (n - 1)) + 2 ^ (W * n - 1) := by
      rw [hwn, pow_add]; ring
    generalize q.set ((n : Int) - 1).toNat (t + 2 ^ (W - 1)) = qf at hfv hfl hfa ⊢
    rw [e1, h4, hqv] at hfv
    refine ⟨_, 1, _, by rw [if_pos hle]; rfl, ?_, ?_, le_refl _, ?_, ?_, ?_⟩
    · exact hfl
    · exact hfa
    · rw [hSig, hc1, Nat.mul_one, pow_one]
      have h3 : 2 ^ (W * n) = 2 * 2 ^ (W * n - 1) := by
        rw [← pow_succ']; congr 1
        have : 1 ≤ W * n := Nat.mul_pos (by omega) (by omega)
        omega
      rw [h3, Nat.add_mul_div_left _ _ (by omega)]
      omega
    · rw [hSig, hc1, Nat.mul_one, pow_succ]
      omega
    · intro _
      rw [hSig, hc1]
      omega

/-! ## Exact sums pass the rounding switch unchanged -/

theorem set_self {α : Type} (l : List α) (i : Nat) (x : α) (h : l[i]? = some x) :
    l.set i x = l := by
  apply List.ext_getElem?
  intro j
  rw [List.getElem?_set]
  split
  · rename_i e
    subst e
    split
    · exact h.symm
    · rename_i hl
      rw [List.getElem?_eq_none (by omega)]
  · rfl

/-- When the bits below the precision are already 0, the rounding switch leaves the sum
as it is, in every rounding mode. -/
theorem near_round_exact {W s : Nat} {an bn cn k dif : Int} {ap bp cp : List Nat}
    (b : mpfr_t) (rnd : mp_rnd_t) (hs : s < W) (hl : 1 ≤ ap.length) (ha : AllLt W ap)
    (hz : limbsVal W ap % 2 ^ s = 0) :
    near_round W s an bn cn k dif ap bp cp 2 b rnd = .ok (ap, Goto.end_of_add) := by
  unfold near_round
  split
  · rfl
  · obtain ⟨a0, ha0, hg⟩ := rd_ok_of_lt (p := ap) (i := 0) (by omega) (by simp; omega)
    have hsh : shl W 1 (s : Int) = .ok (2 ^ s) := by
      rw [shl_ok 1 (by omega) (by omega)]
      simp only [Int.toNat_ofNat, Nat.one_mul]
      rw [Nat.mod_eq_of_lt (Nat.pow_lt_pow_right (by omega) hs)]
    have ha0lt : a0 < 2 ^ W := allLt_get W ap _ a0 ha hg
    have hm : a0 % 2 ^ s = 0 := by
      rw [limbsVal_head_mod (W := W) ha0 (Nat.le_of_lt hs)]
      exact hz
    have hnoop := mask_noop ha0lt (by omega) hm
    have hw := wr_ok (p := ap) (i := 0) a0 (by omega) (by simp; omega)
    rw [set_self ap _ a0 hg] at hw
    simp only [bind, Except.bind, ha0, hsh, hnoop, hw, pure, Except.pure]

theorem add1_finish_end (W : Nat) (sh an : Int) (c3 : Nat) (ap : List Nat) (rnd : mp_rnd_t) :
    add1_finish W sh an c3 ap Goto.end_of_add rnd = .ok (ap, 0) := rfl

theorem limbs_mono {W pa pb : Nat} (h : pb ≤ pa) : (pb - 1) / W + 1 ≤ (pa - 1) / W + 1 :=
  Nat.succ_le_succ (Nat.div_le_div_right (by omega))

theorem limbs_lt {W p : Nat} (hW : 1 ≤ W) (hp : 1 ≤ p) : ((p - 1) / W + 1) * W - p < W := by
  have h1 := Nat.div_mul_le_self (p - 1) W
  rw [Nat.add_mul]
  omega

/-- The limb computation of `mpfr_add1` when `c` lies entirely inside the precision of `a`
and the sum needs no rounding: in every rounding mode it ends without fault with the same
buffer `r` and exponent increment `e`, and `r * 2 ^ e` is the exact sum of the significands
as aligned in `a`. -/
theorem add1_core_exact {W pa pb pc dn : Nat} {ap bp cp : List Nat}
    (nzc : List Nat → Except Fault Nat) (b : mpfr_t)
    (hW : 2 ≤ W) (hpb : 1 ≤ pb) (hle : pb ≤ pa) (hpc : 1 ≤ pc) (hlt : dn + pc < pa)
    (hal : ap.length = (pa - 1) / W + 1) (hbl : bp.length = (pb - 1) / W + 1)
    (hcl : cp.length = (pc - 1) / W + 1) (hba : AllLt W bp) (hca : AllLt W cp)
    (hbt : 2 ^ (W * ((pb - 1) / W + 1) - 1) ≤ limbsVal W bp)
    (hpad : limbsVal W cp % 2 ^ (((pc - 1) / W + 1) * W - pc) = 0)
    (hex : ∀ e, e ≤ 1 →
      2 ^ (W * ((pa - 1) / W + 1) - 1 + e + dn)
        ≤ limbsVal W cp * 2 ^ (W * ((pa - 1) / W + 1 - ((pc - 1) / W + 1)))
          + 2 ^ (W * ((pa - 1) / W + 1 - ((pb - 1) / W + 1)) + dn) * limbsVal W bp →
      2 ^ (((pa - 1) / W + 1) * W - pa + e + dn)
        ∣ limbsVal W cp * 2 ^ (W * ((pa - 1) / W + 1 - ((pc - 1) / W + 1)))
          + 2 ^ (W * ((pa - 1) / W + 1 - ((pb - 1) / W + 1)) + dn) * limbsVal W bp) :
    ∃ r e, e ≤ 1 ∧ (∀ rnd, add1_core W pa pb pc ap bp cp nzc b rnd dn = .ok (r, ((e : Nat) : Int))) ∧
      r.length = (pa - 1) / W + 1 ∧ AllLt W r ∧
      limbsVal W r * 2 ^ (e + dn)
        = limbsVal W cp * 2 ^ (W * ((pa - 1) / W + 1 - ((pc - 1) / W + 1)))
          + 2 ^ (W * ((pa - 1) / W + 1 - ((pb - 1) / W + 1)) + dn) * limbsVal W bp := by
  have hmono := limbs_mono (W := W) hle
  have hsl := limbs_lt (W := W) (p := pa) (by omega) (by omega)
  have hpan := prec_le_limbs W pa (by omega) (by omega)
  obtain ⟨buf, k, hshift, hbufl, hbufa, hbufv⟩ :=
    @near_shift_val W pa pc dn ((((pa - 1) / W + 1 : Nat) : Int) * W - pa) ap cp
      (by omega) hpc hlt hcl hca hpad hal
  obtain ⟨r, e, c3, hadd, hrl, hra, he, hrv, hub, hlb⟩ :=
    @near_add_val W pa pb ((pa - 1) / W + 1) ((pb - 1) / W + 1) buf bp hW hle hmono (Nat.le_add_left 1 _) hbufl hbl
      hbufa hba
  obtain ⟨n, hn⟩ : ∃ n, (pa - 1) / W + 1 = n := ⟨_, rfl⟩
  obtain ⟨bn, hbn⟩ : ∃ bn, (pb - 1) / W + 1 = bn := ⟨_, rfl⟩
  obtain ⟨cn, hcn⟩ : ∃ cn, (pc - 1) / W + 1 = cn := ⟨_, rfl⟩
  have hn1 : 1 ≤ n := by rw [← hn]; exact Nat.le_add_left 1 _
  have hbn1 : 1 ≤ bn := by rw [← hbn]; exact Nat.le_add_left 1 _
  simp only [hn, hbn, hcn] at hal hbl hcl hbt hpad hex hmono hsl hpan hshift hbufl hbufv
  simp only [hn, hbn, hcn] at hadd hrl hrv hub hlb ⊢
  obtain ⟨s, hs⟩ : ∃ s, n * W - pa = s := ⟨_, rfl⟩
  have hsc : ((n : Int) * (W : Int) - (pa : Int)) = (s : Int) := by
    rw [← hs]
    have : ((n * W : Nat) : Int) = (n : Int) * (W : Int) := by push_cast; rfl
    omega
  simp only [hs, hsc] at hex hsl hshift ⊢
  generalize hS : limbsVal W buf + 2 ^ (W * (n - bn)) * limbsVal W bp = S at *
  have hSS : limbsVal W cp * 2 ^ (W * (n - cn)) + 2 ^ (W * (n - bn) + dn) * limbsVal W bp
      = S * 2 ^ dn := by
    rw [← hS, Nat.add_mul, hbufv, pow_add]
    ring
  rw [hSS] at hex ⊢
  have hSlb : 2 ^ (W * n - 1) ≤ S := by
    have h1 : 2 ^ (W * n - 1) = 2 ^ (W * (n - bn)) * 2 ^ (W * bn - 1) := by
      rw [← pow_add]
      congr 1
      have h2 : W * n = W * (n - bn) + W * bn := by
        rw [← Nat.mul_add]; congr 1; omega
      have h3 : 1 ≤ W * bn := Nat.mul_pos (by omega) (by omega)
      omega
    rw [h1, ← hS]
    exact le_trans (Nat.mul_le_mul_left _ hbt) (Nat.le_add_left _ _)
  have hdvd : 2 ^ (s + e) ∣ S := by
    have h1 : 2 ^ (W * n - 1 + e + dn) ≤ S * 2 ^ dn := by
      rw [pow_add]
      apply Nat.mul_le_mul_right
      rcases Nat.le_one_iff_eq_zero_or_eq_one.mp he with h0 | h1
      · subst h0; simpa using hSlb
      · have := hlb h1
        subst h1
        have h3 : 1 ≤ W * n := Nat.mul_pos (by omega) (by omega)
        have h4 : W * n - 1 + 1 = W * n := by omega
        rwa [h4]
    have h2 := hex e he h1
    rw [pow_add (n := dn)] at h2
    exact Nat.dvd_of_mul_dvd_mul_right (by positivity) h2
  obtain ⟨m, hm⟩ := hdvd
  have hrm : limbsVal W r = 2 ^ s * m := by
    rw [hrv, hm, pow_add, Nat.mul_assoc, Nat.mul_comm (2 ^ e) m, ← Nat.mul_assoc]
    exact Nat.mul_div_cancel _ (by positivity)
  have hround := fun rnd => @near_round_exact W s (n : Int) (bn : Int) (cn : Int) k
    ((pa : Int) - dn) r bp cp b rnd hsl (by omega) hra (by rw [hrm]; exact Nat.mul_mod_right _ _)
  refine ⟨r, e, he, ?_, hrl, hra, ?_⟩
  · intro rnd
    unfold add1_core
    simp only [hn, hbn, hcn, hsc]
    rw [if_neg (by omega)]
    unfold near
    simp only [bind, Except.bind, hshift, hadd, hround rnd, pure, Except.pure,
      add1_finish_end]
    simp
  · rw [hrm, hm, pow_add, pow_add]
    ring

/-! ## Representable sums -/

/-- A natural number `N ≥ 2 ^ t` that some power of two scales to a number of at most `p`
significant bits is a multiple of `2 ^ (t + 1 - p)`. -/
theorem dvd_of_representable {p t N : Nat} {E : Int} {s : ℚ} (hs : s = 1 ∨ s = -1)
    (hr : Representable p (s * (N : ℚ) * (2 : ℚ) ^ E)) (hN : 2 ^ t ≤ N) :
    2 ^ (t + 1 - p) ∣ N := by
  obtain ⟨m, e, hm, hx⟩ := hr
  have h2 : (2 : ℚ) ≠ 0 := by norm_num
  -- absolute values
  have habs : (N : ℚ) * (2 : ℚ) ^ E = ((m.natAbs : Nat) : ℚ) * (2 : ℚ) ^ e := by
    have h1 : |s * (N : ℚ) * (2 : ℚ) ^ E| = |(m : ℚ) * (2 : ℚ) ^ e| := by rw [hx]
    rw [abs_mul, abs_mul, abs_mul] at h1
    have hs1 : |s| = 1 := by rcases hs with h | h <;> rw [h] <;> simp
    have hp1 : |(2 : ℚ) ^ E| = (2 : ℚ) ^ E := abs_of_pos (zpow_pos (by norm_num) _)
    have hp2 : |(2 : ℚ) ^ e| = (2 : ℚ) ^ e := abs_of_pos (zpow_pos (by norm_num) _)
    have hn : |(N : ℚ)| = (N : ℚ) := abs_of_nonneg (Nat.cast_nonneg _)
    rw [hs1, hp1, hp2, hn, one_mul] at h1
    rw [h1, Nat.cast_natAbs, Int.cast_abs]
  have hM : m.natAbs < 2 ^ p := by
    have : ((m.natAbs : Nat) : Int) < 2 ^ p := by
      rw [Int.natCast_natAbs]; exact hm
    exact_mod_cast this
  generalize m.natAbs = M at habs hM
  by_cases hle : E ≤ e
  · obtain ⟨k, hk⟩ := Int.eq_ofNat_of_zero_le (sub_nonneg.mpr hle)
    have he : e = E + k := by omega
    have h3 : (N : ℚ) = (M : ℚ) * 2 ^ k := by
      have h5 : (N : ℚ) * (2 : ℚ) ^ E = ((M : ℚ) * 2 ^ k) * (2 : ℚ) ^ E := by
        rw [habs, he, zpow_add₀ h2, zpow_natCast]; ring
      exact mul_right_cancel₀ (zpow_ne_zero E h2) h5
    have h4 : N = M * 2 ^ k := by exact_mod_cast h3
    have hk2 : t + 1 - p ≤ k := by
      by_contra hc
      have hc' : k ≤ t - p := by omega
      have hpt : p ≤ t := by omega
      have : M * 2 ^ k < 2 ^ p * 2 ^ (t - p) :=
        lt_of_lt_of_le (Nat.mul_lt_mul_of_pos_right hM (by positivity))
          (Nat.mul_le_mul_left _ (Nat.pow_le_pow_right (by omega) hc'))
      rw [← pow_add] at this
      have e1 : p + (t - p) = t := by omega
      rw [e1] at this
      omega
    rw [h4]
    exact Dvd.dvd.mul_left (pow_dvd_pow 2 hk2) M
  · obtain ⟨k, hk⟩ := Int.eq_ofNat_of_zero_le (sub_nonneg.mpr (le_of_lt (not_le.mp hle)))
    have he : E = e + k := by omega
    have h3 : (N : ℚ) * 2 ^ k = (M : ℚ) := by
      have h5 : ((N : ℚ) * 2 ^ k) * (2 : ℚ) ^ e = (M : ℚ) * (2 : ℚ) ^ e := by
        rw [← habs, he, zpow_add₀ h2, zpow_natCast]; ring
      exact mul_right_cancel₀ (zpow_ne_zero e h2) h5
    have h4 : N * 2 ^ k = M := by exact_mod_cast h3
    have hNM : N ≤ M := by
      rw [← h4]
      exact Nat.le_mul_of_pos_right _ (by positivity)
    have hlt : 2 ^ t < 2 ^ p := lt_of_le_of_lt (le_trans hN hNM) hM
    have htp : t < p := (Nat.pow_lt_pow_iff_right (by omega)).mp hlt
    have : t + 1 - p = 0 := by omega
    rw [this]
    simp

theorem sign_cases (x : mpfr_t) : (MPFR_SIGN x : ℚ) = 1 ∨ (MPFR_SIGN x : ℚ) = -1 := by
  unfold MPFR_SIGN
  cases x.neg <;> simp

theorem sign_eq_of_neg {x y : mpfr_t} (h : x.neg = y.neg) : MPFR_SIGN x = MPFR_SIGN y := by
  unfold MPFR_SIGN
  rw [h]

theorem wf_length {W : Nat} {x : mpfr_t} (h : (x.mant.length : Int) = nlimbs W x) :
    x.mant.length = (x.prec - 1) / W + 1 := by
  unfold nlimbs at h
  exact_mod_cast h

theorem value_of_length {W : Nat} {x : mpfr_t} (h : x.mant.length = (x.prec - 1) / W + 1) :
    value W x = (MPFR_SIGN x : ℚ) * (limbsVal W x.mant : ℚ)
      * (2 : ℚ) ^ (x.exp - (((x.prec - 1) / W + 1 : Nat) : Int) * (W : Int)) := by
  unfold value nlimbs
  rw [Int.toNat_ofNat, List.take_of_length_le (by omega)]

theorem wf_top {W : Nat} {x : mpfr_t} (hW : 1 ≤ W) (w : WF W x) :
    2 ^ (W * ((x.prec - 1) / W + 1) - 1) ≤ limbsVal W x.mant := by
  obtain ⟨_, _, _, ht, _⟩ := w
  obtain ⟨_, t, hg, h1, _⟩ := topSet_getElem ht
  unfold nlimbs at hg
  have e1 : ((((x.prec - 1) / W + 1 : Nat) : Int) - 1).toNat = (x.prec - 1) / W := by
    generalize (x.prec - 1) / W = q
    omega
  rw [e1] at hg
  have h2 := limbsVal_ge_get W x.mant _ t hg
  have e2 : W * ((x.prec - 1) / W + 1) - 1 = (W - 1) + W * ((x.prec - 1) / W) := by
    rw [Nat.mul_add]; omega
  rw [e2, pow_add]
  exact le_trans (Nat.mul_le_mul_right _ h1) h2

theorem wf_pad {W : Nat} {x : mpfr_t} (w : WF W x) :
    limbsVal W x.mant % 2 ^ (((x.prec - 1) / W + 1) * W - x.prec) = 0 := by
  obtain ⟨_, _, _, _, hp⟩ := w
  unfold nlimbs at hp
  rwa [Int.toNat_ofNat] at hp

/-- The sum of two aligned values as one scaled integer. -/
theorem aligned_sum (s : ℚ) (Vb Vc n bn cn dn W : Nat) (eb : Int) (hbn : bn ≤ n)
    (hcn : cn ≤ n) :
    s * (Vb : ℚ) * (2 : ℚ) ^ (eb - (bn : Int) * W)
      + s * (Vc : ℚ) * (2 : ℚ) ^ (eb - dn - (cn : Int) * W)
    = s * ((Vc * 2 ^ (W * (n - cn)) + 2 ^ (W * (n - bn) + dn) * Vb : Nat) : ℚ)
      * (2 : ℚ) ^ (eb - (n : Int) * W - dn) := by
  have h2 : (2 : ℚ) ≠ 0 := by norm_num
  have e1 : (2 : ℚ) ^ (eb - (bn : Int) * W)
      = (2 : ℚ) ^ (W * (n - bn) + dn) * (2 : ℚ) ^ (eb - (n : Int) * W - dn) := by
    rw [← zpow_natCast, ← zpow_add₀ h2]
    congr 1
    push_cast [Nat.cast_sub hbn]
    ring
  have e2 : (2 : ℚ) ^ (eb - dn - (cn : Int) * W)
      = (2 : ℚ) ^ (W * (n - cn)) * (2 : ℚ) ^ (eb - (n : Int) * W - dn) := by
    rw [← zpow_natCast, ← zpow_add₀ h2]
    congr 1
    push_cast [Nat.cast_sub hcn]
    ring
  rw [e1, e2]
  push_cast
  ring

/-! ## Exact sums inside the precision of the destination -/

/-- When `b` has the larger exponent, the exponent difference fits an `int`,
`PREC(b) ≤ PREC(dst)`, the last bit of `c` lies strictly inside the precision of `dst` and the
exact sum has at most `PREC(dst)` significant bits, `mpfr_add` ends without fault in every
rounding mode, leaves the same limbs, sign and exponent in `dst` in every mode, and these
stand for exactly `b + c`. -/
theorem exact_sum_inside_precision (W : Nat) (X : Callees) (h : Heap) (a b c : Ptr)
    (hW : 2 ≤ W) (hb : Regular W (h b)) (hc : Regular W (h c))
    (hs : (h b).neg = (h c).neg) (wb : WF W (h b)) (wc : WF W (h c))
    (hla : ((h a).mant.length : Int) = nlimbs W (h a))
    (he : (h c).exp ≤ (h b).exp) (hfit : (h b).exp - (h c).exp < 2 ^ 31)
    (hpb : (h b).prec ≤ (h a).prec)
    (hin : (h b).exp - (h c).exp + (h c).prec < (h a).prec)
    (hx : Representable (h a).prec (value W (h b) + value W (h c))) :
    ∃ r, (∀ rnd, res (mpfr_add W X h a b c rnd) a = some r) ∧
      value W r = value W (h b) + value W (h c) := by
  obtain ⟨dn, hdn⟩ := Int.eq_ofNat_of_zero_le (sub_nonneg.mpr he)
  have hal := wf_length hla
  have hbl := wf_length wb.2.1
  have hcl := wf_length wc.2.1
  have hpb1 : 1 ≤ (h b).prec := wb.1
  have hpc1 : 1 ≤ (h c).prec := wc.1
  have hlt : dn + (h c).prec < (h a).prec := by omega
  have hmb := limbs_mono (W := W) hpb
  have hmc := @limbs_mono W (h a).prec (h c).prec (by omega)
  have hpan := prec_le_limbs W (h a).prec (by omega) (by omega)
  have hsum := aligned_sum (MPFR_SIGN (h b) : ℚ) (limbsVal W (h b).mant) (limbsVal W (h c).mant)
    (((h a).prec - 1) / W + 1) (((h b).prec - 1) / W + 1) (((h c).prec - 1) / W + 1) dn W
    (h b).exp hmb hmc
  have hvb := value_of_length hbl
  have hvc := value_of_length hcl
  have hec : (h c).exp = (h b).exp - dn := by omega
  rw [← sign_eq_of_neg hs, hec] at hvc
  have hval := hsum
  rw [← hvb, ← hvc] at hval
  have hex : ∀ e, e ≤ 1 →
      2 ^ (W * (((h a).prec - 1) / W + 1) - 1 + e + dn)
        ≤ limbsVal W (h c).mant
            * 2 ^ (W * (((h a).prec - 1) / W + 1 - (((h c).prec - 1) / W + 1)))
          + 2 ^ (W * (((h a).prec - 1) / W + 1 - (((h b).prec - 1) / W + 1)) + dn)
            * limbsVal W (h b).mant →
      2 ^ ((((h a).prec - 1) / W + 1) * W - (h a).prec + e + dn)
        ∣ limbsVal W (h c).mant
            * 2 ^ (W * (((h a).prec - 1) / W + 1 - (((h c).prec - 1) / W + 1)))
          + 2 ^ (W * (((h a).prec - 1) / W + 1 - (((h b).prec - 1) / W + 1)) + dn)
            * limbsVal W (h b).mant := by
    intro e _ hge
    rw [hval] at hx
    have hd := dvd_of_representable (sign_cases (h b)) hx hge
    have e1 : W * (((h a).prec - 1) / W + 1) - 1 + e + dn + 1 - (h a).prec
        = (((h a).prec - 1) / W + 1) * W - (h a).prec + e + dn := by
      have : W * (((h a).prec - 1) / W + 1) = (((h a).prec - 1) / W + 1) * W :=
        Nat.mul_comm _ _
      omega
    rwa [e1] at hd
  obtain ⟨r, e, _, hrun, hrl, _, hrv⟩ :=
    @add1_core_exact W (h a).prec (h b).prec (h c).prec dn (h a).mant (h b).mant (h c).mant
      (nzc_of W (h.set a (add1_header h a b)) a c) ((h.set a (add1_header h a b)) b)
      hW hpb1 hpb hpc1 hlt hal hbl hcl wb.2.2.1 wc.2.2.1 (wf_top (by omega) wb) (wf_pad wc) hex
  refine ⟨{ (add1_header h a b) with mant := r, exp := (add1_header h a b).exp + (e : Int) },
    ?_, ?_⟩
  · intro rnd
    rw [mpfr_add_same_sign W X h a b c rnd hb hc hs, to_int_of_fits (by omega) hfit,
      if_neg (by omega), hdn]
    unfold mpfr_add1
    simp only [add1_limbs_eq_core, header_heap_prec, header_heap_mant, hrun rnd, bind,
      Except.bind, pure, Except.pure, res]
    simp only [Heap.set, if_true]
  · rw [hval]
    have hv := value_of_length (W := W)
      (x := { (add1_header h a b) with mant := r, exp := (add1_header h a b).exp + (e : Int) })
      (by simpa [add1_header_prec] using hrl)
    rw [hv]
    have hsg : MPFR_SIGN
        { (add1_header h a b) with mant := r, exp := (add1_header h a b).exp + (e : Int) }
        = MPFR_SIGN (h b) := by
      apply sign_eq_of_neg
      exact add1_header_neg h a b
    rw [hsg]
    simp only [add1_header_prec, add1_header_exp]
    rw [← hrv]
    have h2 : (2 : ℚ) ≠ 0 := by norm_num
    have e3 : (2 : ℚ) ^ ((h b).exp + (e : Int) - ((((h a).prec - 1) / W + 1 : Nat) : Int) * W)
        = (2 : ℚ) ^ (e + dn) * (2 : ℚ) ^ ((h b).exp
            - ((((h a).prec - 1) / W + 1 : Nat) : Int) * W - dn) := by
      rw [← zpow_natCast, ← zpow_add₀ h2]
      congr 1
      push_cast
      ring
    rw [e3]
    push_cast
    ring

/-- At precision 4 the sum `3/4 + 1/4 = 1`, which produces a carry, is stored exactly in all
four rounding modes. -/
theorem exact_sum_inside_precision_witness :
    (fun X : Callees => fun rnd : mp_rnd_t =>
        res (mpfr_add 64 X (heap3 c3_a c1_b c3_c) 0 1 2 rnd) 0) = (fun _ _ => some c3_r) ∧
      Representable 4 (value 64 c1_b + value 64 c3_c) ∧
      value 64 c3_r = value 64 c1_b + value 64 c3_c := by
  have hrep : Representable 4 (value 64 c1_b + value 64 c3_c) :=
    ⟨1, 0, by norm_num, by norm_num [value, c1_b, c3_c, limbsVal, nlimbs, MPFR_SIGN]⟩
  have hrun : ∀ (X : Callees) (rnd : mp_rnd_t),
      res (mpfr_add 64 X (heap3 c3_a c1_b c3_c) 0 1 2 rnd) 0 = some c3_r := by
    intro X rnd
    cases rnd <;> rfl
  refine ⟨funext fun X => funext fun rnd => hrun X rnd, hrep, ?_⟩
  obtain ⟨r, h1, h2⟩ := exact_sum_inside_precision 64
    ⟨id, fun h _ _ _ => h, fun h _ _ _ _ _ => h⟩ (heap3 c3_a c1_b c3_c) 0 1 2 (by decide)
    ⟨rfl, 13835058055282163712, rfl, by decide⟩ ⟨rfl, 9223372036854775808, rfl, by decide⟩
    rfl
    ⟨by decide, rfl, allLt_one (by decide),
      ⟨13835058055282163712, rfl, by decide, by decide⟩, by decide⟩
    ⟨by decide, rfl, allLt_one (by decide),
      ⟨9223372036854775808, rfl, by decide, by decide⟩, by decide⟩
    rfl (by decide) (by decide) (by decide) (by decide) hrep
  have h3 := h1 GMP_RNDZ
  rw [hrun] at h3
  rw [Option.some.inj h3]
  exact h2

theorem nofuel_iff {α : Type} (x : Except Fault α) : NoFuel x ↔ x ≠ .error Fault.fuel := by
  unfold NoFuel
  split <;> simp_all

theorem nofuel_ok {α : Type} (a : α) : NoFuel (.ok a : Except Fault α) := trivial

theorem nofuel_pure {α : Type} (a : α) : NoFuel (pure a : Except Fault α) := trivial

theorem nofuel_index {α : Type} : NoFuel (.error Fault.index : Except Fault α) := trivial

theorem nofuel_shift {α : Type} : NoFuel (.error Fault.shift : Except Fault α) := trivial

theorem nofuel_neg_int (x : Int) : NoFuel (neg_int x) := by
  unfold neg_int
  split <;> trivial

theorem nofuel_bind {α β : Type} {x : Except Fault α} {f : α → Except Fault β}
    (hx : NoFuel x) (hf : ∀ a, x = .ok a → NoFuel (f a)) : NoFuel (x >>= f) := by
  cases x with
  | error e =>
    cases e
    · trivial
    · trivial
    · exact hx.elim
    · trivial
  | ok a => exact hf a rfl

theorem nofuel_ite {α : Type} {c : Prop} [Decidable c] {x y : Except Fault α}
    (hx : c → NoFuel x) (hy : ¬ c → NoFuel y) : NoFuel (if c then x else y) := by
  split
  · exact hx ‹_›
  · exact hy ‹_›

theorem nofuel_rd (p : List Nat) (i : Int) : NoFuel (rd p i) := by
  unfold rd
  split
  · split
    · exact nofuel_ok _
    · exact nofuel_index
  · exact nofuel_index

theorem nofuel_wr (p : List Nat) (i : Int) (v : Nat) : NoFuel (wr p i v) := by
  unfold wr
  split
  · exact nofuel_ok _
  · exact nofuel_index

theorem nofuel_seg (p : List Nat) (off n : Int) : NoFuel (seg p off n) := by
  unfold seg
  split
  · exact nofuel_ok _
  · exact nofuel_index

theorem nofuel_put (p : List Nat) (off : Int) (s : List Nat) : NoFuel (put p off s) := by
  unfold put
  split
  · exact nofuel_ok _
  · exact nofuel_index

theorem nofuel_shl (W x : Nat) (n : Int) : NoFuel (shl W x n) := by
  unfold shl
  split
  · exact nofuel_ok _
  · exact nofuel_shift

theorem nofuel_shr (W x : Nat) (n : Int) : NoFuel (shr W x n) := by
  unfold shr
  split
  · exact nofuel_ok _
  · exact nofuel_shift

theorem nofuel_mpn_add_1 (W : Nat) (p : List Nat) (off n : Int) (x : Nat) :
    NoFuel (mpn_add_1 W p off n x) := by
  unfold mpn_add_1
  repeat' first
    | exact nofuel_pure _ | exact nofuel_seg _ _ _ | exact nofuel_put _ _ _
    | apply nofuel_bind | intro _ _

theorem nofuel_mpn_add_n (W : Nat) (p : List Nat) (off : Int) (q : List Nat) (qoff n : Int) :
    NoFuel (mpn_add_n W p off q qoff n) := by
  unfold mpn_add_n
  repeat' first
    | exact nofuel_pure _ | exact nofuel_seg _ _ _ | exact nofuel_put _ _ _
    | apply nofuel_bind | intro _ _

theorem nofuel_mpn_rshift (W : Nat) (p : List Nat) (off : Int) (q : List Nat)
    (qoff n cnt : Int) : NoFuel (mpn_rshift W p off q qoff n cnt) := by
  unfold mpn_rshift
  repeat' first
    | exact nofuel_pure _ | exact nofuel_seg _ _ _ | exact nofuel_put _ _ _
    | exact nofuel_shift
    | apply nofuel_bind | apply nofuel_ite | intro _ _ | intro _

theorem nofuel_mpn_lshift (W : Nat) (p : List Nat) (off : Int) (q : List Nat)
    (qoff n cnt : Int) : NoFuel (mpn_lshift W p off q qoff n cnt) := by
  unfold mpn_lshift
  repeat' first
    | exact nofuel_pure _ | exact nofuel_seg _ _ _ | exact nofuel_put _ _ _
    | exact nofuel_shift
    | apply nofuel_bind | apply nofuel_ite | intro _ _ | intro _

theorem nofuel_MPN_COPY (p : List Nat) (off : Int) (q : List Nat) (qoff n : Int) :
    NoFuel (MPN_COPY p off q qoff n) := by
  unfold MPN_COPY
  repeat' first
    | exact nofuel_pure _ | exact nofuel_seg _ _ _ | exact nofuel_put _ _ _
    | apply nofuel_bind | intro _ _

theorem nofuel_MPN_ZERO (p : List Nat) (off n : Int) : NoFuel (MPN_ZERO p off n) := by
  unfold MPN_ZERO
  split
  · exact nofuel_put _ _ _
  · exact nofuel_index

theorem nofuel_NOTZERO (W : Nat) (x : mpfr_t) : NoFuel (NOTZERO W x) := by
  unfold NOTZERO
  exact nofuel_rd _ _

theorem nofuel_loop121 (cp : List Nat) (top : Int) (n : Nat) (i : Int) (cc : Nat)
    (h : (top - i).toNat < n) : NoFuel (loop121 cp top n i cc) := by
  induction n generalizing i cc with
  | zero => omega
  | succ n ih =>
    unfold loop121
    apply nofuel_ite
    · intro hc
      apply nofuel_bind (nofuel_rd _ _)
      intro x _
      exact ih _ _ (by omega)
    · intro _
      exact nofuel_ok _

theorem nofuel_loopdown (bp : List Nat) (n : Nat) (k : Int) (x : Nat) (h : k.toNat < n) :
    NoFuel (loopdown bp n k x) := by
  induction n generalizing k x with
  | zero => omega
  | succ n ih =>
    unfold loopdown
    apply nofuel_ite
    · intro hc
      apply nofuel_bind (nofuel_rd _ _)
      intro y hy
      have := (rd_eq_ok hy).1
      exact ih _ _ (by omega)
    · intro _
      exact nofuel_ok _

theorem nofuel_loop296 (W : Nat) (bp cp : List Nat) (dif : Int) (n : Nat) (s : S296)
    (h : s.k.toNat < n) : NoFuel (loop296 W bp cp dif n s) := by
  induction n generalizing s with
  | zero => omega
  | succ n ih =>
    unfold loop296
    apply nofuel_ite
    · intro hc
      apply nofuel_bind (nofuel_rd _ _)
      intro x hx
      have := (rd_eq_ok hx).1
      apply nofuel_bind (nofuel_rd _ _)
      intro _ _
      apply nofuel_bind (nofuel_shl _ _ _)
      intro _ _
      apply nofuel_bind (nofuel_rd _ _)
      intro _ _
      apply nofuel_bind (nofuel_shr _ _ _)
      intro _ _
      apply ih
      dsimp only
      omega
    · intro _
      exact nofuel_ok _

theorem nofuel_loop164 (W : Nat) (bp cp : List Nat) (sh : Int) (n : Nat) (s : S164)
    (h : s.k.toNat + s.cn.toNat < n) : NoFuel (loop164 W bp cp sh n s) := by
  induction n generalizing s with
  | zero => omega
  | succ n ih =>
    unfold loop164
    apply nofuel_ite
    · intro hc
      have hk : NoFuel (if s.k ≠ 0 then rd bp (s.k - 1) else pure 0) :=
        nofuel_ite (fun _ => nofuel_rd _ _) (fun _ => nofuel_pure _)
      apply nofuel_bind hk
      intro cc hcc
      have hk1 : s.k ≠ 0 → 1 ≤ s.k := by
        intro hne
        rw [if_pos hne] at hcc
        have := (rd_eq_ok hcc).1
        omega
      apply nofuel_bind
      · apply nofuel_ite
        · intro _
          apply nofuel_bind (nofuel_shl _ _ _)
          intro _ _
          exact nofuel_pure _
        · intro _
          exact nofuel_pure _
      intro t _
      apply nofuel_bind (nofuel_shl _ _ _)
      intro c2 hc2
      have hd := (shl_eq_ok hc2).1
      apply nofuel_bind
      · apply nofuel_ite
        · intro _
          apply nofuel_bind (nofuel_rd _ _)
          intro _ _
          apply nofuel_bind (nofuel_shr _ _ _)
          intro _ _
          exact nofuel_pure _
        · intro _
          exact nofuel_pure _
      intro u hu
      apply ih
      dsimp only
      by_cases hcn : s.cn ≠ 0 ∧ 0 ≤ s.dif
      · rw [if_pos hcn] at hu
        simp only [bind_ok, pure, Except.pure, Except.ok.injEq] at hu
        obtain ⟨c2old, h1, t2, h2, h3⟩ := hu
        have := (rd_eq_ok h1).1
        subst h3
        dsimp only
        split <;> omega
      · rw [if_neg hcn] at hu
        simp only [pure, Except.pure, Except.ok.injEq] at hu
        subst hu
        dsimp only
        have hcn0 : s.cn = 0 := by
          by_contra hne
          exact hcn ⟨hne, hd⟩
        have hk0 : s.k ≠ 0 := by
          rcases hc.2 with h1 | h1
          · exact h1
          · exact absurd hcn0 h1
        rw [if_pos hk0]
        have := hk1 hk0
        omega
    · intro _
      exact nofuel_ok _

set_option linter.unusedTactic false
set_option linter.unreachableTactic false

theorem nofuel_far_copy_goto (W pa : Nat) (sh an : Int) (ap cp : List Nat) (pc : Nat)
    (nzc : List Nat → Except Fault Nat) (b : mpfr_t) (rnd : mp_rnd_t) (d : Int)
    (hz : ∀ q, NoFuel (nzc q)) :
    NoFuel (far_copy_goto W pa sh an ap cp pc nzc b rnd d) := by
  unfold far_copy_goto
  repeat' first
    | exact nofuel_pure _ | exact nofuel_ok _ | exact nofuel_index | exact nofuel_shift
    | exact nofuel_rd _ _ | exact nofuel_wr _ _ _ | exact nofuel_seg _ _ _
    | exact nofuel_put _ _ _ | exact nofuel_shl _ _ _ | exact nofuel_shr _ _ _
    | exact nofuel_mpn_add_1 _ _ _ _ _ | exact nofuel_mpn_add_n _ _ _ _ _ _
    | exact nofuel_mpn_rshift _ _ _ _ _ _ _ | exact nofuel_mpn_lshift _ _ _ _ _ _ _
    | exact nofuel_MPN_COPY _ _ _ _ _ | exact nofuel_MPN_ZERO _ _ _ | exact nofuel_NOTZERO _ _
    | exact hz _ | exact nofuel_loop121 _ _ _ _ _ (by omega) | apply nofuel_bind
    | apply nofuel_ite | intro _ _ | intro _ | split | dsimp only

theorem nofuel_far_copy_fill (an bn : Int) (ap bp : List Nat) :
    NoFuel (far_copy_fill an bn ap bp) := by
  unfold far_copy_fill
  repeat' first
    | exact nofuel_pure _ | exact nofuel_ok _ | exact nofuel_index | exact nofuel_shift
    | exact nofuel_rd _ _ | exact nofuel_wr _ _ _ | exact nofuel_seg _ _ _
    | exact nofuel_put _ _ _ | exact nofuel_shl _ _ _ | exact nofuel_shr _ _ _
    | exact nofuel_mpn_add_1 _ _ _ _ _ | exact nofuel_mpn_add_n _ _ _ _ _ _
    | exact nofuel_mpn_rshift _ _ _ _ _ _ _ | exact nofuel_mpn_lshift _ _ _ _ _ _ _
    | exact nofuel_MPN_COPY _ _ _ _ _ | exact nofuel_MPN_ZERO _ _ _ | exact nofuel_NOTZERO _ _
    | apply nofuel_bind | apply nofuel_ite | intro _ _ | intro _ | split | dsimp only

theorem nofuel_far_copy (W pa : Nat) (sh an bn : Int) (ap bp cp : List Nat) (pc : Nat)
    (nzc : List Nat → Except Fault Nat) (b : mpfr_t) (rnd : mp_rnd_t) (d : Int)
    (hz : ∀ q, NoFuel (nzc q)) :
    NoFuel (far_copy W pa sh an bn ap bp cp pc nzc b rnd d) := by
  unfold far_copy
  repeat' first
    | exact nofuel_pure _ | exact nofuel_ok _ | exact nofuel_index | exact nofuel_shift
    | exact nofuel_rd _ _ | exact nofuel_wr _ _ _ | exact nofuel_seg _ _ _
    | exact nofuel_put _ _ _ | exact nofuel_shl _ _ _ | exact nofuel_shr _ _ _
    | exact nofuel_mpn_add_1 _ _ _ _ _ | exact nofuel_mpn_add_n _ _ _ _ _ _
    | exact nofuel_mpn_rshift _ _ _ _ _ _ _ | exact nofuel_mpn_lshift _ _ _ _ _ _ _
    | exact nofuel_MPN_COPY _ _ _ _ _ | exact nofuel_MPN_ZERO _ _ _ | exact nofuel_NOTZERO _ _
    | exact nofuel_far_copy_fill _ _ _ _ | exact nofuel_far_copy_goto _ _ _ _ _ _ _ _ _ _ _ hz
    | apply nofuel_bind | apply nofuel_ite | intro _ _ | intro _ | split | dsimp only

theorem nofuel_take_low (W : Nat) (sh : Int) (ap : List Nat) :
    NoFuel (take_low W sh ap) := by
  unfold take_low
  repeat' first
    | exact nofuel_pure _ | exact nofuel_ok _ | exact nofuel_index | exact nofuel_shift
    | exact nofuel_rd _ _ | exact nofuel_wr _ _ _ | exact nofuel_seg _ _ _
    | exact nofuel_put _ _ _ | exact nofuel_shl _ _ _ | exact nofuel_shr _ _ _
    | exact nofuel_mpn_add_1 _ _ _ _ _ | exact nofuel_mpn_add_n _ _ _ _ _ _
    | exact nofuel_mpn_rshift _ _ _ _ _ _ _ | exact nofuel_mpn_lshift _ _ _ _ _ _ _
    | exact nofuel_MPN_COPY _ _ _ _ _ | exact nofuel_MPN_ZERO _ _ _ | exact nofuel_NOTZERO _ _
    | apply nofuel_bind | apply nofuel_ite | intro _ _ | intro _ | split | dsimp only

theorem nofuel_far_round_goto (W : Nat) (sh k cn dif : Int) (cc : Nat) (ap bp cp : List Nat)
    (b : mpfr_t) (rnd : mp_rnd_t) :
    NoFuel (far_round_goto W sh k cn dif cc ap bp cp b rnd) := by
  unfold far_round_goto
  repeat' first
    | exact nofuel_pure _ | exact nofuel_ok _ | exact nofuel_index | exact nofuel_shift
    | exact nofuel_rd _ _ | exact nofuel_wr _ _ _ | exact nofuel_seg _ _ _
    | exact nofuel_put _ _ _ | exact nofuel_shl _ _ _ | exact nofuel_shr _ _ _
    | exact nofuel_mpn_add_1 _ _ _ _ _ | exact nofuel_mpn_add_n _ _ _ _ _ _
    | exact nofuel_mpn_rshift _ _ _ _ _ _ _ | exact nofuel_mpn_lshift _ _ _ _ _ _ _
    | exact nofuel_MPN_COPY _ _ _ _ _ | exact nofuel_MPN_ZERO _ _ _ | exact nofuel_NOTZERO _ _
    | exact nofuel_loop164 _ _ _ _ _ _ (by dsimp only; omega) | apply nofuel_bind
    | apply nofuel_ite | intro _ _ | intro _ | split | dsimp only

theorem nofuel_far_round (W : Nat) (sh an bn cn dif : Int) (ap bp cp : List Nat)
    (b : mpfr_t) (rnd : mp_rnd_t) :
    NoFuel (far_round W sh an bn cn dif ap bp cp b rnd) := by
  unfold far_round
  repeat' first
    | exact nofuel_pure _ | exact nofuel_ok _ | exact nofuel_index | exact nofuel_shift
    | exact nofuel_rd _ _ | exact nofuel_wr _ _ _ | exact nofuel_seg _ _ _
    | exact nofuel_put _ _ _ | exact nofuel_shl _ _ _ | exact nofuel_shr _ _ _
    | exact nofuel_mpn_add_1 _ _ _ _ _ | exact nofuel_mpn_add_n _ _ _ _ _ _
    | exact nofuel_mpn_rshift _ _ _ _ _ _ _ | exact nofuel_mpn_lshift _ _ _ _ _ _ _
    | exact nofuel_MPN_COPY _ _ _ _ _ | exact nofuel_MPN_ZERO _ _ _ | exact nofuel_NOTZERO _ _
    | exact nofuel_take_low _ _ _ | exact nofuel_far_round_goto _ _ _ _ _ _ _ _ _ _ _
    | apply nofuel_bind | apply nofuel_ite | intro _ _ | intro _ | split | dsimp only

theorem nofuel_near_shift_trunc (W : Nat) (sh cn k dif : Int) (ap cp : List Nat) :
    NoFuel (near_shift_trunc W sh cn k dif ap cp) := by
  unfold near_shift_trunc
  repeat' first
    | exact nofuel_pure _ | exact nofuel_ok _ | exact nofuel_index | exact nofuel_shift
    | exact nofuel_rd _ _ | exact nofuel_wr _ _ _ | exact nofuel_seg _ _ _
    | exact nofuel_put _ _ _ | exact nofuel_shl _ _ _ | exact nofuel_shr _ _ _
    | exact nofuel_mpn_add_1 _ _ _ _ _ | exact nofuel_mpn_add_n _ _ _ _ _ _
    | exact nofuel_mpn_rshift _ _ _ _ _ _ _ | exact nofuel_mpn_lshift _ _ _ _ _ _ _
    | exact nofuel_MPN_COPY _ _ _ _ _ | exact nofuel_MPN_ZERO _ _ _ | exact nofuel_NOTZERO _ _
    | apply nofuel_bind | apply nofuel_ite | intro _ _ | intro _ | split | dsimp only

theorem nofuel_near_shift_full (W : Nat) (an cn d : Int) (ap cp : List Nat) :
    NoFuel (near_shift_full W an cn d ap cp) := by
  unfold near_shift_full
  repeat' first
    | exact nofuel_pure _ | exact nofuel_ok _ | exact nofuel_index | exact nofuel_shift
    | exact nofuel_rd _ _ | exact nofuel_wr _ _ _ | exact nofuel_seg _ _ _
    | exact nofuel_put _ _ _ | exact nofuel_shl _ _ _ | exact nofuel_shr _ _ _
    | exact nofuel_mpn_add_1 _ _ _ _ _ | exact nofuel_mpn_add_n _ _ _ _ _ _
    | exact nofuel_mpn_rshift _ _ _ _ _ _ _ | exact nofuel_mpn_lshift _ _ _ _ _ _ _
    | exact nofuel_MPN_COPY _ _ _ _ _ | exact nofuel_MPN_ZERO _ _ _ | exact nofuel_NOTZERO _ _
    | apply nofuel_bind | apply nofuel_ite | intro _ _ | intro _ | split | dsimp only

theorem nofuel_near_shift (W pc : Nat) (sh an cn dif d : Int) (ap cp : List Nat) :
    NoFuel (near_shift W pc sh an cn dif d ap cp) := by
  unfold near_shift
  repeat' first
    | exact nofuel_pure _ | exact nofuel_ok _ | exact nofuel_index | exact nofuel_shift
    | exact nofuel_rd _ _ | exact nofuel_wr _ _ _ | exact nofuel_seg _ _ _
    | exact nofuel_put _ _ _ | exact nofuel_shl _ _ _ | exact nofuel_shr _ _ _
    | exact nofuel_mpn_add_1 _ _ _ _ _ | exact nofuel_mpn_add_n _ _ _ _ _ _
    | exact nofuel_mpn_rshift _ _ _ _ _ _ _ | exact nofuel_mpn_lshift _ _ _ _ _ _ _
    | exact nofuel_MPN_COPY _ _ _ _ _ | exact nofuel_MPN_ZERO _ _ _ | exact nofuel_NOTZERO _ _
    | exact nofuel_near_shift_trunc _ _ _ _ _ _ _ | exact nofuel_near_shift_full _ _ _ _ _ _
    | apply nofuel_bind | apply nofuel_ite | intro _ _ | intro _ | split | dsimp only

theorem nofuel_near_add (W pa pb : Nat) (an bn : Int) (ap bp : List Nat) (overlap : Nat) :
    NoFuel (near_add W pa pb an bn ap bp overlap) := by
  unfold near_add
  repeat' first
    | exact nofuel_pure _ | exact nofuel_ok _ | exact nofuel_index | exact nofuel_shift
    | exact nofuel_rd _ _ | exact nofuel_wr _ _ _ | exact nofuel_seg _ _ _
    | exact nofuel_put _ _ _ | exact nofuel_shl _ _ _ | exact nofuel_shr _ _ _
    | exact nofuel_mpn_add_1 _ _ _ _ _ | exact nofuel_mpn_add_n _ _ _ _ _ _
    | exact nofuel_mpn_rshift _ _ _ _ _ _ _ | exact nofuel_mpn_lshift _ _ _ _ _ _ _
    | exact nofuel_MPN_COPY _ _ _ _ _ | exact nofuel_MPN_ZERO _ _ _ | exact nofuel_NOTZERO _ _
    | apply nofuel_bind | apply nofuel_ite | intro _ _ | intro _ | split | dsimp only

theorem nofuel_near_case1_goto (W : Nat) (sh an bn cn k dif : Int) (cc : Nat) (ap bp cp : List Nat)
    (rnd : mp_rnd_t) :
    NoFuel (near_case1_goto W sh an bn cn k dif cc ap bp cp rnd) := by
  unfold near_case1_goto
  repeat' first
    | exact nofuel_pure _ | exact nofuel_ok _ | exact nofuel_index | exact nofuel_shift
    | exact nofuel_rd _ _ | exact nofuel_wr _ _ _ | exact nofuel_seg _ _ _
    | exact nofuel_put _ _ _ | exact nofuel_shl _ _ _ | exact nofuel_shr _ _ _
    | exact nofuel_mpn_add_1 _ _ _ _ _ | exact nofuel_mpn_add_n _ _ _ _ _ _
    | exact nofuel_mpn_rshift _ _ _ _ _ _ _ | exact nofuel_mpn_lshift _ _ _ _ _ _ _
    | exact nofuel_MPN_COPY _ _ _ _ _ | exact nofuel_MPN_ZERO _ _ _ | exact nofuel_NOTZERO _ _
    | exact nofuel_loop296 _ _ _ _ _ _ (by dsimp only; omega)
    | exact nofuel_loopdown _ _ _ _ (by omega) | apply nofuel_bind | apply nofuel_ite | intro _ _
    | intro _ | split | dsimp only

theorem nofuel_near_case1 (W : Nat) (sh an bn cn k dif : Int) (ap bp cp : List Nat)
    (rnd : mp_rnd_t) :
    NoFuel (near_case1 W sh an bn cn k dif ap bp cp rnd) := by
  unfold near_case1
  repeat' first
    | exact nofuel_pure _ | exact nofuel_ok _ | exact nofuel_index | exact nofuel_shift
    | exact nofuel_rd _ _ | exact nofuel_wr _ _ _ | exact nofuel_seg _ _ _
    | exact nofuel_put _ _ _ | exact nofuel_shl _ _ _ | exact nofuel_shr _ _ _
    | exact nofuel_mpn_add_1 _ _ _ _ _ | exact nofuel_mpn_add_n _ _ _ _ _ _
    | exact nofuel_mpn_rshift _ _ _ _ _ _ _ | exact nofuel_mpn_lshift _ _ _ _ _ _ _
    | exact nofuel_MPN_COPY _ _ _ _ _ | exact nofuel_MPN_ZERO _ _ _ | exact nofuel_NOTZERO _ _
    | exact nofuel_take_low _ _ _ | exact nofuel_near_case1_goto _ _ _ _ _ _ _ _ _ _ _ _
    | apply nofuel_bind | apply nofuel_ite | intro _ _ | intro _ | split | dsimp only

theorem nofuel_near_round (W : Nat) (sh an bn cn k dif : Int) (ap bp cp : List Nat) (overlap : Nat)
    (b : mpfr_t) (rnd : mp_rnd_t) :
    NoFuel (near_round W sh an bn cn k dif ap bp cp overlap b rnd) := by
  unfold near_round
  repeat' first
    | exact nofuel_pure _ | exact nofuel_ok _ | exact nofuel_index | exact nofuel_shift
    | exact nofuel_rd _ _ | exact nofuel_wr _ _ _ | exact nofuel_seg _ _ _
    | exact nofuel_put _ _ _ | exact nofuel_shl _ _ _ | exact nofuel_shr _ _ _
    | exact nofuel_mpn_add_1 _ _ _ _ _ | exact nofuel_mpn_add_n _ _ _ _ _ _
    | exact nofuel_mpn_rshift _ _ _ _ _ _ _ | exact nofuel_mpn_lshift _ _ _ _ _ _ _
    | exact nofuel_MPN_COPY _ _ _ _ _ | exact nofuel_MPN_ZERO _ _ _ | exact nofuel_NOTZERO _ _
    | exact nofuel_near_case1 _ _ _ _ _ _ _ _ _ _ _ | apply nofuel_bind | apply nofuel_ite
    | intro _ _ | intro _ | split | dsimp only

theorem nofuel_near (W pa pb pc : Nat) (sh an bn cn dif d : Int) (ap bp cp : List Nat)
    (b : mpfr_t) (rnd : mp_rnd_t) :
    NoFuel (near W pa pb pc sh an bn cn dif d ap bp cp b rnd) := by
  unfold near
  repeat' first
    | exact nofuel_pure _ | exact nofuel_ok _ | exact nofuel_index | exact nofuel_shift
    | exact nofuel_rd _ _ | exact nofuel_wr _ _ _ | exact nofuel_seg _ _ _
    | exact nofuel_put _ _ _ | exact nofuel_shl _ _ _ | exact nofuel_shr _ _ _
    | exact nofuel_mpn_add_1 _ _ _ _ _ | exact nofuel_mpn_add_n _ _ _ _ _ _
    | exact nofuel_mpn_rshift _ _ _ _ _ _ _ | exact nofuel_mpn_lshift _ _ _ _ _ _ _
    | exact nofuel_MPN_COPY _ _ _ _ _ | exact nofuel_MPN_ZERO _ _ _ | exact nofuel_NOTZERO _ _
    | exact nofuel_near_shift _ _ _ _ _ _ _ _ _ | exact nofuel_near_add _ _ _ _ _ _ _ _
    | exact nofuel_near_round _ _ _ _ _ _ _ _ _ _ _ _ _ | apply nofuel_bind | apply nofuel_ite
    | intro _ _ | intro _ | split | dsimp only

theorem nofuel_to_nearest_fetch (W : Nat) (sh : Int) (c3 : Nat) (ap bp : List Nat) (k : Int)
    (rnd : mp_rnd_t) :
    NoFuel (to_nearest_fetch W sh c3 ap bp k rnd) := by
  unfold to_nearest_fetch
  repeat' first
    | exact nofuel_pure _ | exact nofuel_ok _ | exact nofuel_index | exact nofuel_shift
    | exact nofuel_rd _ _ | exact nofuel_wr _ _ _ | exact nofuel_seg _ _ _
    | exact nofuel_put _ _ _ | exact nofuel_shl _ _ _ | exact nofuel_shr _ _ _
    | exact nofuel_mpn_add_1 _ _ _ _ _ | exact nofuel_mpn_add_n _ _ _ _ _ _
    | exact nofuel_mpn_rshift _ _ _ _ _ _ _ | exact nofuel_mpn_lshift _ _ _ _ _ _ _
    | exact nofuel_MPN_COPY _ _ _ _ _ | exact nofuel_MPN_ZERO _ _ _ | exact nofuel_NOTZERO _ _
    | exact nofuel_take_low _ _ _ | apply nofuel_bind | apply nofuel_ite | intro _ _ | intro _
    | split | dsimp only

theorem nofuel_to_nearest_goto (W : Nat) (sh : Int) (cc c2 : Nat) (ap bp : List Nat) (bn k dif : Int)
    (rnd : mp_rnd_t) :
    NoFuel (to_nearest_goto W sh cc c2 ap bp bn k dif rnd) := by
  unfold to_nearest_goto
  repeat' first
    | exact nofuel_pure _ | exact nofuel_ok _ | exact nofuel_index | exact nofuel_shift
    | exact nofuel_rd _ _ | exact nofuel_wr _ _ _ | exact nofuel_seg _ _ _
    | exact nofuel_put _ _ _ | exact nofuel_shl _ _ _ | exact nofuel_shr _ _ _
    | exact nofuel_mpn_add_1 _ _ _ _ _ | exact nofuel_mpn_add_n _ _ _ _ _ _
    | exact nofuel_mpn_rshift _ _ _ _ _ _ _ | exact nofuel_mpn_lshift _ _ _ _ _ _ _
    | exact nofuel_MPN_COPY _ _ _ _ _ | exact nofuel_MPN_ZERO _ _ _ | exact nofuel_NOTZERO _ _
    | exact nofuel_loopdown _ _ _ _ (by omega) | apply nofuel_bind | apply nofuel_ite | intro _ _
    | intro _ | split | dsimp only

theorem nofuel_to_nearest (W : Nat) (sh : Int) (c3 : Nat) (ap bp : List Nat) (bn k dif : Int)
    (rnd : mp_rnd_t) :
    NoFuel (to_nearest W sh c3 ap bp bn k dif rnd) := by
  unfold to_nearest
  repeat' first
    | exact nofuel_pure _ | exact nofuel_ok _ | exact nofuel_index | exact nofuel_shift
    | exact nofuel_rd _ _ | exact nofuel_wr _ _ _ | exact nofuel_seg _ _ _
    | exact nofuel_put _ _ _ | exact nofuel_shl _ _ _ | exact nofuel_shr _ _ _
    | exact nofuel_mpn_add_1 _ _ _ _ _ | exact nofuel_mpn_add_n _ _ _ _ _ _
    | exact nofuel_mpn_rshift _ _ _ _ _ _ _ | exact nofuel_mpn_lshift _ _ _ _ _ _ _
    | exact nofuel_MPN_COPY _ _ _ _ _ | exact nofuel_MPN_ZERO _ _ _ | exact nofuel_NOTZERO _ _
    | exact nofuel_to_nearest_fetch _ _ _ _ _ _ _
    | exact nofuel_to_nearest_goto _ _ _ _ _ _ _ _ _ _ | apply nofuel_bind | apply nofuel_ite
    | intro _ _ | intro _ | split | dsimp only

theorem nofuel_add_one_ulp (W : Nat) (sh an : Int) (ap : List Nat) :
    NoFuel (add_one_ulp W sh an ap) := by
  unfold add_one_ulp
  repeat' first
    | exact nofuel_pure _ | exact nofuel_ok _ | exact nofuel_index | exact nofuel_shift
    | exact nofuel_rd _ _ | exact nofuel_wr _ _ _ | exact nofuel_seg _ _ _
    | exact nofuel_put _ _ _ | exact nofuel_shl _ _ _ | exact nofuel_shr _ _ _
    | exact nofuel_mpn_add_1 _ _ _ _ _ | exact nofuel_mpn_add_n _ _ _ _ _ _
    | exact nofuel_mpn_rshift _ _ _ _ _ _ _ | exact nofuel_mpn_lshift _ _ _ _ _ _ _
    | exact nofuel_MPN_COPY _ _ _ _ _ | exact nofuel_MPN_ZERO _ _ _ | exact nofuel_NOTZERO _ _
    | apply nofuel_bind | apply nofuel_ite | intro _ _ | intro _ | split | dsimp only

theorem nofuel_add1_finish (W : Nat) (sh an : Int) (c3 : Nat) (ap : List Nat) (g : Goto)
    (rnd : mp_rnd_t) :
    NoFuel (add1_finish W sh an c3 ap g rnd) := by
  unfold add1_finish
  repeat' first
    | exact nofuel_pure _ | exact nofuel_ok _ | exact nofuel_index | exact nofuel_shift
    | exact nofuel_rd _ _ | exact nofuel_wr _ _ _ | exact nofuel_seg _ _ _
    | exact nofuel_put _ _ _ | exact nofuel_shl _ _ _ | exact nofuel_shr _ _ _
    | exact nofuel_mpn_add_1 _ _ _ _ _ | exact nofuel_mpn_add_n _ _ _ _ _ _
    | exact nofuel_mpn_rshift _ _ _ _ _ _ _ | exact nofuel_mpn_lshift _ _ _ _ _ _ _
    | exact nofuel_MPN_COPY _ _ _ _ _ | exact nofuel_MPN_ZERO _ _ _ | exact nofuel_NOTZERO _ _
    | exact nofuel_to_nearest _ _ _ _ _ _ _ _ _ | exact nofuel_add_one_ulp _ _ _ _
    | apply nofuel_bind | apply nofuel_ite | intro _ _ | intro _ | split | dsimp only

theorem nofuel_add1_core (W pa pb pc : Nat) (ap bp cp : List Nat)
    (nzc : List Nat → Except Fault Nat) (b : mpfr_t) (rnd : mp_rnd_t) (d : Int)
    (hz : ∀ q, NoFuel (nzc q)) :
    NoFuel (add1_core W pa pb pc ap bp cp nzc b rnd d) := by
  unfold add1_core
  repeat' first
    | exact nofuel_pure _ | exact nofuel_ok _ | exact nofuel_index | exact nofuel_shift
    | exact nofuel_rd _ _ | exact nofuel_wr _ _ _ | exact nofuel_seg _ _ _
    | exact nofuel_put _ _ _ | exact nofuel_shl _ _ _ | exact nofuel_shr _ _ _
    | exact nofuel_mpn_add_1 _ _ _ _ _ | exact nofuel_mpn_add_n _ _ _ _ _ _
    | exact nofuel_mpn_rshift _ _ _ _ _ _ _ | exact nofuel_mpn_lshift _ _ _ _ _ _ _
    | exact nofuel_MPN_COPY _ _ _ _ _ | exact nofuel_MPN_ZERO _ _ _ | exact nofuel_NOTZERO _ _
    | exact nofuel_far_copy _ _ _ _ _ _ _ _ _ _ _ _ _ hz
    | exact nofuel_far_round _ _ _ _ _ _ _ _ _ _ _
    | exact nofuel_near _ _ _ _ _ _ _ _ _ _ _ _ _ _ _ | exact nofuel_add1_finish _ _ _ _ _ _ _
    | apply nofuel_bind | apply nofuel_ite | intro _ _ | intro _ | split | dsimp only

theorem nofuel_nzc_of (W : Nat) (h : Heap) (a c : Ptr) (q : List Nat) :
    NoFuel (nzc_of W h a c q) := by
  unfold nzc_of
  exact nofuel_NOTZERO _ _

theorem nofuel_add1_limbs (W : Nat) (h : Heap) (a b c : Ptr) (rnd : mp_rnd_t) (d : Int) :
    NoFuel (add1_limbs W h a b c rnd d) := by
  rw [add1_limbs_eq_core]
  exact nofuel_add1_core _ _ _ _ _ _ _ _ _ _ _ (nofuel_nzc_of _ _ _ _)

theorem nofuel_mpfr_add1 (W : Nat) (h : Heap) (a b c : Ptr) (rnd : mp_rnd_t) (d : Int) :
    NoFuel (mpfr_add1 W h a b c rnd d) := by
  unfold mpfr_add1
  dsimp only
  apply nofuel_bind (nofuel_add1_limbs _ _ _ _ _ _ _)
  intro _ _
  exact nofuel_pure _

/-- A run of `mpfr_add` never stops for lack of loop fuel: the loop bounds of the model are
large enough, so a run that does not end has met an operation that is undefined in C. -/
theorem nofuel_mpfr_add (W : Nat) (X : Callees) (h : Heap) (a b c : Ptr) (rnd : mp_rnd_t) :
    NoFuel (mpfr_add W X h a b c rnd) := by
  unfold mpfr_add
  repeat' first
    | exact nofuel_pure _ | exact nofuel_ok _ | exact nofuel_index | exact nofuel_shift
    | exact nofuel_rd _ _ | exact nofuel_wr _ _ _ | exact nofuel_seg _ _ _
    | exact nofuel_put _ _ _ | exact nofuel_shl _ _ _ | exact nofuel_shr _ _ _
    | exact nofuel_mpn_add_1 _ _ _ _ _ | exact nofuel_mpn_add_n _ _ _ _ _ _
    | exact nofuel_mpn_rshift _ _ _ _ _ _ _ | exact nofuel_mpn_lshift _ _ _ _ _ _ _
    | exact nofuel_MPN_COPY _ _ _ _ _ | exact nofuel_MPN_ZERO _ _ _ | exact nofuel_NOTZERO _ _
    | exact nofuel_mpfr_add1 _ _ _ _ _ _ _ | exact nofuel_neg_int _ | apply nofuel_bind
    | apply nofuel_ite | intro _ _ | intro _ | split | dsimp only

set_option linter.unusedTactic true
set_option linter.unreachableTactic true

/-! ## Evaluation of `mpfr_add` on concrete operands -/

/-- C1 (evaluation): under round-toward-zero at precision 1, `3/4 + 3/8 = 9/8` gives `1/2`,
which is not `9/8` rounded toward zero to one bit (that is `1`). -/
theorem C1_misrounded_toward_zero (X : Callees) :
    res (mpfr_add 64 X (heap3 c1_a c1_b c1_c) 0 1 2 GMP_RNDZ) 0 = some c1_r ∧
      ¬ IsRounding GMP_RNDZ 1 (value 64 c1_b + value 64 c1_c) (value 64 c1_r) := by
  refine ⟨rfl, ?_⟩
  have hb : value 64 c1_b = 3 / 4 := by norm_num [value, c1_b, limbsVal, nlimbs, MPFR_SIGN]
  have hc : value 64 c1_c = 3 / 8 := by norm_num [value, c1_c, limbsVal, nlimbs, MPFR_SIGN]
  have hr : value 64 c1_r = 1 / 2 := by norm_num [value, c1_r, limbsVal, nlimbs, MPFR_SIGN]
  rw [hb, hc, hr]
  intro h
  have h1 := h.2.2.2 1 ⟨1, 0, by norm_num, by norm_num⟩
    (by rw [abs_of_pos, abs_of_pos] <;> norm_num)
  rw [abs_of_pos (by norm_num), abs_of_pos (by norm_num)] at h1
  norm_num at h1

/-- C2 (evaluation): under round-to-nearest at precision 64, `1 + 2 ^ (-64)` lies exactly
halfway between the neighbours `1` (last bit 0) and `1 + 2 ^ (-63)` (last bit 1), and
`mpfr_add` returns the neighbour whose last bit is 1. -/
theorem C2_tie_rounds_to_odd (X : Callees) :
    res (mpfr_add 64 X (heap3 c2_a c2_b c2_c) 0 1 2 GMP_RNDN) 0 = some c2_r ∧
      value 64 c2_b + value 64 c2_c = (value 64 c2_b + value 64 c2_r) / 2 ∧
      lastBit 64 c2_b = 0 ∧ lastBit 64 c2_r = 1 := by
  refine ⟨rfl, ?_, ?_, ?_⟩
  · norm_num [value, c2_b, c2_c, c2_r, limbsVal, nlimbs, MPFR_SIGN]
  · norm_num [lastBit, c2_b, limbsVal, nlimbs]
  · norm_num [lastBit, c2_r, limbsVal, nlimbs]

/-- C3 (evaluation): `3/4 + 1/4 = 1` is representable with one bit, yet under
round-toward-zero at precision 1 `mpfr_add` stores the regular value `1/2`: the branch of
lines 138-190 copies `b` truncated to one bit and drops the carry of the discarded bits. -/
theorem C3_exact_sum_not_stored :
    (fun X : Callees => res (mpfr_add 64 X (heap3 c1_a c1_b c3_c) 0 1 2 GMP_RNDZ) 0)
        = (fun _ => some c1_r) ∧
      Regular 64 c1_b ∧ Regular 64 c3_c ∧ c1_b.neg = c3_c.neg ∧
      Representable 1 (value 64 c1_b + value 64 c3_c) ∧
      FLAG_NAN c1_r = false ∧
      value 64 c1_r ≠ value 64 c1_b + value 64 c3_c := by
  refine ⟨rfl, ⟨rfl, 13835058055282163712, rfl, by decide⟩,
    ⟨rfl, 9223372036854775808, rfl, by decide⟩, rfl, ⟨1, 0, by norm_num, ?_⟩, rfl, ?_⟩
  · norm_num [value, c1_b, c3_c, limbsVal, nlimbs, MPFR_SIGN]
  · norm_num [value, c1_b, c3_c, c1_r, limbsVal, nlimbs, MPFR_SIGN]

/-- C8 (evaluation): with destination precision 64 and round-toward-plus-infinity, the
operands `(1/2 + 2 ^ (-64), 1/2)` give `1 + 2 ^ (-63)` when the first operand has precision
65 and `1` when it has precision 64: equal operands, a strictly smaller result. -/
theorem C8_not_monotone (X : Callees) :
    value 64 c8_x1 ≤ value 64 c8_x2 ∧ value 64 c8_y ≤ value 64 c8_y ∧
      res (mpfr_add 64 X (heap3 c2_a c8_x1 c8_y) 0 1 2 GMP_RNDU) 0 = some c2_r ∧
      res (mpfr_add 64 X (heap3 c2_a c8_x2 c8_y) 0 1 2 GMP_RNDU) 0 = some c8_r2 ∧
      value 64 c8_r2 < value 64 c2_r := by
  refine ⟨?_, le_refl _, rfl, rfl, ?_⟩
  · norm_num [value, c8_x1, c8_x2, limbsVal, nlimbs, MPFR_SIGN]
  · norm_num [value, c8_r2, c2_r, limbsVal, nlimbs, MPFR_SIGN]

/-! ## Dispatch of `mpfr_add` -/

/-- C5: if `b` or `c` is NaN, `mpfr_add` sets `dst` to NaN, whatever the other operand and
the rounding mode are. -/
theorem C5_nan_operand (W : Nat) (X : Callees) (h : Heap) (a b c : Ptr) (rnd : mp_rnd_t)
    (hn : FLAG_NAN (h b) = true ∨ FLAG_NAN (h c) = true) :
    mpfr_add W X h a b c rnd = .ok (h.set a (SET_NAN (h a))) ∧
      FLAG_NAN ((h.set a (SET_NAN (h a))) a) = true := by
  constructor
  · simp [mpfr_add, hn, pure, Except.pure]
  · simp [Heap.set, SET_NAN, FLAG_NAN]

/-- C5 (witness): a NaN first operand and a regular second operand. -/
theorem C5_nan_operand_witness :
    (fun X : Callees => res (mpfr_add 64 X (heap3 c1_a c5_nan c7_b) 0 1 2 GMP_RNDN) 0)
      = (fun _ => some (SET_NAN c1_a)) := by
  funext X
  have h := (C5_nan_operand 64 X (heap3 c1_a c5_nan c7_b) 0 1 2 GMP_RNDN (Or.inl rfl)).1
  rw [h]
  rfl

/-- C6: if `b` is a zero and `c` is not NaN, `mpfr_add (dst, b, c, rnd)` is
`mpfr_set (dst, c, rnd)`; if `c` is a zero and `b` is regular, it is `mpfr_set (dst, b, rnd)`. -/
theorem C6_zero_operand (W : Nat) (X : Callees) (h : Heap) (a b c : Ptr) (rnd : mp_rnd_t) :
    (IsZero W (h b) → FLAG_NAN (h c) = false →
        mpfr_add W X h a b c rnd = .ok (X.mpfr_set h a c rnd)) ∧
      (IsZero W (h c) → Regular W (h b) →
        mpfr_add W X h a b c rnd = .ok (X.mpfr_set h a b rnd)) := by
  constructor
  · rintro ⟨nb, zb⟩ nc
    simp [mpfr_add, nb, nc, zb, bind, Except.bind, pure, Except.pure]
  · rintro ⟨nc, zc⟩ ⟨nb, z, hz, hz0⟩
    simp [mpfr_add, nb, nc, zc, hz, hz0, bind, Except.bind, pure, Except.pure]

/-- C6 (witness): `0 + 1` and `1 + 0` at 64-bit limbs. -/
theorem C6_zero_operand_witness :
    (fun X : Callees => mpfr_add 64 X (heap3 c1_a c6_zero c7_b) 0 1 2 GMP_RNDN)
        = (fun X => .ok (X.mpfr_set (heap3 c1_a c6_zero c7_b) 0 2 GMP_RNDN)) ∧
      (fun X : Callees => mpfr_add 64 X (heap3 c1_a c7_b c6_zero) 0 1 2 GMP_RNDN)
        = (fun X => .ok (X.mpfr_set (heap3 c1_a c7_b c6_zero) 0 1 GMP_RNDN)) :=
  ⟨funext fun X =>
      (C6_zero_operand 64 X (heap3 c1_a c6_zero c7_b) 0 1 2 GMP_RNDN).1 ⟨rfl, rfl⟩ rfl,
    funext fun X =>
      (C6_zero_operand 64 X (heap3 c1_a c7_b c6_zero) 0 1 2 GMP_RNDN).2 ⟨rfl, rfl⟩
        ⟨rfl, 9223372036854775808, rfl, by decide⟩⟩

/-- C7 (counterexample): for `b = 1` and `c = -1` no choice of the external functions makes
the sign of the result `+` under round-to-nearest and `-` under round-toward-minus-infinity:
both runs leave the same object in `dst`. -/
theorem C7_zero_sign_ignores_rounding :
    ¬ ∃ X : Callees,
      (∃ r, res (mpfr_add 64 X (heap3 c1_a c7_b c7_c) 0 1 2 GMP_RNDN) 0 = some r ∧
        MPFR_SIGN r = 1) ∧
      (∃ r, res (mpfr_add 64 X (heap3 c1_a c7_b c7_c) 0 1 2 GMP_RNDD) 0 = some r ∧
        MPFR_SIGN r = -1) := by
  rintro ⟨X, ⟨r1, h1, s1⟩, ⟨r2, h2, s2⟩⟩
  have e1 : res (mpfr_add 64 X (heap3 c1_a c7_b c7_c) 0 1 2 GMP_RNDN) 0
      = some (X.SET_ZERO c1_a) := rfl
  have e2 : res (mpfr_add 64 X (heap3 c1_a c7_b c7_c) 0 1 2 GMP_RNDD) 0
      = some (X.SET_ZERO c1_a) := rfl
  rw [e1] at h1
  rw [e2] at h2
  have h12 : r1 = r2 := by
    injection h1 with h1
    injection h2 with h2
    rw [← h1, ← h2]
  rw [h12, s2] at s1
  exact absurd s1 (by decide)

/-! ## Sign of the result -/

theorem mpfr_add1_neg (W : Nat) (h h' : Heap) (a b c : Ptr) (rnd : mp_rnd_t) (d : Int)
    (hr : mpfr_add1 W h a b c rnd d = .ok h') : (h' a).neg = (h b).neg := by
  unfold mpfr_add1 at hr
  simp only [bind_ok] at hr
  obtain ⟨r, -, hr⟩ := hr
  simp only [pure, Except.pure, Except.ok.injEq] at hr
  subst hr
  simp [Heap.set, add1_header_neg]

/-- For regular operands of the same sign, a run of `mpfr_add` that ends leaves that sign
in `dst`. -/
theorem mpfr_add_sign (W : Nat) (X : Callees) (h h' : Heap) (a b c : Ptr) (rnd : mp_rnd_t)
    (hb : Regular W (h b)) (hc : Regular W (h c)) (hs : (h b).neg = (h c).neg)
    (hr : mpfr_add W X h a b c rnd = .ok h') :
    MPFR_SIGN (h' a) = MPFR_SIGN (h b) ∧ MPFR_SIGN (h' a) = MPFR_SIGN (h c) := by
  rw [mpfr_add_same_sign W X h a b c rnd hb hc hs] at hr
  have hn : (h' a).neg = (h b).neg := by
    split at hr
    · split at hr
      · cases hr
      · rw [mpfr_add1_neg W h h' a c b rnd _ hr, hs]
    · exact mpfr_add1_neg W h h' a b c rnd _ hr
  unfold MPFR_SIGN
  rw [hn, hs]
  exact ⟨rfl, rfl⟩



/-! ## Evaluation of `mpfr_add` on concrete operands: padding and directed rounding -/

/-- C11 (evaluation): under round-to-nearest at precision 2, `3/4 + 1/2` leaves the limb
`0.101b` in `dst`: the third bit, below the precision, is 1.  Both operands satisfy the
representation invariants. -/
theorem C11_padding_bit_left (X : Callees) :
    WF 64 c1_b ∧ WF 64 c8_y ∧
      res (mpfr_add 64 X (heap3 c11_a c1_b c8_y) 0 1 2 GMP_RNDN) 0 = some c11_r ∧
      limbsVal 64 c11_r.mant % 2 ^ ((nlimbs 64 c11_r).toNat * 64 - c11_r.prec) ≠ 0 := by
  refine ⟨?_, ?_, rfl, by decide⟩
  · exact ⟨by decide, rfl, allLt_one (by decide),
      ⟨13835058055282163712, rfl, by decide, by decide⟩, by decide⟩
  · exact ⟨by decide, rfl, allLt_one (by decide),
      ⟨9223372036854775808, rfl, by decide, by decide⟩, by decide⟩

/-- C18 (evaluation): under round-toward-plus-infinity at precision 1, `3/4 + 3/8 = 9/8`
gives `1`, which is below the exact sum. -/
theorem C18_round_up_below_sum (X : Callees) :
    res (mpfr_add 64 X (heap3 c1_a c1_b c1_c) 0 1 2 GMP_RNDU) 0 = some c7_b ∧
      value 64 c7_b < value 64 c1_b + value 64 c1_c := by
  refine ⟨rfl, ?_⟩
  norm_num [value, c1_b, c1_c, c7_b, limbsVal, nlimbs, MPFR_SIGN]

/-! ## Singular inputs of `mpfr_sgn` and `mpfr_cosh` -/

theorem sentinel_cases (x : mpfr_struct) :
    (MPFR_IS_NAN x = true → MPFR_IS_SINGULAR x = true ∧ MPFR_IS_ZERO x = false ∧
      MPFR_IS_INF x = false) ∧
    (MPFR_IS_INF x = true → MPFR_IS_SINGULAR x = true ∧ MPFR_IS_ZERO x = false ∧
      MPFR_IS_NAN x = false) ∧
    (MPFR_IS_ZERO x = true → MPFR_IS_SINGULAR x = true ∧ MPFR_IS_NAN x = false ∧
      MPFR_IS_INF x = false) := by
  simp only [MPFR_IS_NAN, MPFR_IS_INF, MPFR_IS_ZERO, MPFR_IS_SINGULAR, MPFR_EXP_NAN,
    MPFR_EXP_INF, MPFR_EXP_ZERO, decide_eq_true_eq, decide_eq_false_iff_not]
  refine ⟨fun h => ?_, fun h => ?_, fun h => ?_⟩ <;> rw [h] <;> norm_num

/-- C15: `mpfr_sgn` returns 0 exactly when its argument is a zero or a NaN; it raises the
erange flag in the NaN case and leaves the global state as it is in every other case; for
every other value, infinities included, the result is positive when the sign is `+` and
negative when it is `-`.  The sign field is `+1` or `-1`. -/
theorem C15_sgn (G : Globals) (a : mpfr_struct) (hs : a.sign = 1 ∨ a.sign = -1) :
    ((mpfr_sgn G a).1 = 0 ↔ (MPFR_IS_ZERO a = true ∨ MPFR_IS_NAN a = true)) ∧
      (mpfr_sgn G a).2 = (if MPFR_IS_NAN a then MPFR_SET_ERANGE G else G) ∧
      (MPFR_IS_ZERO a = false → MPFR_IS_NAN a = false →
        (MPFR_IS_POS a = true → 0 < (mpfr_sgn G a).1) ∧
        (MPFR_IS_NEG a = true → (mpfr_sgn G a).1 < 0)) := by
  obtain ⟨hn, -, hz⟩ := sentinel_cases a
  have hne : MPFR_INT_SIGN a ≠ 0 := by
    unfold MPFR_INT_SIGN
    rcases hs with h | h <;> rw [h] <;> decide
  by_cases z : MPFR_IS_ZERO a = true
  · obtain ⟨h1, h2, -⟩ := hz z
    simp [mpfr_sgn, z, h1, h2]
  · by_cases n : MPFR_IS_NAN a = true
    · obtain ⟨h1, h2, -⟩ := hn n
      simp [mpfr_sgn, n, h1, h2]
    · have z' : MPFR_IS_ZERO a = false := by simpa using z
      have n' : MPFR_IS_NAN a = false := by simpa using n
      have hv : mpfr_sgn G a = (MPFR_INT_SIGN a, G) := by
        unfold mpfr_sgn
        split <;> simp [z', n']
      rw [hv]
      refine ⟨?_, ?_, fun _ _ => ⟨?_, ?_⟩⟩
      · simp [z', n', hne]
      · simp [n']
      · intro hp
        simpa [MPFR_IS_POS, MPFR_INT_SIGN] using hp
      · intro hp
        simpa [MPFR_IS_NEG, MPFR_INT_SIGN] using hp

/-- C15 (witness): the sign of `-Inf` is `-1` and no flag is raised. -/
theorem C15_sgn_witness :
    mpfr_sgn c14_G c15_inf = (-1, c14_G) ∧ MPFR_IS_NEG c15_inf = true ∧
      (mpfr_sgn c14_G c15_inf).1 < 0 :=
  ⟨rfl, rfl, ((C15_sgn c14_G c15_inf (Or.inr rfl)).2.2 rfl rfl).2 rfl⟩

theorem round_pos_one (p : Nat) (rnd : mp_rnd_t) (hp : 0 < p) :
    round_pos p rnd 1 = (2 ^ (p - 1), 1, 0) := by
  unfold round_pos
  have h1 : sizeinbase2 1 = 1 := by decide
  simp only [h1]
  rw [if_pos (show 1 ≤ p from hp)]
  simp

/-- With `1` inside the exponent range, `mpfr_set_ui (y, 1, rnd)` stores `0.1b * 2 ^ 1`
exactly. -/
theorem mpfr_set_ui_one (W : Nat) (G : Globals) (y : mpfr_struct) (rnd : mp_rnd_t)
    (hW : 1 ≤ W) (hp : 0 < y.prec) (h1 : G.emin ≤ 1) (h2 : 1 ≤ G.emax) :
    mpfr_set_ui W G y 1 rnd = (store_one W y, 0, G) := by
  unfold mpfr_set_ui store_one
  rw [if_neg (by decide), round_pos_one y.prec rnd hp]
  simp only
  rw [if_neg (by omega), if_neg (by omega)]
  have hn := prec_le_limbs W y.prec hW hp
  have e : 2 ^ (y.prec - 1) * 2 ^ (((y.prec - 1) / W + 1) * W - y.prec)
      = 2 ^ (((y.prec - 1) / W + 1) * W - 1) := by
    rw [← pow_add]
    congr 1
    omega
  rw [e]
  simp [MPFR_RET]

theorem sval_store_one (W : Nat) (y : mpfr_struct) (hW : 1 ≤ W) (hp : 0 < y.prec) :
    sval W (store_one W y) = 1 := by
  have hn := prec_le_limbs W y.prec hW hp
  unfold sval store_one
  simp only
  obtain ⟨n, hn1⟩ : ∃ n, (y.prec - 1) / W + 1 = n := ⟨_, rfl⟩
  simp only [hn1] at hn ⊢
  rw [limbsVal_toLimbs, Nat.mul_comm W n]
  obtain ⟨K, hK⟩ : ∃ K, n * W = K := ⟨_, rfl⟩
  simp only [hK] at hn ⊢
  have hpos : 1 ≤ K := by omega
  rw [Nat.mod_eq_of_lt (Nat.pow_lt_pow_right (by omega) (by omega))]
  have h2 : (2 : ℚ) ≠ 0 := by norm_num
  push_cast
  rw [one_mul, ← zpow_natCast, ← zpow_add₀ h2]
  have e : (((K - 1 : Nat) : Int) + (1 - (K : Int))) = 0 := by omega
  rw [e, zpow_zero]

/-- C14 (counterexample): with an exponent range whose largest exponent is 0, the value `1`
is not representable, and `mpfr_cosh` of `+0` under round-to-nearest leaves `+Inf` in `y`,
returns a positive inexact code and raises the overflow and inexact flags, whatever the
external functions are. -/
theorem C14_cosh_zero_outside_range :
    (fun (X : CoshCallees) (fuel : Nat) =>
        mpfr_cosh 64 X fuel c14_G c14_y c14_zero GMP_RNDN)
      = (fun _ _ => .ok (c14_r, 1, ⟨10, -100, 0⟩)) ∧
    MPFR_IS_ZERO c14_zero = true ∧ MPFR_IS_INF c14_r = true := ⟨rfl, rfl, rfl⟩

/-- C14 (amended): `mpfr_cosh` resolves singular inputs before any computation, whatever
the external functions and the loop bound are: for a NaN input `y` becomes NaN, the NaN flag
is raised and 0 is returned; for an infinite input of either sign `y` becomes `+Inf`, 0 is
returned and no flag changes; for a zero input of either sign, when the exponent `1` lies
in the exponent range, `y` becomes `0.1b * 2 ^ 1 = 1` exactly, 0 is returned and no flag
changes. -/
theorem C14_cosh_singular (W : Nat) (X : CoshCallees) (fuel : Nat) (G : Globals)
    (y xt : mpfr_struct) (rnd : mp_rnd_t) (hW : 1 ≤ W) (hp : 0 < y.prec) :
    (MPFR_IS_NAN xt = true →
      mpfr_cosh W X fuel G y xt rnd
        = .ok (MPFR_SET_NAN y, 0, { G with flags := G.flags ||| MPFR_FLAGS_NAN })) ∧
    (MPFR_IS_INF xt = true →
      mpfr_cosh W X fuel G y xt rnd = .ok (MPFR_SET_POS (MPFR_SET_INF y), 0, G)) ∧
    (MPFR_IS_ZERO xt = true → G.emin ≤ 1 → 1 ≤ G.emax →
      mpfr_cosh W X fuel G y xt rnd = .ok (store_one W y, 0, G) ∧
        MPFR_IS_SINGULAR (store_one W y) = false ∧ sval W (store_one W y) = 1) := by
  obtain ⟨hn, hi, hz⟩ := sentinel_cases xt
  refine ⟨fun h => ?_, fun h => ?_, fun h h1 h2 => ?_⟩
  · obtain ⟨a, -, -⟩ := hn h
    simp [mpfr_cosh, a, h, MPFR_RET_NAN]
  · obtain ⟨a, -, b⟩ := hi h
    simp [mpfr_cosh, a, h, b, MPFR_RET]
  · obtain ⟨a, b, c⟩ := hz h
    refine ⟨?_, ?_, ?_⟩
    · simp only [mpfr_cosh, a, h, b, c]
      simp only [if_true, Bool.false_eq_true, if_false]
      rw [mpfr_set_ui_one W G y rnd hW hp h1 h2]
    · simp [MPFR_IS_SINGULAR, MPFR_EXP_INF, store_one]
    · exact sval_store_one W y hW hp

/-- C14 (witness): `mpfr_cosh` of `+0` with the exponent range `[-100, 100]` at 64-bit limbs
leaves `1` in `y`. -/
theorem C14_cosh_singular_witness :
    MPFR_IS_ZERO c14_zero = true ∧
      mpfr_cosh 64 ⟨id, fun p => ⟨p, 1, 0, []⟩, ⟨1, 1, 0, []⟩, fun x _ => x,
          fun G x _ _ => (x, G), fun G x _ _ => (x, G), fun G x _ _ _ => (x, G),
          fun G x _ _ _ => (x, G), fun G x _ _ _ => (x, G), fun _ _ _ _ _ => true,
          fun G x _ _ => (x, 0, G)⟩ 0 ⟨0, -100, 100⟩ c14_y c14_zero GMP_RNDN
            = .ok (store_one 64 c14_y, 0, ⟨0, -100, 100⟩) ∧
        MPFR_IS_SINGULAR (store_one 64 c14_y) = false ∧ sval 64 (store_one 64 c14_y) = 1 :=
  ⟨rfl, (C14_cosh_singular 64 _ 0 ⟨0, -100, 100⟩ c14_y c14_zero GMP_RNDN (by decide)
    (by decide)).2.2 rfl (by decide) (by decide)⟩

/-! ## The exponent of the result of `mpfr_add1` -/

theorem near_add_exp {W pa pb : Nat} {an bn : Int} {ap bp : List Nat} {overlap : Nat}
    {r : List Nat × Nat × Int × Nat} (h : near_add W pa pb an bn ap bp overlap = .ok r) :
    ∃ q, (if pb ≤ pa then mpn_add_n W ap (an - bn) bp 0 bn
        else mpn_add_n W ap 0 bp (bn - an) an) = .ok q ∧
      r.2.2.1 = if q.2 ≠ 0 then 1 else 0 := by
  unfold near_add at h
  simp only [bind_ok] at h
  obtain ⟨q, hq, h⟩ := h
  refine ⟨q, hq, ?_⟩
  split at h
  · rename_i hc
    simp only [bind_ok, pure, Except.pure, Except.ok.injEq] at h
    obtain ⟨_, _, _, _, _, _, _, _, _, _, e⟩ := h
    rw [← e, if_pos hc]
  · rename_i hc
    simp only [pure, Except.pure, Except.ok.injEq] at h
    rw [← h, if_neg hc]

theorem add_one_ulp_exp {W : Nat} {sh an : Int} {ap : List Nat} {r : List Nat × Int}
    (h : add_one_ulp W sh an ap = .ok r) :
    ∃ m q, shl W 1 sh = .ok m ∧ mpn_add_1 W ap 0 an m = .ok q ∧
      r.2 = if q.2 ≠ 0 then 1 else 0 := by
  unfold add_one_ulp at h
  simp only [bind_ok] at h
  obtain ⟨m, hm, q, hq, h⟩ := h
  refine ⟨m, q, hm, hq, ?_⟩
  split at h
  · rename_i hc
    simp only [bind_ok, pure, Except.pure, Except.ok.injEq] at h
    obtain ⟨_, _, _, _, e⟩ := h
    rw [← e, if_pos hc]
  · rename_i hc
    simp only [pure, Except.pure, Except.ok.injEq] at h
    rw [← h, if_neg hc]

theorem add1_core_exp {W pa pb pc : Nat} {ap bp cp : List Nat}
    {nzc : List Nat → Except Fault Nat} {b : mpfr_t} {rnd : mp_rnd_t} {d : Int}
    {r : List Nat × Int} (hr : add1_core W pa pb pc ap bp cp nzc b rnd d = .ok r) :
    ∃ c1 c2, sum_carry W pa pb pc ap bp cp d = .ok c1 ∧
      ulp_carry W pa pb pc ap bp cp nzc b rnd d = .ok c2 ∧
      r.2 = (if c1 ≠ 0 then 1 else 0) + (if c2 ≠ 0 then 1 else 0) := by
  unfold add1_core at hr
  simp only [bind_ok] at hr
  obtain ⟨u, hu, f, hf, e⟩ := hr
  simp only [pure, Except.pure, Except.ok.injEq] at e
  subst e
  unfold add1_finish at hf
  simp only [bind_ok] at hf
  obtain ⟨t, ht, hf⟩ := hf
  -- the one-ulp increment
  have h2 : ∃ c2, ulp_carry W pa pb pc ap bp cp nzc b rnd d = .ok c2 ∧
      f.2 = if c2 ≠ 0 then 1 else 0 := by
    unfold ulp_carry
    simp only [bind_ok]
    by_cases htt : t.2 = true
    · rw [if_pos htt] at hf
      obtain ⟨m, q, hm, hq, e⟩ := add_one_ulp_exp hf
      refine ⟨q.2, ⟨u, hu, t, ht, ?_⟩, e⟩
      rw [if_pos htt]
      simp only [bind_ok, pure, Except.pure, Except.ok.injEq]
      exact ⟨m, hm, q, hq, rfl⟩
    · rw [if_neg htt] at hf
      simp only [pure, Except.pure, Except.ok.injEq] at hf
      refine ⟨0, ⟨u, hu, t, ht, ?_⟩, ?_⟩
      · rw [if_neg htt]
        rfl
      · rw [← hf]
        rfl
  -- the limb addition
  have h1 : ∃ c1, sum_carry W pa pb pc ap bp cp d = .ok c1 ∧
      u.2.1 = if c1 ≠ 0 then 1 else 0 := by
    unfold sum_carry
    split at hu
    · rename_i hd
      simp only [bind_ok, pure, Except.pure, Except.ok.injEq] at hu
      obtain ⟨v, _, e⟩ := hu
      refine ⟨0, ?_, ?_⟩
      · simp only [if_pos hd]
        rfl
      · rw [← e]
        rfl
    · rename_i hd
      unfold near at hu
      simp only [bind_ok, pure, Except.pure, Except.ok.injEq] at hu
      obtain ⟨s, hs, t, ht, v, _, e⟩ := hu
      obtain ⟨q, hq, e2⟩ := near_add_exp ht
      refine ⟨q.2, ?_, ?_⟩
      · simp only [if_neg hd, bind_ok, pure, Except.pure, Except.ok.injEq]
        exact ⟨s, hs, q, hq, rfl⟩
      · rw [← e]
        exact e2
  obtain ⟨c1, hc1, e1⟩ := h1
  obtain ⟨c2, hc2, e2⟩ := h2
  exact ⟨c1, c2, hc1, hc2, by rw [e1, e2]⟩

theorem mpfr_add1_exp {W : Nat} {h g : Heap} {a b c : Ptr} {rnd : mp_rnd_t} {d : Int}
    (hr : mpfr_add1 W h a b c rnd d = .ok g) :
    ∃ c1 c2, add1_sum_carry W h a b c d = .ok c1 ∧ add1_ulp_carry W h a b c rnd d = .ok c2 ∧
      (g a).exp = (h b).exp + (if c1 ≠ 0 then 1 else 0) + (if c2 ≠ 0 then 1 else 0) := by
  unfold mpfr_add1 at hr
  simp only [bind_ok, pure, Except.pure, Except.ok.injEq] at hr
  obtain ⟨r, hr, e⟩ := hr
  subst e
  rw [add1_limbs_eq_core] at hr
  obtain ⟨c1, c2, h1, h2, e⟩ := add1_core_exp hr
  refine ⟨c1, c2, h1, h2, ?_⟩
  simp only [Heap.set, if_true]
  rw [add1_header_exp, e]
  ring

/-! ## Values of the far branches -/

theorem mask_low_val {W a s : Nat} (ha : a < 2 ^ W) :
    a &&& lnot W (a &&& (2 ^ s - 1)) = a / 2 ^ s * 2 ^ s := by
  have hc : a &&& (2 ^ s - 1) < 2 ^ W := lt_of_le_of_lt Nat.and_le_left ha
  apply Nat.eq_of_testBit_eq
  intro i
  unfold lnot
  rw [Nat.mod_eq_of_lt hc, Nat.testBit_and]
  have e : 2 ^ W - 1 - (a &&& (2 ^ s - 1)) = 2 ^ W - ((a &&& (2 ^ s - 1)) + 1) := by omega
  rw [e, Nat.testBit_two_pow_sub_succ hc, Nat.testBit_and, Nat.testBit_two_pow_sub_one,
    Nat.mul_comm, Nat.testBit_mul_pow_two, ← Nat.shiftRight_eq_div_pow, Nat.testBit_shiftRight]
  by_cases h1 : i < s
  · have h1' : ¬ s ≤ i := by omega
    cases a.testBit i <;> simp [h1, h1']
  · have h1' : s ≤ i := by omega
    have e2 : s + (i - s) = i := by omega
    by_cases h2 : i < W
    · simp [h1, h1', h2, e2]
    · have hb : a.testBit i = false := by
        apply Nat.testBit_lt_two_pow
        exact lt_of_lt_of_le ha (Nat.pow_le_pow_right (by norm_num) (by omega))
      simp [hb, e2, h1']

theorem mask_val {W a s : Nat} (ha : a < 2 ^ W) (hs : s ≤ W) :
    a &&& lnot W (2 ^ s - 1) = a / 2 ^ s * 2 ^ s := by
  have hx : 2 ^ s - 1 < 2 ^ W := by
    have : 2 ^ s ≤ 2 ^ W := Nat.pow_le_pow_right (by norm_num) hs
    have : 0 < 2 ^ s := by positivity
    omega
  apply Nat.eq_of_testBit_eq
  intro i
  unfold lnot
  rw [Nat.mod_eq_of_lt hx, Nat.testBit_and]
  have e : 2 ^ W - 1 - (2 ^ s - 1) = 2 ^ W - (2 ^ s - 1 + 1) := by omega
  rw [e, Nat.testBit_two_pow_sub_succ hx, Nat.testBit_two_pow_sub_one,
    Nat.mul_comm, Nat.testBit_mul_pow_two, ← Nat.shiftRight_eq_div_pow, Nat.testBit_shiftRight]
  by_cases h1 : i < s
  · have h1' : ¬ s ≤ i := by omega
    simp [h1, h1']
  · have h1' : s ≤ i := by omega
    have e2 : s + (i - s) = i := by omega
    by_cases h2 : i < W
    · simp [h1, h1', h2, e2]
    · have hb : a.testBit i = false := by
        apply Nat.testBit_lt_two_pow
        exact lt_of_lt_of_le ha (Nat.pow_le_pow_right (by norm_num) (by omega))
      simp [hb, e2, h1']

theorem take_low_val {W : Nat} {sh : Int} {ap : List Nat} {r : List Nat × Nat}
    (ha : AllLt W ap) (h : take_low W sh ap = .ok r) :
    0 ≤ sh ∧ sh < W ∧ r.1.length = ap.length ∧ AllLt W r.1 ∧
      limbsVal W r.1 = limbsVal W ap / 2 ^ sh.toNat * 2 ^ sh.toNat := by
  unfold take_low at h
  simp only [bind_ok, pure, Except.pure, Except.ok.injEq] at h
  obtain ⟨a0, ha0, m, hm, q, hq, e⟩ := h
  subst e
  obtain ⟨h1, h2, h3⟩ := shl_one hm
  subst h3
  have ha0lt : a0 < 2 ^ W := allLt_get W ap _ a0 ha (rd_eq_ok ha0).2
  rw [mask_low_val ha0lt] at hq
  have hv := limbsVal_wr (W := W) hq ha0
  have hs : sh.toNat ≤ W := by omega
  have hmod := limbsVal_head_mod (W := W) ha0 hs
  refine ⟨h1, h2, wr_length hq, allLt_wr hq ha ?_, ?_⟩
  · exact lt_of_le_of_lt (Nat.div_mul_le_self _ _) ha0lt
  · simp only [Int.toNat_zero, Nat.mul_zero, Nat.pow_zero, Nat.mul_one] at hv
    have e1 := Nat.div_add_mod a0 (2 ^ sh.toNat)
    have e2 := Nat.div_add_mod (limbsVal W ap) (2 ^ sh.toNat)
    rw [Nat.mul_comm] at e1 e2
    show limbsVal W q = _
    omega

theorem far_copy_fill_val {W n bn : Nat} {ap bp q : List Nat} (hbn : bn ≤ n)
    (hal : ap.length = n) (hbl : bp.length = bn) (hb : AllLt W bp)
    (h : far_copy_fill (n : Int) (bn : Int) ap bp = .ok q) :
    q.length = n ∧ AllLt W q ∧ limbsVal W q = 2 ^ (W * (n - bn)) * limbsVal W bp := by
  unfold far_copy_fill at h
  simp only [bind_ok] at h
  obtain ⟨q1, h1, h2⟩ := h
  obtain ⟨t, ht, hp⟩ := MPN_COPY_eq_ok h1
  rw [seg_whole bp (bn : Int) (by rw [hbl])] at ht
  simp only [Except.ok.injEq] at ht
  subst ht
  obtain ⟨_, hz⟩ := MPN_ZERO_eq_ok h2
  have hk : ((n : Int) - (bn : Int)).toNat = n - bn := by omega
  rw [hk] at hz
  obtain ⟨_, _, e1⟩ := put_eq_ok hp
  obtain ⟨_, _, e2⟩ := put_eq_ok hz
  rw [hk] at e1
  simp only [Int.toNat_zero, List.take_zero, List.nil_append, Nat.zero_add,
    List.length_replicate] at e2
  have hd : ap.drop (n - bn + bp.length) = [] := by
    apply List.drop_of_length_le
    omega
  rw [hd, List.append_nil] at e1
  have hl : (ap.take (n - bn)).length = n - bn := by
    rw [List.length_take]
    omega
  have hd2 : q1.drop (n - bn) = bp := by
    rw [e1]
    exact List.drop_left' hl
  rw [hd2] at e2
  subst e2
  refine ⟨?_, allLt_append W _ _ (allLt_replicate_zero W _) hb, ?_⟩
  · rw [List.length_append, List.length_replicate]
    omega
  · rw [limbsVal_append, limbsVal_replicate_zero, List.length_replicate, Nat.zero_add]

theorem far_round_copy_val {W n bn : Nat} {ap bp q : List Nat} (hbn : n ≤ bn)
    (hal : ap.length = n) (hbl : bp.length = bn) (hb : AllLt W bp)
    (h : MPN_COPY ap 0 bp ((bn : Int) - (n : Int)) (n : Int) = .ok q) :
    q.length = n ∧ AllLt W q ∧ limbsVal W q = limbsVal W bp / 2 ^ (W * (bn - n)) := by
  obtain ⟨t, ht, hp⟩ := MPN_COPY_eq_ok h
  obtain ⟨_, _, _, et⟩ := seg_eq_ok ht
  have hk : ((bn : Int) - (n : Int)).toNat = bn - n := by omega
  rw [hk, Int.toNat_ofNat] at et
  have ht2 : t = bp.drop (bn - n) := by
    rw [et]
    apply List.take_of_length_le
    rw [List.length_drop]
    omega
  have htl : t.length = n := by
    rw [ht2, List.length_drop]
    omega
  obtain ⟨_, _, e1⟩ := put_eq_ok hp
  have hd : ap.drop (Int.toNat 0 + t.length) = [] := by
    apply List.drop_of_length_le
    simp only [Int.toNat_zero, Nat.zero_add]
    omega
  rw [hd] at e1
  simp only [Int.toNat_zero, List.take_zero, List.nil_append, List.append_nil] at e1
  subst e1
  refine ⟨htl, ?_, ?_⟩
  · rw [ht2]
    exact allLt_drop W bp _ hb
  · have hsplit := limbsVal_take_add_drop W bp (bn - n) (by omega)
    have hlow : limbsVal W (bp.take (bn - n)) < 2 ^ (W * (bn - n)) := by
      have := limbsVal_lt W _ (allLt_take W bp (bn - n) hb)
      rw [List.length_take, Nat.min_eq_left (by omega)] at this
      exact this
    rw [ht2, hsplit, Nat.add_mul_div_left _ _ (Nat.two_pow_pos _),
      Nat.div_eq_of_lt hlow, Nat.zero_add]

theorem add_one_ulp_val {W n s : Nat} {ap : List Nat} {r : List Nat × Int} (hW : 1 ≤ W)
    (hn : 1 ≤ n) (hal : ap.length = n) (ha : AllLt W ap)
    (hz : limbsVal W ap % 2 ^ s = 0)
    (h : add_one_ulp W (s : Int) (n : Int) ap = .ok r) :
    r.1.length = n ∧ AllLt W r.1 ∧
      ((limbsVal W ap + 2 ^ s < 2 ^ (W * n) ∧ limbsVal W r.1 = limbsVal W ap + 2 ^ s ∧
          r.2 = 0) ∨
        (limbsVal W ap + 2 ^ s = 2 ^ (W * n) ∧ limbsVal W r.1 = 2 ^ (W * n - 1) ∧
          r.2 = 1)) := by
  unfold add_one_ulp at h
  simp only [bind_ok] at h
  obtain ⟨m, hm, q, hq, h⟩ := h
  obtain ⟨hs0, hsW, em⟩ := shl_one hm
  simp only [Int.toNat_ofNat] at em
  subst em
  obtain ⟨t, ht, hp, hc⟩ := mpn_add_1_eq_ok hq
  rw [seg_whole ap (n : Int) (by rw [hal])] at ht
  simp only [Except.ok.injEq] at ht
  subst ht
  obtain ⟨_, _, e1⟩ := put_eq_ok hp
  have hd : ap.drop (Int.toNat 0 + (toLimbs W ap.length (limbsVal W ap + 2 ^ s)).length)
      = [] := by
    apply List.drop_of_length_le
    simp only [Int.toNat_zero, Nat.zero_add, length_toLimbs]
    exact Nat.le_refl _
  rw [hd] at e1
  simp only [Int.toNat_zero, List.take_zero, List.nil_append, List.append_nil] at e1
  have hV := limbsVal_lt W ap ha
  rw [hal] at hV hc e1
  have hsn : s < W * n := by
    have : W * 1 ≤ W * n := Nat.mul_le_mul_left W hn
    omega
  have hdvd : 2 ^ s ∣ 2 ^ (W * n) := Nat.pow_dvd_pow 2 (Nat.le_of_lt hsn)
  have hle : limbsVal W ap + 2 ^ s ≤ 2 ^ (W * n) := by
    obtain ⟨u, hu⟩ := hdvd
    obtain ⟨v, hv⟩ := Nat.dvd_of_mod_eq_zero hz
    rw [hu, hv] at hV ⊢
    have hp2 : 0 < 2 ^ s := by positivity
    have : v < u := Nat.lt_of_mul_lt_mul_left hV
    calc 2 ^ s * v + 2 ^ s = 2 ^ s * (v + 1) := by ring
      _ ≤ 2 ^ s * u := Nat.mul_le_mul_left _ this
  have hq1 : limbsVal W q.1 = (limbsVal W ap + 2 ^ s) % 2 ^ (W * n) := by
    rw [e1, limbsVal_toLimbs]
  have hq1l : q.1.length = n := by rw [e1, length_toLimbs]
  have hq1a : AllLt W q.1 := by
    rw [e1]
    exact allLt_toLimbs W _ _
  split at h
  · rename_i hcar
    simp only [bind_ok, pure, Except.pure, Except.ok.injEq] at h
    obtain ⟨hh, hhm, w, hw, e⟩ := h
    subst e
    obtain ⟨_, _, ehh⟩ := shl_one hhm
    have ehh2 : ((W : Int) - 1).toNat = W - 1 := by omega
    rw [ehh2] at ehh
    subst ehh
    have heq : limbsVal W ap + 2 ^ s = 2 ^ (W * n) := by
      rcases Nat.lt_or_ge (limbsVal W ap + 2 ^ s) (2 ^ (W * n)) with hlt | hge
      · exact absurd (by rw [hc, Nat.div_eq_of_lt hlt]) hcar
      · omega
    have hzero : limbsVal W q.1 = 0 := by rw [hq1, heq, Nat.mod_self]
    obtain ⟨x, hx, _⟩ := rd_ok_of_lt (p := q.1) (i := (n : Int) - 1) (by omega) (by omega)
    have hx0 : x = 0 := by
      have := limbsVal_ge_get W q.1 _ x (rd_eq_ok hx).2
      rw [hzero] at this
      have hp2 : 0 < 2 ^ (W * ((n : Int) - 1).toNat) := by positivity
      rcases Nat.eq_zero_or_pos x with h0 | h0
      · exact h0
      · have := Nat.mul_pos h0 hp2
        omega
    subst hx0
    have hv := limbsVal_wr (W := W) hw hx
    have hi : ((n : Int) - 1).toNat = n - 1 := by omega
    rw [hi, hzero] at hv
    refine ⟨by rw [wr_length hw, hq1l], allLt_wr hw hq1a ?_, Or.inr ⟨heq, ?_, rfl⟩⟩
    · exact Nat.pow_lt_pow_right (by norm_num) (by omega)
    · have e3 : W * n - 1 = W - 1 + W * (n - 1) := by
        obtain ⟨n', rfl⟩ : ∃ n', n = n' + 1 := ⟨n - 1, by omega⟩
        simp only [Nat.add_sub_cancel, Nat.mul_succ]
        omega
      rw [e3, pow_add]
      simp only [Nat.zero_mul, Nat.add_zero, Nat.zero_add] at hv
      show limbsVal W w = _
      omega
  · rename_i hcar
    simp only [pure, Except.pure, Except.ok.injEq] at h
    subst h
    have hlt : limbsVal W ap + 2 ^ s < 2 ^ (W * n) := by
      rcases Nat.lt_or_ge (limbsVal W ap + 2 ^ s) (2 ^ (W * n)) with hlt | hge
      · exact hlt
      · exfalso
        apply hcar
        rw [hc]
        have : 0 < (limbsVal W ap + 2 ^ s) / 2 ^ (W * n) :=
          Nat.div_pos hge (by positivity)
        omega
    refine ⟨hq1l, hq1a, Or.inl ⟨hlt, ?_, rfl⟩⟩
    rw [hq1, Nat.mod_eq_of_lt hlt]

theorem far_copy_goto_cases {W pa pc : Nat} {sh an d : Int} {ap cp : List Nat}
    {nzc : List Nat → Except Fault Nat} {b : mpfr_t} {rnd : mp_rnd_t} {g : Goto}
    (h : far_copy_goto W pa sh an ap cp pc nzc b rnd d = .ok g) :
    g = Goto.add_one_ulp ∨ g = Goto.end_of_add := by
  unfold far_copy_goto at h
  split at h
  · split at h
    · simp only [bind_ok] at h
      obtain ⟨z, _, h⟩ := h
      split at h
      · simp only [bind_ok] at h
        obtain ⟨c0, _, hh, _, cc, _, h⟩ := h
        split at h
        · simp only [pure, Except.pure, Except.ok.injEq] at h
          exact Or.inl h.symm
        · simp only [bind_ok] at h
          obtain ⟨t, _, m, _, h⟩ := h
          split at h
          · simp only [pure, Except.pure, Except.ok.injEq] at h
            exact Or.inl h.symm
          · simp only [pure, Except.pure, Except.ok.injEq] at h
            exact Or.inr h.symm
      · simp only [pure, Except.pure, Except.ok.injEq] at h
        exact Or.inr h.symm
    · simp only [pure, Except.pure, Except.ok.injEq] at h
      exact Or.inr h.symm
  · split at h
    · simp only [bind_ok] at h
      obtain ⟨z, _, h⟩ := h
      split at h
      · simp only [pure, Except.pure, Except.ok.injEq] at h
        exact Or.inl h.symm
      · simp only [pure, Except.pure, Except.ok.injEq] at h
        exact Or.inr h.symm
    · simp only [pure, Except.pure, Except.ok.injEq] at h
      exact Or.inr h.symm

theorem far_round_goto_cases {W : Nat} {sh k cn dif : Int} {cc : Nat} {ap bp cp : List Nat}
    {b : mpfr_t} {rnd : mp_rnd_t} {g : Goto}
    (h : far_round_goto W sh k cn dif cc ap bp cp b rnd = .ok g) :
    g = Goto.add_one_ulp ∨ g = Goto.end_of_add := by
  unfold far_round_goto at h
  simp only [bind_ok] at h
  obtain ⟨s1, _, s2, _, s, _, h⟩ := h
  generalize (if s.cout = 0 then (if s.cc ≠ 0 then (1 : Int) else 0) else s.cout) = cout at h
  split at h
  · simp only [pure, Except.pure, Except.ok.injEq] at h
    exact Or.inl h.symm
  · split at h
    · simp only [bind_ok] at h
      obtain ⟨t, _, m, _, h⟩ := h
      split at h
      · simp only [pure, Except.pure, Except.ok.injEq] at h
        exact Or.inl h.symm
      · simp only [pure, Except.pure, Except.ok.injEq] at h
        exact Or.inr h.symm
    · simp only [pure, Except.pure, Except.ok.injEq] at h
      exact Or.inr h.symm

theorem far_copy_goto_rndz {W pa pc : Nat} {sh an d : Int} {ap cp : List Nat}
    {nzc : List Nat → Except Fault Nat} {b : mpfr_t} {g : Goto}
    (h : far_copy_goto W pa sh an ap cp pc nzc b GMP_RNDZ d = .ok g) :
    g = Goto.end_of_add := by
  unfold far_copy_goto away at h
  simp only [reduceCtorEq, if_false, decide_False, Bool.and_false, Bool.or_self,
    Bool.false_eq_true, pure, Except.pure, Except.ok.injEq] at h
  exact h.symm

theorem far_round_goto_rndz {W : Nat} {sh k cn dif : Int} {cc : Nat} {ap bp cp : List Nat}
    {b : mpfr_t} {g : Goto}
    (h : far_round_goto W sh k cn dif cc ap bp cp b GMP_RNDZ = .ok g) :
    g = Goto.end_of_add := by
  unfold far_round_goto away at h
  simp only [reduceCtorEq, decide_False, Bool.and_false, Bool.or_self, Bool.false_eq_true,
    false_and, and_false, if_false, bind_ok, pure, Except.pure, Except.ok.injEq] at h
  obtain ⟨s1, _, s2, _, s, _, h⟩ := h
  exact h.symm

theorem trunc_pad {W pa pb n bn Vb : Nat} (hle : pb ≤ pa) (hpa : pa ≤ n * W)
    (hpb : pb ≤ bn * W) (hbn : bn ≤ n) (hpad : Vb % 2 ^ (bn * W - pb) = 0) :
    2 ^ (W * (n - bn)) * Vb = Vb * 2 ^ pa / 2 ^ (W * bn) * 2 ^ (n * W - pa) := by
  obtain ⟨u, hu⟩ := Nat.dvd_of_mod_eq_zero hpad
  have e1 : Vb * 2 ^ pa = u * 2 ^ (pa - pb) * 2 ^ (W * bn) := by
    rw [hu, Nat.mul_assoc u, ← pow_add, Nat.mul_comm _ u, Nat.mul_assoc u, ← pow_add]
    congr 2
    rw [Nat.mul_comm W bn]
    omega
  rw [e1, Nat.mul_div_cancel _ (Nat.two_pow_pos _), hu, Nat.mul_assoc u, ← pow_add,
    Nat.mul_comm _ u, ← Nat.mul_assoc, Nat.mul_comm _ u, Nat.mul_assoc u, ← pow_add]
  congr 2
  have : W * (n - bn) + bn * W = n * W := by
    rw [Nat.mul_comm W, ← Nat.add_mul]
    congr 1
    omega
  omega

theorem trunc_cut {W pa n bn Vb : Nat} (hpa : pa ≤ n * W) (hbn : n ≤ bn) :
    Vb / 2 ^ (W * (bn - n)) / 2 ^ (n * W - pa) = Vb * 2 ^ pa / 2 ^ (W * bn) := by
  have e : W * bn = W * (bn - n) + (n * W - pa) + pa := by
    have : W * (bn - n) + n * W = W * bn := by
      rw [Nat.mul_comm n W, ← Nat.mul_add]
      congr 1
      omega
    omega
  rw [Nat.div_div_eq_div_mul, ← pow_add, e, pow_add _ _ pa,
    Nat.mul_div_mul_right _ _ (Nat.two_pow_pos _)]

theorem add1_finish_far {W n s : Nat} {c3 : Nat} {ap : List Nat} {g : Goto}
    {rnd : mp_rnd_t} {r : List Nat × Int} (hW : 1 ≤ W) (hn : 1 ≤ n) (hal : ap.length = n)
    (ha : AllLt W ap) (hz : limbsVal W ap % 2 ^ s = 0)
    (hg : g = Goto.add_one_ulp ∨ g = Goto.end_of_add)
    (h : add1_finish W (s : Int) (n : Int) c3 ap g rnd = .ok r) :
    r.1.length = n ∧ AllLt W r.1 ∧
      ((limbsVal W r.1 = limbsVal W ap ∧ r.2 = 0) ∨
        (limbsVal W ap + 2 ^ s < 2 ^ (W * n) ∧ limbsVal W r.1 = limbsVal W ap + 2 ^ s ∧
          r.2 = 0) ∨
        (limbsVal W ap + 2 ^ s = 2 ^ (W * n) ∧ limbsVal W r.1 = 2 ^ (W * n - 1) ∧
          r.2 = 1)) := by
  unfold add1_finish at h
  rcases hg with hg | hg
  · subst hg
    simp only [bind_ok, pure, Except.pure, Except.ok.injEq] at h
    obtain ⟨t, et, h⟩ := h
    subst et
    simp only [if_true] at h
    obtain ⟨h1, h2, h3⟩ := add_one_ulp_val hW hn hal ha hz h
    exact ⟨h1, h2, Or.inr h3⟩
  · subst hg
    simp only [bind_ok, pure, Except.pure, Except.ok.injEq] at h
    obtain ⟨t, et, h⟩ := h
    subst et
    simp only [Bool.false_eq_true, if_false, Except.ok.injEq] at h
    subst h
    exact ⟨hal, ha, Or.inl ⟨rfl, rfl⟩⟩

theorem far_val {W pa pb pc n bn s : Nat} {sh d : Int} {ap bp cp : List Nat}
    {nzc : List Nat → Except Fault Nat} {b : mpfr_t} {rnd : mp_rnd_t}
    {v : List Nat × Goto} (hn : (pa - 1) / W + 1 = n) (hbn : (pb - 1) / W + 1 = bn)
    (hs : n * W - pa = s) (hsh : sh = ((s : Nat) : Int)) (hna : pa ≤ n * W)
    (hnb : pb ≤ bn * W) (hal : ap.length = n) (hbl : bp.length = bn) (hba : AllLt W bp)
    (hpad : limbsVal W bp % 2 ^ (bn * W - pb) = 0)
    (hv : (if pb ≤ pa then far_copy W pa sh (n : Int) (bn : Int) ap bp cp pc nzc b rnd d
      else far_round W sh (n : Int) (bn : Int) (((pc - 1) / W + 1 : Nat) : Int)
        ((pa : Int) - d) ap bp cp b rnd) = .ok v) :
    v.1.length = n ∧ AllLt W v.1 ∧
      limbsVal W v.1 = limbsVal W bp * 2 ^ pa / 2 ^ (W * bn) * 2 ^ s ∧
      (v.2 = Goto.add_one_ulp ∨ v.2 = Goto.end_of_add) ∧
      (rnd = GMP_RNDZ → v.2 = Goto.end_of_add) := by
  subst hsh
  split at hv
  · rename_i hle
    unfold far_copy at hv
    simp only [bind_ok, pure, Except.pure, Except.ok.injEq] at hv
    obtain ⟨q, hq, g, hg, e⟩ := hv
    subst e
    have hbn' : bn ≤ n := by
      rw [← hn, ← hbn]
      exact limbs_mono hle
    obtain ⟨h1, h2, h3⟩ := far_copy_fill_val hbn' hal hbl hba hq
    refine ⟨h1, h2, ?_, far_copy_goto_cases hg, fun hz => far_copy_goto_rndz (hz ▸ hg)⟩
    rw [h3, ← hs]
    exact trunc_pad hle hna hnb hbn' hpad
  · rename_i hle
    unfold far_round at hv
    simp only [bind_ok, pure, Except.pure, Except.ok.injEq] at hv
    obtain ⟨q, hq, t, ht, g, hg, e⟩ := hv
    subst e
    have hbn' : n ≤ bn := by
      rw [← hn, ← hbn]
      exact limbs_mono (by omega)
    obtain ⟨h1, h2, h3⟩ := far_round_copy_val hbn' hal hbl hba hq
    have hcut := @trunc_cut W pa n bn (limbsVal W bp) hna hbn'
    rw [hs] at hcut
    refine ⟨?_, ?_, ?_, far_round_goto_cases hg, fun hz => far_round_goto_rndz (hz ▸ hg)⟩
    · split at ht
      · exact (take_low_val h2 ht).2.2.1.trans h1
      · simp only [Except.ok.injEq] at ht
        rw [← ht]
        exact h1
    · split at ht
      · exact (take_low_val h2 ht).2.2.2.1
      · simp only [Except.ok.injEq] at ht
        rw [← ht]
        exact h2
    · split at ht
      · rw [(take_low_val h2 ht).2.2.2.2, h3, Int.toNat_ofNat, hcut]
      · rename_i hs0
        simp only [Except.ok.injEq] at ht
        have hs0' : s = 0 := by
          by_contra hne
          apply hs0
          exact_mod_cast hne
        rw [← ht]
        show limbsVal W q = _
        rw [h3, ← hcut, hs0', Nat.pow_zero, Nat.div_one, Nat.mul_one]

theorem add1_core_far {W pa pb pc : Nat} {ap bp cp : List Nat}
    {nzc : List Nat → Except Fault Nat} {b : mpfr_t} {rnd : mp_rnd_t} {d : Int}
    {r : List Nat × Int} (hW : 1 ≤ W) (hpa : 1 ≤ pa) (hpb : 1 ≤ pb)
    (hal : ap.length = (pa - 1) / W + 1) (hbl : bp.length = (pb - 1) / W + 1)
    (hba : AllLt W bp)
    (hpad : limbsVal W bp % 2 ^ (((pb - 1) / W + 1) * W - pb) = 0)
    (hd : (pa : Int) ≤ d)
    (hr : add1_core W pa pb pc ap bp cp nzc b rnd d = .ok r) :
    (limbsVal W r.1
          = limbsVal W bp * 2 ^ pa / 2 ^ (W * ((pb - 1) / W + 1))
            * 2 ^ (((pa - 1) / W + 1) * W - pa) ∧ r.2 = 0) ∨
      (limbsVal W bp * 2 ^ pa / 2 ^ (W * ((pb - 1) / W + 1)) + 1 < 2 ^ pa ∧
        limbsVal W r.1
          = (limbsVal W bp * 2 ^ pa / 2 ^ (W * ((pb - 1) / W + 1)) + 1)
            * 2 ^ (((pa - 1) / W + 1) * W - pa) ∧ r.2 = 0) ∨
      (limbsVal W bp * 2 ^ pa / 2 ^ (W * ((pb - 1) / W + 1)) + 1 = 2 ^ pa ∧
        limbsVal W r.1 = 2 ^ (W * ((pa - 1) / W + 1) - 1) ∧ r.2 = 1) := by
  have hna := prec_le_limbs W pa hW hpa
  have hnb := prec_le_limbs W pb hW hpb
  obtain ⟨n, hn⟩ : ∃ n, (pa - 1) / W + 1 = n := ⟨_, rfl⟩
  obtain ⟨bn, hbn⟩ : ∃ bn, (pb - 1) / W + 1 = bn := ⟨_, rfl⟩
  have hn1 : 1 ≤ n := by
    rw [← hn]
    exact Nat.le_add_left 1 _
  obtain ⟨s, hs⟩ : ∃ s, n * W - pa = s := ⟨_, rfl⟩
  unfold add1_core at hr
  simp only [hn, hbn] at hr hal hbl hpad hna hnb ⊢
  simp only [hs]
  have hsh : ((n : Int) * (W : Int) - (pa : Int)) = ((s : Nat) : Int) := by
    rw [← hs]
    push_cast [Nat.cast_sub hna]
    rfl
  simp only [hsh] at hr
  simp only [bind_ok] at hr
  obtain ⟨u, hu, f, hf, e⟩ := hr
  simp only [pure, Except.pure, Except.ok.injEq] at e
  subst e
  have hdif : (pa : Int) - d ≤ 0 := by omega
  rw [if_pos hdif] at hu
  simp only [bind_ok, pure, Except.pure, Except.ok.injEq] at hu
  obtain ⟨v, hv, e⟩ := hu
  subst e
  obtain ⟨k1, k2, k3, k4, _⟩ := far_val hn hbn hs rfl hna hnb hal hbl hba hpad hv
  obtain ⟨T, hT⟩ : ∃ T, limbsVal W bp * 2 ^ pa / 2 ^ (W * bn) = T := ⟨_, rfl⟩
  rw [hT] at k3 ⊢
  have hz : limbsVal W v.1 % 2 ^ s = 0 := by
    rw [k3]
    exact Nat.mul_mod_left _ _
  obtain ⟨_, _, hfin⟩ := add1_finish_far hW hn1 k1 k2 hz k4 hf
  have hpow : 2 ^ (W * n) = 2 ^ pa * 2 ^ s := by
    rw [← pow_add]
    congr 1
    rw [Nat.mul_comm W n]
    omega
  have hp2 : 0 < 2 ^ s := Nat.two_pow_pos _
  rw [k3, hpow] at hfin
  have hT1 : T * 2 ^ s + 2 ^ s = (T + 1) * 2 ^ s := by ring
  rw [hT1] at hfin
  rcases hfin with ⟨h1, h2⟩ | ⟨h1, h2, h3⟩ | ⟨h1, h2, h3⟩
  · exact Or.inl ⟨h1, by rw [h2]; rfl⟩
  · exact Or.inr (Or.inl ⟨Nat.lt_of_mul_lt_mul_right h1, h2, by rw [h3]; rfl⟩)
  · exact Or.inr (Or.inr ⟨Nat.eq_of_mul_eq_mul_right hp2 h1, h2, by rw [h3]; rfl⟩)

/-! ## The regime without overlap -/

theorem truncSig_eq {W : Nat} {b : mpfr_t} (p : Nat)
    (hl : b.mant.length = (b.prec - 1) / W + 1) :
    truncSig W b p = limbsVal W b.mant * 2 ^ p / 2 ^ (W * ((b.prec - 1) / W + 1)) := by
  unfold truncSig nlimbs
  rw [Int.toNat_ofNat, List.take_of_length_le (Nat.le_of_eq hl), Nat.mul_comm W]

/-! ## Rounding toward zero: the stored significand is below the aligned sum -/

theorem away_rndz (b : mpfr_t) : away b GMP_RNDZ = false := by
  unfold away
  simp

theorem mpn_add_n_sum {W : Nat} {p q : List Nat} {off qoff m : Int} {r : List Nat × Nat}
    (hl : p.length = off.toNat + m.toNat) (h : mpn_add_n W p off q qoff m = .ok r) :
    ∃ t, seg q qoff m = .ok t ∧ r.1.length = p.length ∧
      limbsVal W p + 2 ^ (W * off.toNat) * limbsVal W t
        = limbsVal W r.1 + 2 ^ (W * p.length) * r.2 := by
  obtain ⟨s, t, hs, ht, hp, hc⟩ := mpn_add_n_eq_ok h
  refine ⟨t, ht, put_length hp, ?_⟩
  obtain ⟨h1, h2, h3, es⟩ := seg_eq_ok hs
  have hsl := seg_length hs
  have hv := limbsVal_put (W := W) hp
  rw [length_toLimbs, limbsVal_toLimbs, hsl, ← hl, List.drop_length] at hv
  simp only [limbsVal, Nat.mul_zero, Nat.add_zero] at hv
  have es2 : s = p.drop off.toNat := by
    rw [es]
    apply List.take_of_length_le
    rw [List.length_drop]
    omega
  have hv0 := limbsVal_take_add_drop W p off.toNat (by omega)
  rw [← es2] at hv0
  rw [hc, hsl, hv, hv0, hl, Nat.mul_add, pow_add]
  have hdm := Nat.div_add_mod (limbsVal W s + limbsVal W t) (2 ^ (W * m.toNat))
  generalize (limbsVal W s + limbsVal W t) / 2 ^ (W * m.toNat) = cq at hdm ⊢
  generalize (limbsVal W s + limbsVal W t) % 2 ^ (W * m.toNat) = cr at hdm ⊢
  have e : limbsVal W s + limbsVal W t = 2 ^ (W * m.toNat) * cq + cr := hdm.symm
  calc limbsVal W (List.take off.toNat p) + 2 ^ (W * off.toNat) * limbsVal W s
        + 2 ^ (W * off.toNat) * limbsVal W t
      = limbsVal W (List.take off.toNat p)
        + 2 ^ (W * off.toNat) * (limbsVal W s + limbsVal W t) := by ring
    _ = limbsVal W (List.take off.toNat p) + 2 ^ (W * off.toNat) * cr
        + 2 ^ (W * off.toNat) * 2 ^ (W * m.toNat) * cq := by
      rw [e]
      ring

theorem near_add_le {W pa pb n bn : Nat} {ap bp : List Nat} {overlap : Nat}
    {r : List Nat × Nat × Int × Nat} (hbn : bn = (pb - 1) / W + 1)
    (hn : n = (pa - 1) / W + 1) (hal : ap.length = n) (hbl : bp.length = bn)
    (h : near_add W pa pb (n : Int) (bn : Int) ap bp overlap = .ok r) :
    ∃ e : Nat, r.2.2.1 = (e : Int) ∧ r.1.length = n ∧
      limbsVal W r.1 * 2 ^ (e + W * bn)
        ≤ limbsVal W ap * 2 ^ (W * bn) + limbsVal W bp * 2 ^ (W * n) := by
  unfold near_add at h
  simp only [bind_ok] at h
  obtain ⟨u, hu, h⟩ := h
  -- the sum before the carry is handled
  have hsum : u.1.length = n ∧
      (limbsVal W u.1 + 2 ^ (W * n) * u.2) * 2 ^ (W * bn)
        ≤ limbsVal W ap * 2 ^ (W * bn) + limbsVal W bp * 2 ^ (W * n) := by
    split at hu
    · rename_i hle
      have hbn' : bn ≤ n := by
        rw [hbn, hn]
        exact limbs_mono hle
      have hk : ((n : Int) - (bn : Int)).toNat = n - bn := by omega
      obtain ⟨t, ht, hl, hv⟩ := mpn_add_n_sum (by rw [hk, Int.toNat_ofNat]; omega) hu
      rw [seg_whole bp (bn : Int) (by rw [hbl])] at ht
      simp only [Except.ok.injEq] at ht
      subst ht
      rw [hk, hal] at hv
      refine ⟨hl.trans hal, ?_⟩
      rw [← hv, Nat.add_mul]
      apply Nat.add_le_add_left
      apply Nat.le_of_eq
      rw [Nat.mul_comm (2 ^ _) (limbsVal W bp), Nat.mul_assoc, ← pow_add]
      congr 2
      rw [← Nat.mul_add]
      congr 1
      omega
    · rename_i hle
      have hbn' : n ≤ bn := by
        rw [hbn, hn]
        exact limbs_mono (by omega)
      obtain ⟨t, ht, hl, hv⟩ :=
        mpn_add_n_sum (by simp only [Int.toNat_zero, Int.toNat_ofNat]; omega) hu
      obtain ⟨_, _, _, et⟩ := seg_eq_ok ht
      have hk : ((bn : Int) - (n : Int)).toNat = bn - n := by omega
      rw [hk, Int.toNat_ofNat] at et
      have ht2 : t = bp.drop (bn - n) := by
        rw [et]
        apply List.take_of_length_le
        rw [List.length_drop]
        omega
      have hsplit := limbsVal_take_add_drop W bp (bn - n) (by omega)
      rw [← ht2] at hsplit
      simp only [Int.toNat_zero, Nat.mul_zero, Nat.pow_zero, Nat.one_mul] at hv
      rw [hal] at hv
      refine ⟨hl.trans hal, ?_⟩
      rw [← hv, Nat.add_mul]
      apply Nat.add_le_add_left
      have e : W * bn = W * n + W * (bn - n) := by
        rw [← Nat.mul_add]
        congr 1
        omega
      calc limbsVal W t * 2 ^ (W * bn)
          = 2 ^ (W * (bn - n)) * limbsVal W t * 2 ^ (W * n) := by
            rw [e, pow_add]
            ring
        _ ≤ limbsVal W bp * 2 ^ (W * n) := by
            apply Nat.mul_le_mul_right
            omega
  obtain ⟨hul, hsum⟩ := hsum
  split at h
  · rename_i hcar
    simp only [bind_ok, pure, Except.pure, Except.ok.injEq] at h
    obtain ⟨a0, _, q, hq, t, ht, hh, hhm, w, hw, e⟩ := h
    subst e
    obtain ⟨s, hs, hc1, hc2, hp, _⟩ := mpn_rshift_eq_ok hq
    rw [seg_whole u.1 (n : Int) (by rw [hul])] at hs
    simp only [Except.ok.injEq] at hs
    subst hs
    have hqv := limbsVal_put (W := W) hp
    rw [length_toLimbs, limbsVal_toLimbs] at hqv
    simp only [Int.toNat_zero, List.take_zero, limbsVal, Nat.mul_zero, pow_zero, Nat.one_mul,
      Nat.zero_add, List.drop_length, Nat.add_zero, Int.toNat_one, pow_one] at hqv
    have hqle : limbsVal W q.1 ≤ limbsVal W u.1 / 2 := by
      rw [hqv]
      exact Nat.mod_le _ _
    obtain ⟨_, _, ehh⟩ := shl_one hhm
    have hW : 1 ≤ W := by omega
    have ehh2 : ((W : Int) - 1).toNat = W - 1 := by omega
    rw [ehh2] at ehh
    subst ehh
    have hfv := limbsVal_wr (W := W) hw ht
    have hi : ((n : Int) - 1).toNat = n - 1 := by omega
    rw [hi] at hfv
    have hn1 : 1 ≤ n := by
      rw [hn]
      exact Nat.le_add_left 1 _
    have hpw : 2 ^ (W * n) = 2 * (2 ^ (W - 1) * 2 ^ (W * (n - 1))) := by
      rw [← pow_add, ← pow_succ']
      congr 1
      obtain ⟨n', rfl⟩ : ∃ n', n = n' + 1 := ⟨n - 1, by omega⟩
      simp only [Nat.add_sub_cancel, Nat.mul_succ]
      omega
    have hmod : (t + 2 ^ (W - 1)) % 2 ^ W ≤ t + 2 ^ (W - 1) := Nat.mod_le _ _
    have h1 : (t + 2 ^ (W - 1)) % 2 ^ W * 2 ^ (W * (n - 1))
        ≤ t * 2 ^ (W * (n - 1)) + 2 ^ (W - 1) * 2 ^ (W * (n - 1)) := by
      rw [← Nat.add_mul]
      exact Nat.mul_le_mul_right _ hmod
    have hc1' : 1 ≤ u.2 := Nat.pos_of_ne_zero hcar
    have h3 : 2 ^ (W * n) * 1 ≤ 2 ^ (W * n) * u.2 := Nat.mul_le_mul_left _ hc1'
    have h2 := Nat.div_mul_le_self (limbsVal W u.1) 2
    have hfin : limbsVal W w * 2 ≤ limbsVal W u.1 + 2 ^ (W * n) * u.2 := by
      generalize 2 ^ (W * n) * u.2 = X at h3 ⊢
      generalize (t + 2 ^ (W - 1)) % 2 ^ W * 2 ^ (W * (n - 1)) = Y at hfv h1
      generalize 2 ^ (W - 1) * 2 ^ (W * (n - 1)) = Z at hpw h1
      generalize t * 2 ^ (W * (n - 1)) = T at hfv h1
      generalize 2 ^ (W * n) = B at hpw h3
      omega
    refine ⟨1, rfl, ?_, ?_⟩
    · rw [wr_length hw, put_length hp]
      exact hul
    · refine le_trans ?_ hsum
      rw [pow_add, pow_one, ← Nat.mul_assoc]
      exact Nat.mul_le_mul_right _ hfin
  · rename_i hcar
    simp only [pure, Except.pure, Except.ok.injEq] at h
    subst h
    refine ⟨0, rfl, hul, ?_⟩
    refine le_trans ?_ hsum
    rw [Nat.zero_add]
    apply Nat.mul_le_mul_right
    exact Nat.le_add_right _ _

theorem near_round_rndz {W : Nat} {sh an bn cn k dif : Int} {ap bp cp : List Nat}
    {overlap : Nat} {b : mpfr_t} {r : List Nat × Goto}
    (h : near_round W sh an bn cn k dif ap bp cp overlap b GMP_RNDZ = .ok r) :
    r.2 = Goto.end_of_add ∧ r.1.length = ap.length ∧ limbsVal W r.1 ≤ limbsVal W ap := by
  unfold near_round at h
  rw [away_rndz] at h
  simp only [reduceCtorEq, Bool.false_eq_true, or_self, if_false, bind_ok, pure, Except.pure,
    Except.ok.injEq] at h
  obtain ⟨a0, ha0, m, hm, q, hq, e⟩ := h
  subst e
  have hv := limbsVal_wr (W := W) hq ha0
  have hle : a0 &&& lnot W (m - 1) ≤ a0 := Nat.and_le_left
  refine ⟨rfl, wr_length hq, ?_⟩
  have := Nat.mul_le_mul_right (2 ^ (W * (0 : Int).toNat)) hle
  show limbsVal W q ≤ _
  omega

/-! ## Rounding toward zero: the alignment of `c` -/

theorem seg_top {W cn k : Nat} {cp t : List Nat} (hcl : cp.length = cn)
    (h : seg cp ((cn : Int) - (k : Int)) (k : Int) = .ok t) :
    k ≤ cn ∧ t = cp.drop (cn - k) ∧ t.length = k ∧
      2 ^ (W * (cn - k)) * limbsVal W t ≤ limbsVal W cp := by
  obtain ⟨h1, _, h3, et⟩ := seg_eq_ok h
  have hk : k ≤ cn := by omega
  have hj : ((cn : Int) - (k : Int)).toNat = cn - k := by omega
  rw [hj, Int.toNat_ofNat] at et
  have ht2 : t = cp.drop (cn - k) := by
    rw [et]
    apply List.take_of_length_le
    rw [List.length_drop]
    omega
  refine ⟨hk, ht2, ?_, ?_⟩
  · rw [ht2, List.length_drop]
    omega
  · have := limbsVal_take_add_drop W cp (cn - k) (by omega)
    rw [← ht2] at this
    omega

theorem zero_tail {ap z : List Nat} {k m : Nat} (hal : ap.length = k + m)
    (h : put ap (k : Int) (List.replicate m 0) = .ok z) :
    z.length = k + m ∧ z.drop k = List.replicate m 0 := by
  obtain ⟨_, _, e⟩ := put_eq_ok h
  rw [Int.toNat_ofNat, List.length_replicate] at e
  have hd : ap.drop (k + m) = [] := List.drop_of_length_le (by omega)
  rw [hd, List.append_nil] at e
  have hl : (ap.take k).length = k := by
    rw [List.length_take]
    omega
  subst e
  refine ⟨?_, List.drop_left' hl⟩
  rw [List.length_append, hl, List.length_replicate]

theorem put_low_val {W : Nat} {z q s : List Nat} {m : Nat}
    (hzd : z.drop s.length = List.replicate m 0) (h : put z 0 s = .ok q) :
    limbsVal W q = limbsVal W s ∧ q.length = z.length := by
  have hv := limbsVal_put (W := W) h
  simp only [Int.toNat_zero, List.take_zero, limbsVal, Nat.mul_zero, pow_zero, Nat.one_mul,
    Nat.zero_add] at hv
  rw [hzd, limbsVal_replicate_zero, Nat.mul_zero, Nat.add_zero] at hv
  exact ⟨hv, put_length h⟩

theorem near_shift_trunc_le {W cn k m : Nat} {sh dif : Int} {z cp : List Nat}
    {r : List Nat × Int} (hm : (m : Int) = (k : Int) * (W : Int) - trunc_shift W sh dif)
    (hzd : z.drop k = List.replicate (z.length - k) 0) (hcl : cp.length = cn)
    (h : near_shift_trunc W sh (cn : Int) (k : Int) dif z cp = .ok r) :
    r.1.length = z.length ∧ limbsVal W r.1 * 2 ^ (W * cn) ≤ limbsVal W cp * 2 ^ m := by
  unfold near_shift_trunc at h
  generalize trunc_shift W sh dif = d at h hm
  simp only at h
  split at h
  · -- shift to the right
    rename_i hpos
    simp only [bind_ok, pure, Except.pure, Except.ok.injEq] at h
    obtain ⟨q, hq, e⟩ := h
    subst e
    obtain ⟨t, ht, hc1, hc2, hp, _⟩ := mpn_rshift_eq_ok hq
    obtain ⟨hk, _, htl, hle⟩ := seg_top (W := W) hcl ht
    rw [htl] at hp
    obtain ⟨hv, hl⟩ := put_low_val (W := W) (by rw [length_toLimbs]; exact hzd) hp
    rw [limbsVal_toLimbs] at hv
    refine ⟨hl, ?_⟩
    show limbsVal W q.1 * _ ≤ _
    have h1 : limbsVal W q.1 * 2 ^ d.toNat ≤ limbsVal W t := by
      rw [hv]
      exact le_trans (Nat.mul_le_mul_right _ (Nat.mod_le _ _)) (Nat.div_mul_le_self _ _)
    have he : W * cn = d.toNat + W * (cn - k) + m := by
      have e1 : W * cn = W * (cn - k) + W * k := by
        rw [← Nat.mul_add]
        congr 1
        omega
      have e2 : ((W * k : Nat) : Int) = (k : Int) * (W : Int) := by
        push_cast
        ring
      omega
    calc limbsVal W q.1 * 2 ^ (W * cn)
        = 2 ^ (W * (cn - k)) * (limbsVal W q.1 * 2 ^ d.toNat) * 2 ^ m := by
          rw [he, pow_add, pow_add]
          ring
      _ ≤ 2 ^ (W * (cn - k)) * limbsVal W t * 2 ^ m :=
          Nat.mul_le_mul_right _ (Nat.mul_le_mul_left _ h1)
      _ ≤ limbsVal W cp * 2 ^ m := Nat.mul_le_mul_right _ hle
  · split at h
    · -- shift to the left
      rename_i hnp hneg
      simp only [bind_ok] at h
      obtain ⟨q, hq, w, hw, h⟩ := h
      obtain ⟨t, ht, hc1, hc2, hp, hcc⟩ := mpn_lshift_eq_ok hq
      obtain ⟨hk, ht2, htl, hle⟩ := seg_top (W := W) hcl ht
      rw [htl] at hp hcc
      obtain ⟨hv, hl⟩ := put_low_val (W := W) (by rw [length_toLimbs]; exact hzd) hp
      rw [limbsVal_toLimbs] at hv
      obtain ⟨_, hkl, _⟩ := wr_eq_ok hw
      obtain ⟨x, hx, _⟩ := rd_ok_of_lt (p := q.1) (i := (k : Int)) (by omega) hkl
      have hwv := limbsVal_wr (W := W) hw hx
      rw [Int.toNat_ofNat] at hwv
      have hwle : limbsVal W w ≤ limbsVal W t * 2 ^ (-d).toNat := by
        have := Nat.mod_add_div (limbsVal W t * 2 ^ (-d).toNat) (2 ^ (W * k))
        rw [← hv, ← hcc, Nat.mul_comm (2 ^ (W * k))] at this
        omega
      have hwl : w.length = z.length := by rw [wr_length hw, hl]
      split at h
      · rename_i hk1
        simp only [bind_ok, pure, Except.pure, Except.ok.injEq] at h
        obtain ⟨x0, hx0, y, hy, a0, ha0, w2, hw2, e⟩ := h
        subst e
        have hw2v := limbsVal_wr (W := W) hw2 ha0
        simp only [Int.toNat_zero, Nat.mul_zero, Nat.pow_zero, Nat.mul_one] at hw2v
        have hmod : (a0 + y) % 2 ^ W ≤ a0 + y := Nat.mod_le _ _
        have hw2le : limbsVal W w2 ≤ limbsVal W t * 2 ^ (-d).toNat + y := by omega
        unfold shr at hy
        split at hy
        · rename_i hsr
          simp only [Except.ok.injEq] at hy
          obtain ⟨_, hx0g⟩ := rd_eq_ok hx0
          have hj : ((cn : Int) - (k : Int) - 1).toNat = cn - k - 1 := by omega
          rw [hj] at hx0g
          have hlt : cn - k - 1 < cp.length := by omega
          have hcons : cp.drop (cn - k - 1) = x0 :: cp.drop (cn - k) := by
            have hget : cp[cn - k - 1] = x0 := by
              rw [List.getElem?_eq_getElem hlt] at hx0g
              exact Option.some.inj hx0g
            rw [List.drop_eq_getElem_cons hlt, hget]
            congr 2
            omega
          have hsplit := limbsVal_take_add_drop W cp (cn - k - 1) (by omega)
          rw [hcons, ← ht2] at hsplit
          simp only [limbsVal] at hsplit
          have hcple : 2 ^ (W * (cn - k - 1)) * (x0 + 2 ^ W * limbsVal W t)
              ≤ limbsVal W cp := by omega
          obtain ⟨g, hg⟩ : ∃ g, ((W : Int) + d).toNat = g := ⟨_, rfl⟩
          rw [hg] at hy
          have hgW : g + (-d).toNat = W := by omega
          have hy2 : y * 2 ^ g ≤ x0 := by
            rw [← hy]
            exact Nat.div_mul_le_self _ _
          have h1 : limbsVal W w2 * 2 ^ g ≤ x0 + 2 ^ W * limbsVal W t := by
            calc limbsVal W w2 * 2 ^ g
                ≤ (limbsVal W t * 2 ^ (-d).toNat + y) * 2 ^ g :=
                  Nat.mul_le_mul_right _ hw2le
              _ = y * 2 ^ g + 2 ^ (g + (-d).toNat) * limbsVal W t := by
                  rw [pow_add]
                  ring
              _ ≤ x0 + 2 ^ W * limbsVal W t := by
                  rw [hgW]
                  exact Nat.add_le_add_right hy2 _
          refine ⟨by rw [wr_length hw2, hwl], ?_⟩
          show limbsVal W w2 * _ ≤ _
          have he : W * cn = g + W * (cn - k - 1) + m := by
            have e1 : W * cn = W * (cn - k - 1) + W * k + W := by
              have : cn = (cn - k - 1) + k + 1 := by omega
              conv_lhs => rw [this, Nat.mul_add, Nat.mul_add, Nat.mul_one]
            have e2 : ((W * k : Nat) : Int) = (k : Int) * (W : Int) := by
              push_cast
              ring
            omega
          calc limbsVal W w2 * 2 ^ (W * cn)
              = 2 ^ (W * (cn - k - 1)) * (limbsVal W w2 * 2 ^ g) * 2 ^ m := by
                rw [he, pow_add, pow_add]
                ring
            _ ≤ 2 ^ (W * (cn - k - 1)) * (x0 + 2 ^ W * limbsVal W t) * 2 ^ m :=
                Nat.mul_le_mul_right _ (Nat.mul_le_mul_left _ h1)
            _ ≤ limbsVal W cp * 2 ^ m := Nat.mul_le_mul_right _ hcple
        · exact absurd hy (by simp)
      · rename_i hk1
        simp only [pure, Except.pure, Except.ok.injEq] at h
        subst h
        have hkc : k = cn := by omega
        refine ⟨hwl, ?_⟩
        show limbsVal W w * _ ≤ _
        have ht3 : limbsVal W t ≤ limbsVal W cp := by
          have hp1 : 1 ≤ 2 ^ (W * (cn - k)) := Nat.two_pow_pos _
          calc limbsVal W t = 1 * limbsVal W t := (Nat.one_mul _).symm
            _ ≤ 2 ^ (W * (cn - k)) * limbsVal W t := Nat.mul_le_mul_right _ hp1
            _ ≤ limbsVal W cp := hle
        have he : m = (-d).toNat + W * cn := by
          have e2 : ((W * k : Nat) : Int) = (k : Int) * (W : Int) := by
            push_cast
            ring
          rw [← hkc]
          omega
        calc limbsVal W w * 2 ^ (W * cn)
            ≤ limbsVal W t * 2 ^ (-d).toNat * 2 ^ (W * cn) := Nat.mul_le_mul_right _ hwle
          _ = limbsVal W t * 2 ^ m := by
              rw [he, pow_add]
              ring
          _ ≤ limbsVal W cp * 2 ^ m := Nat.mul_le_mul_right _ ht3
    · -- no shift
      rename_i hnp hnn
      simp only [bind_ok, pure, Except.pure, Except.ok.injEq] at h
      obtain ⟨q, hq, e⟩ := h
      subst e
      obtain ⟨t, ht, hp⟩ := MPN_COPY_eq_ok hq
      obtain ⟨hk, _, htl, hle⟩ := seg_top (W := W) hcl ht
      obtain ⟨hv, hl⟩ := put_low_val (W := W) (by rw [htl]; exact hzd) hp
      refine ⟨hl, ?_⟩
      show limbsVal W q * _ ≤ _
      have he : W * cn = W * (cn - k) + m := by
        have e1 : W * cn = W * (cn - k) + W * k := by
          rw [← Nat.mul_add]
          congr 1
          omega
        have e2 : ((W * k : Nat) : Int) = (k : Int) * (W : Int) := by
          push_cast
          ring
        omega
      calc limbsVal W q * 2 ^ (W * cn)
          = 2 ^ (W * (cn - k)) * limbsVal W t * 2 ^ m := by
            rw [hv, he, pow_add]
            ring
        _ ≤ limbsVal W cp * 2 ^ m := Nat.mul_le_mul_right _ hle

theorem limbs_ceil {W D : Nat} (hW : 1 ≤ W) (hD : 1 ≤ D) :
    ((((D - 1) / W + 1 : Nat) : Int)) * (W : Int)
      = (D : Int) + (if D % W ≠ 0 then (W : Int) - ((D % W : Nat) : Int) else 0) := by
  obtain ⟨q, hq⟩ : ∃ q, (D - 1) / W = q := ⟨_, rfl⟩
  have h1 := Nat.div_add_mod (D - 1) W
  have h2 := Nat.mod_lt (D - 1) (show 0 < W by omega)
  rw [hq] at h1 ⊢
  obtain ⟨r, hr⟩ : ∃ r, (D - 1) % W = r := ⟨_, rfl⟩
  rw [hr] at h1 h2
  obtain ⟨p, hp⟩ : ∃ p, W * q = p := ⟨_, rfl⟩
  rw [hp] at h1
  have hD2 : D = p + (r + 1) := by omega
  have hpc : ((q + 1 : Nat) : Int) * (W : Int) = (p : Int) + (W : Int) := by
    rw [← hp]
    push_cast
    ring
  rw [hpc]
  by_cases hr1 : r + 1 = W
  · have hmod : D % W = 0 := by
      rw [hD2, hr1, ← hp]
      have : W * q + W = W * (q + 1) := by ring
      rw [this]
      exact Nat.mul_mod_right _ _
    rw [hmod]
    simp only [ne_eq, not_true_eq_false, if_false]
    omega
  · have hmod : D % W = r + 1 := by
      rw [hD2, ← hp, Nat.add_comm, Nat.add_mul_mod_self_left]
      exact Nat.mod_eq_of_lt (by omega)
    rw [hmod]
    simp only [ne_eq, Nat.add_one_ne_zero, not_false_eq_true, if_true]
    omega

theorem near_shift_le {W pa pc n cn dn : Nat} {sh : Int} {ap cp : List Nat}
    {r : List Nat × Int × Int × Nat} (hW : 1 ≤ W) (hn : n = (pa - 1) / W + 1)
    (hcn : cn = (pc - 1) / W + 1) (hpc : 1 ≤ pc) (hsh : sh = (n : Int) * (W : Int) - (pa : Int))
    (hlt : dn < pa) (hal : ap.length = n) (hcl : cp.length = cn) (hc : AllLt W cp)
    (hpad : limbsVal W cp % 2 ^ (cn * W - pc) = 0)
    (h : near_shift W pc sh (n : Int) (cn : Int) ((pa : Int) - (dn : Int)) (dn : Int) ap cp
      = .ok r) :
    r.1.length = n ∧ limbsVal W r.1 * 2 ^ (W * cn + dn) ≤ limbsVal W cp * 2 ^ (W * n) := by
  have hpa : 1 ≤ pa := by omega
  have hna := prec_le_limbs W pa hW hpa
  rw [← hn] at hna
  by_cases hfull : dn + pc < pa
  · -- `c` is not truncated
    have hfit : dn / W + cn ≤ n := by
      rw [hn, hcn]
      exact limbs_fit hW hpc hfull
    have hcnn : cn ≤ n := le_trans (Nat.le_add_left _ _) hfit
    have e : W * n = W * (n - cn) + W * cn := by
      rw [← Nat.mul_add]
      congr 1
      clear hfit
      omega
    subst hn
    subst hcn
    obtain ⟨buf, k, hrun, hbl, _, hv⟩ :=
      @near_shift_val W pa pc dn sh ap cp hW hpc hfull hcl hc hpad hal
    rw [hrun] at h
    simp only [Except.ok.injEq] at h
    subst h
    refine ⟨hbl, ?_⟩
    show limbsVal W buf * _ ≤ _
    apply Nat.le_of_eq
    calc limbsVal W buf * 2 ^ (W * ((pc - 1) / W + 1) + dn)
        = limbsVal W buf * 2 ^ dn * 2 ^ (W * ((pc - 1) / W + 1)) := by
          rw [pow_add]
          ring
      _ = limbsVal W cp * 2 ^ (W * ((pa - 1) / W + 1)) := by
          rw [hv, e, pow_add]
          ring
  · -- the upper limbs of `c` are shifted into `a`
    obtain ⟨D, hD⟩ : ∃ D : Nat, (pa : Int) - (dn : Int) = (D : Int) := ⟨pa - dn, by omega⟩
    have hD1 : 1 ≤ D := by omega
    have hDle : D ≤ pa := by omega
    obtain ⟨k, hk⟩ : ∃ k, (D - 1) / W + 1 = k := ⟨_, rfl⟩
    have hkn : k ≤ n := by
      rw [← hk, hn]
      exact limbs_mono hDle
    have hkI : ((D : Int) - 1).tdiv (W : Int) + 1 = (k : Int) := by
      have : ((D : Int) - 1) = ((D - 1 : Nat) : Int) := by omega
      rw [this, tdiv_cast, ← hk]
      push_cast
      rfl
    have hceil := limbs_ceil hW hD1
    rw [hk] at hceil
    unfold near_shift at h
    rw [hD, hkI] at h
    simp only [bind_ok] at h
    obtain ⟨z, hz, h⟩ := h
    have hle : (D : Int) ≤ (pc : Int) := by omega
    rw [if_pos hle] at h
    simp only [bind_ok, pure, Except.pure, Except.ok.injEq] at h
    obtain ⟨t, ht, e⟩ := h
    subst e
    obtain ⟨_, hzp⟩ := MPN_ZERO_eq_ok hz
    have hnk : ((n : Int) - (k : Int)).toNat = n - k := by omega
    rw [hnk] at hzp
    obtain ⟨hzl, hzd⟩ := zero_tail (by omega) hzp
    have hzd2 : z.drop k = List.replicate (z.length - k) 0 := by
      rw [hzd, hzl]
      congr 1
      omega
    obtain ⟨m, hm⟩ : ∃ m : Nat, (m : Int) = (n : Int) * (W : Int) - (dn : Int) :=
      ⟨n * W - dn, by
        have : dn ≤ n * W := by omega
        push_cast [Nat.cast_sub this]
        rfl⟩
    have hmk : (m : Int) = (k : Int) * (W : Int) - trunc_shift W sh (D : Int) := by
      unfold trunc_shift
      rw [tmod_cast, hm, hsh, hceil]
      by_cases hmod : D % W = 0
      · rw [hmod]
        simp only [Nat.cast_zero, ne_eq, not_true_eq_false, if_false]
        omega
      · have hmodI : ¬ ((D % W : Nat) : Int) = 0 := by exact_mod_cast hmod
        simp only [ne_eq, hmodI, hmod, not_false_eq_true, if_true]
        omega
    obtain ⟨hl, hv⟩ := near_shift_trunc_le hmk hzd2 hcl ht
    refine ⟨by rw [hl, hzl]; omega, ?_⟩
    show limbsVal W t.1 * _ ≤ _
    have hmn : m + dn = W * n := by
      have : ((W * n : Nat) : Int) = (n : Int) * (W : Int) := by
        push_cast
        ring
      omega
    calc limbsVal W t.1 * 2 ^ (W * cn + dn)
        = limbsVal W t.1 * 2 ^ (W * cn) * 2 ^ dn := by rw [pow_add, Nat.mul_assoc]
      _ ≤ limbsVal W cp * 2 ^ m * 2 ^ dn := Nat.mul_le_mul_right _ hv
      _ = limbsVal W cp * 2 ^ (W * n) := by rw [Nat.mul_assoc, ← pow_add, hmn]

theorem add1_core_rndz {W pa pb pc dn : Nat} {ap bp cp : List Nat}
    {nzc : List Nat → Except Fault Nat} {b : mpfr_t} {r : List Nat × Int} (hW : 1 ≤ W)
    (hpa : 1 ≤ pa) (hpb : 1 ≤ pb) (hpc : 1 ≤ pc)
    (hal : ap.length = (pa - 1) / W + 1) (hbl : bp.length = (pb - 1) / W + 1)
    (hcl : cp.length = (pc - 1) / W + 1) (hba : AllLt W bp) (hca : AllLt W cp)
    (hpadb : limbsVal W bp % 2 ^ (((pb - 1) / W + 1) * W - pb) = 0)
    (hpadc : limbsVal W cp % 2 ^ (((pc - 1) / W + 1) * W - pc) = 0)
    (hr : add1_core W pa pb pc ap bp cp nzc b GMP_RNDZ (dn : Int) = .ok r) :
    ∃ e : Nat, r.2 = (e : Int) ∧ r.1.length = (pa - 1) / W + 1 ∧
      limbsVal W r.1
          * 2 ^ (e + W * ((pb - 1) / W + 1) + W * ((pc - 1) / W + 1) + dn)
        ≤ limbsVal W bp * 2 ^ (W * ((pa - 1) / W + 1) + W * ((pc - 1) / W + 1) + dn)
          + limbsVal W cp * 2 ^ (W * ((pa - 1) / W + 1) + W * ((pb - 1) / W + 1)) := by
  have hna := prec_le_limbs W pa hW hpa
  have hnb := prec_le_limbs W pb hW hpb
  obtain ⟨n, hn⟩ : ∃ n, (pa - 1) / W + 1 = n := ⟨_, rfl⟩
  obtain ⟨bn, hbn⟩ : ∃ bn, (pb - 1) / W + 1 = bn := ⟨_, rfl⟩
  obtain ⟨cn, hcn⟩ : ∃ cn, (pc - 1) / W + 1 = cn := ⟨_, rfl⟩
  obtain ⟨s, hs⟩ : ∃ s, n * W - pa = s := ⟨_, rfl⟩
  unfold add1_core at hr
  simp only [hn, hbn, hcn] at hr hal hbl hcl hpadb hpadc hna hnb ⊢
  have hsh : ((n : Int) * (W : Int) - (pa : Int)) = ((s : Nat) : Int) := by
    rw [← hs]
    push_cast [Nat.cast_sub hna]
    rfl
  simp only [bind_ok] at hr
  obtain ⟨u, hu, f, hf, e⟩ := hr
  simp only [pure, Except.pure, Except.ok.injEq] at e
  subst e
  split at hu
  · -- no overlap
    rename_i hdif
    simp only [bind_ok, pure, Except.pure, Except.ok.injEq] at hu
    obtain ⟨v, hv, e⟩ := hu
    subst e
    rw [← hcn] at hv
    obtain ⟨k1, _, k3, _, k5⟩ := far_val hn hbn hs hsh hna hnb hal hbl hba hpadb hv
    rw [k5 rfl, add1_finish_end] at hf
    simp only [Except.ok.injEq] at hf
    subst hf
    refine ⟨0, rfl, k1, ?_⟩
    show limbsVal W v.1 * _ ≤ _
    rw [k3]
    have h1 : limbsVal W bp * 2 ^ pa / 2 ^ (W * bn) * 2 ^ (W * bn) ≤ limbsVal W bp * 2 ^ pa :=
      Nat.div_mul_le_self _ _
    have hpow : 2 ^ (W * n) = 2 ^ pa * 2 ^ s := by
      rw [← pow_add]
      congr 1
      rw [Nat.mul_comm W n]
      omega
    refine le_trans ?_ (Nat.le_add_right _ _)
    calc limbsVal W bp * 2 ^ pa / 2 ^ (W * bn) * 2 ^ s * 2 ^ (0 + W * bn + W * cn + dn)
        = limbsVal W bp * 2 ^ pa / 2 ^ (W * bn) * 2 ^ (W * bn) * (2 ^ s * 2 ^ (W * cn + dn)) := by
          rw [Nat.zero_add, Nat.add_assoc, pow_add (2 : Nat) (W * bn)]
          ring
      _ ≤ limbsVal W bp * 2 ^ pa * (2 ^ s * 2 ^ (W * cn + dn)) := Nat.mul_le_mul_right _ h1
      _ = limbsVal W bp * 2 ^ (W * n + W * cn + dn) := by
          rw [Nat.add_assoc (W * n), pow_add (2 : Nat) (W * n), hpow]
          ring
  · -- `c` overlaps with `a`
    rename_i hdif
    unfold near at hu
    simp only [bind_ok, pure, Except.pure, Except.ok.injEq] at hu
    obtain ⟨s1, hs1, t, ht, v, hv, e⟩ := hu
    subst e
    have hlt : dn < pa := by omega
    obtain ⟨l1, v1⟩ := near_shift_le hW hn.symm hcn.symm hpc rfl hlt hal hcl hca hpadc hs1
    obtain ⟨e, he, l2, v2⟩ := near_add_le hbn.symm hn.symm l1 hbl ht
    obtain ⟨g, l3, v3⟩ := near_round_rndz hv
    simp only at hf
    rw [g, add1_finish_end] at hf
    simp only [Except.ok.injEq] at hf
    subst hf
    refine ⟨e, by rw [he]; simp, by rw [l3, l2], ?_⟩
    show limbsVal W v.1 * _ ≤ _
    calc limbsVal W v.1 * 2 ^ (e + W * bn + W * cn + dn)
        ≤ limbsVal W t.1 * 2 ^ (e + W * bn + W * cn + dn) := Nat.mul_le_mul_right _ v3
      _ = limbsVal W t.1 * 2 ^ (e + W * bn) * 2 ^ (W * cn + dn) := by
          rw [Nat.add_assoc (e + W * bn), pow_add (2 : Nat) (e + W * bn), Nat.mul_assoc]
      _ ≤ (limbsVal W s1.1 * 2 ^ (W * bn) + limbsVal W bp * 2 ^ (W * n))
            * 2 ^ (W * cn + dn) := Nat.mul_le_mul_right _ v2
      _ = limbsVal W bp * 2 ^ (W * n + W * cn + dn)
            + limbsVal W s1.1 * 2 ^ (W * cn + dn) * 2 ^ (W * bn) := by
          rw [Nat.add_assoc (W * n), pow_add (2 : Nat) (W * n)]
          ring
      _ ≤ limbsVal W bp * 2 ^ (W * n + W * cn + dn)
            + limbsVal W cp * 2 ^ (W * n) * 2 ^ (W * bn) :=
          Nat.add_le_add_left (Nat.mul_le_mul_right _ v1) _
      _ = limbsVal W bp * 2 ^ (W * n + W * cn + dn)
            + limbsVal W cp * 2 ^ (W * n + W * bn) := by
          rw [pow_add (2 : Nat) (W * n), Nat.mul_assoc]

/-! ## Rounding toward zero never rounds away from zero -/

theorem zpow_split (N : Nat) (z : Int) :
    (2 : ℚ) ^ z = (2 : ℚ) ^ N * (2 : ℚ) ^ (z - (N : Int)) := by
  rw [← zpow_natCast, ← zpow_add₀ (by norm_num : (2 : ℚ) ≠ 0)]
  congr 1
  ring

theorem scaled_le {R Vb Vc e n bn cn dn W : Nat} (eb : Int)
    (h : R * 2 ^ (e + W * bn + W * cn + dn)
      ≤ Vb * 2 ^ (W * n + W * cn + dn) + Vc * 2 ^ (W * n + W * bn)) :
    (R : ℚ) * (2 : ℚ) ^ (eb + (e : Int) - (n : Int) * (W : Int))
      ≤ (Vb : ℚ) * (2 : ℚ) ^ (eb - (bn : Int) * (W : Int))
        + (Vc : ℚ) * (2 : ℚ) ^ (eb - (dn : Int) - (cn : Int) * (W : Int)) := by
  obtain ⟨K, hK⟩ : ∃ K : ℚ, K = (2 : ℚ) ^ (eb - (n : Int) * (W : Int) - (bn : Int) * (W : Int)
      - (cn : Int) * (W : Int) - (dn : Int)) := ⟨_, rfl⟩
  have hKpos : 0 ≤ K := by
    rw [hK]
    positivity
  have e1 : (2 : ℚ) ^ (eb + (e : Int) - (n : Int) * (W : Int))
      = (2 : ℚ) ^ (e + W * bn + W * cn + dn) * K := by
    rw [hK, zpow_split (e + W * bn + W * cn + dn)]
    congr 2
    push_cast
    ring
  have e2 : (2 : ℚ) ^ (eb - (bn : Int) * (W : Int))
      = (2 : ℚ) ^ (W * n + W * cn + dn) * K := by
    rw [hK, zpow_split (W * n + W * cn + dn)]
    congr 2
    push_cast
    ring
  have e3 : (2 : ℚ) ^ (eb - (dn : Int) - (cn : Int) * (W : Int))
      = (2 : ℚ) ^ (W * n + W * bn) * K := by
    rw [hK, zpow_split (W * n + W * bn)]
    congr 2
    push_cast
    ring
  have hq : ((R * 2 ^ (e + W * bn + W * cn + dn) : Nat) : ℚ)
      ≤ ((Vb * 2 ^ (W * n + W * cn + dn) + Vc * 2 ^ (W * n + W * bn) : Nat) : ℚ) := by
    exact_mod_cast h
  push_cast at hq
  rw [e1, e2, e3]
  calc (R : ℚ) * ((2 : ℚ) ^ (e + W * bn + W * cn + dn) * K)
      = (R : ℚ) * (2 : ℚ) ^ (e + W * bn + W * cn + dn) * K := by ring
    _ ≤ ((Vb : ℚ) * (2 : ℚ) ^ (W * n + W * cn + dn)
          + (Vc : ℚ) * (2 : ℚ) ^ (W * n + W * bn)) * K :=
        mul_le_mul_of_nonneg_right hq hKpos
    _ = (Vb : ℚ) * ((2 : ℚ) ^ (W * n + W * cn + dn) * K)
          + (Vc : ℚ) * ((2 : ℚ) ^ (W * n + W * bn) * K) := by ring

theorem abs_signed (s x : ℚ) (hs : s = 1 ∨ s = -1) (hx : 0 ≤ x) : |s * x| = x := by
  rcases hs with h | h
  · rw [h, one_mul, abs_of_nonneg hx]
  · rw [h, neg_one_mul, abs_neg, abs_of_nonneg hx]

theorem mpfr_add1_rndz {W : Nat} {h g : Heap} {a b c : Ptr} {dn : Nat} (hW : 1 ≤ W)
    (hpa : 0 < (h a).prec) (hla : ((h a).mant.length : Int) = nlimbs W (h a))
    (wb : WF W (h b)) (wc : WF W (h c)) (hs : (h b).neg = (h c).neg)
    (hec : (h c).exp = (h b).exp - (dn : Int))
    (hr : mpfr_add1 W h a b c GMP_RNDZ (dn : Int) = .ok g) :
    |value W (g a)| ≤ |value W (h b) + value W (h c)| := by
  unfold mpfr_add1 at hr
  simp only [bind_ok, pure, Except.pure, Except.ok.injEq] at hr
  obtain ⟨r, hr, e⟩ := hr
  subst e
  rw [add1_limbs_eq_core] at hr
  simp only [header_heap_mant, header_heap_prec] at hr
  have hpadb := wf_pad wb
  have hpadc := wf_pad wc
  have hbl := wf_length wb.2.1
  have hcl := wf_length wc.2.1
  have hal := wf_length hla
  obtain ⟨e, he, hl, hv⟩ := add1_core_rndz hW hpa wb.1 wc.1 hal hbl hcl wb.2.2.1 wc.2.2.1
    hpadb hpadc hr
  have hga : (h.set a { add1_header h a b with
      mant := r.1, exp := (add1_header h a b).exp + r.2 }) a
      = { add1_header h a b with mant := r.1, exp := (add1_header h a b).exp + r.2 } := by
    simp only [Heap.set, if_true]
  rw [hga]
  have hsg : ∀ (m : List Nat) (ex : Int),
      MPFR_SIGN { add1_header h a b with mant := m, exp := ex } = MPFR_SIGN (h b) :=
    fun m ex => sign_eq_of_neg (add1_header_neg h a b)
  have hvr : value W { add1_header h a b with
      mant := r.1, exp := (add1_header h a b).exp + r.2 }
      = (MPFR_SIGN (h b) : ℚ) * ((limbsVal W r.1 : ℚ)
        * (2 : ℚ) ^ ((h b).exp + (e : Int)
          - ((((h a).prec - 1) / W + 1 : Nat) : Int) * (W : Int))) := by
    rw [value_of_length (by simp only [add1_header_prec]; exact hl), hsg]
    simp only [add1_header_prec, add1_header_exp, he]
    rw [mul_assoc]
  have hvb : value W (h b) = (MPFR_SIGN (h b) : ℚ) * ((limbsVal W (h b).mant : ℚ)
      * (2 : ℚ) ^ ((h b).exp - ((((h b).prec - 1) / W + 1 : Nat) : Int) * (W : Int))) := by
    rw [value_of_length hbl, mul_assoc]
  have hvc : value W (h c) = (MPFR_SIGN (h b) : ℚ) * ((limbsVal W (h c).mant : ℚ)
      * (2 : ℚ) ^ ((h b).exp - (dn : Int)
        - ((((h c).prec - 1) / W + 1 : Nat) : Int) * (W : Int))) := by
    rw [value_of_length hcl, mul_assoc, hec, sign_eq_of_neg hs]
  rw [hvr, hvb, hvc, ← mul_add]
  have hsc := sign_cases (h b)
  rw [abs_signed _ _ hsc (by positivity), abs_signed _ _ hsc (by positivity)]
  exact scaled_le (h b).exp hv

/-- Under round-toward-zero, for same-signed regular operands that satisfy the
representation invariants, whose exponent difference fits an `int`, and a destination of
positive precision with a buffer of exactly its significant limbs: a run of `mpfr_add` that
ends leaves in `dst` limbs, sign and exponent whose value is at most the exact sum `b + c`
in magnitude, and no run stops for lack of loop fuel. -/
theorem mpfr_add_rndz (W : Nat) (X : Callees) (h : Heap) (a b c : Ptr) (hW : 1 ≤ W)
    (hb : Regular W (h b)) (hc : Regular W (h c)) (hs : (h b).neg = (h c).neg)
    (wb : WF W (h b)) (wc : WF W (h c)) (hpa : 0 < (h a).prec)
    (hla : ((h a).mant.length : Int) = nlimbs W (h a))
    (hfit : -2 ^ 31 < (h b).exp - (h c).exp ∧ (h b).exp - (h c).exp < 2 ^ 31) :
    NoFuel (mpfr_add W X h a b c GMP_RNDZ) ∧
      ∀ g, mpfr_add W X h a b c GMP_RNDZ = .ok g →
        |value W (g a)| ≤ |value W (h b) + value W (h c)| := by
  refine ⟨nofuel_mpfr_add W X h a b c GMP_RNDZ, fun g hr => ?_⟩
  rw [mpfr_add_same_sign W X h a b c GMP_RNDZ hb hc hs,
    to_int_of_fits (by omega) hfit.2] at hr
  split at hr
  · rename_i hd
    rw [if_neg (by omega)] at hr
    obtain ⟨dn, hdn⟩ : ∃ dn : Nat, -((h b).exp - (h c).exp) = (dn : Int) :=
      ⟨(-((h b).exp - (h c).exp)).toNat, by omega⟩
    rw [hdn] at hr
    rw [add_comm]
    exact mpfr_add1_rndz hW hpa hla wc wb hs.symm (by omega) hr
  · rename_i hd
    obtain ⟨dn, hdn⟩ : ∃ dn : Nat, (h b).exp - (h c).exp = (dn : Int) :=
      ⟨((h b).exp - (h c).exp).toNat, by omega⟩
    rw [hdn] at hr
    exact mpfr_add1_rndz hW hpa hla wb wc hs (by omega) hr

/-- The sum `15/16 + 31/32 = 61/32` rounded toward zero to 4 bits is `15/8`. -/
theorem mpfr_add_rndz_witness :
    (fun X : Callees => res (mpfr_add 64 X (heap3 c20_a c20_b c20_c) 0 1 2 GMP_RNDZ) 0)
        = (fun _ => some c17_r) ∧
      |value 64 c17_r| ≤ |value 64 c20_b + value 64 c20_c| := by
  refine ⟨rfl, ?_⟩
  have hr : mpfr_add 64 ⟨id, fun h _ _ _ => h, fun h _ _ _ _ _ => h⟩
      (heap3 c20_a c20_b c20_c) 0 1 2 GMP_RNDZ = .ok ((heap3 c20_a c20_b c20_c).set 0 c17_r) :=
    rfl
  have h := (mpfr_add_rndz 64 _ (heap3 c20_a c20_b c20_c) 0 1 2 (by decide)
    ⟨rfl, 17293822569102704640, rfl, by decide⟩ ⟨rfl, 17870283321406128128, rfl, by decide⟩
    rfl
    ⟨by decide, rfl, allLt_one (by decide),
      ⟨17293822569102704640, rfl, by decide, by decide⟩, by decide⟩
    ⟨by decide, rfl, allLt_one (by decide),
      ⟨17870283321406128128, rfl, by decide, by decide⟩, by decide⟩
    (by decide) rfl ⟨by decide, by decide⟩).2 _ hr
  have e0 : ((heap3 c20_a c20_b c20_c).set 0 c17_r) 0 = c17_r := rfl
  have e1 : heap3 c20_a c20_b c20_c 1 = c20_b := rfl
  have e2 : heap3 c20_a c20_b c20_c 2 = c20_c := rfl
  rw [e0, e1, e2] at h
  exact h

/-! ## The rational exponential on a precision of two bits -/

theorem exp_lower (x : ℝ) (hx : 0 ≤ x) : 1 + x + x ^ 2 / 2 ≤ Real.exp x :=
  Real.quadratic_le_exp_of_nonneg hx

theorem exp_lower_neg : (3 : ℝ) / 8 < Real.exp (-(251 : ℝ) / 2 ^ 8) := by
  have hx : |(-(251 : ℝ) / 2 ^ 8)| ≤ 1 := by
    rw [abs_le]
    constructor <;> norm_num
  have h := Real.exp_bound hx (n := 8) (by norm_num)
  have h2 := (abs_le.mp h).1
  have e : |(-(251 : ℝ) / 2 ^ 8)| = 251 / 2 ^ 8 := by
    rw [abs_of_nonpos (by norm_num)]
    norm_num
  rw [e] at h2
  simp only [Finset.sum_range_succ, Finset.sum_range_zero, Nat.factorial] at h2
  norm_num at h2
  linarith

/-- C12: `mpfr_exp_rational` at small precisions.  At precision 2 on
`p / 2 ^ r = 127 / 2 ^ 8` with `m = 2`, the main loop ends after `i = 2` because
`prec_i_have = 2` has reached the precision, and `y` becomes `0.10b * 2 ^ 1 = 1`; one unit
in the last place of `y` is `2 ^ (1 - 2) = 1/2`, and `exp (127/256)` is larger than
`1 + 1/2`.  At precision 4 on `p / 2 ^ r = -251 / 2 ^ 8` with `m = 3`, the main loop ends
after `i = 4` with `prec_i_have = 4`, and `y` becomes `0.1010b * 2 ^ (-1) = 5/16`; one unit
in the last place is `2 ^ (-1 - 4) = 1/32`, and `exp (-251/256)` is larger than
`5/16 + 2/32`. -/
theorem C12_exp_rational_beyond_one_ulp :
    (mpfr_exp_rational 64 c12_G c12_y 127 8 2 c12_Q c12_mult
        = .ok (c12_r, { c12_G with flags := MPFR_FLAGS_INEXACT }) ∧
      exp_terms c12_y.prec 127 8 2 c12_Q c12_mult = .ok (2, 2) ∧
      sval 64 c12_r = 1 ∧
      ((sval 64 c12_r : ℚ) : ℝ) + (2 : ℝ) ^ (c12_r.exp - (c12_r.prec : Int))
        < Real.exp ((127 : ℝ) / 2 ^ 8)) ∧
    (mpfr_exp_rational 64 c12_G c12_y4 (-251) 8 3 (List.replicate 12 0) (List.replicate 8 0)
        = .ok (c12_r4, c12_G) ∧
      exp_terms c12_y4.prec (-251) 8 3 (List.replicate 12 0) (List.replicate 8 0)
        = .ok (4, 4) ∧
      sval 64 c12_r4 = 5 / 16 ∧
      ((sval 64 c12_r4 : ℚ) : ℝ) + 2 * (2 : ℝ) ^ (c12_r4.exp - (c12_r4.prec : Int))
        < Real.exp (-(251 : ℝ) / 2 ^ 8)) := by
  have hv : sval 64 c12_r = 1 := by
    unfold sval c12_r
    simp only [limbsVal]
    norm_num
  have hv4 : sval 64 c12_r4 = 5 / 16 := by
    unfold sval c12_r4
    simp only [limbsVal]
    norm_num
  refine ⟨⟨rfl, rfl, hv, ?_⟩, ⟨rfl, rfl, hv4, ?_⟩⟩
  · rw [hv]
    have h := exp_lower ((127 : ℝ) / 2 ^ 8) (by positivity)
    have e : (2 : ℝ) ^ (c12_r.exp - (c12_r.prec : Int)) = 1 / 2 := by
      unfold c12_r
      norm_num
    rw [e]
    refine lt_of_lt_of_le ?_ h
    norm_num
  · rw [hv4]
    have e : (2 : ℝ) ^ (c12_r4.exp - (c12_r4.prec : Int)) = 1 / 32 := by
      unfold c12_r4
      norm_num
    rw [e]
    refine lt_of_le_of_lt ?_ exp_lower_neg
    norm_num

/-! ## The parts of a printed number and the characters appended -/

theorem sbind_ok {α β : Type} (x : Except Stop α) (f : α → Except Stop β) (b : β) :
    (x >>= f) = .ok b ↔ ∃ a, x = .ok a ∧ f a = .ok b := by
  cases x with
  | error e =>
    constructor
    · intro h
      cases h
    · rintro ⟨a, h, _⟩
      cases h
  | ok a =>
    constructor
    · intro h
      exact ⟨a, rfl, h⟩
    · rintro ⟨a', h, h2⟩
      cases h
      exact h2

theorem spure_ok {α : Type} (a b : α) : (pure a : Except Stop α) = .ok b ↔ a = b := by
  constructor
  · intro h
    cases h
    rfl
  · intro h
    rw [h]
    rfl

/-- A successful `buffer_cat` appends `len` characters. -/
theorem buffer_cat_appends (b b' : string_buffer) (s : List Char) (len : Int)
    (h : buffer_cat b s len = .ok b') :
    ∃ t : List Char, b'.chars = b.chars ++ t ∧ (t.length : Int) = len := by
  unfold buffer_cat at h
  split at h
  · cases h
  · split at h
    · cases h
    · split at h
      · cases h
      · rename_i h1 _ h3
        cases h
        refine ⟨s.take len.toNat, rfl, ?_⟩
        rw [List.length_take]
        have : len.toNat ≤ s.length := not_not.mp h3
        rw [Nat.min_eq_left this]
        omega

/-- A successful `buffer_pad` appends `n` characters. -/
theorem buffer_pad_appends (b b' : string_buffer) (c : Char) (n : Int)
    (h : buffer_pad b c n = .ok b') :
    ∃ t : List Char, b'.chars = b.chars ++ t ∧ (t.length : Int) = n := by
  unfold buffer_pad at h
  split at h
  · rename_i h0
    cases h
    exact ⟨[], by simp, by simp [h0]⟩
  · split at h
    · cases h
    · exact buffer_cat_appends _ _ _ _ h

/-- One guarded `buffer_pad` of `sprnt_fp`. -/
theorem pad_step (c : Prop) [Decidable c] (b b' : string_buffer) (ch : Char) (n : Int)
    (h : (if c then buffer_pad b ch n else pure b) = .ok b') :
    ∃ t : List Char, b'.chars = b.chars ++ t ∧ (t.length : Int) = if c then n else 0 := by
  by_cases hc : c
  · rw [if_pos hc] at h
    rw [if_pos hc]
    exact buffer_pad_appends _ _ _ _ h
  · rw [if_neg hc] at h
    rw [if_neg hc]
    cases h
    exact ⟨[], by simp, by simp⟩

/-- The three paddings of `sprnt_fp` exclude one another. -/
theorem pad_sum (pt : pad_t) (ps : Int) :
    (if pt = pad_t.LEFT ∧ ps ≠ 0 then ps else 0)
      + (if pt = pad_t.LEADING_ZEROS ∧ ps ≠ 0 then ps else 0)
      + (if pt = pad_t.RIGHT ∧ ps ≠ 0 then ps else 0) = ps := by
  by_cases h0 : ps = 0
  · simp [h0]
  · cases pt <;> simp [h0]

/-- One guarded `buffer_cat` of `sprnt_fp`. -/
theorem cat_step (sl : List (List Char)) (ptr : Option CPtr) (b b' : string_buffer) (n : Int)
    (h : (match ptr with
      | some q => do
        let s ← cstr sl q
        buffer_cat b s n
      | none => pure b) = .ok b') :
    ∃ t : List Char, b'.chars = b.chars ++ t ∧
      (t.length : Int) = if ptr = none then 0 else n := by
  cases ptr with
  | none =>
    cases h
    exact ⟨[], by simp, by simp⟩
  | some q =>
    simp only [] at h
    obtain ⟨s, _, h2⟩ := (sbind_ok _ _ _).mp h
    obtain ⟨t, e1, e2⟩ := buffer_cat_appends _ _ _ _ h2
    exact ⟨t, e1, by simp [e2]⟩

/-- The characters that `sprnt_fp` appends: the parts and the padding of `partition_number`. -/
theorem sprnt_fp_appends (W : Nat) (X : PrintCallees) (buf buf' : string_buffer)
    (p : mpfr_struct) (spec : printf_spec) (len : Int)
    (h : sprnt_fp W X buf p spec = .ok (buf', len)) (hl : 0 ≤ len) :
    ∃ np, partition_number W X p spec = .ok (len, np) ∧
      ∃ t : List Char, buf'.chars = buf.chars ++ t ∧
        (t.length : Int) = np.pad_size
          + (if np.sign ≠ NUL then 1 else 0)
          + (if np.prefix_ptr = none then 0 else np.prefix_size)
          + (if np.ip_ptr = none then 0 else np.ip_size)
          + np.ip_trailing_zeros
          + (if np.point ≠ NUL then 1 else 0)
          + np.fp_leading_zeros
          + (if np.fp_ptr = none then 0 else np.fp_size)
          + np.fp_trailing_zeros
          + (if np.exp_ptr = none then 0 else np.exp_size) := by
  unfold sprnt_fp at h
  obtain ⟨⟨l, np⟩, hp, h⟩ := (sbind_ok _ _ _).mp h
  simp only [] at h
  split at h
  · rename_i hneg
    cases h
    omega
  · obtain ⟨b1, h1, h⟩ := (sbind_ok _ _ _).mp h
    obtain ⟨b2, h2, h⟩ := (sbind_ok _ _ _).mp h
    obtain ⟨b3, h3, h⟩ := (sbind_ok _ _ _).mp h
    obtain ⟨b4, h4, h⟩ := (sbind_ok _ _ _).mp h
    obtain ⟨b5, h5, h⟩ := (sbind_ok _ _ _).mp h
    obtain ⟨b6, h6, h⟩ := (sbind_ok _ _ _).mp h
    obtain ⟨b7, h7, h⟩ := (sbind_ok _ _ _).mp h
    obtain ⟨b8, h8, h⟩ := (sbind_ok _ _ _).mp h
    obtain ⟨b9, h9, h⟩ := (sbind_ok _ _ _).mp h
    obtain ⟨b10, h10, h⟩ := (sbind_ok _ _ _).mp h
    obtain ⟨b11, h11, h⟩ := (sbind_ok _ _ _).mp h
    obtain ⟨b12, h12, h⟩ := (sbind_ok _ _ _).mp h
    cases h
    obtain ⟨t1, e1, l1⟩ := pad_step _ _ _ _ _ h1
    obtain ⟨t2, e2, l2⟩ := pad_step _ _ _ _ _ h2
    obtain ⟨t3, e3, l3⟩ := cat_step _ _ _ _ _ h3
    obtain ⟨t4, e4, l4⟩ := pad_step _ _ _ _ _ h4
    obtain ⟨t5, e5, l5⟩ := cat_step _ _ _ _ _ h5
    obtain ⟨t6, e6, l6⟩ := pad_step _ _ _ _ _ h6
    obtain ⟨t7, e7, l7⟩ := pad_step _ _ _ _ _ h7
    obtain ⟨t8, e8, l8⟩ := pad_step _ _ _ _ _ h8
    obtain ⟨t9, e9, l9⟩ := cat_step _ _ _ _ _ h9
    obtain ⟨t10, e10, l10⟩ := pad_step _ _ _ _ _ h10
    obtain ⟨t11, e11, l11⟩ := cat_step _ _ _ _ _ h11
    obtain ⟨t12, e12, l12⟩ := pad_step _ _ _ _ _ h12
    refine ⟨np, hp, t1 ++ t2 ++ t3 ++ t4 ++ t5 ++ t6 ++ t7 ++ t8 ++ t9 ++ t10 ++ t11 ++ t12,
      ?_, ?_⟩
    · rw [e12, e11, e10, e9, e8, e7, e6, e5, e4, e3, e2, e1]
      simp only [List.append_assoc]
    · simp only [List.length_append, Nat.cast_add]
      rw [l1, l2, l3, l4, l5, l6, l7, l8, l9, l10, l11, l12]
      have hp := pad_sum np.pad_type np.pad_size
      have z1 : (if np.ip_trailing_zeros ≠ 0 then np.ip_trailing_zeros else 0)
          = np.ip_trailing_zeros := by
        split_ifs <;> omega
      have z2 : (if np.fp_leading_zeros ≠ 0 then np.fp_leading_zeros else 0)
          = np.fp_leading_zeros := by
        split_ifs <;> omega
      have z3 : (if np.fp_trailing_zeros ≠ 0 then np.fp_trailing_zeros else 0)
          = np.fp_trailing_zeros := by
        split_ifs <;> omega
      rw [z1, z2, z3]
      generalize (if np.pad_type = pad_t.LEFT ∧ np.pad_size ≠ 0 then np.pad_size else 0) = x1
        at hp
      generalize (if np.pad_type = pad_t.LEADING_ZEROS ∧ np.pad_size ≠ 0 then np.pad_size
        else 0) = x2 at hp
      generalize (if np.pad_type = pad_t.RIGHT ∧ np.pad_size ≠ 0 then np.pad_size else 0) = x3
        at hp
      generalize (if np.sign ≠ NUL then (1 : Int) else 0) = y1
      generalize (if np.point ≠ NUL then (1 : Int) else 0) = y2
      generalize (if np.prefix_ptr = none then 0 else np.prefix_size) = y3
      generalize (if np.ip_ptr = none then 0 else np.ip_size) = y4
      generalize (if np.fp_ptr = none then 0 else np.fp_size) = y5
      generalize (if np.exp_ptr = none then 0 else np.exp_size) = y6
      omega

/-! ## Every part with a size has a string -/

theorem set_sign_inv (np : number_parts) (p : mpfr_struct) (spec : printf_spec)
    (h : PartsInv np) : PartsInv (set_sign np p spec) := by
  unfold set_sign
  split_ifs <;> exact h

theorem fraction_digits_inv (np np' : number_parts) (str : CPtr) (spec : printf_spec)
    (trim fill : Bool) (h : PartsInv np)
    (e : fraction_digits np str spec trim fill = .ok (some np')) : PartsInv np' := by
  unfold fraction_digits at e
  obtain ⟨n1, _, e⟩ := (sbind_ok _ _ _).mp e
  obtain ⟨n2, _, e⟩ := (sbind_ok _ _ _).mp e
  obtain ⟨h1, h2, h3, h4, h5⟩ := h
  split_ifs at e <;> cases e <;>
    first | exact ⟨h1, h2, h3, h4, h5⟩ | exact ⟨h1, h2, h3, by simp, h5⟩

theorem exponent_part_inv (X : PrintCallees) (np np' : number_parts) (exp least : Int)
    (fmt : List Char) (r : Int) (h : PartsInv np)
    (e : exponent_part X np exp least fmt = .ok (r, np')) : PartsInv np' := by
  unfold exponent_part register_string at e
  obtain ⟨h1, h2, h3, h4, h5⟩ := h
  simp only [] at e
  split_ifs at e <;> cases e <;> exact ⟨h1, h2, h3, h4, by simp⟩

theorem with_sl_inv (np : number_parts) (sl : List (List Char)) (h : PartsInv np) :
    PartsInv { np with sl := sl } := h

theorem with_point_inv (np : number_parts) (c : Char) (h : PartsInv np) :
    PartsInv { np with point := c } := h

theorem regular_ab_inv (W : Nat) (X : PrintCallees) (np np' : number_parts) (p : mpfr_struct)
    (spec : printf_spec) (r : Int) (h : PartsInv np)
    (e : regular_ab W X np p spec = .ok (r, np')) : PartsInv np' := by
  unfold regular_ab at e
  simp only [] at e
  obtain ⟨t, ht, e⟩ := (sbind_ok _ _ _).mp e
  obtain ⟨sl, _, e⟩ := (sbind_ok _ _ _).mp e
  obtain ⟨o, ho, e⟩ := (sbind_ok _ _ _).mp e
  have h0 := set_sign_inv np p spec h
  generalize set_sign np p spec = np0 at ht h0
  obtain ⟨h1, h2, h3, h4, h5⟩ := h0
  have it : PartsInv t.1 := by
    split at ht
    · cases ht
      by_cases hc : spec.spec = 'a' ∨ spec.spec = 'A'
      · simp [PartsInv, register_string, hc, h1]
        exact ⟨h4, h5⟩
      · simp [PartsInv, register_string, hc, h1]
        exact ⟨h2, h4, h5⟩
    · obtain ⟨d, _, ht⟩ := (sbind_ok _ _ _).mp ht
      split at ht
      · cases ht
      · cases ht
        by_cases hc : spec.spec = 'a' ∨ spec.spec = 'A'
        · simp [PartsInv, register_string, hc, h1]
          exact ⟨h4, h5⟩
        · simp [PartsInv, register_string, hc, h1]
          exact ⟨h2, h4, h5⟩
  have it2 : PartsInv { t.1 with sl := sl } := it
  have io : ∀ n, o = some n → PartsInv n := by
    intro n hn
    subst hn
    split at ho
    · exact fraction_digits_inv _ _ _ _ _ _ it2 ho
    · cases ho
      exact it2
  cases o with
  | none =>
    cases e
    exact it2
  | some n =>
    simp only [] at e
    refine exponent_part_inv X _ _ _ _ _ _ ?_ e
    have := io n rfl
    split_ifs
    · exact this
    · exact this

theorem regular_eg_inv (X : PrintCallees) (np np' : number_parts) (p : mpfr_struct)
    (spec : printf_spec) (r : Int) (h : PartsInv np)
    (e : regular_eg X np p spec = .ok (r, np')) : PartsInv np' := by
  unfold regular_eg at e
  simp only [] at e
  obtain ⟨o, ho, e⟩ := (sbind_ok _ _ _).mp e
  have h0 := set_sign_inv np p spec h
  generalize set_sign np p spec = np0 at ho e h0
  obtain ⟨h1, h2, h3, h4, h5⟩ := h0
  generalize hg : X.mpfr_get_str 10 _ p spec.rnd_mode = g at ho e
  generalize hstr : (if MPFR_IS_NEG p then
    (⟨(register_string { np0 with ip_size := 1 } g.1).2.idx,
      (register_string { np0 with ip_size := 1 } g.1).2.off + 1⟩ : CPtr)
    else (register_string { np0 with ip_size := 1 } g.1).2) = str at ho e
  have it : PartsInv { (register_string { np0 with ip_size := 1 } g.1).1 with
      ip_ptr := some str } := by
    simp [PartsInv, register_string, h1]
    exact ⟨h2, h4, h5⟩
  generalize { (register_string { np0 with ip_size := 1 } g.1).1 with
      ip_ptr := some str } = np1 at ho e it
  have io : ∀ n, o = some n → PartsInv n := by
    intro n hn
    subst hn
    split at ho
    · exact fraction_digits_inv _ _ _ _ _ _ it ho
    · cases ho
      exact it
  cases o with
  | none =>
    cases e
    exact it
  | some n =>
    simp only [] at e
    refine exponent_part_inv X _ _ _ _ _ _ ?_ e
    have := io n rfl
    split_ifs
    · exact this
    · exact this

theorem fg_too_small_inv (X : PrintCallees) (np np' : number_parts) (x p : mpfr_struct)
    (spec : printf_spec) (spec_g : Bool) (h : PartsInv np)
    (e : fg_too_small X np x p spec spec_g = .ok np') : PartsInv np' := by
  unfold fg_too_small at e
  simp only [] at e
  obtain ⟨h1, h2, h3, h4, h5⟩ := h
  generalize (if rnd_away_of p spec.rnd_mode = -1 then _ else rnd_away_of p spec.rnd_mode)
    = ra at e
  split at e
  · cases e
  · split at e
    · cases e
      cases spec_g
      · simp [PartsInv, register_string, h1]
        exact ⟨h2, h3, h5⟩
      · simp [PartsInv, register_string, h1]
        exact ⟨h2, h3, h5⟩
    · cases e
      exact ⟨h1, h2, h3, h4, h5⟩

theorem fg_fraction_inv (X : PrintCallees) (np np' : number_parts) (x p : mpfr_struct)
    (spec : printf_spec) (spec_g keep : Bool) (h : PartsInv np)
    (e : fg_fraction X np x p spec spec_g keep = .ok (some np')) : PartsInv np' := by
  unfold fg_fraction at e
  simp only [] at e
  obtain ⟨h1, h2, h3, h4, h5⟩ := h
  generalize (if spec.prec < 0 then (0 : Int) else _) = nsd at e
  split at e
  · cases e
  · obtain ⟨n1, _, e⟩ := (sbind_ok _ _ _).mp e
    obtain ⟨n2, _, e⟩ := (sbind_ok _ _ _).mp e
    split at e
    · cases e
    · split at e
      · cases e
      · split_ifs at e <;> cases e <;> simp [PartsInv, register_string, h1] <;>
          exact ⟨h2, h3, h5⟩

theorem fg_small_inv (X : PrintCallees) (np np' : number_parts) (x p : mpfr_struct)
    (spec : printf_spec) (spec_g keep : Bool) (h : PartsInv np)
    (e : fg_small X np x p spec spec_g keep = .ok (some np')) : PartsInv np' := by
  unfold fg_small at e
  simp only [] at e
  generalize fg_rnd_to_one X x p spec spec_g = t at e
  split at e
  · cases e
  · obtain ⟨o, ho, e⟩ := (sbind_ok _ _ _).mp e
    have hip : ∀ c : Char, PartsInv
        { (register_string { np with ip_size := 1 } [c]).1 with
          ip_ptr := some (register_string { np with ip_size := 1 } [c]).2 } := by
      intro c
      obtain ⟨h1, h2, h3, h4, h5⟩ := h
      simp [PartsInv, register_string, h1]
      exact ⟨h2, h4, h5⟩
    have io : ∀ n, o = some n → PartsInv n := by
      intro n hn
      subst hn
      split at ho
      · obtain ⟨h1, h2, h3, h4, h5⟩ := h
        split_ifs at ho <;> cases ho <;> simp [PartsInv, register_string, h1] <;>
          exact ⟨h2, h4, h5⟩
      · have := hip '0'
        split at ho
        · split at ho
          · obtain ⟨n1, hn1, ho⟩ := (sbind_ok _ _ _).mp ho
            cases ho
            exact fg_too_small_inv _ _ _ _ _ _ _ this hn1
          · exact fg_fraction_inv _ _ _ _ _ _ _ _ this ho
        · cases ho
          exact this
    cases o with
    | none => cases e
    | some n =>
      have := io n rfl
      simp only [] at e
      split_ifs at e <;> cases e <;> exact this

theorem fg_large_inv (X : PrintCallees) (np np' : number_parts) (x p : mpfr_struct)
    (spec : printf_spec) (keep : Bool) (h : PartsInv np)
    (e : fg_large X np x p spec keep = .ok (some np')) : PartsInv np' := by
  unfold fg_large at e
  simp only [] at e
  obtain ⟨h1, h2, h3, h4, h5⟩ := h
  generalize X.mpfr_add_ui _ _ 1 GMP_RNDZ = x1 at e
  split at e
  · cases e
  · generalize hnsd : (if spec.prec < 0 then (0 : Int) else _) = nsd at e
    generalize X.mpfr_get_str 10 _ p spec.rnd_mode = g at e
    generalize (if MPFR_IS_NEG p then (_ : CPtr) else _) = str at e
    split at e
    · obtain ⟨n1, _, e⟩ := (sbind_ok _ _ _).mp e
      split at e
      · cases e
        simp [PartsInv, register_string, h1]
        exact ⟨h2, h4, h5⟩
      · obtain ⟨n2, _, e⟩ := (sbind_ok _ _ _).mp e
        split_ifs at e <;> cases e <;> simp [PartsInv, register_string, h1] <;>
          first | exact ⟨h2, h4, h5⟩ | exact ⟨h2, h5⟩
    · split_ifs at e <;> cases e <;> simp [PartsInv, register_string, h1] <;>
        first | exact ⟨h2, h4, h5⟩ | exact ⟨h2, h5⟩

theorem regular_fg_inv (X : PrintCallees) (np np' : number_parts) (p : mpfr_struct)
    (spec : printf_spec) (h : PartsInv np)
    (e : regular_fg X np p spec = .ok (0, np')) : PartsInv np' := by
  unfold regular_fg at e
  simp only [] at e
  obtain ⟨o, ho, e⟩ := (sbind_ok _ _ _).mp e
  have h0 := set_sign_inv np p spec h
  cases o with
  | none => cases e
  | some n =>
    cases e
    split at ho
    · exact fg_small_inv _ _ _ _ _ _ _ _ h0 ho
    · exact fg_large_inv _ _ _ _ _ _ _ h0 ho

theorem singular_parts_inv (X : PrintCallees) (np : number_parts) (p : mpfr_struct)
    (spec : printf_spec) (uppercase : Bool) (h : PartsInv np) :
    PartsInv (singular_parts X np p spec uppercase) := by
  unfold singular_parts
  have h0 := set_sign_inv np p spec h
  generalize set_sign np p spec = np0 at h0
  obtain ⟨h1, h2, h3, h4, h5⟩ := h
  obtain ⟨k1, k2, k3, k4, k5⟩ := h0
  by_cases hn : MPFR_IS_NAN p = true
  · rw [if_pos hn]
    by_cases hz : np.pad_type = pad_t.LEADING_ZEROS
    · simp [PartsInv, register_string, h1, hz]
      exact ⟨h2, h4, h5⟩
    · simp [PartsInv, register_string, h1, hz]
      exact ⟨h2, h4, h5⟩
  · rw [if_neg hn]
    by_cases hi : MPFR_IS_INF p = true
    · rw [if_pos hi]
      by_cases hz : np.pad_type = pad_t.LEADING_ZEROS <;> by_cases hs : MPFR_IS_NEG p = true
        <;> simp [PartsInv, register_string, h1, hz, hs] <;> exact ⟨h2, h4, h5⟩
    · rw [if_neg hi]
      by_cases ha : spec.spec = 'a' ∨ spec.spec = 'A'
      · have hx : spec.spec = 'a' ∨ spec.spec = 'A' ∨ spec.spec = 'b' ∨ spec.spec = 'e'
            ∨ spec.spec = 'E' := by
          rcases ha with ha | ha
          · exact Or.inl ha
          · exact Or.inr (Or.inl ha)
        rw [if_pos hx]
        simp only [if_pos ha]
        by_cases hp : 0 < spec.prec
        · simp [PartsInv, register_string, k1, hp]
          exact k4
        · by_cases hal : spec.alt = true
          · simp [PartsInv, register_string, k1, hp, hal]
            exact k4
          · simp [PartsInv, register_string, k1, hp, hal]
            exact k4
      · simp only [if_neg ha]
        by_cases hx : spec.spec = 'a' ∨ spec.spec = 'A' ∨ spec.spec = 'b' ∨ spec.spec = 'e'
            ∨ spec.spec = 'E'
        · rw [if_pos hx]
          by_cases hp : 0 < spec.prec
          · simp [PartsInv, register_string, k1, hp]
            exact ⟨k2, k4⟩
          · by_cases hal : spec.alt = true
            · simp [PartsInv, register_string, k1, hp, hal]
              exact ⟨k2, k4⟩
            · simp [PartsInv, register_string, k1, hp, hal]
              exact ⟨k2, k4⟩
        · rw [if_neg hx]
          by_cases hp : 0 < spec.prec
          · simp [PartsInv, register_string, k1, hp]
            exact ⟨k2, k4, k5⟩
          · by_cases hal : spec.alt = true
            · simp [PartsInv, register_string, k1, hp, hal]
              exact ⟨k2, k4, k5⟩
            · simp [PartsInv, register_string, k1, hp, hal]
              exact ⟨k2, k4, k5⟩

theorem general_parts_inv (X : PrintCallees) (np np' : number_parts) (p : mpfr_struct)
    (spec : printf_spec) (h : PartsInv np)
    (e : general_parts X np p spec = .ok (0, np')) : PartsInv np' := by
  unfold general_parts at e
  simp only [] at e
  generalize X.mpfr_get_si _ GMP_RNDD = x at e
  generalize (if spec.prec < 0 then (6 : Int) else if spec.prec = 0 then 1 else spec.prec)
    = th at e
  by_cases c1 : x < th ∧ -5 ≤ x
  · rw [if_pos c1] at e
    by_cases c2 : x = -5
    · rw [if_pos c2] at e
      generalize (if rnd_away_of p spec.rnd_mode = -1 then _ else rnd_away_of p spec.rnd_mode)
        = ra at e
      by_cases c3 : ra < 0
      · rw [if_pos c3] at e
        cases e
      · rw [if_neg c3] at e
        by_cases c4 : ra ≠ 0
        · rw [if_pos c4] at e
          exact regular_fg_inv _ _ _ _ _ h e
        · rw [if_neg c4] at e
          exact regular_eg_inv _ _ _ _ _ _ h e
    · rw [if_neg c2] at e
      exact regular_fg_inv _ _ _ _ _ h e
  · rw [if_neg c1] at e
    exact regular_eg_inv _ _ _ _ _ _ h e

theorem partition_error_neg (np0 np : number_parts) (len : Int)
    (e : partition_error np0 = (len, np)) (hl : 0 ≤ len) : False := by
  unfold partition_error at e
  simp only [Prod.mk.injEq] at e
  omega

/-- The count of `partition_number`: the sum of the parts, or the width when it is larger,
the difference being the padding. -/
theorem count_parts_eq (np0 np : number_parts) (spec : printf_spec) (len : Int)
    (h : PartsInv np0) (e : count_parts np0 spec = (len, np)) (hl : 0 ≤ len) :
    len = max spec.width (parts_total np) ∧ len = np.pad_size + parts_total np
      ∧ (np.prefix_ptr = none → np.prefix_size = 0) ∧ (np.ip_ptr = none → np.ip_size = 0)
      ∧ (np.fp_ptr = none → np.fp_size = 0) ∧ (np.exp_ptr = none → np.exp_size = 0) := by
  obtain ⟨h1, h2, h3, h4, h5⟩ := h
  unfold count_parts at e
  simp only [] at e
  generalize hs : (if np0.sign ≠ NUL then (1 : Int) else 0) = s at e
  generalize hq : (if np0.point ≠ NUL then (1 : Int) else 0) = q at e
  by_cases c1 : s + np0.prefix_size + np0.ip_size < 0 ∨ INT_MAX < s + np0.prefix_size + np0.ip_size
  · rw [if_pos c1] at e
    exact (partition_error_neg _ _ _ e hl).elim
  rw [if_neg c1] at e
  by_cases c2 : s + np0.prefix_size + np0.ip_size + np0.ip_trailing_zeros < 0
      ∨ INT_MAX < s + np0.prefix_size + np0.ip_size + np0.ip_trailing_zeros
  · rw [if_pos c2] at e
    exact (partition_error_neg _ _ _ e hl).elim
  rw [if_neg c2] at e
  by_cases c3 : s + np0.prefix_size + np0.ip_size + np0.ip_trailing_zeros + q
      + np0.fp_leading_zeros < 0
      ∨ INT_MAX < s + np0.prefix_size + np0.ip_size + np0.ip_trailing_zeros + q
        + np0.fp_leading_zeros
  · rw [if_pos c3] at e
    exact (partition_error_neg _ _ _ e hl).elim
  rw [if_neg c3] at e
  by_cases c4 : s + np0.prefix_size + np0.ip_size + np0.ip_trailing_zeros + q
      + np0.fp_leading_zeros + np0.fp_size < 0
      ∨ INT_MAX < s + np0.prefix_size + np0.ip_size + np0.ip_trailing_zeros + q
        + np0.fp_leading_zeros + np0.fp_size
  · rw [if_pos c4] at e
    exact (partition_error_neg _ _ _ e hl).elim
  rw [if_neg c4] at e
  by_cases c5 : s + np0.prefix_size + np0.ip_size + np0.ip_trailing_zeros + q
      + np0.fp_leading_zeros + np0.fp_size + np0.fp_trailing_zeros < 0
      ∨ INT_MAX < s + np0.prefix_size + np0.ip_size + np0.ip_trailing_zeros + q
        + np0.fp_leading_zeros + np0.fp_size + np0.fp_trailing_zeros
  · rw [if_pos c5] at e
    exact (partition_error_neg _ _ _ e hl).elim
  rw [if_neg c5] at e
  by_cases c6 : s + np0.prefix_size + np0.ip_size + np0.ip_trailing_zeros + q
      + np0.fp_leading_zeros + np0.fp_size + np0.fp_trailing_zeros + np0.exp_size < 0
      ∨ INT_MAX < s + np0.prefix_size + np0.ip_size + np0.ip_trailing_zeros + q
        + np0.fp_leading_zeros + np0.fp_size + np0.fp_trailing_zeros + np0.exp_size
  · rw [if_pos c6] at e
    exact (partition_error_neg _ _ _ e hl).elim
  rw [if_neg c6] at e
  by_cases c7 : s + np0.prefix_size + np0.ip_size + np0.ip_trailing_zeros + q
      + np0.fp_leading_zeros + np0.fp_size + np0.fp_trailing_zeros + np0.exp_size < spec.width
  · rw [if_pos c7] at e
    simp only [Prod.mk.injEq] at e
    obtain ⟨e1, e2⟩ := e
    subst e2
    refine ⟨?_, ?_, h2, h3, h4, h5⟩
    · unfold parts_total
      simp only []
      rw [hs, hq, max_def]
      split_ifs <;> omega
    · unfold parts_total
      simp only []
      rw [hs, hq]
      omega
  · rw [if_neg c7] at e
    simp only [Prod.mk.injEq] at e
    obtain ⟨e1, e2⟩ := e
    subst e2
    refine ⟨?_, ?_, h2, h3, h4, h5⟩
    · unfold parts_total
      rw [hs, hq, max_def]
      split_ifs <;> omega
    · unfold parts_total
      rw [hs, hq]
      omega

/-- A non-negative return value of `partition_number` is the count of the parts it leaves
in `np`. -/
theorem partition_number_eq (W : Nat) (X : PrintCallees) (p : mpfr_struct) (spec : printf_spec)
    (np : number_parts) (len : Int) (e : partition_number W X p spec = .ok (len, np))
    (hl : 0 ≤ len) :
    len = max spec.width (parts_total np) ∧ len = np.pad_size + parts_total np
      ∧ (np.prefix_ptr = none → np.prefix_size = 0) ∧ (np.ip_ptr = none → np.ip_size = 0)
      ∧ (np.fp_ptr = none → np.fp_size = 0) ∧ (np.exp_ptr = none → np.exp_size = 0) := by
  unfold partition_number at e
  simp only [] at e
  obtain ⟨r, hr, e⟩ := (sbind_ok _ _ _).mp e
  by_cases c : r.1 ≠ 0
  · rw [if_pos c] at e
    have e' : partition_error r.2 = (len, np) := (spure_ok _ _).mp e
    exact (partition_error_neg _ _ _ e' hl).elim
  · rw [if_neg c] at e
    have e' : count_parts r.2 spec = (len, np) := (spure_ok _ _).mp e
    have hr0 : r.1 = 0 := not_not.mp c
    obtain ⟨r1, r2⟩ := r
    simp only [] at hr0
    subst hr0
    refine count_parts_eq _ _ _ _ ?_ e' hl
    by_cases s1 : MPFR_IS_SINGULAR p = true
    · rw [if_pos s1] at hr
      cases hr
      exact singular_parts_inv _ _ _ _ _ ⟨rfl, fun _ => rfl, fun _ => rfl, fun _ => rfl, fun _ => rfl⟩
    · rw [if_neg s1] at hr
      by_cases s2 : spec.spec = 'a' ∨ spec.spec = 'A' ∨ spec.spec = 'b'
      · rw [if_pos s2] at hr
        exact regular_ab_inv _ _ _ _ _ _ _ ⟨rfl, fun _ => rfl, fun _ => rfl, fun _ => rfl, fun _ => rfl⟩ hr
      · rw [if_neg s2] at hr
        by_cases s3 : spec.spec = 'f' ∨ spec.spec = 'F'
        · rw [if_pos s3] at hr
          exact regular_fg_inv _ _ _ _ _ ⟨rfl, fun _ => rfl, fun _ => rfl, fun _ => rfl, fun _ => rfl⟩ hr
        · rw [if_neg s3] at hr
          by_cases s4 : spec.spec = 'e' ∨ spec.spec = 'E'
          · rw [if_pos s4] at hr
            exact regular_eg_inv _ _ _ _ _ _ ⟨rfl, fun _ => rfl, fun _ => rfl, fun _ => rfl, fun _ => rfl⟩ hr
          · rw [if_neg s4] at hr
            exact general_parts_inv _ _ _ _ _ ⟨rfl, fun _ => rfl, fun _ => rfl, fun _ => rfl, fun _ => rfl⟩ hr

/-- The length returned by `sprnt_fp` and the characters appended. -/
theorem sprnt_fp_length (W : Nat) (X : PrintCallees) (buf buf' : string_buffer)
    (p : mpfr_struct) (spec : printf_spec) (len : Int)
    (h : sprnt_fp W X buf p spec = .ok (buf', len)) (hl : 0 ≤ len) :
    (∃ t : List Char, buf'.chars = buf.chars ++ t ∧ (t.length : Int) = len)
      ∧ ∃ np, partition_number W X p spec = .ok (len, np)
        ∧ len = max spec.width (parts_total np) := by
  obtain ⟨np, hp, t, e1, e2⟩ := sprnt_fp_appends W X buf buf' p spec len h hl
  obtain ⟨k1, k2, k3, k4, k5, k6⟩ := partition_number_eq W X p spec np len hp hl
  refine ⟨⟨t, e1, ?_⟩, np, hp, k1⟩
  rw [e2, k2]
  unfold parts_total
  have a3 : (if np.prefix_ptr = none then 0 else np.prefix_size) = np.prefix_size := by
    split_ifs with c
    · exact (k3 c).symm
    · rfl
  have a4 : (if np.ip_ptr = none then 0 else np.ip_size) = np.ip_size := by
    split_ifs with c
    · exact (k4 c).symm
    · rfl
  have a5 : (if np.fp_ptr = none then 0 else np.fp_size) = np.fp_size := by
    split_ifs with c
    · exact (k5 c).symm
    · rfl
  have a6 : (if np.exp_ptr = none then 0 else np.exp_size) = np.exp_size := by
    split_ifs with c
    · exact (k6 c).symm
    · rfl
  rw [a3, a4, a5, a6]
  ring

/-! ## The loops of the printing functions end within their fuel -/

theorem nf_bind {α β : Type} (x : Except Stop α) (f : α → Except Stop β)
    (hx : x ≠ .error Stop.fuel) (hf : ∀ a, x = .ok a → f a ≠ .error Stop.fuel) :
    (x >>= f) ≠ .error Stop.fuel := by
  cases x with
  | error e =>
    intro h
    have e0 : (Except.error e >>= f) = Except.error e := rfl
    rw [e0] at h
    cases h
    exact hx rfl
  | ok a => exact hf a rfl

theorem nf_pure {α : Type} (a : α) : (pure a : Except Stop α) ≠ .error Stop.fuel := by
  intro h
  cases h

theorem nf_ite {α : Type} (c : Prop) [Decidable c] (x y : Except Stop α)
    (hx : c → x ≠ .error Stop.fuel) (hy : ¬ c → y ≠ .error Stop.fuel) :
    (if c then x else y) ≠ .error Stop.fuel := by
  by_cases h : c
  · rw [if_pos h]
    exact hx h
  · rw [if_neg h]
    exact hy h

theorem cstr_nf (sl : List (List Char)) (p : CPtr) : cstr sl p ≠ .error Stop.fuel := by
  unfold cstr
  split
  · split_ifs
    · intro h
      cases h
    · intro h
      cases h
  · intro h
    cases h

theorem strlen_nf (sl : List (List Char)) (p : CPtr) : strlen sl p ≠ .error Stop.fuel := by
  unfold strlen
  exact nf_bind _ _ (cstr_nf _ _) (fun _ _ => nf_pure _)

theorem cread_nf (sl : List (List Char)) (p : CPtr) : cread sl p ≠ .error Stop.fuel := by
  unfold cread
  split
  · by_cases h0 : 0 ≤ p.off
    · rw [if_pos h0]
      split
      · intro h
        cases h
      · split_ifs
        · intro h
          cases h
        · intro h
          cases h
    · rw [if_neg h0]
      intro h
      cases h
  · intro h
    cases h

theorem lrd_nf (pm : List Nat) (i : Int) : lrd pm i ≠ .error Stop.fuel := by
  unfold lrd
  split_ifs
  · split
    · intro h
      cases h
    · intro h
      cases h
  · intro h
    cases h

theorem lshr_nf (W x : Nat) (n : Int) : lshr W x n ≠ .error Stop.fuel := by
  unfold lshr
  split_ifs
  · intro h
    cases h
  · intro h
    cases h

theorem lshl_nf (W x : Nat) (n : Int) : lshl W x n ≠ .error Stop.fuel := by
  unfold lshl
  split_ifs
  · intro h
    cases h
  · intro h
    cases h

theorem to_upper_nf (sl : List (List Char)) (p : CPtr) :
    to_upper sl p ≠ .error Stop.fuel := by
  unfold to_upper
  split
  · split_ifs
    · intro h
      cases h
    · intro h
      cases h
  · intro h
    cases h

theorem buffer_cat_nf (b : string_buffer) (s : List Char) (len : Int) :
    buffer_cat b s len ≠ .error Stop.fuel := by
  unfold buffer_cat
  split_ifs <;> intro h <;> cases h

theorem buffer_pad_nf (b : string_buffer) (c : Char) (n : Int) :
    buffer_pad b c n ≠ .error Stop.fuel := by
  unfold buffer_pad
  refine nf_ite _ _ _ (fun _ h => by cases h) (fun _ => ?_)
  refine nf_ite _ _ _ (fun _ h => by cases h) (fun _ => ?_)
  exact buffer_cat_nf _ _ _

/-- The loop that removes trailing zeros ends: each round shortens the string. -/
theorem trim_zeros_nf (sl : List (List Char)) (str : CPtr) :
    ∀ (fuel n : Nat), n < fuel → trim_zeros sl str fuel n ≠ .error Stop.fuel := by
  intro fuel
  induction fuel with
  | zero =>
    intro n h
    omega
  | succ k ih =>
    intro n h
    unfold trim_zeros
    refine nf_bind _ _ (cread_nf _ _) ?_
    intro c _
    refine nf_ite _ _ _ ?_ ?_
    · intro hc
      exact ih (n - 1) (by omega)
    · intro _
      exact nf_pure _

/-- The loop over the low limbs ends: each round moves one limb down. -/
theorem hex_loop_nf (pm : List Nat) :
    ∀ (fuel : Nat) (ps : Int) (limb : Nat), ps ≤ fuel →
      hex_loop pm (fuel + 1) ps limb ≠ .error Stop.fuel := by
  intro fuel
  induction fuel with
  | zero =>
    intro ps limb h
    unfold hex_loop
    refine nf_ite _ _ _ ?_ ?_
    · intro hc
      simp only [Nat.cast_zero] at h
      omega
    · intro _ h
      cases h
  | succ k ih =>
    intro ps limb h
    unfold hex_loop
    refine nf_ite _ _ _ ?_ ?_
    · intro hc
      refine nf_bind _ _ (lrd_nf _ _) ?_
      intro x _
      refine ih _ _ ?_
      push_cast at h
      omega
    · intro _ h
      cases h

set_option linter.unusedTactic false
set_option linter.unreachableTactic false

theorem hex_digit_nf (W : Nat) (p : mpfr_struct) (rnd : mp_rnd_t) :
    hex_digit W p rnd ≠ .error Stop.fuel := by
  unfold hex_digit
  repeat' first
    | exact nf_pure _
    | exact strlen_nf _ _
    | exact cstr_nf _ _
    | exact cread_nf _ _
    | exact lrd_nf _ _
    | exact lshr_nf _ _ _
    | exact lshl_nf _ _ _
    | exact to_upper_nf _ _
    | exact buffer_cat_nf _ _ _
    | exact buffer_pad_nf _ _ _
    | exact trim_zeros_nf _ _ _ _ (Nat.lt_succ_self _)
    | exact hex_loop_nf _ _ _ _ (by simp)
    | (intro h; cases h)
    | refine nf_bind _ _ ?_ (fun _ _ => ?_)
    | refine nf_ite _ _ _ (fun _ => ?_) (fun _ => ?_)
    | split

theorem fraction_digits_nf (np : number_parts) (str : CPtr) (spec : printf_spec) (trim fill : Bool) :
    fraction_digits np str spec trim fill ≠ .error Stop.fuel := by
  unfold fraction_digits
  repeat' first
    | exact nf_pure _
    | exact strlen_nf _ _
    | exact cstr_nf _ _
    | exact cread_nf _ _
    | exact lrd_nf _ _
    | exact lshr_nf _ _ _
    | exact lshl_nf _ _ _
    | exact to_upper_nf _ _
    | exact buffer_cat_nf _ _ _
    | exact buffer_pad_nf _ _ _
    | exact trim_zeros_nf _ _ _ _ (Nat.lt_succ_self _)
    | exact hex_loop_nf _ _ _ _ (by simp)
    | (intro h; cases h)
    | refine nf_bind _ _ ?_ (fun _ _ => ?_)
    | refine nf_ite _ _ _ (fun _ => ?_) (fun _ => ?_)
    | split

theorem exponent_part_nf (X : PrintCallees) (np : number_parts) (exp least : Int) (fmt : List Char) :
    exponent_part X np exp least fmt ≠ .error Stop.fuel := by
  unfold exponent_part
  repeat' first
    | exact nf_pure _
    | exact strlen_nf _ _
    | exact cstr_nf _ _
    | exact cread_nf _ _
    | exact lrd_nf _ _
    | exact lshr_nf _ _ _
    | exact lshl_nf _ _ _
    | exact to_upper_nf _ _
    | exact buffer_cat_nf _ _ _
    | exact buffer_pad_nf _ _ _
    | exact trim_zeros_nf _ _ _ _ (Nat.lt_succ_self _)
    | exact hex_loop_nf _ _ _ _ (by simp)
    | (intro h; cases h)
    | refine nf_bind _ _ ?_ (fun _ _ => ?_)
    | refine nf_ite _ _ _ (fun _ => ?_) (fun _ => ?_)
    | split

theorem regular_ab_nf (W : Nat) (X : PrintCallees) (np : number_parts) (p : mpfr_struct) (spec : printf_spec) :
    regular_ab W X np p spec ≠ .error Stop.fuel := by
  unfold regular_ab
  repeat' first
    | exact nf_pure _
    | exact strlen_nf _ _
    | exact cstr_nf _ _
    | exact cread_nf _ _
    | exact lrd_nf _ _
    | exact lshr_nf _ _ _
    | exact lshl_nf _ _ _
    | exact to_upper_nf _ _
    | exact buffer_cat_nf _ _ _
    | exact buffer_pad_nf _ _ _
    | exact trim_zeros_nf _ _ _ _ (Nat.lt_succ_self _)
    | exact hex_loop_nf _ _ _ _ (by simp)
    | exact hex_digit_nf _ _ _
    | exact fraction_digits_nf _ _ _ _ _
    | exact exponent_part_nf _ _ _ _ _
    | (intro h; cases h)
    | refine nf_bind _ _ ?_ (fun _ _ => ?_)
    | refine nf_ite _ _ _ (fun _ => ?_) (fun _ => ?_)
    | split

theorem regular_eg_nf (X : PrintCallees) (np : number_parts) (p : mpfr_struct) (spec : printf_spec) :
    regular_eg X np p spec ≠ .error Stop.fuel := by
  unfold regular_eg
  repeat' first
    | exact nf_pure _
    | exact strlen_nf _ _
    | exact cstr_nf _ _
    | exact cread_nf _ _
    | exact lrd_nf _ _
    | exact lshr_nf _ _ _
    | exact lshl_nf _ _ _
    | exact to_upper_nf _ _
    | exact buffer_cat_nf _ _ _
    | exact buffer_pad_nf _ _ _
    | exact trim_zeros_nf _ _ _ _ (Nat.lt_succ_self _)
    | exact hex_loop_nf _ _ _ _ (by simp)
    | exact fraction_digits_nf _ _ _ _ _
    | exact exponent_part_nf _ _ _ _ _
    | (intro h; cases h)
    | refine nf_bind _ _ ?_ (fun _ _ => ?_)
    | refine nf_ite _ _ _ (fun _ => ?_) (fun _ => ?_)
    | split

theorem fg_too_small_nf (X : PrintCallees) (np : number_parts) (x p : mpfr_struct) (spec : printf_spec) (spec_g : Bool) :
    fg_too_small X np x p spec spec_g ≠ .error Stop.fuel := by
  unfold fg_too_small
  repeat' first
    | exact nf_pure _
    | exact strlen_nf _ _
    | exact cstr_nf _ _
    | exact cread_nf _ _
    | exact lrd_nf _ _
    | exact lshr_nf _ _ _
    | exact lshl_nf _ _ _
    | exact to_upper_nf _ _
    | exact buffer_cat_nf _ _ _
    | exact buffer_pad_nf _ _ _
    | exact trim_zeros_nf _ _ _ _ (Nat.lt_succ_self _)
    | exact hex_loop_nf _ _ _ _ (by simp)
    | (intro h; cases h)
    | refine nf_bind _ _ ?_ (fun _ _ => ?_)
    | refine nf_ite _ _ _ (fun _ => ?_) (fun _ => ?_)
    | split

theorem fg_fraction_nf (X : PrintCallees) (np : number_parts) (x p : mpfr_struct) (spec : printf_spec) (spec_g keep : Bool) :
    fg_fraction X np x p spec spec_g keep ≠ .error Stop.fuel := by
  unfold fg_fraction
  repeat' first
    | exact nf_pure _
    | exact strlen_nf _ _
    | exact cstr_nf _ _
    | exact cread_nf _ _
    | exact lrd_nf _ _
    | exact lshr_nf _ _ _
    | exact lshl_nf _ _ _
    | exact to_upper_nf _ _
    | exact buffer_cat_nf _ _ _
    | exact buffer_pad_nf _ _ _
    | exact trim_zeros_nf _ _ _ _ (Nat.lt_succ_self _)
    | exact hex_loop_nf _ _ _ _ (by simp)
    | (intro h; cases h)
    | refine nf_bind _ _ ?_ (fun _ _ => ?_)
    | refine nf_ite _ _ _ (fun _ => ?_) (fun _ => ?_)
    | split

theorem fg_small_nf (X : PrintCallees) (np : number_parts) (x p : mpfr_struct) (spec : printf_spec) (spec_g keep : Bool) :
    fg_small X np x p spec spec_g keep ≠ .error Stop.fuel := by
  unfold fg_small
  repeat' first
    | exact nf_pure _
    | exact strlen_nf _ _
    | exact cstr_nf _ _
    | exact cread_nf _ _
    | exact lrd_nf _ _
    | exact lshr_nf _ _ _
    | exact lshl_nf _ _ _
    | exact to_upper_nf _ _
    | exact buffer_cat_nf _ _ _
    | exact buffer_pad_nf _ _ _
    | exact trim_zeros_nf _ _ _ _ (Nat.lt_succ_self _)
    | exact hex_loop_nf _ _ _ _ (by simp)
    | exact fg_too_small_nf _ _ _ _ _ _
    | exact fg_fraction_nf _ _ _ _ _ _ _
    | (intro h; cases h)
    | refine nf_bind _ _ ?_ (fun _ _ => ?_)
    | refine nf_ite _ _ _ (fun _ => ?_) (fun _ => ?_)
    | split

theorem fg_large_nf (X : PrintCallees) (np : number_parts) (x p : mpfr_struct) (spec : printf_spec) (keep : Bool) :
    fg_large X np x p spec keep ≠ .error Stop.fuel := by
  unfold fg_large
  repeat' first
    | exact nf_pure _
    | exact strlen_nf _ _
    | exact cstr_nf _ _
    | exact cread_nf _ _
    | exact lrd_nf _ _
    | exact lshr_nf _ _ _
    | exact lshl_nf _ _ _
    | exact to_upper_nf _ _
    | exact buffer_cat_nf _ _ _
    | exact buffer_pad_nf _ _ _
    | exact trim_zeros_nf _ _ _ _ (Nat.lt_succ_self _)
    | exact hex_loop_nf _ _ _ _ (by simp)
    | (intro h; cases h)
    | refine nf_bind _ _ ?_ (fun _ _ => ?_)
    | refine nf_ite _ _ _ (fun _ => ?_) (fun _ => ?_)
    | split

theorem regular_fg_nf (X : PrintCallees) (np : number_parts) (p : mpfr_struct) (spec : printf_spec) :
    regular_fg X np p spec ≠ .error Stop.fuel := by
  unfold regular_fg
  repeat' first
    | exact nf_pure _
    | exact strlen_nf _ _
    | exact cstr_nf _ _
    | exact cread_nf _ _
    | exact lrd_nf _ _
    | exact lshr_nf _ _ _
    | exact lshl_nf _ _ _
    | exact to_upper_nf _ _
    | exact buffer_cat_nf _ _ _
    | exact buffer_pad_nf _ _ _
    | exact trim_zeros_nf _ _ _ _ (Nat.lt_succ_self _)
    | exact hex_loop_nf _ _ _ _ (by simp)
    | exact fg_small_nf _ _ _ _ _ _ _
    | exact fg_large_nf _ _ _ _ _ _
    | (intro h; cases h)
    | refine nf_bind _ _ ?_ (fun _ _ => ?_)
    | refine nf_ite _ _ _ (fun _ => ?_) (fun _ => ?_)
    | split

theorem general_parts_nf (X : PrintCallees) (np : number_parts) (p : mpfr_struct) (spec : printf_spec) :
    general_parts X np p spec ≠ .error Stop.fuel := by
  unfold general_parts
  repeat' first
    | exact nf_pure _
    | exact strlen_nf _ _
    | exact cstr_nf _ _
    | exact cread_nf _ _
    | exact lrd_nf _ _
    | exact lshr_nf _ _ _
    | exact lshl_nf _ _ _
    | exact to_upper_nf _ _
    | exact buffer_cat_nf _ _ _
    | exact buffer_pad_nf _ _ _
    | exact trim_zeros_nf _ _ _ _ (Nat.lt_succ_self _)
    | exact hex_loop_nf _ _ _ _ (by simp)
    | exact regular_fg_nf _ _ _ _
    | exact regular_eg_nf _ _ _ _
    | (intro h; cases h)
    | refine nf_bind _ _ ?_ (fun _ _ => ?_)
    | refine nf_ite _ _ _ (fun _ => ?_) (fun _ => ?_)
    | split

theorem partition_number_nf (W : Nat) (X : PrintCallees) (p : mpfr_struct) (spec : printf_spec) :
    partition_number W X p spec ≠ .error Stop.fuel := by
  unfold partition_number
  repeat' first
    | exact nf_pure _
    | exact strlen_nf _ _
    | exact cstr_nf _ _
    | exact cread_nf _ _
    | exact lrd_nf _ _
    | exact lshr_nf _ _ _
    | exact lshl_nf _ _ _
    | exact to_upper_nf _ _
    | exact buffer_cat_nf _ _ _
    | exact buffer_pad_nf _ _ _
    | exact trim_zeros_nf _ _ _ _ (Nat.lt_succ_self _)
    | exact hex_loop_nf _ _ _ _ (by simp)
    | exact regular_ab_nf _ _ _ _ _
    | exact regular_fg_nf _ _ _ _
    | exact regular_eg_nf _ _ _ _
    | exact general_parts_nf _ _ _ _
    | (intro h; cases h)
    | refine nf_bind _ _ ?_ (fun _ _ => ?_)
    | refine nf_ite _ _ _ (fun _ => ?_) (fun _ => ?_)
    | split

theorem sprnt_fp_nf (W : Nat) (X : PrintCallees) (buf : string_buffer) (p : mpfr_struct) (spec : printf_spec) :
    sprnt_fp W X buf p spec ≠ .error Stop.fuel := by
  unfold sprnt_fp
  repeat' first
    | exact nf_pure _
    | exact strlen_nf _ _
    | exact cstr_nf _ _
    | exact cread_nf _ _
    | exact lrd_nf _ _
    | exact lshr_nf _ _ _
    | exact lshl_nf _ _ _
    | exact to_upper_nf _ _
    | exact buffer_cat_nf _ _ _
    | exact buffer_pad_nf _ _ _
    | exact trim_zeros_nf _ _ _ _ (Nat.lt_succ_self _)
    | exact hex_loop_nf _ _ _ _ (by simp)
    | exact partition_number_nf _ _ _ _
    | (intro h; cases h)
    | refine nf_bind _ _ ?_ (fun _ _ => ?_)
    | refine nf_ite _ _ _ (fun _ => ?_) (fun _ => ?_)
    | split

set_option linter.unusedTactic true
set_option linter.unreachableTactic true

/-- C16: a run of `sprnt_fp` never stops for lack of fuel, and whenever it returns a
non-negative length, the buffer holds its previous characters followed by exactly that many
new ones, and the length is the larger of `spec.width` and the total of the sizes of the
sign, the prefix, the integral part with its trailing zeros, the decimal point, the
fractional part with its leading and trailing zeros, and the exponent part that
`partition_number` computed. -/
theorem C16_sprnt_fp_length (W : Nat) (X : PrintCallees) (buf : string_buffer)
    (p : mpfr_struct) (spec : printf_spec) :
    sprnt_fp W X buf p spec ≠ .error Stop.fuel
      ∧ ∀ (buf' : string_buffer) (len : Int),
        sprnt_fp W X buf p spec = .ok (buf', len) → 0 ≤ len →
          (∃ t : List Char, buf'.chars = buf.chars ++ t ∧ (t.length : Int) = len)
            ∧ ∃ np, partition_number W X p spec = .ok (len, np)
              ∧ len = max spec.width (parts_total np) :=
  ⟨sprnt_fp_nf W X buf p spec, fun buf' len h hl => sprnt_fp_length W X buf buf' p spec len h hl⟩

theorem C16_sprnt_fp_length_witness :
    sprnt_fp 64 c16_X c16_buf c16_p c16_spec = .ok (c16_out, 12) ∧ (0 : Int) ≤ 12
      ∧ (∃ t : List Char, c16_out.chars = c16_buf.chars ++ t ∧ (t.length : Int) = 12)
      ∧ ∃ np, partition_number 64 c16_X c16_p c16_spec = .ok (12, np)
        ∧ (12 : Int) = max c16_spec.width (parts_total np) :=
  ⟨rfl, by decide,
    (C16_sprnt_fp_length 64 c16_X c16_buf c16_p c16_spec).2 c16_out 12 rfl (by decide)⟩

/-! ## The dispatch of `mpfr_add` -/

theorem abs_value {W : Nat} {x : mpfr_t} (hl : x.mant.length = (x.prec - 1) / W + 1) :
    |value W x| = (limbsVal W x.mant : ℚ)
      * (2 : ℚ) ^ (x.exp - (((x.prec - 1) / W + 1 : Nat) : Int) * (W : Int)) := by
  rw [value_of_length hl, mul_assoc]
  exact abs_signed _ _ (sign_cases x) (by positivity)

/-- The magnitude of a normalised value lies in `[2 ^ (EXP - 1), 2 ^ EXP)`. -/
theorem abs_value_bounds {W : Nat} {x : mpfr_t} (hW : 1 ≤ W) (w : WF W x) :
    (2 : ℚ) ^ (x.exp - 1) ≤ |value W x| ∧ |value W x| < (2 : ℚ) ^ x.exp := by
  have hl := wf_length w.2.1
  have ht := wf_top hW w
  have hlt := limbsVal_lt W x.mant w.2.2.1
  rw [hl] at hlt
  rw [abs_value hl]
  generalize hn : (x.prec - 1) / W + 1 = n at *
  have hn1 : 1 ≤ W * n := by
    rw [← hn]
    exact le_trans hW (Nat.le_mul_of_pos_right W (Nat.succ_pos _))
  have hK : (0 : ℚ) < (2 : ℚ) ^ (x.exp - (n : Int) * (W : Int)) := by positivity
  constructor
  · have e1 : (2 : ℚ) ^ (x.exp - 1)
        = ((2 ^ (W * n - 1) : Nat) : ℚ) * (2 : ℚ) ^ (x.exp - (n : Int) * (W : Int)) := by
      rw [Nat.cast_pow, Nat.cast_ofNat, ← zpow_natCast, ← zpow_add₀ (by norm_num : (2 : ℚ) ≠ 0)]
      congr 1
      rw [Nat.cast_sub hn1]
      push_cast
      ring
    rw [e1]
    exact mul_le_mul_of_nonneg_right (by exact_mod_cast ht) hK.le
  · have e1 : (2 : ℚ) ^ x.exp
        = ((2 ^ (W * n) : Nat) : ℚ) * (2 : ℚ) ^ (x.exp - (n : Int) * (W : Int)) := by
      rw [Nat.cast_pow, Nat.cast_ofNat, ← zpow_natCast, ← zpow_add₀ (by norm_num : (2 : ℚ) ≠ 0)]
      congr 1
      push_cast
      ring
    rw [e1]
    exact mul_lt_mul_of_pos_right (by exact_mod_cast hlt) hK

/-- A larger exponent is a larger magnitude. -/
theorem abs_value_lt_of_exp {W : Nat} {x y : mpfr_t} (hW : 1 ≤ W) (wx : WF W x) (wy : WF W y)
    (h : x.exp < y.exp) : |value W x| < |value W y| := by
  have hx := (abs_value_bounds hW wx).2
  have hy := (abs_value_bounds hW wy).1
  refine lt_of_lt_of_le hx (le_trans ?_ hy)
  exact zpow_le_zpow_right₀ (by norm_num) (by omega)

/-- The comparison of `b` with `-c` for operands of opposite sign: its sign, multiplied by
the sign of `b`, is the sign of `|b| - |c|`. -/
theorem cmp3_opposite {W : Nat} {b c : mpfr_t}
    (hlb : b.mant.length = (b.prec - 1) / W + 1) (hlc : c.mant.length = (c.prec - 1) / W + 1)
    (hs : b.neg ≠ c.neg) :
    (mpfr_cmp3 W b c (-1) = 0 ↔ |value W b| = |value W c|)
      ∧ (0 < mpfr_cmp3 W b c (-1) * MPFR_SIGN b ↔ |value W c| < |value W b|) := by
  rw [abs_value hlb, abs_value hlc]
  unfold mpfr_cmp3 nlimbs
  rw [Int.toNat_ofNat, Int.toNat_ofNat, List.take_of_length_le (by omega),
    List.take_of_length_le (by omega)]
  generalize (b.prec - 1) / W + 1 = nb
  generalize (c.prec - 1) / W + 1 = nc
  generalize limbsVal W b.mant = Lb
  generalize limbsVal W c.mant = Lc
  simp only []
  generalize hEb : b.exp - (nb : Int) * (W : Int) = eb
  generalize hEc : c.exp - (nc : Int) * (W : Int) = ec
  obtain ⟨tb, htb⟩ : ∃ tb : Nat, eb - min eb ec = (tb : Int) :=
    ⟨(eb - min eb ec).toNat, by omega⟩
  obtain ⟨tc, htc⟩ : ∃ tc : Nat, ec - min eb ec = (tc : Int) :=
    ⟨(ec - min eb ec).toNat, by omega⟩
  rw [htb, htc, Int.toNat_ofNat, Int.toNat_ofNat]
  have qb : (Lb : ℚ) * (2 : ℚ) ^ eb = ((Lb * 2 ^ tb : Nat) : ℚ) * (2 : ℚ) ^ (min eb ec) := by
    have : eb = (tb : Int) + min eb ec := by omega
    rw [this, zpow_add₀ (by norm_num : (2 : ℚ) ≠ 0), zpow_natCast]
    push_cast
    rw [← this]
    ring
  have qc : (Lc : ℚ) * (2 : ℚ) ^ ec = ((Lc * 2 ^ tc : Nat) : ℚ) * (2 : ℚ) ^ (min eb ec) := by
    have : ec = (tc : Int) + min eb ec := by omega
    rw [this, zpow_add₀ (by norm_num : (2 : ℚ) ≠ 0), zpow_natCast]
    push_cast
    rw [← this]
    ring
  rw [qb, qc]
  have hK : (0 : ℚ) < (2 : ℚ) ^ (min eb ec) := by positivity
  have cb : (MPFR_SIGN b * (Lb : Int) * 2 ^ tb) = MPFR_SIGN b * ((Lb * 2 ^ tb : Nat) : Int) := by
    push_cast
    ring
  have cc : (-1 * MPFR_SIGN c * (Lc : Int) * 2 ^ tc)
      = -MPFR_SIGN c * ((Lc * 2 ^ tc : Nat) : Int) := by
    push_cast
    ring
  rw [cb, cc]
  generalize Lb * 2 ^ tb = Nb
  generalize Lc * 2 ^ tc = Nc
  have i1 : ((Nb : ℚ) * (2 : ℚ) ^ (min eb ec) = (Nc : ℚ) * (2 : ℚ) ^ (min eb ec)) ↔ Nb = Nc := by
    constructor
    · intro h
      have := mul_right_cancel₀ hK.ne' h
      exact_mod_cast this
    · intro h
      rw [h]
  have i2 : ((Nc : ℚ) * (2 : ℚ) ^ (min eb ec) < (Nb : ℚ) * (2 : ℚ) ^ (min eb ec)) ↔ Nc < Nb := by
    rw [mul_lt_mul_right hK]
    exact Nat.cast_lt
  rw [i1, i2]
  unfold MPFR_SIGN
  cases hb : b.neg <;> cases hc : c.neg
  · rw [hb, hc] at hs
    exact absurd rfl hs
  · simp only [Bool.false_eq_true, ↓reduceIte]
    constructor
    · split_ifs <;> first | omega | (simp only [false_iff, true_iff, iff_false, iff_true]; omega)
    · split_ifs <;> omega
  · simp only [Bool.false_eq_true, ↓reduceIte]
    constructor
    · split_ifs <;> first | omega | (simp only [false_iff, true_iff, iff_false, iff_true]; omega)
    · split_ifs <;> omega
  · rw [hb, hc] at hs
    exact absurd rfl hs

theorem mpfr_add_opposite (W : Nat) (X : Callees) (h : Heap) (a b c : Ptr) (rnd : mp_rnd_t)
    (hb : Regular W (h b)) (hc : Regular W (h c)) (hs : (h b).neg ≠ (h c).neg) :
    mpfr_add W X h a b c rnd =
      if to_int ((h b).exp - (h c).exp) < 0 then
        (if to_int ((h b).exp - (h c).exp) = -2 ^ 31 then .error Fault.overflow
        else .ok (X.mpfr_sub1 h a c b rnd (-to_int ((h b).exp - (h c).exp))))
      else if 0 < to_int ((h b).exp - (h c).exp) then
        .ok (X.mpfr_sub1 h a b c rnd (to_int ((h b).exp - (h c).exp)))
      else if mpfr_cmp3 W (h b) (h c) (-1) = 0 then .ok (h.set a (X.SET_ZERO (h a)))
      else if 0 < mpfr_cmp3 W (h b) (h c) (-1) * MPFR_SIGN (h b) then
        .ok (X.mpfr_sub1 h a b c rnd 0)
      else .ok (X.mpfr_sub1 h a c b rnd 0) := by
  obtain ⟨nb, zb, hzb, hzb0⟩ := hb
  obtain ⟨nc, zc, hzc, hzc0⟩ := hc
  have hsg : MPFR_SIGN (h b) * MPFR_SIGN (h c) < 0 := (sign_mul_neg _ _).mpr hs
  simp only [mpfr_add, nb, nc, hzb, hzc, hzb0, hzc0, hsg, bind, Except.bind, pure, Except.pure,
    Bool.false_eq_true, or_self, if_false, if_true, neg_int]
  by_cases h1 : to_int ((h b).exp - (h c).exp) < 0
  · rw [if_pos h1, if_pos h1]
    by_cases h2 : to_int ((h b).exp - (h c).exp) = -2 ^ 31
    · rw [if_pos h2, if_pos h2]
    · rw [if_neg h2, if_neg h2]
  · rw [if_neg h1, if_neg h1]

/-- For regular, normalised operands whose exponent difference fits an `int`: when the signs
differ, `mpfr_add` sets `dst` to zero when `|b| = |c|`, and otherwise calls
`mpfr_sub1 (dst, x, y, rnd, d)` where `x` is the operand of larger magnitude, `y` the other
one and `d = EXP(x) - EXP(y) >= 0`; for operands of equal sign it calls
`mpfr_add1 (dst, x, y, rnd, d)` with `d = EXP(x) - EXP(y) >= 0`. -/
theorem mpfr_add_dispatch (W : Nat) (X : Callees) (h : Heap) (a b c : Ptr) (rnd : mp_rnd_t)
    (hW : 1 ≤ W) (hb : Regular W (h b)) (hc : Regular W (h c))
    (wb : WF W (h b)) (wc : WF W (h c))
    (hfit : -2 ^ 31 < (h b).exp - (h c).exp ∧ (h b).exp - (h c).exp < 2 ^ 31) :
    ((h b).neg ≠ (h c).neg →
        (|value W (h b)| = |value W (h c)| →
          mpfr_add W X h a b c rnd = .ok (h.set a (X.SET_ZERO (h a))))
        ∧ (|value W (h c)| < |value W (h b)| →
          0 ≤ (h b).exp - (h c).exp
            ∧ mpfr_add W X h a b c rnd
              = .ok (X.mpfr_sub1 h a b c rnd ((h b).exp - (h c).exp)))
        ∧ (|value W (h b)| < |value W (h c)| →
          0 ≤ (h c).exp - (h b).exp
            ∧ mpfr_add W X h a b c rnd
              = .ok (X.mpfr_sub1 h a c b rnd ((h c).exp - (h b).exp))))
      ∧ ((h b).neg = (h c).neg →
        ((h c).exp ≤ (h b).exp →
          mpfr_add W X h a b c rnd = mpfr_add1 W h a b c rnd ((h b).exp - (h c).exp))
        ∧ ((h b).exp < (h c).exp →
          mpfr_add W X h a b c rnd = mpfr_add1 W h a c b rnd ((h c).exp - (h b).exp))) := by
  constructor
  · intro hs
    have hu := mpfr_add_opposite W X h a b c rnd hb hc hs
    rw [to_int_of_fits (by omega) hfit.2] at hu
    obtain ⟨c0, c1⟩ := cmp3_opposite (wf_length wb.2.1) (wf_length wc.2.1) hs
    have lt1 : (h b).exp < (h c).exp → |value W (h b)| < |value W (h c)| :=
      fun hlt => abs_value_lt_of_exp hW wb wc hlt
    have lt2 : (h c).exp < (h b).exp → |value W (h c)| < |value W (h b)| :=
      fun hlt => abs_value_lt_of_exp hW wc wb hlt
    refine ⟨?_, ?_, ?_⟩
    · intro he
      have e1 : ¬ (h b).exp - (h c).exp < 0 := by
        intro hlt
        have := lt1 (by omega)
        rw [he] at this
        exact lt_irrefl _ this
      have e2 : ¬ 0 < (h b).exp - (h c).exp := by
        intro hlt
        have := lt2 (by omega)
        rw [he] at this
        exact lt_irrefl _ this
      rw [hu, if_neg e1, if_neg e2, if_pos (c0.mpr he)]
    · intro hlt
      have e1 : ¬ (h b).exp - (h c).exp < 0 := by
        intro hd
        exact lt_asymm hlt (lt1 (by omega))
      refine ⟨by omega, ?_⟩
      rw [hu, if_neg e1]
      by_cases e2 : 0 < (h b).exp - (h c).exp
      · rw [if_pos e2]
      · have e3 : (h b).exp - (h c).exp = 0 := by omega
        have n0 : ¬ mpfr_cmp3 W (h b) (h c) (-1) = 0 := by
          intro hz
          have := c0.mp hz
          rw [this] at hlt
          exact lt_irrefl _ hlt
        rw [if_neg e2, if_neg n0, if_pos (c1.mpr hlt), e3]
    · intro hlt
      have e2 : ¬ 0 < (h b).exp - (h c).exp := by
        intro hd
        exact lt_asymm hlt (lt2 (by omega))
      refine ⟨by omega, ?_⟩
      rw [hu]
      by_cases e1 : (h b).exp - (h c).exp < 0
      · rw [if_pos e1, if_neg (by omega), neg_sub]
      · have e3 : (h c).exp - (h b).exp = 0 := by omega
        have n0 : ¬ mpfr_cmp3 W (h b) (h c) (-1) = 0 := by
          intro hz
          have := c0.mp hz
          rw [this] at hlt
          exact lt_irrefl _ hlt
        have n1 : ¬ 0 < mpfr_cmp3 W (h b) (h c) (-1) * MPFR_SIGN (h b) := by
          intro hp
          exact lt_asymm hlt (c1.mp hp)
        rw [if_neg e1, if_neg e2, if_neg n0, if_neg n1, e3]
  · intro hs
    have hu := mpfr_add_same_sign W X h a b c rnd hb hc hs
    rw [to_int_of_fits (by omega) hfit.2] at hu
    constructor
    · intro hle
      rw [hu, if_neg (by omega)]
    · intro hlt
      rw [hu, if_pos (by omega), if_neg (by omega), neg_sub]

/-- The sum `3/4 + (-1)` at 64-bit limbs is passed to `mpfr_sub1` with the operands swapped
and the exponent difference 1, in every rounding mode. -/
theorem mpfr_add_dispatch_witness :
    (fun (X : Callees) (rnd : mp_rnd_t) => mpfr_add 64 X (heap3 c1_a c1_b c7_c) 0 1 2 rnd)
      = (fun X rnd => .ok (X.mpfr_sub1 (heap3 c1_a c1_b c7_c) 0 2 1 rnd 1)) :=
  funext fun X => funext fun rnd =>
    (((mpfr_add_dispatch 64 X (heap3 c1_a c1_b c7_c) 0 1 2 rnd (by decide)
      ⟨rfl, 13835058055282163712, rfl, by decide⟩ ⟨rfl, 9223372036854775808, rfl, by decide⟩
      ⟨by decide, rfl, allLt_one (by decide),
        ⟨13835058055282163712, rfl, by decide, by decide⟩, by decide⟩
      ⟨by decide, rfl, allLt_one (by decide),
        ⟨9223372036854775808, rfl, by decide, by decide⟩, by decide⟩
      ⟨by decide, by decide⟩).1 (by decide)).2.2
      (abs_value_lt_of_exp (by decide)
        ⟨by decide, rfl, allLt_one (by decide),
          ⟨13835058055282163712, rfl, by decide, by decide⟩, by decide⟩
        ⟨by decide, rfl, allLt_one (by decide),
          ⟨9223372036854775808, rfl, by decide, by decide⟩, by decide⟩ (by decide))).2

/-- C22: `1/2 + 2 ^ (-65)` with a destination of precision 1, 64-bit limbs and rounding
toward zero: `PREC(b) > PREC(a)` and `diff_exp = 64 >= PREC(a)`, so the branch of lines
138-190 runs with `sh = 63`; line 153 makes `dif = 0`, line 163 makes it 64, and line 173
evaluates `c2old << dif` with the count 64, which is not below `BITS_PER_MP_LIMB`.  The run of
`mpfr_add1`, and that of `mpfr_add` which calls it, stops there. -/
theorem C22_shift_by_limb_width :
    mpfr_add1 64 (heap3 c1_a c22_b c22_c) 0 1 2 GMP_RNDZ 64 = .error Fault.shift
      ∧ (fun X : Callees => mpfr_add 64 X (heap3 c1_a c22_b c22_c) 0 1 2 GMP_RNDZ)
        = (fun _ => .error Fault.shift)
      ∧ loop164 64 c22_b.mant c22_c.mant 63 1
          { cout := 0, cc := 0, k := 0, cn := 1, dif := 64, c2old := 0 } = .error Fault.shift
      ∧ shl 64 0 64 = .error Fault.shift :=
  ⟨rfl, rfl, rfl, rfl⟩

/-! ## Tables of `mpfr_exp_rational` -/

theorem zget_nat {T : List Int} {i : Int} {n : Nat} {x : Int} (hi : i = (n : Int)) :
    zget T i = .ok x ↔ T[n]? = some x := by
  subst hi
  unfold zget
  rw [if_pos (Int.ofNat_nonneg n), Int.toNat_ofNat]
  cases T[n]? with
  | none => simp
  | some y => simp

theorem zget_eq_ok {T : List Int} {i : Int} {x : Int} (h : zget T i = .ok x) :
    0 ≤ i ∧ T[i.toNat]? = some x := by
  unfold zget at h
  split_ifs at h with h0
  refine ⟨h0, ?_⟩
  cases hT : T[i.toNat]? with
  | none => simp [hT] at h
  | some y =>
    simp only [hT, Except.ok.injEq] at h
    rw [h]

theorem zset_nat {T T' : List Int} {i : Int} {n : Nat} {v : Int} (hi : i = (n : Int)) :
    zset T i v = .ok T' ↔ n < T.length ∧ T' = T.set n v := by
  subst hi
  unfold zset
  rw [Int.toNat_ofNat]
  by_cases h : n < T.length
  · rw [if_pos ⟨Int.ofNat_nonneg n, h⟩]
    simp only [Except.ok.injEq, h, true_and]
    exact eq_comm
  · rw [if_neg (fun hh => h hh.2)]
    simp [h]

theorem zset_eq_ok {T T' : List Int} {i : Int} {v : Int} (h : zset T i v = .ok T') :
    0 ≤ i ∧ i.toNat < T.length ∧ T' = T.set i.toNat v := by
  unfold zset at h
  split_ifs at h with h0
  simp only [Except.ok.injEq] at h
  exact ⟨h0.1, h0.2, h.symm⟩

theorem pget_nat {T : List Nat} {i : Int} {n : Nat} {x : Nat} (hi : i = (n : Int)) :
    pget T i = .ok x ↔ T[n]? = some x := by
  subst hi
  unfold pget
  rw [if_pos (Int.ofNat_nonneg n), Int.toNat_ofNat]
  cases T[n]? with
  | none => simp
  | some y => simp

theorem pget_eq_ok {T : List Nat} {i : Int} {x : Nat} (h : pget T i = .ok x) :
    0 ≤ i ∧ T[i.toNat]? = some x := by
  unfold pget at h
  split_ifs at h with h0
  refine ⟨h0, ?_⟩
  cases hT : T[i.toNat]? with
  | none => simp [hT] at h
  | some y =>
    simp only [hT, Except.ok.injEq] at h
    rw [h]

theorem pset_nat {T T' : List Nat} {i : Int} {n : Nat} {v : Nat} (hi : i = (n : Int)) :
    pset T i v = .ok T' ↔ n < T.length ∧ T' = T.set n v := by
  subst hi
  unfold pset
  rw [Int.toNat_ofNat]
  by_cases h : n < T.length
  · rw [if_pos ⟨Int.ofNat_nonneg n, h⟩]
    simp only [Except.ok.injEq, h, true_and]
    exact eq_comm
  · rw [if_neg (fun hh => h hh.2)]
    simp [h]

theorem pset_eq_ok {T T' : List Nat} {i : Int} {v : Nat} (h : pset T i v = .ok T') :
    0 ≤ i ∧ i.toNat < T.length ∧ T' = T.set i.toNat v := by
  unfold pset at h
  split_ifs at h with h0
  simp only [Except.ok.injEq] at h
  exact ⟨h0.1, h0.2, h.symm⟩

theorem long_shl_eq_ok {r l rl : Int} (h : long_shl r l = .ok rl) :
    0 ≤ l ∧ l < 64 ∧ 0 ≤ r ∧ rl = r * 2 ^ l.toNat ∧ rl < 2 ^ 63 := by
  unfold long_shl at h
  split_ifs at h with h0
  simp only [Except.ok.injEq] at h
  subst h
  exact ⟨h0.1, h0.2.1, h0.2.2.1, rfl, h0.2.2.2⟩

theorem mpz_mul_2exp_eq_ok {z c x : Int} (h : mpz_mul_2exp z c = .ok x) :
    0 ≤ c ∧ x = z * 2 ^ c.toNat := by
  unfold mpz_mul_2exp at h
  split_ifs at h with h0
  simp only [Except.ok.injEq] at h
  exact ⟨h0, h.symm⟩

theorem int_shl_one_eq_ok {t x : Nat} (h : int_shl_one t = .ok x) : t < 31 ∧ x = 2 ^ t := by
  unfold int_shl_one at h
  split_ifs at h with h0
  simp only [Except.ok.injEq] at h
  exact ⟨h0, h.symm⟩

theorem to_ulong_le (z : Int) (hz : 0 ≤ z) : ((to_ulong z : Nat) : Int) ≤ z := by
  unfold to_ulong
  rw [Int.toNat_of_nonneg (Int.emod_nonneg _ (by norm_num))]
  omega

theorem to_ulong_of_lt (z : Int) (hz : 0 ≤ z) (h : z < 2 ^ 64) : ((to_ulong z : Nat) : Int) = z := by
  unfold to_ulong
  rw [Int.toNat_of_nonneg (Int.emod_nonneg _ (by norm_num)), Int.emod_eq_of_lt hz h]

/-! ## Bit length, trailing zeros and the blocks of the series -/

theorem sizeinbase2_aux_spec : ∀ (fuel n : Nat), n < 2 ^ fuel →
    n < 2 ^ sizeinbase2_aux fuel n ∧ (0 < n → 2 ^ sizeinbase2_aux fuel n ≤ 2 * n) := by
  intro fuel
  induction fuel with
  | zero =>
    intro n h
    have : n = 0 := by simpa using h
    subst this
    simp [sizeinbase2_aux]
  | succ f ih =>
    intro n h
    unfold sizeinbase2_aux
    by_cases h0 : n = 0
    · subst h0
      simp
    · rw [if_neg h0]
      have h2 : n / 2 < 2 ^ f := by
        rw [pow_succ] at h
        omega
      obtain ⟨i1, i2⟩ := ih (n / 2) h2
      rw [pow_succ]
      refine ⟨by omega, fun _ => ?_⟩
      by_cases h1 : n / 2 = 0
      · have hn : n = 1 := by omega
        subst hn
        simp [sizeinbase2_aux]
        cases f <;> simp [sizeinbase2_aux]
      · have := i2 (by omega)
        omega

/-- The bit length of a positive `n`: `2 ^ (l - 1) <= n < 2 ^ l`. -/
theorem sizeinbase2_spec (n : Nat) (hn : 0 < n) :
    n < 2 ^ sizeinbase2 n ∧ 2 ^ sizeinbase2 n ≤ 2 * n ∧ 1 ≤ sizeinbase2 n := by
  obtain ⟨h1, h2⟩ := sizeinbase2_aux_spec n n (Nat.lt_two_pow n)
  refine ⟨h1, h2 hn, ?_⟩
  by_contra hc
  have : sizeinbase2 n = 0 := by omega
  unfold sizeinbase2 at this
  rw [this] at h1
  simp at h1
  omega

theorem scan1_aux_spec : ∀ (fuel n : Nat), 0 < n → n < 2 ^ fuel →
    ∃ q, n = 2 ^ scan1_aux fuel n * q ∧ q % 2 = 1 := by
  intro fuel
  induction fuel with
  | zero =>
    intro n h0 h
    simp at h
    omega
  | succ f ih =>
    intro n h0 h
    unfold scan1_aux
    by_cases h1 : n % 2 = 1
    · rw [if_pos h1]
      exact ⟨n, by simp, h1⟩
    · rw [if_neg h1]
      have h2 : n / 2 < 2 ^ f := by
        rw [pow_succ] at h
        omega
      obtain ⟨q, e, hq⟩ := ih (n / 2) (by omega) h2
      refine ⟨q, ?_, hq⟩
      rw [pow_succ]
      have : n = 2 * (n / 2) := by omega
      rw [this] at e ⊢
      have e' : n / 2 = 2 ^ scan1_aux f (n / 2) * q := by
        have : 2 * (n / 2) / 2 = n / 2 := by omega
        rw [this] at e
        exact e
      have : 2 * (n / 2) / 2 = n / 2 := by omega
      rw [this]
      calc 2 * (n / 2) = 2 * (2 ^ scan1_aux f (n / 2) * q) := by rw [← e']
        _ = 2 ^ scan1_aux f (n / 2) * 2 * q := by ring

/-- The trailing zeros of a positive `n`: what remains is odd. -/
theorem mpz_scan1_spec (n : Nat) (hn : 0 < n) :
    ∃ q, n = 2 ^ mpz_scan1 n * q ∧ q % 2 = 1 :=
  scan1_aux_spec n n hn (Nat.lt_two_pow n)

theorem blockQ_add (a n1 : Nat) : ∀ n2, blockQ a (n1 + n2) = blockQ a n1 * blockQ (a + n1) n2 := by
  intro n2
  induction n2 with
  | zero => simp [blockQ]
  | succ n ih =>
    rw [← Nat.add_assoc, blockQ, blockQ, ih]
    ring

theorem blockQ_zero (n : Nat) : blockQ 0 n = n.factorial := by
  induction n with
  | zero => rfl
  | succ n ih =>
    rw [blockQ, ih, Nat.factorial_succ]
    ring

theorem blockQ_pos (a n : Nat) : 0 < blockQ a n := by
  induction n with
  | zero => simp [blockQ]
  | succ n ih =>
    rw [blockQ]
    exact Nat.mul_pos ih (Nat.succ_pos _)

/-- Two adjacent blocks combine as lines 91-98 and 121-125 do. -/
theorem blockS_add (p : Int) (r a n1 : Nat) : ∀ n2,
    blockS p r a (n1 + n2)
      = blockS p r a n1 * (blockQ (a + n1) n2 : Int) * 2 ^ (r * n2)
        + blockS p r (a + n1) n2 * p ^ n1 := by
  intro n2
  induction n2 with
  | zero => simp [blockS, blockQ]
  | succ n ih =>
    rw [← Nat.add_assoc, blockS, blockS, blockQ, ih]
    push_cast
    rw [Nat.mul_succ, pow_add, pow_add]
    ring

theorem blockS_one (p : Int) (r a : Nat) : blockS p r a 1 = ((a + 1 : Nat) : Int) := by
  simp [blockS]

theorem blockQ_one (a : Nat) : blockQ a 1 = a + 1 := by
  simp [blockQ]

/-! ## One round of the loop that combines and reduces -/

theorem combine_step {m : Nat} {r : Int} {fuel : Nat} {s s2 : ExpSt} {j q ln : Nat}
    (h : exp_combine m r (fuel + 1) s j (ln : Int) = .ok s2) (hj : j % 2 = 0)
    (hk : s.k = ((q + 1 : Nat) : Int)) (hq : q + 1 ≤ m) :
    ∃ (sk pl sk1 qk qk1 : Int) (t0 v0 : Nat) (rl : Int) (s1 : ExpSt),
      s.Q[m + 1 + (q + 1)]? = some sk ∧ s.Q[2 * (m + 1) + ln]? = some pl
      ∧ s.Q[m + 1 + q]? = some sk1 ∧ s.Q[q + 1]? = some qk ∧ s.Q[q]? = some qk1
      ∧ s.mult[m + 1 + q]? = some t0 ∧ s.mult[q]? = some v0 ∧ long_shl r ln = .ok rl
      ∧ s1.k = (q : Int) ∧ s1.Q.length = s.Q.length ∧ s1.mult.length = s.mult.length
      ∧ s1.prec_i_have
          = to_ulong (v0 + sizeinbase2 qk.natAbs + rl - sizeinbase2 pl.natAbs - 1)
      ∧ s1.Q[q]? = some (qk1 * qk)
      ∧ s1.Q[m + 1 + q]? = some (sk1 * qk * 2 ^ rl.toNat + sk * pl)
      ∧ s1.Q[m + 1 + (q + 1)]? = some (sk * pl)
      ∧ (∀ x, x ≠ q → x ≠ m + 1 + q → x ≠ m + 1 + (q + 1) → s1.Q[x]? = s.Q[x]?)
      ∧ s1.mult[m + 1 + q]? = some (to_ulong (t0 + 1))
      ∧ s1.mult[q]? = some s1.prec_i_have ∧ s1.mult[q + 1]? = some s1.prec_i_have
      ∧ (∀ x, x ≠ q → x ≠ q + 1 → x ≠ m + 1 + q → s1.mult[x]? = s.mult[x]?)
      ∧ exp_combine m r fuel s1 (j / 2) ((ln : Int) + 1) = .ok s2 := by
  unfold exp_combine at h
  rw [if_pos hj] at h
  simp only [sbind_ok] at h
  obtain ⟨sk, h1, pl, h2, T1, h3, sk1, h4, qk, h5, T2, h6, sk1', h7, rl, h8, sh, h9, T3, h10,
    sk1'', h11, sk', h12, T4, h13, qk1, h14, qk', h15, T5, h16, t0, h17, mult1, h18, qk'', h19,
    pl', h20, v0, h21, rl', h22, mult2, h23, mult3, h24, h25⟩ := h
  have i1 : (m : Int) + 1 + s.k = ((m + 1 + (q + 1) : Nat) : Int) := by rw [hk]; push_cast; ring
  have i2 : 2 * ((m : Int) + 1) + (ln : Int) = ((2 * (m + 1) + ln : Nat) : Int) := by
    push_cast; ring
  have i3 : (m : Int) + 1 + (s.k - 1) = ((m + 1 + q : Nat) : Int) := by rw [hk]; push_cast; ring
  have i4 : s.k = ((q + 1 : Nat) : Int) := hk
  have i5 : s.k - 1 = ((q : Nat) : Int) := by rw [hk]; push_cast; ring
  rw [zget_nat i1] at h1 h12
  rw [zget_nat i2] at h2 h20
  rw [zset_nat i1] at h3
  rw [zget_nat i3] at h4 h7 h11
  rw [zget_nat i4] at h5 h15 h19
  rw [zset_nat i3] at h6 h10 h13
  rw [zget_nat i5] at h14
  rw [zset_nat i5] at h16
  rw [pget_nat i3] at h17
  rw [pset_nat i3] at h18
  rw [pget_nat i5] at h21
  rw [pset_nat i5] at h23
  rw [pset_nat i4] at h24
  obtain ⟨l3, e3⟩ := h3
  obtain ⟨l6, e6⟩ := h6
  obtain ⟨l10, e10⟩ := h10
  obtain ⟨l13, e13⟩ := h13
  obtain ⟨l16, e16⟩ := h16
  obtain ⟨l18, e18⟩ := h18
  obtain ⟨l23, e23⟩ := h23
  obtain ⟨l24, e24⟩ := h24
  obtain ⟨c9, e9⟩ := mpz_mul_2exp_eq_ok h9
  have d1 : m + 1 + (q + 1) ≠ m + 1 + q := by omega
  have d2 : m + 1 + (q + 1) ≠ q + 1 := by omega
  have d3 : m + 1 + q ≠ q + 1 := by omega
  have d4 : m + 1 + q ≠ q := by omega
  have d5 : m + 1 + (q + 1) ≠ q := by omega
  have d6 : q ≠ q + 1 := by omega
  have d7 : m + 1 + (q + 1) ≠ 2 * (m + 1) + ln := by omega
  have d8 : m + 1 + q ≠ 2 * (m + 1) + ln := by omega
  have d9 : q ≠ 2 * (m + 1) + ln := by omega
  subst e3 e6 e10 e13 e16 e18 e23 e24
  simp only [List.length_set] at l6 l10 l13 l16 l23 l24
  have ne : ∀ {a b : Nat}, a ≠ b → (a = b) = False := fun h => eq_false h
  simp only [List.getElem?_set, ne d2, if_false] at h5
  simp only [List.getElem?_set, List.length_set, ne d1, ne d2, ne d3, ne d4, ne d5, ne d6,
    ne d7, ne d8, ne d9, ne d1.symm, ne d2.symm, ne d3.symm, ne d4.symm, ne d5.symm,
    ne d6.symm, if_false, if_true, l3, l6, l16, l18, l23, l24, h1, h2, h5,
    Option.some.injEq] at h4 h7 h11 h12 h14 h15 h19 h20 h21
  rw [h8] at h22
  simp only [Except.ok.injEq] at h22
  subst h7 h11 h12 h15 h19 h20 h22 e9
  refine ⟨sk, pl, sk1, qk, qk1, t0, v0, rl, _, h1, h2, h4, h5, h14, h17, h21, h8, i5, ?_, ?_,
    rfl, ?_, ?_, ?_, ?_, ?_, ?_, ?_, ?_, h25⟩
  · simp only [List.length_set]
  · simp only [List.length_set]
  · simp only [List.getElem?_set, List.length_set, ne d1, ne d2, ne d3, ne d4, ne d5,
      ne d6, ne d1.symm, ne d2.symm, ne d3.symm, ne d4.symm, ne d5.symm, ne d6.symm, if_false,
      if_true, l3, l6, l16, l18, l23, l24]
  · simp only [List.getElem?_set, List.length_set, ne d1, ne d2, ne d3, ne d4, ne d5,
      ne d6, ne d1.symm, ne d2.symm, ne d3.symm, ne d4.symm, ne d5.symm, ne d6.symm, if_false,
      if_true, l3, l6, l16, l18, l23, l24]
  · simp only [List.getElem?_set, List.length_set, ne d1, ne d2, ne d3, ne d4, ne d5,
      ne d6, ne d1.symm, ne d2.symm, ne d3.symm, ne d4.symm, ne d5.symm, ne d6.symm, if_false,
      if_true, l3, l6, l16, l18, l23, l24]
  · intro x x1 x2 x3
    simp only [List.getElem?_set, ne (Ne.symm x1), ne (Ne.symm x2), ne (Ne.symm x3), if_false]
  · simp only [List.getElem?_set, List.length_set, ne d1, ne d2, ne d3, ne d4, ne d5,
      ne d6, ne d1.symm, ne d2.symm, ne d3.symm, ne d4.symm, ne d5.symm, ne d6.symm, if_false,
      if_true, l3, l6, l16, l18, l23, l24]
  · simp only [List.getElem?_set, List.length_set, ne d1, ne d2, ne d3, ne d4, ne d5,
      ne d6, ne d1.symm, ne d2.symm, ne d3.symm, ne d4.symm, ne d5.symm, ne d6.symm, if_false,
      if_true, l3, l6, l16, l18, l23, l24]
  · simp only [List.getElem?_set, List.length_set, ne d1, ne d2, ne d3, ne d4, ne d5,
      ne d6, ne d1.symm, ne d2.symm, ne d3.symm, ne d4.symm, ne d5.symm, ne d6.symm, if_false,
      if_true, l3, l6, l16, l18, l23, l24]
  · intro x x1 x2 x3
    simp only [List.getElem?_set, ne (Ne.symm x1), ne (Ne.symm x2), ne (Ne.symm x3), if_false]

/-! ## The stack of blocks -/

theorem block_frame {p : Int} {r m : Nat} {T T' : List Int} {mult mult' : List Nat}
    {n a t : Nat} (h : Block p r m T mult n a t)
    (h1 : T'[n]? = T[n]?) (h2 : T'[m + 1 + n]? = T[m + 1 + n]?)
    (h3 : mult'[m + 1 + n]? = mult[m + 1 + n]?) : Block p r m T' mult' n a t := by
  obtain ⟨b1, b2, b3⟩ := h
  exact ⟨by rw [h3, b1], by rw [h1, b2], by rw [h2, b3]⟩

/-- A cover depends only on the entries of the stack below its top. -/
theorem cover_frame {p : Int} {r m : Nat} {T T' : List Int} {mult mult' : List Nat} :
    ∀ (n e : Nat), Cover p r m T mult n e →
      (∀ x, x < n → T'[x]? = T[x]? ∧ T'[m + 1 + x]? = T[m + 1 + x]?
        ∧ mult'[x]? = mult[x]? ∧ mult'[m + 1 + x]? = mult[m + 1 + x]?) →
      Cover p r m T' mult' n e := by
  intro n
  induction n with
  | zero =>
    intro e h _
    exact h
  | succ n ih =>
    intro e h hf
    obtain ⟨t, a, v, hb, he, hd, hv, hT, hs, hc⟩ := h
    obtain ⟨f1, f2, f3, f4⟩ := hf n (Nat.lt_succ_self n)
    exact ⟨t, a, v, block_frame hb f1 f2 f4, he, hd, by rw [f3, hv], hT, hs,
      ih a hc (fun x hx => hf x (Nat.lt_succ_of_lt hx))⟩

theorem cover_pos {p : Int} {r m : Nat} {T : List Int} {mult : List Nat} {n e : Nat}
    (h : Cover p r m T mult (n + 1) e) : 0 < e := by
  obtain ⟨t, a, v, _, he, _⟩ := h
  have : 0 < 2 ^ t := Nat.two_pow_pos t
  omega

theorem cover_zero {p : Int} {r m : Nat} {T : List Int} {mult : List Nat} {n : Nat}
    (h : Cover p r m T mult n 0) : n = 0 := by
  cases n with
  | zero => rfl
  | succ n => exact absurd (cover_pos h) (lt_irrefl 0)

/-- A power of two that divides `a + 2 ^ t`, where `2 ^ (t + 1)` divides `a`, is at most
`2 ^ t`. -/
theorem low_bit {a t s : Nat} (hd : 2 ^ (t + 1) ∣ a) (hs : 2 ^ s ∣ a + 2 ^ t) : s ≤ t := by
  by_contra hc
  have h1 : 2 ^ (t + 1) ∣ 2 ^ s := pow_dvd_pow 2 (by omega)
  have h2 : 2 ^ (t + 1) ∣ a + 2 ^ t := dvd_trans h1 hs
  have h3 : 2 ^ (t + 1) ∣ 2 ^ t := (Nat.dvd_add_right hd).mp h2
  have h4 := Nat.le_of_dvd (Nat.two_pow_pos t) h3
  rw [pow_succ] at h4
  have : 0 < 2 ^ t := Nat.two_pow_pos t
  omega

/-- The stack of a cover of fewer than `2 ^ M` terms has at most `M` entries. -/
theorem cover_count {p : Int} {r m : Nat} {T : List Int} {mult : List Nat} :
    ∀ (n e s M : Nat), Cover p r m T mult n e → 0 < e → 2 ^ s ∣ e → e < 2 ^ M → n + s ≤ M := by
  intro n
  induction n with
  | zero =>
    intro e s M h he _ _
    have : e = 0 := h
    omega
  | succ n ih =>
    intro e s M h he hs hM
    obtain ⟨t, a, v, hb, hea, hd, hv, hT, hsz, hc⟩ := h
    subst hea
    have hst : s ≤ t := low_bit hd hs
    by_cases ha : a = 0
    · subst ha
      have hn := cover_zero hc
      subst hn
      have : t < M := by
        have h2 : 2 ^ t < 2 ^ M := by simpa using hM
        exact (Nat.pow_lt_pow_iff_right (by norm_num)).mp h2
      omega
    · have := ih a (t + 1) M hc (by omega) hd (by omega)
      omega

/-- The denominators on the stack multiply to `e!`. -/
theorem cover_prod {p : Int} {r m : Nat} {T : List Int} {mult : List Nat} :
    ∀ (n e : Nat), Cover p r m T mult n e → (T.take n).prod = (e.factorial : Int) := by
  intro n
  induction n with
  | zero =>
    intro e h
    have : e = 0 := h
    subst this
    simp
  | succ n ih =>
    intro e h
    obtain ⟨t, a, v, hb, hea, hd, hv, hT, hsz, hc⟩ := h
    obtain ⟨b1, b2, b3⟩ := hb
    rw [List.take_succ, List.prod_append, ih a hc, b2]
    subst hea
    simp only [Option.toList_some, List.prod_cons, List.prod_nil, mul_one]
    rw [← blockQ_zero, ← blockQ_zero, blockQ_add]
    push_cast
    simp

/-- The entry below a block that starts at an odd multiple of `2 ^ l` holds `2 ^ l`
terms. -/
theorem below_size {a' t' j l : Nat} (he : a' + 2 ^ t' = (j - 1) * 2 ^ l)
    (hd : 2 ^ (t' + 1) ∣ a') (hj : j % 2 = 0) (hj1 : 1 ≤ j) : t' = l := by
  have h1 : l ≤ t' := by
    have : 2 ^ l ∣ a' + 2 ^ t' := by rw [he]; exact Dvd.intro_left _ rfl
    exact low_bit hd this
  by_contra hne
  have hlt : l + 1 ≤ t' := by omega
  have h2 : 2 ^ (l + 1) ∣ a' := dvd_trans (pow_dvd_pow 2 (by omega)) hd
  have h3 : 2 ^ (l + 1) ∣ 2 ^ t' := pow_dvd_pow 2 hlt
  have h4 : 2 ^ (l + 1) ∣ (j - 1) * 2 ^ l := by rw [← he]; exact Dvd.dvd.add h2 h3
  rw [pow_succ, mul_comm (j - 1)] at h4
  have h5 : 2 ∣ j - 1 := (Nat.mul_dvd_mul_iff_left (Nat.two_pow_pos l)).mp h4
  omega

/-! ## The bound on the first omitted term -/

theorem termBound_anti {p : Int} {r v v' c : Nat} (hv : v' ≤ v) (h : TermBound p r v c) :
    TermBound p r v' c := by
  unfold TermBound at *
  exact le_trans (Nat.mul_le_mul_right _ (Nat.pow_le_pow_right (by norm_num) hv)) h

theorem termBound_succ {p : Int} {r v c : Nat} (hp : p.natAbs ≤ 2 ^ r)
    (h : TermBound p r v c) : TermBound p r v (c + 1) := by
  unfold TermBound at *
  rw [pow_succ, Nat.factorial_succ, Nat.mul_succ, pow_add]
  calc 2 ^ v * (p.natAbs ^ c * p.natAbs) = (2 ^ v * p.natAbs ^ c) * p.natAbs := by ring
    _ ≤ (c.factorial * 2 ^ (r * c)) * 2 ^ r := Nat.mul_le_mul h hp
    _ ≤ (c + 1) * (c.factorial * 2 ^ (r * c) * 2 ^ r) := Nat.le_mul_of_pos_left _ (Nat.succ_pos c)
    _ = (c + 1) * c.factorial * (2 ^ (r * c) * 2 ^ r) := by ring

theorem termBound_mono {p : Int} {r v c : Nat} (hp : p.natAbs ≤ 2 ^ r)
    (h : TermBound p r v c) : ∀ c', c ≤ c' → TermBound p r v c' := by
  intro c' hc
  induction c' with
  | zero =>
    have : c = 0 := by omega
    subst this
    exact h
  | succ n ih =>
    by_cases hn : c = n + 1
    · subst hn
      exact h
    · exact termBound_succ hp (ih (by omega))

/-- The bound after a block of `n` terms that starts at term `c` is combined: the bit length
of its denominator and the shift are added, the bit length of `p ^ n` and 1 are taken
off. -/
theorem termBound_merge {p : Int} {r v0 v c n nq np : Nat} (h : TermBound p r v0 c)
    (hq : 2 ^ nq ≤ 2 * blockQ c n) (hq1 : 1 ≤ nq) (hp1 : p.natAbs ^ n < 2 ^ np)
    (hp2 : 2 ^ np ≤ 2 * p.natAbs ^ n) (hp : p.natAbs < 2 ^ r) (hn : 1 ≤ n)
    (hv : (v : Int) ≤ (v0 : Int) + (nq : Int) + (r : Int) * (n : Int) - (np : Int) - 1) :
    TermBound p r v (c + n) := by
  have hpn : p.natAbs ^ n < 2 ^ (r * n) := by
    rw [pow_mul]
    exact Nat.pow_lt_pow_left hp (by omega)
  have hnp : np ≤ r * n := by
    have h1 : 2 ^ np < 2 ^ (r * n + 1) := by
      rw [pow_succ]
      omega
    have := (Nat.pow_lt_pow_iff_right (by norm_num : 1 < 2)).mp h1
    omega
  have hv' : v ≤ v0 + (nq - 1) + (r * n - np) := by
    have e1 : ((r * n - np : Nat) : Int) = (r : Int) * (n : Int) - (np : Int) := by
      rw [Nat.cast_sub hnp]
      push_cast
      ring
    have e2 : ((nq - 1 : Nat) : Int) = (nq : Int) - 1 := by
      rw [Nat.cast_sub hq1]
      simp
    have : (v : Int) ≤ ((v0 + (nq - 1) + (r * n - np) : Nat) : Int) := by
      push_cast
      rw [e1, e2]
      linarith
    exact_mod_cast this
  refine termBound_anti hv' ?_
  unfold TermBound at *
  have hq' : 2 ^ (nq - 1) ≤ blockQ c n := by
    have : 2 ^ nq = 2 ^ (nq - 1) * 2 := by
      rw [← pow_succ]
      congr 1
      omega
    omega
  have hfac : (c + n).factorial = c.factorial * blockQ c n := by
    rw [← blockQ_zero, ← blockQ_zero, blockQ_add]
    simp
  have e3 : 2 ^ (r * n - np) * p.natAbs ^ n ≤ 2 ^ (r * n) := by
    calc 2 ^ (r * n - np) * p.natAbs ^ n ≤ 2 ^ (r * n - np) * 2 ^ np :=
          Nat.mul_le_mul_left _ hp1.le
      _ = 2 ^ (r * n) := by
          rw [← pow_add]
          congr 1
          omega
  rw [hfac, Nat.mul_add, pow_add, pow_add, pow_add, pow_add]
  calc 2 ^ v0 * 2 ^ (nq - 1) * 2 ^ (r * n - np) * (p.natAbs ^ c * p.natAbs ^ n)
      = (2 ^ v0 * p.natAbs ^ c) * (2 ^ (nq - 1) * (2 ^ (r * n - np) * p.natAbs ^ n)) := by ring
    _ ≤ (c.factorial * 2 ^ (r * c)) * (blockQ c n * 2 ^ (r * n)) :=
        Nat.mul_le_mul h (Nat.mul_le_mul hq' e3)
    _ = c.factorial * blockQ c n * (2 ^ (r * c) * 2 ^ (r * n)) := by ring

/-! ## The invariant of the loop that combines and reduces -/

theorem bitlen_pow_le {p : Int} {r n : Nat} (hp : p.natAbs < 2 ^ r) (hn : 1 ≤ n)
    (hp0 : p ≠ 0) : sizeinbase2 (p.natAbs ^ n) ≤ r * n := by
  have hpos : 0 < p.natAbs ^ n := pow_pos (Int.natAbs_pos.mpr hp0) _
  obtain ⟨_, h2, _⟩ := sizeinbase2_spec _ hpos
  have hpn : p.natAbs ^ n < 2 ^ (r * n) := by
    rw [pow_mul]
    exact Nat.pow_lt_pow_left hp (by omega)
  have h1 : 2 ^ sizeinbase2 (p.natAbs ^ n) < 2 ^ (r * n + 1) := by
    rw [pow_succ]
    omega
  have := (Nat.pow_lt_pow_iff_right (by norm_num : 1 < 2)).mp h1
  omega

theorem chain_step {p : Int} {rn m fuel : Nat} {s s2 : ExpSt} {j l i : Nat}
    (hp : p.natAbs < 2 ^ rn) (hp0 : p ≠ 0) (hi : ChainInv p rn m s j l i) (hj : j % 2 = 0)
    (h : exp_combine m (rn : Int) (fuel + 1) s j (l : Int) = .ok s2) :
    ∃ s1, ChainInv p rn m s1 (j / 2) (l + 1) i
      ∧ exp_combine m (rn : Int) fuel s1 (j / 2) ((l + 1 : Nat) : Int) = .ok s2 := by
  obtain ⟨kn, hk, hpt, hjl, hb, hc, hT, hodd, hl1, hsz, him⟩ := hi
  have h2l : 0 < 2 ^ l := Nat.two_pow_pos l
  have hj2 : 2 ≤ j := by
    have : j ≠ 0 := by
      intro h0
      rw [h0] at hjl
      simp at hjl
    omega
  obtain ⟨j', hj'⟩ : ∃ j', j = 2 * j' + 2 := ⟨j / 2 - 1, by omega⟩
  subst hj'
  have ea : (2 * j' + 2 - 1) * 2 ^ l = (2 * j' + 1) * 2 ^ l := by
    congr 1
  rw [ea] at hb hc
  have hapos : 0 < (2 * j' + 1) * 2 ^ l := Nat.mul_pos (by omega) h2l
  have halt : (2 * j' + 1) * 2 ^ l < 2 ^ m := by
    have : (2 * j' + 2) * 2 ^ l = (2 * j' + 1) * 2 ^ l + 2 ^ l := by ring
    omega
  cases kn with
  | zero =>
    have : (2 * j' + 1) * 2 ^ l = 0 := hc
    omega
  | succ q =>
    have hcnt := cover_count (q + 1) _ l m hc hapos (Dvd.intro_left _ rfl) halt
    obtain ⟨t', a', v', hb', hea, hd', hv', hT', hsz', hc'⟩ := hc
    have ht' : t' = l := by
      refine below_size (j := 2 * j' + 2) ?_ hd' hj (by omega)
      rw [ea]
      exact hea.symm
    subst ht'
    rw [hea] at hb hT' hapos halt
    obtain ⟨sk, pl, sk1, qk, qk1, t0, v0, rl, s1, g1, g2, g3, g4, g5, g6, g7, g8, g9, g10, g11,
      g12, g13, g14, g15, g16, g17, g18, g19, g20, g21⟩ := combine_step h hj hk (by omega)
    obtain ⟨b1, b2, b3⟩ := hb
    obtain ⟨b1', b2', b3'⟩ := hb'
    rw [b3] at g1
    rw [hpt t' (by omega)] at g2
    rw [b3'] at g3
    rw [b2] at g4
    rw [b2'] at g5
    rw [b1'] at g6
    rw [hv'] at g7
    simp only [Option.some.injEq] at g1 g2 g3 g4 g5 g6 g7
    subst g1 g2 g3 g4 g5 g6 g7
    obtain ⟨r1, r2, r3, r4, r5⟩ := long_shl_eq_ok g8
    rw [Int.toNat_ofNat] at r4
    have hrl : rl.toNat = rn * 2 ^ t' := by
      rw [r4]
      have : ((rn : Int) * 2 ^ t') = ((rn * 2 ^ t' : Nat) : Int) := by push_cast; ring
      rw [this, Int.toNat_ofNat]
    have hrl' : rl = ((rn * 2 ^ t' : Nat) : Int) := by rw [r4]; push_cast; ring
    have ha' : a' + 2 ^ t' + 2 ^ t' = 2 * j' * 2 ^ t' + 2 * 2 ^ t' := by
      have : (2 * j' + 1) * 2 ^ t' = 2 * j' * 2 ^ t' + 2 ^ t' := by ring
      omega
    have hend : a' + 2 ^ t' + 2 ^ t' = i + 1 := by
      have : (2 * j' + 2) * 2 ^ t' = 2 * j' * 2 ^ t' + 2 * 2 ^ t' := by ring
      omega
    have hj2' : (2 * j' + 2) / 2 = j' + 1 := by omega
    -- the bound
    have hqpos : 0 < blockQ (a' + 2 ^ t') (2 ^ t') := blockQ_pos _ _
    have hq := sizeinbase2_spec _ hqpos
    have hppos : 0 < p.natAbs ^ 2 ^ t' := pow_pos (Int.natAbs_pos.mpr hp0) _
    have hpp := sizeinbase2_spec _ hppos
    have hnp := bitlen_pow_le (n := 2 ^ t') hp h2l hp0
    have eq1 : ((blockQ (a' + 2 ^ t') (2 ^ t') : Nat) : Int).natAbs
        = blockQ (a' + 2 ^ t') (2 ^ t') := Int.natAbs_ofNat _
    have eq2 : (p ^ 2 ^ t').natAbs = p.natAbs ^ 2 ^ t' := Int.natAbs_pow _ _
    rw [eq1, eq2] at g12
    have hz : (0 : Int) ≤ (v' : Int) + (sizeinbase2 (blockQ (a' + 2 ^ t') (2 ^ t')) : Int) + rl
        - (sizeinbase2 (p.natAbs ^ 2 ^ t') : Int) - 1 := by
      rw [hrl']
      have h1 : (1 : Int) ≤ (sizeinbase2 (blockQ (a' + 2 ^ t') (2 ^ t')) : Int) := by
        exact_mod_cast hq.2.2
      have h2 : (sizeinbase2 (p.natAbs ^ 2 ^ t') : Int) ≤ ((rn * 2 ^ t' : Nat) : Int) := by
        exact_mod_cast hnp
      have h3 : (0 : Int) ≤ (v' : Int) := Int.ofNat_nonneg _
      linarith
    have hvle := to_ulong_le _ hz
    rw [← g12] at hvle
    have hTB : TermBound p rn s1.prec_i_have (i + 1) := by
      rw [← hend]
      refine termBound_merge (n := 2 ^ t') hT' hq.2.1 hq.2.2 hpp.1 hpp.2.1 hp h2l ?_
      rw [hrl'] at hvle
      push_cast at hvle ⊢
      linarith
    refine ⟨s1, ⟨q, g9, ?_, ?_, ⟨?_, ?_, ?_⟩, ?_, hTB, fun _ => ⟨_, g18, hTB⟩,
      fun _ => ⟨_, g19, hTB⟩, Or.inr ?_, him⟩, ?_⟩
    · intro l' hl'
      rw [g16 _ (by omega) (by omega) (by omega)]
      exact hpt l' hl'
    · rw [hj2', pow_succ]
      have : (2 * j' + 2) * 2 ^ t' = (j' + 1) * (2 ^ t' * 2) := by ring
      omega
    · rw [g17]
      congr 1
      unfold to_ulong
      have : ((t' : Int) + 1) % 2 ^ 64 = (t' : Int) + 1 := Int.emod_eq_of_lt (by omega) (by omega)
      rw [this]
      omega
    · rw [g13]
      congr 1
      have e1 : (j' + 1 - 1) * 2 ^ (t' + 1) = a' := by
        rw [pow_succ]
        have : (j' + 1 - 1) * (2 ^ t' * 2) = 2 * j' * 2 ^ t' := by
          simp only [Nat.add_sub_cancel]
          ring
        omega
      rw [hj2', e1, pow_succ, Nat.mul_two, blockQ_add]
      push_cast
      ring
    · rw [g14]
      congr 1
      have e1 : (j' + 1 - 1) * 2 ^ (t' + 1) = a' := by
        rw [pow_succ]
        have : (j' + 1 - 1) * (2 ^ t' * 2) = 2 * j' * 2 ^ t' := by
          simp only [Nat.add_sub_cancel]
          ring
        omega
      rw [hj2', e1, pow_succ, Nat.mul_two, blockS_add, hrl]
    · have e1 : (2 * j' + 2) / 2 - 1 = j' := by omega
      have e2 : j' * 2 ^ (t' + 1) = a' := by
        rw [pow_succ]
        have : j' * (2 ^ t' * 2) = 2 * j' * 2 ^ t' := by ring
        omega
      rw [e1, e2]
      refine cover_frame q a' hc' (fun x hx => ⟨?_, ?_, ?_, ?_⟩)
      · exact g16 x (by omega) (by omega) (by omega)
      · exact g16 _ (by omega) (by omega) (by omega)
      · exact g20 x (by omega) (by omega) (by omega)
      · exact g20 _ (by omega) (by omega) (by omega)
    · rw [pow_succ]
      have : (rn : Int) * 2 ^ t' < 2 ^ 63 := by rw [← r4]; exact r5
      have h3 : rn * 2 ^ t' < 2 ^ 63 := by exact_mod_cast this
      have e : rn * (2 ^ t' * 2) = rn * 2 ^ t' * 2 := by ring
      rw [e]
      clear * - h3
      omega
    · have : ((t' + 1 : Nat) : Int) = (t' : Int) + 1 := by push_cast; ring
      rw [this]
      exact g21

theorem chain_end {p : Int} {rn m : Nat} {s : ExpSt} {j l i : Nat}
    (hi : ChainInv p rn m s j l i) (hj : j % 2 = 1) : HeadInv p rn m s (i + 1) := by
  obtain ⟨kn, hk, hpt, hjl, hb, hc, hT, hodd, hl1, hsz, him⟩ := hi
  obtain ⟨v, hv, hvT⟩ := hodd hj
  obtain ⟨j', hj'⟩ : ∃ j', j = 2 * j' + 1 := ⟨j / 2, by omega⟩
  subst hj'
  have ea : (2 * j' + 1 - 1) * 2 ^ l = j' * 2 ^ (l + 1) := by
    rw [pow_succ]
    simp only [Nat.add_sub_cancel]
    ring
  have ee : i + 1 = j' * 2 ^ (l + 1) + 2 ^ l := by
    rw [← hjl, pow_succ]
    ring
  rw [ea] at hb hc
  refine ⟨kn, hk, hpt, ⟨l, _, v, hb, ee, Dvd.intro_left _ rfl, hv, hvT, hsz, hc⟩, hT, ?_, him⟩
  intro he
  have hl : 1 ≤ l := by
    by_contra hc0
    have : l = 0 := by omega
    subst this
    simp at hjl
    omega
  exact hl1 hl

theorem chain_run {p : Int} {rn m : Nat} {i : Nat} (hp : p.natAbs < 2 ^ rn) (hp0 : p ≠ 0) :
    ∀ (fuel : Nat) (s s2 : ExpSt) (j l : Nat), ChainInv p rn m s j l i →
      exp_combine m (rn : Int) fuel s j (l : Int) = .ok s2 → HeadInv p rn m s2 (i + 1) := by
  intro fuel
  induction fuel with
  | zero =>
    intro s s2 j l _ h
    unfold exp_combine at h
    cases h
  | succ f ih =>
    intro s s2 j l hi h
    by_cases hj : j % 2 = 0
    · obtain ⟨s1, hi1, h1⟩ := chain_step hp hp0 hi hj h
      exact ih s1 s2 (j / 2) (l + 1) hi1 h1
    · unfold exp_combine at h
      rw [if_neg hj] at h
      cases h
      exact chain_end hi (by omega)

/-- One round of the main loop keeps the invariant. -/
theorem body_inv {p : Int} {rn m : Nat} {s s' : ExpSt} {i : Nat} (hp : p.natAbs < 2 ^ rn)
    (hp0 : p ≠ 0) (hi : HeadInv p rn m s i) (hlt : i < 2 ^ m) (hi1 : 1 ≤ i)
    (h : exp_body m (rn : Int) s i = .ok s') : HeadInv p rn m s' (i + 1) := by
  obtain ⟨kn, hk, hpt, hc, hT, hev, him⟩ := hi
  have hcnt := cover_count (kn + 1) i 0 m hc hi1 (one_dvd _) hlt
  unfold exp_body at h
  simp only [sbind_ok] at h
  obtain ⟨mult1, h1, T1, h2, T2, h3, h4⟩ := h
  have i1 : (m : Int) + 1 + (s.k + 1) = ((m + 1 + (kn + 1) : Nat) : Int) := by
    rw [hk]; push_cast; ring
  have i2 : s.k + 1 = ((kn + 1 : Nat) : Int) := by rw [hk]; push_cast; ring
  rw [pset_nat i1] at h1
  rw [zset_nat i2] at h2
  rw [zset_nat i1] at h3
  obtain ⟨l1, e1⟩ := h1
  obtain ⟨l2, e2⟩ := h2
  obtain ⟨l3, e3⟩ := h3
  subst e1 e2 e3
  rw [List.length_set] at l3
  have ne : ∀ {a b : Nat}, a ≠ b → (a = b) = False := fun h => eq_false h
  have d1 : kn + 1 ≠ m + 1 + (kn + 1) := by omega
  rw [i2] at h4
  have e0 : ((i : Int) + 1) = ((i + 1 : Nat) : Int) := by push_cast; ring
  have e00 : ((0 : Nat) : Int) = 0 := rfl
  rw [e0, ← e00] at h4
  refine chain_run hp hp0 (i + 2) _ s' (i + 1) 0 ?_ h4
  refine ⟨kn + 1, rfl, ?_, by simp, ⟨?_, ?_, ?_⟩, ?_, ?_, ?_, ?_, Or.inl rfl, by omega⟩
  · intro l hl
    have d2 : kn + 1 ≠ 2 * (m + 1) + l := by omega
    have d3 : m + 1 + (kn + 1) ≠ 2 * (m + 1) + l := by omega
    simp only [List.getElem?_set, ne d2, ne d3, if_false]
    exact hpt l hl
  · simp only [List.getElem?_set, if_true, l1]
  · simp only [List.getElem?_set, List.length_set, ne d1.symm, if_false, if_true, l2,
      Nat.add_sub_cancel, pow_zero, Nat.mul_one, blockQ_one]
  · simp only [List.getElem?_set, List.length_set, if_true, l3,
      Nat.add_sub_cancel, pow_zero, Nat.mul_one, blockS_one]
  · simp only [Nat.add_sub_cancel, pow_zero, Nat.mul_one]
    refine cover_frame (kn + 1) i hc (fun x hx => ⟨?_, ?_, ?_, ?_⟩)
    · have a1 : kn + 1 ≠ x := by omega
      have a2 : m + 1 + (kn + 1) ≠ x := by omega
      simp only [List.getElem?_set, ne a1, ne a2, if_false]
    · have a1 : kn + 1 ≠ m + 1 + x := by omega
      have a2 : m + 1 + (kn + 1) ≠ m + 1 + x := by omega
      simp only [List.getElem?_set, ne a1, ne a2, if_false]
    · have a2 : m + 1 + (kn + 1) ≠ x := by omega
      simp only [List.getElem?_set, ne a2, if_false]
    · have a2 : m + 1 + (kn + 1) ≠ m + 1 + x := by omega
      simp only [List.getElem?_set, ne a2, if_false]
  · exact termBound_succ hp.le hT
  · intro hodd
    obtain ⟨v, hv, hvT⟩ := hev (by omega)
    refine ⟨v, ?_, termBound_succ hp.le hvT⟩
    simp only [List.getElem?_set, ne d1.symm, if_false]
    exact hv
  · intro h0
    omega

/-! ## Normalisation of `p` and the table of squares -/

theorem exp_squares_ok (p : Int) (m : Nat) : ∀ (fuel : Nat) (T : List Int) (kn : Nat),
    3 * (m + 1) ≤ T.length → 1 ≤ kn → kn ≤ m + 1 → m + 1 < kn + fuel →
    (∀ j, j < kn → T[2 * (m + 1) + j]? = some (p ^ 2 ^ j)) →
    ∃ T', exp_squares m fuel T (kn : Int) = .ok T' ∧ 3 * (m + 1) ≤ T'.length
      ∧ (∀ j, j < kn ∨ j < m → T'[2 * (m + 1) + j]? = some (p ^ 2 ^ j))
      ∧ (∀ x, x < 2 * (m + 1) → T'[x]? = T[x]?) := by
  intro fuel
  induction fuel with
  | zero =>
    intro T kn _ _ h1 h2 _
    omega
  | succ f ih =>
    intro T kn hT hk1 hk2 hf hpre
    unfold exp_squares
    by_cases hlt : kn < m
    · rw [if_pos (by exact_mod_cast hlt)]
      obtain ⟨kp, rfl⟩ : ∃ kp, kn = kp + 1 := ⟨kn - 1, by omega⟩
      have i1 : 2 * ((m : Int) + 1) + ((kp + 1 : Nat) : Int) - 1 = ((2 * (m + 1) + kp : Nat) : Int) := by
        push_cast; ring
      have i2 : 2 * ((m : Int) + 1) + ((kp + 1 : Nat) : Int) = ((2 * (m + 1) + (kp + 1) : Nat) : Int) := by
        push_cast; ring
      have g1 := (zget_nat (T := T) i1).mpr (hpre kp (by omega))
      have g2 : zset T (2 * ((m : Int) + 1) + ((kp + 1 : Nat) : Int)) (p ^ 2 ^ kp * p ^ 2 ^ kp)
          = .ok (T.set (2 * (m + 1) + (kp + 1)) (p ^ 2 ^ kp * p ^ 2 ^ kp)) :=
        (zset_nat i2).mpr ⟨by omega, rfl⟩
      have i3 : ((kp + 1 : Nat) : Int) + 1 = ((kp + 1 + 1 : Nat) : Int) := by push_cast; ring
      obtain ⟨T', e1, e2, e3, e4⟩ := ih (T.set (2 * (m + 1) + (kp + 1)) (p ^ 2 ^ kp * p ^ 2 ^ kp))
        (kp + 1 + 1) (by rw [List.length_set]; exact hT) (by omega) (by omega) (by omega) (by
          intro j hj
          by_cases hj1 : j = kp + 1
          · subst hj1
            rw [List.getElem?_set_self (by omega)]
            congr 1
            rw [pow_succ, pow_mul, sq]
          · rw [List.getElem?_set_ne (by omega)]
            exact hpre j (by omega))
      refine ⟨T', ?_, e2, fun j hj => e3 j (by omega), fun x hx => ?_⟩
      · simp only [bind, Except.bind, g1, g2]
        rw [i3]
        exact e1
      · rw [e4 x hx, List.getElem?_set_ne (by omega)]
    · rw [if_neg (by exact_mod_cast hlt)]
      exact ⟨T, rfl, hT, fun j hj => hpre j (by omega), fun _ _ => rfl⟩

/-- The numerator after the normalisation is odd, and it is `p` without its trailing
zeros. -/
theorem exp_norm_p_spec (p : Int) (hp : p ≠ 0) :
    (exp_norm_p p).natAbs % 2 = 1 ∧ exp_norm_p p * 2 ^ mpz_scan1 p.natAbs = p
      ∧ (exp_norm_p p).natAbs * 2 ^ mpz_scan1 p.natAbs = p.natAbs := by
  obtain ⟨q, hq, hodd⟩ := mpz_scan1_spec p.natAbs (Int.natAbs_pos.mpr hp)
  have hdvd : (2 : Int) ^ mpz_scan1 p.natAbs ∣ p := by
    rw [← Int.natAbs_dvd_natAbs, Int.natAbs_pow]
    exact Dvd.intro _ hq.symm
  have e1 : exp_norm_p p * 2 ^ mpz_scan1 p.natAbs = p := Int.tdiv_mul_cancel hdvd
  have e2 : (exp_norm_p p).natAbs * 2 ^ mpz_scan1 p.natAbs = p.natAbs := by
    have := congrArg Int.natAbs e1
    rw [Int.natAbs_mul, Int.natAbs_pow] at this
    exact this
  refine ⟨?_, e1, e2⟩
  have hpos : 0 < 2 ^ mpz_scan1 p.natAbs := Nat.two_pow_pos _
  have : (exp_norm_p p).natAbs = q := by
    have h3 : (exp_norm_p p).natAbs * 2 ^ mpz_scan1 p.natAbs = q * 2 ^ mpz_scan1 p.natAbs := by
      rw [e2, mul_comm q]
      exact hq
    exact Nat.eq_of_mul_eq_mul_right hpos h3
  rw [this]
  exact hodd

theorem ratio_lt_one {p r : Int} (hp : p ≠ 0) (h : |(p : ℚ) / (2 : ℚ) ^ r| < 1) :
    0 ≤ r ∧ p.natAbs < 2 ^ r.toNat := by
  have h2 : (0 : ℚ) < (2 : ℚ) ^ r := by positivity
  rw [abs_div, abs_of_pos h2, div_lt_one h2] at h
  have habs : |(p : ℚ)| = (p.natAbs : ℚ) := by
    rw [Nat.cast_natAbs, Int.cast_abs]
  rw [habs] at h
  have h1 : (1 : ℚ) ≤ (p.natAbs : ℚ) := by
    exact_mod_cast Int.natAbs_pos.mpr hp
  have hr : 0 ≤ r := by
    by_contra hc
    have : (2 : ℚ) ^ r ≤ 1 := zpow_le_one_of_nonpos₀ (by norm_num) (by omega)
    linarith
  refine ⟨hr, ?_⟩
  obtain ⟨rN, rfl⟩ : ∃ rN : Nat, r = (rN : Int) := ⟨r.toNat, by omega⟩
  rw [Int.toNat_ofNat]
  rw [zpow_natCast] at h
  exact_mod_cast h

/-- The normalisation and the initial values (lines 53-75): the run passes them, the new `p`
is odd, the new `r` is at least 1, the new `|p|` is below `2 ^ r`, the table of squares is
filled and the invariant of the main loop holds for `i = 1`. -/
theorem exp_init_ok {p r : Int} {m : Nat} {Q : List Int} {mult : List Nat} (hp : p ≠ 0)
    (hlt : |(p : ℚ) / (2 : ℚ) ^ r| < 1) (hm : m < 63) (hQ : 3 * (m + 1) ≤ Q.length)
    (hmult : 2 * (m + 1) ≤ mult.length) :
    ∃ (s : ExpSt) (rn : Nat), exp_init p r m Q mult = .ok (s, (rn : Int))
      ∧ (rn : Int) = r - (mpz_scan1 p.natAbs : Int) ∧ 1 ≤ rn
      ∧ (exp_norm_p p).natAbs < 2 ^ rn
      ∧ (∀ j, j < 1 ∨ j < m → s.Q[2 * (m + 1) + j]? = some (exp_norm_p p ^ 2 ^ j))
      ∧ HeadInv (exp_norm_p p) rn m s 1 := by
  obtain ⟨hr0, hpr⟩ := ratio_lt_one hp hlt
  obtain ⟨rN, rfl⟩ : ∃ rN : Nat, r = (rN : Int) := ⟨r.toNat, by omega⟩
  rw [Int.toNat_ofNat] at hpr
  obtain ⟨hodd, he1, he2⟩ := exp_norm_p_spec p hp
  generalize hn : mpz_scan1 p.natAbs = n at *
  have hq1 : 1 ≤ (exp_norm_p p).natAbs := by omega
  have hnlt : n < rN := by
    have h1 : 2 ^ n ≤ p.natAbs := by
      rw [← he2]
      exact Nat.le_mul_of_pos_left _ hq1
    have h2 : 2 ^ n < 2 ^ rN := lt_of_le_of_lt h1 hpr
    exact (Nat.pow_lt_pow_iff_right (by norm_num : 1 < 2)).mp h2
  have hq2 : (exp_norm_p p).natAbs < 2 ^ (rN - n) := by
    have h1 : (exp_norm_p p).natAbs * 2 ^ n < 2 ^ (rN - n) * 2 ^ n := by
      rw [he2, ← pow_add, Nat.sub_add_cancel hnlt.le]
      exact hpr
    exact Nat.lt_of_mul_lt_mul_right h1
  have i0 : 2 * ((m : Int) + 1) = ((2 * (m + 1) : Nat) : Int) := by push_cast; ring
  have g1 : zset Q (2 * ((m : Int) + 1)) (exp_norm_p p)
      = .ok (Q.set (2 * (m + 1)) (exp_norm_p p)) := (zset_nat i0).mpr ⟨by omega, rfl⟩
  obtain ⟨T', e1, e2, e3, e4⟩ := exp_squares_ok (exp_norm_p p) m (m + 1)
    (Q.set (2 * (m + 1)) (exp_norm_p p)) 1 (by rw [List.length_set]; exact hQ) (le_refl 1)
    (by omega) (by omega) (by
      intro j hj
      have : j = 0 := by omega
      subst this
      show (Q.set (2 * (m + 1)) (exp_norm_p p))[2 * (m + 1)]? = some (exp_norm_p p ^ 2 ^ 0)
      rw [List.getElem?_set_self (by omega)]
      simp)
  have i1 : (0 : Int) = ((0 : Nat) : Int) := rfl
  have i2 : (m : Int) + 1 = ((m + 1 : Nat) : Int) := by push_cast; ring
  have g2 : zset T' 0 1 = .ok (T'.set 0 1) := (zset_nat i1).mpr ⟨by omega, rfl⟩
  have g3 : zset (T'.set 0 1) ((m : Int) + 1) 1 = .ok ((T'.set 0 1).set (m + 1) 1) :=
    (zset_nat i2).mpr ⟨by rw [List.length_set]; omega, rfl⟩
  have g4 : pset mult 0 0 = .ok (mult.set 0 0) := (pset_nat i1).mpr ⟨by omega, rfl⟩
  have g5 : pset (mult.set 0 0) ((m : Int) + 1) 0 = .ok ((mult.set 0 0).set (m + 1) 0) :=
    (pset_nat i2).mpr ⟨by rw [List.length_set]; omega, rfl⟩
  have er : (rN : Int) - (n : Int) = ((rN - n : Nat) : Int) := by
    rw [Nat.cast_sub hnlt.le]
  have ne : ∀ {a b : Nat}, a ≠ b → (a = b) = False := fun h => eq_false h
  have hpt : ∀ j, j < 1 ∨ j < m → ((T'.set 0 1).set (m + 1) 1)[2 * (m + 1) + j]?
      = some (exp_norm_p p ^ 2 ^ j) := by
    intro j hj
    have d1 : m + 1 ≠ 2 * (m + 1) + j := by omega
    have d2 : 0 ≠ 2 * (m + 1) + j := by omega
    simp only [List.getElem?_set, ne d1, ne d2, if_false]
    exact e3 j hj
  refine ⟨⟨(T'.set 0 1).set (m + 1) 1, (mult.set 0 0).set (m + 1) 0, 0, 0⟩, rN - n, ?_, er.symm,
    by omega, hq2, hpt, ?_⟩
  · unfold exp_init
    rw [if_neg (by omega), if_neg hp]
    simp only [exp_norm_p, hn, Nat.cast_one] at g1 e1 ⊢
    simp only [bind, Except.bind, g1, e1, g2, g3, g4, g5, pure, Except.pure, er]
  · refine ⟨0, rfl, fun l hl => hpt l (Or.inr hl), ?_, ?_, fun h => by omega,
      Nat.one_le_two_pow⟩
    · refine ⟨0, 0, 0, ⟨?_, ?_, ?_⟩, rfl, dvd_zero _, ?_, ?_, Or.inl rfl, rfl⟩
      · simp only [Nat.add_zero, List.getElem?_set, List.length_set, if_true]
        rw [if_pos (by omega)]
      · have d1 : m + 1 ≠ 0 := by omega
        simp only [List.getElem?_set, List.length_set, ne d1, if_false, if_true]
        rw [if_pos (by omega)]
        simp [blockQ]
      · simp only [Nat.add_zero, List.getElem?_set, List.length_set, if_true]
        rw [if_pos (by omega)]
        simp [blockS]
      · have d1 : m + 1 ≠ 0 := by omega
        simp only [List.getElem?_set, List.length_set, ne d1, if_false, if_true]
        rw [if_pos (by omega)]
      · unfold TermBound
        simp only [pow_zero, one_mul, pow_one, Nat.factorial_one, Nat.mul_one]
        exact hq2.le
    · unfold TermBound
      simp only [pow_zero, one_mul, pow_one, Nat.factorial_one, Nat.mul_one]
      exact hq2.le

/-! ## The invariant along the main loop -/

theorem exp_main_unfold (precy m : Nat) (r : Int) (fuel : Nat) (s : ExpSt) (i : Nat) :
    exp_main precy m r (fuel + 1) s i =
      if s.prec_i_have < precy ∧ i < 2 ^ m then
        exp_body m r s i >>= fun s' => exp_main precy m r fuel s' (i + 1)
      else .ok (s, i) := by
  rw [exp_main]
  split_ifs
  · simp only [exp_body, bind_assoc]
  · rfl

theorem heads_inv {p : Int} {rn m precy : Nat} (hp : p.natAbs < 2 ^ rn) (hp0 : p ≠ 0) :
    ∀ (fuel : Nat) (s : ExpSt) (i : Nat) (L : List (ExpSt × Nat)),
      HeadInv p rn m s i → 1 ≤ i → exp_heads precy m (rn : Int) fuel s i = .ok L →
      ∀ x, x ∈ L → HeadInv p rn m x.1 x.2 ∧ 1 ≤ x.2 := by
  intro fuel
  induction fuel with
  | zero =>
    intro s i L _ _ h
    unfold exp_heads at h
    cases h
  | succ f ih =>
    intro s i L hi hi1 h x hx
    unfold exp_heads at h
    by_cases hg : s.prec_i_have < precy ∧ i < 2 ^ m
    · rw [if_pos hg] at h
      simp only [sbind_ok] at h
      obtain ⟨s', h1, L', h2, h3⟩ := h
      rw [spure_ok] at h3
      subst h3
      rcases List.mem_cons.mp hx with e | e
      · subst e
        exact ⟨hi, hi1⟩
      · exact ih s' (i + 1) L' (body_inv hp hp0 hi hg.2 hi1 h1) (by omega) h2 x e
    · rw [if_neg hg] at h
      cases h
      rw [List.mem_singleton] at hx
      subst hx
      exact ⟨hi, hi1⟩

theorem main_inv {p : Int} {rn m precy : Nat} (hp : p.natAbs < 2 ^ rn) (hp0 : p ≠ 0) :
    ∀ (fuel : Nat) (s : ExpSt) (i : Nat) (x : ExpSt × Nat),
      HeadInv p rn m s i → 1 ≤ i → exp_main precy m (rn : Int) fuel s i = .ok x →
      HeadInv p rn m x.1 x.2 ∧ 1 ≤ x.2 := by
  intro fuel
  induction fuel with
  | zero =>
    intro s i x _ _ h
    unfold exp_main at h
    cases h
  | succ f ih =>
    intro s i x hi hi1 h
    rw [exp_main_unfold] at h
    by_cases hg : s.prec_i_have < precy ∧ i < 2 ^ m
    · rw [if_pos hg] at h
      obtain ⟨s', h1, h2⟩ := (sbind_ok _ _ _).mp h
      exact ih s' (i + 1) x (body_inv hp hp0 hi hg.2 hi1 h1) (by omega) h2
    · rw [if_neg hg] at h
      cases h
      exact ⟨hi, hi1⟩

/-! ## The loops of `mpfr_exp_rational` end within their fuel -/

theorem zget_nf (T : List Int) (i : Int) : zget T i ≠ .error Stop.fuel := by
  unfold zget
  split_ifs
  · split <;> intro h <;> cases h
  · intro h
    cases h

theorem zset_nf (T : List Int) (i v : Int) : zset T i v ≠ .error Stop.fuel := by
  unfold zset
  split_ifs <;> intro h <;> cases h

theorem pget_nf (T : List Nat) (i : Int) : pget T i ≠ .error Stop.fuel := by
  unfold pget
  split_ifs
  · split <;> intro h <;> cases h
  · intro h
    cases h

theorem pset_nf (T : List Nat) (i : Int) (v : Nat) : pset T i v ≠ .error Stop.fuel := by
  unfold pset
  split_ifs <;> intro h <;> cases h

theorem long_shl_nf (r l : Int) : long_shl r l ≠ .error Stop.fuel := by
  unfold long_shl
  split_ifs <;> intro h <;> cases h

theorem int_shl_one_nf (t : Nat) : int_shl_one t ≠ .error Stop.fuel := by
  unfold int_shl_one
  split_ifs <;> intro h <;> cases h

theorem mpz_mul_2exp_nf (z c : Int) : mpz_mul_2exp z c ≠ .error Stop.fuel := by
  unfold mpz_mul_2exp
  split_ifs <;> intro h <;> cases h

set_option linter.unusedTactic false
set_option linter.unreachableTactic false

theorem exp_combine_nf (m : Nat) (r : Int) : ∀ (fuel : Nat) (s : ExpSt) (j : Nat) (l : Int),
    1 ≤ j → j < 2 ^ fuel → exp_combine m r fuel s j l ≠ .error Stop.fuel := by
  intro fuel
  induction fuel with
  | zero =>
    intro s j l h1 h2
    simp at h2
    omega
  | succ f ih =>
    intro s j l h1 h2
    unfold exp_combine
    by_cases hj : j % 2 = 0
    · rw [if_pos hj]
      have hrec : ∀ s', exp_combine m r f s' (j / 2) (l + 1) ≠ .error Stop.fuel := by
        intro s'
        refine ih s' (j / 2) (l + 1) (by omega) ?_
        rw [pow_succ] at h2
        omega
      repeat' first
        | exact nf_pure _
        | exact zget_nf _ _
        | exact zset_nf _ _ _
        | exact pget_nf _ _
        | exact pset_nf _ _ _
        | exact long_shl_nf _ _
        | exact mpz_mul_2exp_nf _ _
        | exact hrec _
        | refine nf_bind _ _ ?_ (fun _ _ => ?_)
    · rw [if_neg hj]
      intro h
      cases h

theorem exp_body_nf (m : Nat) (r : Int) (s : ExpSt) (i : Nat) :
    exp_body m r s i ≠ .error Stop.fuel := by
  unfold exp_body
  have hrec : ∀ s' l, exp_combine m r (i + 2) s' (i + 1) l ≠ .error Stop.fuel := by
    intro s' l
    refine exp_combine_nf m r (i + 2) s' (i + 1) l (by omega) ?_
    have := Nat.lt_two_pow (i + 1)
    rw [pow_succ]
    omega
  repeat' first
    | exact zset_nf _ _ _
    | exact pset_nf _ _ _
    | exact hrec _ _
    | refine nf_bind _ _ ?_ (fun _ _ => ?_)

set_option linter.unusedTactic true
set_option linter.unreachableTactic true

theorem exp_heads_nf (precy m : Nat) (r : Int) : ∀ (fuel : Nat) (s : ExpSt) (i : Nat),
    i ≤ 2 ^ m → 2 ^ m < i + fuel → exp_heads precy m r fuel s i ≠ .error Stop.fuel := by
  intro fuel
  induction fuel with
  | zero =>
    intro s i h1 h2
    omega
  | succ f ih =>
    intro s i h1 h2
    unfold exp_heads
    refine nf_ite _ _ _ (fun hg => ?_) (fun _ h => by cases h)
    refine nf_bind _ _ (exp_body_nf _ _ _ _) (fun s' _ => ?_)
    refine nf_bind _ _ (ih s' (i + 1) (by omega) (by omega)) (fun _ _ => nf_pure _)

theorem exp_main_nf (precy m : Nat) (r : Int) : ∀ (fuel : Nat) (s : ExpSt) (i : Nat),
    i ≤ 2 ^ m → 2 ^ m < i + fuel → exp_main precy m r fuel s i ≠ .error Stop.fuel := by
  intro fuel
  induction fuel with
  | zero =>
    intro s i h1 h2
    omega
  | succ f ih =>
    intro s i h1 h2
    rw [exp_main_unfold]
    refine nf_ite _ _ _ (fun hg => ?_) (fun _ h => by cases h)
    exact nf_bind _ _ (exp_body_nf _ _ _ _) (fun s' _ => ih s' (i + 1) (by omega) (by omega))

/-! ## The accumulation loop -/

theorem accumulate_step {m : Nat} {r : Int} {fuel : Nat} {T T2 : List Int} {mult : List Nat}
    {q accu : Nat}
    (h : exp_accumulate m r (fuel + 1) T mult ((q + 1 : Nat) : Int) accu = .ok T2)
    (hq : q + 1 ≤ m) :
    ∃ (j : Nat) (sk pj sk1 qk qk1 : Int) (t : Nat) (T1 : List Int),
      mult[m + 1 + q]? = some j ∧ T[m + 1 + (q + 1)]? = some sk
      ∧ T[2 * (m + 1) + j]? = some pj ∧ T[m + 1 + q]? = some sk1 ∧ T[q + 1]? = some qk
      ∧ T[q]? = some qk1 ∧ mult[m + 1 + (q + 1)]? = some t ∧ t < 31
      ∧ T1[q]? = some (qk1 * qk)
      ∧ T1[m + 1 + q]?
          = some (sk1 * qk * 2 ^ (to_ulong (r * (to_ulong ((accu : Int) + (2 ^ t : Nat)) : Nat)))
            + sk * pj)
      ∧ (∀ x, x ≠ q → x ≠ m + 1 + q → x ≠ m + 1 + (q + 1) → T1[x]? = T[x]?)
      ∧ exp_accumulate m r fuel T1 mult (q : Int) (to_ulong ((accu : Int) + (2 ^ t : Nat)))
          = .ok T2 := by
  unfold exp_accumulate
    at h
  rw [if_pos (by exact_mod_cast Nat.succ_pos q)] at h
  simp only [sbind_ok] at h
  obtain ⟨j, h0, sk, h1, pj, h2, T1, h3, sk1, h4, qk, h5, T2', h6, t, h7, one, h8, sk1', h9,
    sh, h10, T3, h11, sk1'', h12, sk', h13, T4, h14, qk1, h15, qk', h16, T5, h17, h18⟩ := h
  have i1 : (m : Int) + 1 + ((q + 1 : Nat) : Int) = ((m + 1 + (q + 1) : Nat) : Int) := by
    push_cast; ring
  have i2 : 2 * ((m : Int) + 1) + (j : Int) = ((2 * (m + 1) + j : Nat) : Int) := by
    push_cast; ring
  have i3 : (m : Int) + 1 + (((q + 1 : Nat) : Int) - 1) = ((m + 1 + q : Nat) : Int) := by
    push_cast; ring
  have i5 : ((q + 1 : Nat) : Int) - 1 = ((q : Nat) : Int) := by push_cast; ring
  rw [pget_nat i3] at h0
  rw [zget_nat i1] at h1 h13
  rw [zget_nat i2] at h2
  rw [zset_nat i1] at h3
  rw [zget_nat i3] at h4 h9 h12
  rw [zget_nat rfl] at h5 h16
  rw [zset_nat i3] at h6 h11 h14
  rw [pget_nat i1] at h7
  rw [zget_nat i5] at h15
  rw [zset_nat i5] at h17
  obtain ⟨l3, e3⟩ := h3
  obtain ⟨l6, e6⟩ := h6
  obtain ⟨l11, e11⟩ := h11
  obtain ⟨l14, e14⟩ := h14
  obtain ⟨l17, e17⟩ := h17
  obtain ⟨c8, e8⟩ := int_shl_one_eq_ok h8
  obtain ⟨c10, e10⟩ := mpz_mul_2exp_eq_ok h10
  have d1 : m + 1 + (q + 1) ≠ m + 1 + q := by omega
  have d2 : m + 1 + (q + 1) ≠ q + 1 := by omega
  have d3 : m + 1 + q ≠ q + 1 := by omega
  have d4 : m + 1 + q ≠ q := by omega
  have d5 : m + 1 + (q + 1) ≠ q := by omega
  have d6 : q ≠ q + 1 := by omega
  subst e3 e6 e11 e14 e17 e8
  simp only [List.length_set] at l6 l11 l14 l17
  have ne : ∀ {a b : Nat}, a ≠ b → (a = b) = False := fun h => eq_false h
  simp only [List.getElem?_set, ne d2, if_false] at h5
  simp only [List.getElem?_set, List.length_set, ne d1, ne d2, ne d3, ne d4, ne d5, ne d6,
    ne d1.symm, ne d2.symm, ne d3.symm, ne d4.symm, ne d5.symm,
    ne d6.symm, if_false, if_true, l3, l6, l17, h1, h5,
    Option.some.injEq] at h4 h9 h12 h13 h15 h16
  subst h9 h12 h13 h16 e10
  have etn : (to_ulong (r * (to_ulong ((accu : Int) + (2 ^ t : Nat)) : Nat)) : Int).toNat
      = to_ulong (r * (to_ulong ((accu : Int) + (2 ^ t : Nat)) : Nat)) := Int.toNat_ofNat _
  rw [i5] at h18
  refine ⟨j, sk, pj, sk1, qk, qk1, t, _, h0, h1, h2, h4, h5, h15, h7, c8, ?_, ?_, ?_, h18⟩
  · simp only [List.getElem?_set, List.length_set, ne d1, ne d2, ne d3, ne d4, ne d5,
      ne d6, ne d1.symm, ne d2.symm, ne d3.symm, ne d4.symm, ne d5.symm, ne d6.symm, if_false,
      if_true, l3, l6, l17]
  · simp only [List.getElem?_set, List.length_set, ne d1, ne d2, ne d3, ne d4, ne d5,
      ne d6, ne d1.symm, ne d2.symm, ne d3.symm, ne d4.symm, ne d5.symm, ne d6.symm, if_false,
      if_true, l3, l6, l17, etn]
  · intro x x1 x2 x3
    simp only [List.getElem?_set, ne (Ne.symm x1), ne (Ne.symm x2), ne (Ne.symm x3), if_false]

theorem to_ulong_nat {n : Nat} (h : n < 2 ^ 64) : to_ulong (n : Int) = n := by
  have h1 := to_ulong_of_lt (n : Int) (Int.ofNat_nonneg n) (by exact_mod_cast h)
  exact_mod_cast h1

theorem acc_init {p : Int} {rn m : Nat} {s : ExpSt} {i : Nat} (h : HeadInv p rn m s i) :
    AccInv p rn m s.Q s.mult s.k 0 i := by
  obtain ⟨kn, hk, hpt, hc, -, -, hi⟩ := h
  obtain ⟨t, a, v, hb, he, hd, -, -, -, hc'⟩ := hc
  obtain ⟨b1, b2, b3⟩ := hb
  have e1 : i - a = 2 ^ t := by omega
  exact ⟨kn, a, t, hk, hpt, hc', b1, by rw [e1]; exact b2, by rw [e1]; exact b3, by omega, hd,
    Nat.two_pow_pos t, hi⟩

theorem acc_step {p : Int} {rn m : Nat} (hm : m < 63) {fuel : Nat} {T T2 : List Int}
    {mult : List Nat} {q accu i : Nat}
    (hI : AccInv p rn m T mult ((q + 1 : Nat) : Int) accu i)
    (h : exp_accumulate m (rn : Int) (fuel + 1) T mult ((q + 1 : Nat) : Int) accu = .ok T2) :
    ∃ (T1 : List Int) (accu1 : Nat), AccInv p rn m T1 mult (q : Int) accu1 i
      ∧ exp_accumulate m (rn : Int) fuel T1 mult (q : Int) accu1 = .ok T2 := by
  obtain ⟨kn, a, t, hk, hpt, hc, hmt, hQ, hS, hsum, hd, hacc, hi⟩ := hI
  have hkn : kn = q + 1 := by exact_mod_cast hk.symm
  subst hkn
  have hc0 := hc
  obtain ⟨t', a', v', hb', he', hd', -, -, hsz, hc'⟩ := hc
  obtain ⟨b1, b2, b3⟩ := hb'
  have h2t : 0 < 2 ^ t := Nat.two_pow_pos t
  have h2t' : 0 < 2 ^ t' := Nat.two_pow_pos t'
  have hai : a < i := by omega
  have hM : (2 : Nat) ^ m < 2 ^ 63 := Nat.pow_lt_pow_right (by norm_num) hm
  have hcount : q + 1 + (t + 1) ≤ m :=
    cover_count (q + 1) a (t + 1) m hc0 (by omega) hd (by omega)
  have htt' : t + 1 ≤ t' := by
    have := @low_bit a' t' (t + 1) hd' (by rw [← he']; exact hd)
    exact this
  have ht'm : t' < m := by
    have h1 : 2 ^ t' < 2 ^ m := by omega
    exact (Nat.pow_lt_pow_iff_right (by norm_num)).mp h1
  obtain ⟨j, sk, pj, sk1, qk, qk1, t0, T1, g0, g1, g2, g3, g4, g5, g6, g7, g8, g9, g10, g11⟩ :=
    accumulate_step h (by omega)
  rw [b1] at g0
  rw [hmt] at g6
  rw [hS] at g1
  rw [hQ] at g4
  rw [b2] at g5
  rw [b3] at g3
  cases g0
  cases g6
  cases g1
  cases g4
  cases g5
  cases g3
  rw [hpt t' ht'm] at g2
  cases g2
  -- the new counter
  have hpow : (2 : Nat) ^ t ≤ 2 ^ t' := Nat.pow_le_pow_right (by norm_num) (by omega)
  have hpow1 : (2 : Nat) ^ (t + 1) ≤ 2 ^ t' := Nat.pow_le_pow_right (by norm_num) htt'
  have hps : (2 : Nat) ^ (t + 1) = 2 * 2 ^ t := by rw [pow_succ]; ring
  have eacc : to_ulong ((accu : Int) + (2 ^ t : Nat)) = accu + 2 ^ t := by
    have : ((accu : Int) + (2 ^ t : Nat)) = ((accu + 2 ^ t : Nat) : Int) := by push_cast; ring
    rw [this]
    exact to_ulong_nat (by omega)
  rw [eacc] at g9 g11
  have eia : accu + 2 ^ t = i - a := by omega
  have hlt' : i - a < 2 ^ t' := by omega
  have hr : rn * 2 ^ t' < 2 ^ 64 := by
    rcases hsz with h0 | h0
    · omega
    · exact h0
  have ecount : to_ulong ((rn : Int) * ((accu + 2 ^ t : Nat) : Int)) = rn * (i - a) := by
    have : ((rn : Int) * ((accu + 2 ^ t : Nat) : Int)) = ((rn * (i - a) : Nat) : Int) := by
      rw [eia]; push_cast; ring
    rw [this]
    refine to_ulong_nat ?_
    calc rn * (i - a) ≤ rn * 2 ^ t' := Nat.mul_le_mul_left _ (le_of_lt hlt')
      _ < 2 ^ 64 := hr
  rw [ecount] at g9
  have eblk : i - a' = 2 ^ t' + (i - a) := by omega
  refine ⟨T1, accu + 2 ^ t, ⟨q, a', t', rfl, ?_, ?_, b1, ?_, ?_, by omega, hd', by omega, hi⟩,
    g11⟩
  · intro l hl
    rw [g10 _ (by omega) (by omega) (by omega)]
    exact hpt l hl
  · refine cover_frame q a' hc' ?_
    intro x hx
    exact ⟨g10 _ (by omega) (by omega) (by omega), g10 _ (by omega) (by omega) (by omega),
      rfl, rfl⟩
  · rw [g8, eblk, blockQ_add, ← he']
    push_cast
    rfl
  · rw [g9, eblk, blockS_add, ← he']

theorem acc_run {p : Int} {rn m : Nat} (hm : m < 63) {i : Nat} :
    ∀ (fuel : Nat) (kn : Nat) (T T2 : List Int) (mult : List Nat) (accu : Nat),
      AccInv p rn m T mult (kn : Int) accu i →
      exp_accumulate m (rn : Int) fuel T mult (kn : Int) accu = .ok T2 →
      T2[0]? = some ((i.factorial : Nat) : Int) ∧ T2[m + 1]? = some (blockS p rn 0 i) := by
  intro fuel
  induction fuel with
  | zero =>
    intro kn T T2 mult accu _ h
    cases h
  | succ fuel ih =>
    intro kn T T2 mult accu hI h
    cases kn with
    | zero =>
      unfold exp_accumulate
        at h
      rw [if_neg (by simp)] at h
      cases h
      obtain ⟨kn, a, t, hk, -, hc, -, hQ, hS, -⟩ := hI
      have hkn : kn = 0 := by exact_mod_cast hk.symm
      subst hkn
      have ha : a = 0 := hc
      subst ha
      rw [blockQ_zero] at hQ
      exact ⟨hQ, hS⟩
    | succ q =>
      obtain ⟨T1, accu1, hI1, h1⟩ := acc_step hm hI h
      exact ih q T1 T2 mult accu1 hI1 h1

set_option linter.unusedTactic false
set_option linter.unreachableTactic false

theorem exp_accumulate_nf (m : Nat) (r : Int) :
    ∀ (fuel : Nat) (kn : Nat) (T : List Int) (mult : List Nat) (accu : Nat), kn < fuel →
      exp_accumulate m r fuel T mult (kn : Int) accu ≠ .error Stop.fuel := by
  intro fuel
  induction fuel with
  | zero =>
    intro kn T mult accu h
    omega
  | succ fuel ih =>
    intro kn T mult accu hk
    unfold exp_accumulate
    cases kn with
    | zero =>
      rw [if_neg (by simp)]
      intro h
      cases h
    | succ q =>
      rw [if_pos (by exact_mod_cast Nat.succ_pos q)]
      have i5 : ((q + 1 : Nat) : Int) - 1 = ((q : Nat) : Int) := by push_cast; ring
      rw [i5]
      repeat' first
        | exact zget_nf _ _
        | exact zset_nf _ _ _
        | exact pget_nf _ _
        | exact pset_nf _ _ _
        | exact long_shl_nf _ _
        | exact int_shl_one_nf _
        | exact mpz_mul_2exp_nf _ _
        | exact ih _ _ _ _ (by omega)
        | refine nf_bind _ _ ?_ (fun _ _ => ?_)

set_option linter.unusedTactic true
set_option linter.unreachableTactic true

theorem exp_norm_ratio {p r : Int} {rn : Nat} (hp : p ≠ 0)
    (hrn : (rn : Int) = r - (mpz_scan1 p.natAbs : Int)) :
    (exp_norm_p p : ℚ) / (2 : ℚ) ^ rn = (p : ℚ) / (2 : ℚ) ^ r := by
  obtain ⟨-, he, -⟩ := exp_norm_p_spec p hp
  have hr : r = (rn : Int) + (mpz_scan1 p.natAbs : Int) := by omega
  have h2 : (2 : ℚ) ^ r = (2 : ℚ) ^ rn * (2 : ℚ) ^ mpz_scan1 p.natAbs := by
    rw [hr, zpow_add₀ (by norm_num : (2 : ℚ) ≠ 0), zpow_natCast, zpow_natCast]
  have h3 : (p : ℚ) = (exp_norm_p p : ℚ) * (2 : ℚ) ^ mpz_scan1 p.natAbs := by
    have := congrArg (fun z : Int => (z : ℚ)) he
    simp only [Int.cast_mul, Int.cast_pow, Int.cast_ofNat] at this
    exact this.symm
  rw [h2, h3]
  have a1 : (2 : ℚ) ^ rn ≠ 0 := by positivity
  have a2 : (2 : ℚ) ^ mpz_scan1 p.natAbs ≠ 0 := by positivity
  field_simp
  ring

theorem termBound_rat {p : Int} {rn v c : Nat} (h : TermBound p rn v c) :
    |(p : ℚ) / (2 : ℚ) ^ rn| ^ c / (c.factorial : ℚ) ≤ (2 : ℚ) ^ (-(v : Int)) := by
  unfold TermBound at h
  have habs : |(p : ℚ)| = (p.natAbs : ℚ) := by
    rw [Nat.cast_natAbs, Int.cast_abs]
  have h2 : (0 : ℚ) < (2 : ℚ) ^ rn := by positivity
  have hq : ((2 : ℚ) ^ v * (p.natAbs : ℚ) ^ c) ≤ (c.factorial : ℚ) * (2 : ℚ) ^ (rn * c) := by
    exact_mod_cast h
  rw [abs_div, abs_of_pos h2, habs, div_pow, zpow_neg, zpow_natCast, ← pow_mul, div_div,
    div_le_iff₀ (by positivity), inv_mul_eq_div, le_div_iff₀ (by positivity)]
  calc (p.natAbs : ℚ) ^ c * 2 ^ v = (2 : ℚ) ^ v * (p.natAbs : ℚ) ^ c := by ring
    _ ≤ (c.factorial : ℚ) * (2 : ℚ) ^ (rn * c) := hq
    _ = 2 ^ (rn * c) * (c.factorial : ℚ) := by ring

theorem blockS_closed (p : Int) (r : Nat) : ∀ i : Nat,
    (blockS p r 0 i : ℚ)
      = (i.factorial : ℚ)
        * ∑ j in Finset.range i, (p : ℚ) ^ j * (2 : ℚ) ^ (r * (i - 1 - j)) / (j.factorial : ℚ) := by
  intro i
  induction i with
  | zero => simp [blockS]
  | succ n ih =>
    have hs : ∑ j in Finset.range n,
        (p : ℚ) ^ j * (2 : ℚ) ^ (r * (n + 1 - 1 - j)) / (j.factorial : ℚ)
        = (2 : ℚ) ^ r * ∑ j in Finset.range n,
          (p : ℚ) ^ j * (2 : ℚ) ^ (r * (n - 1 - j)) / (j.factorial : ℚ) := by
      rw [Finset.mul_sum]
      refine Finset.sum_congr rfl ?_
      intro j hj
      have hj' : j < n := Finset.mem_range.mp hj
      have e : n + 1 - 1 - j = (n - 1 - j) + 1 := by omega
      rw [e, Nat.mul_succ, pow_add]
      ring
    have hf : (n.factorial : ℚ) ≠ 0 := by positivity
    rw [Finset.sum_range_succ, hs]
    have e0 : n + 1 - 1 - n = 0 := by omega
    rw [e0]
    simp only [blockS, Nat.zero_add, Int.cast_add, Int.cast_mul, Int.cast_pow, Int.cast_natCast,
      Int.cast_ofNat, ih, Nat.factorial_succ, Nat.cast_mul, Nat.cast_add, Nat.cast_one,
      Nat.mul_zero, pow_zero, mul_one]
    field_simp
    ring

theorem taylor_sum (p : Int) (r : Nat) (i : Nat) (hi : 1 ≤ i) :
    (blockS p r 0 i : ℚ) / ((i.factorial : ℚ) * (2 : ℚ) ^ (r * (i - 1)))
      = ∑ j in Finset.range i, ((p : ℚ) / (2 : ℚ) ^ r) ^ j / (j.factorial : ℚ) := by
  rw [blockS_closed, mul_div_mul_left _ _ (by positivity : (i.factorial : ℚ) ≠ 0),
    Finset.sum_div]
  refine Finset.sum_congr rfl ?_
  intro j hj
  have hj' : j < i := Finset.mem_range.mp hj
  have e : r * (i - 1) = r * (i - 1 - j) + r * j := by
    rw [← Nat.mul_add]
    congr 1
    omega
  have a1 : (2 : ℚ) ^ (r * (i - 1 - j)) ≠ 0 := by positivity
  have a2 : (2 : ℚ) ^ (r * j) ≠ 0 := by positivity
  have a3 : (j.factorial : ℚ) ≠ 0 := by positivity
  have a4 : (2 : ℚ) ^ r ≠ 0 := by positivity
  rw [e, pow_add, div_pow, ← pow_mul]
  field_simp
  ring

theorem cover_block {p : Int} {r m : Nat} {T : List Int} {mult : List Nat} :
    ∀ (n e : Nat), Cover p r m T mult n e →
      ∀ j, j < n → ∃ a t, Block p r m T mult j a t ∧ a + 2 ^ t ≤ e := by
  intro n
  induction n with
  | zero =>
    intro e _ j hj
    omega
  | succ n ih =>
    intro e h j hj
    obtain ⟨t, a, v, hb, he, -, -, -, -, hc⟩ := h
    by_cases hjn : j = n
    · subst hjn
      exact ⟨a, t, hb, by omega⟩
    · obtain ⟨a', t', hb', hle⟩ := ih a hc j (by omega)
      have : 0 < 2 ^ t := Nat.two_pow_pos t
      exact ⟨a', t', hb', by omega⟩

/-- The main loop returns the last of the states that `exp_heads` lists. -/
theorem heads_last (precy m : Nat) (r : Int) : ∀ (fuel : Nat) (s : ExpSt) (i : Nat)
    (x : ExpSt × Nat), exp_main precy m r fuel s i = .ok x →
    ∃ L, exp_heads precy m r fuel s i = .ok L ∧ L.getLast? = some x := by
  intro fuel
  induction fuel with
  | zero =>
    intro s i x h
    unfold exp_main at h
    cases h
  | succ fuel ih =>
    intro s i x h
    rw [exp_main_unfold] at h
    unfold exp_heads
    by_cases hc : s.prec_i_have < precy ∧ i < 2 ^ m
    · rw [if_pos hc] at h
      rw [if_pos hc]
      obtain ⟨s', h1, h2⟩ := (sbind_ok _ _ _).mp h
      obtain ⟨L, h3, h4⟩ := ih s' (i + 1) x h2
      refine ⟨(s, i) :: L, ?_, ?_⟩
      · simp only [sbind_ok, spure_ok]
        exact ⟨s', h1, L, h3, rfl⟩
      · cases L with
        | nil => cases h4
        | cons y L => rw [List.getLast?_cons_cons]; exact h4
    · rw [if_neg hc] at h
      rw [if_neg hc]
      cases h
      exact ⟨[(s, i)], rfl, rfl⟩

/-- The function is its first three parts followed by lines 126-149. -/
theorem exp_rational_parts (W : Nat) (G : Globals) (y : mpfr_struct) (p r : Int) (m : Nat)
    (Q : List Int) (mult : List Nat) :
    mpfr_exp_rational W G y p r m Q mult
      = exp_accumulated y.prec p r m Q mult >>= fun x => exp_finish W G y x.2.2 m x.1 x.2.1 := by
  unfold mpfr_exp_rational exp_accumulated
  simp only [bind_assoc, pure_bind]

theorem exp_norm_p_ne_zero (p : Int) (hp : p ≠ 0) : exp_norm_p p ≠ 0 := by
  obtain ⟨h, -, -⟩ := exp_norm_p_spec p hp
  intro h0
  rw [h0] at h
  simp at h

/-- C26: for every nonzero `p` and every `r` with `|p / 2 ^ r| < 1`, lines 52-74 of
`mpfr_exp_rational` (with `m` below the width of a `long` less one and tables of at least
`3 * (m + 1)` integers and `2 * (m + 1)` precisions) end normally; the normalised `p`, which is what
`ptoj[0]` holds, is odd, the normalised `r` is at least 1, the rational `p / 2 ^ r` is
unchanged, and for every `k < m` the entry `ptoj[k]` is the normalised `p` to the power
`2 ^ k`. -/
theorem C26_normalisation (p r : Int) (m : Nat) (Q : List Int) (mult : List Nat)
    (hp : p ≠ 0) (hlt : |(p : ℚ) / (2 : ℚ) ^ r| < 1) (hm : m < 63)
    (hQ : 3 * (m + 1) ≤ Q.length) (hmult : 2 * (m + 1) ≤ mult.length) :
    ∃ (s : ExpSt) (r' : Int), exp_init p r m Q mult = .ok (s, r')
      ∧ zget s.Q (2 * ((m : Int) + 1)) = .ok (exp_norm_p p)
      ∧ exp_norm_p p % 2 = 1
      ∧ 1 ≤ r'
      ∧ (exp_norm_p p : ℚ) / (2 : ℚ) ^ r' = (p : ℚ) / (2 : ℚ) ^ r
      ∧ ∀ k : Nat, k < m →
          zget s.Q (2 * ((m : Int) + 1) + (k : Int)) = .ok (exp_norm_p p ^ 2 ^ k) := by
  obtain ⟨s, rn, h1, h2, h3, -, h5, -⟩ := exp_init_ok hp hlt hm hQ hmult
  obtain ⟨hodd, -, -⟩ := exp_norm_p_spec p hp
  refine ⟨s, (rn : Int), h1, ?_, ?_, by exact_mod_cast h3, ?_, ?_⟩
  · have := h5 0 (Or.inl (by norm_num))
    rw [pow_zero, pow_one] at this
    exact (zget_nat (by push_cast; ring)).mpr this
  · omega
  · rw [zpow_natCast]
    exact exp_norm_ratio hp h2
  · intro k hk
    exact (zget_nat (by push_cast; ring)).mpr (h5 k (Or.inr hk))

/-- Lines 52-74 on `p / 2 ^ r = 12 / 2 ^ 4` with `m = 3`: `p` becomes 3 and `r` becomes 2. -/
theorem C26_normalisation_witness :
    (12 : Int) ≠ 0 ∧ |((12 : Int) : ℚ) / (2 : ℚ) ^ (4 : Int)| < 1
      ∧ exp_init 12 4 3 c23_Q c23_mult = .ok (c26_s, 2) ∧ exp_norm_p 12 = 3
      ∧ ∃ (s : ExpSt) (r' : Int), exp_init 12 4 3 c23_Q c23_mult = .ok (s, r')
        ∧ zget s.Q (2 * (((3 : Nat) : Int) + 1)) = .ok (exp_norm_p 12)
        ∧ exp_norm_p 12 % 2 = 1
        ∧ 1 ≤ r'
        ∧ (exp_norm_p 12 : ℚ) / (2 : ℚ) ^ r' = ((12 : Int) : ℚ) / (2 : ℚ) ^ (4 : Int)
        ∧ ∀ k : Nat, k < 3 →
            zget s.Q (2 * (((3 : Nat) : Int) + 1) + (k : Int)) = .ok (exp_norm_p 12 ^ 2 ^ k) :=
  ⟨by decide, by rw [abs_lt]; constructor <;> norm_num, rfl, rfl,
    C26_normalisation 12 4 3 c23_Q c23_mult (by decide)
      (by rw [abs_lt]; constructor <;> norm_num) (by decide) (by decide) (by decide)⟩

/-- C24: on every run of `mpfr_exp_rational` (nonzero `p`, `|p / 2 ^ r| < 1`, `m` below the
width of a `long` less one, tables of at least `3 * (m + 1)` and `2 * (m + 1)`
entries) the main loop
ends, and each time its guard is reached with counter `i` and stack top `k`: the product
`Q[0] * ... * Q[k]` is `i!`, the stack positions `0 .. k` hold consecutive blocks that together
cover the terms `[0, i)`, and for every `j ≤ k` the entries `Q[j]` and `S[j]` are the
denominator and the numerator of a block of exactly `2 ^ log2_nb_terms[j]` consecutive
terms. -/
theorem C24_stack_invariant (precy : Nat) (p r : Int) (m : Nat) (Q : List Int)
    (mult : List Nat) (hp : p ≠ 0) (hlt : |(p : ℚ) / (2 : ℚ) ^ r| < 1) (hm : m < 63)
    (hQ : 3 * (m + 1) ≤ Q.length) (hmult : 2 * (m + 1) ≤ mult.length) :
    exp_rational_heads precy p r m Q mult ≠ .error Stop.fuel
      ∧ ∀ (L : List (ExpSt × Nat)) (r' : Int),
        exp_rational_heads precy p r m Q mult = .ok (L, r') →
        ∀ (s : ExpSt) (i : Nat), (s, i) ∈ L →
          ∃ kn : Nat, s.k = (kn : Int)
            ∧ (s.Q.take (kn + 1)).prod = (i.factorial : Int)
            ∧ Cover (exp_norm_p p) r'.toNat m s.Q s.mult (kn + 1) i
            ∧ ∀ j, j ≤ kn → ∃ a t, Block (exp_norm_p p) r'.toNat m s.Q s.mult j a t
                ∧ a + 2 ^ t ≤ i := by
  obtain ⟨s0, rn, h1, h2, h3, h4, h5, h6⟩ := exp_init_ok hp hlt hm hQ hmult
  have hrun : exp_rational_heads precy p r m Q mult
      = exp_heads precy m (rn : Int) (2 ^ m) s0 1 >>= fun L => pure (L, (rn : Int)) := by
    unfold exp_rational_heads
    rw [h1]
    rfl
  constructor
  · rw [hrun]
    refine nf_bind _ _ ?_ (fun _ _ => nf_pure _)
    exact exp_heads_nf precy m (rn : Int) (2 ^ m) s0 1 Nat.one_le_two_pow (by omega)
  · intro L r' hL s i hs
    rw [hrun] at hL
    obtain ⟨L', e1, e2⟩ := (sbind_ok _ _ _).mp hL
    have e3 := (spure_ok _ _).mp e2
    cases e3
    have hI := (heads_inv h4 (exp_norm_p_ne_zero p hp) (2 ^ m) s0 1 _ h6 (le_refl 1) e1
      (s, i) hs).1
    obtain ⟨kn, hk, -, hc, -⟩ := hI
    rw [Int.toNat_ofNat]
    refine ⟨kn, hk, cover_prod (kn + 1) i hc, hc, ?_⟩
    intro j hj
    exact cover_block (kn + 1) i hc j (by omega)

/-- The run on `p / 2 ^ r = 12 / 2 ^ 4`, `m = 3`, at precision 5: when the guard is reached
with `i = 6` the stack top is `k = 1`, `Q[0] * Q[1] = 24 * 30 = 6!`. -/
theorem C24_stack_invariant_witness :
    exp_rational_heads 5 12 4 3 c23_Q c23_mult = .ok (c24_L, 2) ∧ (c24_s, 6) ∈ c24_L
      ∧ ∃ kn : Nat, c24_s.k = (kn : Int)
        ∧ (c24_s.Q.take (kn + 1)).prod = (Nat.factorial 6 : Int)
        ∧ Cover (exp_norm_p 12) (2 : Int).toNat 3 c24_s.Q c24_s.mult (kn + 1) 6
        ∧ ∀ j, j ≤ kn → ∃ a t, Block (exp_norm_p 12) (2 : Int).toNat 3 c24_s.Q c24_s.mult j a t
            ∧ a + 2 ^ t ≤ 6 :=
  ⟨rfl, by simp [c24_L],
    (C24_stack_invariant 5 12 4 3 c23_Q c23_mult (by decide)
      (by rw [abs_lt]; constructor <;> norm_num) (by decide) (by decide) (by decide)).2 c24_L 2 rfl c24_s 6
      (by simp [c24_L])⟩

/-- C25: on every run of `mpfr_exp_rational` (same conditions), each time the guard of the
main loop is reached with counter `i`, the first omitted term `|p / 2 ^ r| ^ i / i!` is at
most `2 ^ (- prec_i_have)`; and when `prec_i_have` has reached the precision of `y`, every
omitted term (`t ≥ i`) is at most `2 ^ (- PREC(y))`. -/
theorem C25_omitted_term (precy : Nat) (p r : Int) (m : Nat) (Q : List Int)
    (mult : List Nat) (hp : p ≠ 0) (hlt : |(p : ℚ) / (2 : ℚ) ^ r| < 1) (hm : m < 63)
    (hQ : 3 * (m + 1) ≤ Q.length) (hmult : 2 * (m + 1) ≤ mult.length) :
    exp_rational_heads precy p r m Q mult ≠ .error Stop.fuel
      ∧ ∀ (L : List (ExpSt × Nat)) (r' : Int),
        exp_rational_heads precy p r m Q mult = .ok (L, r') →
        ∀ (s : ExpSt) (i : Nat), (s, i) ∈ L →
          |(p : ℚ) / (2 : ℚ) ^ r| ^ i / (i.factorial : ℚ) ≤ (2 : ℚ) ^ (-(s.prec_i_have : Int))
            ∧ (precy ≤ s.prec_i_have → ∀ t, i ≤ t →
                |(p : ℚ) / (2 : ℚ) ^ r| ^ t / (t.factorial : ℚ) ≤ (2 : ℚ) ^ (-(precy : Int))) := by
  obtain ⟨s0, rn, h1, h2, h3, h4, h5, h6⟩ := exp_init_ok hp hlt hm hQ hmult
  have hrun : exp_rational_heads precy p r m Q mult
      = exp_heads precy m (rn : Int) (2 ^ m) s0 1 >>= fun L => pure (L, (rn : Int)) := by
    unfold exp_rational_heads
    rw [h1]
    rfl
  constructor
  · rw [hrun]
    refine nf_bind _ _ ?_ (fun _ _ => nf_pure _)
    exact exp_heads_nf precy m (rn : Int) (2 ^ m) s0 1 Nat.one_le_two_pow (by omega)
  · intro L r' hL s i hs
    rw [hrun] at hL
    obtain ⟨L', e1, e2⟩ := (sbind_ok _ _ _).mp hL
    have e3 := (spure_ok _ _).mp e2
    cases e3
    have hI := (heads_inv h4 (exp_norm_p_ne_zero p hp) (2 ^ m) s0 1 _ h6 (le_refl 1) e1
      (s, i) hs).1
    obtain ⟨kn, -, -, -, hT, -⟩ := hI
    have hratio := exp_norm_ratio hp h2
    constructor
    · have := termBound_rat hT
      rw [hratio] at this
      exact this
    · intro hge t hit
      have h7 := termBound_mono (le_of_lt h4) (termBound_anti hge hT) t hit
      have := termBound_rat h7
      rw [hratio] at this
      exact this

/-- The same run: when the guard is reached with `i = 6`, `prec_i_have = 6` has passed the
precision 5; `(12 / 16) ^ 6 / 6!` is at most `2 ^ (-6)` and `(12 / 16) ^ 7 / 7!` is at most
`2 ^ (-5)`. -/
theorem C25_omitted_term_witness :
    exp_rational_heads 5 12 4 3 c23_Q c23_mult = .ok (c24_L, 2) ∧ (c24_s, 6) ∈ c24_L
      ∧ 5 ≤ c24_s.prec_i_have
      ∧ |((12 : Int) : ℚ) / (2 : ℚ) ^ (4 : Int)| ^ 6 / (Nat.factorial 6 : ℚ)
          ≤ (2 : ℚ) ^ (-(c24_s.prec_i_have : Int))
      ∧ |((12 : Int) : ℚ) / (2 : ℚ) ^ (4 : Int)| ^ 7 / (Nat.factorial 7 : ℚ)
          ≤ (2 : ℚ) ^ (-((5 : Nat) : Int)) :=
  have h := (C25_omitted_term 5 12 4 3 c23_Q c23_mult (by decide)
      (by rw [abs_lt]; constructor <;> norm_num) (by decide) (by decide) (by decide)).2 c24_L 2 rfl c24_s 6
      (by simp [c24_L])
  ⟨rfl, by simp [c24_L], by decide, h.1, h.2 (by decide) 7 (by norm_num)⟩

/-- C23: on every run of `mpfr_exp_rational` (same conditions) the main loop and the
accumulation loop end, and after the accumulation loop, with `i` the final value of the
main-loop counter and `p`, `r` the normalised inputs: `Q[0] = i!`,
`S[0] = i! * sum_{j < i} p ^ j * 2 ^ (r * (i - 1 - j)) / j!`, and
`S[0] / (Q[0] * 2 ^ (r * (i - 1)))` is the sum of the first `i` terms of the Taylor series of
`exp` at `p / 2 ^ r`, as an exact rational. -/
theorem C23_accumulated_sum (precy : Nat) (p r : Int) (m : Nat) (Q : List Int)
    (mult : List Nat) (hp : p ≠ 0) (hlt : |(p : ℚ) / (2 : ℚ) ^ r| < 1) (hm : m < 63)
    (hQ : 3 * (m + 1) ≤ Q.length) (hmult : 2 * (m + 1) ≤ mult.length) :
    exp_accumulated precy p r m Q mult ≠ .error Stop.fuel
      ∧ ∀ (T : List Int) (i : Nat) (r' : Int),
        exp_accumulated precy p r m Q mult = .ok (T, i, r') →
        1 ≤ i ∧ zget T 0 = .ok (i.factorial : Int)
          ∧ ∃ S0 : Int, zget T ((m : Int) + 1) = .ok S0
            ∧ (S0 : ℚ) = (i.factorial : ℚ) * ∑ j in Finset.range i,
                (exp_norm_p p : ℚ) ^ j * (2 : ℚ) ^ (r'.toNat * (i - 1 - j)) / (j.factorial : ℚ)
            ∧ (S0 : ℚ) / ((i.factorial : ℚ) * (2 : ℚ) ^ (r'.toNat * (i - 1)))
                = ∑ j in Finset.range i, ((p : ℚ) / (2 : ℚ) ^ r) ^ j / (j.factorial : ℚ) := by
  obtain ⟨s0, rn, h1, h2, h3, h4, h5, h6⟩ := exp_init_ok hp hlt hm hQ hmult
  have hrun : exp_accumulated precy p r m Q mult
      = exp_main precy m (rn : Int) (2 ^ m) s0 1 >>= fun t =>
          exp_accumulate m (rn : Int) (t.1.k.toNat + 1) t.1.Q t.1.mult t.1.k 0 >>= fun T =>
            pure (T, t.2, (rn : Int)) := by
    unfold exp_accumulated
    rw [h1]
    rfl
  constructor
  · rw [hrun]
    refine nf_bind _ _ ?_ (fun t ht => nf_bind _ _ ?_ (fun _ _ => nf_pure _))
    · exact exp_main_nf precy m (rn : Int) (2 ^ m) s0 1 Nat.one_le_two_pow (by omega)
    · obtain ⟨⟨kn, hk, -⟩, -⟩ :=
        main_inv h4 (exp_norm_p_ne_zero p hp) (2 ^ m) s0 1 t h6 (le_refl 1) ht
      rw [hk, Int.toNat_ofNat]
      exact exp_accumulate_nf m (rn : Int) (kn + 1) kn _ _ 0 (Nat.lt_succ_self kn)
  · intro T i r' hT
    rw [hrun] at hT
    obtain ⟨t, e1, e2⟩ := (sbind_ok _ _ _).mp hT
    obtain ⟨T', e3, e4⟩ := (sbind_ok _ _ _).mp e2
    have e5 := (spure_ok _ _).mp e4
    cases e5
    obtain ⟨hI, hi⟩ := main_inv h4 (exp_norm_p_ne_zero p hp) (2 ^ m) s0 1 t h6 (le_refl 1) e1
    have hA := acc_init hI
    obtain ⟨kn, hk, -⟩ := hI
    rw [hk] at hA e3
    obtain ⟨g1, g2⟩ := acc_run hm _ kn _ _ _ 0 hA e3
    rw [Int.toNat_ofNat]
    refine ⟨hi, (zget_nat rfl).mpr g1, blockS (exp_norm_p p) rn 0 t.2,
      (zget_nat (by push_cast; ring)).mpr g2, blockS_closed _ _ _, ?_⟩
    rw [taylor_sum _ _ _ hi, exp_norm_ratio hp h2]

/-- The run on `p / 2 ^ r = 12 / 2 ^ 4`, `m = 3`, at precision 5: the main loop ends at
`i = 6` with two blocks on the stack, and after the accumulation `Q[0] = 720` and
`S[0] = 1560618`. -/
theorem C23_accumulated_sum_witness :
    exp_accumulated 5 12 4 3 c23_Q c23_mult = .ok (c23_T, 6, 2)
      ∧ 1 ≤ 6 ∧ zget c23_T 0 = .ok (Nat.factorial 6 : Int)
      ∧ ∃ S0 : Int, zget c23_T (((3 : Nat) : Int) + 1) = .ok S0
        ∧ (S0 : ℚ) = (Nat.factorial 6 : ℚ) * ∑ j in Finset.range 6,
            (exp_norm_p 12 : ℚ) ^ j * (2 : ℚ) ^ ((2 : Int).toNat * (6 - 1 - j))
              / (j.factorial : ℚ)
        ∧ (S0 : ℚ) / ((Nat.factorial 6 : ℚ) * (2 : ℚ) ^ ((2 : Int).toNat * (6 - 1)))
            = ∑ j in Finset.range 6,
                (((12 : Int) : ℚ) / (2 : ℚ) ^ (4 : Int)) ^ j / (j.factorial : ℚ) :=
  ⟨rfl,
    (C23_accumulated_sum 5 12 4 3 c23_Q c23_mult (by decide)
      (by rw [abs_lt]; constructor <;> norm_num) (by decide) (by decide) (by decide)).2 c23_T 6 2 rfl⟩

/-- C27: in a pass of the loop of `mpfr_exp_3` that reaches the test of line 247: if the
overflow flag is set after the `shift_x` final squarings, the loop is left in that pass with
return code 1 and `y` what `mpfr_setmax (y, emax)` stores with its exponent field
incremented (exponent `emax + 1` when `mpfr_setmax` stores the exponent it is given);
otherwise, if the underflow flag is set, the loop is left in that pass with return code -1
and `y` what `mpfr_setmax (y, MPFR_EMIN_MIN - 2)` stores; in both cases the result is the
same whatever the can-round test and the macros of the retry strategy do and whatever the
fuel, so neither is consulted. -/
theorem C27_range_flags (W : Nat) (X : Exp3Callees) (Z : ZivCallees) (y x_copy : mpfr_struct)
    (ttt shift_x prec_x : Int) (rnd_mode : mp_rnd_t) (fuel : Nat) (G : Globals)
    (t tmp : mpfr_struct) (realprec Prec ziv_loop : Nat)
    (r : mpfr_struct × mpfr_struct × Globals)
    (hpass : exp3_pass W X x_copy ttt shift_x prec_x G t tmp Prec = .ok r) :
    (X.mpfr_overflow_p r.2.2 = true →
        exp3_loop W X Z y x_copy ttt shift_x prec_x rnd_mode (fuel + 1) G t tmp realprec Prec
            ziv_loop
          = .ok ({ X.mpfr_setmax y r.2.2.emax with
                    exp := (X.mpfr_setmax y r.2.2.emax).exp + 1 }, 1, r.2.2)
        ∧ ((∀ z e, (X.mpfr_setmax z e).exp = e) →
            ∃ y1 G1, exp3_loop W X Z y x_copy ttt shift_x prec_x rnd_mode (fuel + 1) G t tmp
                realprec Prec ziv_loop = .ok (y1, 1, G1) ∧ y1.exp = r.2.2.emax + 1))
      ∧ (X.mpfr_overflow_p r.2.2 = false → X.mpfr_underflow_p r.2.2 = true →
        exp3_loop W X Z y x_copy ttt shift_x prec_x rnd_mode (fuel + 1) G t tmp realprec Prec
            ziv_loop
          = .ok (X.mpfr_setmax y (X.MPFR_EMIN_MIN - 2), -1, r.2.2))
      ∧ (X.mpfr_overflow_p r.2.2 = true ∨ X.mpfr_underflow_p r.2.2 = true →
        ∀ (Z1 : ZivCallees) (fuel1 realprec1 ziv_loop1 : Nat),
          exp3_loop W X Z1 y x_copy ttt shift_x prec_x rnd_mode (fuel1 + 1) G t tmp realprec1
              Prec ziv_loop1
            = exp3_loop W X Z y x_copy ttt shift_x prec_x rnd_mode (fuel + 1) G t tmp realprec
              Prec ziv_loop) := by
  have hov : ∀ (Z1 : ZivCallees) (fuel1 realprec1 ziv_loop1 : Nat),
      X.mpfr_overflow_p r.2.2 = true →
      exp3_loop W X Z1 y x_copy ttt shift_x prec_x rnd_mode (fuel1 + 1) G t tmp realprec1 Prec
          ziv_loop1
        = .ok ({ X.mpfr_setmax y r.2.2.emax with
                  exp := (X.mpfr_setmax y r.2.2.emax).exp + 1 }, 1, r.2.2) := by
    intro Z1 fuel1 realprec1 ziv_loop1 h
    unfold exp3_loop
    rw [hpass]
    show (if X.mpfr_overflow_p r.2.2 = true then _ else _) = _
    rw [if_pos h]
    rfl
  have hun : ∀ (Z1 : ZivCallees) (fuel1 realprec1 ziv_loop1 : Nat),
      X.mpfr_overflow_p r.2.2 = false → X.mpfr_underflow_p r.2.2 = true →
      exp3_loop W X Z1 y x_copy ttt shift_x prec_x rnd_mode (fuel1 + 1) G t tmp realprec1 Prec
          ziv_loop1
        = .ok (X.mpfr_setmax y (X.MPFR_EMIN_MIN - 2), -1, r.2.2) := by
    intro Z1 fuel1 realprec1 ziv_loop1 h1 h2
    unfold exp3_loop
    rw [hpass]
    show (if X.mpfr_overflow_p r.2.2 = true then _
      else if X.mpfr_underflow_p r.2.2 = true then _ else _) = _
    rw [if_neg (by rw [h1]; simp), if_pos h2]
    rfl
  refine ⟨fun h => ⟨hov Z fuel realprec ziv_loop h, fun hmax => ⟨_, _,
    hov Z fuel realprec ziv_loop h, ?_⟩⟩, hun Z fuel realprec ziv_loop, ?_⟩
  · show (X.mpfr_setmax y r.2.2.emax).exp + 1 = r.2.2.emax + 1
    rw [hmax]
  · intro h Z1 fuel1 realprec1 ziv_loop1
    by_cases ho : X.mpfr_overflow_p r.2.2 = true
    · rw [hov Z1 fuel1 realprec1 ziv_loop1 ho, hov Z fuel realprec ziv_loop ho]
    · have ho1 : X.mpfr_overflow_p r.2.2 = false := by simpa using ho
      have hu : X.mpfr_underflow_p r.2.2 = true := h.resolve_left ho
      rw [hun Z1 fuel1 realprec1 ziv_loop1 ho1 hu, hun Z fuel realprec ziv_loop ho1 hu]

set_option maxRecDepth 100000

/-- The pass on `x = 2` (`x_copy = 1/2`, `shift_x = 2`) at the working precision 39 with
callees whose products overflow: the loop is left in that pass with return code 1 and
exponent `emax + 1 = 1001`. -/
theorem C27_range_flags_witness :
    exp3_pass 64 c27_X c27_x_copy 0 2 0 c27_G (c27_X.mpfr_init2 39) (c27_X.mpfr_init2 39) 39
        = .ok c27_r
      ∧ c27_X.mpfr_overflow_p c27_r.2.2 = true
      ∧ exp3_loop 64 c27_X c27_Z c27_y c27_x_copy 0 2 0 GMP_RNDN (0 + 1) c27_G
          (c27_X.mpfr_init2 39) (c27_X.mpfr_init2 39) 3 39 64
          = .ok ({ c27_X.mpfr_setmax c27_y c27_r.2.2.emax with
                    exp := (c27_X.mpfr_setmax c27_y c27_r.2.2.emax).exp + 1 }, 1, c27_r.2.2) :=
  ⟨rfl, rfl,
    ((C27_range_flags 64 c27_X c27_Z c27_y c27_x_copy 0 2 0 GMP_RNDN 0 c27_G
      (c27_X.mpfr_init2 39) (c27_X.mpfr_init2 39) 3 39 64 c27_r rfl).1 rfl).1⟩

set_option maxRecDepth 512

theorem cosh_loop_unfold (X : CoshCallees) (x y : mpfr_struct) (rnd_mode : mp_rnd_t)
    (fuel : Nat) (G : Globals) (t te ti : mpfr_struct) (Nt : Nat) :
    cosh_loop X x y rnd_mode (fuel + 1) G t te ti Nt
      = if (Nt : Int) - 3 < 0 ∨ ¬ X.mpfr_can_round (cosh_body X x G t te ti Nt).2.2.2.1
            ((Nt : Int) - 3) GMP_RNDN GMP_RNDZ
            (y.prec + (if rnd_mode = GMP_RNDN then 1 else 0)) then
          cosh_loop X x y rnd_mode fuel (cosh_body X x G t te ti Nt).2.2.2.2
            (cosh_body X x G t te ti Nt).2.2.2.1 (cosh_body X x G t te ti Nt).1
            (cosh_body X x G t te ti Nt).2.1 (Nt + 10)
        else .ok ((cosh_body X x G t te ti Nt).2.2.2.1, (cosh_body X x G t te ti Nt).2.2.2.2) := by
  rfl

/-- The error analysis of one pass, on real numbers: `a` is `exp` rounded down, `b` is `1/a`
rounded up, `s` is `a + b` rounded to nearest, each within the relative error `2 u`, `2 u`
and `u`. -/
theorem cosh_err_core (E a b s u : ℝ) (hE : 0 < E) (hu0 : 0 < u) (hu : u ≤ 1 / 2)
    (ha : 0 < a) (h1 : a ≤ E) (h2 : E < a + 2 * u * a)
    (h3 : 1 / a ≤ b) (h4 : b - 2 * u * b < 1 / a)
    (h5 : |s - (a + b)| ≤ u * s) :
    |s / 2 - (E + 1 / E) / 2| ≤ 4 * u * s := by
  have hb : 0 < b := lt_of_lt_of_le (by positivity) h3
  have hEa : 1 / E ≤ 1 / a := one_div_le_one_div_of_le ha h1
  have h6 : 1 / a < (1 + 2 * u) / E := by
    rw [div_lt_div_iff₀ ha hE]
    nlinarith
  have h7 : 1 / a - 1 / E < 2 * u * b := by
    have e1 : (1 + 2 * u) / E = 1 / E + 2 * u * (1 / E) := by ring
    have e2 : 2 * u * (1 / E) ≤ 2 * u * b :=
      mul_le_mul_of_nonneg_left (le_trans hEa h3) (by positivity)
    linarith
  obtain ⟨h8, h9⟩ := abs_le.mp h5
  have hs : 0 < s := by nlinarith
  have hub : 0 ≤ u * b := by positivity
  have hua : 0 ≤ u * a := by positivity
  have hus : 0 ≤ u * s := by positivity
  have huus : u * (u * s) ≤ 1 / 2 * (u * s) := mul_le_mul_of_nonneg_right hu hus
  have hab : u * (a + b) ≤ u * (s + u * s) :=
    mul_le_mul_of_nonneg_left (by linarith) (le_of_lt hu0)
  rw [abs_le]
  constructor <;> nlinarith

/-- The error of one pass on the values: when `te1` is `exp (x)` rounded down
(`te1 <= exp (x) < te1 + ulp (te1)`), `ti1` is `1 / te1` rounded up
(`ti1 - ulp (ti1) < 1 / te1 <= ti1`), `s1` is `te1 + ti1` rounded to nearest (within half an
ulp), `t1` is `s1 / 2`, and the four values are normalised at precision `Nt >= 1`, then
`|t1 - cosh (x)| <= 2 ^ (EXP(t1) - (Nt - 3))`. -/
theorem cosh_pass_error (W : Nat) (x : mpfr_struct) (Nt : Nat) (te1 ti1 s1 t1 : mpfr_struct)
    (hNt : 1 ≤ Nt)
    (hte : (2 : ℝ) ^ (te1.exp - 1) ≤ ((sval W te1 : ℚ) : ℝ)
      ∧ ((sval W te1 : ℚ) : ℝ) ≤ Real.exp ((sval W x : ℚ) : ℝ)
      ∧ Real.exp ((sval W x : ℚ) : ℝ) < ((sval W te1 : ℚ) : ℝ) + (2 : ℝ) ^ (te1.exp - (Nt : Int)))
    (hti : (2 : ℝ) ^ (ti1.exp - 1) ≤ ((sval W ti1 : ℚ) : ℝ)
      ∧ 1 / ((sval W te1 : ℚ) : ℝ) ≤ ((sval W ti1 : ℚ) : ℝ)
      ∧ ((sval W ti1 : ℚ) : ℝ) - (2 : ℝ) ^ (ti1.exp - (Nt : Int)) < 1 / ((sval W te1 : ℚ) : ℝ))
    (hs : (2 : ℝ) ^ (s1.exp - 1) ≤ ((sval W s1 : ℚ) : ℝ)
      ∧ |((sval W s1 : ℚ) : ℝ) - (((sval W te1 : ℚ) : ℝ) + ((sval W ti1 : ℚ) : ℝ))|
          ≤ (2 : ℝ) ^ (s1.exp - (Nt : Int)) / 2)
    (ht : ((sval W t1 : ℚ) : ℝ) = ((sval W s1 : ℚ) : ℝ) / 2
      ∧ ((sval W t1 : ℚ) : ℝ) ≤ (2 : ℝ) ^ t1.exp) :
    |((sval W t1 : ℚ) : ℝ) - Real.cosh ((sval W x : ℚ) : ℝ)|
      ≤ (2 : ℝ) ^ (t1.exp - ((Nt : Int) - 3)) := by
  obtain ⟨a1, a2, a3⟩ := hte
  obtain ⟨b1, b2, b3⟩ := hti
  obtain ⟨c1, c2⟩ := hs
  obtain ⟨d1, d2⟩ := ht
  generalize ((sval W te1 : ℚ) : ℝ) = a at *
  generalize ((sval W ti1 : ℚ) : ℝ) = b at *
  generalize ((sval W s1 : ℚ) : ℝ) = s at *
  generalize ((sval W t1 : ℚ) : ℝ) = tv at *
  generalize ((sval W x : ℚ) : ℝ) = xv at *
  have hu0 : (0 : ℝ) < (2 : ℝ) ^ (-(Nt : Int)) := by positivity
  have hu : (2 : ℝ) ^ (-(Nt : Int)) ≤ 1 / 2 := by
    have : (2 : ℝ) ^ (-(Nt : Int)) ≤ (2 : ℝ) ^ (-(1 : Int)) :=
      zpow_le_zpow_right₀ (by norm_num) (by omega)
    simpa using this
  have hulp : ∀ e : Int, (2 : ℝ) ^ (e - (Nt : Int))
      = 2 * (2 : ℝ) ^ (-(Nt : Int)) * (2 : ℝ) ^ (e - 1) := by
    intro e
    have : e - (Nt : Int) = 1 + -(Nt : Int) + (e - 1) := by ring
    rw [this, zpow_add₀ (by norm_num), zpow_add₀ (by norm_num), zpow_one]
  have ha : 0 < a := lt_of_lt_of_le (by positivity) a1
  have hbp : 0 < b := lt_of_lt_of_le (by positivity) b1
  have ka : (2 : ℝ) ^ (te1.exp - (Nt : Int)) ≤ 2 * (2 : ℝ) ^ (-(Nt : Int)) * a := by
    rw [hulp]
    exact mul_le_mul_of_nonneg_left a1 (by positivity)
  have kb : (2 : ℝ) ^ (ti1.exp - (Nt : Int)) ≤ 2 * (2 : ℝ) ^ (-(Nt : Int)) * b := by
    rw [hulp]
    exact mul_le_mul_of_nonneg_left b1 (by positivity)
  have ks : (2 : ℝ) ^ (s1.exp - (Nt : Int)) / 2 ≤ (2 : ℝ) ^ (-(Nt : Int)) * s := by
    rw [hulp]
    have := mul_le_mul_of_nonneg_left c1 (le_of_lt hu0)
    linarith
  have core := cosh_err_core (Real.exp xv) a b s ((2 : ℝ) ^ (-(Nt : Int))) (Real.exp_pos xv)
    hu0 hu ha a2 (by linarith) b2 (by linarith) (le_trans c2 ks)
  have hcosh : Real.cosh xv = (Real.exp xv + 1 / Real.exp xv) / 2 := by
    rw [Real.cosh_eq, Real.exp_neg, one_div]
  have hfin : (2 : ℝ) ^ (t1.exp - ((Nt : Int) - 3))
      = 8 * (2 : ℝ) ^ (-(Nt : Int)) * (2 : ℝ) ^ t1.exp := by
    have : t1.exp - ((Nt : Int) - 3) = 3 + -(Nt : Int) + t1.exp := by ring
    rw [this, zpow_add₀ (by norm_num), zpow_add₀ (by norm_num)]
    norm_num
  rw [hcosh, d1, hfin]
  refine le_trans core ?_
  have : s = 2 * tv := by linarith
  rw [this]
  have := mul_le_mul_of_nonneg_left d2 (le_of_lt hu0)
  linarith

/-- C29: in a pass of the retry loop of `mpfr_cosh` at working precision `Nt >= 1`, when the
call `mpfr_exp (te, x, GMP_RNDD)` of line 97 stores `exp (x)` rounded down
(`te <= exp (x) < te + ulp (te)`), the call `mpfr_ui_div (ti, 1, te, GMP_RNDU)` of line 98
stores `1 / te` rounded up (`ti - ulp (ti) < 1 / te <= ti`), the call
`mpfr_add (t, te, ti, GMP_RNDN)` of line 99 stores `te + ti` rounded to nearest (within half
an ulp), the call `mpfr_div_2ui (t, t, 1, GMP_RNDN)` of line 100 halves it exactly, and the
four results are normalised at precision `Nt` (no overflow or underflow): the pass computes
these four objects, the `t` that the loop hands to the can-round test with `err = Nt - 3` is
the last of them, and it satisfies `|t - cosh (x)| <= 2 ^ (EXP(t) - (Nt - 3))`. -/
theorem C29_cosh_error (W : Nat) (X : CoshCallees) (x : mpfr_struct) (G : Globals)
    (t te ti : mpfr_struct) (Nt : Nat) (r1 r2 r3 r4 : mpfr_struct × Globals) (hNt : 1 ≤ Nt)
    (h1 : X.mpfr_exp G (X.mpfr_set_prec te Nt) x GMP_RNDD = r1)
    (h2 : X.mpfr_ui_div r1.2 (X.mpfr_set_prec ti Nt) 1 r1.1 GMP_RNDU = r2)
    (h3 : X.mpfr_add r2.2 (X.mpfr_set_prec t Nt) r1.1 r2.1 GMP_RNDN = r3)
    (h4 : X.mpfr_div_2ui r3.2 r3.1 r3.1 1 GMP_RNDN = r4)
    (hte : (2 : ℝ) ^ (r1.1.exp - 1) ≤ ((sval W r1.1 : ℚ) : ℝ)
      ∧ ((sval W r1.1 : ℚ) : ℝ) ≤ Real.exp ((sval W x : ℚ) : ℝ)
      ∧ Real.exp ((sval W x : ℚ) : ℝ)
          < ((sval W r1.1 : ℚ) : ℝ) + (2 : ℝ) ^ (r1.1.exp - (Nt : Int)))
    (hti : (2 : ℝ) ^ (r2.1.exp - 1) ≤ ((sval W r2.1 : ℚ) : ℝ)
      ∧ 1 / ((sval W r1.1 : ℚ) : ℝ) ≤ ((sval W r2.1 : ℚ) : ℝ)
      ∧ ((sval W r2.1 : ℚ) : ℝ) - (2 : ℝ) ^ (r2.1.exp - (Nt : Int))
          < 1 / ((sval W r1.1 : ℚ) : ℝ))
    (hs : (2 : ℝ) ^ (r3.1.exp - 1) ≤ ((sval W r3.1 : ℚ) : ℝ)
      ∧ |((sval W r3.1 : ℚ) : ℝ) - (((sval W r1.1 : ℚ) : ℝ) + ((sval W r2.1 : ℚ) : ℝ))|
          ≤ (2 : ℝ) ^ (r3.1.exp - (Nt : Int)) / 2)
    (ht : ((sval W r4.1 : ℚ) : ℝ) = ((sval W r3.1 : ℚ) : ℝ) / 2
      ∧ ((sval W r4.1 : ℚ) : ℝ) ≤ (2 : ℝ) ^ r4.1.exp) :
    cosh_body X x G t te ti Nt = (r1.1, r2.1, r3.1, r4.1, r4.2)
      ∧ (∀ fuel y rnd_mode, cosh_loop X x y rnd_mode (fuel + 1) G t te ti Nt
          = if (Nt : Int) - 3 < 0 ∨ ¬ X.mpfr_can_round (cosh_body X x G t te ti Nt).2.2.2.1
                ((Nt : Int) - 3) GMP_RNDN GMP_RNDZ
                (y.prec + (if rnd_mode = GMP_RNDN then 1 else 0)) then
              cosh_loop X x y rnd_mode fuel r4.2 r4.1 r1.1 r2.1 (Nt + 10)
            else .ok (r4.1, r4.2))
      ∧ |((sval W (cosh_body X x G t te ti Nt).2.2.2.1 : ℚ) : ℝ)
            - Real.cosh ((sval W x : ℚ) : ℝ)|
          ≤ (2 : ℝ) ^ ((cosh_body X x G t te ti Nt).2.2.2.1.exp - ((Nt : Int) - 3)) := by
  have hb : cosh_body X x G t te ti Nt = (r1.1, r2.1, r3.1, r4.1, r4.2) := by
    simp only [cosh_body, h1, h2, h3, h4]
  refine ⟨hb, fun fuel y rnd_mode => ?_, ?_⟩
  · rw [cosh_loop_unfold, hb]
  · rw [hb]
    exact cosh_pass_error W x Nt r1.1 r2.1 r3.1 r4.1 hNt hte hti hs ht

theorem c29_x_val : ((sval 64 c29_x : ℚ) : ℝ) = 1 := by
  have : sval 64 c29_x = 1 := by
    unfold sval c29_x
    simp only [limbsVal]
    norm_num
  rw [this]
  norm_num

theorem c29_te_val : ((sval 64 c29_te : ℚ) : ℝ) = 5 / 2 := by
  have : sval 64 c29_te = 5 / 2 := by
    unfold sval c29_te
    simp only [limbsVal]
    norm_num
  rw [this]
  norm_num

theorem c29_ti_val : ((sval 64 c29_ti : ℚ) : ℝ) = 13 / 32 := by
  have : sval 64 c29_ti = 13 / 32 := by
    unfold sval c29_ti
    simp only [limbsVal]
    norm_num
  rw [this]
  norm_num

theorem c29_s_val : ((sval 64 c29_s : ℚ) : ℝ) = 3 := by
  have : sval 64 c29_s = 3 := by
    unfold sval c29_s
    simp only [limbsVal]
    norm_num
  rw [this]
  norm_num

theorem c29_t_val : ((sval 64 c29_t : ℚ) : ℝ) = 3 / 2 := by
  have : sval 64 c29_t = 3 / 2 := by
    unfold sval c29_t
    simp only [limbsVal]
    norm_num
  rw [this]
  norm_num

/-- C29 (witness): the pass on `x = 1` at the working precision 4 with `te = 5/2`,
`ti = 13/32`, the sum 3 and `t = 3/2 = 0.11b * 2 ^ 1`, which is within
`2 ^ (1 - (4 - 3)) = 1` of `cosh (1)`. -/
theorem C29_cosh_error_witness :
    cosh_body c29_X c29_x c27_G c29_X.mpfr_init c29_X.mpfr_init c29_X.mpfr_init 4
        = (c29_te, c29_ti, c29_s, c29_t, c27_G)
      ∧ |((sval 64 (cosh_body c29_X c29_x c27_G c29_X.mpfr_init c29_X.mpfr_init
              c29_X.mpfr_init 4).2.2.2.1 : ℚ) : ℝ) - Real.cosh ((sval 64 c29_x : ℚ) : ℝ)|
          ≤ (2 : ℝ) ^ ((cosh_body c29_X c29_x c27_G c29_X.mpfr_init c29_X.mpfr_init
              c29_X.mpfr_init 4).2.2.2.1.exp - (((4 : Nat) : Int) - 3)) :=
  ⟨rfl,
    (C29_cosh_error 64 c29_X c29_x c27_G c29_X.mpfr_init c29_X.mpfr_init c29_X.mpfr_init 4
      (c29_te, c27_G) (c29_ti, c27_G) (c29_s, c27_G) (c29_t, c27_G) (by norm_num)
      rfl rfl rfl rfl
      (by
        show _ ≤ ((sval 64 c29_te : ℚ) : ℝ) ∧ ((sval 64 c29_te : ℚ) : ℝ) ≤ _
          ∧ _ < ((sval 64 c29_te : ℚ) : ℝ) + _
        rw [c29_te_val, c29_x_val]
        have h1 := Real.exp_one_gt_d9
        have h2 := Real.exp_one_lt_d9
        have e : (c29_te, c27_G).1.exp = 2 := rfl
        rw [e]
        norm_num
        constructor <;> linarith)
      (by
        show _ ≤ ((sval 64 c29_ti : ℚ) : ℝ) ∧ 1 / ((sval 64 c29_te : ℚ) : ℝ)
            ≤ ((sval 64 c29_ti : ℚ) : ℝ)
          ∧ ((sval 64 c29_ti : ℚ) : ℝ) - _ < 1 / ((sval 64 c29_te : ℚ) : ℝ)
        rw [c29_te_val, c29_ti_val]
        have e : (c29_ti, c27_G).1.exp = -1 := rfl
        rw [e]
        norm_num)
      (by
        show _ ≤ ((sval 64 c29_s : ℚ) : ℝ)
          ∧ |((sval 64 c29_s : ℚ) : ℝ)
              - (((sval 64 c29_te : ℚ) : ℝ) + ((sval 64 c29_ti : ℚ) : ℝ))| ≤ _
        rw [c29_te_val, c29_ti_val, c29_s_val]
        have e : (c29_s, c27_G).1.exp = 2 := rfl
        rw [e]
        norm_num [abs_le])
      (by
        show ((sval 64 c29_t : ℚ) : ℝ) = ((sval 64 c29_s : ℚ) : ℝ) / 2
          ∧ ((sval 64 c29_t : ℚ) : ℝ) ≤ _
        rw [c29_t_val, c29_s_val]
        have e : (c29_t, c27_G).1.exp = 1 := rfl
        rw [e]
        norm_num)).2.2⟩

/-- C30: the retry loop of `mpfr_cosh` does not stop on a range violation.  For a regular
`xt` such that the `t` of every pass is infinite (`exp (|xt|)` overflows), with a can-round
test that answers no on an infinite value: each pass retries at the working precision
`Nt + 10`, the loop is never left whatever the fuel, and `mpfr_cosh` does not return. -/
theorem C30_cosh_retries_on_overflow (W : Nat) (X : CoshCallees) (G : Globals)
    (y xt : mpfr_struct) (rnd_mode : mp_rnd_t)
    (hreg : MPFR_IS_SINGULAR xt = false)
    (hinf : ∀ G1 t te ti Nt, MPFR_IS_INF
      (cosh_body X (X.mpfr_abs G (X.mpfr_init2 xt.prec) xt GMP_RNDN).1 G1 t te ti Nt).2.2.2.1
        = true)
    (hcr : ∀ t err n, MPFR_IS_INF t = true →
      X.mpfr_can_round t err GMP_RNDN GMP_RNDZ n = false) :
    (∀ fuel G1 t te ti Nt,
        cosh_loop X (X.mpfr_abs G (X.mpfr_init2 xt.prec) xt GMP_RNDN).1 y rnd_mode (fuel + 1)
            G1 t te ti Nt
          = cosh_loop X (X.mpfr_abs G (X.mpfr_init2 xt.prec) xt GMP_RNDN).1 y rnd_mode fuel
            (cosh_body X (X.mpfr_abs G (X.mpfr_init2 xt.prec) xt GMP_RNDN).1 G1 t te ti
              Nt).2.2.2.2
            (cosh_body X (X.mpfr_abs G (X.mpfr_init2 xt.prec) xt GMP_RNDN).1 G1 t te ti
              Nt).2.2.2.1
            (cosh_body X (X.mpfr_abs G (X.mpfr_init2 xt.prec) xt GMP_RNDN).1 G1 t te ti Nt).1
            (cosh_body X (X.mpfr_abs G (X.mpfr_init2 xt.prec) xt GMP_RNDN).1 G1 t te ti Nt).2.1
            (Nt + 10))
      ∧ (∀ fuel G1 t te ti Nt,
        cosh_loop X (X.mpfr_abs G (X.mpfr_init2 xt.prec) xt GMP_RNDN).1 y rnd_mode fuel
            G1 t te ti Nt = .error Stop.fuel)
      ∧ ∀ fuel, mpfr_cosh W X fuel G y xt rnd_mode = .error Stop.fuel := by
  have step : ∀ fuel G1 t te ti Nt,
      cosh_loop X (X.mpfr_abs G (X.mpfr_init2 xt.prec) xt GMP_RNDN).1 y rnd_mode (fuel + 1)
          G1 t te ti Nt
        = cosh_loop X (X.mpfr_abs G (X.mpfr_init2 xt.prec) xt GMP_RNDN).1 y rnd_mode fuel
          (cosh_body X (X.mpfr_abs G (X.mpfr_init2 xt.prec) xt GMP_RNDN).1 G1 t te ti
            Nt).2.2.2.2
          (cosh_body X (X.mpfr_abs G (X.mpfr_init2 xt.prec) xt GMP_RNDN).1 G1 t te ti
            Nt).2.2.2.1
          (cosh_body X (X.mpfr_abs G (X.mpfr_init2 xt.prec) xt GMP_RNDN).1 G1 t te ti Nt).1
          (cosh_body X (X.mpfr_abs G (X.mpfr_init2 xt.prec) xt GMP_RNDN).1 G1 t te ti Nt).2.1
          (Nt + 10) := by
    intro fuel G1 t te ti Nt
    rw [cosh_loop_unfold, if_pos]
    right
    rw [hcr _ _ _ (hinf G1 t te ti Nt)]
    simp
  have never : ∀ fuel G1 t te ti Nt,
      cosh_loop X (X.mpfr_abs G (X.mpfr_init2 xt.prec) xt GMP_RNDN).1 y rnd_mode fuel
          G1 t te ti Nt = .error Stop.fuel := by
    intro fuel
    induction fuel with
    | zero =>
      intro G1 t te ti Nt
      rfl
    | succ fuel ih =>
      intro G1 t te ti Nt
      rw [step, ih]
  refine ⟨step, never, ?_⟩
  intro fuel
  unfold mpfr_cosh
  rw [hreg]
  simp only [Bool.false_eq_true, if_false]
  rw [never]
  rfl

/-- The run on `xt = 2 ^ 61` at `PREC(y) = 2` with callees for which `exp` overflows to
`+Inf`: 1000 passes do not leave the loop; the first pass works at the precision
`2 + 3 + 1 = 6` and hands over to the second one at the precision `6 + 10`. -/
theorem C30_cosh_retries_on_overflow_witness :
    MPFR_IS_SINGULAR c30_x = false
      ∧ mpfr_cosh 64 c30_X 1000 c27_G c27_y c30_x GMP_RNDN = .error Stop.fuel
      ∧ cosh_loop c30_X (c30_X.mpfr_abs c27_G (c30_X.mpfr_init2 c30_x.prec) c30_x GMP_RNDN).1
          c27_y GMP_RNDN (1 + 1) c27_G c30_X.mpfr_init c30_X.mpfr_init c30_X.mpfr_init 6
        = cosh_loop c30_X (c30_X.mpfr_abs c27_G (c30_X.mpfr_init2 c30_x.prec) c30_x GMP_RNDN).1
          c27_y GMP_RNDN 1 ⟨2, -1000, 1000⟩ ⟨6, 1, MPFR_EXP_INF, [0]⟩
          ⟨6, 1, MPFR_EXP_INF, [0]⟩ ⟨6, 1, MPFR_EXP_ZERO, [0]⟩ (6 + 10) :=
  have h := C30_cosh_retries_on_overflow 64 c30_X c27_G c27_y c30_x GMP_RNDN rfl
    (fun _ _ _ _ _ => rfl)
    (fun t _ _ ht => by
      have h1 : t.exp = MPFR_EXP_INF := by
        simpa [MPFR_IS_INF] using ht
      simp [c30_X, MPFR_IS_SINGULAR, h1])
  ⟨rfl, h.2.2 1000, h.1 1 c27_G c30_X.mpfr_init c30_X.mpfr_init c30_X.mpfr_init 6⟩

/-- C34 (evaluation): at precision 2 under round-to-nearest, with `EXP(b) = EXP(c)`,
`mpfr_add (dst, 1/2, 3/4)` stores `0.10b * 2 ^ 1 = 1` and `mpfr_add (dst, 3/4, 1/2)` stores
the limb `0.101b` with exponent 1: the two orders of the same operands differ. -/
theorem C34_not_commutative (X : Callees) :
    WF 64 c8_y ∧ WF 64 c1_b ∧ c8_y.neg = c1_b.neg ∧ c8_y.exp = c1_b.exp ∧
      res (mpfr_add 64 X (heap3 c11_a c8_y c1_b) 0 1 2 GMP_RNDN) 0 = some c34_r ∧
      res (mpfr_add 64 X (heap3 c11_a c8_y c1_b) 0 2 1 GMP_RNDN) 0 = some c11_r ∧
      bits 64 c34_r ≠ bits 64 c11_r := by
  refine ⟨?_, ?_, rfl, rfl, rfl, rfl, by decide⟩
  · exact ⟨by decide, rfl, allLt_one (by decide),
      ⟨9223372036854775808, rfl, by decide, by decide⟩, by decide⟩
  · exact ⟨by decide, rfl, allLt_one (by decide),
      ⟨13835058055282163712, rfl, by decide, by decide⟩, by decide⟩

/-- C31 (evaluation): for the conversion `%.0Ra`, `17/2 = 0x8.8p+0` under round-to-nearest
gives the digit 9 and the exponent 0 (the output is `0x9p+0`, the tie does not go to the even
digit 8), and `8 = 0x8p+0`, which is exactly representable, under round-toward-plus-infinity
gives the digit 9 as well. -/
theorem C31_hex_digit_rounding :
    sval 64 c31_p = 17 / 2 ∧ hex_digit 64 c31_p GMP_RNDN = .ok (9, 0)
      ∧ sprnt_fp 64 c31_X ⟨[], 4096⟩ c31_p (c31_spec GMP_RNDN)
        = .ok (⟨"0x9p+0".toList, 4096⟩, 6)
      ∧ sval 64 c31_q = 8 ∧ hex_digit 64 c31_q GMP_RNDU = .ok (9, 0)
      ∧ sprnt_fp 64 c31_X ⟨[], 4096⟩ c31_q (c31_spec GMP_RNDU)
        = .ok (⟨"0x9p+0".toList, 4096⟩, 6) := by
  refine ⟨?_, rfl, rfl, ?_, rfl, rfl⟩
  · unfold sval c31_p
    simp only [limbsVal]
    norm_num
  · unfold sval c31_q
    simp only [limbsVal]
    norm_num

/-! ## The size of the exponent part -/

theorem toDigitsCore_size : ∀ (f g n : Nat) (ds : List Char), n < f → n ≤ g →
    ((Nat.toDigitsCore 10 f n ds).length : Int) + 2
      = exp_size_loop g n ((ds.length : Int) + 3) := by
  intro f
  induction f with
  | zero =>
    intro g n ds h
    omega
  | succ f ih =>
    intro g n ds hf hg
    unfold Nat.toDigitsCore
    cases g with
    | zero =>
      have hn : n = 0 := by omega
      subst hn
      simp [exp_size_loop]
      ring
    | succ g =>
      unfold exp_size_loop
      by_cases h9 : 9 < n
      · have hd : n / 10 ≠ 0 := by omega
        simp only [hd, if_false, h9, if_true]
        have := ih g (n / 10) (Nat.digitChar (n % 10) :: ds) (by omega) (by omega)
        rw [this, List.length_cons]
        push_cast
        ring_nf
      · have hd : n / 10 = 0 := by omega
        simp only [hd, if_true, h9, if_false, List.length_cons]
        push_cast
        ring

theorem toDigits_size (x : Nat) :
    ((Nat.toDigits 10 x).length : Int) + 2 = exp_size_loop x x 3 := by
  have := toDigitsCore_size (x + 1) x x [] (by omega) (le_refl x)
  simpa [Nat.toDigits] using this

theorem toDigits_pos (x : Nat) : 1 ≤ (Nat.toDigits 10 x).length := by
  have h := toDigits_size x
  have h3 : ∀ (g n : Nat) (k : Int), k ≤ exp_size_loop g n k := by
    intro g
    induction g with
    | zero => intro n k; simp [exp_size_loop]
    | succ g ih =>
      intro n k
      unfold exp_size_loop
      split
      · exact le_trans (by omega) (ih (n / 10) (k + 1))
      · exact le_refl k
  have := h3 x x 3
  omega

theorem format_exponent_length (c : Char) (k : Nat) (e : Int) :
    ((format_exponent c k e).length : Int)
      = 2 + max (k : Int) ((Nat.toDigits 10 e.natAbs).length : Int) := by
  unfold format_exponent
  simp only [List.length_cons, List.length_append, List.length_replicate]
  push_cast
  omega

theorem to_size_t_natAbs (e : Int) (he : -2 ^ 63 ≤ e ∧ e < 2 ^ 63) :
    to_size_t (e.natAbs : Int) = e.natAbs := by
  unfold to_size_t
  have h1 : (e.natAbs : Int) < 2 ^ 64 := by omega
  rw [Int.emod_eq_of_lt (Int.ofNat_nonneg _) h1, Int.toNat_ofNat]

/-- C32: for every exponent `e` of the type `long`, the `exp_size` that `regular_ab`
computes (3, one more for each division by 10 while `|e| > 9`) is the length of
`p%+.1li` applied to `e` (`p`, a sign, at least one digit), and the one that `regular_eg`
computes (the same, raised to 4) is the length of `e%+.2li` applied to `e` (`e`, a sign, at
least two digits); and when `sprintf` writes that string, the `exp_size + 1` bytes hold it:
the exponent part ends normally with the return value 0. -/
theorem C32_exp_size (e : Int) (he : -2 ^ 63 ≤ e ∧ e < 2 ^ 63) :
    (∀ c, exp_size_loop (to_size_t e.natAbs) (to_size_t e.natAbs) 3
        = ((format_exponent c 1 e).length : Int))
      ∧ (∀ c, max 4 (exp_size_loop (to_size_t e.natAbs) (to_size_t e.natAbs) 3)
        = ((format_exponent c 2 e).length : Int))
      ∧ (∀ (X : PrintCallees) (np : number_parts) (c : Char) (n : Int), 0 ≤ n →
          X.sprintf (c :: "%+.1li".toList) e = (n, format_exponent c 1 e) →
          ∃ np1, exponent_part X np e 3 (c :: "%+.1li".toList) = .ok (0, np1)
            ∧ np1.exp_size = ((format_exponent c 1 e).length : Int)
            ∧ np1.sl = np.sl ++ [format_exponent c 1 e])
      ∧ (∀ (X : PrintCallees) (np : number_parts) (c : Char) (n : Int), 0 ≤ n →
          X.sprintf (c :: "%+.2li".toList) e = (n, format_exponent c 2 e) →
          ∃ np1, exponent_part X np e 4 (c :: "%+.2li".toList) = .ok (0, np1)
            ∧ np1.exp_size = ((format_exponent c 2 e).length : Int)
            ∧ np1.sl = np.sl ++ [format_exponent c 2 e]) := by
  have hx := to_size_t_natAbs e he
  have hs := toDigits_size e.natAbs
  have hp := toDigits_pos e.natAbs
  have a1 : ∀ c, exp_size_loop (to_size_t e.natAbs) (to_size_t e.natAbs) 3
      = ((format_exponent c 1 e).length : Int) := by
    intro c
    rw [hx, format_exponent_length, ← hs]
    omega
  have a2 : ∀ c, max 4 (exp_size_loop (to_size_t e.natAbs) (to_size_t e.natAbs) 3)
      = ((format_exponent c 2 e).length : Int) := by
    intro c
    rw [hx, format_exponent_length, ← hs]
    omega
  refine ⟨a1, a2, ?_, ?_⟩
  · intro X np c n hn hsp
    have e3 : ¬ ((format_exponent c 1 e).length : Int) < 3 := by
      rw [format_exponent_length]
      omega
    unfold exponent_part
    simp only [hsp, register_string, a1 c, e3, if_false, not_lt.mpr hn, lt_irrefl, bind,
      Except.bind, pure, Except.pure]
    refine ⟨_, rfl, rfl, ?_⟩
    simp
  · intro X np c n hn hsp
    unfold exponent_part
    by_cases e4 : exp_size_loop (to_size_t e.natAbs) (to_size_t e.natAbs) 3 < 4
    · have e5 : ((format_exponent c 2 e).length : Int) = 4 := by
        rw [← a2 c]
        omega
      simp only [hsp, register_string, e4, if_true, not_lt.mpr hn, if_false, e5, lt_irrefl,
        bind, Except.bind, pure, Except.pure]
      refine ⟨_, rfl, rfl, ?_⟩
      simp
    · have e5 : exp_size_loop (to_size_t e.natAbs) (to_size_t e.natAbs) 3
          = ((format_exponent c 2 e).length : Int) := by
        rw [← a2 c]
        omega
      have e6 : ¬ ((format_exponent c 2 e).length : Int) < 4 := by
        rw [← e5]
        exact e4
      simp only [hsp, register_string, e5, e6, if_false, not_lt.mpr hn, lt_irrefl, bind,
        Except.bind, pure, Except.pure]
      refine ⟨_, rfl, rfl, ?_⟩
      simp

/-- The exponent `-1234`: `p-1234` has 6 characters and so has `e-1234`; the exponent 7:
`p+7` has 3 characters and `e+07` has 4. -/
theorem C32_exp_size_witness :
    format_exponent 'p' 1 (-1234) = "p-1234".toList
      ∧ exp_size_loop (to_size_t (Int.natAbs (-1234))) (to_size_t (Int.natAbs (-1234))) 3 = 6
      ∧ format_exponent 'e' 2 7 = "e+07".toList
      ∧ max 4 (exp_size_loop (to_size_t (Int.natAbs 7)) (to_size_t (Int.natAbs 7)) 3) = 4 :=
  ⟨rfl, (C32_exp_size (-1234) (by norm_num)).1 'p', rfl, (C32_exp_size 7 (by norm_num)).2.1 'e'⟩

set_option maxRecDepth 100000

/-- C33 (evaluation): `x = -0.1b * 2 ^ (-1073741823)` with one 64-bit limb is regular;
`mpfr_print_raw` allocates `17 + 64 = 81` bytes and `mpfr_get_str_raw` needs 82: the 81
characters `-0.1[0...0]E-1073741823` and the terminating NUL.  The run stops at a write
outside the block. -/
theorem C33_raw_string_overruns :
    FLAG_NAN c33_x = false ∧ NOTZERO 64 c33_x = .ok 9223372036854775808
      ∧ (17 + ABSSIZE c33_x * 64).toNat = 81
      ∧ mpfr_print_raw 64 (fun _ => false) c33_x = .error Fault.index
      ∧ mpfr_get_str_raw 64 81 c33_x = .error Fault.index
      ∧ mpfr_get_str_raw 64 82 c33_x = .ok c33_str ∧ c33_str.length = 81 :=
  ⟨rfl, rfl, rfl, rfl, rfl, rfl, rfl⟩

set_option maxRecDepth 512

/-- C39: `mpfr_cosh` reads the sign of its operand only through `mpfr_abs`.  When
`mpfr_abs` stores the same value for `xt` and for `-xt`, the runs of `mpfr_cosh` on `xt` and
on `-xt` end alike: the same `y`, the same inexact code and the same flags, for every
precision of `y`, every rounding mode and every bound on the number of passes. -/
theorem C39_cosh_even (W : Nat) (X : CoshCallees) (fuel : Nat) (G : Globals)
    (y xt : mpfr_struct) (rnd_mode : mp_rnd_t)
    (habs : X.mpfr_abs G (X.mpfr_init2 xt.prec) { xt with sign := -xt.sign } GMP_RNDN
      = X.mpfr_abs G (X.mpfr_init2 xt.prec) xt GMP_RNDN) :
    mpfr_cosh W X fuel G y { xt with sign := -xt.sign } rnd_mode
      = mpfr_cosh W X fuel G y xt rnd_mode := by
  unfold mpfr_cosh
  simp only [MPFR_IS_SINGULAR, MPFR_IS_NAN, MPFR_IS_INF, MPFR_IS_ZERO]
  rw [habs]

/-- The runs on `x = 1` and on `-1` with a destination of precision 1: both store
`3/2` as rounded by `mpfr_set` and return the inexact code 0. -/
theorem C39_cosh_even_witness :
    mpfr_cosh 64 c29_X 1 c27_G c39_y { c29_x with sign := -c29_x.sign } GMP_RNDN
        = mpfr_cosh 64 c29_X 1 c27_G c39_y c29_x GMP_RNDN
      ∧ mpfr_cosh 64 c29_X 1 c27_G c39_y c29_x GMP_RNDN = .ok (c29_t, 0, c27_G) :=
  ⟨C39_cosh_even 64 c29_X 1 c27_G c39_y c29_x GMP_RNDN rfl, rfl⟩

set_option maxRecDepth 100000

/-- C40 (evaluation): after `%%` the loop of `mpfr_vasprintf` is at the second `%` and
takes it for the start of a conversion specification.  With the format `%%d` and no
argument, whatever the callees, the run reads an `int` in the empty argument list; with one
`int` argument it consumes it (the output is `%d`); with the format `%%.0Ra` and a pointer
to the number 8 it consumes the pointer and prints the number: the output is `%0x8p+0`, not
`%.0Ra`; and the format `%%` alone gives the two characters `%%`. -/
theorem C40_percent_percent :
    (∀ (X : PrintCallees) (Y : GmpCallees),
        mpfr_vasprintf 64 X Y "%%d".toList [] = .error Stop.index)
      ∧ mpfr_vasprintf 64 c31_X c40_Y "%%d".toList [va_item.int 5]
        = .ok ⟨some "%d".toList, 2, [], [], false⟩
      ∧ mpfr_vasprintf 64 c31_X c40_Y "%%.0Ra".toList [va_item.mpfr c31_q]
        = .ok ⟨some "%0x8p+0".toList, 7, [], [], false⟩
      ∧ mpfr_vasprintf 64 c31_X c40_Y "%%".toList []
        = .ok ⟨some "%%".toList, 2, [], [], false⟩ :=
  ⟨fun _ _ => rfl, rfl, rfl, rfl⟩

set_option maxRecDepth 512

/-- One pass of the loop of `mpfr_exp_3` is the series evaluation followed by
`mpfr_clear_flags` and the squarings. -/
theorem exp3_pass_eq (W : Nat) (X : Exp3Callees) (x_copy : mpfr_struct)
    (ttt shift_x prec_x : Int) (G : Globals) (t tmp : mpfr_struct) (Prec : Nat) :
    exp3_pass W X x_copy ttt shift_x prec_x G t tmp Prec
      = (exp3_series W X x_copy ttt prec_x G t tmp Prec).bind
          (fun c => .ok (c.t, (exp3_final X shift_x c).1, (exp3_final X shift_x c).2)) := by
  unfold exp3_pass exp3_series exp3_final
  by_cases h1 : (X.MPFR_INT_CEIL_LOG2 Prec : Int) - X.MPFR_LOG2_BITS_PER_MP_LIMB + 2 < 0
  · simp only [h1, if_true]
    rfl
  · simp only [h1, if_false]
    by_cases h2 : X.mpfr_extract x_copy 0 = 0
    · simp only [h2, if_true]
      rfl
    · simp only [h2, if_false]
      by_cases h3 : (X.MPFR_INT_CEIL_LOG2 Prec : Int) - X.MPFR_LOG2_BITS_PER_MP_LIMB + 1 < 0
      · simp only [h3, if_true]
        rfl
      · simp only [h3, if_false, bind, Except.bind, pure, Except.pure]
        cases mpfr_exp_rational W G tmp (X.mpfr_extract x_copy 0)
            (((W / 2 : Nat) : Int) + (W : Int) - ttt)
            ((X.MPFR_INT_CEIL_LOG2 Prec : Int) - X.MPFR_LOG2_BITS_PER_MP_LIMB + 1).toNat
            (List.replicate
              (3 * ((X.MPFR_INT_CEIL_LOG2 Prec : Int) - X.MPFR_LOG2_BITS_PER_MP_LIMB + 2).toNat) 0)
            (X.allocate
              (2 * ((X.MPFR_INT_CEIL_LOG2 Prec : Int) - X.MPFR_LOG2_BITS_PER_MP_LIMB + 2).toNat))
          with
        | error e => rfl
        | ok r =>
          simp only []
          cases exp_rational_tables tmp.prec (X.mpfr_extract x_copy 0)
              (((W / 2 : Nat) : Int) + (W : Int) - ttt)
              ((X.MPFR_INT_CEIL_LOG2 Prec : Int) - X.MPFR_LOG2_BITS_PER_MP_LIMB + 1).toNat
              (List.replicate
                (3 * ((X.MPFR_INT_CEIL_LOG2 Prec : Int) - X.MPFR_LOG2_BITS_PER_MP_LIMB + 2).toNat)
                0)
              (X.allocate
                (2 * ((X.MPFR_INT_CEIL_LOG2 Prec : Int) - X.MPFR_LOG2_BITS_PER_MP_LIMB + 2).toNat))
            with
          | error e => rfl
          | ok T => rfl

/-- A returning run of the loop of `mpfr_exp_3` leaves through one of the three exits of a
pass: the series evaluation of that pass has ended in a state `c`, and the result is the exit
taken on what `mpfr_clear_flags` and the squarings make of `c`. -/
theorem exp3_loop_exit (W : Nat) (X : Exp3Callees) (Z : ZivCallees) (y x_copy : mpfr_struct)
    (ttt shift_x prec_x : Int) (rnd_mode : mp_rnd_t) (out : mpfr_struct × Int × Globals) :
    ∀ (fuel : Nat) (G : Globals) (t tmp : mpfr_struct) (realprec Prec ziv_loop : Nat),
      exp3_loop W X Z y x_copy ttt shift_x prec_x rnd_mode fuel G t tmp realprec Prec ziv_loop
          = .ok out →
        ∃ (G0 : Globals) (t0 tmp0 : mpfr_struct) (realprec0 Prec0 : Nat) (c : Exp3St),
          exp3_series W X x_copy ttt prec_x G0 t0 tmp0 Prec0 = .ok c
            ∧ exp3_exit X Z y rnd_mode realprec0 (exp3_final X shift_x c).1
                (exp3_final X shift_x c).2 = some out := by
  intro fuel
  induction fuel with
  | zero =>
    intro G t tmp realprec Prec ziv_loop h
    cases h
  | succ fuel ih =>
    intro G t tmp realprec Prec ziv_loop h
    unfold exp3_loop at h
    rw [exp3_pass_eq] at h
    cases hs : exp3_series W X x_copy ttt prec_x G t tmp Prec with
    | error e =>
      rw [hs] at h
      cases h
    | ok c =>
      rw [hs] at h
      simp only [Except.bind, bind] at h
      by_cases h1 : X.mpfr_overflow_p (exp3_final X shift_x c).2 = true
      · refine ⟨G, t, tmp, realprec, Prec, c, hs, ?_⟩
        simp only [h1, if_true] at h
        unfold exp3_exit
        simp only [h1, if_true]
        cases h
        rfl
      · by_cases h2 : X.mpfr_underflow_p (exp3_final X shift_x c).2 = true
        · refine ⟨G, t, tmp, realprec, Prec, c, hs, ?_⟩
          simp only [h1, h2, if_true, if_false] at h
          unfold exp3_exit
          simp only [h1, h2, if_true, if_false]
          cases h
          rfl
        · by_cases h3 : Z.mpfr_can_round (exp3_final X shift_x c).1 realprec GMP_RNDD GMP_RNDZ
              (y.prec + (if rnd_mode = GMP_RNDN then 1 else 0)) = true
          · refine ⟨G, t, tmp, realprec, Prec, c, hs, ?_⟩
            simp only [h1, h2, h3, if_true, if_false] at h
            unfold exp3_exit
            simp only [h1, h2, h3, if_true, if_false]
            cases h
            rfl
          · simp only [h1, h2, h3, if_false] at h
            exact ih _ _ _ _ _ _ h

/-- C38 (amended): when `mpfr_clear_flags` clears every flag, the state that a returning
`mpfr_exp_3` leaves comes from the last pass alone: the overflow and underflow tests read
the flags that the `shift_x` squarings of that pass raise from a state without any flag, and
the flags at the return are those, followed on the can-round exit by what the final
`mpfr_set (y, tmp, rnd_mode)` raises.  No flag raised before the call or by the series
evaluation enters. -/
theorem C38_flags_at_return (W : Nat) (X : Exp3Callees) (Z : ZivCallees) (fuel : Nat)
    (G : Globals) (y x : mpfr_struct) (rnd_mode : mp_rnd_t) (out : mpfr_struct × Int × Globals)
    (hclr : ∀ G0 : Globals, X.mpfr_clear_flags G0 = { G0 with flags := 0 })
    (h : mpfr_exp_3 W X Z fuel G y x rnd_mode = .ok out) :
    ExitFlags W X G y x rnd_mode out := by
  unfold mpfr_exp_3 at h
  obtain ⟨d, hd, h⟩ := (sbind_ok _ _ _).1 h
  obtain ⟨G0, t0, tmp0, realprec0, Prec0, c, hs, he⟩ :=
    exp3_loop_exit W X Z y d.1 d.2.1 d.2.2.1 _ rnd_mode out _ _ _ _ _ _ _ h
  refine ⟨d.1, d.2.1, d.2.2.1, _, d.2.2.2, G0, t0, tmp0, Prec0, c, _, hd, hs, rfl, ?_⟩
  have he2 : exp3_exit X Z y rnd_mode realprec0
      (exp3_squarings X d.2.2.1.toNat { c.G with flags := 0 } c.tmp).1
      (exp3_squarings X d.2.2.1.toNat { c.G with flags := 0 } c.tmp).2 = some out := by
    unfold exp3_final at he
    rw [hclr] at he
    exact he
  generalize exp3_squarings X d.2.2.1.toNat { c.G with flags := 0 } c.tmp = q at he2
  unfold exp3_exit at he2
  cases h1 : X.mpfr_overflow_p q.2 with
  | true =>
    simp only [h1, if_true, Option.some.injEq] at he2
    left
    refine ⟨rfl, ?_, ?_⟩
    · rw [← he2]
    · rw [← he2]
  | false =>
    cases h2 : X.mpfr_underflow_p q.2 with
    | true =>
      simp only [h1, h2, if_true, Bool.false_eq_true, if_false, Option.some.injEq] at he2
      right
      left
      refine ⟨rfl, rfl, ?_, ?_⟩
      · rw [← he2]
      · rw [← he2]
    | false =>
      right
      right
      refine ⟨rfl, rfl, ?_⟩
      simp only [h1, h2, Bool.false_eq_true, if_false] at he2
      by_cases h3 : Z.mpfr_can_round q.1 realprec0 GMP_RNDD GMP_RNDZ
          (y.prec + (if rnd_mode = GMP_RNDN then 1 else 0)) = true
      · simp only [h3, if_true, Option.some.injEq] at he2
        exact he2.symm
      · simp only [h3, if_false] at he2
        cases he2

set_option maxRecDepth 100000

/-- The run on `x = 2` with the callees `c27_X`, started with the underflow, inexact and
erange flags raised: the two squarings overflow, and at the return the overflow flag alone is
set. -/
theorem C38_flags_at_return_witness :
    mpfr_exp_3 64 c27_X c27_Z 1 c38_G2 c27_y c27_x GMP_RNDN = .ok c38_out
      ∧ ExitFlags 64 c27_X c38_G2 c27_y c27_x GMP_RNDN c38_out :=
  ⟨rfl, C38_flags_at_return 64 c27_X c27_Z 1 c38_G2 c27_y c27_x GMP_RNDN c38_out
    (fun _ => rfl) rfl⟩

/-- C38 (evaluation): `x = 1/2` has `shift_x = 0`, so a pass has no squaring; the call is
made with the inexact flag raised, the pass leaves through the can-round exit, and
`mpfr_set` rounds the 37-bit `tmp` to the 2 bits of `y`: the inexact flag is set at the
return, though no squaring has raised it. -/
theorem C38_inexact_set_at_return :
    c38_G.flags = MPFR_FLAGS_INEXACT
      ∧ exp3_decompose c38_X c38_G c27_x_copy = .ok (c27_x_copy, 0, 0, c38_G)
      ∧ (∀ (G : Globals) (tmp : mpfr_struct), exp3_squarings c38_X 0 G tmp = (tmp, G))
      ∧ (∀ G : Globals, c38_X.mpfr_clear_flags G = { G with flags := 0 })
      ∧ mpfr_exp_3 64 c38_X c38_Z 1 c38_G c27_y c27_x_copy GMP_RNDZ
        = .ok (⟨2, 1, 1, [9223372036854775808]⟩, -1, ⟨MPFR_FLAGS_INEXACT, -1000, 1000⟩) :=
  ⟨rfl, rfl, fun _ _ => rfl, fun _ => rfl, rfl⟩

set_option maxRecDepth 512

/-! ## No access outside the tables of `mpfr_exp_rational` -/

theorem ni_bind {α β : Type} (x : Except Stop α) (f : α → Except Stop β)
    (hx : x ≠ .error Stop.index) (hf : ∀ a, x = .ok a → f a ≠ .error Stop.index) :
    (x >>= f) ≠ .error Stop.index := by
  cases x with
  | error e =>
    intro h
    have e0 : (Except.error e >>= f) = Except.error e := rfl
    rw [e0] at h
    cases h
    exact hx rfl
  | ok a => exact hf a rfl

theorem ni_pure {α : Type} (a : α) : (pure a : Except Stop α) ≠ .error Stop.index := by
  intro h
  cases h

theorem zget_ni {T : List Int} {i : Int} (n : Nat) (hi : i = (n : Int)) (h : n < T.length) :
    zget T i ≠ .error Stop.index := by
  subst hi
  unfold zget
  rw [if_pos (Int.ofNat_nonneg n), Int.toNat_ofNat, List.getElem?_eq_getElem h]
  intro h
  cases h

theorem zset_ni {T : List Int} {i v : Int} (n : Nat) (hi : i = (n : Int)) (h : n < T.length) :
    zset T i v ≠ .error Stop.index := by
  subst hi
  unfold zset
  rw [Int.toNat_ofNat, if_pos ⟨Int.ofNat_nonneg n, h⟩]
  intro h
  cases h

theorem zset_len {T T' : List Int} {i v : Int} (h : zset T i v = .ok T') :
    T'.length = T.length := by
  obtain ⟨_, _, e⟩ := zset_eq_ok h
  rw [e, List.length_set]

theorem pget_ni {T : List Nat} {i : Int} (n : Nat) (hi : i = (n : Int)) (h : n < T.length) :
    pget T i ≠ .error Stop.index := by
  subst hi
  unfold pget
  rw [if_pos (Int.ofNat_nonneg n), Int.toNat_ofNat, List.getElem?_eq_getElem h]
  intro h
  cases h

theorem long_shl_ni (r l : Int) : long_shl r l ≠ .error Stop.index := by
  unfold long_shl
  split_ifs <;> intro h <;> cases h

theorem int_shl_one_ni (t : Nat) : int_shl_one t ≠ .error Stop.index := by
  unfold int_shl_one
  split_ifs <;> intro h <;> cases h

theorem mpz_mul_2exp_ni (z c : Int) : mpz_mul_2exp z c ≠ .error Stop.index := by
  unfold mpz_mul_2exp
  split_ifs <;> intro h <;> cases h

theorem zget_step {β : Type} {T : List Int} {i : Int} {f : Int → Except Stop β} (n : Nat)
    (hi : i = (n : Int)) (h : n < T.length) (hf : ∀ x, f x ≠ .error Stop.index) :
    (zget T i >>= f) ≠ .error Stop.index :=
  ni_bind _ _ (zget_ni n hi h) (fun a _ => hf a)

theorem zset_step {β : Type} {T : List Int} {i v : Int} {f : List Int → Except Stop β}
    (n : Nat) (hi : i = (n : Int)) (h : n < T.length)
    (hf : ∀ T' : List Int, T'.length = T.length → f T' ≠ .error Stop.index) :
    (zset T i v >>= f) ≠ .error Stop.index :=
  ni_bind _ _ (zset_ni n hi h) (fun a ha => hf a (zset_len ha))

theorem pget_step {β : Type} {T : List Nat} {i : Int} {f : Nat → Except Stop β} (n : Nat)
    (hi : i = (n : Int)) (h : n < T.length)
    (hf : ∀ x, T[n]? = some x → f x ≠ .error Stop.index) :
    (pget T i >>= f) ≠ .error Stop.index :=
  ni_bind _ _ (pget_ni n hi h) (fun a ha => hf a ((pget_nat hi).1 ha))

theorem pset_step {β : Type} {T : List Nat} {i : Int} {v : Nat} {f : List Nat → Except Stop β}
    (n : Nat) (hi : i = (n : Int)) (h : n < T.length)
    (hf : f (T.set n v) ≠ .error Stop.index) :
    (pset T i v >>= f) ≠ .error Stop.index := by
  rw [(pset_nat hi).2 ⟨h, rfl⟩]
  exact hf

theorem free_step {α β : Type} {x : Except Stop α} {f : α → Except Stop β}
    (hx : x ≠ .error Stop.index) (hf : ∀ a, f a ≠ .error Stop.index) :
    (x >>= f) ≠ .error Stop.index :=
  ni_bind _ _ hx (fun a _ => hf a)

/-- The shape of the stack depends only on the entries of `log2_nb_terms` below its top. -/
theorem stk_frame {m : Nat} {mult mult' : List Nat} :
    ∀ (n e : Nat), Stk m mult n e → (∀ x, x < n → mult'[m + 1 + x]? = mult[m + 1 + x]?) →
      Stk m mult' n e := by
  intro n
  induction n with
  | zero =>
    intro e h _
    exact h
  | succ n ih =>
    intro e h hf
    obtain ⟨t, a, ht, he, hd, hc⟩ := h
    exact ⟨t, a, by rw [hf n (Nat.lt_succ_self n), ht], he, hd,
      ih a hc (fun x hx => hf x (Nat.lt_succ_of_lt hx))⟩

theorem stk_zero {m : Nat} {mult : List Nat} {n : Nat} (h : Stk m mult n 0) : n = 0 := by
  cases n with
  | zero => rfl
  | succ n =>
    obtain ⟨t, a, _, he, _⟩ := h
    have : 0 < 2 ^ t := Nat.two_pow_pos t
    omega

/-- A stack that covers fewer than `2 ^ M` terms has at most `M` entries. -/
theorem stk_count {m : Nat} {mult : List Nat} :
    ∀ (n e s M : Nat), Stk m mult n e → 0 < e → 2 ^ s ∣ e → e < 2 ^ M → n + s ≤ M := by
  intro n
  induction n with
  | zero =>
    intro e s M h he _ _
    have : e = 0 := h
    omega
  | succ n ih =>
    intro e s M h he hs hM
    obtain ⟨t, a, _, hea, hd, hc⟩ := h
    subst hea
    have hst : s ≤ t := low_bit hd hs
    by_cases ha : a = 0
    · subst ha
      have hn := stk_zero hc
      subst hn
      have : t < M := by
        have h2 : 2 ^ t < 2 ^ M := by simpa using hM
        exact (Nat.pow_lt_pow_iff_right (by norm_num)).mp h2
      omega
    · have := ih a (t + 1) M hc (by omega) hd (by omega)
      omega

/-- The loop that combines and reduces stays inside the tables, and leaves a stack that
covers the `i + 1` terms. -/
theorem exp_combine_ni (m : Nat) (r : Int) (hm : m < 63) (i : Nat) (hi : i + 1 ≤ 2 ^ m) :
    ∀ (fuel : Nat) (s : ExpSt) (j ln kn : Nat),
      2 * (m + 1) + m ≤ s.Q.length → 2 * (m + 1) ≤ s.mult.length → s.k = (kn : Int) →
      j * 2 ^ ln = i + 1 → s.mult[m + 1 + kn]? = some ln → Stk m s.mult kn ((j - 1) * 2 ^ ln) →
      exp_combine m r fuel s j (ln : Int) ≠ .error Stop.index
        ∧ ∀ s', exp_combine m r fuel s j (ln : Int) = .ok s' →
            s'.Q.length = s.Q.length ∧ s'.mult.length = s.mult.length
              ∧ ∃ kn' : Nat, s'.k = (kn' : Int) ∧ Stk m s'.mult (kn' + 1) (i + 1) := by
  intro fuel
  induction fuel with
  | zero =>
    intro s j ln kn _ _ _ _ _ _
    exact ⟨fun h => (by cases h), fun s' h => (by cases h)⟩
  | succ fuel ih =>
    intro s j ln kn hQ hM hk hj hl hS
    have hj1 : 1 ≤ j := by
      rcases Nat.eq_zero_or_pos j with h0 | h0
      · rw [h0] at hj
        simp at hj
      · exact h0
    have h2pos : 0 < 2 ^ ln := Nat.two_pow_pos ln
    by_cases hev : j % 2 = 0
    · obtain ⟨c, hc⟩ : ∃ c, j = 2 * (c + 1) := ⟨j / 2 - 1, by omega⟩
      have hjm : j - 1 = 2 * c + 1 := by omega
      have hj2 : j / 2 = c + 1 := by omega
      have hpos : 0 < (j - 1) * 2 ^ ln := Nat.mul_pos (by omega) h2pos
      obtain ⟨q, rfl⟩ : ∃ q, kn = q + 1 := by
        cases kn with
        | zero =>
          have : (j - 1) * 2 ^ ln = 0 := hS
          omega
        | succ q => exact ⟨q, rfl⟩
      have hlt : (j - 1) * 2 ^ ln < 2 ^ m := by
        have h1 : (j - 1) * 2 ^ ln + 2 ^ ln = j * 2 ^ ln := by
          rw [hjm, hc]
          ring
        omega
      have hcnt := stk_count (q + 1) _ ln m hS hpos (Dvd.intro_left _ rfl) hlt
      obtain ⟨t, a, ht, he, hd, hSq⟩ := hS
      have htl : t = ln := below_size he.symm hd hev hj1
      subst htl
      have ha : a = c * 2 ^ (t + 1) := by
        rw [hjm] at he
        have h1 : (2 * c + 1) * 2 ^ t = c * 2 ^ (t + 1) + 2 ^ t := by
          rw [pow_succ]
          ring
        omega
      have hnext : (j / 2) * 2 ^ (t + 1) = i + 1 := by
        rw [hj2, ← hj, hc, pow_succ]
        ring
      have ecast : ((t : Int) + 1) = ((t + 1 : Nat) : Int) := by push_cast; rfl
      have hu2 : to_ulong ((t + 1 : Nat) : Int) = t + 1 :=
        to_ulong_nat (by
          have : t + 1 < 64 := by omega
          exact lt_of_lt_of_le (Nat.lt_two_pow _) (Nat.pow_le_pow_right (by norm_num) (by omega)))
      have hu : to_ulong ((t : Int) + 1) = t + 1 := by
        rw [ecast]
        exact hu2
      have hstk : Stk m s.mult q ((j / 2 - 1) * 2 ^ (t + 1)) := by
        rw [hj2]
        have : (c + 1 - 1) * 2 ^ (t + 1) = a := by
          rw [ha]
          simp
        rw [this]
        exact hSq
      refine ⟨?_, ?_⟩
      · unfold exp_combine
        rw [if_pos hev]
        refine zget_step (m + 1 + (q + 1)) (by omega) (by omega) (fun _ => ?_)
        refine zget_step (2 * (m + 1) + t) (by omega) (by omega) (fun _ => ?_)
        refine zset_step (m + 1 + (q + 1)) (by omega) (by omega) (fun Q1 l1 => ?_)
        refine zget_step (m + 1 + q) (by omega) (by omega) (fun _ => ?_)
        refine zget_step (q + 1) (by omega) (by omega) (fun _ => ?_)
        refine zset_step (m + 1 + q) (by omega) (by omega) (fun Q2 l2 => ?_)
        refine zget_step (m + 1 + q) (by omega) (by omega) (fun _ => ?_)
        refine free_step (long_shl_ni _ _) (fun _ => ?_)
        refine free_step (mpz_mul_2exp_ni _ _) (fun _ => ?_)
        refine zset_step (m + 1 + q) (by omega) (by omega) (fun Q3 l3 => ?_)
        refine zget_step (m + 1 + q) (by omega) (by omega) (fun _ => ?_)
        refine zget_step (m + 1 + (q + 1)) (by omega) (by omega) (fun _ => ?_)
        refine zset_step (m + 1 + q) (by omega) (by omega) (fun Q4 l4 => ?_)
        refine zget_step q (by omega) (by omega) (fun _ => ?_)
        refine zget_step (q + 1) (by omega) (by omega) (fun _ => ?_)
        refine zset_step q (by omega) (by omega) (fun Q5 l5 => ?_)
        refine pget_step (m + 1 + q) (by omega) (by omega) (fun t0 ht0 => ?_)
        have et : t0 = t := by
          rw [ht] at ht0
          exact (Option.some.inj ht0).symm
        subst et
        refine pset_step (m + 1 + q) (by omega) (by omega) ?_
        refine zget_step (q + 1) (by omega) (by omega) (fun _ => ?_)
        refine zget_step (2 * (m + 1) + t0) (by omega) (by omega) (fun _ => ?_)
        refine pget_step q (by omega) (by rw [List.length_set]; omega) (fun _ _ => ?_)
        refine free_step (long_shl_ni _ _) (fun _ => ?_)
        refine pset_step q (by omega) (by rw [List.length_set]; omega) ?_
        refine pset_step (q + 1) (by omega) (by rw [List.length_set, List.length_set]; omega) ?_
        rw [ecast]
        refine (ih _ (j / 2) (t0 + 1) q (show 2 * (m + 1) + m ≤ Q5.length by omega)
          (by simp only [List.length_set]; omega) (show s.k - 1 = (q : Int) by omega) hnext
          ?_ ?_).1
        · show (((s.mult.set (m + 1 + q) _).set q _).set (q + 1) _)[m + 1 + q]? = some (t0 + 1)
          rw [List.getElem?_set_ne (by omega), List.getElem?_set_ne (by omega),
            List.getElem?_set_self (by omega), hu2]
        · refine stk_frame q _ hstk (fun x hx => ?_)
          show (((s.mult.set (m + 1 + q) _).set q _).set (q + 1) _)[m + 1 + x]? = _
          rw [List.getElem?_set_ne (by omega), List.getElem?_set_ne (by omega),
            List.getElem?_set_ne (by omega)]
      · intro s' h
        obtain ⟨sk, pl, sk1, qk, qk1, t0, v0, rl, s1, _, _, _, _, _, g6, _, _, g9, g10, g11, _,
          _, _, _, _, g17, _, _, g20, g21⟩ := combine_step h hev hk (by omega)
        have et : t0 = t := by
          rw [ht] at g6
          exact (Option.some.inj g6).symm
        subst et
        rw [ecast] at g21
        obtain ⟨r1, r2, r3⟩ := (ih s1 (j / 2) (t0 + 1) q (by omega) (by omega) g9 hnext
          (by rw [g17, hu]) (stk_frame q _ hstk (fun x hx =>
            g20 (m + 1 + x) (by omega) (by omega) (by omega)))).2 s' g21
        exact ⟨by omega, by omega, r3⟩
    · refine ⟨?_, ?_⟩
      · unfold exp_combine
        rw [if_neg hev]
        intro h
        cases h
      · intro s' h
        unfold exp_combine at h
        rw [if_neg hev] at h
        simp only [Except.ok.injEq] at h
        subst h
        obtain ⟨c, hc⟩ : ∃ c, j = 2 * c + 1 := ⟨j / 2, by omega⟩
        refine ⟨rfl, rfl, kn, hk, ln, (j - 1) * 2 ^ ln, hl, ?_, ?_, hS⟩
        · rw [← hj, hc]
          simp
          ring
        · rw [hc]
          simp only [Nat.add_sub_cancel, pow_succ]
          exact ⟨c, by ring⟩

/-- The main loop of `mpfr_exp_rational` stays inside the tables; when it ends the stack
covers the `i` terms gathered. -/
theorem exp_main_ni (precy m : Nat) (r : Int) (hm : m < 63) :
    ∀ (fuel : Nat) (s : ExpSt) (i kn : Nat),
      2 * (m + 1) + m ≤ s.Q.length → 2 * (m + 1) ≤ s.mult.length → s.k = (kn : Int) →
      Stk m s.mult (kn + 1) i → i ≤ 2 ^ m →
      exp_main precy m r fuel s i ≠ .error Stop.index
        ∧ ∀ t, exp_main precy m r fuel s i = .ok t →
            t.1.Q.length = s.Q.length ∧ t.1.mult.length = s.mult.length
              ∧ ∃ kn' : Nat, t.1.k = (kn' : Int) ∧ Stk m t.1.mult (kn' + 1) t.2
                ∧ t.2 ≤ 2 ^ m := by
  intro fuel
  induction fuel with
  | zero =>
    intro s i kn _ _ _ _ _
    exact ⟨fun h => (by cases h), fun t h => (by cases h)⟩
  | succ fuel ih =>
    intro s i kn hQ hM hk hS hi
    by_cases hg : s.prec_i_have < precy ∧ i < 2 ^ m
    · have ipos : 0 < i := by
        obtain ⟨t, a, _, he, _⟩ := hS
        have : 0 < 2 ^ t := Nat.two_pow_pos t
        omega
      have hcnt := stk_count (kn + 1) i 0 m hS ipos (one_dvd _) hg.2
      have hcomb : ∀ (Q2 : List Int) (pr : Nat), Q2.length = s.Q.length →
          exp_combine m r (i + 2)
              { Q := Q2, mult := s.mult.set (m + 1 + (kn + 1)) 0, k := s.k + 1,
                prec_i_have := pr } (i + 1) 0 ≠ .error Stop.index
            ∧ ∀ s', exp_combine m r (i + 2)
              { Q := Q2, mult := s.mult.set (m + 1 + (kn + 1)) 0, k := s.k + 1,
                prec_i_have := pr } (i + 1) 0 = .ok s' →
              s'.Q.length = s.Q.length ∧ s'.mult.length = s.mult.length
                ∧ ∃ kn' : Nat, s'.k = (kn' : Int) ∧ Stk m s'.mult (kn' + 1) (i + 1) := by
        intro Q2 pr l2
        have h0 := exp_combine_ni m r hm i (by omega) (i + 2)
          { Q := Q2, mult := s.mult.set (m + 1 + (kn + 1)) 0, k := s.k + 1, prec_i_have := pr }
          (i + 1) 0 (kn + 1) (show 2 * (m + 1) + m ≤ Q2.length by omega)
          (show 2 * (m + 1) ≤ (s.mult.set (m + 1 + (kn + 1)) 0).length by
            rw [List.length_set]; exact hM)
          (show s.k + 1 = ((kn + 1 : Nat) : Int) by omega) (by simp)
          (show (s.mult.set (m + 1 + (kn + 1)) 0)[m + 1 + (kn + 1)]? = some 0 by
            rw [List.getElem?_set_self (by omega)])
          (show Stk m (s.mult.set (m + 1 + (kn + 1)) 0) (kn + 1) ((i + 1 - 1) * 2 ^ 0) by
            simp only [Nat.add_sub_cancel, pow_zero, mul_one]
            exact stk_frame (kn + 1) i hS (fun x hx => by
              rw [List.getElem?_set_ne (by omega)]))
        refine ⟨h0.1, fun s' e => ?_⟩
        obtain ⟨a1, a2, a3⟩ := h0.2 s' e
        refine ⟨(show s'.Q.length = Q2.length from a1).trans l2, ?_, a3⟩
        rw [a2]
        exact List.length_set _ _ _
      refine ⟨?_, ?_⟩
      · unfold exp_main
        rw [if_pos hg]
        refine pset_step (m + 1 + (kn + 1)) (by omega) (by omega) ?_
        refine zset_step (kn + 1) (by omega) (by omega) (fun Q1 l1 => ?_)
        refine zset_step (m + 1 + (kn + 1)) (by omega) (by omega) (fun Q2 l2 => ?_)
        refine ni_bind _ _ (hcomb Q2 _ (by omega)).1 (fun s1 e1 => ?_)
        obtain ⟨a1, a2, kn', a3, a4⟩ := (hcomb Q2 _ (by omega)).2 s1 e1
        exact (ih s1 (i + 1) kn' (by omega) (by omega) a3 a4 (by omega)).1
      · intro t h
        unfold exp_main at h
        rw [if_pos hg] at h
        simp only [sbind_ok] at h
        obtain ⟨mult0, e0, Q1, e1, Q2, e2, s1, e3, h⟩ := h
        have i0 : (m : Int) + 1 + (s.k + 1) = ((m + 1 + (kn + 1) : Nat) : Int) := by omega
        obtain ⟨_, em⟩ := (pset_nat i0).1 e0
        subst em
        have l1 := zset_len e1
        have l2 := zset_len e2
        obtain ⟨a1, a2, kn', a3, a4⟩ := (hcomb Q2 _ (by omega)).2 s1 e3
        obtain ⟨b1, b2, b3⟩ := (ih s1 (i + 1) kn' (by omega) (by omega) a3 a4 (by omega)).2 t h
        exact ⟨by omega, by omega, b3⟩
    · refine ⟨?_, ?_⟩
      · unfold exp_main
        rw [if_neg hg]
        intro h
        cases h
      · intro t h
        unfold exp_main at h
        rw [if_neg hg] at h
        simp only [Except.ok.injEq] at h
        subst h
        exact ⟨rfl, rfl, kn, hk, hS, hi⟩

/-- The loop that accumulates the products stays inside the tables. -/
theorem exp_accumulate_ni (m : Nat) (r : Int) :
    ∀ (fuel kn : Nat) (T : List Int) (mult : List Nat) (accu a : Nat),
      2 * (m + 1) + m ≤ T.length → 2 * (m + 1) ≤ mult.length → Stk m mult kn a → a < 2 ^ m →
      exp_accumulate m r fuel T mult (kn : Int) accu ≠ .error Stop.index
        ∧ ∀ T', exp_accumulate m r fuel T mult (kn : Int) accu = .ok T' →
            T'.length = T.length := by
  intro fuel
  induction fuel with
  | zero =>
    intro kn T mult accu a _ _ _ _
    exact ⟨fun h => (by cases h), fun t h => (by cases h)⟩
  | succ fuel ih =>
    intro kn T mult accu a hQ hM hS ha
    cases kn with
    | zero =>
      refine ⟨?_, ?_⟩
      · unfold exp_accumulate
        rw [if_neg (by simp)]
        intro h
        cases h
      · intro T' h
        unfold exp_accumulate at h
        rw [if_neg (by simp)] at h
        simp only [Except.ok.injEq] at h
        rw [← h]
    | succ q =>
      have apos : 0 < a := by
        obtain ⟨t, a', _, he, _⟩ := hS
        have : 0 < 2 ^ t := Nat.two_pow_pos t
        omega
      have hcnt := stk_count (q + 1) a 0 m hS apos (one_dvd _) ha
      obtain ⟨t, a', ht, he, hd, hSq⟩ := hS
      have htm : t < m := by
        have h2 : 2 ^ t < 2 ^ m := by omega
        exact (Nat.pow_lt_pow_iff_right (by norm_num)).mp h2
      have i5 : ((q + 1 : Nat) : Int) - 1 = ((q : Nat) : Int) := by push_cast; ring
      have ha' : a' < 2 ^ m := by omega
      refine ⟨?_, ?_⟩
      · unfold exp_accumulate
        rw [if_pos (by exact_mod_cast Nat.succ_pos q), i5]
        refine pget_step (m + 1 + q) (by omega) (by omega) (fun j hj => ?_)
        have ej : j = t := by
          rw [ht] at hj
          exact (Option.some.inj hj).symm
        subst ej
        refine zget_step (m + 1 + (q + 1)) (by omega) (by omega) (fun _ => ?_)
        refine zget_step (2 * (m + 1) + j) (by omega) (by omega) (fun _ => ?_)
        refine zset_step (m + 1 + (q + 1)) (by omega) (by omega) (fun Q1 l1 => ?_)
        refine zget_step (m + 1 + q) (by omega) (by omega) (fun _ => ?_)
        refine zget_step (q + 1) (by omega) (by omega) (fun _ => ?_)
        refine zset_step (m + 1 + q) (by omega) (by omega) (fun Q2 l2 => ?_)
        refine pget_step (m + 1 + (q + 1)) (by omega) (by omega) (fun _ _ => ?_)
        refine free_step (int_shl_one_ni _) (fun _ => ?_)
        refine zget_step (m + 1 + q) (by omega) (by omega) (fun _ => ?_)
        refine free_step (mpz_mul_2exp_ni _ _) (fun _ => ?_)
        refine zset_step (m + 1 + q) (by omega) (by omega) (fun Q3 l3 => ?_)
        refine zget_step (m + 1 + q) (by omega) (by omega) (fun _ => ?_)
        refine zget_step (m + 1 + (q + 1)) (by omega) (by omega) (fun _ => ?_)
        refine zset_step (m + 1 + q) (by omega) (by omega) (fun Q4 l4 => ?_)
        refine zget_step q (by omega) (by omega) (fun _ => ?_)
        refine zget_step (q + 1) (by omega) (by omega) (fun _ => ?_)
        refine zset_step q (by omega) (by omega) (fun Q5 l5 => ?_)
        exact (ih q Q5 mult _ a' (by omega) hM hSq ha').1
      · intro T' h
        unfold exp_accumulate at h
        rw [if_pos (by exact_mod_cast Nat.succ_pos q), i5] at h
        simp only [sbind_ok] at h
        obtain ⟨j, _, sk, _, pj, _, T1, h3, sk1, _, qk, _, T2, h6, t1, _, one, _, sk1', _,
          sh, _, T3, h11, sk1'', _, sk', _, T4, h14, qk1, _, qk', _, T5, h17, h18⟩ := h
        have l1 := zset_len h3
        have l2 := zset_len h6
        have l3 := zset_len h11
        have l4 := zset_len h14
        have l5 := zset_len h17
        have := (ih q T5 mult _ a' (by omega) hM hSq ha').2 T' h18
        omega

/-- The loop that fills the table of squares stays inside the tables and ends within its
fuel. -/
theorem exp_squares_ni (m : Nat) : ∀ (fuel : Nat) (T : List Int) (kn : Nat),
    2 * (m + 1) + m ≤ T.length → 1 ≤ kn →
    exp_squares m fuel T (kn : Int) ≠ .error Stop.index
      ∧ (m < kn + fuel → 0 < fuel → exp_squares m fuel T (kn : Int) ≠ .error Stop.fuel)
      ∧ ∀ T', exp_squares m fuel T (kn : Int) = .ok T' → T'.length = T.length := by
  intro fuel
  induction fuel with
  | zero =>
    intro T kn _ h1
    refine ⟨fun h => (by cases h), fun _ h => ?_, fun t h => (by cases h)⟩
    omega
  | succ fuel ih =>
    intro T kn hQ hk
    have i3 : ((kn : Int) + 1) = ((kn + 1 : Nat) : Int) := by push_cast; rfl
    by_cases hlt : kn < m
    · refine ⟨?_, ?_, ?_⟩
      · unfold exp_squares
        rw [if_pos (by exact_mod_cast hlt)]
        refine zget_step (2 * (m + 1) + kn - 1) (by omega) (by omega) (fun _ => ?_)
        refine zset_step (2 * (m + 1) + kn) (by omega) (by omega) (fun Q1 l1 => ?_)
        rw [i3]
        exact (ih Q1 (kn + 1) (by omega) (by omega)).1
      · intro hf _
        unfold exp_squares
        rw [if_pos (by exact_mod_cast hlt)]
        refine nf_bind _ _ (zget_nf _ _) (fun _ _ => ?_)
        refine nf_bind _ _ (zset_nf _ _ _) (fun Q1 e1 => ?_)
        rw [i3]
        exact (ih Q1 (kn + 1) (by rw [zset_len e1]; omega) (by omega)).2.1 (by omega) (by omega)
      · intro T' h
        unfold exp_squares at h
        rw [if_pos (by exact_mod_cast hlt)] at h
        simp only [sbind_ok] at h
        obtain ⟨x, _, Q1, e1, h⟩ := h
        rw [i3] at h
        have l1 := zset_len e1
        have := (ih Q1 (kn + 1) (by omega) (by omega)).2.2 T' h
        omega
    · refine ⟨?_, fun _ _ => ?_, ?_⟩
      · unfold exp_squares
        rw [if_neg (by exact_mod_cast hlt)]
        intro h
        cases h
      · unfold exp_squares
        rw [if_neg (by exact_mod_cast hlt)]
        intro h
        cases h
      · intro T' h
        unfold exp_squares at h
        rw [if_neg (by exact_mod_cast hlt)] at h
        simp only [Except.ok.injEq] at h
        rw [← h]

/-- The initialisation of `mpfr_exp_rational` stays inside the tables and leaves a stack of
one block of one term. -/
theorem exp_init_ni {p r : Int} {m : Nat} {Q : List Int} {mult : List Nat}
    (hQ : 2 * (m + 1) + max m 1 ≤ Q.length) (hM : 2 * (m + 1) ≤ mult.length) :
    exp_init p r m Q mult ≠ .error Stop.index ∧ exp_init p r m Q mult ≠ .error Stop.fuel
      ∧ ∀ s, exp_init p r m Q mult = .ok s →
          m < 63 ∧ s.1.Q.length = Q.length ∧ s.1.mult.length = mult.length
            ∧ s.1.k = ((0 : Nat) : Int) ∧ Stk m s.1.mult 1 1 := by
  have hQ1 : 2 * (m + 1) + m ≤ Q.length := by omega
  have hQ2 : 2 * (m + 1) < Q.length := by omega
  unfold exp_init
  by_cases h63 : m < 63
  · by_cases hp : p = 0
    · rw [if_neg (not_not.mpr h63), if_pos hp]
      exact ⟨fun h => (by cases h), fun h => (by cases h), fun s h => (by cases h)⟩
    · rw [if_neg (not_not.mpr h63), if_neg hp]
      refine ⟨?_, ?_, ?_⟩
      · refine zset_step (2 * (m + 1)) (by omega) (by omega) (fun Q1 l1 => ?_)
        refine ni_bind _ _ (exp_squares_ni m (m + 1) Q1 1 (by omega) (le_refl 1)).1
          (fun Q2 e2 => ?_)
        have l2 := (exp_squares_ni m (m + 1) Q1 1 (by omega) (le_refl 1)).2.2 Q2 e2
        refine zset_step 0 (by omega) (by omega) (fun Q3 l3 => ?_)
        refine zset_step (m + 1) (by omega) (by omega) (fun Q4 l4 => ?_)
        refine pset_step 0 (by omega) (by omega) ?_
        refine pset_step (m + 1) (by omega) (by rw [List.length_set]; omega) ?_
        exact ni_pure _
      · refine nf_bind _ _ (zset_nf _ _ _) (fun Q1 e1 => ?_)
        have l1 := zset_len e1
        refine nf_bind _ _
          ((exp_squares_ni m (m + 1) Q1 1 (by omega) (le_refl 1)).2.1 (by omega) (by omega))
          (fun Q2 e2 => ?_)
        refine nf_bind _ _ (zset_nf _ _ _) (fun Q3 e3 => ?_)
        refine nf_bind _ _ (zset_nf _ _ _) (fun Q4 e4 => ?_)
        refine nf_bind _ _ (pset_nf _ _ _) (fun m1 _ => ?_)
        refine nf_bind _ _ (pset_nf _ _ _) (fun m2 _ => ?_)
        exact nf_pure _
      · intro s h
        simp only [sbind_ok] at h
        obtain ⟨Q1, e1, Q2, e2, Q3, e3, Q4, e4, m1, e5, m2, e6, h⟩ := h
        have l1 := zset_len e1
        have l2 := (exp_squares_ni m (m + 1) Q1 1 (by omega) (le_refl 1)).2.2 Q2 e2
        have l3 := zset_len e3
        have l4 := zset_len e4
        obtain ⟨_, _, f5⟩ := pset_eq_ok e5
        have i6 : (m : Int) + 1 = ((m + 1 : Nat) : Int) := by push_cast; rfl
        obtain ⟨_, f6⟩ := (pset_nat i6).1 e6
        have hs := (spure_ok _ _).1 h
        subst hs
        subst f6
        subst f5
        refine ⟨h63, by show Q4.length = Q.length; omega, ?_, rfl, ?_⟩
        · show ((mult.set _ 0).set (m + 1) 0).length = mult.length
          rw [List.length_set, List.length_set]
        · refine ⟨0, 0, ?_, by norm_num, by simp, rfl⟩
          show ((mult.set _ 0).set (m + 1) 0)[m + 1 + 0]? = some 0
          rw [Nat.add_zero, List.getElem?_set_self (by rw [List.length_set]; omega)]
  · rw [if_pos h63]
    exact ⟨fun h => (by cases h), fun h => (by cases h), fun s h => (by cases h)⟩

/-- The three loops of `mpfr_exp_rational` stay inside tables of `2 * (m + 1) + m` integers
(one at least after `2 * (m + 1)`) and `2 * (m + 1)` counters and end within their fuel;
when the main loop ends the index `k` lies in `0 .. m`. -/
theorem exp_loops_ni (precy : Nat) {p r : Int} {m : Nat} {Q : List Int} {mult : List Nat}
    (hQ : 2 * (m + 1) + max m 1 ≤ Q.length) (hM : 2 * (m + 1) ≤ mult.length) :
    ∀ s, exp_init p r m Q mult = .ok s →
      exp_main precy m s.2 (2 ^ m) s.1 1 ≠ .error Stop.index
        ∧ exp_main precy m s.2 (2 ^ m) s.1 1 ≠ .error Stop.fuel
        ∧ ∀ t, exp_main precy m s.2 (2 ^ m) s.1 1 = .ok t →
            0 ≤ t.1.k ∧ t.1.k ≤ m ∧ t.1.mult.length = mult.length
              ∧ exp_accumulate m s.2 (t.1.k.toNat + 1) t.1.Q t.1.mult t.1.k 0
                  ≠ .error Stop.index
              ∧ exp_accumulate m s.2 (t.1.k.toNat + 1) t.1.Q t.1.mult t.1.k 0
                  ≠ .error Stop.fuel
              ∧ ∀ T, exp_accumulate m s.2 (t.1.k.toNat + 1) t.1.Q t.1.mult t.1.k 0 = .ok T →
                  T.length = Q.length := by
  intro s hs
  obtain ⟨h63, l1, l2, hk, hS⟩ := (exp_init_ni hQ hM).2.2 s hs
  have hpow : 1 ≤ 2 ^ m := Nat.one_le_two_pow
  have hmain := exp_main_ni precy m s.2 h63 (2 ^ m) s.1 1 0 (by omega) (by omega) hk hS hpow
  refine ⟨hmain.1, exp_main_nf precy m s.2 (2 ^ m) s.1 1 hpow (by omega), fun t ht => ?_⟩
  obtain ⟨a1, a2, kn, a3, a4, a5⟩ := hmain.2 t ht
  have hkn : kn ≤ m := by
    have ipos : 0 < t.2 := by
      obtain ⟨u, a, _, he, _⟩ := a4
      have : 0 < 2 ^ u := Nat.two_pow_pos u
      omega
    have := stk_count (kn + 1) t.2 0 (m + 1) a4 ipos (one_dvd _) (by
      rw [pow_succ]
      omega)
    omega
  obtain ⟨u, a, _, he, _, hSk⟩ := a4
  have hlt : a < 2 ^ m := by
    have : 0 < 2 ^ u := Nat.two_pow_pos u
    omega
  rw [a3, Int.toNat_ofNat]
  have hacc := exp_accumulate_ni m s.2 (kn + 1) kn t.1.Q t.1.mult 0 a (by omega) (by omega)
    hSk hlt
  refine ⟨Int.ofNat_nonneg kn, by exact_mod_cast hkn, by omega, hacc.1,
    exp_accumulate_nf m s.2 (kn + 1) kn t.1.Q t.1.mult 0 (by omega), fun T hT => ?_⟩
  have := hacc.2 T hT
  omega

theorem shift_ni (c : Prop) [Decidable c] (a z d : Int) :
    (if c then (pure a : Except Stop Int) else mpz_mul_2exp z d) ≠ .error Stop.index := by
  split_ifs
  · exact ni_pure _
  · exact mpz_mul_2exp_ni _ _

theorem shift_nf (c : Prop) [Decidable c] (a z d : Int) :
    (if c then (pure a : Except Stop Int) else mpz_mul_2exp z d) ≠ .error Stop.fuel := by
  split_ifs
  · exact nf_pure _
  · exact mpz_mul_2exp_nf _ _

/-- The end of `mpfr_exp_rational` reads `S[0]` and `Q[0]` only. -/
theorem exp_finish_ni (W : Nat) (G : Globals) (y : mpfr_struct) (r : Int) (m : Nat)
    (Q : List Int) (i : Nat) (hQ : m + 1 < Q.length) :
    exp_finish W G y r m Q i ≠ .error Stop.index
      ∧ exp_finish W G y r m Q i ≠ .error Stop.fuel := by
  unfold exp_finish
  refine ⟨?_, ?_⟩
  · refine zget_step (m + 1) (by push_cast; rfl) hQ (fun S0 => ?_)
    refine free_step (shift_ni _ _ _ _) (fun S1 => ?_)
    refine zget_step 0 (by rfl) (by omega) (fun Q0 => ?_)
    refine free_step (shift_ni _ _ _ _) (fun Q1 => ?_)
    split_ifs
    · intro h
      cases h
    · exact ni_pure _
  · refine nf_bind _ _ (zget_nf _ _) (fun S0 _ => ?_)
    refine nf_bind _ _ (shift_nf _ _ _ _) (fun S1 _ => ?_)
    refine nf_bind _ _ (zget_nf _ _) (fun Q0 _ => ?_)
    refine nf_bind _ _ (shift_nf _ _ _ _) (fun Q1 _ => ?_)
    split_ifs
    · intro h
      cases h
    · exact nf_pure _

/-- The function `mpfr_exp_rational` reads and writes inside its tables, and ends within the
fuel of its loops. -/
theorem exp_rational_ni (W : Nat) (G : Globals) (y : mpfr_struct) (p r : Int) (m : Nat)
    (Q : List Int) (mult : List Nat) (hQ : 2 * (m + 1) + max m 1 ≤ Q.length)
    (hM : 2 * (m + 1) ≤ mult.length) :
    mpfr_exp_rational W G y p r m Q mult ≠ .error Stop.index
      ∧ mpfr_exp_rational W G y p r m Q mult ≠ .error Stop.fuel := by
  obtain ⟨i1, i2, _⟩ := exp_init_ni (p := p) (r := r) hQ hM
  unfold mpfr_exp_rational
  refine ⟨?_, ?_⟩
  · refine ni_bind _ _ i1 (fun s hs => ?_)
    obtain ⟨m1, _, m3⟩ := exp_loops_ni y.prec hQ hM s hs
    refine ni_bind _ _ m1 (fun t ht => ?_)
    obtain ⟨_, _, _, a1, _, a3⟩ := m3 t ht
    refine ni_bind _ _ a1 (fun T hT => ?_)
    exact (exp_finish_ni W G y s.2 m T t.2 (by rw [a3 T hT]; omega)).1
  · refine nf_bind _ _ i2 (fun s hs => ?_)
    obtain ⟨_, m2, m3⟩ := exp_loops_ni y.prec hQ hM s hs
    refine nf_bind _ _ m2 (fun t ht => ?_)
    obtain ⟨_, _, _, _, a2, a3⟩ := m3 t ht
    refine nf_bind _ _ a2 (fun T hT => ?_)
    exact (exp_finish_ni W G y s.2 m T t.2 (by rw [a3 T hT]; omega)).2

/-- The tables that a call leaves have the lengths of the tables it was given. -/
theorem exp_rational_tables_ni (precy : Nat) (p r : Int) (m : Nat) (Q : List Int)
    (mult : List Nat) (hQ : 2 * (m + 1) + max m 1 ≤ Q.length)
    (hM : 2 * (m + 1) ≤ mult.length) :
    exp_rational_tables precy p r m Q mult ≠ .error Stop.index
      ∧ ∀ T, exp_rational_tables precy p r m Q mult = .ok T →
          T.1.length = Q.length ∧ T.2.length = mult.length := by
  obtain ⟨i1, _, _⟩ := exp_init_ni (p := p) (r := r) hQ hM
  unfold exp_rational_tables
  refine ⟨?_, ?_⟩
  · refine ni_bind _ _ i1 (fun s hs => ?_)
    obtain ⟨m1, _, m3⟩ := exp_loops_ni precy hQ hM s hs
    refine ni_bind _ _ m1 (fun t ht => ?_)
    obtain ⟨_, _, _, a1, _, a3⟩ := m3 t ht
    refine ni_bind _ _ a1 (fun T hT => ?_)
    have lT := a3 T hT
    refine zget_step (m + 1) (by push_cast; rfl) (by omega) (fun S0 => ?_)
    refine free_step (shift_ni _ _ _ _) (fun S1 => ?_)
    refine zset_step (m + 1) (by push_cast; rfl) (by omega) (fun T1 l1 => ?_)
    refine zget_step 0 (by rfl) (by omega) (fun Q0 => ?_)
    refine free_step (shift_ni _ _ _ _) (fun Q1 => ?_)
    refine zset_step 0 (by rfl) (by omega) (fun T2 l2 => ?_)
    split_ifs
    · intro h
      cases h
    · refine zset_step (m + 1) (by push_cast; rfl) (by omega) (fun T3 l3 => ?_)
      exact ni_pure _
  · intro T h
    simp only [sbind_ok] at h
    obtain ⟨s, hs, t, ht, T0, hT0, S0, _, S1, _, T1, e1, Q0, _, Q1, _, T2, e2, h⟩ := h
    obtain ⟨_, _, m3⟩ := exp_loops_ni precy hQ hM s hs
    obtain ⟨_, _, b1, _, _, a3⟩ := m3 t ht
    have lT := a3 T0 hT0
    have l1 := zset_len e1
    have l2 := zset_len e2
    split_ifs at h
    simp only [sbind_ok] at h
    obtain ⟨T3, e3, h⟩ := h
    have l3 := zset_len e3
    have hh := (spure_ok _ _).1 h
    subst hh
    exact ⟨by show T3.length = Q.length; omega, b1⟩

/-- The later calls of `mpfr_exp_rational` in a pass of `mpfr_exp_3` stay inside the tables
of that pass. -/
theorem exp3_chunks_ni (W : Nat) (X : Exp3Callees) (x_copy : mpfr_struct) (ttt k : Int) :
    ∀ (n i : Nat) (s : Exp3St), 1 ≤ i → 3 * ((k + 1).toNat + 1) ≤ s.P.length →
      2 * ((k + 1).toNat + 1) ≤ s.mult.length →
      exp3_chunks W X x_copy ttt k n i s ≠ .error Stop.index := by
  intro n
  induction n with
  | zero =>
    intro i s _ _ _
    unfold exp3_chunks
    intro h
    cases h
  | succ n ih =>
    intro i s hi hP hM
    unfold exp3_chunks
    have hlen : ¬ k - (i : Int) + 1 < 0 →
        2 * ((k - (i : Int) + 1).toNat + 1) + max (k - (i : Int) + 1).toNat 1 ≤ s.P.length
          ∧ 2 * ((k - (i : Int) + 1).toNat + 1) ≤ s.mult.length := by
      intro h
      have e1 : (k + 1).toNat = (k - (i : Int) + 1).toNat + i := by omega
      omega
    refine ni_bind _ _ ?_ (fun s1 e1 => ?_)
    · split_ifs with h1 h2
      · intro h
        cases h
      · obtain ⟨a1, a2⟩ := hlen h2
        refine ni_bind _ _ (exp_rational_ni W s.G s.t _ _ _ s.P s.mult a1 a2).1 (fun r _ => ?_)
        refine ni_bind _ _ (exp_rational_tables_ni s.t.prec _ _ _ s.P s.mult a1 a2).1
          (fun T _ => ?_)
        exact ni_pure _
      · exact ni_pure _
    · have hl : s1.P.length = s.P.length ∧ s1.mult.length = s.mult.length := by
        split_ifs at e1 with h1 h2
        · obtain ⟨a1, a2⟩ := hlen h2
          simp only [sbind_ok] at e1
          obtain ⟨r, _, T, hT, h⟩ := e1
          have hh := (spure_ok _ _).1 h
          subst hh
          exact (exp_rational_tables_ni s.t.prec _ _ _ s.P s.mult a1 a2).2 T hT
        · have hh := (spure_ok _ _).1 e1
          subst hh
          exact ⟨rfl, rfl⟩
      split_ifs
      · exact ih (i + 1) _ (by omega) (by show 3 * _ ≤ s1.P.length; omega)
          (by show 2 * _ ≤ s1.mult.length; omega)
      · intro h
        cases h

/-- The series evaluation of a pass of `mpfr_exp_3` stays inside the tables that the pass
allocates. -/
theorem exp3_series_ni (W : Nat) (X : Exp3Callees) (halloc : ∀ n, (X.allocate n).length = n)
    (x_copy : mpfr_struct) (ttt prec_x : Int) (G : Globals) (t tmp : mpfr_struct) (Prec : Nat) :
    exp3_series W X x_copy ttt prec_x G t tmp Prec ≠ .error Stop.index := by
  unfold exp3_series
  simp only []
  generalize hk : (X.MPFR_INT_CEIL_LOG2 Prec : Int) - X.MPFR_LOG2_BITS_PER_MP_LIMB = k
  by_cases h1 : k + 2 < 0
  · rw [if_pos h1]
    intro h
    cases h
  · rw [if_neg h1]
    by_cases h2 : X.mpfr_extract x_copy 0 = 0
    · rw [if_pos h2]
      intro h
      cases h
    · rw [if_neg h2]
      by_cases h3 : k + 1 < 0
      · rw [if_pos h3]
        intro h
        cases h
      · rw [if_neg h3]
        have e1 : (k + 2).toNat = (k + 1).toNat + 1 := by omega
        have a1 : 2 * ((k + 1).toNat + 1) + max (k + 1).toNat 1
            ≤ (List.replicate (3 * (k + 2).toNat) (0 : Int)).length := by
          rw [List.length_replicate]
          omega
        have a2 : 2 * ((k + 1).toNat + 1) ≤ (X.allocate (2 * (k + 2).toNat)).length := by
          rw [halloc]
          omega
        refine ni_bind _ _ (exp_rational_ni W G tmp _ _ _ _ _ a1 a2).1 (fun r _ => ?_)
        refine ni_bind _ _ (exp_rational_tables_ni tmp.prec _ _ _ _ _ a1 a2).1
          (fun T hT => ?_)
        obtain ⟨l1, l2⟩ := (exp_rational_tables_ni tmp.prec _ _ _ _ _ a1 a2).2 T hT
        refine exp3_chunks_ni W X x_copy ttt k _ 1 _ (le_refl 1) ?_ ?_
        · show 3 * _ ≤ T.1.length
          rw [l1, List.length_replicate]
          omega
        · show 2 * _ ≤ T.2.length
          rw [l2, halloc]
          omega

theorem exp3_loop_ni (W : Nat) (X : Exp3Callees) (Z : ZivCallees)
    (halloc : ∀ n, (X.allocate n).length = n) (y x_copy : mpfr_struct)
    (ttt shift_x prec_x : Int) (rnd_mode : mp_rnd_t) :
    ∀ (fuel : Nat) (G : Globals) (t tmp : mpfr_struct) (realprec Prec ziv_loop : Nat),
      exp3_loop W X Z y x_copy ttt shift_x prec_x rnd_mode fuel G t tmp realprec Prec ziv_loop
        ≠ .error Stop.index := by
  intro fuel
  induction fuel with
  | zero =>
    intro G t tmp realprec Prec ziv_loop
    unfold exp3_loop
    intro h
    cases h
  | succ fuel ih =>
    intro G t tmp realprec Prec ziv_loop
    unfold exp3_loop
    rw [exp3_pass_eq]
    refine ni_bind _ _ ?_ (fun r _ => ?_)
    · exact ni_bind _ _ (exp3_series_ni W X halloc _ _ _ _ _ _ _) (fun c _ => (by
        intro h
        cases h))
    · split_ifs
      all_goals first
        | exact ni_pure _
        | exact ih _ _ _ _ _ _

/-- C37: every call of `mpfr_exp_rational` stays inside tables of `3 * (m + 1)` integers
and `2 * (m + 1)` counters, and never uses an entry of `ptoj` from index `m` on: tables of
`2 * (m + 1) + m` integers (one at least after `2 * (m + 1)`) are enough, and the call ends
within the fuel of its loops; at the end of its main loop `0 <= k <= m`.  When the allocator
returns blocks of the size asked for, a run of `mpfr_exp_3`, which gives `3 * (k + 2)`
integers and `2 * (k + 2)` counters to calls with `m <= k + 1`, never reads or writes
outside a table. -/
theorem C37_tables_in_bounds (W : Nat) (X : Exp3Callees) (Z : ZivCallees)
    (halloc : ∀ n, (X.allocate n).length = n) :
    (∀ (fuel : Nat) (G : Globals) (y x : mpfr_struct) (rnd_mode : mp_rnd_t),
        mpfr_exp_3 W X Z fuel G y x rnd_mode ≠ .error Stop.index)
      ∧ ∀ (G : Globals) (y : mpfr_struct) (p r : Int) (m : Nat) (Q : List Int)
          (mult : List Nat), 2 * (m + 1) + max m 1 ≤ Q.length → 2 * (m + 1) ≤ mult.length →
          mpfr_exp_rational W G y p r m Q mult ≠ .error Stop.index
            ∧ mpfr_exp_rational W G y p r m Q mult ≠ .error Stop.fuel
            ∧ ∀ s t, exp_init p r m Q mult = .ok s →
                exp_main y.prec m s.2 (2 ^ m) s.1 1 = .ok t → 0 ≤ t.1.k ∧ t.1.k ≤ m := by
  refine ⟨?_, ?_⟩
  · intro fuel G y x rnd_mode
    unfold mpfr_exp_3
    simp only []
    refine ni_bind _ _ ?_ (fun d _ => ?_)
    · unfold exp3_decompose
      simp only []
      split_ifs <;> intro h <;> cases h
    · exact exp3_loop_ni W X Z halloc _ _ _ _ _ _ _ _ _ _ _ _ _
  · intro G y p r m Q mult hQ hM
    obtain ⟨a1, a2⟩ := exp_rational_ni W G y p r m Q mult hQ hM
    refine ⟨a1, a2, fun s t hs ht => ?_⟩
    obtain ⟨_, _, m3⟩ := exp_loops_ni y.prec hQ hM s hs
    obtain ⟨b1, b2, _⟩ := m3 t ht
    exact ⟨b1, b2⟩

set_option maxRecDepth 100000

/-- The callees `c27_X` allocate blocks of the size asked for: the run of `mpfr_exp_3` on
`x = 2` stays inside its tables and returns, and so does the call of `mpfr_exp_rational`
with `p = 12`, `r = 4`, `m = 3` on tables of 12 integers and 8 counters. -/
theorem C37_tables_in_bounds_witness :
    (∀ n, (c27_X.allocate n).length = n)
      ∧ mpfr_exp_3 64 c27_X c27_Z 1 c27_G c27_y c27_x GMP_RNDN ≠ .error Stop.index
      ∧ mpfr_exp_3 64 c27_X c27_Z 1 c27_G c27_y c27_x GMP_RNDN = .ok c38_out
      ∧ c23_Q.length = 12 ∧ c23_mult.length = 8
      ∧ mpfr_exp_rational 64 c12_G c12_y4 12 4 3 c23_Q c23_mult ≠ .error Stop.index :=
  ⟨fun n => List.length_replicate n 0,
    (C37_tables_in_bounds 64 c27_X c27_Z (fun n => List.length_replicate n 0)).1 1 c27_G c27_y
      c27_x GMP_RNDN,
    rfl, rfl, rfl,
    ((C37_tables_in_bounds 64 c27_X c27_Z (fun n => List.length_replicate n 0)).2 c12_G c12_y4
      12 4 3 c23_Q c23_mult (by decide) (by decide)).1⟩

set_option maxRecDepth 512

/-! ## No limb access outside the buffers in `mpfr_add1` -/

theorem fi_bind {α β : Type} (x : Except Fault α) (f : α → Except Fault β)
    (hx : x ≠ .error Fault.index) (hf : ∀ a, x = .ok a → f a ≠ .error Fault.index) :
    (x >>= f) ≠ .error Fault.index := by
  cases x with
  | error e =>
    intro h
    have e0 : (Except.error e >>= f) = Except.error e := rfl
    rw [e0] at h
    cases h
    exact hx rfl
  | ok a => exact hf a rfl

theorem fi_pure {α : Type} (a : α) : (pure a : Except Fault α) ≠ .error Fault.index := by
  intro h
  cases h

theorem fi_ok {α : Type} (a : α) : (.ok a : Except Fault α) ≠ .error Fault.index := by
  intro h
  cases h

theorem fi_ite {α : Type} {c : Prop} [Decidable c] {x y : Except Fault α}
    (hx : c → x ≠ .error Fault.index) (hy : ¬ c → y ≠ .error Fault.index) :
    (if c then x else y) ≠ .error Fault.index := by
  split
  · exact hx ‹_›
  · exact hy ‹_›

theorem rd_fi {p : List Nat} {i : Int} (h1 : 0 ≤ i) (h2 : i < p.length) :
    rd p i ≠ .error Fault.index := by
  obtain ⟨x, hx, _⟩ := rd_ok_of_lt (p := p) h1 (by omega)
  rw [hx]
  exact fi_ok _

theorem wr_fi {p : List Nat} {i : Int} (v : Nat) (h1 : 0 ≤ i) (h2 : i < p.length) :
    wr p i v ≠ .error Fault.index := by
  rw [wr_ok v h1 (by omega)]
  exact fi_ok _

theorem seg_fi {p : List Nat} {off n : Int} (h1 : 0 ≤ off) (h2 : 0 ≤ n)
    (h3 : off + n ≤ p.length) : seg p off n ≠ .error Fault.index := by
  rw [seg_ok h1 h2 (by omega)]
  exact fi_ok _

theorem put_fi {p s : List Nat} {off : Int} (h1 : 0 ≤ off) (h2 : off + s.length ≤ p.length) :
    put p off s ≠ .error Fault.index := by
  rw [put_ok h1 (by omega)]
  exact fi_ok _

theorem shl_fi (W x : Nat) (n : Int) : shl W x n ≠ .error Fault.index := by
  unfold shl
  split <;> intro h <;> cases h

theorem shr_fi (W x : Nat) (n : Int) : shr W x n ≠ .error Fault.index := by
  unfold shr
  split <;> intro h <;> cases h

theorem mpn_add_1_fi {W : Nat} {p : List Nat} {off n : Int} (x : Nat) (h1 : 0 ≤ off)
    (h2 : 0 ≤ n) (h3 : off + n ≤ p.length) :
    mpn_add_1 W p off n x ≠ .error Fault.index := by
  unfold mpn_add_1
  refine fi_bind _ _ (seg_fi h1 h2 h3) (fun s hs => ?_)
  have ls := seg_length hs
  refine fi_bind _ _ (put_fi h1 (by rw [length_toLimbs]; omega)) (fun q _ => fi_pure _)

theorem mpn_add_1_len {W : Nat} {p : List Nat} {off n : Int} {x : Nat} {r : List Nat × Nat}
    (h : mpn_add_1 W p off n x = .ok r) : r.1.length = p.length := by
  obtain ⟨s, _, hp, _⟩ := mpn_add_1_eq_ok h
  exact put_length hp

theorem mpn_add_n_fi {W : Nat} {p q : List Nat} {off qoff n : Int} (h1 : 0 ≤ off)
    (h2 : 0 ≤ qoff) (h3 : 0 ≤ n) (h4 : off + n ≤ p.length) (h5 : qoff + n ≤ q.length) :
    mpn_add_n W p off q qoff n ≠ .error Fault.index := by
  unfold mpn_add_n
  refine fi_bind _ _ (seg_fi h1 h3 h4) (fun s hs => ?_)
  have ls := seg_length hs
  refine fi_bind _ _ (seg_fi h2 h3 h5) (fun t _ => ?_)
  refine fi_bind _ _ (put_fi h1 (by rw [length_toLimbs]; omega)) (fun q _ => fi_pure _)

theorem mpn_add_n_len {W : Nat} {p q : List Nat} {off qoff n : Int} {r : List Nat × Nat}
    (h : mpn_add_n W p off q qoff n = .ok r) : r.1.length = p.length := by
  obtain ⟨s, t, _, _, hp, _⟩ := mpn_add_n_eq_ok h
  exact put_length hp

theorem mpn_rshift_fi {W : Nat} {p q : List Nat} {off qoff n : Int} (cnt : Int)
    (h1 : 0 ≤ off) (h2 : 0 ≤ qoff) (h3 : 0 ≤ n) (h4 : off + n ≤ p.length)
    (h5 : qoff + n ≤ q.length) : mpn_rshift W p off q qoff n cnt ≠ .error Fault.index := by
  unfold mpn_rshift
  refine fi_bind _ _ (seg_fi h2 h3 h5) (fun t ht => ?_)
  have lt := seg_length ht
  split
  · refine fi_bind _ _ (put_fi h1 (by rw [length_toLimbs]; omega)) (fun q _ => fi_pure _)
  · intro h
    cases h

theorem mpn_rshift_len {W : Nat} {p q : List Nat} {off qoff n cnt : Int} {r : List Nat × Nat}
    (h : mpn_rshift W p off q qoff n cnt = .ok r) : r.1.length = p.length := by
  obtain ⟨t, _, _, _, hp, _⟩ := mpn_rshift_eq_ok h
  exact put_length hp

theorem mpn_lshift_fi {W : Nat} {p q : List Nat} {off qoff n : Int} (cnt : Int)
    (h1 : 0 ≤ off) (h2 : 0 ≤ qoff) (h3 : 0 ≤ n) (h4 : off + n ≤ p.length)
    (h5 : qoff + n ≤ q.length) : mpn_lshift W p off q qoff n cnt ≠ .error Fault.index := by
  unfold mpn_lshift
  refine fi_bind _ _ (seg_fi h2 h3 h5) (fun t ht => ?_)
  have lt := seg_length ht
  split
  · refine fi_bind _ _ (put_fi h1 (by rw [length_toLimbs]; omega)) (fun q _ => fi_pure _)
  · intro h
    cases h

theorem mpn_lshift_len {W : Nat} {p q : List Nat} {off qoff n cnt : Int} {r : List Nat × Nat}
    (h : mpn_lshift W p off q qoff n cnt = .ok r) : r.1.length = p.length := by
  obtain ⟨t, _, _, _, hp, _⟩ := mpn_lshift_eq_ok h
  exact put_length hp

theorem MPN_COPY_fi {p q : List Nat} {off qoff n : Int} (h1 : 0 ≤ off) (h2 : 0 ≤ qoff)
    (h3 : 0 ≤ n) (h4 : off + n ≤ p.length) (h5 : qoff + n ≤ q.length) :
    MPN_COPY p off q qoff n ≠ .error Fault.index := by
  unfold MPN_COPY
  refine fi_bind _ _ (seg_fi h2 h3 h5) (fun t ht => ?_)
  have lt := seg_length ht
  exact put_fi h1 (by omega)

theorem MPN_COPY_len {p q r : List Nat} {off qoff n : Int}
    (h : MPN_COPY p off q qoff n = .ok r) : r.length = p.length := by
  obtain ⟨t, _, hp⟩ := MPN_COPY_eq_ok h
  exact put_length hp

theorem MPN_ZERO_fi {p : List Nat} {off n : Int} (h1 : 0 ≤ off) (h2 : 0 ≤ n)
    (h3 : off + n ≤ p.length) : MPN_ZERO p off n ≠ .error Fault.index := by
  unfold MPN_ZERO
  rw [if_pos h2]
  exact put_fi h1 (by rw [List.length_replicate]; omega)

theorem MPN_ZERO_len {p r : List Nat} {off n : Int} (h : MPN_ZERO p off n = .ok r) :
    r.length = p.length :=
  put_length (MPN_ZERO_eq_ok h).2

/-! ### The blocks at the labels -/

theorem take_low_fi (W : Nat) (sh : Int) (ap : List Nat) (h : 1 ≤ ap.length) :
    take_low W sh ap ≠ .error Fault.index
      ∧ ∀ r, take_low W sh ap = .ok r → r.1.length = ap.length := by
  unfold take_low
  refine ⟨?_, ?_⟩
  · refine fi_bind _ _ (rd_fi (le_refl 0) (by omega)) (fun a0 _ => ?_)
    refine fi_bind _ _ (shl_fi _ _ _) (fun m _ => ?_)
    refine fi_bind _ _ (wr_fi _ (le_refl 0) (by omega)) (fun q _ => fi_pure _)
  · intro r hr
    simp only [bind_ok, pure, Except.pure, Except.ok.injEq] at hr
    obtain ⟨a0, _, m, _, q, hq, e⟩ := hr
    subst e
    exact wr_length hq

theorem loopdown_fi (bp : List Nat) : ∀ (n : Nat) (k : Int) (x : Nat), 0 ≤ k → k ≤ bp.length →
    loopdown bp n k x ≠ .error Fault.index := by
  intro n
  induction n with
  | zero =>
    intro k x _ _
    unfold loopdown
    intro h
    cases h
  | succ n ih =>
    intro k x h1 h2
    unfold loopdown
    refine fi_ite (fun hc => ?_) (fun _ => fi_ok _)
    refine fi_bind _ _ (rd_fi (by omega) (by omega)) (fun y _ => ?_)
    exact ih _ _ (by omega) (by omega)

theorem loop121_fi (cp : List Nat) (top : Int) (ht : top < cp.length) :
    ∀ (n : Nat) (i : Int) (cc : Nat), 0 ≤ i →
      loop121 cp top n i cc ≠ .error Fault.index := by
  intro n
  induction n with
  | zero =>
    intro i cc _
    unfold loop121
    intro h
    cases h
  | succ n ih =>
    intro i cc h1
    unfold loop121
    refine fi_ite (fun hc => ?_) (fun _ => fi_ok _)
    refine fi_bind _ _ (rd_fi (by omega) (by omega)) (fun y _ => ?_)
    exact ih _ _ (by omega)

theorem loop164_fi (W : Nat) (bp cp : List Nat) (sh : Int) :
    ∀ (n : Nat) (s : S164), 0 ≤ s.k → s.k ≤ bp.length → 0 ≤ s.cn → s.cn ≤ cp.length →
      loop164 W bp cp sh n s ≠ .error Fault.index := by
  intro n
  induction n with
  | zero =>
    intro s _ _ _ _
    unfold loop164
    intro h
    cases h
  | succ n ih =>
    intro s h1 h2 h3 h4
    unfold loop164
    refine fi_ite (fun hc => ?_) (fun _ => fi_ok _)
    refine fi_bind _ _ (fi_ite (fun hk => rd_fi (by omega) (by omega)) (fun _ => fi_pure _))
      (fun cc _ => ?_)
    refine fi_bind _ _ (fi_ite (fun _ => fi_bind _ _ (shl_fi _ _ _) (fun _ _ => fi_pure _))
      (fun _ => fi_pure _)) (fun t _ => ?_)
    refine fi_bind _ _ (shl_fi _ _ _) (fun c2 _ => ?_)
    refine fi_bind _ _ (fi_ite (fun hcn => fi_bind _ _ (rd_fi (by omega) (by omega))
      (fun _ _ => fi_bind _ _ (shr_fi _ _ _) (fun _ _ => fi_pure _)))
      (fun _ => fi_pure _)) (fun u hu => ?_)
    have hu2 : 0 ≤ u.2.1 ∧ u.2.1 ≤ cp.length := by
      split at hu
      · simp only [bind_ok, pure, Except.pure, Except.ok.injEq] at hu
        obtain ⟨c2old, _, t2, _, e⟩ := hu
        subst e
        constructor
        · show 0 ≤ s.cn - 1
          omega
        · show s.cn - 1 ≤ cp.length
          omega
      · simp only [pure, Except.pure, Except.ok.injEq] at hu
        subst hu
        exact ⟨h3, h4⟩
    refine ih _ ?_ ?_ hu2.1 hu2.2
    · show 0 ≤ (if s.k ≠ 0 then s.k - 1 else s.k)
      split <;> omega
    · show (if s.k ≠ 0 then s.k - 1 else s.k) ≤ bp.length
      split <;> omega

theorem loop296_fi (W : Nat) (bp cp : List Nat) (dif : Int) :
    ∀ (n : Nat) (s : S296), 0 ≤ s.k → s.k ≤ bp.length → 0 ≤ s.kc → s.kc < cp.length →
      loop296 W bp cp dif n s ≠ .error Fault.index
        ∧ ∀ r, loop296 W bp cp dif n s = .ok r →
            0 ≤ r.k ∧ r.k ≤ bp.length ∧ 0 ≤ r.kc ∧ r.kc < cp.length
              ∧ ¬ ((r.cout = 0 ∨ r.cout = 2 ^ W - 1) ∧ r.k ≠ 0 ∧ r.kc ≠ 0) := by
  intro n
  induction n with
  | zero =>
    intro s _ _ _ _
    unfold loop296
    exact ⟨fun h => (by cases h), fun r h => (by cases h)⟩
  | succ n ih =>
    intro s h1 h2 h3 h4
    unfold loop296
    by_cases hc : (s.cout = 0 ∨ s.cout = 2 ^ W - 1) ∧ s.k ≠ 0 ∧ s.kc ≠ 0
    · rw [if_pos hc]
      refine ⟨?_, ?_⟩
      · refine fi_bind _ _ (rd_fi (by omega) (by omega)) (fun x _ => ?_)
        refine fi_bind _ _ (rd_fi (by omega) (by omega)) (fun hi _ => ?_)
        refine fi_bind _ _ (shl_fi _ _ _) (fun hi2 _ => ?_)
        refine fi_bind _ _ (rd_fi (by omega) (by omega)) (fun lo _ => ?_)
        refine fi_bind _ _ (shr_fi _ _ _) (fun lo2 _ => ?_)
        exact (ih _ (show 0 ≤ s.k - 1 by omega) (show s.k - 1 ≤ bp.length by omega)
          (show 0 ≤ s.kc - 1 by omega) (show s.kc - 1 < cp.length by omega)).1
      · intro r hr
        simp only [bind_ok] at hr
        obtain ⟨x, _, hi, _, hi2, _, lo, _, lo2, _, hr⟩ := hr
        exact (ih _ (show 0 ≤ s.k - 1 by omega) (show s.k - 1 ≤ bp.length by omega)
          (show 0 ≤ s.kc - 1 by omega) (show s.kc - 1 < cp.length by omega)).2 r hr
    · rw [if_neg hc]
      refine ⟨fi_ok _, fun r hr => ?_⟩
      simp only [Except.ok.injEq] at hr
      subst hr
      exact ⟨h1, h2, h3, h4, hc⟩

theorem add_one_ulp_fi (W : Nat) (sh an : Int) (ap : List Nat) (h1 : 1 ≤ an)
    (h2 : an ≤ ap.length) : add_one_ulp W sh an ap ≠ .error Fault.index := by
  unfold add_one_ulp
  refine fi_bind _ _ (shl_fi _ _ _) (fun m _ => ?_)
  refine fi_bind _ _ (mpn_add_1_fi _ (le_refl 0) (by omega) (by omega)) (fun r hr => ?_)
  have lr := mpn_add_1_len hr
  split
  · refine fi_bind _ _ (shl_fi _ _ _) (fun h _ => ?_)
    refine fi_bind _ _ (wr_fi _ (by omega) (by omega)) (fun q _ => fi_pure _)
  · exact fi_pure _

theorem to_nearest_fi (W : Nat) (sh : Int) (c3 : Nat) (ap bp : List Nat) (bn k dif : Int)
    (rnd_mode : mp_rnd_t) (ha : 1 ≤ ap.length) (hk1 : 0 ≤ k) (hk2 : k ≤ bp.length)
    (hbn : bn ≤ bp.length) :
    to_nearest W sh c3 ap bp bn k dif rnd_mode ≠ .error Fault.index
      ∧ ∀ r, to_nearest W sh c3 ap bp bn k dif rnd_mode = .ok r → r.1.length = ap.length := by
  have hf : to_nearest_fetch W sh c3 ap bp k rnd_mode ≠ .error Fault.index
      ∧ ∀ t, to_nearest_fetch W sh c3 ap bp k rnd_mode = .ok t →
          t.1.length = ap.length ∧ 0 ≤ t.2.2.2 ∧ t.2.2.2 ≤ bp.length := by
    unfold to_nearest_fetch
    by_cases hs : sh ≠ 0
    · rw [if_pos hs]
      refine ⟨?_, ?_⟩
      · refine fi_bind _ _ (take_low_fi W sh ap ha).1 (fun t _ => ?_)
        refine fi_bind _ _ (fi_ite (fun _ => shl_fi _ _ _) (fun _ => fi_pure _))
          (fun _ _ => fi_pure _)
      · intro t ht
        simp only [bind_ok, pure, Except.pure, Except.ok.injEq] at ht
        obtain ⟨u, hu, c2, _, e⟩ := ht
        subst e
        exact ⟨(take_low_fi W sh ap ha).2 u hu, hk1, hk2⟩
    · rw [if_neg hs]
      refine ⟨?_, ?_⟩
      · refine fi_bind _ _ (fi_ite (fun _ => rd_fi (by omega) (by omega)) (fun _ => fi_pure _))
          (fun cc _ => ?_)
        refine fi_bind _ _ (fi_ite (fun _ => shl_fi _ _ _) (fun _ => fi_pure _))
          (fun _ _ => fi_pure _)
      · intro t ht
        simp only [bind_ok, pure, Except.pure, Except.ok.injEq] at ht
        obtain ⟨cc, _, c2, _, e⟩ := ht
        subst e
        refine ⟨rfl, ?_, ?_⟩
        · show 0 ≤ (if k ≠ 0 then k - 1 else k)
          split <;> omega
        · show (if k ≠ 0 then k - 1 else k) ≤ bp.length
          split <;> omega
  have hg : ∀ (cc c2 : Nat) (q : List Nat) (k' : Int), 1 ≤ q.length → 0 ≤ k' →
      k' ≤ bp.length →
      to_nearest_goto W sh cc c2 q bp bn k' dif rnd_mode ≠ .error Fault.index := by
    intro cc c2 q k' hq h1 h2
    unfold to_nearest_goto
    refine fi_ite (fun _ => fi_pure _) (fun _ => ?_)
    refine fi_ite (fun _ => ?_) (fun _ => fi_pure _)
    refine fi_bind _ _ (fi_ite (fun hc => fi_bind _ _ (rd_fi (by omega) (by omega))
      (fun _ _ => shl_fi _ _ _)) (fun _ => fi_pure _)) (fun cc' _ => ?_)
    refine fi_bind _ _ (loopdown_fi bp _ _ _ h1 h2) (fun r _ => ?_)
    refine fi_ite (fun _ => fi_pure _) (fun _ => ?_)
    refine fi_ite (fun _ => ?_) (fun _ => fi_pure _)
    refine fi_bind _ _ (rd_fi (le_refl 0) (by omega)) (fun a0 _ => ?_)
    refine fi_bind _ _ (shl_fi _ _ _) (fun m _ => ?_)
    split <;> exact fi_pure _
  unfold to_nearest
  refine ⟨?_, ?_⟩
  · refine fi_bind _ _ hf.1 (fun t ht => ?_)
    obtain ⟨l1, l2, l3⟩ := hf.2 t ht
    refine fi_bind _ _ (hg _ _ _ _ (by omega) l2 l3) (fun _ _ => fi_pure _)
  · intro r hr
    simp only [bind_ok, pure, Except.pure, Except.ok.injEq] at hr
    obtain ⟨t, ht, g, _, e⟩ := hr
    subst e
    exact (hf.2 t ht).1

theorem safe_bind {α β : Type} {x : Except Fault α} {f : α → Except Fault β} {P : α → Prop}
    {Q : β → Prop} (hx : Safe x P) (hf : ∀ a, P a → Safe (f a) Q) : Safe (x >>= f) Q := by
  refine ⟨fi_bind _ _ hx.1 (fun a ha => (hf a (hx.2 a ha)).1), fun r hr => ?_⟩
  obtain ⟨a, ha, h⟩ := (bind_ok _ _ _).1 hr
  exact (hf a (hx.2 a ha)).2 r h

theorem safe_pure {α : Type} {a : α} {Q : α → Prop} (h : Q a) :
    Safe (pure a : Except Fault α) Q := by
  refine ⟨fi_pure _, fun r hr => ?_⟩
  simp only [pure, Except.pure, Except.ok.injEq] at hr
  rw [← hr]
  exact h

theorem safe_ite {α : Type} {c : Prop} [Decidable c] {x y : Except Fault α} {Q : α → Prop}
    (hx : c → Safe x Q) (hy : ¬ c → Safe y Q) : Safe (if c then x else y) Q := by
  split
  · exact hx ‹_›
  · exact hy ‹_›

theorem safe_mono {α : Type} {x : Except Fault α} {P Q : α → Prop} (hx : Safe x P)
    (h : ∀ r, P r → Q r) : Safe x Q :=
  ⟨hx.1, fun r hr => h r (hx.2 r hr)⟩

theorem safe_of {α : Type} {x : Except Fault α} {P : α → Prop} (h1 : x ≠ .error Fault.index)
    (h2 : ∀ r, x = .ok r → P r) : Safe x P := ⟨h1, h2⟩

theorem safe_any {α : Type} {x : Except Fault α} (h1 : x ≠ .error Fault.index) :
    Safe x (fun _ => True) := ⟨h1, fun _ _ => trivial⟩

theorem rd_safe {p : List Nat} {i : Int} (h1 : 0 ≤ i) (h2 : i < p.length) :
    Safe (rd p i) (fun _ => True) := safe_any (rd_fi h1 h2)

theorem shl_safe (W x : Nat) (n : Int) : Safe (shl W x n) (fun _ => True) :=
  safe_any (shl_fi W x n)

theorem shr_safe (W x : Nat) (n : Int) : Safe (shr W x n) (fun _ => True) :=
  safe_any (shr_fi W x n)

theorem wr_safe {p : List Nat} {i : Int} (v : Nat) (h1 : 0 ≤ i) (h2 : i < p.length) :
    Safe (wr p i v) (fun q => q.length = p.length) :=
  ⟨wr_fi v h1 h2, fun _ hr => wr_length hr⟩

theorem MPN_COPY_safe {p q : List Nat} {off qoff n : Int} (h1 : 0 ≤ off) (h2 : 0 ≤ qoff)
    (h3 : 0 ≤ n) (h4 : off + n ≤ p.length) (h5 : qoff + n ≤ q.length) :
    Safe (MPN_COPY p off q qoff n) (fun r => r.length = p.length) :=
  ⟨MPN_COPY_fi h1 h2 h3 h4 h5, fun _ hr => MPN_COPY_len hr⟩

theorem MPN_ZERO_safe {p : List Nat} {off n : Int} (h1 : 0 ≤ off) (h2 : 0 ≤ n)
    (h3 : off + n ≤ p.length) : Safe (MPN_ZERO p off n) (fun r => r.length = p.length) :=
  ⟨MPN_ZERO_fi h1 h2 h3, fun _ hr => MPN_ZERO_len hr⟩

theorem mpn_rshift_safe {W : Nat} {p q : List Nat} {off qoff n : Int} (cnt : Int)
    (h1 : 0 ≤ off) (h2 : 0 ≤ qoff) (h3 : 0 ≤ n) (h4 : off + n ≤ p.length)
    (h5 : qoff + n ≤ q.length) :
    Safe (mpn_rshift W p off q qoff n cnt) (fun r => r.1.length = p.length) :=
  ⟨mpn_rshift_fi cnt h1 h2 h3 h4 h5, fun _ hr => mpn_rshift_len hr⟩

theorem mpn_lshift_safe {W : Nat} {p q : List Nat} {off qoff n : Int} (cnt : Int)
    (h1 : 0 ≤ off) (h2 : 0 ≤ qoff) (h3 : 0 ≤ n) (h4 : off + n ≤ p.length)
    (h5 : qoff + n ≤ q.length) :
    Safe (mpn_lshift W p off q qoff n cnt) (fun r => r.1.length = p.length) :=
  ⟨mpn_lshift_fi cnt h1 h2 h3 h4 h5, fun _ hr => mpn_lshift_len hr⟩

theorem mpn_add_n_safe {W : Nat} {p q : List Nat} {off qoff n : Int} (h1 : 0 ≤ off)
    (h2 : 0 ≤ qoff) (h3 : 0 ≤ n) (h4 : off + n ≤ p.length) (h5 : qoff + n ≤ q.length) :
    Safe (mpn_add_n W p off q qoff n) (fun r => r.1.length = p.length) :=
  ⟨mpn_add_n_fi h1 h2 h3 h4 h5, fun _ hr => mpn_add_n_len hr⟩

theorem take_low_safe (W : Nat) (sh : Int) (ap : List Nat) (h : 1 ≤ ap.length) :
    Safe (take_low W sh ap) (fun r => r.1.length = ap.length) := take_low_fi W sh ap h

theorem goto_plain {g : Goto} (h : g = Goto.add_one_ulp ∨ g = Goto.end_of_add) :
    GotoSafe g := by
  rcases h with h | h <;> rw [h] <;> trivial

/-! ### `diff_exp >= PREC(a)` -/

theorem far_copy_safe (W pa : Nat) (sh an bn : Int) (ap bp cp : List Nat) (pc : Nat)
    (nzc : List Nat → Except Fault Nat) (b : mpfr_t) (rnd_mode : mp_rnd_t) (diff_exp : Int)
    (han : 1 ≤ an) (hap : (ap.length : Int) = an) (hbn : 0 ≤ bn) (hba : bn ≤ an)
    (hbp : bn ≤ bp.length) (hcp : (((pc - 1) / W : Nat) : Int) < cp.length)
    (hz : ∀ q : List Nat, q.length = ap.length → nzc q ≠ .error Fault.index) :
    Safe (far_copy W pa sh an bn ap bp cp pc nzc b rnd_mode diff_exp)
      (fun r => r.1.length = ap.length ∧ GotoSafe r.2) := by
  unfold far_copy
  have hc0 : 0 < (cp.length : Int) := by
    have := Int.ofNat_nonneg ((pc - 1) / W)
    omega
  have hfill : Safe (far_copy_fill an bn ap bp) (fun q => q.length = ap.length) := by
    unfold far_copy_fill
    refine safe_bind (MPN_COPY_safe (by omega) (le_refl 0) hbn (by omega) (by omega))
      (fun q hq => ?_)
    exact safe_mono (MPN_ZERO_safe (le_refl 0) (by omega) (by omega)) (fun r hr => by omega)
  refine safe_bind hfill (fun q hq => ?_)
  have hgoto : Safe (far_copy_goto W pa sh an q cp pc nzc b rnd_mode diff_exp)
      (fun g => g = Goto.add_one_ulp ∨ g = Goto.end_of_add) := by
    unfold far_copy_goto
    refine safe_ite (fun _ => ?_) (fun _ => ?_)
    · refine safe_ite (fun _ => ?_) (fun _ => safe_pure (Or.inr rfl))
      refine safe_bind (safe_any (hz q hq)) (fun z _ => ?_)
      refine safe_ite (fun _ => ?_) (fun _ => safe_pure (Or.inr rfl))
      refine safe_bind (rd_safe (le_refl 0) (by omega)) (fun c0 _ => ?_)
      refine safe_bind (shl_safe _ _ _) (fun h _ => ?_)
      refine safe_bind (P := fun _ => True) (safe_ite
        (fun _ => safe_any (loop121_fi cp _ hcp _ _ _ (le_refl 0)))
        (fun _ => safe_pure trivial)) (fun cc _ => ?_)
      refine safe_ite (fun _ => safe_pure (Or.inl rfl)) (fun _ => ?_)
      refine safe_bind (rd_safe (by omega) (by omega)) (fun t _ => ?_)
      refine safe_bind (shl_safe _ _ _) (fun m _ => ?_)
      exact safe_ite (fun _ => safe_pure (Or.inl rfl)) (fun _ => safe_pure (Or.inr rfl))
    · refine safe_ite (fun _ => ?_) (fun _ => safe_pure (Or.inr rfl))
      refine safe_bind (safe_any (hz q hq)) (fun z _ => ?_)
      exact safe_ite (fun _ => safe_pure (Or.inl rfl)) (fun _ => safe_pure (Or.inr rfl))
  refine safe_bind hgoto (fun g hg => ?_)
  exact safe_pure ⟨hq, goto_plain hg⟩

theorem far_round_safe (W : Nat) (sh an bn cn dif : Int) (ap bp cp : List Nat)
    (b : mpfr_t) (rnd_mode : mp_rnd_t) (han : 1 ≤ an) (hap : (ap.length : Int) = an)
    (hab : an ≤ bn) (hbp : bn ≤ bp.length) (hcn : 1 ≤ cn) (hcp : cn ≤ cp.length) :
    Safe (far_round W sh an bn cn dif ap bp cp b rnd_mode)
      (fun r => r.1.length = ap.length ∧ GotoSafe r.2) := by
  unfold far_round
  refine safe_bind (MPN_COPY_safe (le_refl 0) (by omega) (by omega) (by omega) (by omega))
    (fun q hq => ?_)
  refine safe_bind (P := fun t => t.1.length = ap.length)
    (safe_ite (fun _ => safe_mono (take_low_safe W sh q (by omega)) (fun r hr => by omega))
      (fun _ => safe_pure hq)) (fun t ht => ?_)
  have hgoto : Safe (far_round_goto W sh (bn - an) cn dif t.2 t.1 bp cp b rnd_mode)
      (fun g => g = Goto.add_one_ulp ∨ g = Goto.end_of_add) := by
    unfold far_round_goto
    refine safe_bind (P := fun s1 : Int × Nat × Nat × Int => 0 ≤ s1.1 ∧ s1.1 ≤ cp.length)
      (safe_ite (fun _ => ?_)
      (fun _ => safe_pure (by constructor <;> omega))) (fun s1 hs1 => ?_)
    · refine safe_bind (rd_safe (by omega) (by omega)) (fun c2old _ => ?_)
      refine safe_bind (shr_safe _ _ _) (fun t2 _ => ?_)
      exact safe_pure (by constructor <;> (show _ ≤ _; omega))
    · refine safe_bind (P := fun _ => True) (safe_ite
        (fun _ => safe_bind (shl_safe _ _ _) (fun _ _ => safe_pure trivial))
        (fun _ => safe_pure trivial)) (fun s2 _ => ?_)
      refine safe_bind (P := fun _ : S164 => True) (safe_ite
        (fun _ => safe_any (loop164_fi W bp cp sh _ _ (show 0 ≤ bn - an by omega)
          (show bn - an ≤ bp.length by omega) hs1.1 hs1.2))
        (fun _ => safe_pure trivial)) (fun s _ => ?_)
      refine safe_ite (fun _ => safe_pure (Or.inl rfl)) (fun _ => ?_)
      refine safe_ite (fun _ => ?_) (fun _ => safe_pure (Or.inr rfl))
      refine safe_bind (rd_safe (le_refl 0) (by omega)) (fun a0 _ => ?_)
      refine safe_bind (shl_safe _ _ _) (fun m _ => ?_)
      exact safe_ite (fun _ => safe_pure (Or.inl rfl)) (fun _ => safe_pure (Or.inr rfl))
  refine safe_bind hgoto (fun g hg => ?_)
  exact safe_pure ⟨ht, goto_plain hg⟩

/-! ### `diff_exp < PREC(a)` -/

theorem near_shift_trunc_safe (W : Nat) (sh cn k dif : Int) (ap cp : List Nat)
    (hk0 : 0 ≤ k) (hkc : k ≤ cn) (hcp : cn ≤ cp.length) (hka : k ≤ ap.length)
    (hls : trunc_shift W sh dif < 0 → k < ap.length) :
    Safe (near_shift_trunc W sh cn k dif ap cp) (fun r => r.1.length = ap.length) := by
  unfold near_shift_trunc
  refine safe_ite (fun _ => ?_) (fun _ => ?_)
  · refine safe_bind (mpn_rshift_safe _ (le_refl 0) (by omega) hk0 (by omega) (by omega))
      (fun r hr => safe_pure hr)
  · refine safe_ite (fun hneg => ?_) (fun _ => ?_)
    · have hlt := hls hneg
      refine safe_bind (mpn_lshift_safe _ (le_refl 0) (by omega) hk0 (by omega) (by omega))
        (fun r hr => ?_)
      refine safe_bind (wr_safe _ hk0 (by omega)) (fun q hq => ?_)
      refine safe_ite (fun _ => ?_) (fun _ => safe_pure (by dsimp only; omega))
      refine safe_bind (rd_safe (by omega) (by omega)) (fun x _ => ?_)
      refine safe_bind (shr_safe _ _ _) (fun x2 _ => ?_)
      refine safe_bind (rd_safe (le_refl 0) (by omega)) (fun a0 _ => ?_)
      refine safe_bind (wr_safe _ (le_refl 0) (by omega)) (fun q2 hq2 => ?_)
      exact safe_pure (by dsimp only; omega)
    · refine safe_bind (MPN_COPY_safe (le_refl 0) (by omega) hk0 (by omega) (by omega))
        (fun r hr => safe_pure hr)

theorem near_shift_full_safe (W : Nat) (an cn diff_exp : Int) (ap cp : List Nat)
    (hap : (ap.length : Int) = an) (hcn : 0 ≤ cn) (hcp : cn ≤ cp.length)
    (hk0 : 0 ≤ diff_exp.tdiv W) (hoff : 0 ≤ an - diff_exp.tdiv W - cn) :
    Safe (near_shift_full W an cn diff_exp ap cp) (fun r => r.1.length = ap.length) := by
  unfold near_shift_full
  refine safe_bind (MPN_ZERO_safe (le_refl 0) hoff (by omega)) (fun z hz => ?_)
  refine safe_ite (fun _ => ?_) (fun _ => ?_)
  · refine safe_bind (mpn_rshift_safe _ hoff (le_refl 0) hcn (by omega) (by omega))
      (fun r hr => ?_)
    refine safe_ite (fun _ => ?_) (fun _ => safe_pure (by dsimp only; omega))
    refine safe_bind (wr_safe _ (by omega) (by omega)) (fun q hq => ?_)
    exact safe_pure (by dsimp only; omega)
  · refine safe_bind (MPN_COPY_safe hoff (le_refl 0) hcn (by omega) (by omega))
      (fun r hr => safe_pure (by dsimp only; omega))

theorem near_shift_safe (W pc : Nat) (sh an cn dif diff_exp : Int) (ap cp : List Nat)
    (hap : (ap.length : Int) = an) (hcn : 0 ≤ cn) (hcp : cn ≤ cp.length)
    (hk1 : 1 ≤ (dif - 1).tdiv W + 1) (hk2 : (dif - 1).tdiv W + 1 ≤ an)
    (htr : dif ≤ pc → (dif - 1).tdiv W + 1 ≤ cn)
    (hls : dif ≤ pc → trunc_shift W sh dif < 0 → (dif - 1).tdiv W + 1 < an)
    (hfull : ¬ dif ≤ pc → 0 ≤ diff_exp.tdiv W ∧ 0 ≤ an - diff_exp.tdiv W - cn) :
    Safe (near_shift W pc sh an cn dif diff_exp ap cp)
      (fun r => r.1.length = ap.length
        ∧ ((r.2.2.2 = 1 ∧ 1 ≤ r.2.1 ∧ r.2.1 ≤ cn) ∨ r.2.2.2 = 0)) := by
  unfold near_shift
  refine safe_bind (MPN_ZERO_safe (by omega) (by omega) (by omega)) (fun z hz => ?_)
  refine safe_ite (fun ht => ?_) (fun ht => ?_)
  · refine safe_bind (near_shift_trunc_safe W sh cn _ dif z cp (by omega) (htr ht) hcp
      (by omega) (fun hneg => by have := hls ht hneg; omega)) (fun r hr => ?_)
    exact safe_pure ⟨by dsimp only; omega, Or.inl ⟨rfl, hk1, htr ht⟩⟩
  · obtain ⟨f1, f2⟩ := hfull ht
    refine safe_bind (near_shift_full_safe W an cn diff_exp z cp (by omega) hcn hcp f1 f2)
      (fun r hr => safe_pure ⟨by dsimp only; omega, Or.inr rfl⟩)

theorem near_add_safe (W pa pb : Nat) (an bn : Int) (ap bp : List Nat) (overlap : Nat)
    (han : 1 ≤ an) (hap : (ap.length : Int) = an) (hbn : 0 ≤ bn) (hbp : bn ≤ bp.length)
    (hle : pb ≤ pa → bn ≤ an) (hgt : ¬ pb ≤ pa → an ≤ bn) :
    Safe (near_add W pa pb an bn ap bp overlap)
      (fun r => r.1.length = ap.length
        ∧ r.2.1 = if pb ≤ pa then overlap + 2 else overlap) := by
  unfold near_add
  refine safe_bind (P := fun r : List Nat × Nat => r.1.length = ap.length)
    (safe_ite (fun h => ?_) (fun h => ?_)) (fun r hr => ?_)
  · have := hle h
    exact mpn_add_n_safe (by omega) (le_refl 0) hbn (by omega) (by omega)
  · have := hgt h
    exact mpn_add_n_safe (le_refl 0) (by omega) (by omega) (by omega) (by omega)
  · refine safe_ite (fun _ => ?_) (fun _ => safe_pure ⟨hr, rfl⟩)
    refine safe_bind (rd_safe (le_refl 0) (by omega)) (fun a0 _ => ?_)
    refine safe_bind (mpn_rshift_safe _ (le_refl 0) (le_refl 0) (by omega) (by omega)
      (by omega)) (fun q hq => ?_)
    refine safe_bind (rd_safe (by omega) (by omega)) (fun t _ => ?_)
    refine safe_bind (shl_safe _ _ _) (fun hh _ => ?_)
    refine safe_bind (wr_safe _ (by omega) (by omega)) (fun q2 hq2 => ?_)
    exact safe_pure ⟨by dsimp only; omega, rfl⟩

theorem near_case1_goto_safe (W : Nat) (sh an bn cn k dif : Int) (cc : Nat)
    (ap bp cp : List Nat) (rnd_mode : mp_rnd_t) (hap : 1 ≤ ap.length) (hab : an ≤ bn)
    (hbp : bn ≤ bp.length) (han : 0 ≤ an) (hk1 : 1 ≤ k) (hk2 : k ≤ cn)
    (hcp : cn ≤ cp.length) :
    Safe (near_case1_goto W sh an bn cn k dif cc ap bp cp rnd_mode)
      (fun r => (∃ g, r.1 = some g ∧ (g = Goto.add_one_ulp ∨ g = Goto.end_of_add))
        ∨ (r.1 = none ∧ r.2 = 0)) := by
  unfold near_case1_goto
  refine safe_bind (P := fun _ : Nat × Nat => True) (safe_ite
    (fun _ => safe_bind (shl_safe _ _ _) (fun _ _ => safe_pure trivial))
    (fun _ => safe_pure trivial)) (fun s0 _ => ?_)
  refine safe_ite (fun _ => safe_pure (Or.inl ⟨_, rfl, Or.inr rfl⟩)) (fun _ => ?_)
  refine safe_bind (loop296_fi W bp cp dif _ _ (show 0 ≤ bn - an by omega)
    (show bn - an ≤ bp.length by omega) (show 0 ≤ cn - k by omega)
    (show cn - k < cp.length by omega)) (fun s hs => ?_)
  obtain ⟨s1, s2, s3, s4, s5⟩ := hs
  refine safe_bind (P := fun t : S296 => 0 ≤ t.k ∧ t.k ≤ bp.length
      ∧ (t.kc ≠ 0 → ¬ ((t.cout = 0 ∨ t.cout = 2 ^ W - 1) ∧ t.k ≠ 0 ∧ t.kc ≠ 0)))
    (safe_ite (fun hz => ?_) (fun _ => safe_pure ⟨s1, s2, fun _ => s5⟩)) (fun t ht => ?_)
  · refine safe_bind (rd_safe (le_refl 0) (by omega)) (fun c0 _ => ?_)
    refine safe_bind (shl_safe _ _ _) (fun x _ => ?_)
    refine safe_bind (P := fun u : Nat × Nat × Int => 0 ≤ u.2.2 ∧ u.2.2 ≤ bp.length)
      (safe_ite (fun _ => ?_) (fun _ => safe_pure ⟨s1, s2⟩)) (fun u hu => ?_)
    · refine safe_bind (rd_safe (by omega) (by omega)) (fun y _ => ?_)
      exact safe_pure (by constructor <;> (dsimp only; omega))
    · exact safe_pure ⟨hu.1, hu.2, fun hne => absurd hz.1 hne⟩
  · obtain ⟨t1, t2, t3⟩ := ht
    refine safe_ite (fun _ => safe_pure (Or.inl ⟨_, rfl, Or.inl rfl⟩)) (fun hn1 => ?_)
    refine safe_ite (fun _ => safe_pure (Or.inl ⟨_, rfl, Or.inr rfl⟩)) (fun hn2 => ?_)
    refine safe_ite (fun _ => ?_) (fun hkc => ?_)
    · refine safe_bind (safe_any (loopdown_fi bp _ _ _ t1 t2)) (fun r _ => ?_)
      refine safe_ite (fun _ => ?_) (fun _ => safe_pure (Or.inl ⟨_, rfl, Or.inr rfl⟩))
      refine safe_ite (fun _ => safe_pure (Or.inl ⟨_, rfl, Or.inl rfl⟩)) (fun _ => ?_)
      refine safe_ite (fun _ => ?_) (fun _ => safe_pure (Or.inl ⟨_, rfl, Or.inr rfl⟩))
      refine safe_bind (rd_safe (le_refl 0) (by omega)) (fun a0 _ => ?_)
      refine safe_bind (shl_safe _ _ _) (fun m _ => ?_)
      exact safe_ite (fun _ => safe_pure (Or.inl ⟨_, rfl, Or.inl rfl⟩))
        (fun _ => safe_pure (Or.inl ⟨_, rfl, Or.inr rfl⟩))
    · refine safe_pure (Or.inr ⟨rfl, ?_⟩)
      have hc0 : t.cout = 0 := by
        unfold spos at hn1
        unfold sneg at hn2
        simp only [decide_eq_true_eq, not_or, not_and, not_lt, not_le] at hn1 hn2
        by_contra hne
        have := hn1.1 (Nat.pos_of_ne_zero hne)
        omega
      have := t3 hkc
      by_contra hk
      exact this ⟨Or.inl hc0, hk, hkc⟩

theorem near_round_safe (W : Nat) (sh an bn cn k dif : Int) (ap bp cp : List Nat)
    (overlap : Nat) (b : mpfr_t) (rnd_mode : mp_rnd_t) (hap : 1 ≤ ap.length) (han : 0 ≤ an)
    (hbp : bn ≤ bp.length) (hcn : 0 ≤ cn) (hcp : cn ≤ cp.length)
    (h1 : overlap = 1 → an ≤ bn ∧ 1 ≤ k ∧ k ≤ cn) (h3 : overlap = 3 → 1 ≤ k ∧ k ≤ cn)
    (h0 : overlap = 0 → an ≤ bn) :
    Safe (near_round W sh an bn cn k dif ap bp cp overlap b rnd_mode)
      (fun r => r.1.length = ap.length ∧ GotoSafe r.2) := by
  unfold near_round
  refine safe_ite (fun _ => ?_) (fun _ => ?_)
  · match overlap, h1, h3, h0 with
    | 1, h1, _, _ =>
      obtain ⟨f1, f2, f3⟩ := h1 rfl
      simp only []
      have hc1 : Safe (near_case1 W sh an bn cn k dif ap bp cp rnd_mode)
          (fun r => r.1.length = ap.length
            ∧ ((∃ g, r.2.1 = some g ∧ (g = Goto.add_one_ulp ∨ g = Goto.end_of_add))
              ∨ (r.2.1 = none ∧ r.2.2 = 0))) := by
        unfold near_case1
        refine safe_bind (take_low_safe W sh ap hap) (fun t ht => ?_)
        refine safe_bind (near_case1_goto_safe W sh an bn cn k dif t.2 t.1 bp cp rnd_mode
          (by omega) f1 hbp han f2 f3 hcp) (fun g hg => ?_)
        exact safe_pure ⟨ht, hg⟩
      refine safe_bind hc1 (fun r hr => ?_)
      obtain ⟨l1, l2⟩ := hr
      rcases l2 with ⟨g, e1, e2⟩ | ⟨e1, e2⟩
      · rw [e1]
        exact safe_pure ⟨l1, goto_plain e2⟩
      · rw [e1, e2]
        refine safe_pure ⟨l1, ?_⟩
        show 0 ≤ cn - 0 ∧ cn - 0 ≤ cp.length ∧ cn ≤ cp.length
        omega
    | 3, _, h3, _ =>
      obtain ⟨f2, f3⟩ := h3 rfl
      refine safe_pure ⟨rfl, ?_⟩
      show 0 ≤ cn - k ∧ cn - k ≤ cp.length ∧ cn ≤ cp.length
      omega
    | 0, _, _, h0 =>
      have f1 := h0 rfl
      refine safe_pure ⟨rfl, ?_⟩
      show 0 ≤ bn - an ∧ bn - an ≤ bp.length ∧ bn ≤ bp.length
      omega
    | 2, _, _, _ => exact safe_pure ⟨rfl, trivial⟩
    | n + 4, _, _, _ => exact safe_pure ⟨rfl, trivial⟩
  · refine safe_bind (rd_safe (le_refl 0) (by omega)) (fun a0 _ => ?_)
    refine safe_bind (shl_safe _ _ _) (fun m _ => ?_)
    refine safe_bind (wr_safe _ (le_refl 0) (by omega)) (fun q hq => ?_)
    exact safe_pure ⟨hq, trivial⟩

theorem add1_finish_safe (W : Nat) (sh an : Int) (c3 : Nat) (ap : List Nat) (g : Goto)
    (rnd_mode : mp_rnd_t) (han : 1 ≤ an) (hap : (ap.length : Int) = an) (hg : GotoSafe g) :
    add1_finish W sh an c3 ap g rnd_mode ≠ .error Fault.index := by
  unfold add1_finish
  have h1 : Safe (match g with
      | Goto.to_nearest bp bn k dif => to_nearest W sh c3 ap bp bn k dif rnd_mode
      | Goto.add_one_ulp => pure (ap, true)
      | Goto.end_of_add => pure (ap, false)) (fun r => r.1.length = ap.length) := by
    cases g with
    | to_nearest bp bn k dif =>
      obtain ⟨g1, g2, g3⟩ := hg
      exact to_nearest_fi W sh c3 ap bp bn k dif rnd_mode (by omega) g1 g2 g3
    | add_one_ulp => exact safe_pure rfl
    | end_of_add => exact safe_pure rfl
  refine fi_bind _ _ h1.1 (fun r hr => ?_)
  have lr := h1.2 r hr
  split
  · exact add_one_ulp_fi W sh an r.1 han (by omega)
  · exact fi_pure _

/-- The quotient `(dif - 1) / W + 1` is the number of limbs that hold `dif` bits. -/
theorem trunc_shift_eq {W : Nat} {sh dif : Int} (hW : 1 ≤ W) (hdif : 1 ≤ dif) :
    trunc_shift W sh dif = ((dif - 1).tdiv W + 1) * W - dif - sh := by
  unfold trunc_shift
  have hWp : (0 : Int) < W := by exact_mod_cast hW
  rw [Int.tmod_eq_emod (by omega) (by omega), Int.tdiv_eq_ediv (by omega) (by omega)]
  have e1 := Int.emod_add_ediv (dif - 1) W
  have e2 := Int.emod_nonneg (dif - 1) (ne_of_gt hWp)
  have e3 := Int.emod_lt_of_pos (dif - 1) hWp
  have hd : dif = ((dif - 1) % W + 1) + (dif - 1) / W * W := by
    rw [mul_comm]
    omega
  by_cases hr : (dif - 1) % W + 1 = W
  · have hm : dif % (W : Int) = 0 := by
      rw [hd, Int.add_mul_emod_self, hr, Int.emod_self]
    rw [hm]
    simp only [ne_eq, not_true_eq_false, if_false]
    have : ((dif - 1) / W + 1) * W = (dif - 1) / W * W + W := by ring
    omega
  · have hm : dif % (W : Int) = (dif - 1) % W + 1 := by
      rw [hd, Int.add_mul_emod_self, Int.emod_eq_of_lt (by omega) (by omega)]
      rw [← hd]
    rw [hm, if_pos (by omega)]
    have : ((dif - 1) / W + 1) * W = (dif - 1) / W * W + W := by ring
    omega

/-- The limb computation of `mpfr_add1` never reads or writes outside the buffers. -/
theorem add1_core_fi (W pa pb pc : Nat) (ap bp cp : List Nat)
    (nzc : List Nat → Except Fault Nat) (b : mpfr_t) (rnd_mode : mp_rnd_t) (d : Int)
    (hW : 1 ≤ W) (hpa : 1 ≤ pa) (hpc : 1 ≤ pc) (hd : 0 ≤ d)
    (la : ap.length = (pa - 1) / W + 1) (lb : bp.length = (pb - 1) / W + 1)
    (lc : cp.length = (pc - 1) / W + 1)
    (hz : ∀ q : List Nat, q.length = ap.length → nzc q ≠ .error Fault.index) :
    add1_core W pa pb pc ap bp cp nzc b rnd_mode d ≠ .error Fault.index := by
  unfold add1_core
  simp only []
  have hWp : (0 : Int) < W := by exact_mod_cast hW
  have han : (1 : Int) ≤ (((pa - 1) / W + 1 : Nat) : Int) := by
    exact_mod_cast Nat.le_add_left 1 _
  have hla : (ap.length : Int) = (((pa - 1) / W + 1 : Nat) : Int) := by rw [la]
  have hlb : (bp.length : Int) = (((pb - 1) / W + 1 : Nat) : Int) := by rw [lb]
  have hlc : (cp.length : Int) = (((pc - 1) / W + 1 : Nat) : Int) := by rw [lc]
  have hbn : (1 : Int) ≤ (((pb - 1) / W + 1 : Nat) : Int) := by
    exact_mod_cast Nat.le_add_left 1 _
  have hcn : (1 : Int) ≤ (((pc - 1) / W + 1 : Nat) : Int) := by
    exact_mod_cast Nat.le_add_left 1 _
  have hle : pb ≤ pa → (((pb - 1) / W + 1 : Nat) : Int) ≤ (((pa - 1) / W + 1 : Nat) : Int) :=
    fun h => by exact_mod_cast limbs_mono h
  have hgt : ¬ pb ≤ pa →
      (((pa - 1) / W + 1 : Nat) : Int) ≤ (((pb - 1) / W + 1 : Nat) : Int) :=
    fun h => by exact_mod_cast limbs_mono (W := W) (show pa ≤ pb by omega)
  have hmain : Safe
      (if (pa : Int) - d ≤ 0 then do
        let r ←
          (if pb ≤ pa then
            far_copy W pa ((((pa - 1) / W + 1 : Nat) : Int) * W - pa)
              (((pa - 1) / W + 1 : Nat) : Int) (((pb - 1) / W + 1 : Nat) : Int) ap bp cp pc
              nzc b rnd_mode d
          else
            far_round W ((((pa - 1) / W + 1 : Nat) : Int) * W - pa)
              (((pa - 1) / W + 1 : Nat) : Int) (((pb - 1) / W + 1 : Nat) : Int)
              (((pc - 1) / W + 1 : Nat) : Int) ((pa : Int) - d) ap bp cp b rnd_mode)
        pure (r.1, (0 : Int), 0, r.2)
      else
        near W pa pb pc ((((pa - 1) / W + 1 : Nat) : Int) * W - pa)
          (((pa - 1) / W + 1 : Nat) : Int) (((pb - 1) / W + 1 : Nat) : Int)
          (((pc - 1) / W + 1 : Nat) : Int) ((pa : Int) - d) d ap bp cp b rnd_mode)
      (fun r => r.1.length = ap.length ∧ GotoSafe r.2.2.2) := by
    refine safe_ite (fun _ => ?_) (fun hnear => ?_)
    · refine safe_bind (P := fun r : List Nat × Goto => r.1.length = ap.length ∧ GotoSafe r.2)
        (safe_ite (fun h => ?_) (fun h => ?_)) (fun r hr => safe_pure hr)
      · exact far_copy_safe W pa _ _ _ ap bp cp pc nzc b rnd_mode d han hla (by omega)
          (hle h) (by omega) (by push_cast at hlc ⊢; omega) hz
      · exact far_round_safe W _ _ _ _ _ ap bp cp b rnd_mode han hla (hgt h) (by omega) hcn
          (by omega)
    · have hdif : 1 ≤ (pa : Int) - d := by omega
      obtain ⟨dn, rfl⟩ := Int.eq_ofNat_of_zero_le hd
      have hk1 : 1 ≤ ((pa : Int) - (dn : Int) - 1).tdiv W + 1 := by
        have := Int.tdiv_nonneg (show 0 ≤ (pa : Int) - (dn : Int) - 1 by omega) hWp.le
        omega
      have hcov := shift_cover hW hpa (Int.ofNat_nonneg dn) (by omega)
      have hdq : 0 ≤ ((dn : Nat) : Int).tdiv W := Int.tdiv_nonneg (Int.ofNat_nonneg dn) hWp.le
      have hk2 : ((pa : Int) - (dn : Int) - 1).tdiv W + 1
          ≤ (((pa - 1) / W + 1 : Nat) : Int) := by omega
      have htr : (pa : Int) - (dn : Int) ≤ pc →
          ((pa : Int) - (dn : Int) - 1).tdiv W + 1 ≤ (((pc - 1) / W + 1 : Nat) : Int) := by
        intro h
        rw [Int.tdiv_eq_ediv (by omega) hWp.le]
        have := Int.ediv_le_ediv hWp (show (pa : Int) - (dn : Int) - 1 ≤ ((pc - 1 : Nat) : Int)
          by omega)
        push_cast
        push_cast at this
        omega
      have hls : (pa : Int) - (dn : Int) ≤ pc →
          trunc_shift W ((((pa - 1) / W + 1 : Nat) : Int) * W - pa) ((pa : Int) - (dn : Int)) < 0 →
          ((pa : Int) - (dn : Int) - 1).tdiv W + 1 < (((pa - 1) / W + 1 : Nat) : Int) := by
        intro _ hneg
        rw [trunc_shift_eq hW hdif] at hneg
        by_contra hge
        have e : ((pa : Int) - (dn : Int) - 1).tdiv W + 1 = (((pa - 1) / W + 1 : Nat) : Int) := by
          omega
        rw [e] at hneg
        omega
      have hfull : ¬ (pa : Int) - (dn : Int) ≤ pc →
          0 ≤ ((dn : Nat) : Int).tdiv W
            ∧ 0 ≤ (((pa - 1) / W + 1 : Nat) : Int) - ((dn : Nat) : Int).tdiv W
                - (((pc - 1) / W + 1 : Nat) : Int) := by
        intro h
        refine ⟨hdq, ?_⟩
        have := @limbs_fit W pc pa dn hW hpc (by omega)
        rw [tdiv_cast]
        have h2 : ((dn / W + ((pc - 1) / W + 1) : Nat) : Int) ≤ (((pa - 1) / W + 1 : Nat) : Int) := by
          exact_mod_cast this
        push_cast at h2 ⊢
        omega
      unfold near
      refine safe_bind (near_shift_safe W pc _ _ _ _ _ ap cp hla (by omega) (by omega) hk1 hk2
        htr hls hfull) (fun s hs => ?_)
      obtain ⟨s1, s2⟩ := hs
      refine safe_bind (near_add_safe W pa pb _ _ s.1 bp s.2.2.2 han (by omega) (by omega)
        (by omega) hle hgt) (fun t ht => ?_)
      obtain ⟨t1, t2⟩ := ht
      refine safe_bind (near_round_safe W _ _ _ _ s.2.1 s.2.2.1 t.1 bp cp t.2.1 b rnd_mode
        (by omega) (by omega) (by omega) (by omega) (by omega) ?_ ?_ ?_)
        (fun r hr => safe_pure ⟨by dsimp only; omega, hr.2⟩)
      · intro ho
        rw [t2] at ho
        by_cases hp : pb ≤ pa
        · rw [if_pos hp] at ho
          rcases s2 with ⟨e, _, _⟩ | e <;> omega
        · rw [if_neg hp] at ho
          rcases s2 with ⟨e, f1, f2⟩ | e
          · exact ⟨hgt hp, f1, f2⟩
          · omega
      · intro ho
        rw [t2] at ho
        by_cases hp : pb ≤ pa
        · rw [if_pos hp] at ho
          rcases s2 with ⟨e, f1, f2⟩ | e
          · exact ⟨f1, f2⟩
          · omega
        · rw [if_neg hp] at ho
          rcases s2 with ⟨e, _, _⟩ | e <;> omega
      · intro ho
        rw [t2] at ho
        by_cases hp : pb ≤ pa
        · rw [if_pos hp] at ho
          omega
        · exact hgt hp
  refine fi_bind _ _ hmain.1 (fun r hr => ?_)
  obtain ⟨r1, r2⟩ := hmain.2 r hr
  refine fi_bind _ _ (add1_finish_safe W _ _ _ r.1 r.2.2.2 rnd_mode han (by omega) r2)
    (fun f _ => fi_pure _)

/-- C36: for objects whose buffers hold exactly their significant limbs and a difference of
exponents that is not negative, `mpfr_add1` ends without a read or a write outside a buffer:
every index into `ap`, `bp` and `cp` lies in `[0, an)`, `[0, bn)` and `[0, cn)` (so the
write `ap[k]` after the left shift has `k < an`, and the offset `an - k - cn` is not
negative), whatever the signs, the rounding mode and the sharing of the operands with the
destination; and its loops end within their fuel. -/
theorem C36_limb_accesses_in_bounds (W : Nat) (h : Heap) (a b c : Ptr) (rnd_mode : mp_rnd_t)
    (diff_exp : Int) (hW : 1 ≤ W) (hd : 0 ≤ diff_exp) (ha : 1 ≤ (h a).prec)
    (hc : 1 ≤ (h c).prec) (la : ((h a).mant.length : Int) = nlimbs W (h a))
    (lb : ((h b).mant.length : Int) = nlimbs W (h b))
    (lc : ((h c).mant.length : Int) = nlimbs W (h c)) :
    mpfr_add1 W h a b c rnd_mode diff_exp ≠ .error Fault.index
      ∧ mpfr_add1 W h a b c rnd_mode diff_exp ≠ .error Fault.fuel := by
  refine ⟨?_, (nofuel_iff _).1 (nofuel_mpfr_add1 W h a b c rnd_mode diff_exp)⟩
  unfold nlimbs at la lb lc
  have la' : (h a).mant.length = ((h a).prec - 1) / W + 1 := by exact_mod_cast la
  have lb' : (h b).mant.length = ((h b).prec - 1) / W + 1 := by exact_mod_cast lb
  have lc' : (h c).mant.length = ((h c).prec - 1) / W + 1 := by exact_mod_cast lc
  unfold mpfr_add1
  simp only []
  refine fi_bind _ _ ?_ (fun r _ => fi_pure _)
  rw [add1_limbs_eq_core]
  simp only [header_heap_mant, header_heap_prec]
  refine add1_core_fi W _ _ _ _ _ _ _ _ rnd_mode diff_exp hW ha hc hd la' lb' lc' ?_
  intro q hq
  unfold nzc_of NOTZERO
  by_cases hac : c = a
  · subst hac
    simp only [Heap.set, if_true, add1_header_prec]
    refine rd_fi (Int.ofNat_nonneg _) ?_
    rw [hq, la']
    push_cast
    omega
  · simp only [Heap.set, hac, if_false]
    refine rd_fi (Int.ofNat_nonneg _) ?_
    rw [lc']
    push_cast
    omega

/-- The sum `3/4 + 1/2` into a destination of 2 bits, on 64-bit limbs: the buffers have one
limb each, and the run ends without a fault, with the limb `0xA000000000000000`. -/
theorem C36_limb_accesses_in_bounds_witness :
    (1 : Nat) ≤ 64 ∧ ((heap3 c11_a c1_b c8_y 0).mant.length : Int) = nlimbs 64 c11_a
      ∧ mpfr_add1 64 (heap3 c11_a c1_b c8_y) 0 1 2 GMP_RNDN 0 ≠ .error Fault.index
      ∧ res (mpfr_add1 64 (heap3 c11_a c1_b c8_y) 0 1 2 GMP_RNDN 0) 0 = some c11_r :=
  ⟨by decide, rfl,
    (C36_limb_accesses_in_bounds 64 (heap3 c11_a c1_b c8_y) 0 1 2 GMP_RNDN 0 (by decide)
      (le_refl 0) (by decide) (by decide) rfl rfl rfl).1, rfl⟩

/-! ## Exponents that are `2 ^ 32` apart -/

theorem value_one_limb (e : Int) :
    value 64 ⟨1, false, false, e, [9223372036854775808]⟩ = (2 : ℚ) ^ (e - 1) := by
  have h2 : (2 : ℚ) ≠ 0 := by norm_num
  have e1 : value 64 ⟨1, false, false, e, [9223372036854775808]⟩
      = (2 : ℚ) ^ (63 : Int) * (2 : ℚ) ^ (e - 64) := by
    unfold value nlimbs MPFR_SIGN
    simp only [limbsVal]
    norm_num
  rw [e1, ← zpow_add₀ h2]
  congr 1
  ring

theorem pow_gap (E F : Int) (hE : 1 ≤ E) (hF : F = E + 1) :
    |(2 : ℚ) ^ (E - 1) + (2 : ℚ) ^ ((0 : Int) - 1)| < |(2 : ℚ) ^ (F - 1)| := by
  subst hF
  have h2 : (2 : ℚ) ≠ 0 := by norm_num
  have e1 : (2 : ℚ) ^ (E + 1 - 1) = 2 * (2 : ℚ) ^ (E - 1) := by
    rw [show E + 1 - 1 = 1 + (E - 1) by ring, zpow_add₀ h2, zpow_one]
  have e2 : (1 : ℚ) ≤ (2 : ℚ) ^ (E - 1) := one_le_zpow₀ (by norm_num) (by omega)
  have e3 : (2 : ℚ) ^ ((0 : Int) - 1) = 1 / 2 := by norm_num
  rw [e1, e3, abs_of_pos (by positivity), abs_of_pos (by positivity)]
  linarith

/-- C17 (evaluation): under round-toward-zero at precision 1, for `b = 2 ^ 4294967295` and
`c = 1/2`, both regular, positive and satisfying the representation invariants, the
exponent difference `2 ^ 32` is stored as 0 in `diff_exp`, the two significands are added
as if the exponents were equal, and `dst` receives `2 ^ 4294967296`, whose magnitude
exceeds that of the exact sum `b + c`. -/
theorem C17_toward_zero_exceeded (X : Callees) :
    WF 64 c17_b ∧ WF 64 c8_y ∧ Regular 64 c17_b ∧ Regular 64 c8_y ∧ c17_b.neg = c8_y.neg ∧
      c17_b.exp - c8_y.exp = 2 ^ 32 ∧ to_int (c17_b.exp - c8_y.exp) = 0 ∧
      res (mpfr_add 64 X (heap3 c1_a c17_b c8_y) 0 1 2 GMP_RNDZ) 0 = some c17_s ∧
      c17_s.nan = false ∧
      |value 64 c17_b + value 64 c8_y| < |value 64 c17_s| := by
  refine ⟨⟨by decide, rfl, allLt_one (by decide),
      ⟨9223372036854775808, rfl, by decide, by decide⟩, by decide⟩,
    ⟨by decide, rfl, allLt_one (by decide),
      ⟨9223372036854775808, rfl, by decide, by decide⟩, by decide⟩,
    ⟨rfl, 9223372036854775808, rfl, by decide⟩, ⟨rfl, 9223372036854775808, rfl, by decide⟩,
    rfl, rfl, rfl, rfl, rfl, ?_⟩
  rw [show value 64 c17_b = _ from value_one_limb 4294967296,
    show value 64 c8_y = _ from value_one_limb 0,
    show value 64 c17_s = _ from value_one_limb 4294967297]
  exact pow_gap 4294967296 4294967297 (by decide) rfl

/-- C21 (evaluation): for `b = 2 ^ 4294967295` and `c = 1/2`, whose exponents differ by
`2 ^ 32`, `mpfr_add` calls `mpfr_add1 (dst, b, c, rnd_mode, 0)`; for `b` and `c = -1/2` it
goes through the branch of equal exponents, compares the operands and calls
`mpfr_sub1 (dst, b, c, rnd_mode, 0)`.  In both calls the last argument is 0 and not the
exponent difference. -/
theorem C21_exponent_difference_truncated (X : Callees) (rnd : mp_rnd_t) :
    WF 64 c17_b ∧ WF 64 c8_y ∧ WF 64 c21_c ∧
      c17_b.exp - c8_y.exp = 4294967296 ∧ c17_b.exp - c21_c.exp = 4294967296 ∧
      mpfr_add 64 X (heap3 c1_a c17_b c8_y) 0 1 2 rnd
        = mpfr_add1 64 (heap3 c1_a c17_b c8_y) 0 1 2 rnd 0 ∧
      mpfr_add 64 X (heap3 c1_a c17_b c21_c) 0 1 2 rnd
        = .ok (X.mpfr_sub1 (heap3 c1_a c17_b c21_c) 0 1 2 rnd 0) := by
  have wb : WF 64 c17_b := ⟨by decide, rfl, allLt_one (by decide),
      ⟨9223372036854775808, rfl, by decide, by decide⟩, by decide⟩
  have wc : WF 64 c21_c := ⟨by decide, rfl, allLt_one (by decide),
      ⟨9223372036854775808, rfl, by decide, by decide⟩, by decide⟩
  refine ⟨wb, ⟨by decide, rfl, allLt_one (by decide),
      ⟨9223372036854775808, rfl, by decide, by decide⟩, by decide⟩, wc, rfl, rfl, rfl, ?_⟩
  have hs : ((heap3 c1_a c17_b c21_c) 1).neg ≠ ((heap3 c1_a c17_b c21_c) 2).neg := by decide
  have hu := mpfr_add_opposite 64 X (heap3 c1_a c17_b c21_c) 0 1 2 rnd
    ⟨rfl, 9223372036854775808, rfl, by decide⟩ ⟨rfl, 9223372036854775808, rfl, by decide⟩ hs
  have e0 : to_int (((heap3 c1_a c17_b c21_c) 1).exp - ((heap3 c1_a c17_b c21_c) 2).exp) = 0 :=
    rfl
  obtain ⟨c0, c1⟩ := cmp3_opposite (W := 64) (b := c17_b) (c := c21_c) rfl rfl (by decide)
  have hlt : |value 64 c21_c| < |value 64 c17_b| :=
    abs_value_lt_of_exp (by decide) wc wb (by decide)
  have n0 : ¬ mpfr_cmp3 64 c17_b c21_c (-1) = 0 := by
    intro hz
    rw [c0.mp hz] at hlt
    exact lt_irrefl _ hlt
  rw [hu, e0, if_neg (by decide), if_neg (by decide)]
  rw [show (heap3 c1_a c17_b c21_c) 1 = c17_b from rfl,
    show (heap3 c1_a c17_b c21_c) 2 = c21_c from rfl, if_neg n0, if_pos (c1.mpr hlt)]

/-! ## Operands of opposite sign and equal magnitude -/

/-- C7 (amended): for regular operands of opposite sign and equal magnitude that satisfy the
representation invariants, `mpfr_add` does in every rounding mode the same thing: it applies
the macro `SET_ZERO` to `dst` and changes no other object.  When `SET_ZERO (dst)` is a zero
(the contract of the macro, which is not part of the sources), `dst` is a zero after the
call, and this zero, its sign included, is the same in all four rounding modes. -/
theorem C7_equal_magnitude_set_zero (W : Nat) (X : Callees) (h : Heap) (a b c : Ptr)
    (hW : 1 ≤ W) (hb : Regular W (h b)) (hc : Regular W (h c)) (wb : WF W (h b))
    (wc : WF W (h c)) (hs : (h b).neg ≠ (h c).neg)
    (hm : |value W (h b)| = |value W (h c)|) (hz : IsZero W (X.SET_ZERO (h a))) :
    ∃ g, (∀ rnd, mpfr_add W X h a b c rnd = .ok g) ∧ IsZero W (g a)
      ∧ g a = X.SET_ZERO (h a) ∧ ∀ q, q ≠ a → g q = h q := by
  have he : (h b).exp = (h c).exp := by
    rcases lt_trichotomy (h b).exp (h c).exp with hlt | heq | hgt
    · have := abs_value_lt_of_exp hW wb wc hlt
      rw [hm] at this
      exact absurd this (lt_irrefl _)
    · exact heq
    · have := abs_value_lt_of_exp hW wc wb hgt
      rw [hm] at this
      exact absurd this (lt_irrefl _)
  have e0 : (h.set a (X.SET_ZERO (h a))) a = X.SET_ZERO (h a) := by
    simp only [Heap.set, if_true]
  refine ⟨h.set a (X.SET_ZERO (h a)), fun rnd => ?_, ?_, e0, fun q hq => ?_⟩
  · exact ((mpfr_add_dispatch W X h a b c rnd hW hb hc wb wc
      ⟨by rw [he]; norm_num, by rw [he]; norm_num⟩).1 hs).1 hm
  · rw [e0]
    exact hz
  · simp only [Heap.set, if_neg hq]

/-- C7 (witness): `1 + (-1)` into the negative destination `c9_a`, with `SET_ZERO` as
modelled from the spec: in each of the four rounding modes `dst` becomes the same zero, and
it keeps the sign `-` that `dst` had before the call. -/
theorem C7_equal_magnitude_set_zero_witness :
    (∀ rnd, mpfr_add 64 c7_X (heap3 c9_a c7_b c7_c) 0 1 2 rnd
        = .ok ((heap3 c9_a c7_b c7_c).set 0 c7_z))
      ∧ IsZero 64 c7_z ∧ c7_X.SET_ZERO c9_a = c7_z ∧ MPFR_SIGN c7_z = -1
      ∧ MPFR_SIGN c9_a = -1 := by
  have wb : WF 64 c7_b := ⟨by decide, rfl, allLt_one (by decide),
    ⟨9223372036854775808, rfl, by decide, by decide⟩, by decide⟩
  have wc : WF 64 c7_c := ⟨by decide, rfl, allLt_one (by decide),
    ⟨9223372036854775808, rfl, by decide, by decide⟩, by decide⟩
  have hm : |value 64 c7_b| = |value 64 c7_c| := by
    rw [abs_value (W := 64) (x := c7_b) rfl, abs_value (W := 64) (x := c7_c) rfl]
    rfl
  obtain ⟨g, h1, -, h3, h4⟩ := C7_equal_magnitude_set_zero 64 c7_X (heap3 c9_a c7_b c7_c)
    0 1 2 (by decide) ⟨rfl, 9223372036854775808, rfl, by decide⟩
    ⟨rfl, 9223372036854775808, rfl, by decide⟩ wb wc (by decide) hm ⟨rfl, rfl⟩
  refine ⟨fun rnd => ?_, ⟨rfl, rfl⟩, rfl, rfl, rfl⟩
  rw [h1 rnd]
  congr 1
  funext q
  by_cases hq : q = 0
  · rw [hq, h3]
    rfl
  · rw [h4 q hq]
    simp only [Heap.set, if_neg hq]

set_option linter.unusedTactic false
set_option linter.unreachableTactic false

/-! ## Runs that return -/

theorem ret_bind {α β : Type} {x : Except Fault α} {f : α → Except Fault β} {P : α → Prop}
    {Q : β → Prop} (hx : Returns x P) (hf : ∀ a, P a → Returns (f a) Q) :
    Returns (x >>= f) Q := by
  obtain ⟨a, ha, pa⟩ := hx
  obtain ⟨b, hb, qb⟩ := hf a pa
  refine ⟨b, ?_, qb⟩
  rw [ha]
  exact hb

theorem ret_pure {α : Type} {a : α} {Q : α → Prop} (h : Q a) :
    Returns (pure a : Except Fault α) Q := ⟨a, rfl, h⟩

theorem ret_ok {α : Type} {a : α} {Q : α → Prop} (h : Q a) :
    Returns (.ok a : Except Fault α) Q := ⟨a, rfl, h⟩

theorem ret_ite {α : Type} {c : Prop} [Decidable c] {x y : Except Fault α} {Q : α → Prop}
    (hx : c → Returns x Q) (hy : ¬ c → Returns y Q) : Returns (if c then x else y) Q := by
  split
  · exact hx ‹_›
  · exact hy ‹_›

theorem ret_mono {α : Type} {x : Except Fault α} {P Q : α → Prop} (hx : Returns x P)
    (h : ∀ r, P r → Q r) : Returns x Q := by
  obtain ⟨r, hr, pr⟩ := hx
  exact ⟨r, hr, h r pr⟩

theorem ret_and {α : Type} {x : Except Fault α} {P Q : α → Prop} (hx : Returns x P)
    (h : ∀ r, x = .ok r → Q r) : Returns x (fun r => P r ∧ Q r) := by
  obtain ⟨r, hr, pr⟩ := hx
  exact ⟨r, hr, pr, h r hr⟩

/-- A computation that stops neither at an index, nor for lack of fuel, nor at a shift or a
negation, returns. -/
theorem ret_of {α : Type} {x : Except Fault α} {P : α → Prop} (hs : Safe x P)
    (hf : NoFuel x) (hn : NoShift x) : Returns x P := by
  cases x with
  | ok a => exact ⟨a, rfl, hs.2 a rfl⟩
  | error e =>
    cases e
    · exact absurd rfl hn.1
    · exact absurd rfl hs.1
    · exact hf.elim
    · exact absurd rfl hn.2

theorem rd_ret {p : List Nat} {i : Int} (h1 : 0 ≤ i) (h2 : i < p.length) :
    Returns (rd p i) (fun _ => True) := by
  obtain ⟨x, hx, _⟩ := rd_ok_of_lt (p := p) h1 (by omega)
  exact ⟨x, hx, trivial⟩

theorem wr_ret {p : List Nat} {i : Int} (v : Nat) (h1 : 0 ≤ i) (h2 : i < p.length) :
    Returns (wr p i v) (fun q => q.length = p.length) := by
  refine ⟨_, wr_ok v h1 (by omega), ?_⟩
  simp

/-! ## Shift counts of the parts of `mpfr_add1` that are in range -/

theorem ns_bind {α β : Type} {x : Except Fault α} {f : α → Except Fault β}
    (hx : NoShift x) (hf : ∀ a, x = .ok a → NoShift (f a)) : NoShift (x >>= f) := by
  cases x with
  | error e =>
    have e0 : (Except.error e >>= f) = Except.error e := rfl
    rw [e0]
    refine ⟨fun h => hx.1 ?_, fun h => hx.2 ?_⟩
    · cases h
      rfl
    · cases h
      rfl
  | ok a => exact hf a rfl

theorem ns_pure {α : Type} (a : α) : NoShift (pure a : Except Fault α) :=
  ⟨fun h => (by cases h), fun h => (by cases h)⟩

theorem ns_ok {α : Type} (a : α) : NoShift (.ok a : Except Fault α) :=
  ⟨fun h => (by cases h), fun h => (by cases h)⟩

theorem ns_index {α : Type} : NoShift (.error Fault.index : Except Fault α) :=
  ⟨fun h => (by cases h), fun h => (by cases h)⟩

theorem ns_fuel {α : Type} : NoShift (.error Fault.fuel : Except Fault α) :=
  ⟨fun h => (by cases h), fun h => (by cases h)⟩

theorem ns_ite {α : Type} {c : Prop} [Decidable c] {x y : Except Fault α}
    (hx : c → NoShift x) (hy : ¬ c → NoShift y) : NoShift (if c then x else y) := by
  split
  · exact hx ‹_›
  · exact hy ‹_›

theorem rd_ns (p : List Nat) (i : Int) : NoShift (rd p i) := by
  unfold rd
  split
  · split
    · exact ns_ok _
    · exact ns_index
  · exact ns_index

theorem wr_ns (p : List Nat) (i : Int) (v : Nat) : NoShift (wr p i v) := by
  unfold wr
  split
  · exact ns_ok _
  · exact ns_index

theorem seg_ns (p : List Nat) (off n : Int) : NoShift (seg p off n) := by
  unfold seg
  split
  · exact ns_ok _
  · exact ns_index

theorem put_ns (p : List Nat) (off : Int) (s : List Nat) : NoShift (put p off s) := by
  unfold put
  split
  · exact ns_ok _
  · exact ns_index

theorem shl_ns {W : Nat} (x : Nat) {n : Int} (h1 : 0 ≤ n) (h2 : n < W) :
    NoShift (shl W x n) := by
  unfold shl
  rw [if_pos ⟨h1, h2⟩]
  exact ns_ok _

theorem shr_ns {W : Nat} (x : Nat) {n : Int} (h1 : 0 ≤ n) (h2 : n < W) :
    NoShift (shr W x n) := by
  unfold shr
  rw [if_pos ⟨h1, h2⟩]
  exact ns_ok _

theorem mpn_add_1_ns (W : Nat) (p : List Nat) (off n : Int) (x : Nat) :
    NoShift (mpn_add_1 W p off n x) := by
  unfold mpn_add_1
  refine ns_bind (seg_ns _ _ _) (fun s _ => ?_)
  exact ns_bind (put_ns _ _ _) (fun q _ => ns_pure _)

theorem mpn_add_n_ns (W : Nat) (p : List Nat) (off : Int) (q : List Nat) (qoff n : Int) :
    NoShift (mpn_add_n W p off q qoff n) := by
  unfold mpn_add_n
  refine ns_bind (seg_ns _ _ _) (fun s _ => ?_)
  refine ns_bind (seg_ns _ _ _) (fun t _ => ?_)
  exact ns_bind (put_ns _ _ _) (fun q _ => ns_pure _)

theorem mpn_rshift_ns {W : Nat} (p : List Nat) (off : Int) (q : List Nat) (qoff n : Int)
    {cnt : Int} (h1 : 1 ≤ cnt) (h2 : cnt < W) : NoShift (mpn_rshift W p off q qoff n cnt) := by
  unfold mpn_rshift
  refine ns_bind (seg_ns _ _ _) (fun t _ => ?_)
  rw [if_pos ⟨h1, h2⟩]
  exact ns_bind (put_ns _ _ _) (fun q _ => ns_pure _)

theorem mpn_lshift_ns {W : Nat} (p : List Nat) (off : Int) (q : List Nat) (qoff n : Int)
    {cnt : Int} (h1 : 1 ≤ cnt) (h2 : cnt < W) : NoShift (mpn_lshift W p off q qoff n cnt) := by
  unfold mpn_lshift
  refine ns_bind (seg_ns _ _ _) (fun t _ => ?_)
  rw [if_pos ⟨h1, h2⟩]
  exact ns_bind (put_ns _ _ _) (fun q _ => ns_pure _)

theorem MPN_COPY_ns (p : List Nat) (off : Int) (q : List Nat) (qoff n : Int) :
    NoShift (MPN_COPY p off q qoff n) := by
  unfold MPN_COPY
  exact ns_bind (seg_ns _ _ _) (fun t _ => put_ns _ _ _)

theorem MPN_ZERO_ns (p : List Nat) (off n : Int) : NoShift (MPN_ZERO p off n) := by
  unfold MPN_ZERO
  split
  · exact put_ns _ _ _
  · exact ns_index

theorem NOTZERO_ns (W : Nat) (x : mpfr_t) : NoShift (NOTZERO W x) := rd_ns _ _

theorem nzc_of_ns (W : Nat) (h : Heap) (a c : Ptr) (q : List Nat) :
    NoShift (nzc_of W h a c q) := NOTZERO_ns _ _

theorem loop121_ns (cp : List Nat) (top : Int) (n : Nat) (i : Int) (cc : Nat) :
    NoShift (loop121 cp top n i cc) := by
  induction n generalizing i cc with
  | zero => exact ns_fuel
  | succ n ih =>
    unfold loop121
    refine ns_ite (fun _ => ?_) (fun _ => ns_ok _)
    exact ns_bind (rd_ns _ _) (fun x _ => ih _ _)

theorem loopdown_ns (bp : List Nat) (n : Nat) (k : Int) (x : Nat) :
    NoShift (loopdown bp n k x) := by
  induction n generalizing k x with
  | zero => exact ns_fuel
  | succ n ih =>
    unfold loopdown
    refine ns_ite (fun _ => ?_) (fun _ => ns_ok _)
    exact ns_bind (rd_ns _ _) (fun y _ => ih _ _)

theorem take_low_ns {W : Nat} {sh : Int} (ap : List Nat) (h1 : 0 ≤ sh) (h2 : sh < W) :
    NoShift (take_low W sh ap) := by
  unfold take_low
  refine ns_bind (rd_ns _ _) (fun a0 _ => ?_)
  refine ns_bind (shl_ns _ h1 h2) (fun m _ => ?_)
  exact ns_bind (wr_ns _ _ _) (fun q _ => ns_pure _)

theorem far_copy_ns {W : Nat} (pa : Nat) {sh : Int} (an bn : Int) (ap bp cp : List Nat)
    (pc : Nat) (nzc : List Nat → Except Fault Nat) (b : mpfr_t) (rnd : mp_rnd_t) (d : Int)
    (hW : 1 ≤ W) (h1 : 0 ≤ sh) (h2 : sh < W) (hz : ∀ q, NoShift (nzc q)) :
    NoShift (far_copy W pa sh an bn ap bp cp pc nzc b rnd d) := by
  have hWp : (0 : Int) ≤ (W : Int) - 1 := by
    have : (1 : Int) ≤ W := by exact_mod_cast hW
    omega
  unfold far_copy
  refine ns_bind ?_ (fun q _ => ?_)
  · unfold far_copy_fill
    exact ns_bind (MPN_COPY_ns _ _ _ _ _) (fun q _ => MPN_ZERO_ns _ _ _)
  refine ns_bind ?_ (fun g _ => ns_pure _)
  unfold far_copy_goto
  refine ns_ite (fun _ => ?_) (fun _ => ?_)
  · refine ns_ite (fun _ => ?_) (fun _ => ns_pure _)
    refine ns_bind (hz _) (fun z _ => ?_)
    refine ns_ite (fun _ => ?_) (fun _ => ns_pure _)
    refine ns_bind (rd_ns _ _) (fun c0 _ => ?_)
    refine ns_bind (shl_ns _ hWp (by omega)) (fun hh _ => ?_)
    refine ns_bind (ns_ite (fun _ => loop121_ns _ _ _ _ _) (fun _ => ns_pure _)) (fun cc _ => ?_)
    refine ns_ite (fun _ => ns_pure _) (fun _ => ?_)
    refine ns_bind (rd_ns _ _) (fun t _ => ?_)
    refine ns_bind (shl_ns _ h1 h2) (fun m _ => ?_)
    exact ns_ite (fun _ => ns_pure _) (fun _ => ns_pure _)
  · refine ns_ite (fun _ => ?_) (fun _ => ns_pure _)
    refine ns_bind (hz _) (fun z _ => ?_)
    exact ns_ite (fun _ => ns_pure _) (fun _ => ns_pure _)

/-- The shift count of lines 209-210 lies strictly between `-W` and `W`. -/
theorem trunc_shift_range {W : Nat} {sh dif : Int} (hW : 1 ≤ W) (h1 : 0 ≤ sh) (h2 : sh < W)
    (hd : 1 ≤ dif) : -(W : Int) < trunc_shift W sh dif ∧ trunc_shift W sh dif < W := by
  have hWp : (0 : Int) < W := by exact_mod_cast hW
  unfold trunc_shift
  rw [Int.tmod_eq_emod (by omega) (by omega)]
  have e2 := Int.emod_nonneg dif (ne_of_gt hWp)
  have e3 := Int.emod_lt_of_pos dif hWp
  split <;> constructor <;> omega

theorem near_shift_trunc_ns {W : Nat} {sh : Int} (cn k : Int) {dif : Int} (ap cp : List Nat)
    (hW : 1 ≤ W) (h1 : 0 ≤ sh) (h2 : sh < W) (hd : 1 ≤ dif) :
    NoShift (near_shift_trunc W sh cn k dif ap cp) := by
  obtain ⟨t1, t2⟩ := trunc_shift_range hW h1 h2 hd
  unfold near_shift_trunc
  simp only []
  refine ns_ite (fun hp => ?_) (fun hp => ?_)
  · exact ns_bind (mpn_rshift_ns _ _ _ _ _ (by omega) t2) (fun r _ => ns_pure _)
  · refine ns_ite (fun hn => ?_) (fun hn => ?_)
    · refine ns_bind (mpn_lshift_ns _ _ _ _ _ (by omega) (by omega)) (fun r _ => ?_)
      refine ns_bind (wr_ns _ _ _) (fun q _ => ?_)
      refine ns_ite (fun _ => ?_) (fun _ => ns_pure _)
      refine ns_bind (rd_ns _ _) (fun x _ => ?_)
      refine ns_bind (shr_ns _ (by omega) (by omega)) (fun y _ => ?_)
      refine ns_bind (rd_ns _ _) (fun a0 _ => ?_)
      exact ns_bind (wr_ns _ _ _) (fun q2 _ => ns_pure _)
    · exact ns_bind (MPN_COPY_ns _ _ _ _ _) (fun q _ => ns_pure _)

theorem near_shift_full_ns {W : Nat} (an cn : Int) {d : Int} (ap cp : List Nat)
    (hW : 1 ≤ W) (hd : 0 ≤ d) : NoShift (near_shift_full W an cn d ap cp) := by
  have hWp : (0 : Int) < W := by exact_mod_cast hW
  unfold near_shift_full
  simp only []
  refine ns_bind (MPN_ZERO_ns _ _ _) (fun q _ => ?_)
  refine ns_ite (fun ho => ?_) (fun _ => ?_)
  · have e1 : d.tmod W = d % W := Int.tmod_eq_emod hd (by omega)
    have e2 := Int.emod_nonneg d (ne_of_gt hWp)
    have e3 := Int.emod_lt_of_pos d hWp
    refine ns_bind (mpn_rshift_ns _ _ _ _ _ (by omega) (by omega)) (fun r _ => ?_)
    refine ns_ite (fun _ => ?_) (fun _ => ns_pure _)
    exact ns_bind (wr_ns _ _ _) (fun q2 _ => ns_pure _)
  · exact ns_bind (MPN_COPY_ns _ _ _ _ _) (fun q2 _ => ns_pure _)

theorem near_shift_ns {W : Nat} (pc : Nat) {sh : Int} (an cn : Int) {dif d : Int}
    (ap cp : List Nat) (hW : 1 ≤ W) (h1 : 0 ≤ sh) (h2 : sh < W) (hdif : 1 ≤ dif)
    (hd : 0 ≤ d) : NoShift (near_shift W pc sh an cn dif d ap cp) := by
  unfold near_shift
  simp only []
  refine ns_bind (MPN_ZERO_ns _ _ _) (fun q _ => ?_)
  refine ns_ite (fun _ => ?_) (fun _ => ?_)
  · exact ns_bind (near_shift_trunc_ns _ _ _ _ hW h1 h2 hdif) (fun r _ => ns_pure _)
  · exact ns_bind (near_shift_full_ns _ _ _ _ hW hd) (fun r _ => ns_pure _)

theorem near_add_ns {W : Nat} (pa pb : Nat) (an bn : Int) (ap bp : List Nat) (overlap : Nat)
    (hW : 2 ≤ W) : NoShift (near_add W pa pb an bn ap bp overlap) := by
  have hWp : (2 : Int) ≤ W := by exact_mod_cast hW
  unfold near_add
  refine ns_bind (ns_ite (fun _ => mpn_add_n_ns _ _ _ _ _ _) (fun _ => mpn_add_n_ns _ _ _ _ _ _))
    (fun r _ => ?_)
  simp only []
  refine ns_ite (fun _ => ?_) (fun _ => ns_pure _)
  refine ns_bind (rd_ns _ _) (fun a0 _ => ?_)
  refine ns_bind (mpn_rshift_ns _ _ _ _ _ (le_refl 1) (by omega)) (fun q _ => ?_)
  refine ns_bind (rd_ns _ _) (fun t _ => ?_)
  refine ns_bind (shl_ns _ (by omega) (by omega)) (fun hh _ => ?_)
  exact ns_bind (wr_ns _ _ _) (fun q2 _ => ns_pure _)

theorem to_nearest_ns {W : Nat} {sh : Int} (c3 : Nat) (ap bp : List Nat) (bn k : Int)
    {dif : Int} (rnd : mp_rnd_t) (hW : 1 ≤ W) (h1 : 0 ≤ sh) (h2 : sh < W) (hdif : dif < W) :
    NoShift (to_nearest W sh c3 ap bp bn k dif rnd) := by
  have hWp : (1 : Int) ≤ W := by exact_mod_cast hW
  unfold to_nearest
  refine ns_bind ?_ (fun t _ => ?_)
  · unfold to_nearest_fetch
    refine ns_ite (fun hs => ?_) (fun _ => ?_)
    · refine ns_bind (take_low_ns _ h1 h2) (fun t _ => ?_)
      refine ns_bind (ns_ite (fun _ => shl_ns _ (by omega) (by omega)) (fun _ => ns_pure _))
        (fun c2 _ => ns_pure _)
    · refine ns_bind (ns_ite (fun _ => rd_ns _ _) (fun _ => ns_pure _)) (fun cc _ => ?_)
      simp only []
      refine ns_bind (ns_ite (fun _ => shl_ns _ (by omega) (by omega)) (fun _ => ns_pure _))
        (fun c2 _ => ns_pure _)
  refine ns_bind ?_ (fun g _ => ns_pure _)
  unfold to_nearest_goto
  refine ns_ite (fun _ => ns_pure _) (fun _ => ?_)
  refine ns_ite (fun _ => ?_) (fun _ => ns_pure _)
  refine ns_bind (ns_ite (fun hc => ?_) (fun _ => ns_pure _)) (fun cc _ => ?_)
  · exact ns_bind (rd_ns _ _) (fun x _ => shl_ns _ (by omega) (by omega))
  refine ns_bind (loopdown_ns _ _ _ _) (fun r _ => ?_)
  refine ns_ite (fun _ => ns_pure _) (fun _ => ?_)
  refine ns_ite (fun _ => ?_) (fun _ => ns_pure _)
  refine ns_bind (rd_ns _ _) (fun a0 _ => ?_)
  refine ns_bind (shl_ns _ h1 h2) (fun m _ => ?_)
  exact ns_ite (fun _ => ns_pure _) (fun _ => ns_pure _)

theorem add_one_ulp_ns {W : Nat} {sh : Int} (an : Int) (ap : List Nat) (hW : 1 ≤ W)
    (h1 : 0 ≤ sh) (h2 : sh < W) : NoShift (add_one_ulp W sh an ap) := by
  have hWp : (1 : Int) ≤ W := by exact_mod_cast hW
  unfold add_one_ulp
  refine ns_bind (shl_ns _ h1 h2) (fun m _ => ?_)
  refine ns_bind (mpn_add_1_ns _ _ _ _ _) (fun r _ => ?_)
  refine ns_ite (fun _ => ?_) (fun _ => ns_pure _)
  refine ns_bind (shl_ns _ (by omega) (by omega)) (fun hh _ => ?_)
  exact ns_bind (wr_ns _ _ _) (fun q _ => ns_pure _)

theorem add1_finish_ns {W : Nat} {sh : Int} (an : Int) (c3 : Nat) (ap : List Nat) {g : Goto}
    (rnd : mp_rnd_t) (hW : 1 ≤ W) (h1 : 0 ≤ sh) (h2 : sh < W) (hg : GotoFit W g) :
    NoShift (add1_finish W sh an c3 ap g rnd) := by
  unfold add1_finish
  refine ns_bind ?_ (fun r _ => ?_)
  · cases g with
    | to_nearest bp bn k dif => exact to_nearest_ns _ _ _ _ _ _ hW h1 h2 hg
    | add_one_ulp => exact ns_pure _
    | end_of_add => exact ns_pure _
  · split
    · exact add_one_ulp_ns _ _ hW h1 h2
    · exact ns_pure _

/-! ## The rounding decisions with every shift executed return -/

theorem loop164_m_ret (U : Shifts) (W : Nat) (bp cp : List Nat) (sh : Int) (hW : 1 ≤ W) :
    ∀ (n : Nat) (s : S164), 0 ≤ s.k → s.k ≤ bp.length → 0 ≤ s.cn → s.cn ≤ cp.length →
      s.k.toNat + s.cn.toNat + (-s.dif).toNat < n →
      Returns (loop164_m U W bp cp sh n s) (fun _ => True) := by
  have hWp : (1 : Int) ≤ W := by exact_mod_cast hW
  intro n
  induction n with
  | zero =>
    intro s _ _ _ _ h
    omega
  | succ n ih =>
    intro s h1 h2 h3 h4 h5
    unfold loop164_m
    refine ret_ite (fun hc => ?_) (fun _ => ret_ok trivial)
    refine ret_bind (P := fun _ => True)
      (ret_ite (fun hk => rd_ret (by omega) (by omega)) (fun _ => ret_pure trivial))
      (fun cc _ => ?_)
    simp only []
    refine ret_bind (P := fun u : Nat × Int × Nat × Int =>
        (s.cn ≠ 0 ∧ 0 ≤ s.dif ∧ u.2.1 = s.cn - 1 ∧ u.2.2.2 = s.dif)
          ∨ (¬ (s.cn ≠ 0 ∧ 0 ≤ s.dif) ∧ u.2.1 = s.cn ∧ u.2.2.2 = s.dif + W))
      (ret_ite (fun hcn => ret_bind (rd_ret (by omega) (by omega))
          (fun c2old _ => ret_pure (Or.inl ⟨hcn.1, hcn.2, rfl, rfl⟩)))
        (fun hcn => ret_pure (Or.inr ⟨hcn, rfl, rfl⟩))) (fun u hu => ?_)
    refine ih _ ?_ ?_ ?_ ?_ ?_
    · show 0 ≤ (if s.k ≠ 0 then s.k - 1 else s.k)
      split <;> omega
    · show (if s.k ≠ 0 then s.k - 1 else s.k) ≤ bp.length
      split <;> omega
    · show 0 ≤ u.2.1
      rcases hu with ⟨a1, a2, a3, a4⟩ | ⟨a1, a3, a4⟩ <;> omega
    · show u.2.1 ≤ cp.length
      rcases hu with ⟨a1, a2, a3, a4⟩ | ⟨a1, a3, a4⟩ <;> omega
    · show (if s.k ≠ 0 then s.k - 1 else s.k).toNat + u.2.1.toNat + (-u.2.2.2).toNat < n
      rcases hu with ⟨a1, a2, a3, a4⟩ | ⟨a1, a3, a4⟩
      · rw [a3, a4]
        split <;> omega
      · rw [a3, a4]
        have hcc := hc.2
        split <;> omega

theorem far_round_goto_m_ret (U : Shifts) (W : Nat) (sh k cn dif : Int) (cc : Nat)
    (ap bp cp : List Nat) (b : mpfr_t) (rnd_mode : mp_rnd_t) (hW : 1 ≤ W)
    (hap : 1 ≤ ap.length) (hk0 : 0 ≤ k) (hk : k ≤ bp.length) (hcn : 1 ≤ cn)
    (hcp : cn ≤ cp.length) :
    Returns (far_round_goto_m U W sh k cn dif cc ap bp cp b rnd_mode)
      (fun g => g = Goto.add_one_ulp ∨ g = Goto.end_of_add) := by
  unfold far_round_goto_m
  refine ret_bind (P := fun s1 : Int × Nat × Nat × Int => 0 ≤ s1.1 ∧ s1.1 ≤ cp.length)
    (ret_ite (fun _ => ret_bind (rd_ret (by omega) (by omega))
        (fun c2old _ => ret_pure (by constructor <;> (show _ ≤ _; omega))))
      (fun _ => ret_pure (by constructor <;> omega))) (fun s1 hs1 => ?_)
  simp only []
  refine ret_bind (P := fun _ : S164 => True) (ret_ite
    (fun _ => loop164_m_ret U W bp cp sh hW _ _ hk0 hk hs1.1 hs1.2 (by dsimp only; omega))
    (fun _ => ret_pure trivial)) (fun s _ => ?_)
  refine ret_ite (fun _ => ret_pure (Or.inl rfl)) (fun _ => ?_)
  refine ret_ite (fun _ => ?_) (fun _ => ret_pure (Or.inr rfl))
  refine ret_bind (rd_ret (le_refl 0) (by omega)) (fun a0 _ => ?_)
  exact ret_ite (fun _ => ret_pure (Or.inl rfl)) (fun _ => ret_pure (Or.inr rfl))

theorem far_round_m_ret (U : Shifts) (W : Nat) (sh an bn cn dif : Int) (ap bp cp : List Nat)
    (b : mpfr_t) (rnd_mode : mp_rnd_t) (hW : 1 ≤ W) (hs0 : 0 ≤ sh) (hs1 : sh < W)
    (han : 1 ≤ an) (hap : (ap.length : Int) = an) (hab : an ≤ bn) (hbp : bn ≤ bp.length)
    (hcn : 1 ≤ cn) (hcp : cn ≤ cp.length) :
    Returns (far_round_m U W sh an bn cn dif ap bp cp b rnd_mode)
      (fun r => r.1.length = ap.length
        ∧ (r.2 = Goto.add_one_ulp ∨ r.2 = Goto.end_of_add)) := by
  unfold far_round_m
  refine ret_bind (ret_of
    (MPN_COPY_safe (le_refl 0) (by omega) (by omega) (by omega) (by omega))
    (nofuel_MPN_COPY _ _ _ _ _) (MPN_COPY_ns _ _ _ _ _)) (fun q hq => ?_)
  refine ret_bind (P := fun t => t.1.length = ap.length)
    (ret_ite (fun _ => ret_mono (ret_of (take_low_safe W sh q (by omega))
        (nofuel_take_low _ _ _) (take_low_ns _ hs0 hs1)) (fun r hr => by omega))
      (fun _ => ret_pure hq)) (fun t ht => ?_)
  refine ret_bind (far_round_goto_m_ret U W sh (bn - an) cn dif t.2 t.1 bp cp b rnd_mode hW
    (by omega) (by omega) (by omega) hcn hcp) (fun g hg => ?_)
  exact ret_pure ⟨ht, hg⟩

theorem loop296_m_ret (U : Shifts) (W : Nat) (bp cp : List Nat) (dif : Int) :
    ∀ (n : Nat) (s : S296), 0 ≤ s.k → s.k ≤ bp.length → 0 ≤ s.kc → s.kc < cp.length →
      s.k.toNat < n →
      Returns (loop296_m U W bp cp dif n s)
        (fun r => 0 ≤ r.k ∧ r.k ≤ bp.length ∧ 0 ≤ r.kc ∧ r.kc < cp.length
          ∧ ¬ ((r.cout = 0 ∨ r.cout = 2 ^ W - 1) ∧ r.k ≠ 0 ∧ r.kc ≠ 0)) := by
  intro n
  induction n with
  | zero =>
    intro s _ _ _ _ h
    omega
  | succ n ih =>
    intro s h1 h2 h3 h4 h5
    unfold loop296_m
    by_cases hc : (s.cout = 0 ∨ s.cout = 2 ^ W - 1) ∧ s.k ≠ 0 ∧ s.kc ≠ 0
    · rw [if_pos hc]
      refine ret_bind (rd_ret (by omega) (by omega)) (fun x _ => ?_)
      refine ret_bind (rd_ret (by omega) (by omega)) (fun hi _ => ?_)
      refine ret_bind (rd_ret (by omega) (by omega)) (fun lo _ => ?_)
      exact ih _ (show 0 ≤ s.k - 1 by omega) (show s.k - 1 ≤ bp.length by omega)
        (show 0 ≤ s.kc - 1 by omega) (show s.kc - 1 < cp.length by omega)
        (show (s.k - 1).toNat < n by omega)
    · rw [if_neg hc]
      exact ret_ok ⟨h1, h2, h3, h4, hc⟩

theorem loopdown_ret (bp : List Nat) (n : Nat) (k : Int) (x : Nat) (h1 : 0 ≤ k)
    (h2 : k ≤ bp.length) (h3 : k.toNat < n) :
    Returns (loopdown bp n k x) (fun _ => True) :=
  ret_of (safe_any (loopdown_fi bp n k x h1 h2)) (nofuel_loopdown bp n k x h3)
    (loopdown_ns bp n k x)

theorem near_case1_goto_m_ret (U : Shifts) (W : Nat) (sh an bn cn k dif : Int) (cc : Nat)
    (ap bp cp : List Nat) (rnd_mode : mp_rnd_t) (hap : 1 ≤ ap.length) (hab : an ≤ bn)
    (hbp : bn ≤ bp.length) (han : 0 ≤ an) (hk1 : 1 ≤ k) (hk2 : k ≤ cn)
    (hcp : cn ≤ cp.length) :
    Returns (near_case1_goto_m U W sh an bn cn k dif cc ap bp cp rnd_mode)
      (fun r => (∃ g, r.1 = some g ∧ (g = Goto.add_one_ulp ∨ g = Goto.end_of_add))
        ∨ (r.1 = none ∧ r.2 = 0)) := by
  unfold near_case1_goto_m
  simp only []
  refine ret_ite (fun _ => ret_pure (Or.inl ⟨_, rfl, Or.inr rfl⟩)) (fun _ => ?_)
  refine ret_bind (loop296_m_ret U W bp cp dif _ _ (show 0 ≤ bn - an by omega)
    (show bn - an ≤ bp.length by omega) (show 0 ≤ cn - k by omega)
    (show cn - k < cp.length by omega) (by dsimp only; omega)) (fun s hs => ?_)
  obtain ⟨s1, s2, s3, s4, s5⟩ := hs
  refine ret_bind (P := fun t : S296 => 0 ≤ t.k ∧ t.k ≤ bp.length
      ∧ (t.kc ≠ 0 → ¬ ((t.cout = 0 ∨ t.cout = 2 ^ W - 1) ∧ t.k ≠ 0 ∧ t.kc ≠ 0)))
    (ret_ite (fun hz => ?_) (fun _ => ret_pure ⟨s1, s2, fun _ => s5⟩)) (fun t ht => ?_)
  · refine ret_bind (rd_ret (le_refl 0) (by omega)) (fun c0 _ => ?_)
    refine ret_bind (P := fun u : Nat × Nat × Int => 0 ≤ u.2.2 ∧ u.2.2 ≤ bp.length)
      (ret_ite (fun _ => ?_) (fun _ => ret_pure ⟨s1, s2⟩)) (fun u hu => ?_)
    · refine ret_bind (rd_ret (by omega) (by omega)) (fun y _ => ?_)
      exact ret_pure (by constructor <;> (dsimp only; omega))
    · exact ret_pure ⟨hu.1, hu.2, fun hne => absurd hz.1 hne⟩
  · obtain ⟨t1, t2, t3⟩ := ht
    refine ret_ite (fun _ => ret_pure (Or.inl ⟨_, rfl, Or.inl rfl⟩)) (fun hn1 => ?_)
    refine ret_ite (fun _ => ret_pure (Or.inl ⟨_, rfl, Or.inr rfl⟩)) (fun hn2 => ?_)
    refine ret_ite (fun _ => ?_) (fun hkc => ?_)
    · refine ret_bind (loopdown_ret bp _ _ _ t1 t2 (by omega)) (fun r _ => ?_)
      refine ret_ite (fun _ => ?_) (fun _ => ret_pure (Or.inl ⟨_, rfl, Or.inr rfl⟩))
      refine ret_ite (fun _ => ret_pure (Or.inl ⟨_, rfl, Or.inl rfl⟩)) (fun _ => ?_)
      refine ret_ite (fun _ => ?_) (fun _ => ret_pure (Or.inl ⟨_, rfl, Or.inr rfl⟩))
      refine ret_bind (rd_ret (le_refl 0) (by omega)) (fun a0 _ => ?_)
      exact ret_ite (fun _ => ret_pure (Or.inl ⟨_, rfl, Or.inl rfl⟩))
        (fun _ => ret_pure (Or.inl ⟨_, rfl, Or.inr rfl⟩))
    · refine ret_pure (Or.inr ⟨rfl, ?_⟩)
      have hc0 : t.cout = 0 := by
        unfold spos at hn1
        unfold sneg at hn2
        simp only [decide_eq_true_eq, not_or, not_and, not_lt, not_le] at hn1 hn2
        by_contra hne
        have := hn1.1 (Nat.pos_of_ne_zero hne)
        omega
      have := t3 hkc
      by_contra hk
      exact this ⟨Or.inl hc0, hk, hkc⟩

/-! ## `mpfr_add1` with every shift executed returns -/

theorem sh_range {W pa : Nat} (hW : 1 ≤ W) (hpa : 1 ≤ pa) :
    0 ≤ (((pa - 1) / W + 1 : Nat) : Int) * W - pa
      ∧ (((pa - 1) / W + 1 : Nat) : Int) * W - pa < W := by
  have h1 := prec_le_limbs W pa hW hpa
  have h2 := limbs_lt hW hpa
  have e : ((((pa - 1) / W + 1) * W : Nat) : Int) = (((pa - 1) / W + 1 : Nat) : Int) * W := by
    push_cast
    ring
  rw [← e]
  omega

theorem near_shift_trunc_dif {W : Nat} {sh cn k dif : Int} {ap cp : List Nat}
    {r : List Nat × Int} (h : near_shift_trunc W sh cn k dif ap cp = .ok r) :
    r.2 = trunc_shift W sh dif := by
  unfold near_shift_trunc at h
  simp only [] at h
  split at h
  · simp only [bind_ok, pure, Except.pure, Except.ok.injEq] at h
    obtain ⟨q, _, e⟩ := h
    rw [← e]
  · split at h
    · simp only [bind_ok] at h
      obtain ⟨q, _, q2, _, h⟩ := h
      split at h
      · simp only [bind_ok, pure, Except.pure, Except.ok.injEq] at h
        obtain ⟨x, _, y, _, a0, _, q3, _, e⟩ := h
        rw [← e]
      · simp only [pure, Except.pure, Except.ok.injEq] at h
        rw [← h]
    · simp only [bind_ok, pure, Except.pure, Except.ok.injEq] at h
      obtain ⟨q, _, e⟩ := h
      rw [← e]

theorem near_shift_dif {W pc : Nat} {sh an cn dif d : Int} {ap cp : List Nat}
    {s : List Nat × Int × Int × Nat} (h : near_shift W pc sh an cn dif d ap cp = .ok s) :
    s.2.2.2 = 1 → s.2.2.1 = trunc_shift W sh dif := by
  unfold near_shift at h
  simp only [bind_ok] at h
  obtain ⟨q, _, h⟩ := h
  split at h
  · simp only [bind_ok, pure, Except.pure, Except.ok.injEq] at h
    obtain ⟨r, hr, e⟩ := h
    rw [← e]
    intro _
    exact near_shift_trunc_dif hr
  · simp only [bind_ok, pure, Except.pure, Except.ok.injEq] at h
    obtain ⟨r, hr, e⟩ := h
    rw [← e]
    intro h0
    cases h0

theorem near_round_m_ret (U : Shifts) (W : Nat) (sh an bn cn k dif : Int)
    (ap bp cp : List Nat) (overlap : Nat) (b : mpfr_t) (rnd_mode : mp_rnd_t)
    (hs0 : 0 ≤ sh) (hs1 : sh < W) (hap : 1 ≤ ap.length) (han : 0 ≤ an)
    (hbp : bn ≤ bp.length) (hcn : 0 ≤ cn) (hcp : cn ≤ cp.length)
    (h1 : overlap = 1 → an ≤ bn ∧ 1 ≤ k ∧ k ≤ cn ∧ dif < W)
    (h3 : overlap = 3 → 1 ≤ k ∧ k ≤ cn ∧ dif < W) (h0 : overlap = 0 → an ≤ bn) :
    Returns (near_round_m U W sh an bn cn k dif ap bp cp overlap b rnd_mode)
      (fun r => r.1.length = ap.length ∧ GotoSafe r.2 ∧ GotoFit W r.2) := by
  have hW0 : (0 : Int) < W := by omega
  unfold near_round_m
  refine ret_ite (fun _ => ?_) (fun _ => ?_)
  · match overlap, h1, h3, h0 with
    | 1, h1, _, _ =>
      obtain ⟨f1, f2, f3, f4⟩ := h1 rfl
      simp only []
      have hc1 : Returns (near_case1_m U W sh an bn cn k dif ap bp cp rnd_mode)
          (fun r => r.1.length = ap.length
            ∧ ((∃ g, r.2.1 = some g ∧ (g = Goto.add_one_ulp ∨ g = Goto.end_of_add))
              ∨ (r.2.1 = none ∧ r.2.2 = 0))) := by
        unfold near_case1_m
        refine ret_bind (ret_of (take_low_safe W sh ap hap) (nofuel_take_low _ _ _)
          (take_low_ns _ hs0 hs1)) (fun t ht => ?_)
        refine ret_bind (near_case1_goto_m_ret U W sh an bn cn k dif t.2 t.1 bp cp rnd_mode
          (by omega) f1 hbp han f2 f3 hcp) (fun g hg => ?_)
        exact ret_pure ⟨ht, hg⟩
      refine ret_bind hc1 (fun r hr => ?_)
      obtain ⟨l1, l2⟩ := hr
      rcases l2 with ⟨g, e1, e2⟩ | ⟨e1, e2⟩
      · rw [e1]
        refine ret_pure ⟨l1, goto_plain e2, ?_⟩
        rcases e2 with e | e <;> rw [e] <;> trivial
      · rw [e1, e2]
        refine ret_pure ⟨l1, ?_, f4⟩
        show 0 ≤ cn - 0 ∧ cn - 0 ≤ cp.length ∧ cn ≤ cp.length
        omega
    | 3, _, h3, _ =>
      obtain ⟨f2, f3, f4⟩ := h3 rfl
      refine ret_pure ⟨rfl, ?_, f4⟩
      show 0 ≤ cn - k ∧ cn - k ≤ cp.length ∧ cn ≤ cp.length
      omega
    | 0, _, _, h0 =>
      have f1 := h0 rfl
      refine ret_pure ⟨rfl, ?_, hW0⟩
      show 0 ≤ bn - an ∧ bn - an ≤ bp.length ∧ bn ≤ bp.length
      omega
    | 2, _, _, _ => exact ret_pure ⟨rfl, trivial, trivial⟩
    | n + 4, _, _, _ => exact ret_pure ⟨rfl, trivial, trivial⟩
  · refine ret_bind (rd_ret (le_refl 0) (by omega)) (fun a0 _ => ?_)
    refine ret_bind (wr_ret _ (le_refl 0) (by omega)) (fun q hq => ?_)
    exact ret_pure ⟨hq, trivial, trivial⟩

/-- For a limb width of at least 2 bits, positive precisions of `a` and `c`, buffers of
exactly the significant limbs and `diff_exp >= 0`, the limb computation of `mpfr_add1`
with every shift executed returns, whatever the machine yields for the shifts whose count
is out of range. -/
theorem add1_core_m_ret (U : Shifts) (W pa pb pc : Nat) (ap bp cp : List Nat)
    (nzc : List Nat → Except Fault Nat) (b : mpfr_t) (rnd_mode : mp_rnd_t) (d : Int)
    (hW : 2 ≤ W) (hpa : 1 ≤ pa) (hpc : 1 ≤ pc) (hd : 0 ≤ d)
    (la : ap.length = (pa - 1) / W + 1) (lb : bp.length = (pb - 1) / W + 1)
    (lc : cp.length = (pc - 1) / W + 1)
    (hz : ∀ q : List Nat, q.length = ap.length → nzc q ≠ .error Fault.index)
    (hzf : ∀ q, NoFuel (nzc q)) (hzs : ∀ q, NoShift (nzc q)) :
    Returns (add1_core_m U W pa pb pc ap bp cp nzc b rnd_mode d) (fun _ => True) := by
  have hW1 : 1 ≤ W := by omega
  unfold add1_core_m
  simp only []
  have hWp : (0 : Int) < W := by exact_mod_cast hW1
  obtain ⟨hs0, hs1⟩ := sh_range hW1 hpa
  have han : (1 : Int) ≤ (((pa - 1) / W + 1 : Nat) : Int) := by
    exact_mod_cast Nat.le_add_left 1 _
  have hla : (ap.length : Int) = (((pa - 1) / W + 1 : Nat) : Int) := by rw [la]
  have hlb : (bp.length : Int) = (((pb - 1) / W + 1 : Nat) : Int) := by rw [lb]
  have hlc : (cp.length : Int) = (((pc - 1) / W + 1 : Nat) : Int) := by rw [lc]
  have hbn : (1 : Int) ≤ (((pb - 1) / W + 1 : Nat) : Int) := by
    exact_mod_cast Nat.le_add_left 1 _
  have hcn : (1 : Int) ≤ (((pc - 1) / W + 1 : Nat) : Int) := by
    exact_mod_cast Nat.le_add_left 1 _
  have hle : pb ≤ pa → (((pb - 1) / W + 1 : Nat) : Int) ≤ (((pa - 1) / W + 1 : Nat) : Int) :=
    fun h => by exact_mod_cast limbs_mono h
  have hgt : ¬ pb ≤ pa →
      (((pa - 1) / W + 1 : Nat) : Int) ≤ (((pb - 1) / W + 1 : Nat) : Int) :=
    fun h => by exact_mod_cast limbs_mono (W := W) (show pa ≤ pb by omega)
  have hmain : Returns
      (if (pa : Int) - d ≤ 0 then do
        let r ←
          (if pb ≤ pa then
            far_copy W pa ((((pa - 1) / W + 1 : Nat) : Int) * W - pa)
              (((pa - 1) / W + 1 : Nat) : Int) (((pb - 1) / W + 1 : Nat) : Int) ap bp cp pc
              nzc b rnd_mode d
          else
            far_round_m U W ((((pa - 1) / W + 1 : Nat) : Int) * W - pa)
              (((pa - 1) / W + 1 : Nat) : Int) (((pb - 1) / W + 1 : Nat) : Int)
              (((pc - 1) / W + 1 : Nat) : Int) ((pa : Int) - d) ap bp cp b rnd_mode)
        pure (r.1, (0 : Int), 0, r.2)
      else
        near_m U W pa pb pc ((((pa - 1) / W + 1 : Nat) : Int) * W - pa)
          (((pa - 1) / W + 1 : Nat) : Int) (((pb - 1) / W + 1 : Nat) : Int)
          (((pc - 1) / W + 1 : Nat) : Int) ((pa : Int) - d) d ap bp cp b rnd_mode)
      (fun r => r.1.length = ap.length ∧ GotoSafe r.2.2.2 ∧ GotoFit W r.2.2.2) := by
    refine ret_ite (fun _ => ?_) (fun hnear => ?_)
    · refine ret_bind (P := fun r : List Nat × Goto => r.1.length = ap.length
          ∧ (r.2 = Goto.add_one_ulp ∨ r.2 = Goto.end_of_add))
        (ret_ite (fun h => ?_) (fun h => ?_)) (fun r hr => ret_pure ⟨hr.1, goto_plain hr.2, ?_⟩)
      · refine ret_mono (ret_and (ret_of (far_copy_safe W pa _ _ _ ap bp cp pc nzc b rnd_mode d
          han hla (by omega) (hle h) (by omega) (by push_cast at hlc ⊢; omega) hz)
          (nofuel_far_copy _ _ _ _ _ _ _ _ _ _ _ _ _ hzf)
          (far_copy_ns _ _ _ _ _ _ _ _ _ _ _ hW1 hs0 hs1 hzs))
          (Q := fun r => r.2 = Goto.add_one_ulp ∨ r.2 = Goto.end_of_add) (fun r hr => ?_))
          (fun r hr => ⟨hr.1.1, hr.2⟩)
        unfold far_copy at hr
        simp only [bind_ok, pure, Except.pure, Except.ok.injEq] at hr
        obtain ⟨q, _, g, hg, e⟩ := hr
        rw [← e]
        exact far_copy_goto_cases hg
      · exact far_round_m_ret U W _ _ _ _ _ ap bp cp b rnd_mode hW1 hs0 hs1 han hla (hgt h)
          (by omega) hcn (by omega)
      · rcases hr.2 with e | e <;> rw [e] <;> trivial
    · have hdif : 1 ≤ (pa : Int) - d := by omega
      obtain ⟨dn, rfl⟩ := Int.eq_ofNat_of_zero_le hd
      have hk1 : 1 ≤ ((pa : Int) - (dn : Int) - 1).tdiv W + 1 := by
        have := Int.tdiv_nonneg (show 0 ≤ (pa : Int) - (dn : Int) - 1 by omega) hWp.le
        omega
      have hcov := shift_cover hW1 hpa (Int.ofNat_nonneg dn) (by omega)
      have hdq : 0 ≤ ((dn : Nat) : Int).tdiv W := Int.tdiv_nonneg (Int.ofNat_nonneg dn) hWp.le
      have hk2 : ((pa : Int) - (dn : Int) - 1).tdiv W + 1
          ≤ (((pa - 1) / W + 1 : Nat) : Int) := by omega
      have htr : (pa : Int) - (dn : Int) ≤ pc →
          ((pa : Int) - (dn : Int) - 1).tdiv W + 1 ≤ (((pc - 1) / W + 1 : Nat) : Int) := by
        intro h
        rw [Int.tdiv_eq_ediv (by omega) hWp.le]
        have := Int.ediv_le_ediv hWp (show (pa : Int) - (dn : Int) - 1 ≤ ((pc - 1 : Nat) : Int)
          by omega)
        push_cast
        push_cast at this
        omega
      have hls : (pa : Int) - (dn : Int) ≤ pc →
          trunc_shift W ((((pa - 1) / W + 1 : Nat) : Int) * W - pa) ((pa : Int) - (dn : Int)) < 0 →
          ((pa : Int) - (dn : Int) - 1).tdiv W + 1 < (((pa - 1) / W + 1 : Nat) : Int) := by
        intro _ hneg
        rw [trunc_shift_eq hW1 hdif] at hneg
        by_contra hge
        have e : ((pa : Int) - (dn : Int) - 1).tdiv W + 1 = (((pa - 1) / W + 1 : Nat) : Int) := by
          omega
        rw [e] at hneg
        omega
      have hfull : ¬ (pa : Int) - (dn : Int) ≤ pc →
          0 ≤ ((dn : Nat) : Int).tdiv W
            ∧ 0 ≤ (((pa - 1) / W + 1 : Nat) : Int) - ((dn : Nat) : Int).tdiv W
                - (((pc - 1) / W + 1 : Nat) : Int) := by
        intro h
        refine ⟨hdq, ?_⟩
        have := @limbs_fit W pc pa dn hW1 hpc (by omega)
        rw [tdiv_cast]
        have h2 : ((dn / W + ((pc - 1) / W + 1) : Nat) : Int) ≤ (((pa - 1) / W + 1 : Nat) : Int) := by
          exact_mod_cast this
        push_cast at h2 ⊢
        omega
      have htb := (@trunc_shift_range W ((((pa - 1) / W + 1 : Nat) : Int) * W - pa) _
        hW1 hs0 hs1 hdif).2
      unfold near_m
      refine ret_bind (ret_and (ret_of (near_shift_safe W pc _ _ _ _ _ ap cp hla (by omega)
        (by omega) hk1 hk2 htr hls hfull) (nofuel_near_shift _ _ _ _ _ _ _ _ _)
        (near_shift_ns _ _ _ _ _ hW1 hs0 hs1 hdif (Int.ofNat_nonneg dn)))
        (fun s hs => near_shift_dif hs)) (fun s hs => ?_)
      obtain ⟨⟨s1, s2⟩, s3⟩ := hs
      refine ret_bind (ret_of (near_add_safe W pa pb _ _ s.1 bp s.2.2.2 han (by omega) (by omega)
        (by omega) hle hgt) (nofuel_near_add _ _ _ _ _ _ _ _) (near_add_ns _ _ _ _ _ _ _ hW))
        (fun t ht => ?_)
      obtain ⟨t1, t2⟩ := ht
      refine ret_bind (near_round_m_ret U W _ _ _ _ s.2.1 s.2.2.1 t.1 bp cp t.2.1 b rnd_mode
        hs0 hs1 (by omega) (by omega) (by omega) (by omega) (by omega) ?_ ?_ ?_)
        (fun r hr => ret_pure ⟨by dsimp only; omega, hr.2.1, hr.2.2⟩)
      · intro ho
        rw [t2] at ho
        by_cases hp : pb ≤ pa
        · rw [if_pos hp] at ho
          rcases s2 with ⟨e, _, _⟩ | e <;> omega
        · rw [if_neg hp] at ho
          rcases s2 with ⟨e, f1, f2⟩ | e
          · exact ⟨hgt hp, f1, f2, by rw [s3 e]; exact htb⟩
          · omega
      · intro ho
        rw [t2] at ho
        by_cases hp : pb ≤ pa
        · rw [if_pos hp] at ho
          rcases s2 with ⟨e, f1, f2⟩ | e
          · exact ⟨f1, f2, by rw [s3 e]; exact htb⟩
          · omega
        · rw [if_neg hp] at ho
          rcases s2 with ⟨e, _, _⟩ | e <;> omega
      · intro ho
        rw [t2] at ho
        by_cases hp : pb ≤ pa
        · rw [if_pos hp] at ho
          omega
        · exact hgt hp
  refine ret_bind hmain (fun r hr => ?_)
  obtain ⟨r1, r2, r3⟩ := hr
  refine ret_bind (P := fun _ => True) (ret_of
    (safe_any (add1_finish_safe W _ _ _ r.1 r.2.2.2 rnd_mode han (by omega) r2))
    (nofuel_add1_finish _ _ _ _ _ _ _) (add1_finish_ns _ _ _ _ hW1 hs0 hs1 r3))
    (fun f _ => ret_pure trivial)

/-! ## What `mpfr_add1` with every shift executed stores -/

theorem shl_m_eq (U : Shifts) {W : Nat} (x : Nat) {n : Int} (h1 : 0 ≤ n) (h2 : n < W) :
    shl W x n = .ok (shl_m U W x n) := by
  unfold shl shl_m
  rw [if_pos ⟨h1, h2⟩, if_pos ⟨h1, h2⟩]

theorem shr_m_eq (U : Shifts) {W : Nat} (x : Nat) {n : Int} (h1 : 0 ≤ n) (h2 : n < W) :
    shr W x n = .ok (shr_m U W x n) := by
  unfold shr shr_m
  rw [if_pos ⟨h1, h2⟩, if_pos ⟨h1, h2⟩]

theorem far_round_goto_m_cases {U : Shifts} {W : Nat} {sh k cn dif : Int} {cc : Nat}
    {ap bp cp : List Nat} {b : mpfr_t} {rnd : mp_rnd_t} {g : Goto}
    (h : far_round_goto_m U W sh k cn dif cc ap bp cp b rnd = .ok g) :
    g = Goto.add_one_ulp ∨ g = Goto.end_of_add := by
  unfold far_round_goto_m at h
  simp only [bind_ok] at h
  obtain ⟨s1, _, s, _, h⟩ := h
  generalize (if s.cout = 0 then (if s.cc ≠ 0 then (1 : Int) else 0) else s.cout) = cout at h
  split at h
  · simp only [pure, Except.pure, Except.ok.injEq] at h
    exact Or.inl h.symm
  · split at h
    · simp only [bind_ok] at h
      obtain ⟨t, _, h⟩ := h
      split at h
      · simp only [pure, Except.pure, Except.ok.injEq] at h
        exact Or.inl h.symm
      · simp only [pure, Except.pure, Except.ok.injEq] at h
        exact Or.inr h.symm
    · simp only [pure, Except.pure, Except.ok.injEq] at h
      exact Or.inr h.symm

theorem near_round_m_good {U : Shifts} {W : Nat} {sh an bn cn k dif : Int}
    {ap bp cp : List Nat} {overlap : Nat} {b : mpfr_t} {rnd : mp_rnd_t} {r : List Nat × Goto}
    (hW : 1 ≤ W) (hs0 : 0 ≤ sh) (hs1 : sh < W) (h1 : AllLt W ap) (h2 : TopSet W an ap)
    (h : near_round_m U W sh an bn cn k dif ap bp cp overlap b rnd = .ok r) :
    AllLt W r.1 ∧ TopSet W an r.1 := by
  unfold near_round_m at h
  split at h
  · split at h
    · simp only [bind_ok] at h
      obtain ⟨t, ht, h⟩ := h
      have ht' : AllLt W t.1 ∧ TopSet W an t.1 := by
        unfold near_case1_m at ht
        simp only [bind_ok, pure, Except.pure, Except.ok.injEq] at ht
        obtain ⟨u, hu, g, -, e⟩ := ht
        subst e
        exact take_low_good hW h1 h2 hu
      split at h <;>
      · simp only [pure, Except.pure, Except.ok.injEq] at h
        subst h
        exact ht'
    all_goals
      simp only [pure, Except.pure, Except.ok.injEq] at h
      subst h
      exact ⟨h1, h2⟩
  · simp only [bind_ok, pure, Except.pure, Except.ok.injEq] at h
    obtain ⟨a0, ha0, q, hq, e⟩ := h
    subst e
    exact mask_write hW h1 h2 ha0 (low_mask_lt (shl_m_eq U 1 hs0 hs1)) hq

theorem far_round_m_good {U : Shifts} {W : Nat} {sh an bn cn dif : Int} {ap bp cp : List Nat}
    {b : mpfr_t} {rnd : mp_rnd_t} {r : List Nat × Goto} (hW : 1 ≤ W) (han : 1 ≤ an)
    (ha : AllLt W ap) (hbl : AllLt W bp) (hb : TopSet W bn bp)
    (h : far_round_m U W sh an bn cn dif ap bp cp b rnd = .ok r) :
    AllLt W r.1 ∧ TopSet W an r.1 := by
  unfold far_round_m at h
  simp only [bind_ok, pure, Except.pure, Except.ok.injEq] at h
  obtain ⟨a1, h1, t, ht, g, -, e⟩ := h
  subst e
  have g1 : AllLt W a1 := MPN_COPY_allLt ha hbl h1
  have g2 : TopSet W an a1 := by
    obtain ⟨s, hs, hp1⟩ := MPN_COPY_eq_ok h1
    obtain ⟨hbn, x, hx, hx1, hx2⟩ := topSet_getElem hb
    obtain ⟨hk, _, _, _⟩ := seg_eq_ok hs
    have hsl := seg_length hs
    apply topSet_of_getElem han (t := x)
    · rw [put_getElem? hp1, if_neg (by simp), if_pos (by simp; omega),
        seg_getElem? hs _ (by simp; omega)]
      simp only [Int.toNat_zero, Nat.sub_zero]
      have : (bn - an).toNat + (an - 1).toNat = (bn - 1).toNat := by omega
      rw [this]
      exact hx
    · exact hx1
    · exact hx2
  split at ht
  · exact take_low_good hW g1 g2 ht
  · simp only [pure, Except.pure, Except.ok.injEq] at ht
    subst ht
    exact ⟨g1, g2⟩

theorem near_m_good {U : Shifts} {W pa pb pc : Nat} {sh an bn cn dif d : Int}
    {ap bp cp : List Nat} {b : mpfr_t} {rnd : mp_rnd_t} {r : List Nat × Int × Nat × Goto}
    (hW : 1 ≤ W) (hs0 : 0 ≤ sh) (hs1 : sh < W) (han : 1 ≤ an) (ha : AllLt W ap)
    (hcl : AllLt W cp) (hb : TopSet W bn bp)
    (h : near_m U W pa pb pc sh an bn cn dif d ap bp cp b rnd = .ok r) :
    AllLt W r.1 ∧ TopSet W an r.1 := by
  unfold near_m at h
  simp only [bind_ok, pure, Except.pure, Except.ok.injEq] at h
  obtain ⟨s, hs, t, ht, u, hu, e⟩ := h
  subst e
  have g1 := near_add_good hW han (near_shift_allLt ha hcl hs) hb ht
  exact near_round_m_good hW hs0 hs1 g1.1 g1.2 hu

theorem add1_core_m_good {U : Shifts} {W pa pb pc : Nat} {ap bp cp : List Nat}
    {nzc : List Nat → Except Fault Nat} {b : mpfr_t} {rnd : mp_rnd_t} {d : Int}
    {r : List Nat × Int} (hW : 1 ≤ W) (hpa : 1 ≤ pa) (ha : AllLt W ap) (hb : AllLt W bp)
    (hbt : TopSet W (((pb - 1) / W + 1 : Nat) : Int) bp) (hc : AllLt W cp)
    (hr : add1_core_m U W pa pb pc ap bp cp nzc b rnd d = .ok r) :
    AllLt W r.1 ∧ TopSet W (((pa - 1) / W + 1 : Nat) : Int) r.1 := by
  obtain ⟨hs0, hs1⟩ := sh_range hW hpa
  unfold add1_core_m at hr
  simp only [bind_ok] at hr
  obtain ⟨u, hu, f, hf, e⟩ := hr
  simp only [pure, Except.pure, Except.ok.injEq] at e
  subst e
  have han : (1 : Int) ≤ (((pa - 1) / W + 1 : Nat) : Int) := by
    exact_mod_cast Nat.le_add_left 1 _
  have g : AllLt W u.1 ∧ TopSet W (((pa - 1) / W + 1 : Nat) : Int) u.1 := by
    split at hu
    · simp only [bind_ok, pure, Except.pure, Except.ok.injEq] at hu
      obtain ⟨v, hv, e⟩ := hu
      subst e
      split at hv
      · exact far_copy_good ha hb hbt hv
      · exact far_round_m_good hW han ha hb hbt hv
    · exact near_m_good hW hs0 hs1 han ha hc hbt hu
  exact add1_finish_good (r := f) hW g.1 g.2 hf

theorem add1_limbs_m_eq_core (U : Shifts) (W : Nat) (h : Heap) (a b c : Ptr) (rnd : mp_rnd_t)
    (d : Int) :
    add1_limbs_m U W h a b c rnd d =
      add1_core_m U W (h a).prec (h b).prec (h c).prec (h a).mant (h b).mant (h c).mant
        (nzc_of W h a c) (h b) rnd d := by
  unfold add1_limbs_m
  by_cases hab : a = b
  · subst hab
    by_cases hac : a = c
    · subst hac
      simp [seg_all (h a).mant (ABSSIZE (h a)) rfl, bind, Except.bind, pure, Except.pure]
    · simp [hac, seg_all (h a).mant (ABSSIZE (h a)) rfl, bind, Except.bind, pure,
        Except.pure]
  · by_cases hac : a = c
    · subst hac
      simp [hab, seg_all (h a).mant (ABSSIZE (h a)) rfl, bind, Except.bind, pure,
        Except.pure]
    · simp [hab, hac, bind, Except.bind, pure, Except.pure]

/-- The call of `mpfr_add1`, every shift executed, in terms of the limb computation on the
three buffers. -/
theorem mpfr_add1_m_eq (U : Shifts) (W : Nat) (h : Heap) (a b c : Ptr) (rnd : mp_rnd_t)
    (d : Int) :
    mpfr_add1_m U W h a b c rnd d =
      (add1_core_m U W (h a).prec (h b).prec (h c).prec (h a).mant (h b).mant (h c).mant
        (nzc_of W (h.set a (add1_header h a b)) a c) ((h.set a (add1_header h a b)) b) rnd d).map
        (fun r => h.set a { add1_header h a b with
          mant := r.1, exp := (add1_header h a b).exp + r.2 }) := by
  unfold mpfr_add1_m
  simp only []
  rw [add1_limbs_m_eq_core]
  simp only [header_heap_mant, header_heap_prec]
  cases add1_core_m U W (h a).prec (h b).prec (h c).prec (h a).mant (h b).mant (h c).mant
    (nzc_of W (h.set a (add1_header h a b)) a c) ((h.set a (add1_header h a b)) b) rnd d <;> rfl

theorem mpfr_add1_m_inv {U : Shifts} {W : Nat} {h g : Heap} {a b c : Ptr} {rnd : mp_rnd_t}
    {d : Int} (hr : mpfr_add1_m U W h a b c rnd d = .ok g) :
    ∃ r, add1_core_m U W (h a).prec (h b).prec (h c).prec (h a).mant (h b).mant (h c).mant
        (nzc_of W (h.set a (add1_header h a b)) a c) ((h.set a (add1_header h a b)) b) rnd d
          = .ok r
      ∧ g = h.set a { add1_header h a b with
          mant := r.1, exp := (add1_header h a b).exp + r.2 } := by
  rw [mpfr_add1_m_eq] at hr
  cases hc : add1_core_m U W (h a).prec (h b).prec (h c).prec (h a).mant (h b).mant (h c).mant
    (nzc_of W (h.set a (add1_header h a b)) a c) ((h.set a (add1_header h a b)) b) rnd d with
  | error e =>
    rw [hc] at hr
    cases hr
  | ok r =>
    rw [hc] at hr
    simp only [Except.map, Except.ok.injEq] at hr
    exact ⟨r, rfl, hr.symm⟩

theorem mpfr_add1_m_good {U : Shifts} {W : Nat} {h g : Heap} {a b c : Ptr} {rnd : mp_rnd_t}
    {d : Int} (hW : 1 ≤ W) (hpa : 1 ≤ (h a).prec) (ha : AllLt W (h a).mant)
    (hb : AllLt W (h b).mant) (hbt : TopSet W (nlimbs W (h b)) (h b).mant)
    (hc : AllLt W (h c).mant) (hr : mpfr_add1_m U W h a b c rnd d = .ok g) :
    AllLt W (g a).mant ∧ TopSet W (nlimbs W (g a)) (g a).mant := by
  obtain ⟨r, hk, e⟩ := mpfr_add1_m_inv hr
  subst e
  have k := add1_core_m_good hW hpa ha hb hbt hc hk
  simpa [Heap.set, nlimbs, add1_header_prec] using k

theorem mpfr_add1_m_neg {U : Shifts} {W : Nat} {h g : Heap} {a b c : Ptr} {rnd : mp_rnd_t}
    {d : Int} (hr : mpfr_add1_m U W h a b c rnd d = .ok g) : (g a).neg = (h b).neg := by
  obtain ⟨r, -, e⟩ := mpfr_add1_m_inv hr
  subst e
  simp [Heap.set, add1_header_neg]

/-! ## Exponent and far regime of `mpfr_add1` with every shift executed -/

theorem add1_core_m_exp {U : Shifts} {W pa pb pc : Nat} {ap bp cp : List Nat}
    {nzc : List Nat → Except Fault Nat} {b : mpfr_t} {rnd : mp_rnd_t} {d : Int}
    {r : List Nat × Int} (hr : add1_core_m U W pa pb pc ap bp cp nzc b rnd d = .ok r) :
    ∃ c1 c2, sum_carry W pa pb pc ap bp cp d = .ok c1 ∧
      ulp_carry_m U W pa pb pc ap bp cp nzc b rnd d = .ok c2 ∧
      r.2 = (if c1 ≠ 0 then 1 else 0) + (if c2 ≠ 0 then 1 else 0) := by
  unfold add1_core_m at hr
  simp only [bind_ok] at hr
  obtain ⟨u, hu, f, hf, e⟩ := hr
  simp only [pure, Except.pure, Except.ok.injEq] at e
  subst e
  unfold add1_finish at hf
  simp only [bind_ok] at hf
  obtain ⟨t, ht, hf⟩ := hf
  -- the one-ulp increment
  have h2 : ∃ c2, ulp_carry_m U W pa pb pc ap bp cp nzc b rnd d = .ok c2 ∧
      f.2 = if c2 ≠ 0 then 1 else 0 := by
    unfold ulp_carry_m
    simp only [bind_ok]
    by_cases htt : t.2 = true
    · rw [if_pos htt] at hf
      obtain ⟨m, q, hm, hq, e⟩ := add_one_ulp_exp hf
      refine ⟨q.2, ⟨u, hu, t, ht, ?_⟩, e⟩
      rw [if_pos htt]
      simp only [bind_ok, pure, Except.pure, Except.ok.injEq]
      exact ⟨m, hm, q, hq, rfl⟩
    · rw [if_neg htt] at hf
      simp only [pure, Except.pure, Except.ok.injEq] at hf
      refine ⟨0, ⟨u, hu, t, ht, ?_⟩, ?_⟩
      · rw [if_neg htt]
        rfl
      · rw [← hf]
        rfl
  -- the limb addition
  have h1 : ∃ c1, sum_carry W pa pb pc ap bp cp d = .ok c1 ∧
      u.2.1 = if c1 ≠ 0 then 1 else 0 := by
    unfold sum_carry
    split at hu
    · rename_i hd
      simp only [bind_ok, pure, Except.pure, Except.ok.injEq] at hu
      obtain ⟨v, _, e⟩ := hu
      refine ⟨0, ?_, ?_⟩
      · simp only [if_pos hd]
        rfl
      · rw [← e]
        rfl
    · rename_i hd
      unfold near_m at hu
      simp only [bind_ok, pure, Except.pure, Except.ok.injEq] at hu
      obtain ⟨s, hs, t, ht, v, _, e⟩ := hu
      obtain ⟨q, hq, e2⟩ := near_add_exp ht
      refine ⟨q.2, ?_, ?_⟩
      · simp only [if_neg hd, bind_ok, pure, Except.pure, Except.ok.injEq]
        exact ⟨s, hs, q, hq, rfl⟩
      · rw [← e]
        exact e2
  obtain ⟨c1, hc1, e1⟩ := h1
  obtain ⟨c2, hc2, e2⟩ := h2
  exact ⟨c1, c2, hc1, hc2, by rw [e1, e2]⟩

theorem mpfr_add1_m_exp {U : Shifts} {W : Nat} {h g : Heap} {a b c : Ptr} {rnd : mp_rnd_t}
    {d : Int} (hr : mpfr_add1_m U W h a b c rnd d = .ok g) :
    ∃ c1 c2, add1_sum_carry W h a b c d = .ok c1 ∧
      add1_ulp_carry_m U W h a b c rnd d = .ok c2 ∧
      (g a).exp = (h b).exp + (if c1 ≠ 0 then 1 else 0) + (if c2 ≠ 0 then 1 else 0) := by
  obtain ⟨r, hk, e⟩ := mpfr_add1_m_inv hr
  subst e
  obtain ⟨c1, c2, h1, h2, e⟩ := add1_core_m_exp hk
  refine ⟨c1, c2, ?_, ?_, ?_⟩
  · unfold add1_sum_carry
    simp only [header_heap_mant, header_heap_prec]
    exact h1
  · unfold add1_ulp_carry_m
    simp only [header_heap_mant, header_heap_prec]
    exact h2
  · simp only [Heap.set, if_true]
    rw [add1_header_exp, e]
    ring

theorem far_val_m {U : Shifts} {W pa pb pc n bn s : Nat} {sh d : Int} {ap bp cp : List Nat}
    {nzc : List Nat → Except Fault Nat} {b : mpfr_t} {rnd : mp_rnd_t}
    {v : List Nat × Goto} (hn : (pa - 1) / W + 1 = n) (hbn : (pb - 1) / W + 1 = bn)
    (hs : n * W - pa = s) (hsh : sh = ((s : Nat) : Int)) (hna : pa ≤ n * W)
    (hnb : pb ≤ bn * W) (hal : ap.length = n) (hbl : bp.length = bn) (hba : AllLt W bp)
    (hpad : limbsVal W bp % 2 ^ (bn * W - pb) = 0)
    (hv : (if pb ≤ pa then far_copy W pa sh (n : Int) (bn : Int) ap bp cp pc nzc b rnd d
      else far_round_m U W sh (n : Int) (bn : Int) (((pc - 1) / W + 1 : Nat) : Int)
        ((pa : Int) - d) ap bp cp b rnd) = .ok v) :
    v.1.length = n ∧ AllLt W v.1 ∧
      limbsVal W v.1 = limbsVal W bp * 2 ^ pa / 2 ^ (W * bn) * 2 ^ s ∧
      (v.2 = Goto.add_one_ulp ∨ v.2 = Goto.end_of_add) := by
  subst hsh
  split at hv
  · rename_i hle
    unfold far_copy at hv
    simp only [bind_ok, pure, Except.pure, Except.ok.injEq] at hv
    obtain ⟨q, hq, g, hg, e⟩ := hv
    subst e
    have hbn' : bn ≤ n := by
      rw [← hn, ← hbn]
      exact limbs_mono hle
    obtain ⟨h1, h2, h3⟩ := far_copy_fill_val hbn' hal hbl hba hq
    refine ⟨h1, h2, ?_, far_copy_goto_cases hg⟩
    rw [h3, ← hs]
    exact trunc_pad hle hna hnb hbn' hpad
  · rename_i hle
    unfold far_round_m at hv
    simp only [bind_ok, pure, Except.pure, Except.ok.injEq] at hv
    obtain ⟨q, hq, t, ht, g, hg, e⟩ := hv
    subst e
    have hbn' : n ≤ bn := by
      rw [← hn, ← hbn]
      exact limbs_mono (by omega)
    obtain ⟨h1, h2, h3⟩ := far_round_copy_val hbn' hal hbl hba hq
    have hcut := @trunc_cut W pa n bn (limbsVal W bp) hna hbn'
    rw [hs] at hcut
    refine ⟨?_, ?_, ?_, far_round_goto_m_cases hg⟩
    · split at ht
      · exact (take_low_val h2 ht).2.2.1.trans h1
      · simp only [Except.ok.injEq] at ht
        rw [← ht]
        exact h1
    · split at ht
      · exact (take_low_val h2 ht).2.2.2.1
      · simp only [Except.ok.injEq] at ht
        rw [← ht]
        exact h2
    · split at ht
      · rw [(take_low_val h2 ht).2.2.2.2, h3, Int.toNat_ofNat, hcut]
      · rename_i hs0
        simp only [Except.ok.injEq] at ht
        have hs0' : s = 0 := by
          by_contra hne
          apply hs0
          exact_mod_cast hne
        rw [← ht]
        show limbsVal W q = _
        rw [h3, ← hcut, hs0', Nat.pow_zero, Nat.div_one, Nat.mul_one]

theorem add1_core_m_far {U : Shifts} {W pa pb pc : Nat} {ap bp cp : List Nat}
    {nzc : List Nat → Except Fault Nat} {b : mpfr_t} {rnd : mp_rnd_t} {d : Int}
    {r : List Nat × Int} (hW : 1 ≤ W) (hpa : 1 ≤ pa) (hpb : 1 ≤ pb)
    (hal : ap.length = (pa - 1) / W + 1) (hbl : bp.length = (pb - 1) / W + 1)
    (hba : AllLt W bp)
    (hpad : limbsVal W bp % 2 ^ (((pb - 1) / W + 1) * W - pb) = 0)
    (hd : (pa : Int) ≤ d)
    (hr : add1_core_m U W pa pb pc ap bp cp nzc b rnd d = .ok r) :
    (limbsVal W r.1
          = limbsVal W bp * 2 ^ pa / 2 ^ (W * ((pb - 1) / W + 1))
            * 2 ^ (((pa - 1) / W + 1) * W - pa) ∧ r.2 = 0) ∨
      (limbsVal W bp * 2 ^ pa / 2 ^ (W * ((pb - 1) / W + 1)) + 1 < 2 ^ pa ∧
        limbsVal W r.1
          = (limbsVal W bp * 2 ^ pa / 2 ^ (W * ((pb - 1) / W + 1)) + 1)
            * 2 ^ (((pa - 1) / W + 1) * W - pa) ∧ r.2 = 0) ∨
      (limbsVal W bp * 2 ^ pa / 2 ^ (W * ((pb - 1) / W + 1)) + 1 = 2 ^ pa ∧
        limbsVal W r.1 = 2 ^ (W * ((pa - 1) / W + 1) - 1) ∧ r.2 = 1) := by
  have hna := prec_le_limbs W pa hW hpa
  have hnb := prec_le_limbs W pb hW hpb
  obtain ⟨n, hn⟩ : ∃ n, (pa - 1) / W + 1 = n := ⟨_, rfl⟩
  obtain ⟨bn, hbn⟩ : ∃ bn, (pb - 1) / W + 1 = bn := ⟨_, rfl⟩
  have hn1 : 1 ≤ n := by
    rw [← hn]
    exact Nat.le_add_left 1 _
  obtain ⟨s, hs⟩ : ∃ s, n * W - pa = s := ⟨_, rfl⟩
  unfold add1_core_m at hr
  simp only [hn, hbn] at hr hal hbl hpad hna hnb ⊢
  simp only [hs]
  have hsh : ((n : Int) * (W : Int) - (pa : Int)) = ((s : Nat) : Int) := by
    rw [← hs]
    push_cast [Nat.cast_sub hna]
    rfl
  simp only [hsh] at hr
  simp only [bind_ok] at hr
  obtain ⟨u, hu, f, hf, e⟩ := hr
  simp only [pure, Except.pure, Except.ok.injEq] at e
  subst e
  have hdif : (pa : Int) - d ≤ 0 := by omega
  rw [if_pos hdif] at hu
  simp only [bind_ok, pure, Except.pure, Except.ok.injEq] at hu
  obtain ⟨v, hv, e⟩ := hu
  subst e
  obtain ⟨k1, k2, k3, k4⟩ := far_val_m hn hbn hs rfl hna hnb hal hbl hba hpad hv
  obtain ⟨T, hT⟩ : ∃ T, limbsVal W bp * 2 ^ pa / 2 ^ (W * bn) = T := ⟨_, rfl⟩
  rw [hT] at k3 ⊢
  have hz : limbsVal W v.1 % 2 ^ s = 0 := by
    rw [k3]
    exact Nat.mul_mod_left _ _
  obtain ⟨_, _, hfin⟩ := add1_finish_far hW hn1 k1 k2 hz k4 hf
  have hpow : 2 ^ (W * n) = 2 ^ pa * 2 ^ s := by
    rw [← pow_add]
    congr 1
    rw [Nat.mul_comm W n]
    omega
  have hp2 : 0 < 2 ^ s := Nat.two_pow_pos _
  rw [k3, hpow] at hfin
  have hT1 : T * 2 ^ s + 2 ^ s = (T + 1) * 2 ^ s := by ring
  rw [hT1] at hfin
  rcases hfin with ⟨h1, h2⟩ | ⟨h1, h2, h3⟩ | ⟨h1, h2, h3⟩
  · exact Or.inl ⟨h1, by rw [h2]; rfl⟩
  · exact Or.inr (Or.inl ⟨Nat.lt_of_mul_lt_mul_right h1, h2, by rw [h3]; rfl⟩)
  · exact Or.inr (Or.inr ⟨Nat.eq_of_mul_eq_mul_right hp2 h1, h2, by rw [h3]; rfl⟩)

/-! ## `mpfr_add` with every shift executed returns -/

theorem mpfr_add_m_same_sign (U : Shifts) (W : Nat) (X : Callees) (h : Heap) (a b c : Ptr)
    (rnd : mp_rnd_t) (hb : Regular W (h b)) (hc : Regular W (h c))
    (hs : (h b).neg = (h c).neg) :
    mpfr_add_m U W X h a b c rnd =
      if to_int ((h b).exp - (h c).exp) < 0 then
        (if to_int ((h b).exp - (h c).exp) = -2 ^ 31 then .error Fault.overflow
        else mpfr_add1_m U W h a c b rnd (-to_int ((h b).exp - (h c).exp)))
      else mpfr_add1_m U W h a b c rnd (to_int ((h b).exp - (h c).exp)) := by
  obtain ⟨nb, zb, hzb, hzb0⟩ := hb
  obtain ⟨nc, zc, hzc, hzc0⟩ := hc
  have hsg : ¬ MPFR_SIGN (h b) * MPFR_SIGN (h c) < 0 := by
    rw [sign_mul_neg]; simp [hs]
  simp only [mpfr_add_m, nb, nc, hzb, hzc, hzb0, hzc0, hsg, bind, Except.bind, neg_int,
    or_self, if_false, ne_eq, not_false_eq_true, Bool.false_eq_true]
  by_cases h1 : to_int ((h b).exp - (h c).exp) < 0
  · rw [if_pos h1, if_pos h1]
    by_cases h2 : to_int ((h b).exp - (h c).exp) = -2 ^ 31
    · rw [if_pos h2, if_pos h2]
    · rw [if_neg h2, if_neg h2]
  · rw [if_neg h1, if_neg h1]

/-- For a limb width of at least 2 bits, positive precisions of `a` and `c`, buffers of
exactly the significant limbs and `diff_exp >= 0`, the call
`mpfr_add1 (a, b, c, rnd_mode, diff_exp)` with every shift executed returns, whatever the
machine yields for the shifts whose count is out of range and whichever operands share
their storage with `a`. -/
theorem mpfr_add1_m_ret (U : Shifts) (W : Nat) (h : Heap) (a b c : Ptr) (rnd : mp_rnd_t)
    (d : Int) (hW : 2 ≤ W) (hd : 0 ≤ d) (ha : 1 ≤ (h a).prec) (hc : 1 ≤ (h c).prec)
    (la : ((h a).mant.length : Int) = nlimbs W (h a))
    (lb : ((h b).mant.length : Int) = nlimbs W (h b))
    (lc : ((h c).mant.length : Int) = nlimbs W (h c)) :
    ∃ g, mpfr_add1_m U W h a b c rnd d = .ok g := by
  unfold nlimbs at la lb lc
  have la1 : (h a).mant.length = ((h a).prec - 1) / W + 1 := by exact_mod_cast la
  have lb1 : (h b).mant.length = ((h b).prec - 1) / W + 1 := by exact_mod_cast lb
  have lc1 : (h c).mant.length = ((h c).prec - 1) / W + 1 := by exact_mod_cast lc
  rw [mpfr_add1_m_eq]
  obtain ⟨r, hr, -⟩ := add1_core_m_ret U W (h a).prec (h b).prec (h c).prec (h a).mant
    (h b).mant (h c).mant (nzc_of W (h.set a (add1_header h a b)) a c)
    ((h.set a (add1_header h a b)) b) rnd d hW ha hc hd la1 lb1 lc1 (by
      intro q hq
      unfold nzc_of NOTZERO
      by_cases hac : c = a
      · subst hac
        simp only [Heap.set, if_true, add1_header_prec]
        refine rd_fi (Int.ofNat_nonneg _) ?_
        rw [hq, la1]
        push_cast
        omega
      · simp only [Heap.set, hac, if_false]
        refine rd_fi (Int.ofNat_nonneg _) ?_
        rw [lc1]
        push_cast
        omega) (fun q => nofuel_nzc_of _ _ _ _ q) (fun q => nzc_of_ns _ _ _ _ q)
  rw [hr]
  exact ⟨_, rfl⟩

/-- For regular operands of the same sign whose buffers hold exactly their significant
limbs, a destination of positive precision with such a buffer, a limb width of at least 2
bits and a difference of exponents whose `int` value is not `INT_MIN` (its negation is
undefined), `mpfr_add` with every shift executed returns. -/
theorem mpfr_add_m_ret (U : Shifts) (W : Nat) (X : Callees) (h : Heap) (a b c : Ptr)
    (rnd : mp_rnd_t) (hW : 2 ≤ W) (hb : Regular W (h b)) (hc : Regular W (h c))
    (hs : (h b).neg = (h c).neg) (ha : 1 ≤ (h a).prec) (hpb : 1 ≤ (h b).prec)
    (hpc : 1 ≤ (h c).prec) (la : ((h a).mant.length : Int) = nlimbs W (h a))
    (lb : ((h b).mant.length : Int) = nlimbs W (h b))
    (lc : ((h c).mant.length : Int) = nlimbs W (h c))
    (hmin : to_int ((h b).exp - (h c).exp) ≠ -2 ^ 31) :
    ∃ g, mpfr_add_m U W X h a b c rnd = .ok g := by
  rw [mpfr_add_m_same_sign U W X h a b c rnd hb hc hs]
  by_cases h1 : to_int ((h b).exp - (h c).exp) < 0
  · rw [if_pos h1, if_neg hmin]
    exact mpfr_add1_m_ret U W h a c b rnd _ hW (by omega) ha hpb la lc lb
  · rw [if_neg h1]
    exact mpfr_add1_m_ret U W h a b c rnd _ hW (by omega) ha hpc la lb lc

/-! ## The two embeddings agree where no shift is undefined -/

theorem shl_ok_eq (U : Shifts) {W x : Nat} {n : Int} {v : Nat} (h : shl W x n = .ok v) :
    shl_m U W x n = v := by
  unfold shl at h
  unfold shl_m
  split at h
  · rename_i hc
    rw [if_pos hc]
    exact Except.ok.inj h
  · cases h

theorem shr_ok_eq (U : Shifts) {W x : Nat} {n : Int} {v : Nat} (h : shr W x n = .ok v) :
    shr_m U W x n = v := by
  unfold shr at h
  unfold shr_m
  split at h
  · rename_i hc
    rw [if_pos hc]
    exact Except.ok.inj h
  · cases h

theorem loop164_m_of (U : Shifts) (W : Nat) (bp cp : List Nat) (sh : Int) :
    ∀ (n : Nat) (s r : S164), loop164 W bp cp sh n s = .ok r →
      loop164_m U W bp cp sh n s = .ok r := by
  intro n
  induction n with
  | zero =>
    intro s r h
    unfold loop164 at h
    cases h
  | succ n ih =>
    intro s r h
    unfold loop164 at h
    unfold loop164_m
    split at h
    · rename_i hc
      rw [if_pos hc]
      simp only [bind_ok] at h
      obtain ⟨cc, hcc, t, ht, c2, hc2, u, hu, h⟩ := h
      simp only [bind_ok]
      refine ⟨cc, hcc, u, ?_, ?_⟩
      · rw [shl_ok_eq U hc2]
        split at hu
        · rename_i hcn
          rw [if_pos hcn]
          simp only [bind_ok, pure, Except.pure, Except.ok.injEq] at hu ⊢
          obtain ⟨c2old, h1, t2, h2, e⟩ := hu
          exact ⟨c2old, h1, by rw [shr_ok_eq U h2]; exact e⟩
        · rename_i hcn
          rw [if_neg hcn]
          exact hu
      · refine ih _ _ ?_
        split at ht
        · rename_i h0
          simp only [bind_ok, pure, Except.pure, Except.ok.injEq] at ht
          obtain ⟨hh, e1, e2⟩ := ht
          simp only [if_pos h0, shl_ok_eq U e1]
          rw [← e2] at h
          exact h
        · rename_i h0
          simp only [pure, Except.pure, Except.ok.injEq] at ht
          simp only [if_neg h0]
          rw [← ht] at h
          exact h
    · rename_i hc
      rw [if_neg hc]
      exact h

theorem loop164_m_mono (U : Shifts) (W : Nat) (bp cp : List Nat) (sh : Int) :
    ∀ (n : Nat) (s r : S164), loop164_m U W bp cp sh n s = .ok r →
      ∀ j, loop164_m U W bp cp sh (n + j) s = .ok r := by
  intro n
  induction n with
  | zero =>
    intro s r h
    unfold loop164_m at h
    cases h
  | succ n ih =>
    intro s r h j
    rw [Nat.add_right_comm]
    unfold loop164_m at h ⊢
    split at h
    · rename_i hc
      rw [if_pos hc]
      simp only [bind_ok] at h ⊢
      obtain ⟨cc, hcc, u, hu, h⟩ := h
      exact ⟨cc, hcc, u, hu, ih _ _ h j⟩
    · rename_i hc
      rw [if_neg hc]
      exact h

theorem far_round_goto_m_of (U : Shifts) {W : Nat} {sh k cn dif : Int} {cc : Nat}
    {ap bp cp : List Nat} {b : mpfr_t} {rnd : mp_rnd_t} {g : Goto}
    (h : far_round_goto W sh k cn dif cc ap bp cp b rnd = .ok g) :
    far_round_goto_m U W sh k cn dif cc ap bp cp b rnd = .ok g := by
  unfold far_round_goto at h
  unfold far_round_goto_m
  simp only [bind_ok] at h ⊢
  obtain ⟨s1, h1, s2, h2, s, h3, h⟩ := h
  have es2 : (if sh ≠ 0 ∧ rnd = GMP_RNDN then
        ((sub_1 W s1.2.2.1 (shl_m U W 1 (sh - 1))).1,
          s1.2.2.2 - (sub_1 W s1.2.2.1 (shl_m U W 1 (sh - 1))).2)
      else (s1.2.2.1, s1.2.2.2)) = s2 := by
    split at h2
    · rename_i hc
      rw [if_pos hc]
      simp only [bind_ok, pure, Except.pure, Except.ok.injEq] at h2
      obtain ⟨m, e1, e⟩ := h2
      rw [shl_ok_eq U e1]
      exact e
    · rename_i hc
      rw [if_neg hc]
      simp only [pure, Except.pure, Except.ok.injEq] at h2
      exact h2
  refine ⟨s1, ?_, s, ?_, ?_⟩
  · split at h1
    · rename_i hc
      rw [if_pos hc]
      simp only [bind_ok, pure, Except.pure, Except.ok.injEq] at h1 ⊢
      obtain ⟨c2old, e1, t, e2, e⟩ := h1
      exact ⟨c2old, e1, by rw [shr_ok_eq U e2]; exact e⟩
    · rename_i hc
      rw [if_neg hc]
      exact h1
  · simp only [es2]
    split at h3
    · rename_i hc
      rw [if_pos hc, Nat.add_right_comm]
      exact loop164_m_mono U W bp cp sh _ _ _ (loop164_m_of U W bp cp sh _ _ _ h3) _
    · rename_i hc
      rw [if_neg hc]
      exact h3
  · generalize (if s.cout = 0 then (if s.cc ≠ 0 then (1 : Int) else 0) else s.cout) = cout
      at h ⊢
    split at h
    · rename_i hc
      rw [if_pos hc]
      exact h
    · rename_i hc
      rw [if_neg hc]
      split at h
      · rename_i hd
        rw [if_pos hd]
        simp only [bind_ok] at h ⊢
        obtain ⟨a0, e1, m, e2, h⟩ := h
        refine ⟨a0, e1, ?_⟩
        rw [shl_ok_eq U e2]
        exact h
      · rename_i hd
        rw [if_neg hd]
        exact h

theorem far_round_m_of (U : Shifts) {W : Nat} {sh an bn cn dif : Int} {ap bp cp : List Nat}
    {b : mpfr_t} {rnd : mp_rnd_t} {r : List Nat × Goto}
    (h : far_round W sh an bn cn dif ap bp cp b rnd = .ok r) :
    far_round_m U W sh an bn cn dif ap bp cp b rnd = .ok r := by
  unfold far_round at h
  unfold far_round_m
  simp only [bind_ok] at h ⊢
  obtain ⟨q, e1, t, e2, g, e3, h⟩ := h
  exact ⟨q, e1, t, e2, g, far_round_goto_m_of U e3, h⟩

theorem loop296_m_of (U : Shifts) (W : Nat) (bp cp : List Nat) (dif : Int) :
    ∀ (n : Nat) (s r : S296), loop296 W bp cp dif n s = .ok r →
      loop296_m U W bp cp dif n s = .ok r := by
  intro n
  induction n with
  | zero =>
    intro s r h
    unfold loop296 at h
    cases h
  | succ n ih =>
    intro s r h
    unfold loop296 at h
    unfold loop296_m
    split at h
    · rename_i hc
      rw [if_pos hc]
      simp only [bind_ok] at h ⊢
      obtain ⟨x, e1, hi, e2, hi2, e3, lo, e4, lo2, e5, h⟩ := h
      refine ⟨x, e1, hi, e2, lo, e4, ?_⟩
      rw [shl_ok_eq U e3, shr_ok_eq U e5]
      exact ih _ _ h
    · rename_i hc
      rw [if_neg hc]
      exact h

theorem near_case1_goto_m_of (U : Shifts) {W : Nat} {sh an bn cn k dif : Int} {cc : Nat}
    {ap bp cp : List Nat} {rnd : mp_rnd_t} {r : Option Goto × Int}
    (h : near_case1_goto W sh an bn cn k dif cc ap bp cp rnd = .ok r) :
    near_case1_goto_m U W sh an bn cn k dif cc ap bp cp rnd = .ok r := by
  unfold near_case1_goto at h
  unfold near_case1_goto_m
  simp only [bind_ok] at h
  obtain ⟨s0, h0, h⟩ := h
  have es0 : (if rnd = GMP_RNDN then
        ((sub_1 W cc (shl_m U W 1 (sh - 1))).1, lneg W (sub_1 W cc (shl_m U W 1 (sh - 1))).2)
      else (cc, 0)) = s0 := by
    split at h0
    · rename_i hc
      rw [if_pos hc]
      simp only [bind_ok, pure, Except.pure, Except.ok.injEq] at h0
      obtain ⟨m, e1, e⟩ := h0
      rw [shl_ok_eq U e1]
      exact e
    · rename_i hc
      rw [if_neg hc]
      simp only [pure, Except.pure, Except.ok.injEq] at h0
      exact h0
  simp only [es0]
  split at h
  · rename_i hc
    rw [if_pos hc]
    exact h
  · rename_i hc
    rw [if_neg hc]
    simp only [bind_ok] at h ⊢
    obtain ⟨s, e1, s2, e2, h⟩ := h
    refine ⟨s, loop296_m_of U W bp cp dif _ _ _ e1, s2, ?_, ?_⟩
    · split at e2
      · rename_i hd
        rw [if_pos hd]
        simp only [bind_ok] at e2 ⊢
        obtain ⟨c0, f1, x, f2, t, f3, e2⟩ := e2
        refine ⟨c0, f1, t, ?_, e2⟩
        rw [shl_ok_eq U f2]
        exact f3
      · rename_i hd
        rw [if_neg hd]
        exact e2
    · split at h
      · rename_i h1
        rw [if_pos h1]
        exact h
      · rename_i h1
        rw [if_neg h1]
        split at h
        · rename_i h2
          rw [if_pos h2]
          exact h
        · rename_i h2
          rw [if_neg h2]
          split at h
          · rename_i h3
            rw [if_pos h3]
            simp only [bind_ok] at h ⊢
            obtain ⟨q, g1, h⟩ := h
            refine ⟨q, g1, ?_⟩
            split at h
            · rename_i h4
              rw [if_pos h4]
              split at h
              · rename_i h5
                rw [if_pos h5]
                exact h
              · rename_i h5
                rw [if_neg h5]
                split at h
                · rename_i h6
                  rw [if_pos h6]
                  simp only [bind_ok] at h ⊢
                  obtain ⟨a0, g2, m, g3, h⟩ := h
                  refine ⟨a0, g2, ?_⟩
                  rw [shl_ok_eq U g3]
                  exact h
                · rename_i h6
                  rw [if_neg h6]
                  exact h
            · rename_i h4
              rw [if_neg h4]
              exact h
          · rename_i h3
            rw [if_neg h3]
            exact h

theorem near_case1_m_of (U : Shifts) {W : Nat} {sh an bn cn k dif : Int} {ap bp cp : List Nat}
    {rnd : mp_rnd_t} {r : List Nat × Option Goto × Int}
    (h : near_case1 W sh an bn cn k dif ap bp cp rnd = .ok r) :
    near_case1_m U W sh an bn cn k dif ap bp cp rnd = .ok r := by
  unfold near_case1 at h
  unfold near_case1_m
  simp only [bind_ok] at h ⊢
  obtain ⟨t, e1, g, e2, h⟩ := h
  exact ⟨t, e1, g, near_case1_goto_m_of U e2, h⟩

theorem near_round_m_of (U : Shifts) {W : Nat} {sh an bn cn k dif : Int} {ap bp cp : List Nat}
    {overlap : Nat} {b : mpfr_t} {rnd : mp_rnd_t} {r : List Nat × Goto}
    (h : near_round W sh an bn cn k dif ap bp cp overlap b rnd = .ok r) :
    near_round_m U W sh an bn cn k dif ap bp cp overlap b rnd = .ok r := by
  unfold near_round at h
  unfold near_round_m
  split at h
  · rename_i hc
    rw [if_pos hc]
    match overlap with
    | 1 =>
      simp only [bind_ok] at h ⊢
      obtain ⟨t, e1, h⟩ := h
      exact ⟨t, near_case1_m_of U e1, h⟩
    | 3 => exact h
    | 0 => exact h
    | 2 => exact h
    | n + 4 => exact h
  · rename_i hc
    rw [if_neg hc]
    simp only [bind_ok] at h ⊢
    obtain ⟨a0, e1, m, e2, h⟩ := h
    refine ⟨a0, e1, ?_⟩
    rw [shl_ok_eq U e2]
    exact h

theorem near_m_of (U : Shifts) {W pa pb pc : Nat} {sh an bn cn dif d : Int}
    {ap bp cp : List Nat} {b : mpfr_t} {rnd : mp_rnd_t} {r : List Nat × Int × Nat × Goto}
    (h : near W pa pb pc sh an bn cn dif d ap bp cp b rnd = .ok r) :
    near_m U W pa pb pc sh an bn cn dif d ap bp cp b rnd = .ok r := by
  unfold near at h
  unfold near_m
  simp only [bind_ok] at h ⊢
  obtain ⟨s, e1, t, e2, u, e3, h⟩ := h
  exact ⟨s, e1, t, e2, u, near_round_m_of U e3, h⟩

theorem add1_core_m_of (U : Shifts) {W pa pb pc : Nat} {ap bp cp : List Nat}
    {nzc : List Nat → Except Fault Nat} {b : mpfr_t} {rnd : mp_rnd_t} {d : Int}
    {r : List Nat × Int} (h : add1_core W pa pb pc ap bp cp nzc b rnd d = .ok r) :
    add1_core_m U W pa pb pc ap bp cp nzc b rnd d = .ok r := by
  unfold add1_core at h
  unfold add1_core_m
  simp only [bind_ok] at h ⊢
  obtain ⟨u, e1, h⟩ := h
  refine ⟨u, ?_, h⟩
  split at e1
  · rename_i hc
    rw [if_pos hc]
    simp only [bind_ok] at e1 ⊢
    obtain ⟨v, f1, e1⟩ := e1
    refine ⟨v, ?_, e1⟩
    split at f1
    · rename_i hd
      rw [if_pos hd]
      exact f1
    · rename_i hd
      rw [if_neg hd]
      exact far_round_m_of U f1
  · rename_i hc
    rw [if_neg hc]
    exact near_m_of U e1

/-- Where the call `mpfr_add1 (a, b, c, rnd_mode, diff_exp)` returns without an operation
that is undefined in C, the same call with every shift executed returns the same heap,
whatever the machine yields for a shift whose count is out of range. -/
theorem mpfr_add1_m_of (U : Shifts) {W : Nat} {h g : Heap} {a b c : Ptr} {rnd : mp_rnd_t}
    {d : Int} (hr : mpfr_add1 W h a b c rnd d = .ok g) :
    mpfr_add1_m U W h a b c rnd d = .ok g := by
  unfold mpfr_add1 at hr
  simp only [bind_ok] at hr
  obtain ⟨r, e1, hr⟩ := hr
  rw [add1_limbs_eq_core] at e1
  unfold mpfr_add1_m
  simp only [bind_ok]
  refine ⟨r, ?_, hr⟩
  rw [add1_limbs_m_eq_core]
  exact add1_core_m_of U e1

/-- Where `mpfr_add (a, b, c, rnd_mode)` returns without an operation that is undefined in
C, the same call with every shift executed returns the same heap. -/
theorem mpfr_add_m_of (U : Shifts) {W : Nat} {X : Callees} {h g : Heap} {a b c : Ptr}
    {rnd : mp_rnd_t} (hr : mpfr_add W X h a b c rnd = .ok g) :
    mpfr_add_m U W X h a b c rnd = .ok g := by
  unfold mpfr_add at hr
  unfold mpfr_add_m
  split at hr
  · rename_i h1
    rw [if_pos h1]
    exact hr
  · rename_i h1
    rw [if_neg h1]
    simp only [bind_ok] at hr ⊢
    obtain ⟨zb, e1, hr⟩ := hr
    refine ⟨zb, e1, ?_⟩
    split at hr
    · rename_i h2
      rw [if_pos h2]
      exact hr
    · rename_i h2
      rw [if_neg h2]
      simp only [bind_ok] at hr ⊢
      obtain ⟨zc, e2, hr⟩ := hr
      refine ⟨zc, e2, ?_⟩
      split at hr
      · rename_i h3
        rw [if_pos h3]
        exact hr
      · rename_i h3
        rw [if_neg h3]
        split at hr
        · rename_i h4
          rw [if_pos h4]
          exact hr
        · rename_i h4
          rw [if_neg h4]
          split at hr
          · rename_i h5
            rw [if_pos h5]
            simp only [bind_ok] at hr ⊢
            obtain ⟨d, e3, hr⟩ := hr
            exact ⟨d, e3, mpfr_add1_m_of U hr⟩
          · rename_i h5
            rw [if_neg h5]
            exact mpfr_add1_m_of U hr

/-! ## Sign, normalisation, far regime and exponent: the run returns -/

/-- C9: for regular operands of the same sign, `mpfr_add` returns and the sign of `dst` is
then that common sign, whatever sign `dst` had before the call.  The run is that of a
machine that executes every shift: whatever limb the machine yields for a shift whose count
is outside `0 .. W-1`, the call returns a heap `g` with the sign of `b` and of `c` in `dst`;
and a run without an operation that is undefined in C returns this same `g`.  The operands
and `dst` have positive precisions and buffers of exactly their significant limbs, the limb
width is at least 2 bits, and the `int` difference of the exponents is not `INT_MIN` (line
417 negates it). -/
theorem C9_sign_of_sum (U : Shifts) (W : Nat) (X : Callees) (h : Heap) (a b c : Ptr)
    (rnd : mp_rnd_t) (hW : 2 ≤ W) (hb : Regular W (h b)) (hc : Regular W (h c))
    (hs : (h b).neg = (h c).neg) (ha : 1 ≤ (h a).prec) (hpb : 1 ≤ (h b).prec)
    (hpc : 1 ≤ (h c).prec) (la : ((h a).mant.length : Int) = nlimbs W (h a))
    (lb : ((h b).mant.length : Int) = nlimbs W (h b))
    (lc : ((h c).mant.length : Int) = nlimbs W (h c))
    (hmin : to_int ((h b).exp - (h c).exp) ≠ -2 ^ 31) :
    ∃ g, mpfr_add_m U W X h a b c rnd = .ok g
      ∧ MPFR_SIGN (g a) = MPFR_SIGN (h b) ∧ MPFR_SIGN (g a) = MPFR_SIGN (h c)
      ∧ ∀ g1, mpfr_add W X h a b c rnd = .ok g1 → g1 = g := by
  obtain ⟨g, hg⟩ := mpfr_add_m_ret U W X h a b c rnd hW hb hc hs ha hpb hpc la lb lc hmin
  have hn : (g a).neg = (h b).neg := by
    have hg2 := hg
    rw [mpfr_add_m_same_sign U W X h a b c rnd hb hc hs] at hg2
    by_cases hneg : to_int ((h b).exp - (h c).exp) < 0
    · rw [if_pos hneg, if_neg hmin] at hg2
      rw [mpfr_add1_m_neg hg2, hs]
    · rw [if_neg hneg] at hg2
      exact mpfr_add1_m_neg hg2
  refine ⟨g, hg, ?_, ?_, fun g1 h1 => ?_⟩
  · unfold MPFR_SIGN
    rw [hn]
  · unfold MPFR_SIGN
    rw [hn, hs]
  · have h2 := mpfr_add_m_of U h1
    rw [hg] at h2
    exact (Except.ok.inj h2).symm

/-- C9 (witness): `1/2 + 2 ^ (-65)` into a negative destination of precision 1, rounded
toward zero on 64-bit limbs.  Line 173 shifts by 64 bits; on a processor that takes the
count modulo 64 the call returns `+1/2`: the destination has the sign of the operands. -/
theorem C9_sign_of_sum_witness :
    mpfr_add 64 c7_X (heap3 c9_d c22_b c22_c) 0 1 2 GMP_RNDZ = .error Fault.shift
      ∧ mpfr_add_m x86_shifts 64 c7_X (heap3 c9_d c22_b c22_c) 0 1 2 GMP_RNDZ
        = .ok ((heap3 c9_d c22_b c22_c).set 0 c1_r)
      ∧ MPFR_SIGN c9_d = -1 ∧ MPFR_SIGN c22_b = 1 ∧ MPFR_SIGN c1_r = 1 := by
  have hr : mpfr_add_m x86_shifts 64 c7_X (heap3 c9_d c22_b c22_c) 0 1 2 GMP_RNDZ
      = .ok ((heap3 c9_d c22_b c22_c).set 0 c1_r) := rfl
  obtain ⟨g, hg, h1, -, -⟩ := C9_sign_of_sum x86_shifts 64 c7_X (heap3 c9_d c22_b c22_c) 0 1 2
    GMP_RNDZ (by decide) ⟨rfl, 9223372036854775808, rfl, by decide⟩
    ⟨rfl, 9223372036854775808, rfl, by decide⟩ rfl (by decide) (by decide) (by decide) rfl rfl
    rfl (by decide)
  rw [hr] at hg
  cases hg
  exact ⟨rfl, hr, rfl, rfl, h1⟩

/-- C10: for same-signed regular operands that satisfy the representation invariants and
every rounding mode, `mpfr_add` returns and the most significant bit of the top significand
limb of `dst` is then 1.  The run is that of a machine that executes every shift: whatever
limb the machine yields for a shift whose count is outside `0 .. W-1`, the call returns a
heap `g` in which `dst` is normalised; and a run without an operation that is undefined in C
returns this same `g`.  Here `dst` has a positive precision and a buffer of exactly its
significant limbs, which are `W`-bit words, the limb width is at least 2 bits, and the `int`
difference of the exponents is not `INT_MIN` (line 417 negates it). -/
theorem C10_normalised (U : Shifts) (W : Nat) (X : Callees) (h : Heap) (a b c : Ptr)
    (rnd : mp_rnd_t) (hW : 2 ≤ W) (hb : Regular W (h b)) (hc : Regular W (h c))
    (hs : (h b).neg = (h c).neg) (hpa : 1 ≤ (h a).prec)
    (la : ((h a).mant.length : Int) = nlimbs W (h a)) (ha : AllLt W (h a).mant)
    (wb : WF W (h b)) (wc : WF W (h c))
    (hmin : to_int ((h b).exp - (h c).exp) ≠ -2 ^ 31) :
    ∃ g, mpfr_add_m U W X h a b c rnd = .ok g
      ∧ TopSet W (nlimbs W (g a)) (g a).mant
      ∧ ∀ g1, mpfr_add W X h a b c rnd = .ok g1 → g1 = g := by
  obtain ⟨g, hg⟩ := mpfr_add_m_ret U W X h a b c rnd hW hb hc hs hpa wb.1 wc.1 la wb.2.1
    wc.2.1 hmin
  refine ⟨g, hg, ?_, fun g1 h1 => ?_⟩
  · have hg2 := hg
    rw [mpfr_add_m_same_sign U W X h a b c rnd hb hc hs] at hg2
    by_cases hneg : to_int ((h b).exp - (h c).exp) < 0
    · rw [if_pos hneg, if_neg hmin] at hg2
      exact (mpfr_add1_m_good (by omega) hpa ha wc.2.2.1 wc.2.2.2.1 wb.2.2.1 hg2).2
    · rw [if_neg hneg] at hg2
      exact (mpfr_add1_m_good (by omega) hpa ha wb.2.2.1 wb.2.2.2.1 wc.2.2.1 hg2).2
  · have h2 := mpfr_add_m_of U h1
    rw [hg] at h2
    exact (Except.ok.inj h2).symm

/-- C10 (witness): `1/2 + 2 ^ (-65)` into a destination of precision 1, rounded toward plus
infinity on 64-bit limbs.  Line 173 shifts by 64 bits; on a processor that takes the count
modulo 64 the call returns `1 = 0.1b * 2 ^ 1`, whose only limb has its top bit set. -/
theorem C10_normalised_witness :
    mpfr_add 64 c7_X (heap3 c1_a c22_b c22_c) 0 1 2 GMP_RNDU = .error Fault.shift
      ∧ mpfr_add_m x86_shifts 64 c7_X (heap3 c1_a c22_b c22_c) 0 1 2 GMP_RNDU
        = .ok ((heap3 c1_a c22_b c22_c).set 0 c7_b)
      ∧ TopSet 64 (nlimbs 64 c7_b) c7_b.mant := by
  have hr : mpfr_add_m x86_shifts 64 c7_X (heap3 c1_a c22_b c22_c) 0 1 2 GMP_RNDU
      = .ok ((heap3 c1_a c22_b c22_c).set 0 c7_b) := rfl
  obtain ⟨g, hg, h1, -⟩ := C10_normalised x86_shifts 64 c7_X (heap3 c1_a c22_b c22_c) 0 1 2
    GMP_RNDU (by decide) ⟨rfl, 9223372036854775808, rfl, by decide⟩
    ⟨rfl, 9223372036854775808, rfl, by decide⟩ rfl (by decide) rfl (allLt_one (by decide))
    ⟨by decide, rfl, allLt_one (by decide),
      ⟨9223372036854775808, rfl, by decide, by decide⟩, by decide⟩
    ⟨by decide, rfl, allLt_one (by decide),
      ⟨9223372036854775808, rfl, by decide, by decide⟩, by decide⟩ (by decide)
  rw [hr] at hg
  cases hg
  exact ⟨rfl, hr, h1⟩

/-- C19: when `diff_exp >= PREC(dst)`, `mpfr_add1 (dst, b, c, rnd_mode, diff_exp)` returns
and the significand it stores is the significand of `b` truncated (or padded with zeros) to
`PREC(dst)` bits with exponent `EXP(b)`, or that value plus one unit in the last place with
exponent `EXP(b)`, or, when the increment carries out, `0.100...0` with exponent
`EXP(b) + 1`; nothing else of `c` reaches `dst`.  The run is that of a machine that executes
every shift: whatever limb the machine yields for a shift whose count is outside
`0 .. W-1`, the call returns a heap `g` with `dst` as stated; and a run without an operation
that is undefined in C returns this same `g`.  Here `b` satisfies the representation
invariants, `dst` and `c` have positive precisions and buffers of exactly their significant
limbs, and the limb width is at least 2 bits. -/
theorem C19_no_overlap (U : Shifts) (W : Nat) (h : Heap) (a b c : Ptr) (rnd : mp_rnd_t)
    (d : Int) (hW : 2 ≤ W) (hpa : 0 < (h a).prec)
    (hla : ((h a).mant.length : Int) = nlimbs W (h a)) (wb : WF W (h b))
    (hpc : 0 < (h c).prec) (hlc : ((h c).mant.length : Int) = nlimbs W (h c))
    (hd : ((h a).prec : Int) ≤ d) :
    ∃ g, mpfr_add1_m U W h a b c rnd d = .ok g
      ∧ (g a).prec = (h a).prec
      ∧ ((limbsVal W (g a).mant
              = truncSig W (h b) (h a).prec * 2 ^ ((nlimbs W (h a)).toNat * W - (h a).prec) ∧
            (g a).exp = (h b).exp) ∨
          (truncSig W (h b) (h a).prec + 1 < 2 ^ (h a).prec ∧
            limbsVal W (g a).mant
              = (truncSig W (h b) (h a).prec + 1)
                * 2 ^ ((nlimbs W (h a)).toNat * W - (h a).prec) ∧
            (g a).exp = (h b).exp) ∨
          (truncSig W (h b) (h a).prec + 1 = 2 ^ (h a).prec ∧
            limbsVal W (g a).mant = 2 ^ (W * (nlimbs W (h a)).toNat - 1) ∧
            (g a).exp = (h b).exp + 1))
      ∧ ∀ g1, mpfr_add1 W h a b c rnd d = .ok g1 → g1 = g := by
  have hW1 : 1 ≤ W := by omega
  obtain ⟨g, hg⟩ := mpfr_add1_m_ret U W h a b c rnd d hW (by omega) hpa hpc hla wb.2.1 hlc
  refine ⟨g, hg, ?_⟩
  rw [← and_assoc]
  refine ⟨?_, fun g1 h1 => ?_⟩
  · obtain ⟨r, hr, e⟩ := mpfr_add1_m_inv hg
    subst e
    have hpad := wf_pad wb
    obtain ⟨wb1, wb2, wb3, _, _⟩ := wb
    have hbl := wf_length wb2
    have hal := wf_length hla
    have hcore := add1_core_m_far hW1 hpa wb1 hal hbl wb3 hpad hd hr
    rw [← truncSig_eq (h a).prec hbl] at hcore
    simp only [Heap.set, if_true, add1_header_exp, add1_header_prec]
    unfold nlimbs
    rw [Int.toNat_ofNat]
    refine ⟨trivial, ?_⟩
    rcases hcore with ⟨h1, h2⟩ | ⟨h1, h2, h3⟩ | ⟨h1, h2, h3⟩
    · exact Or.inl ⟨h1, by rw [h2]; ring⟩
    · exact Or.inr (Or.inl ⟨h1, h2, by rw [h3]; ring⟩)
    · exact Or.inr (Or.inr ⟨h1, h2, by rw [h3]⟩)
  · have h2 := mpfr_add1_m_of U h1
    rw [hg] at h2
    exact (Except.ok.inj h2).symm

/-- C19 (witness): `1/2 + 2 ^ (-65)` with a destination of one bit and `diff_exp = 64`,
rounded toward plus infinity on 64-bit limbs.  Line 173 shifts by 64 bits; on a processor
that takes the count modulo 64 the call returns: `b` truncated to one bit is `0.1b`, the
increment carries out and `dst` is `0.1b` with exponent `EXP(b) + 1`. -/
theorem C19_no_overlap_witness :
    mpfr_add1 64 (heap3 c1_a c22_b c22_c) 0 1 2 GMP_RNDU 64 = .error Fault.shift
      ∧ mpfr_add1_m x86_shifts 64 (heap3 c1_a c22_b c22_c) 0 1 2 GMP_RNDU 64
        = .ok ((heap3 c1_a c22_b c22_c).set 0 c7_b)
      ∧ truncSig 64 c22_b 1 + 1 = 2 ^ 1 ∧ limbsVal 64 c7_b.mant = 2 ^ (64 * 1 - 1)
      ∧ c7_b.exp = c22_b.exp + 1 ∧ c7_b.prec = c1_a.prec := by
  have hr : mpfr_add1_m x86_shifts 64 (heap3 c1_a c22_b c22_c) 0 1 2 GMP_RNDU 64
      = .ok ((heap3 c1_a c22_b c22_c).set 0 c7_b) := rfl
  obtain ⟨g, hg, h1, -, -⟩ := C19_no_overlap x86_shifts 64 (heap3 c1_a c22_b c22_c) 0 1 2
    GMP_RNDU 64 (by decide) (by decide) rfl
    ⟨by decide, rfl, allLt_one (by decide),
      ⟨9223372036854775808, rfl, by decide, by decide⟩, by decide⟩
    (by decide) rfl (by decide)
  rw [hr] at hg
  cases hg
  exact ⟨rfl, hr, by decide, by decide, rfl, h1⟩

/-- C20: for `diff_exp >= 0`, `mpfr_add1 (dst, b, c, rnd_mode, diff_exp)` returns and the
exponent of `dst` is then `EXP(b)` plus one when the limb addition of lines 250 and 253
returns a carry, plus one when the `mpn_add_1` of the one-ulp increment of line 371 returns
a carry: it is `EXP(b)`, `EXP(b) + 1` or `EXP(b) + 2`, never below `EXP(b)`.  When the limbs
of the three buffers are `W`-bit words and `b` is normalised, the top bit of `dst` is set
after the call.  The run is that of a machine that executes every shift: whatever limb the
machine yields for a shift whose count is outside `0 .. W-1`, the call returns a heap `g`
with this exponent, and a run without an operation that is undefined in C returns this same
`g`.  Here `dst` and `c` have positive precisions, the three buffers hold exactly the
significant limbs, and the limb width is at least 2 bits. -/
theorem C20_exponent (U : Shifts) (W : Nat) (h : Heap) (a b c : Ptr) (rnd : mp_rnd_t)
    (d : Int) (hW : 2 ≤ W) (hd : 0 ≤ d) (hpa : 1 ≤ (h a).prec) (hpc : 1 ≤ (h c).prec)
    (la : ((h a).mant.length : Int) = nlimbs W (h a))
    (lb : ((h b).mant.length : Int) = nlimbs W (h b))
    (lc : ((h c).mant.length : Int) = nlimbs W (h c)) :
    ∃ g c1 c2, mpfr_add1_m U W h a b c rnd d = .ok g
      ∧ add1_sum_carry W h a b c d = .ok c1
      ∧ add1_ulp_carry_m U W h a b c rnd d = .ok c2
      ∧ (g a).exp = (h b).exp + (if c1 ≠ 0 then 1 else 0) + (if c2 ≠ 0 then 1 else 0)
      ∧ (h b).exp ≤ (g a).exp ∧ (g a).exp ≤ (h b).exp + 2
      ∧ (AllLt W (h a).mant → AllLt W (h b).mant → AllLt W (h c).mant →
          TopSet W (nlimbs W (h b)) (h b).mant → TopSet W (nlimbs W (g a)) (g a).mant)
      ∧ ∀ g1, mpfr_add1 W h a b c rnd d = .ok g1 → g1 = g := by
  obtain ⟨g, hg⟩ := mpfr_add1_m_ret U W h a b c rnd d hW hd hpa hpc la lb lc
  obtain ⟨c1, c2, h1, h2, e⟩ := mpfr_add1_m_exp hg
  refine ⟨g, c1, c2, hg, h1, h2, e, ?_, ?_,
    fun ha hb hc hbt => (mpfr_add1_m_good (by omega) hpa ha hb hbt hc hg).2, fun g1 h3 => ?_⟩
  · rw [e]
    split <;> split <;> omega
  · rw [e]
    split <;> split <;> omega
  · have h4 := mpfr_add1_m_of U h3
    rw [hg] at h4
    exact (Except.ok.inj h4).symm

/-- C20 (witness): `1/2 + 2 ^ (-65)` with a destination of one bit and `diff_exp = 64`,
rounded toward plus infinity on 64-bit limbs.  Line 173 shifts by 64 bits; on a processor
that takes the count modulo 64 the call returns: no limb addition takes place, the one-ulp
increment carries, and the exponent goes from 0 to 1. -/
theorem C20_exponent_witness :
    mpfr_add1 64 (heap3 c1_a c22_b c22_c) 0 1 2 GMP_RNDU 64 = .error Fault.shift
      ∧ res (mpfr_add1_m x86_shifts 64 (heap3 c1_a c22_b c22_c) 0 1 2 GMP_RNDU 64) 0
        = some c7_b
      ∧ add1_sum_carry 64 (heap3 c1_a c22_b c22_c) 0 1 2 64 = .ok 0
      ∧ add1_ulp_carry_m x86_shifts 64 (heap3 c1_a c22_b c22_c) 0 1 2 GMP_RNDU 64 = .ok 1
      ∧ c7_b.exp = c22_b.exp + 1 ∧ c22_b.exp ≤ c7_b.exp := by
  have hr : mpfr_add1_m x86_shifts 64 (heap3 c1_a c22_b c22_c) 0 1 2 GMP_RNDU 64
      = .ok ((heap3 c1_a c22_b c22_c).set 0 c7_b) := rfl
  obtain ⟨g, c1, c2, hg, -, -, -, h1, -⟩ := C20_exponent x86_shifts 64
    (heap3 c1_a c22_b c22_c) 0 1 2 GMP_RNDU 64 (by decide) (by decide) (by decide) (by decide)
    rfl rfl rfl
  rw [hr] at hg
  cases hg
  exact ⟨rfl, rfl, rfl, rfl, rfl, h1⟩

end Mpfr
